import Mathlib


/-!
# ADS_set: a B+-tree set (`src/ADS_set.h`)

Shallow embedding of the class template `ADS_set<Key, N>`.

* Keys are natural numbers compared with `<` (the source uses `std::less<Key>`).
* The order parameter `N` of the template is the first argument of every function.
* The node graph lives in an explicit heap `Nat → Node`; a `Node*` is an
  `Option Nat` (`none` is `nullptr`), `new Node()` takes the next unused
  address.  `delete` is not modelled: a released node simply becomes unreachable.
* `keys` has `2N+1` slots and `children` has `2N+2` slots, as allocated by
  `Node::Node()`.  Every read or write of a slot checks the index against that
  capacity; an access outside it is undefined behaviour in the source and the
  error `Err.oob` here.  Slots at or above the live counter keep their stale
  contents, exactly as in the source.  A never-written key slot reads as `0`
  and a never-written child slot as `nullptr`.
* The counters are `unsigned`.  Where the source subtracts from a counter that
  may be zero (`keys_counter-1` in the searches) the wrapped value is modelled;
  elsewhere a wrapped index is far outside the capacity and is reported as
  `Err.oob`.  `N` is taken small enough that `2N+2` fits an `int`.
* Recursion that climbs or descends the node graph carries a fuel argument;
  the public operations supply more fuel than there are allocated nodes.
-/

/-- Ways in which a run of the source leaves defined, terminating behaviour. -/
inductive Err where
  | null
  | oob
  | root_index
  | not_child
  | diverge
  | fuel
  deriving DecidableEq, Repr

/-- The class `Node`: the two fixed-capacity arrays, the two navigation
pointers, the leaf flag and the two live counters. -/
structure Node where
  keys : Nat → Nat
  children : Nat → Option Nat
  parent : Option Nat
  next : Option Nat
  leaf : Bool
  keys_counter : Nat
  children_counter : Nat

/-- The class `ADS_set`: `root`, `depth`, `element_counter`, together with the
heap that holds the nodes and the allocation counter. -/
structure ADS_set where
  heap : Nat → Node
  nxt : Nat
  root : Nat
  depth : Int
  element_counter : Nat

/-- The class `Iterator`: a leaf and an index into its key array. -/
structure Iterator where
  current : Nat
  index : Nat
  deriving DecidableEq, Repr

/-- Dereferencing a `Node*`. -/
def deref : Option Nat → Except Err Nat
  | some p => .ok p
  | none => .error .null

/-- The array `a` with slot `i` overwritten by `v`. -/
def upd {α : Type} (a : Nat → α) (i : Nat) (v : α) : Nat → α :=
  fun j => if j = i then v else a j

/-- Read slot `i` of an array allocated with `cap` slots. -/
def arr_get {α : Type} (cap : Nat) (a : Nat → α) (i : Nat) : Except Err α :=
  if i < cap then .ok (a i) else .error .oob

/-- Write slot `i` of an array allocated with `cap` slots. -/
def arr_set {α : Type} (cap : Nat) (a : Nat → α) (i : Nat) (v : α) : Except Err (Nat → α) :=
  if i < cap then .ok (upd a i v) else .error .oob

/-- The loop `for (i = hi; i > hi - n; --i) a[i] = a[i-1];`. -/
def arr_shift_right {α : Type} (cap : Nat) : Nat → Nat → (Nat → α) → Except Err (Nat → α)
  | 0, _, a => .ok a
  | n + 1, i, a => do
    let v ← arr_get cap a (i - 1)
    let a1 ← arr_set cap a i v
    arr_shift_right cap n (i - 1) a1

/-- The loop `for (i = lo; i < lo + n; ++i) a[i] = a[i+1];`. -/
def arr_shift_left {α : Type} (cap : Nat) : Nat → Nat → (Nat → α) → Except Err (Nat → α)
  | 0, _, a => .ok a
  | n + 1, i, a => do
    let v ← arr_get cap a (i + 1)
    let a1 ← arr_set cap a i v
    arr_shift_left cap n (i + 1) a1

/-- The loop `for (i = hi; i > hi - n; --i) a[i+off] = a[i];`. -/
def arr_shift_by {α : Type} (cap : Nat) (off : Nat) : Nat → Nat → (Nat → α) → Except Err (Nat → α)
  | 0, _, a => .ok a
  | n + 1, i, a => do
    let v ← arr_get cap a i
    let a1 ← arr_set cap a (i + off) v
    arr_shift_by cap off n (i - 1) a1

/-- The loop `for (i = lo; i < lo + n; ++i) a[i] = v;`. -/
def arr_fill {α : Type} (cap : Nat) (v : α) : Nat → Nat → (Nat → α) → Except Err (Nat → α)
  | 0, _, a => .ok a
  | n + 1, i, a => do
    let a1 ← arr_set cap a i v
    arr_fill cap v n (i + 1) a1

/-- The loop `for (i = lo; i < lo + n; ++i) if (a[i] == v) ...`; the first such `i`. -/
def arr_index {α : Type} [DecidableEq α] (cap : Nat) (a : Nat → α) (v : α) :
    Nat → Nat → Except Err (Option Nat)
  | 0, _ => .ok none
  | n + 1, i => do
    let c ← arr_get cap a i
    if c = v then .ok (some i) else arr_index cap a v n (i + 1)

namespace Node

/-- `Node::Node()`. -/
def fresh : Node :=
  { keys := fun _ => 0, children := fun _ => none, parent := none, next := none,
    leaf := true, keys_counter := 0, children_counter := 0 }

/-- Read `keys[i]`; the array has `2N+1` slots. -/
def getKey (N : Nat) (nd : Node) (i : Nat) : Except Err Nat :=
  arr_get (2 * N + 1) nd.keys i

/-- Write `keys[i] = v`. -/
def setKey (N : Nat) (nd : Node) (i : Nat) (v : Nat) : Except Err Node := do
  let a ← arr_set (2 * N + 1) nd.keys i v
  .ok { nd with keys := a }

/-- Read `children[i]`; the array has `2N+2` slots. -/
def getChild (N : Nat) (nd : Node) (i : Nat) : Except Err (Option Nat) :=
  arr_get (2 * N + 2) nd.children i

/-- Write `children[i] = c`. -/
def setChild (N : Nat) (nd : Node) (i : Nat) (c : Option Nat) : Except Err Node := do
  let a ← arr_set (2 * N + 2) nd.children i c
  .ok { nd with children := a }

/-- The loop `for (i = hi; i > hi - n; --i) keys[i] = keys[i-1];`. -/
def shift_right_loop (N : Nat) (n i : Nat) (nd : Node) : Except Err Node := do
  let a ← arr_shift_right (2 * N + 1) n i nd.keys
  .ok { nd with keys := a }

/-- The loop `for (i = lo; i < lo + n; ++i) keys[i] = keys[i+1];`. -/
def shift_left_loop (N : Nat) (n i : Nat) (nd : Node) : Except Err Node := do
  let a ← arr_shift_left (2 * N + 1) n i nd.keys
  .ok { nd with keys := a }

/-- The loop `for (i = hi; i > hi - n; --i) keys[i+off] = keys[i];`. -/
def shift_keys_by_loop (N : Nat) (off : Nat) (n i : Nat) (nd : Node) : Except Err Node := do
  let a ← arr_shift_by (2 * N + 1) off n i nd.keys
  .ok { nd with keys := a }

/-- The loop `for (i = hi; i > hi - n; --i) children[i+1] = children[i];`. -/
def shift_children_right_loop (N : Nat) (n i : Nat) (nd : Node) : Except Err Node := do
  let a ← arr_shift_by (2 * N + 2) 1 n i nd.children
  .ok { nd with children := a }

/-- The loop `for (i = hi; i > hi - n; --i) children[i+off] = children[i];`. -/
def shift_children_by_loop (N : Nat) (off : Nat) (n i : Nat) (nd : Node) : Except Err Node := do
  let a ← arr_shift_by (2 * N + 2) off n i nd.children
  .ok { nd with children := a }

/-- The loop `for (i = lo; i < lo + n; ++i) children[i] = children[i+1];`. -/
def shift_children_left_loop (N : Nat) (n i : Nat) (nd : Node) : Except Err Node := do
  let a ← arr_shift_left (2 * N + 2) n i nd.children
  .ok { nd with children := a }

/-- The loop `for (i = lo; i < lo + n; ++i) children[i] = nullptr;`. -/
def clear_children_loop (N : Nat) (n i : Nat) (nd : Node) : Except Err Node := do
  let a ← arr_fill (2 * N + 2) none n i nd.children
  .ok { nd with children := a }

/-- The loop `for (i = 0; i < children_counter; ++i) if (children[i] == target) ...`;
the first such `i`. -/
def child_index_loop (N : Nat) (nd : Node) (target : Nat) (n i : Nat) :
    Except Err (Option Nat) :=
  arr_index (2 * N + 2) nd.children (some target) n i

/-- The binary-search loop of `Node::add`, entered with `start`, `end`:
`middle = start + (end - start) / 2`, left once
`key < keys[middle+1] && keys[middle] < key`, otherwise `end = middle` or
`start = middle`.  The keys do not change during the loop, so an iteration
that leaves `start` and `end` as they were repeats forever (`Err.diverge`);
every other iteration shrinks `end - start`, which the first argument bounds. -/
def add_search (N : Nat) (nd : Node) (key : Nat) : Nat → Nat → Nat → Except Err Nat
  | 0, _, _ => .error .fuel
  | f + 1, start, end_ => do
    let middle := start + (end_ - start) / 2
    let k1 ← nd.getKey N (middle + 1)
    let k0 ← nd.getKey N middle
    if key < k1 ∧ k0 < key then .ok middle
    else if key < k0 then
      if middle = end_ then .error .diverge else add_search N nd key f start middle
    else
      if middle = start then .error .diverge else add_search N nd key f middle end_

/-- `Node::add`: sorted insertion into the key array; returns the node and the
index of the new key. -/
def add (N : Nat) (nd : Node) (key : Nat) : Except Err (Node × Nat) :=
  if nd.keys_counter = 0 then do
    let nd1 ← nd.setKey N nd.keys_counter key
    .ok ({ nd1 with keys_counter := nd.keys_counter + 1 }, nd.keys_counter)
  else do
    let k0 ← nd.getKey N 0
    if key < k0 then do
      let nd1 ← shift_right_loop N nd.keys_counter nd.keys_counter nd
      let nd2 ← nd1.setKey N 0 key
      .ok ({ nd2 with keys_counter := nd.keys_counter + 1 }, 0)
    else do
      let kl ← nd.getKey N (nd.keys_counter - 1)
      if kl < key then do
        let nd1 ← nd.setKey N nd.keys_counter key
        .ok ({ nd1 with keys_counter := nd.keys_counter + 1 }, nd.keys_counter)
      else do
        let middle ← add_search N nd key (nd.keys_counter + 1) 0 (nd.keys_counter - 1)
        let nd1 ← shift_right_loop N (nd.keys_counter - middle) nd.keys_counter nd
        let nd2 ← nd1.setKey N (middle + 1) key
        .ok ({ nd2 with keys_counter := nd.keys_counter + 1 }, middle + 1)

end Node

namespace ADS_set

/-- Store a node at an address. -/
def set (s : ADS_set) (p : Nat) (nd : Node) : ADS_set :=
  { s with heap := upd s.heap p nd }

/-- The expression `new Node()`: a fresh node at the next unused address. -/
def alloc (s : ADS_set) : ADS_set × Nat :=
  ({ s with heap := upd s.heap s.nxt Node.fresh, nxt := s.nxt + 1 }, s.nxt)

/-- `ADS_set::ADS_set()`: one empty leaf as root, depth 0, no elements. -/
def init : ADS_set :=
  { heap := fun _ => Node.fresh, nxt := 1, root := 0, depth := 0, element_counter := 0 }

/-- Fuel handed to the recursions over the node graph. -/
def fuel (s : ADS_set) : Nat := s.nxt + 1

/-- `ADS_set::size`. -/
def size (s : ADS_set) : Nat := s.element_counter

/-- `ADS_set::empty`. -/
def empty (s : ADS_set) : Bool := s.element_counter == 0

/-- `ADS_set::has_max_num_of_keys`. -/
def has_max_num_of_keys (N : Nat) (s : ADS_set) (current : Nat) : Bool :=
  (s.heap current).keys_counter == 2 * N + 1

/-- `ADS_set::is_root`. -/
def is_root (s : ADS_set) (current : Nat) : Bool := current == s.root

/-- `ADS_set::shift_left`: `for (i = start; i < end; ++i) keys[i] = keys[i+1]`. -/
def shift_left (N : Nat) (start end_ : Nat) (s : ADS_set) (current : Nat) :
    Except Err ADS_set := do
  let nd ← Node.shift_left_loop N (end_ - start) start (s.heap current)
  .ok (s.set current nd)

/-- `ADS_set::shift_right`: `for (i = end; i > start; --i) keys[i] = keys[i-1]`. -/
def shift_right (N : Nat) (start end_ : Nat) (s : ADS_set) (current : Nat) :
    Except Err ADS_set := do
  let nd ← Node.shift_right_loop N (end_ - start) end_ (s.heap current)
  .ok (s.set current nd)

/-- `ADS_set::equal`. -/
def equal (key other : Nat) : Bool := !(decide (key < other)) && !(decide (other < key))

/-- The separator scan shared by the two descents:
`for (i = 0; i < keys_counter; ++i) if (key < keys[i]) ...`; the first such `i`. -/
def route_scan (N : Nat) (nd : Node) (key : Nat) : Nat → Nat → Except Err (Option Nat)
  | 0, _ => .ok none
  | n + 1, i => do
    let ki ← nd.getKey N i
    if key < ki then .ok (some i) else route_scan N nd key n (i + 1)

/-- `ADS_set::find_leaf`. -/
def find_leaf (N : Nat) : Nat → ADS_set → Nat → Nat → Except Err Nat
  | 0, _, _, _ => .error .fuel
  | f + 1, s, current, key =>
    let nd := s.heap current
    if !nd.leaf then do
      match ← route_scan N nd key nd.keys_counter 0 with
      | some i => do
        let c ← nd.getChild N i
        let p ← deref c
        find_leaf N f s p key
      | none =>
        if nd.children_counter = 0 then .error .oob
        else do
          let c ← nd.getChild N (nd.children_counter - 1)
          let p ← deref c
          find_leaf N f s p key
    else .ok current

/-- `ADS_set::find_leaf_with_twin`; the twin is threaded through as a pair
(node pointer, index). -/
def find_leaf_with_twin (N : Nat) :
    Nat → ADS_set → Nat → Nat → Option Nat × Nat → Except Err (Nat × (Option Nat × Nat))
  | 0, _, _, _, _ => .error .fuel
  | f + 1, s, current, key, twin =>
    let nd := s.heap current
    if !nd.leaf then do
      match ← route_scan N nd key nd.keys_counter 0 with
      | some i => do
        let ki ← nd.getKey N i
        let twin1 := if equal key ki then (some current, i - 1) else twin
        let c ← nd.getChild N i
        let p ← deref c
        find_leaf_with_twin N f s p key twin1
      | none =>
        if nd.children_counter < 2 then .error .oob
        else do
          let kl ← nd.getKey N (nd.children_counter - 2)
          let twin1 := if equal key kl then (some current, nd.children_counter - 2) else twin
          let c ← nd.getChild N (nd.children_counter - 1)
          let p ← deref c
          find_leaf_with_twin N f s p key twin1
    else .ok (current, twin)

/-- The comparison `middle > current->keys_counter-1` of an `int` with an
`unsigned`: both sides are taken as `unsigned`, so with `keys_counter == 0` the
right side is the largest value and nothing exceeds it, and a negative
`middle` exceeds every other right side. -/
def above_last (middle : Int) (keys_counter : Nat) : Bool :=
  if keys_counter = 0 then false
  else if middle < 0 then true
  else decide (middle > (keys_counter : Int) - 1)

/-- `ADS_set::binary_search_in_node`; each call narrows `[start, end]`, which
the first argument bounds. -/
def binary_search_in_node (N : Nat) (nd : Node) (key : Nat) :
    Nat → Int → Int → Except Err (Int × Bool)
  | 0, _, _ => .error .fuel
  | f + 1, start, end_ =>
    if start ≤ end_ then
      let middle := Int.tdiv (start + end_) 2
      if above_last middle nd.keys_counter then .ok (-1, false)
      else if middle < 0 then .error .oob
      else do
        let km ← nd.getKey N middle.toNat
        if key < km then binary_search_in_node N nd key f start (middle - 1)
        else if km < key then binary_search_in_node N nd key f (middle + 1) end_
        else .ok (middle, true)
    else .ok (-1, false)

/-- Fuel for `binary_search_in_node` called on `[start, end]`. -/
def search_fuel (start end_ : Int) : Nat := (end_ - start).toNat + 2

/-- `ADS_set::end`: the rightmost leaf with its key count. -/
def end_loop (N : Nat) : Nat → ADS_set → Nat → Except Err Nat
  | 0, _, _ => .error .fuel
  | f + 1, s, current =>
    let nd := s.heap current
    if !nd.leaf then
      if nd.children_counter = 0 then .error .oob
      else do
        let c ← nd.getChild N (nd.children_counter - 1)
        let p ← deref c
        end_loop N f s p
    else .ok current

/-- `ADS_set::end`. -/
def end_ (N : Nat) (s : ADS_set) : Except Err Iterator := do
  let current ← end_loop N s.fuel s s.root
  .ok ⟨current, (s.heap current).keys_counter⟩

/-- The descent of `ADS_set::begin`: follow `children[0]` down to a leaf. -/
def begin_loop (N : Nat) : Nat → ADS_set → Nat → Except Err Nat
  | 0, _, _ => .error .fuel
  | f + 1, s, current =>
    let nd := s.heap current
    if !nd.leaf then do
      let c ← nd.getChild N 0
      let p ← deref c
      begin_loop N f s p
    else .ok current

/-- `ADS_set::begin`. -/
def begin_ (N : Nat) (s : ADS_set) : Except Err Iterator := do
  let current ← begin_loop N s.fuel s s.root
  .ok ⟨current, 0⟩

/-- `ADS_set::count`. -/
def count (N : Nat) (s : ADS_set) (key : Nat) : Except Err Nat := do
  let current ← find_leaf N s.fuel s s.root key
  let nd := s.heap current
  let e : Int := (nd.keys_counter : Int) - 1
  let pair ← binary_search_in_node N nd key (search_fuel 0 e) 0 e
  if pair.2 then .ok 1 else .ok 0

/-- `ADS_set::find`. -/
def find (N : Nat) (s : ADS_set) (key : Nat) : Except Err Iterator := do
  let current ← find_leaf N s.fuel s s.root key
  let nd := s.heap current
  let e : Int := (nd.keys_counter : Int) - 1
  let pair ← binary_search_in_node N nd key (search_fuel 0 e) 0 e
  if pair.2 then .ok ⟨current, pair.1.toNat⟩ else end_ N s

/-- `Iterator::operator*`. -/
def deref_it (N : Nat) (s : ADS_set) (it : Iterator) : Except Err Nat :=
  (s.heap it.current).getKey N it.index

/-- `Iterator::operator++`. -/
def incr (s : ADS_set) (it : Iterator) : Iterator :=
  let nd := s.heap it.current
  if it.index + 1 < nd.keys_counter ∨ nd.next = none then ⟨it.current, it.index + 1⟩
  else
    match nd.next with
    | some p => ⟨p, 0⟩
    | none => ⟨it.current, it.index + 1⟩

/-- The loop `for (it = first; it != last; ++it) out.push_back(*it)`. -/
def walk (N : Nat) (s : ADS_set) (last : Iterator) : Nat → Iterator → Except Err (List Nat)
  | 0, _ => .error .fuel
  | f + 1, it =>
    if it = last then .ok []
    else do
      let k ← deref_it N s it
      let rest ← walk N s last f (incr s it)
      .ok (k :: rest)

/-- The keys met on the way from `begin()` to `end()`. -/
def traverse (N : Nat) (s : ADS_set) : Except Err (List Nat) := do
  let b ← begin_ N s
  let e ← end_ N s
  walk N s e (s.nxt * (2 * N + 2) + 1) b

/-- The loop `for (; i < left->keys_counter; ++i) right->add(left->keys[i]);`
run for `n` iterations from `i`. -/
def move_keys_loop (N : Nat) : Nat → Nat → ADS_set → Nat → Nat → Except Err ADS_set
  | 0, _, s, _, _ => .ok s
  | n + 1, i, s, left, right => do
    let k ← (s.heap left).getKey N i
    let (nd, _) ← (s.heap right).add N k
    move_keys_loop N n (i + 1) (s.set right nd) left right

/-- The loop of the splits that hands children over to the new right node:
`left->children[i]->set_parent(right);
right->children[right->children_counter++] = left->children[i];
left->children[i] = nullptr;` run for `n` iterations from `i`. -/
def move_children_loop (N : Nat) : Nat → Nat → ADS_set → Nat → Nat → Except Err ADS_set
  | 0, _, s, _, _ => .ok s
  | n + 1, i, s, left, right => do
    let c ← (s.heap left).getChild N i
    let cp ← deref c
    let s := s.set cp { s.heap cp with parent := some right }
    let c1 ← (s.heap left).getChild N i
    let r := s.heap right
    let r1 ← r.setChild N r.children_counter c1
    let s := s.set right { r1 with children_counter := r.children_counter + 1 }
    let l1 ← (s.heap left).setChild N i none
    let s := s.set left l1
    move_children_loop N n (i + 1) s left right

/-- `ADS_set::root_split`. -/
def root_split (N : Nat) (s : ADS_set) : Except Err ADS_set := do
  let s := { s with depth := s.depth + 1 }
  let middle ← (s.heap s.root).getKey N N
  let root_was_leaf := (s.heap s.root).leaf
  let left := s.root
  let (s, new_root) := s.alloc
  let (s, right) := s.alloc
  let s := { s with root := new_root }
  let s := s.set right { s.heap right with parent := some s.root }
  let s := s.set left { s.heap left with parent := some s.root }
  let r := s.heap s.root
  let r1 ← r.setChild N r.children_counter (some left)
  let s := s.set s.root { r1 with children_counter := r.children_counter + 1 }
  let r := s.heap s.root
  let r1 ← r.setChild N r.children_counter (some right)
  let s := s.set s.root { r1 with children_counter := r.children_counter + 1 }
  let (r2, _) ← (s.heap s.root).add N middle
  let s := s.set s.root r2
  let first := N + (if root_was_leaf then 0 else 1)
  let s ← move_keys_loop N ((s.heap left).keys_counter - first) first s left right
  let s ←
    if !root_was_leaf then do
      let s ← move_children_loop N ((s.heap left).children_counter - (N + 1)) (N + 1) s left right
      .ok (s.set left
        { s.heap left with children_counter := (s.heap left).children_counter - (N + 1) })
    else .ok s
  let s := s.set left { s.heap left with keys_counter := (s.heap left).keys_counter - (N + 1) }
  let s := s.set s.root { s.heap s.root with leaf := false }
  let s := s.set s.root { s.heap s.root with next := none }
  if root_was_leaf then
    let s := s.set left { s.heap left with leaf := true }
    let s := s.set left { s.heap left with next := some right }
    .ok (s.set right { s.heap right with next := none })
  else
    .ok (s.set right { s.heap right with leaf := false })

/-- The statements of `internal_split` before its final test of the parent; returns the
state and the local variable `parent`. -/
def internal_split_body (N : Nat) (s : ADS_set) (left : Nat) : Except Err (ADS_set × Nat) := do
  let middle ← (s.heap left).getKey N N
  let parent := (s.heap left).parent
  let (s, right) := s.alloc
  let s := s.set right { s.heap right with parent := parent }
  let s := s.set right { s.heap right with leaf := false }
  let pp ← deref parent
  let (pn, _) ← (s.heap pp).add N middle
  let s := s.set pp pn
  let found ← Node.child_index_loop N (s.heap pp) left (s.heap pp).children_counter 0
  let counter := found.getD 0
  let pcc := (s.heap pp).children_counter
  let s ←
    if pcc = 0 then .error .oob
    else if counter < pcc - 1 then do
      let pn ← Node.shift_children_right_loop N (pcc - 1 - counter) (pcc - 1) (s.heap pp)
      let pn ← pn.setChild N (counter + 1) (some right)
      .ok (s.set pp { pn with children_counter := pcc + 1 })
    else do
      let pn ← (s.heap pp).setChild N pcc (some right)
      .ok (s.set pp { pn with children_counter := pcc + 1 })
  let s ← move_keys_loop N ((s.heap left).keys_counter - (N + 1)) (N + 1) s left right
  let s := s.set left { s.heap left with keys_counter := (s.heap left).keys_counter - (N + 1) }
  let s ← move_children_loop N ((s.heap left).children_counter - (N + 1)) (N + 1) s left right
  .ok (s.set left { s.heap left with children_counter := N + 1 }, pp)

/-- `ADS_set::internal_split`: the body, then
`if (has_max_num_of_keys(parent)) { if (is_root(parent)) root_split(); else internal_split(parent); }`;
the recursive call climbs to the parent. -/
def internal_split (N : Nat) : Nat → ADS_set → Nat → Except Err ADS_set
  | 0, _, _ => .error .fuel
  | f + 1, s, left => do
    let (s, pp) ← internal_split_body N s left
    if has_max_num_of_keys N s pp then
      if is_root s pp then root_split N s else internal_split N f s pp
    else .ok s

/-- The statements of `external_split` before its final test of the parent. -/
def external_split_body (N : Nat) (s : ADS_set) (left : Nat) : Except Err ADS_set := do
  let middle ← (s.heap left).getKey N N
  let parent := (s.heap left).parent
  let (s, right) := s.alloc
  let s := s.set right { s.heap right with parent := parent }
  let s :=
    if (s.heap left).next ≠ none then s.set right { s.heap right with next := (s.heap left).next }
    else s
  let s := s.set left { s.heap left with next := some right }
  let pp ← deref parent
  let (pn, _) ← (s.heap pp).add N middle
  let s := s.set pp pn
  let found ← Node.child_index_loop N (s.heap pp) left (s.heap pp).children_counter 0
  let counter := found.getD 0
  let pcc := (s.heap pp).children_counter
  let s ←
    if pcc = 0 ∨ counter < pcc - 1 then do
      let pn ← Node.shift_children_right_loop N (pcc - counter) (pcc - 1) (s.heap pp)
      let s := s.set pp pn
      let c ← (s.heap pp).getChild N counter
      let cp ← deref c
      let s := s.set cp { s.heap cp with next := some right }
      let c2 ← (s.heap pp).getChild N (counter + 2)
      let s := s.set right { s.heap right with next := c2 }
      let pn ← (s.heap pp).setChild N (counter + 1) (some right)
      .ok (s.set pp { pn with children_counter := pcc + 1 })
    else do
      let c ← (s.heap pp).getChild N (pcc - 1)
      let cp ← deref c
      let s := s.set cp { s.heap cp with next := some right }
      let pn ← (s.heap pp).setChild N pcc (some right)
      .ok (s.set pp { pn with children_counter := pcc + 1 })
  let s ← move_keys_loop N ((s.heap left).keys_counter - N) N s left right
  .ok (s.set left { s.heap left with keys_counter := (s.heap left).keys_counter - (N + 1) })

/-- `ADS_set::external_split`: the body, then
`if (left->parent->keys_counter == 2*N + 1) { if (left->parent->parent == nullptr) root_split(); else internal_split(left->parent); }`;
`f` is the fuel for the internal splits above. -/
def external_split (N : Nat) (f : Nat) (s : ADS_set) (left : Nat) : Except Err ADS_set := do
  let s ← external_split_body N s left
  let lp ← deref (s.heap left).parent
  if (s.heap lp).keys_counter == 2 * N + 1 then
    match (s.heap lp).parent with
    | none => root_split N s
    | some _ => internal_split N f s lp
  else .ok s

/-- `ADS_set::insert_private_internal`. -/
def insert_private_internal (N : Nat) (s : ADS_set) (current : Nat) (key : Nat) :
    Except Err (ADS_set × Nat) := do
  let f := s.fuel
  let (nd, counter) ← (s.heap current).add N key
  let s := s.set current nd
  let s := { s with element_counter := s.element_counter + 1 }
  if has_max_num_of_keys N s current then
    if is_root s current then do
      let s ← root_split N s
      .ok (s, counter)
    else do
      let s ← external_split N f s current
      .ok (s, counter)
  else .ok (s, counter)

/-- `ADS_set::insert_private_external`. -/
def insert_private_external (N : Nat) (s : ADS_set) (key : Nat) :
    Except Err (ADS_set × (Iterator × Bool)) := do
  let current ← find_leaf N s.fuel s s.root key
  let nd := s.heap current
  let e : Int := (nd.keys_counter : Int) - 1
  let pair ← binary_search_in_node N nd key (search_fuel 0 e) 0 e
  if !pair.2 then do
    let (s1, x) ← insert_private_internal N s current key
    .ok (s1, (⟨current, x⟩, !pair.2))
  else .ok (s, (⟨current, pair.1.toNat⟩, !pair.2))

/-- `ADS_set::insert(const key_type&)`. -/
def insert (N : Nat) (s : ADS_set) (key : Nat) : Except Err (ADS_set × (Iterator × Bool)) :=
  insert_private_external N s key

/-- `ADS_set::index_from_parent`; its two `throw`s are `Err.root_index` and
`Err.not_child`. -/
def index_from_parent (N : Nat) (s : ADS_set) (current : Nat) : Except Err Nat :=
  if current = s.root then .error .root_index
  else do
    let pp ← deref (s.heap current).parent
    let found ← Node.child_index_loop N (s.heap pp) current (s.heap pp).children_counter 0
    match found with
    | some i => .ok i
    | none => .error .not_child

/-- `ADS_set::delete_element`. -/
def delete_element (N : Nat) (s : ADS_set) (current : Nat) (index : Nat) :
    Except Err ADS_set := do
  let kc := (s.heap current).keys_counter
  if kc = 0 then .error .oob
  else do
    let s ← shift_left N index (kc - 1) s current
    let s := s.set current { s.heap current with keys_counter := (s.heap current).keys_counter - 1 }
    .ok { s with element_counter := s.element_counter - 1 }

/-- The statement `if (twin.first) twin.first->keys[twin.second] = current->keys[0];`. -/
def fix_twin (N : Nat) (s : ADS_set) (current : Nat) (twin : Option Nat × Nat) :
    Except Err ADS_set :=
  match twin.1 with
  | some t => do
    let v ← (s.heap current).getKey N 0
    let t1 ← (s.heap t).setKey N twin.2 v
    .ok (s.set t t1)
  | none => .ok s

/-- The loop `for (; i < src->keys_counter; ++i) dst->keys[dst->keys_counter++] = src->keys[i];`
run for `n` iterations from `i`. -/
def append_keys_loop (N : Nat) : Nat → Nat → ADS_set → Nat → Nat → Except Err ADS_set
  | 0, _, s, _, _ => .ok s
  | n + 1, i, s, src, dst => do
    let v ← (s.heap src).getKey N i
    let d := s.heap dst
    let d1 ← d.setKey N d.keys_counter v
    append_keys_loop N n (i + 1) (s.set dst { d1 with keys_counter := d.keys_counter + 1 }) src dst

/-- The loop `for (; i < n; ++i) dst->keys[i] = src->keys[i];`. -/
def copy_keys_loop (N : Nat) : Nat → Nat → ADS_set → Nat → Nat → Except Err ADS_set
  | 0, _, s, _, _ => .ok s
  | n + 1, i, s, src, dst => do
    let v ← (s.heap src).getKey N i
    let d1 ← (s.heap dst).setKey N i v
    copy_keys_loop N n (i + 1) (s.set dst d1) src dst

/-- The loop
`dst->children[dst->children_counter++] = src->children[i]; src->children[i]->parent = dst;`
run for `n` iterations from `i`. -/
def adopt_append_loop (N : Nat) : Nat → Nat → ADS_set → Nat → Nat → Except Err ADS_set
  | 0, _, s, _, _ => .ok s
  | n + 1, i, s, src, dst => do
    let c ← (s.heap src).getChild N i
    let d := s.heap dst
    let d1 ← d.setChild N d.children_counter c
    let s := s.set dst { d1 with children_counter := d.children_counter + 1 }
    let c1 ← (s.heap src).getChild N i
    let cp ← deref c1
    let s := s.set cp { s.heap cp with parent := some dst }
    adopt_append_loop N n (i + 1) s src dst

/-- The loop
`dst->children[i] = src->children[i]; src->children[i]->parent = dst; src->children[i] = nullptr;`
run for `n` iterations from `i`. -/
def adopt_front_loop (N : Nat) : Nat → Nat → ADS_set → Nat → Nat → Except Err ADS_set
  | 0, _, s, _, _ => .ok s
  | n + 1, i, s, src, dst => do
    let c ← (s.heap src).getChild N i
    let d1 ← (s.heap dst).setChild N i c
    let s := s.set dst d1
    let c1 ← (s.heap src).getChild N i
    let cp ← deref c1
    let s := s.set cp { s.heap cp with parent := some dst }
    let s1 ← (s.heap src).setChild N i none
    let s := s.set src s1
    adopt_front_loop N n (i + 1) s src dst

/-- The loop `left->children[i] = nullptr; right->children[i] = nullptr;`
run for `n` iterations from `i`. -/
def clear_both_loop (N : Nat) : Nat → Nat → ADS_set → Nat → Nat → Except Err ADS_set
  | 0, _, s, _, _ => .ok s
  | n + 1, i, s, left, right => do
    let l1 ← (s.heap left).setChild N i none
    let s := s.set left l1
    let r1 ← (s.heap right).setChild N i none
    let s := s.set right r1
    clear_both_loop N n (i + 1) s left right

/-- `ADS_set::steal_from_right`. -/
def steal_from_right (N : Nat) (s : ADS_set) (current : Nat) (index : Nat)
    (twin : Option Nat × Nat) : Except Err (ADS_set × Bool) := do
  let pp ← deref (s.heap current).parent
  let rc ← (s.heap pp).getChild N (index + 1)
  let right ← deref rc
  let common_size := (s.heap current).keys_counter + (s.heap right).keys_counter
  if common_size < 2 * N then .ok (s, false)
  else if (s.heap current).leaf then do
    let v ← (s.heap right).getKey N 0
    let c := s.heap current
    let c1 ← c.setKey N c.keys_counter v
    let s := s.set current { c1 with keys_counter := c.keys_counter + 1 }
    if (s.heap right).keys_counter = 0 then .error .oob
    else do
      let s ← shift_left N 0 ((s.heap right).keys_counter - 1) s right
      let s := s.set right { s.heap right with keys_counter := (s.heap right).keys_counter - 1 }
      let ir ← index_from_parent N s right
      if ir = 0 then .error .oob
      else do
        let v ← (s.heap right).getKey N 0
        let cp ← deref (s.heap current).parent
        let p1 ← (s.heap cp).setKey N (ir - 1) v
        let s := s.set cp p1
        let s ← fix_twin N s current twin
        .ok (s, true)
  else do
    let ic ← index_from_parent N s current
    let v ← (s.heap pp).getKey N ic
    let c := s.heap current
    let c1 ← c.setKey N c.keys_counter v
    let s := s.set current { c1 with keys_counter := c.keys_counter + 1 }
    let rc0 ← (s.heap right).getChild N 0
    let c := s.heap current
    let c1 ← c.setChild N c.children_counter rc0
    let s := s.set current { c1 with children_counter := c.children_counter + 1 }
    let rc1 ← (s.heap right).getChild N 0
    let q ← deref rc1
    let s := s.set q { s.heap q with parent := some current }
    let r1 ← Node.shift_children_left_loop N (s.heap right).children_counter 0 (s.heap right)
    let s := s.set right r1
    let s := s.set right
      { s.heap right with children_counter := (s.heap right).children_counter - 1 }
    let ir ← index_from_parent N s right
    if ir = 0 then .error .oob
    else do
      let v ← (s.heap right).getKey N 0
      let p1 ← (s.heap pp).setKey N (ir - 1) v
      let s := s.set pp p1
      if (s.heap right).keys_counter = 0 then .error .oob
      else do
        let s ← shift_left N 0 ((s.heap right).keys_counter - 1) s right
        let s := s.set right { s.heap right with keys_counter := (s.heap right).keys_counter - 1 }
        .ok (s, true)

/-- `ADS_set::steal_from_left`. -/
def steal_from_left (N : Nat) (s : ADS_set) (current : Nat) (index : Nat)
    (twin : Option Nat × Nat) : Except Err (ADS_set × Bool) := do
  let pp ← deref (s.heap current).parent
  if index = 0 then .error .oob
  else do
    let lc ← (s.heap pp).getChild N (index - 1)
    let left ← deref lc
    let common_size := (s.heap current).keys_counter + (s.heap left).keys_counter
    if common_size < 2 * N then .ok (s, false)
    else do
      let s ← shift_right N 0 (s.heap current).keys_counter s current
      let s := s.set current
        { s.heap current with keys_counter := (s.heap current).keys_counter + 1 }
      if (s.heap current).leaf then
        if (s.heap left).keys_counter = 0 then .error .oob
        else do
          let v ← (s.heap left).getKey N ((s.heap left).keys_counter - 1)
          let c1 ← (s.heap current).setKey N 0 v
          let s := s.set current c1
          let s := s.set left { s.heap left with keys_counter := (s.heap left).keys_counter - 1 }
          let ic ← index_from_parent N s current
          if ic = 0 then .error .oob
          else do
            let v ← (s.heap current).getKey N 0
            let cp ← deref (s.heap current).parent
            let p1 ← (s.heap cp).setKey N (ic - 1) v
            let s := s.set cp p1
            let s ← fix_twin N s current twin
            .ok (s, true)
      else do
        let v ← (s.heap pp).getKey N (index - 1)
        let c1 ← (s.heap current).setKey N 0 v
        let s := s.set current c1
        if (s.heap left).keys_counter = 0 then .error .oob
        else do
          let v ← (s.heap left).getKey N ((s.heap left).keys_counter - 1)
          let p1 ← (s.heap pp).setKey N (index - 1) v
          let s := s.set pp p1
          let s := s.set left { s.heap left with keys_counter := (s.heap left).keys_counter - 1 }
          let ccc := (s.heap current).children_counter
          let c1 ← Node.shift_children_right_loop N ccc (ccc - 1) (s.heap current)
          let s := s.set current c1
          let s := s.set current
            { s.heap current with children_counter := (s.heap current).children_counter + 1 }
          if (s.heap left).children_counter = 0 then .error .oob
          else do
            let lcl ← (s.heap left).getChild N ((s.heap left).children_counter - 1)
            let c1 ← (s.heap current).setChild N 0 lcl
            let s := s.set current c1
            let lcl1 ← (s.heap left).getChild N ((s.heap left).children_counter - 1)
            let q ← deref lcl1
            let s := s.set q { s.heap q with parent := some current }
            let s := s.set left
              { s.heap left with children_counter := (s.heap left).children_counter - 1 }
            .ok (s, true)

/-- `ADS_set::merge_root`. -/
def merge_root (N : Nat) (s : ADS_set) : Except Err ADS_set := do
  let parent := s.root
  let lc ← (s.heap parent).getChild N 0
  let rc ← (s.heap parent).getChild N 1
  let right ← deref rc
  let s :=
    if (s.heap right).leaf then
      s.set parent { s.heap parent with keys_counter := (s.heap parent).keys_counter - 1 }
    else s
  let left ← deref lc
  let pkc := (s.heap parent).keys_counter
  let p1 ← Node.shift_keys_by_loop N (s.heap left).keys_counter (pkc + 1) pkc (s.heap parent)
  let s := s.set parent p1
  let s := s.set parent
    { s.heap parent with keys_counter := (s.heap parent).keys_counter + (s.heap left).keys_counter }
  let s ← copy_keys_loop N (s.heap left).keys_counter 0 s left parent
  let s ← append_keys_loop N (s.heap right).keys_counter 0 s right parent
  let p1 ← Node.clear_children_loop N (2 * N + 1) 0 (s.heap parent)
  let s := s.set parent p1
  let s := s.set parent { s.heap parent with children_counter := 0 }
  let s ←
    if !(s.heap left).leaf then do
      let s ← adopt_append_loop N (s.heap left).children_counter 0 s left parent
      let s ← adopt_append_loop N (s.heap right).children_counter 0 s right parent
      clear_both_loop N (2 * N + 1) 0 s left right
    else .ok s
  let s :=
    if (s.heap s.root).children_counter = 0 then s.set s.root { s.heap s.root with leaf := true }
    else s
  .ok { s with depth := s.depth - 1 }

/-- The statements of `merge_with_left` between the root test and the final test of
the parent: the node `current` is emptied into its left sibling `left`. -/
def merge_with_left_body (N : Nat) (s : ADS_set) (current index key : Nat)
    (twin : Option Nat × Nat) (parent : Nat) (lc : Option Nat) : Except Err ADS_set :=
  if (s.heap current).leaf then do
    let left ← deref lc
    let s ← append_keys_loop N (s.heap current).keys_counter 0 s current left
    let s := s.set current { s.heap current with keys_counter := 0 }
    let s := s.set left { s.heap left with next := (s.heap current).next }
    let s ←
      match twin.1 with
      | some t => do
        let twin_key ← (s.heap t).getKey N twin.2
        if !(decide (key < twin_key)) && !(decide (twin_key < key)) then do
          let v ← (s.heap current).getKey N 0
          let t1 ← (s.heap t).setKey N twin.2 v
          .ok (s.set t t1)
        else .ok s
      | none => .ok s
    let s ← shift_left N (index - 1) (s.heap parent).keys_counter s parent
    let s := s.set parent
      { s.heap parent with keys_counter := (s.heap parent).keys_counter - 1 }
    let pcc := (s.heap parent).children_counter
    let p1 ← Node.shift_children_left_loop N (pcc - index) index (s.heap parent)
    let s := s.set parent p1
    .ok (s.set parent
      { s.heap parent with children_counter := (s.heap parent).children_counter - 1 })
  else do
    let left ← deref lc
    let v ← (s.heap parent).getKey N (index - 1)
    let l := s.heap left
    let l1 ← l.setKey N l.keys_counter v
    let s := s.set left { l1 with keys_counter := l.keys_counter + 1 }
    if (s.heap parent).keys_counter = 0 then .error .oob
    else do
      let s ← shift_left N (index - 1) ((s.heap parent).keys_counter - 1) s parent
      let s := s.set parent
        { s.heap parent with keys_counter := (s.heap parent).keys_counter - 1 }
      let s ← append_keys_loop N (s.heap current).keys_counter 0 s current left
      let s := s.set current { s.heap current with keys_counter := 0 }
      let s ← adopt_append_loop N (s.heap current).children_counter 0 s current left
      let pcc := (s.heap parent).children_counter
      let p1 ← Node.shift_children_left_loop N (pcc - index) index (s.heap parent)
      let s := s.set parent p1
      let s := s.set parent
        { s.heap parent with children_counter := (s.heap parent).children_counter - 1 }
      let c1 ← Node.clear_children_loop N (2 * N + 1) 0 (s.heap current)
      let s := s.set current c1
      .ok (s.set current { s.heap current with children_counter := 0 })

/-- The statements of `merge_with_right` between the root test and the final test of
the parent: the right sibling is emptied into `current` (leaves) or `current` into the
right sibling (internal nodes); returns the state and the local `twin`. -/
def merge_with_right_body (N : Nat) (s : ADS_set) (current index : Nat)
    (twin : Option Nat × Nat) (parent : Nat) (rc : Option Nat) :
    Except Err (ADS_set × (Option Nat × Nat)) :=
  if (s.heap current).leaf then do
    let right ← deref rc
    let s ← append_keys_loop N (s.heap right).keys_counter 0 s right current
    let s := s.set right { s.heap right with keys_counter := 0 }
    let s :=
      if (s.heap current).leaf then
        s.set current { s.heap current with next := (s.heap right).next }
      else s
    if (s.heap parent).keys_counter = 0 then .error .oob
    else do
      let s ← shift_left N index ((s.heap parent).keys_counter - 1) s parent
      let s := s.set parent
        { s.heap parent with keys_counter := (s.heap parent).keys_counter - 1 }
      let ir ← index_from_parent N s right
      let pcc := (s.heap parent).children_counter
      let p1 ← Node.shift_children_left_loop N (pcc - ir) ir (s.heap parent)
      let s := s.set parent p1
      let s := s.set parent
        { s.heap parent with children_counter := (s.heap parent).children_counter - 1 }
      let s ← fix_twin N s current twin
      .ok (s, ((none : Option Nat), twin.2))
  else do
    let right ← deref rc
    let common := (s.heap current).keys_counter + 1
    let rkc := (s.heap right).keys_counter
    let r1 ← Node.shift_keys_by_loop N common rkc (rkc - 1) (s.heap right)
    let s := s.set right r1
    let s := s.set right
      { s.heap right with keys_counter := (s.heap right).keys_counter + common }
    let rcc := (s.heap right).children_counter
    let r1 ← Node.shift_children_by_loop N common rcc (rcc - 1) (s.heap right)
    let s := s.set right r1
    let s := s.set right
      { s.heap right with children_counter := (s.heap right).children_counter + common }
    let s ← copy_keys_loop N (s.heap current).keys_counter 0 s current right
    let v ← (s.heap parent).getKey N 0
    let r1 ← (s.heap right).setKey N (s.heap current).keys_counter v
    let s := s.set right r1
    if (s.heap parent).keys_counter = 0 then .error .oob
    else do
      let s ← shift_left N 0 ((s.heap parent).keys_counter - 1) s parent
      let s := s.set parent
        { s.heap parent with keys_counter := (s.heap parent).keys_counter - 1 }
      let s := s.set current { s.heap current with keys_counter := 0 }
      let p1 ← Node.shift_children_left_loop N (s.heap parent).children_counter 0
        (s.heap parent)
      let s := s.set parent p1
      let s := s.set parent
        { s.heap parent with children_counter := (s.heap parent).children_counter - 1 }
      let s ← adopt_front_loop N (s.heap current).children_counter 0 s current right
      .ok (s, twin)

/-- The three-way policy that the source writes out in `erase` and at the end of both
merges, for the node `node` that is child number `index` of its parent: a first child
steals from the right or merges with the right; a last child steals from the left or
merges with the left; any other child steals from the left, else from the right, else
merges with the left.  `mwl` and `mwr` are `merge_with_left` and `merge_with_right`. -/
def rebalance (N : Nat)
    (mwl mwr : ADS_set → Nat → Nat → Nat → Option Nat × Nat → Except Err (ADS_set × Bool))
    (s : ADS_set) (node index key : Nat) (twin : Option Nat × Nat) : Except Err ADS_set := do
  let pp ← deref (s.heap node).parent
  let max_index := (s.heap pp).children_counter - 1
  if index = 0 then do
    let (s, b) ← steal_from_right N s node index twin
    if !b then do
      let (s, _) ← mwr s node index key twin
      .ok s
    else .ok s
  else if index = max_index then do
    let (s, b) ← steal_from_left N s node index twin
    if !b then do
      let (s, _) ← mwl s node index key twin
      .ok s
    else .ok s
  else do
    let (s, b) ← steal_from_left N s node index twin
    if !b then do
      let (s, b) ← steal_from_right N s node index twin
      if !b then do
        let (s, _) ← mwl s node index key twin
        .ok s
      else .ok s
    else .ok s

/-- The final test of both merges:
`if (parent->keys_counter < N && parent != root) { ...three-way policy on parent...; return true; } return false;`. -/
def merge_tail (N : Nat)
    (mwl mwr : ADS_set → Nat → Nat → Nat → Option Nat × Nat → Except Err (ADS_set × Bool))
    (s : ADS_set) (parent key : Nat) (twin : Option Nat × Nat) : Except Err (ADS_set × Bool) :=
  if (s.heap parent).keys_counter < N ∧ parent ≠ s.root then do
    let index_parent ← index_from_parent N s parent
    let s ← rebalance N mwl mwr s parent index_parent key twin
    .ok (s, true)
  else .ok (s, false)

mutual

/-- `ADS_set::merge_with_left`; the recursive calls climb to the parent. -/
def merge_with_left (N : Nat) :
    Nat → ADS_set → Nat → Nat → Nat → Option Nat × Nat → Except Err (ADS_set × Bool)
  | 0, _, _, _, _, _ => .error .fuel
  | f + 1, s, current, index, key, twin => do
    let parent ← deref (s.heap current).parent
    if index = 0 then .error .oob
    else do
      let lc ← (s.heap parent).getChild N (index - 1)
      if parent = s.root ∧ (s.heap parent).keys_counter = 1 then do
        let s ← merge_root N s
        .ok (s, true)
      else do
        let s ← merge_with_left_body N s current index key twin parent lc
        merge_tail N (fun s1 c i k t => merge_with_left N f s1 c i k t)
          (fun s1 c i k t => merge_with_right N f s1 c i k t) s parent key twin

/-- `ADS_set::merge_with_right`; the recursive calls climb to the parent. -/
def merge_with_right (N : Nat) :
    Nat → ADS_set → Nat → Nat → Nat → Option Nat × Nat → Except Err (ADS_set × Bool)
  | 0, _, _, _, _, _ => .error .fuel
  | f + 1, s, current, index, key, twin => do
    let parent ← deref (s.heap current).parent
    let rc ← (s.heap parent).getChild N (index + 1)
    if parent = s.root ∧ (s.heap parent).keys_counter = 1 then do
      let s ← merge_root N s
      .ok (s, true)
    else do
      let (s, twin) ← merge_with_right_body N s current index twin parent rc
      merge_tail N (fun s1 c i k t => merge_with_left N f s1 c i k t)
        (fun s1 c i k t => merge_with_right N f s1 c i k t) s parent key twin

end

/-- `ADS_set::erase`. -/
def erase (N : Nat) (s : ADS_set) (key : Nat) : Except Err (ADS_set × Nat) :=
  if s.element_counter = 0 then .ok (s, 0)
  else do
    let f := s.fuel
    let (current, twin) ← find_leaf_with_twin N f s s.root key (none, 0)
    let nd := s.heap current
    let e : Int := (nd.keys_counter : Int)
    let pair ← binary_search_in_node N nd key (search_fuel 0 e) 0 e
    if !pair.2 then .ok (s, 0)
    else if nd.keys_counter = 0 ∨ nd.keys_counter - 1 ≥ N ∨ (s.heap s.root).leaf = true then do
      let s ← delete_element N s current pair.1.toNat
      let s ← fix_twin N s current twin
      .ok (s, 1)
    else do
      let index ← index_from_parent N s current
      let s ← delete_element N s current pair.1.toNat
      let s ← rebalance N (merge_with_left N f) (merge_with_right N f) s current index key twin
      .ok (s, 1)

/-- `ADS_set::clear`. -/
def clear (s : ADS_set) : ADS_set :=
  let (s, r) := s.alloc
  { s with root := r, element_counter := 0, depth := 0 }

end ADS_set

deriving instance DecidableEq for Except

/-- One public mutating call. -/
inductive Op where
  | ins (k : Nat)
  | era (k : Nat)
  deriving DecidableEq, Repr

namespace ADS_set

/-- Apply one call and keep the tree. -/
def apply (N : Nat) (s : ADS_set) : Op → Except Err ADS_set
  | .ins k => do
    let (s1, _) ← insert N s k
    .ok s1
  | .era k => do
    let (s1, _) ← erase N s k
    .ok s1

/-- Apply a sequence of calls, starting from a given tree. -/
def run (N : Nat) : List Op → ADS_set → Except Err ADS_set
  | [], s => .ok s
  | o :: os, s => do
    let s1 ← apply N s o
    run N os s1

/-- The least key stored below a node: the first key of the leftmost leaf under it. -/
def subtree_min (N : Nat) (s : ADS_set) (p : Nat) : Except Err Nat := do
  let l ← begin_loop N s.fuel s p
  (s.heap l).getKey N 0

/-- Whether `keys[i]` of the internal node `p` equals the least key stored below
`children[i+1]`. -/
def separator_is_min (N : Nat) (s : ADS_set) (p : Nat) (i : Nat) : Except Err Bool := do
  let sep ← (s.heap p).getKey N i
  let c ← (s.heap p).getChild N (i + 1)
  let cp ← deref c
  let m ← subtree_min N s cp
  .ok (sep == m)

end ADS_set

/-! ## Abstraction used by the proofs

A tree of height `d` is described by the address and the live keys of each node:
`BTree 0` is a leaf, `BTree (d+1)` an internal node with its children.  `TreeAt`
says that the heap holds such a tree, `KeyOrd` that it routes searches correctly,
`BalN` that the key counts are within the bounds of the order parameter. -/

/-- The description of a tree of height `d`. -/
def BTree : Nat → Type
  | 0 => Nat × List Nat
  | d + 1 => Nat × List Nat × List (BTree d)

namespace BTree

/-- Address of the root node of the description. -/
def addr : (d : Nat) → BTree d → Nat
  | 0, t => t.1
  | _ + 1, t => t.1

/-- Live keys of the root node of the description. -/
def keys : (d : Nat) → BTree d → List Nat
  | 0, t => t.2
  | _ + 1, t => t.2.1

/-- Address of the leftmost leaf. -/
def firstLeaf : (d : Nat) → BTree d → Nat
  | 0, t => t.1
  | d + 1, t =>
    match t.2.2 with
    | [] => t.1
    | c :: _ => firstLeaf d c

/-- Address of the rightmost leaf. -/
def lastLeaf : (d : Nat) → BTree d → Nat
  | 0, t => t.1
  | d + 1, t =>
    match t.2.2.getLast? with
    | none => t.1
    | some c => lastLeaf d c

/-- All node addresses of the description. -/
def addrs : (d : Nat) → BTree d → List Nat
  | 0, t => [t.1]
  | d + 1, t => t.1 :: (t.2.2.map (addrs d)).flatten

/-- The keys stored in the leaves, left to right. -/
def contents : (d : Nat) → BTree d → List Nat
  | 0, t => t.2
  | d + 1, t => (t.2.2.map (contents d)).flatten

/-- The leaves, left to right, each with its address and keys. -/
def leaves : (d : Nat) → BTree d → List (Nat × List Nat)
  | 0, t => [t]
  | d + 1, t => (t.2.2.map (leaves d)).flatten

end BTree

/-- The live part of an array: its first `n` slots hold the list `l`. -/
def ArrIs {α : Type} (a : Nat → α) (n : Nat) (l : List α) : Prop :=
  n = l.length ∧ ∀ i, i < l.length → l[i]? = some (a i)

/-- A heap node is a leaf with the given live keys, parent and successor. -/
def LeafAt (nd : Node) (ks : List Nat) (par nx : Option Nat) : Prop :=
  nd.leaf = true ∧ ArrIs nd.keys nd.keys_counter ks ∧ nd.parent = par ∧ nd.next = nx

/-- A heap node is internal with the given live keys, children and parent; an
internal node has no successor. -/
def NodeAt (nd : Node) (ks : List Nat) (cs : List Nat) (par : Option Nat) : Prop :=
  nd.leaf = false ∧ ArrIs nd.keys nd.keys_counter ks ∧
    ArrIs nd.children nd.children_counter (cs.map some) ∧ nd.parent = par ∧ nd.next = none

/-- The successor pointer expected at the end of the subtree left of `rest`. -/
def headFirst {α : Type} (first : α → Nat) : List α → Option Nat → Option Nat
  | [], nx => nx
  | c :: _, _ => some (first c)

/-- A row of sibling subtrees, each followed in the leaf chain by the next one. -/
def KidsAt {α : Type} (R : Option Nat → α → Prop) (first : α → Nat) :
    List α → Option Nat → Prop
  | [], _ => True
  | c :: rest, nx => R (headFirst first rest nx) c ∧ KidsAt R first rest nx

/-- The heap holds the described tree below a node whose parent pointer is `par`
and whose last leaf is followed by `nx` in the leaf chain. -/
def TreeAt (h : Nat → Node) : (d : Nat) → Option Nat → Option Nat → BTree d → Prop
  | 0, par, nx, t => LeafAt (h t.1) t.2 par nx
  | d + 1, par, nx, t =>
    NodeAt (h t.1) t.2.1 (t.2.2.map (BTree.addr d)) par ∧
      KidsAt (fun nx1 c => TreeAt h d (some t.1) nx1 c) (BTree.firstLeaf d) t.2.2 nx

/-- Separators `ks` and children `cs` between the bounds `lo` and `hi`: the
separators increase strictly inside the bounds and each child lies between its
two neighbours. -/
def OrdKids {α : Type} (O : Nat → Nat → α → Prop) : List Nat → List α → Nat → Nat → Prop
  | [], [c], lo, hi => lo < hi ∧ O lo hi c
  | k :: ks, c :: cs, lo, hi => lo < k ∧ O lo k c ∧ OrdKids O ks cs k hi
  | _, _, _, _ => False

/-- Search order: every leaf key `k` below the node satisfies `lo ≤ k < hi`, leaf keys
increase strictly, and the separators route every key to the child that may hold it. -/
def KeyOrd : (d : Nat) → Nat → Nat → BTree d → Prop
  | 0, lo, hi, t => t.2.Pairwise (fun x y => x < y) ∧ ∀ k ∈ t.2, lo ≤ k ∧ k < hi
  | d + 1, lo, hi, t => OrdKids (fun l h c => KeyOrd d l h c) t.2.1 t.2.2 lo hi

/-- Key-count bounds: the root of the description holds between `mn` and `mx` keys,
every node below it between `N` and `2N`, and an internal node has one child more
than it has keys. -/
def BalN (N : Nat) (mn mx : Nat) : (d : Nat) → BTree d → Prop
  | 0, t => mn ≤ t.2.length ∧ t.2.length ≤ mx
  | d + 1, t =>
    mn ≤ t.2.1.length ∧ t.2.1.length ≤ mx ∧ t.2.2.length = t.2.1.length + 1 ∧
      ∀ c ∈ t.2.2, BalN N N (2 * N) d c

/-- The least number of keys the root may hold: none for a leaf, one otherwise. -/
def rootMin (d : Nat) : Nat := if d = 0 then 0 else 1

/-- The tree `t` of height `d` is what the state `s` holds, and it is well formed. -/
structure GoodT (N : Nat) (s : ADS_set) (d : Nat) (t : BTree d) (hi : Nat) : Prop where
  depth_eq : s.depth = (d : Int)
  root_eq : BTree.addr d t = s.root
  tree : TreeAt s.heap d none none t
  ord : KeyOrd d 0 hi t
  bal : BalN N (rootMin d) (2 * N) d t
  nodup : (BTree.addrs d t).Nodup
  alloc : ∀ x ∈ BTree.addrs d t, x < s.nxt
  count_eq : s.element_counter = (BTree.contents d t).length

/-- The state holds a well-formed tree. -/
def Good (N : Nat) (s : ADS_set) : Prop :=
  ∃ (d : Nat) (t : BTree d) (hi : Nat), GoodT N s d t hi

/-- The part of a row of separators and children left of a segment that starts
with the lower bound `lo1`. -/
def OrdPre {α : Type} (O : Nat → Nat → α → Prop) : List Nat → List α → Nat → Nat → Prop
  | [], [], lo, lo1 => lo1 = lo
  | k :: ks, c :: cs, lo, lo1 => lo < k ∧ O lo k c ∧ OrdPre O ks cs k lo1
  | _, _, _, _ => False

/-- The part of a row of separators and children right of a segment that ends
with the upper bound `hi1`. -/
def OrdPost {α : Type} (O : Nat → Nat → α → Prop) : List Nat → List α → Nat → Nat → Prop
  | [], [], hi1, hi => hi1 = hi
  | k :: ks, c :: cs, hi1, hi => hi1 = k ∧ OrdKids O ks (c :: cs) k hi
  | _, _, _, _ => False

/-- Index of the child a search for `key` follows: the first separator above `key`,
or the number of separators when there is none. -/
def routeIdx (ks : List Nat) (key : Nat) : Nat := ks.findIdx (fun k => decide (key < k))

/-- The leaf a search for `key` reaches in the description. -/
def BTree.route : (d : Nat) → BTree d → Nat → Nat × List Nat
  | 0, t, _ => t
  | d + 1, t, key =>
    match t.2.2[routeIdx t.2.1 key]? with
    | some c => BTree.route d c key
    | none => (t.1, [])

/-- The heap after the nodes listed in `moved` got the parent pointer `p`. -/
def reparent (h : Nat → Node) (moved : List Nat) (p : Nat) : Nat → Node :=
  fun q => if q ∈ moved then { h q with parent := some p } else h q

/-- A leaf description. -/
abbrev BTree.leaf (a : Nat) (ks : List Nat) : BTree 0 := (a, ks)

/-- An internal-node description. -/
abbrev BTree.node {d : Nat} (a : Nat) (ks : List Nat) (cs : List (BTree d)) : BTree (d + 1) :=
  (a, ks, cs)


/-! ## Definitions used in the proofs about `insert` and `erase` -/

namespace ADS_set

/-- The split that is still to run once the node `a` of height `d` holds `2N+1` keys:
`root_split` for the root, `external_split` for another leaf, `internal_split` for
another internal node (`f` is the fuel `insert` started with). -/
def pending_split (N f : Nat) (d : Nat) (par : Option Nat) (s : ADS_set) (a : Nat) :
    Except Err ADS_set :=
  match par with
  | none => root_split N s
  | some _ =>
    match d with
    | 0 => external_split N f s a
    | d1 + 1 => internal_split N (f - d1) s a

end ADS_set

/-- The separators of all internal nodes of the description. -/
def BTree.seps : (d : Nat) → BTree d → List Nat
  | 0, _ => []
  | d + 1, t => t.2.1 ++ (t.2.2.map (BTree.seps d)).flatten

/-- What an insertion of `key` below the subtree `t` of the state `s` has reached in
the state `s1`, where the subtree is `t1`: the new subtree is in the heap, ordered,
it holds the old keys and `key`, and the heap outside it did not change. -/
structure InsPost (s s1 : ADS_set) (d : Nat) (t t1 : BTree d)
    (par nx : Option Nat) (lo hi key : Nat) : Prop where
  tree : TreeAt s1.heap d par nx t1
  ord : KeyOrd d lo hi t1
  addr_eq : BTree.addr d t1 = BTree.addr d t
  first_eq : BTree.firstLeaf d t1 = BTree.firstLeaf d t
  mem : ∀ x, x ∈ BTree.contents d t1 ↔ x = key ∨ x ∈ BTree.contents d t
  len : (BTree.contents d t1).length = (BTree.contents d t).length + 1
  nodup : (BTree.addrs d t1).Nodup
  alloc : ∀ x ∈ BTree.addrs d t1, x < s1.nxt
  fresh : ∀ x ∈ BTree.addrs d t1, x ∈ BTree.addrs d t ∨ s.nxt ≤ x
  nxt_le : s.nxt ≤ s1.nxt
  root_eq : s1.root = s.root
  depth_eq : s1.depth = s.depth
  count_eq : s1.element_counter = s.element_counter + 1
  frame : ∀ q, q < s.nxt → q ∉ BTree.addrs d t → s1.heap q = s.heap q
  seps : ∀ x ∈ BTree.seps d t1, x ∈ BTree.seps d t ∨ x ∈ BTree.contents d t1


/-! ## Definitions used in the proofs about `erase` -/

namespace ADS_set

/-- The rebalancing that is still to run once the node `a` of height `d` holds fewer than
`N` keys: the three-way policy applied to `a` (`f` is the fuel `erase` started with). -/
def pending_rebalance (N f d : Nat) (s : ADS_set) (a key : Nat) (tw : Option Nat × Nat) :
    Except Err ADS_set := do
  let idx ← index_from_parent N s a
  rebalance N (merge_with_left N (f - d)) (merge_with_right N (f - d)) s a idx key tw

/-- The statements of `erase` after the descent has reached the leaf `current` with the
twin `twin`. -/
def erase_at (N f : Nat) (s : ADS_set) (key : Nat) (current : Nat) (twin : Option Nat × Nat) :
    Except Err (ADS_set × Nat) := do
  let nd := s.heap current
  let e : Int := (nd.keys_counter : Int)
  let pair ← binary_search_in_node N nd key (search_fuel 0 e) 0 e
  if !pair.2 then .ok (s, 0)
  else if nd.keys_counter = 0 ∨ nd.keys_counter - 1 ≥ N ∨ (s.heap s.root).leaf = true then do
    let s ← delete_element N s current pair.1.toNat
    let s ← fix_twin N s current twin
    .ok (s, 1)
  else do
    let index ← index_from_parent N s current
    let s ← delete_element N s current pair.1.toNat
    let s ← rebalance N (merge_with_left N f) (merge_with_right N f) s current index key twin
    .ok (s, 1)

end ADS_set

/-- The heap after the twin separator, if there is one, got the value `v`. -/
def twinWrite (h : Nat → Node) (tw : Option Nat × Nat) (v : Nat) : Nat → Node :=
  match tw.1 with
  | none => h
  | some p => upd h p { h p with keys := upd (h p).keys tw.2 v }

/-- What a step of `erase` has reached in the state `s1` for the subtree that was `t` in
the state `s` and is `t1` now: the new subtree is in the heap, ordered, made of nodes of
the old one, it holds the keys `cont`, the element count is `ec`, and outside the subtree
the heap changed at most in the twin separator, which holds the least key of `t1`. -/
structure Post (s s1 : ADS_set) (d : Nat) (t t1 : BTree d) (par nx : Option Nat)
    (lo hi : Nat) (tw : Option Nat × Nat) (cont : List Nat) (ec : Nat) : Prop where
  tree : TreeAt s1.heap d par nx t1
  ord : KeyOrd d lo hi t1
  addr_eq : BTree.addr d t1 = BTree.addr d t
  first_eq : BTree.firstLeaf d t1 = BTree.firstLeaf d t
  cont_eq : BTree.contents d t1 = cont
  nodup : (BTree.addrs d t1).Nodup
  sub : ∀ x ∈ BTree.addrs d t1, x ∈ BTree.addrs d t
  nxt_eq : s1.nxt = s.nxt
  root_eq : s1.root = s.root
  depth_eq : s1.depth = s.depth
  count_eq : s1.element_counter = ec
  frame : ∀ q, q ∉ BTree.addrs d t →
    s1.heap q = twinWrite s.heap tw ((BTree.contents d t1).headD 0) q

/-- A segment `mid` of a row of children with the separators `mks` between them may be
replaced by the segment `mid1` with the separators `mks1`: the order, the keys stored
below, the first leaf and the balance are kept and no node is new. -/
structure SegOK (N d : Nat) (mks mks1 : List Nat) (mid mid1 : List (BTree d)) : Prop where
  len : mid.length = mks.length + 1
  len1 : mid1.length = mks1.length + 1
  ord : ∀ lo1 hi1, OrdKids (fun l h c => KeyOrd d l h c) mks mid lo1 hi1 →
    OrdKids (fun l h c => KeyOrd d l h c) mks1 mid1 lo1 hi1
  cont : (mid1.map (BTree.contents d)).flatten = (mid.map (BTree.contents d)).flatten
  sub : ∀ x ∈ (mid1.map (BTree.addrs d)).flatten, x ∈ (mid.map (BTree.addrs d)).flatten
  nodup : ((mid.map (BTree.addrs d)).flatten).Nodup → ((mid1.map (BTree.addrs d)).flatten).Nodup
  first : headFirst (BTree.firstLeaf d) mid1 none = headFirst (BTree.firstLeaf d) mid none
  bal : ∀ c ∈ mid1, BalN N N (2 * N) d c


/-! ## The four rebalancing steps as seen by the policy -/

/-- The twin that is still to be written when a leaf is rebalanced: there is none, or it
is the separator left of the leaf in its parent `a` (the leaf is then the last child,
number `i`), or it lies outside the subtree of `a` (the leaf is then the first child). -/
def TwinPend (N : Nat) (tw : Option Nat × Nat) (a i nr : Nat) (A : List Nat) : Prop :=
  tw.1 = none ∨ (tw.1 = some a ∧ tw.2 + 1 = i ∧ nr = 0) ∨
    (∃ p, tw.1 = some p ∧ p ∉ A ∧ i = 0 ∧ tw.2 < 2 * N + 1)

/-- `steal_from_right` succeeds for a child `x` with `N-1` keys whose right sibling `y`
has more than `N` keys, and leaves a well-formed row. -/
def StealRightOK (N dd : Nat) (s : ADS_set) (a : Nat) (tw tw0 : Option Nat × Nat) : Prop :=
  ∀ (ksl ksr : List Nat) (k : Nat) (l r : List (BTree dd)) (x y : BTree dd)
    (par nx : Option Nat) (lo hi : Nat),
    TreeAt s.heap (dd + 1) par nx (a, ksl ++ ([k] ++ ksr), l ++ ([x, y] ++ r)) →
    KeyOrd (dd + 1) lo hi (a, ksl ++ ([k] ++ ksr), l ++ ([x, y] ++ r)) →
    ksl.length = l.length → ksr.length = r.length → (ksl ++ ([k] ++ ksr)).length ≤ 2 * N →
    BalN N (N - 1) (N - 1) dd x → BalN N (N + 1) (2 * N) dd y →
    (∀ z ∈ l ++ r, BalN N N (2 * N) dd z) →
    (BTree.addrs (dd + 1) (a, ksl ++ ([k] ++ ksr), l ++ ([x, y] ++ r))).Nodup →
    BTree.addr dd x ≠ s.root → BTree.addr dd y ≠ s.root →
    (dd = 0 → TwinPend N tw a l.length (r.length + 1)
      (BTree.addrs (dd + 1) (a, ksl ++ ([k] ++ ksr), l ++ ([x, y] ++ r)))) →
    ∃ s2 ks1 cs1, ADS_set.steal_from_right N s (BTree.addr dd x) l.length tw = .ok (s2, true) ∧
      Post s s2 (dd + 1) (a, ksl ++ ([k] ++ ksr), l ++ ([x, y] ++ r)) (a, ks1, cs1) par nx lo hi
        tw0 (BTree.contents (dd + 1) (a, ksl ++ ([k] ++ ksr), l ++ ([x, y] ++ r)))
        s.element_counter ∧
      BalN N (ksl ++ ([k] ++ ksr)).length (2 * N) (dd + 1) (a, ks1, cs1)

/-- `steal_from_left` succeeds for a child `y` with `N-1` keys whose left sibling `x`
has more than `N` keys, and leaves a well-formed row. -/
def StealLeftOK (N dd : Nat) (s : ADS_set) (a : Nat) (tw tw0 : Option Nat × Nat) : Prop :=
  ∀ (ksl ksr : List Nat) (k : Nat) (l r : List (BTree dd)) (x y : BTree dd)
    (par nx : Option Nat) (lo hi : Nat),
    TreeAt s.heap (dd + 1) par nx (a, ksl ++ ([k] ++ ksr), l ++ ([x, y] ++ r)) →
    KeyOrd (dd + 1) lo hi (a, ksl ++ ([k] ++ ksr), l ++ ([x, y] ++ r)) →
    ksl.length = l.length → ksr.length = r.length → (ksl ++ ([k] ++ ksr)).length ≤ 2 * N →
    BalN N (N + 1) (2 * N) dd x → BalN N (N - 1) (N - 1) dd y →
    (∀ z ∈ l ++ r, BalN N N (2 * N) dd z) →
    (BTree.addrs (dd + 1) (a, ksl ++ ([k] ++ ksr), l ++ ([x, y] ++ r))).Nodup →
    BTree.addr dd x ≠ s.root → BTree.addr dd y ≠ s.root →
    (dd = 0 → TwinPend N tw a (l.length + 1) r.length
      (BTree.addrs (dd + 1) (a, ksl ++ ([k] ++ ksr), l ++ ([x, y] ++ r)))) →
    ∃ s2 ks1 cs1,
      ADS_set.steal_from_left N s (BTree.addr dd y) (l.length + 1) tw = .ok (s2, true) ∧
      Post s s2 (dd + 1) (a, ksl ++ ([k] ++ ksr), l ++ ([x, y] ++ r)) (a, ks1, cs1) par nx lo hi
        tw0 (BTree.contents (dd + 1) (a, ksl ++ ([k] ++ ksr), l ++ ([x, y] ++ r)))
        s.element_counter ∧
      BalN N (ksl ++ ([k] ++ ksr)).length (2 * N) (dd + 1) (a, ks1, cs1)

/-- The body of `merge_with_left` succeeds for a child `y` with `N-1` keys whose left
sibling `x` has `N` keys, and leaves a well-formed row with one separator less. -/
def MergeLeftOK (N dd : Nat) (s : ADS_set) (a key : Nat) (tw tw0 : Option Nat × Nat) :
    Prop :=
  ∀ (ksl ksr : List Nat) (k : Nat) (l r : List (BTree dd)) (x y : BTree dd)
    (par nx : Option Nat) (lo hi : Nat),
    TreeAt s.heap (dd + 1) par nx (a, ksl ++ ([k] ++ ksr), l ++ ([x, y] ++ r)) →
    KeyOrd (dd + 1) lo hi (a, ksl ++ ([k] ++ ksr), l ++ ([x, y] ++ r)) →
    ksl.length = l.length → ksr.length = r.length → (ksl ++ ([k] ++ ksr)).length ≤ 2 * N →
    BalN N N N dd x → BalN N (N - 1) (N - 1) dd y →
    (∀ z ∈ l ++ r, BalN N N (2 * N) dd z) →
    (BTree.addrs (dd + 1) (a, ksl ++ ([k] ++ ksr), l ++ ([x, y] ++ r))).Nodup →
    BTree.addr dd x ≠ s.root → BTree.addr dd y ≠ s.root →
    (dd = 0 → TwinPend N tw a (l.length + 1) r.length
      (BTree.addrs (dd + 1) (a, ksl ++ ([k] ++ ksr), l ++ ([x, y] ++ r)))) →
    ∃ s2 ks1 cs1,
      ADS_set.merge_with_left_body N s (BTree.addr dd y) (l.length + 1) key tw a
        (some (BTree.addr dd x)) = .ok s2 ∧
      Post s s2 (dd + 1) (a, ksl ++ ([k] ++ ksr), l ++ ([x, y] ++ r)) (a, ks1, cs1) par nx lo hi
        tw0 (BTree.contents (dd + 1) (a, ksl ++ ([k] ++ ksr), l ++ ([x, y] ++ r)))
        s.element_counter ∧
      BalN N ((ksl ++ ([k] ++ ksr)).length - 1) (2 * N) (dd + 1) (a, ks1, cs1)

/-- The body of `merge_with_right` succeeds for a first child `x` with `N-1` keys whose
right sibling `y` has `N` keys, and leaves a well-formed row with one separator less. -/
def MergeRightOK (N dd : Nat) (s : ADS_set) (a : Nat) (tw tw0 : Option Nat × Nat) : Prop :=
  ∀ (ksr : List Nat) (k : Nat) (r : List (BTree dd)) (x y : BTree dd)
    (par nx : Option Nat) (lo hi : Nat),
    TreeAt s.heap (dd + 1) par nx (a, [] ++ ([k] ++ ksr), [] ++ ([x, y] ++ r)) →
    KeyOrd (dd + 1) lo hi (a, [] ++ ([k] ++ ksr), [] ++ ([x, y] ++ r)) →
    ksr.length = r.length → ([k] ++ ksr).length ≤ 2 * N →
    BalN N (N - 1) (N - 1) dd x → BalN N N N dd y →
    (∀ z ∈ r, BalN N N (2 * N) dd z) →
    (BTree.addrs (dd + 1) (a, [] ++ ([k] ++ ksr), [] ++ ([x, y] ++ r))).Nodup →
    BTree.addr dd x ≠ s.root → BTree.addr dd y ≠ s.root →
    (dd = 0 → TwinPend N tw a 0 (r.length + 1)
      (BTree.addrs (dd + 1) (a, [] ++ ([k] ++ ksr), [] ++ ([x, y] ++ r)))) →
    ∃ s2 ks1 cs1 tw1,
      ADS_set.merge_with_right_body N s (BTree.addr dd x) 0 tw a (some (BTree.addr dd y)) =
        .ok (s2, tw1) ∧
      Post s s2 (dd + 1) (a, [] ++ ([k] ++ ksr), [] ++ ([x, y] ++ r)) (a, ks1, cs1) par nx lo hi
        tw0 (BTree.contents (dd + 1) (a, [] ++ ([k] ++ ksr), [] ++ ([x, y] ++ r)))
        s.element_counter ∧
      BalN N (([k] ++ ksr).length - 1) (2 * N) (dd + 1) (a, ks1, cs1)

/-- The twin as far as it lies outside the subtree of the node `a`: a twin that is a
separator of `a` itself is written inside that subtree. -/
def twOut (a : Nat) (tw : Option Nat × Nat) : Option Nat × Nat :=
  if tw.1 = some a then (none, 0) else tw


/-! ## The descent of `erase` and what it has reached below a subtree -/

/-- The twin after the descent for `key` passed the internal node `a` with the
separators `ks`: the node itself when the search leaves it through the last child and
the last separator equals `key`. -/
def twinStep (a : Nat) (ks : List Nat) (key : Nat) (tw : Option Nat × Nat) : Option Nat × Nat :=
  if routeIdx ks key = ks.length ∧ ks.getLast? = some key then (some a, ks.length - 1) else tw

/-- The twin that `find_leaf_with_twin` returns for the description of a tree. -/
def BTree.twin : (d : Nat) → BTree d → Nat → Option Nat × Nat → Option Nat × Nat
  | 0, _, _, tw => tw
  | d + 1, t, key, tw =>
    match t.2.2[routeIdx t.2.1 key]? with
    | some c => BTree.twin d c key (twinStep t.1 t.2.1 key tw)
    | none => tw

/-- The twin with which the descent enters a subtree with the lower bound `lo`: there is
none, or it is a separator equal to `key` in a node above the subtree, and then `key` is
the lower bound. -/
def TwinIn (N : Nat) (tw : Option Nat × Nat) (key lo : Nat) (A : List Nat) : Prop :=
  tw.1 = none ∨ (key = lo ∧ tw.2 < 2 * N + 1 ∧ ∃ p, tw.1 = some p ∧ p ∉ A)

/-- What `erase` has reached when it is done below the subtree `t`, which held `key`:
the subtree `t1` holds the other keys; either it is balanced, the twin is written and
the call returns 1, or its root holds `N - 1` keys and the three-way policy is still to
run for it (for a leaf also the twin is still to be written). -/
def EraOut (N f key : Nat) (s : ADS_set) (d : Nat) (t : BTree d) (par nx : Option Nat)
    (lo hi : Nat) (tw : Option Nat × Nat) (R : Except Err (ADS_set × Nat)) : Prop :=
  ∃ (s1 : ADS_set) (t1 : BTree d) (twp : Option Nat × Nat),
    Post s s1 d t t1 par nx lo hi twp (BTree.contents d t1) (s.element_counter - 1) ∧
    (∀ x, x ∈ BTree.contents d t1 ↔ x ∈ BTree.contents d t ∧ x ≠ key) ∧
    (BTree.contents d t1).length + 1 = (BTree.contents d t).length ∧
    ((BalN N N (2 * N) d t1 ∧ twp = tw ∧ R = .ok (s1, 1)) ∨
      (BalN N (N - 1) (N - 1) d t1 ∧
        ((d = 0 ∧ twp = (none, 0) ∧
            R = (ADS_set.pending_rebalance N f d s1 (BTree.addr d t) key tw >>=
              fun s2 => .ok (s2, 1))) ∨
          (0 < d ∧ twp = tw ∧ ∃ tw1,
            R = (ADS_set.pending_rebalance N f d s1 (BTree.addr d t) key tw1 >>=
              fun s2 => .ok (s2, 1))))))

/-- What `erase` has reached when it is done with the children of the internal node at
the root of `t`: either the row is well formed again (and when the node is not the root
of the tree and holds fewer than `N` keys now, the policy is still to run for it), or the
node is the root of the tree with one separator and its two children, which hold `2N - 1`
keys together, are still to be merged into it. -/
def RowOut (N f key : Nat) (s : ADS_set) (d : Nat) (t : BTree (d + 1)) (par nx : Option Nat)
    (lo hi : Nat) (tw : Option Nat × Nat) (R : Except Err (ADS_set × Nat)) : Prop :=
  (∃ (s1 : ADS_set) (t1 : BTree (d + 1)) (tw1 : Option Nat × Nat),
    Post s s1 (d + 1) t t1 par nx lo hi tw (BTree.contents (d + 1) t1)
      (s.element_counter - 1) ∧
    (∀ x, x ∈ BTree.contents (d + 1) t1 ↔ x ∈ BTree.contents (d + 1) t ∧ x ≠ key) ∧
    (BTree.contents (d + 1) t1).length + 1 = (BTree.contents (d + 1) t).length ∧
    BalN N ((BTree.keys (d + 1) t).length - 1) (2 * N) (d + 1) t1 ∧
    (BTree.addr (d + 1) t = s.root → 1 ≤ (BTree.keys (d + 1) t1).length) ∧
    R = if (BTree.keys (d + 1) t1).length < N ∧ BTree.addr (d + 1) t ≠ s.root then
        ADS_set.pending_rebalance N f (d + 1) s1 (BTree.addr (d + 1) t) key tw1 >>=
          fun s2 => .ok (s2, 1)
      else .ok (s1, 1)) ∨
  (∃ (s1 : ADS_set) (k1 : Nat) (x1 y1 : BTree d) (twp : Option Nat × Nat),
    BTree.addr (d + 1) t = s.root ∧
    Post s s1 (d + 1) t (BTree.addr (d + 1) t, [k1], [x1, y1]) par nx lo hi twp
      (BTree.contents (d + 1) (BTree.addr (d + 1) t, [k1], [x1, y1]))
      (s.element_counter - 1) ∧
    (∀ x, x ∈ BTree.contents (d + 1) (BTree.addr (d + 1) t, [k1], [x1, y1]) ↔
      x ∈ BTree.contents (d + 1) t ∧ x ≠ key) ∧
    (BTree.contents (d + 1) (BTree.addr (d + 1) t, [k1], [x1, y1])).length + 1 =
      (BTree.contents (d + 1) t).length ∧
    BalN N (N - 1) N d x1 ∧ BalN N (N - 1) N d y1 ∧
    (BTree.keys d x1).length + (BTree.keys d y1).length + 1 = 2 * N ∧
    R = (ADS_set.merge_root N s1 >>= fun s2 => .ok (s2, 1)))


/-! ## Reachable trees -/

/-- A tree that the public mutating calls can produce from the empty tree. -/
def Reachable (N : Nat) (s : ADS_set) : Prop :=
  ∃ ops : List Op, ADS_set.run N ops ADS_set.init = .ok s

/-- The leaves of a description are in the heap one after the other: each is a leaf with
its keys, followed in the `next` chain by the leaf after it, the last one by `nx`. -/
def LeafChain (h : Nat → Node) : List (Nat × List Nat) → Option Nat → Prop
  | [], _ => True
  | lf :: rest, nx =>
    (h lf.1).leaf = true ∧ ArrIs (h lf.1).keys (h lf.1).keys_counter lf.2 ∧
      (h lf.1).next = headFirst Prod.fst rest nx ∧ LeafChain h rest nx

/-- The position behind the last key of the last leaf of a chain of leaves. -/
def lastIt (L : List (Nat × List Nat)) : Iterator :=
  match L.getLast? with
  | some lf => ⟨lf.1, lf.2.length⟩
  | none => ⟨0, 0⟩


/-! ## Observers of the heap and the remaining public functions -/

/-- The keys a sequence of calls inserts, in call order. -/
def Op.inserted : List Op → List Nat
  | [] => []
  | .ins k :: os => k :: Op.inserted os
  | .era _ :: os => Op.inserted os

/-- The keys a sequence of calls erases, in call order. -/
def Op.erased : List Op → List Nat
  | [] => []
  | .ins _ :: os => Op.erased os
  | .era k :: os => k :: Op.erased os

/-- The set of keys a sequence of calls leaves behind when it starts on the set `S`. -/
def Op.keys_after : List Op → Finset Nat → Finset Nat
  | [], S => S
  | .ins k :: os, S => Op.keys_after os (insert k S)
  | .era k :: os, S => Op.keys_after os (S.erase k)

/-- The live keys of a node: `keys[0] .. keys[keys_counter - 1]`. -/
def Node.live (nd : Node) : List Nat := (List.range nd.keys_counter).map nd.keys

namespace ADS_set

/-- Apply a sequence of calls, keep the tree and count the `erase` calls that
returned 1. -/
def run_erased (N : Nat) : List Op → ADS_set → Except Err (ADS_set × Nat)
  | [], s => .ok (s, 0)
  | .ins k :: os, s => do
    let (s1, _) ← insert N s k
    run_erased N os s1
  | .era k :: os, s => do
    let (s1, r) ← erase N s k
    let (s2, m) ← run_erased N os s1
    .ok (s2, if r = 1 then m + 1 else m)

/-- The shape checker for the node `p` that is expected `d` levels above the leaves:
leaves exactly at level 0, a node other than the root holds between `N` and `2N+1` keys,
a root that is not a leaf holds at least one key, and an internal node has one child more
than it has keys, each of them of the same shape one level below. -/
def shape_ok (N : Nat) (h : Nat → Node) : Nat → Bool → Nat → Bool
  | 0, top, p =>
    (h p).leaf &&
      (top || (decide (N ≤ (h p).keys_counter) && decide ((h p).keys_counter ≤ 2 * N + 1)))
  | d + 1, top, p =>
    !(h p).leaf &&
      (if top then decide (1 ≤ (h p).keys_counter)
        else decide (N ≤ (h p).keys_counter) && decide ((h p).keys_counter ≤ 2 * N + 1)) &&
      decide ((h p).children_counter = (h p).keys_counter + 1) &&
      (List.range (h p).children_counter).all (fun i =>
        match (h p).children i with
        | some c => shape_ok N h d false c
        | none => false)

/-- The key lists of the leaves below the node `p`, which lies `d` levels above them,
from left to right. -/
def leaf_rows (h : Nat → Node) : Nat → Nat → List (List Nat)
  | 0, p => [(h p).live]
  | d + 1, p =>
    ((List.range (h p).children_counter).map (fun i =>
      match (h p).children i with
      | some c => leaf_rows h d c
      | none => [])).flatten

/-- The keys stored below the node `p`, which lies `d` levels above the leaves. -/
def stored (h : Nat → Node) (d : Nat) (p : Nat) : List Nat := (leaf_rows h d p).flatten

/-- The routing checker for the node `p`, `d` levels above the leaves: the separators of
every internal node increase strictly, everything stored below `children[i]` is less than
`keys[i]`, and everything stored below `children[i+1]` is not less than `keys[i]`. -/
def routes_ok (h : Nat → Node) : Nat → Nat → Bool
  | 0, _ => true
  | d + 1, p =>
    (List.range (h p).keys_counter).all (fun i =>
      (decide (i + 1 < (h p).keys_counter → (h p).keys i < (h p).keys (i + 1))) &&
      (match (h p).children i with
        | some c => (stored h d c).all (fun k => decide (k < (h p).keys i))
        | none => false) &&
      (match (h p).children (i + 1) with
        | some c => (stored h d c).all (fun k => decide ((h p).keys i ≤ k))
        | none => false)) &&
    (List.range (h p).children_counter).all (fun i =>
      match (h p).children i with
      | some c => routes_ok h d c
      | none => false)

/-- The node reached from `p` by following `children[0]` for `d` levels. -/
def leftmost (h : Nat → Node) : Nat → Nat → Option Nat
  | 0, p => some p
  | d + 1, p =>
    match (h p).children 0 with
    | some c => leftmost h d c
    | none => none

/-- The node reached from `p` by following the last child for `d` levels. -/
def rightmost (h : Nat → Node) : Nat → Nat → Option Nat
  | 0, p => some p
  | d + 1, p =>
    match (h p).children ((h p).children_counter - 1) with
    | some c => rightmost h d c
    | none => none

/-- The loop of `operator==`: `for (const auto& k : lhs) if (!rhs.count(k)) return false;`
followed by `return true;`. -/
def all_counted (N : Nat) (lhs rhs : ADS_set) (last : Iterator) :
    Nat → Iterator → Except Err Bool
  | 0, _ => .error .fuel
  | f + 1, it =>
    if it = last then .ok true
    else do
      let k ← deref_it N lhs it
      let c ← count N rhs k
      if c = 0 then .ok false else all_counted N lhs rhs last f (incr lhs it)

/-- `operator==(const ADS_set& lhs, const ADS_set& rhs)`. -/
def equals (N : Nat) (lhs rhs : ADS_set) : Except Err Bool :=
  if lhs.element_counter ≠ rhs.element_counter then .ok false
  else do
    let b ← begin_ N lhs
    let e ← end_ N lhs
    all_counted N lhs rhs e (lhs.nxt * (2 * N + 2) + 1) b

/-- The loop of `insert(InputIt first, InputIt last)` over the positions of `src`:
`for_each(first, last, [&](const_reference key) { insert_private_external(key); })`. -/
def insert_each (N : Nat) (src : ADS_set) (last : Iterator) :
    Nat → Iterator → ADS_set → Except Err ADS_set
  | 0, _, _ => .error .fuel
  | f + 1, it, s =>
    if it = last then .ok s
    else do
      let k ← deref_it N src it
      let (s1, _) ← insert_private_external N s k
      insert_each N src last f (incr src it) s1

/-- `ADS_set::insert(InputIt first, InputIt last)` called with `other.begin()` and
`other.end()`. -/
def insert_range (N : Nat) (other : ADS_set) (s : ADS_set) : Except Err ADS_set := do
  let first ← begin_ N other
  let last ← end_ N other
  if first = last then .ok s
  else insert_each N other last (other.nxt * (2 * N + 2) + 1) first s

/-- `ADS_set::ADS_set(const ADS_set& other)`: a new root, depth 0, the elements of
`other` inserted, then the element count taken from `other`.  The constructor does not
set `element_counter` before the insertions; `junk` is the value the field holds then. -/
def copy (N : Nat) (junk : Nat) (other : ADS_set) : Except Err ADS_set := do
  let s : ADS_set :=
    { heap := fun _ => Node.fresh, nxt := 1, root := 0, depth := 0, element_counter := junk }
  let s ← insert_range N other s
  .ok { s with element_counter := other.element_counter }

end ADS_set


/-! ## The element count as a separate component of the state -/

/-- The state with the value `c` in the field `element_counter`. -/
def ADS_set.with_count (c : Nat) (s : ADS_set) : ADS_set := { s with element_counter := c }

/-- The state made of a heap, the next unused address, the root and the depth, with the
element count 0. -/
def ADS_set.core (h : Nat → Node) (n r : Nat) (d : Int) : ADS_set :=
  { heap := h, nxt := n, root := r, depth := d, element_counter := 0 }


/-! ## Observers for the search, the capacities and the separators -/

/-- A leaf with the two live keys 10 and 20, used to instantiate the node-level theorems. -/
def Node.two_keys : Node := { Node.fresh with keys := fun i => 10 * (i + 1), keys_counter := 2 }

/-- A node without live keys whose key slots hold a stale 7. -/
def Node.stale : Node := { Node.fresh with keys := fun _ => 7 }

namespace ADS_set

/-- The key slots `binary_search_in_node` reads: the same recursion, collecting the index
of every `current->keys[middle]` it evaluates. -/
def binary_search_reads (N : Nat) (nd : Node) (key : Nat) :
    Nat → Int → Int → Except Err (List Nat)
  | 0, _, _ => .error .fuel
  | f + 1, start, end_ =>
    if start ≤ end_ then
      let middle := Int.tdiv (start + end_) 2
      if above_last middle nd.keys_counter then .ok []
      else if middle < 0 then .error .oob
      else do
        let km ← nd.getKey N middle.toNat
        if key < km then do
          let rs ← binary_search_reads N nd key f start (middle - 1)
          .ok (middle.toNat :: rs)
        else if km < key then do
          let rs ← binary_search_reads N nd key f (middle + 1) end_
          .ok (middle.toNat :: rs)
        else .ok [middle.toNat]
    else .ok []

/-- The capacity checker for the node `p`, `d` levels above the leaves: every node holds
at most `2N` keys and every internal node at most `2N+1` children. -/
def cap_ok (N : Nat) (h : Nat → Node) : Nat → Nat → Bool
  | 0, p => (h p).leaf && decide ((h p).keys_counter ≤ 2 * N)
  | d + 1, p =>
    !(h p).leaf && decide ((h p).keys_counter ≤ 2 * N) &&
      decide ((h p).children_counter ≤ 2 * N + 1) &&
      (List.range (h p).children_counter).all (fun i =>
        match (h p).children i with
        | some c => cap_ok N h d c
        | none => false)

/-- The separator checker for the node `p`, `d` levels above the leaves: in every internal
node, `keys[i]` is stored below `children[i+1]` and nothing stored there is less. -/
def sepmin_ok (h : Nat → Node) : Nat → Nat → Bool
  | 0, _ => true
  | d + 1, p =>
    (List.range (h p).keys_counter).all (fun i =>
      match (h p).children (i + 1) with
      | some c => (stored h d c).contains ((h p).keys i) &&
          (stored h d c).all (fun k => decide ((h p).keys i ≤ k))
      | none => false) &&
    (List.range (h p).children_counter).all (fun i =>
      match (h p).children i with
      | some c => sepmin_ok h d c
      | none => false)

end ADS_set


/-! ## Small hand-built trees used to instantiate the node-level theorems -/

/-- A leaf with the live keys `ks`, the parent `par` and the successor `nx`; the slots
past the live keys hold 0. -/
def Node.leaf_of (ks : List Nat) (par nx : Option Nat) : Node :=
  { keys := (fun i => ks.getD i 0), children := (fun _ => none), parent := par, next := nx,
    leaf := true, keys_counter := ks.length, children_counter := 0 }

/-- An internal node with the live keys `ks`, the children `cs` and the parent `par`. -/
def Node.inner_of (ks : List Nat) (cs : List Nat) (par : Option Nat) : Node :=
  { keys := (fun i => ks.getD i 0), children := (fun i => cs[i]?), parent := par, next := none,
    leaf := false, keys_counter := ks.length, children_counter := cs.length }

namespace ADS_set

/-- The state whose heap holds the listed nodes at the addresses 0, 1, 2, ..., with the
root at address 0. -/
def of_nodes (nodes : List Node) (depth : Int) (count : Nat) : ADS_set :=
  { heap := (fun q => nodes.getD q Node.fresh), nxt := nodes.length, root := 0,
    depth := depth, element_counter := count }

/-- A root with the separator `k` above the two leaves `l` (address 1) and `r`
(address 2). -/
def two_leaves (l r : List Nat) (k : Nat) : ADS_set :=
  of_nodes [Node.inner_of [k] [1, 2] none, Node.leaf_of l (some 0) (some 2),
    Node.leaf_of r (some 0) none] 1 (l.length + r.length)

end ADS_set

namespace ADS_set

end ADS_set

namespace ADS_set

end ADS_set

namespace ADS_set

/-- The tree after the calls `ops` on the empty tree (the empty tree when a call fails). -/
def after (N : Nat) (ops : List Op) : ADS_set :=
  match run N ops init with
  | .ok s => s
  | .error _ => init

/-- Order 1, after `insert(1)`, `insert(2)`: the root is a leaf that holds `2N` keys. -/
def two : ADS_set := after 1 [Op.ins 1, Op.ins 2]

/-- Order 1, after `insert(1)`, `insert(2)`, `insert(3)`, `erase(3)`: a root above two
leaves with one key each. -/
def pair : ADS_set := after 1 [Op.ins 1, Op.ins 2, Op.ins 3, Op.era 3]

/-- Order 1, after the insertion of 1 to 7 in ascending order: a tree of depth 2. -/
def seven : ADS_set :=
  after 1 [Op.ins 1, Op.ins 2, Op.ins 3, Op.ins 4, Op.ins 5, Op.ins 6, Op.ins 7]

end ADS_set

namespace ADS_set

/-- Order 1, after `insert(1)`, `insert(2)`, `insert(3)`: a root with the separator 2 above
the leaves with 1 and with 2, 3. -/
def three : ADS_set := after 1 [Op.ins 1, Op.ins 2, Op.ins 3]

end ADS_set

namespace ADS_set

end ADS_set


/-! ## Basic facts: the error monad, arrays and the array loops -/

@[simp] theorem ok_bind {α β : Type} (a : α) (f : α → Except Err β) :
    (Except.ok a >>= f) = f a := rfl

@[simp] theorem error_bind {α β : Type} (e : Err) (f : α → Except Err β) :
    ((Except.error e : Except Err α) >>= f) = Except.error e := rfl

@[simp] theorem pure_eq_ok {α : Type} (a : α) : (pure a : Except Err α) = Except.ok a := rfl

@[simp] theorem upd_apply {α : Type} (a : Nat → α) (i : Nat) (v : α) (j : Nat) :
    upd a i v j = if j = i then v else a j := rfl

theorem upd_same {α : Type} (a : Nat → α) (i : Nat) (v : α) : upd a i v i = v := by simp

theorem upd_other {α : Type} (a : Nat → α) (i : Nat) (v : α) (j : Nat) (h : j ≠ i) :
    upd a i v j = a j := by simp [h]

theorem arr_get_ok {α : Type} {cap : Nat} (a : Nat → α) {i : Nat} (h : i < cap) :
    arr_get cap a i = .ok (a i) := by simp [arr_get, h]

theorem arr_set_ok {α : Type} {cap : Nat} (a : Nat → α) {i : Nat} (v : α) (h : i < cap) :
    arr_set cap a i v = .ok (upd a i v) := by simp [arr_set, h]

theorem arr_shift_right_ok {α : Type} (cap : Nat) (n : Nat) :
    ∀ (i : Nat) (a : Nat → α), i < cap → n ≤ i →
      arr_shift_right cap n i a = .ok (fun j => if i - n < j ∧ j ≤ i then a (j - 1) else a j) := by
  induction n with
  | zero =>
    intro i a _ _
    simp [arr_shift_right]
    funext j
    have : ¬ (i < j ∧ j ≤ i) := by omega
    simp [this]
  | succ n ih =>
    intro i a h1 h2
    have h3 : i - 1 < cap := by omega
    simp only [arr_shift_right, arr_get_ok a h3, arr_set_ok a _ h1, ok_bind]
    rw [ih (i - 1) _ h3 (by omega)]
    congr 1
    funext j
    simp only [upd_apply]
    split_ifs <;> first | rfl | (congr 1; omega) | (exfalso; omega)

theorem arr_shift_left_ok {α : Type} (cap : Nat) (n : Nat) :
    ∀ (i : Nat) (a : Nat → α), i + n < cap ∨ n = 0 →
      arr_shift_left cap n i a = .ok (fun j => if i ≤ j ∧ j < i + n then a (j + 1) else a j) := by
  induction n with
  | zero =>
    intro i a _
    simp [arr_shift_left]
    funext j
    have : ¬ (i ≤ j ∧ j < i) := by omega
    simp [this]
  | succ n ih =>
    intro i a h1
    have h2 : i + 1 < cap := by omega
    have h3 : i < cap := by omega
    simp only [arr_shift_left, arr_get_ok a h2, arr_set_ok a _ h3, ok_bind]
    rw [ih (i + 1) _ (by omega)]
    congr 1
    funext j
    simp only [upd_apply]
    split_ifs <;> first | rfl | (congr 1; omega) | (exfalso; omega)

theorem arr_shift_by_ok {α : Type} (cap : Nat) (off : Nat) (n : Nat) :
    ∀ (i : Nat) (a : Nat → α), i + off < cap ∨ n = 0 → n ≤ i + 1 →
      arr_shift_by cap off n i a =
        .ok (fun j => if i + 1 - n + off ≤ j ∧ j ≤ i + off ∧ 0 < n then a (j - off) else a j) := by
  induction n with
  | zero =>
    intro i a _ _
    simp [arr_shift_by]
  | succ n ih =>
    intro i a h1 h2
    have h3 : i + off < cap := by omega
    have h4 : i < cap := by omega
    simp only [arr_shift_by, arr_get_ok a h4, arr_set_ok a _ h3, ok_bind]
    rw [ih (i - 1) _ (by omega) (by omega)]
    congr 1
    funext j
    simp only [upd_apply]
    split_ifs <;> first | rfl | (congr 1; omega) | (exfalso; omega)

theorem arr_fill_ok {α : Type} (cap : Nat) (v : α) (n : Nat) :
    ∀ (i : Nat) (a : Nat → α), i + n ≤ cap →
      arr_fill cap v n i a = .ok (fun j => if i ≤ j ∧ j < i + n then v else a j) := by
  induction n with
  | zero =>
    intro i a _
    simp [arr_fill]
    funext j
    have : ¬ (i ≤ j ∧ j < i) := by omega
    simp [this]
  | succ n ih =>
    intro i a h1
    have h3 : i < cap := by omega
    simp only [arr_fill, arr_set_ok a _ h3, ok_bind]
    rw [ih (i + 1) _ (by omega)]
    congr 1
    funext j
    simp only [upd_apply]
    split_ifs <;> first | rfl | (congr 1; omega) | (exfalso; omega)

theorem arr_index_found {α : Type} [DecidableEq α] (cap : Nat) (a : Nat → α) (v : α) (k : Nat) :
    ∀ (n i : Nat), k < n → i + k < cap → a (i + k) = v → (∀ j, j < k → a (i + j) ≠ v) →
      arr_index cap a v n i = .ok (some (i + k)) := by
  induction k with
  | zero =>
    intro n i hn hc hv _
    cases n with
    | zero => omega
    | succ n =>
      have h3 : i < cap := by omega
      simp only [arr_index, arr_get_ok a h3, ok_bind]
      simp at hv
      simp [hv]
  | succ k ih =>
    intro n i hn hc hv hne
    cases n with
    | zero => omega
    | succ n =>
      have h3 : i < cap := by omega
      simp only [arr_index, arr_get_ok a h3, ok_bind]
      have h0 := hne 0 (by omega)
      simp at h0
      simp only [h0, if_false]
      have := ih n (i + 1) (by omega) (by omega) (by rw [← hv]; congr 1; omega)
        (fun j hj => by have := hne (j + 1) (by omega); rwa [show i + (j + 1) = i + 1 + j by omega] at this)
      rw [this]
      congr 2
      omega

theorem arr_index_none {α : Type} [DecidableEq α] (cap : Nat) (a : Nat → α) (v : α) :
    ∀ (n i : Nat), i + n ≤ cap → (∀ j, j < n → a (i + j) ≠ v) →
      arr_index cap a v n i = .ok none := by
  intro n
  induction n with
  | zero => intro i _ _; simp [arr_index]
  | succ n ih =>
    intro i hc hne
    have h3 : i < cap := by omega
    simp only [arr_index, arr_get_ok a h3, ok_bind]
    have h0 := hne 0 (by omega)
    simp at h0
    simp only [h0, if_false]
    exact ih (i + 1) (by omega)
      (fun j hj => by have := hne (j + 1) (by omega); rwa [show i + (j + 1) = i + 1 + j by omega] at this)


/-! ## Node accessors and the live part of an array -/

theorem getKey_ok (N : Nat) (nd : Node) {i : Nat} (h : i < 2 * N + 1) :
    nd.getKey N i = .ok (nd.keys i) := by simp [Node.getKey, arr_get_ok _ h]

theorem setKey_ok (N : Nat) (nd : Node) {i : Nat} (v : Nat) (h : i < 2 * N + 1) :
    nd.setKey N i v = .ok { nd with keys := upd nd.keys i v } := by
  simp [Node.setKey, arr_set_ok _ _ h]

theorem getChild_ok (N : Nat) (nd : Node) {i : Nat} (h : i < 2 * N + 2) :
    nd.getChild N i = .ok (nd.children i) := by simp [Node.getChild, arr_get_ok _ h]

theorem setChild_ok (N : Nat) (nd : Node) {i : Nat} (c : Option Nat) (h : i < 2 * N + 2) :
    nd.setChild N i c = .ok { nd with children := upd nd.children i c } := by
  simp [Node.setChild, arr_set_ok _ _ h]

@[simp] theorem set_heap (s : ADS_set) (p : Nat) (nd : Node) :
    (s.set p nd).heap = upd s.heap p nd := rfl

@[simp] theorem set_nxt (s : ADS_set) (p : Nat) (nd : Node) : (s.set p nd).nxt = s.nxt := rfl

@[simp] theorem set_root (s : ADS_set) (p : Nat) (nd : Node) : (s.set p nd).root = s.root := rfl

@[simp] theorem set_depth (s : ADS_set) (p : Nat) (nd : Node) : (s.set p nd).depth = s.depth := rfl

@[simp] theorem set_element_counter (s : ADS_set) (p : Nat) (nd : Node) :
    (s.set p nd).element_counter = s.element_counter := rfl

theorem ArrIs.len {α : Type} {a : Nat → α} {n : Nat} {l : List α} (h : ArrIs a n l) :
    n = l.length := h.1

theorem ArrIs.get? {α : Type} {a : Nat → α} {n : Nat} {l : List α} (h : ArrIs a n l)
    {i : Nat} (hi : i < n) : l[i]? = some (a i) := h.2 i (h.1 ▸ hi)

theorem ArrIs.getElem {α : Type} {a : Nat → α} {n : Nat} {l : List α} (h : ArrIs a n l)
    {i : Nat} (hi : i < l.length) : l[i] = a i := by
  have := h.2 i hi
  rw [List.getElem?_eq_getElem hi] at this
  exact Option.some.inj this

theorem arrIs_iff {α : Type} (a : Nat → α) (n : Nat) (l : List α) :
    ArrIs a n l ↔ l = (List.range n).map a := by
  constructor
  · intro h
    apply List.ext_getElem?
    intro i
    by_cases hi : i < l.length
    · rw [h.2 i hi]
      simp [h.1, hi]
    · have h1 : l.length ≤ i := by omega
      have h0 := h.1
      have h2 : (List.range n)[i]? = none := List.getElem?_eq_none (by simp; omega)
      rw [List.getElem?_eq_none h1, List.getElem?_map, h2]
      rfl
  · intro h
    subst h
    constructor
    · simp
    · intro i hi
      simp at hi
      simp [hi]

theorem ArrIs.unique {α : Type} {a : Nat → α} {n : Nat} {l l1 : List α} (h : ArrIs a n l)
    (h1 : ArrIs a n l1) : l = l1 := by
  rw [arrIs_iff] at h h1
  rw [h, h1]

theorem ArrIs.mem_iff {α : Type} {a : Nat → α} {n : Nat} {l : List α} (h : ArrIs a n l)
    (x : α) : x ∈ l ↔ ∃ i, i < n ∧ a i = x := by
  rw [arrIs_iff] at h
  subst h
  simp

theorem ArrIs.congr {α : Type} {a b : Nat → α} {n : Nat} {l : List α} (h : ArrIs a n l)
    (hab : ∀ i, i < n → b i = a i) : ArrIs b n l := by
  refine ⟨h.1, fun i hi => ?_⟩
  rw [h.2 i hi, hab i (h.1 ▸ hi)]

theorem ArrIs.mono {a : Nat → Nat} {n : Nat} {l : List Nat} (h : ArrIs a n l)
    (hs : l.Pairwise (fun x y => x < y)) {i j : Nat} (hij : i < j) (hj : j < n) : a i < a j := by
  have hj1 : j < l.length := h.1 ▸ hj
  have hi1 : i < l.length := by omega
  rw [← h.getElem hi1, ← h.getElem hj1]
  exact List.pairwise_iff_getElem.mp hs i j hi1 hj1 hij

theorem arrIs_nil {α : Type} (a : Nat → α) : ArrIs a 0 [] := by
  constructor <;> simp

theorem ArrIs.take {α : Type} {a : Nat → α} {n : Nat} {l : List α} (h : ArrIs a n l)
    {m : Nat} (hm : m ≤ n) : ArrIs a m (l.take m) := by
  have := h.1
  constructor
  · simp; omega
  · intro i hi
    simp at hi
    rw [List.getElem?_take_of_lt hi.1]
    exact h.2 i hi.2

theorem ArrIs.append_one {α : Type} {a : Nat → α} {n : Nat} {l : List α} (h : ArrIs a n l)
    (v : α) : ArrIs (upd a n v) (n + 1) (l ++ [v]) := by
  have := h.1
  constructor
  · simp; omega
  · intro i hi
    simp at hi
    by_cases c : i < l.length
    · rw [List.getElem?_append_left c, h.2 i c]
      have c1 : i ≠ n := by omega
      simp [c1]
    · have : i = l.length := by omega
      subst this
      simp [h.1]

theorem ArrIs.set {α : Type} {a : Nat → α} {n : Nat} {l : List α} (h : ArrIs a n l)
    (i : Nat) (v : α) : ArrIs (upd a i v) n (l.set i v) := by
  have := h.1
  constructor
  · simp; omega
  · intro j hj
    simp at hj
    rw [List.getElem?_set]
    by_cases c : i = j
    · subst c
      simp [hj]
    · have c1 : ¬ j = i := fun e => c e.symm
      simp [c, c1, h.2 j hj]

/-- Insertion at position `i`. -/
theorem ArrIs.insert {α : Type} {a g : Nat → α} {n : Nat} {l : List α} (h : ArrIs a n l)
    (i : Nat) (v : α) (hi : i ≤ n) (h1 : ∀ j, j < i → g j = a j) (h2 : g i = v)
    (h3 : ∀ j, i < j → j ≤ n → g j = a (j - 1)) :
    ArrIs g (n + 1) (l.take i ++ v :: l.drop i) := by
  have hl := h.1
  constructor
  · simp; omega
  · intro j hj
    simp at hj
    by_cases c : j < i
    · rw [List.getElem?_append_left (by simp; omega), List.getElem?_take_of_lt c,
        h.2 j (by omega), h1 j c]
    · rw [List.getElem?_append_right (by simp; omega)]
      simp only [List.length_take]
      have e : min i l.length = i := by omega
      rw [e]
      by_cases c1 : j = i
      · subst c1
        simp [h2]
      · have : j - i = (j - i - 1) + 1 := by omega
        rw [this, List.getElem?_cons_succ, List.getElem?_drop, h3 j (by omega) (by omega)]
        rw [show i + (j - i - 1) = j - 1 by omega]
        exact h.2 (j - 1) (by omega)

/-- Removal at position `i`. -/
theorem ArrIs.erase {α : Type} {a g : Nat → α} {n : Nat} {l : List α} (h : ArrIs a n l)
    (i : Nat) (hi : i < n) (h1 : ∀ j, j < i → g j = a j)
    (h3 : ∀ j, i ≤ j → j + 1 < n → g j = a (j + 1)) :
    ArrIs g (n - 1) (l.eraseIdx i) := by
  have hl := h.1
  constructor
  · rw [List.length_eraseIdx]
    simp [← hl, hi]
  · intro j hj
    rw [List.length_eraseIdx] at hj
    simp [← hl, hi] at hj
    rw [List.getElem?_eraseIdx]
    by_cases c : j < i
    · simp [c, h.2 j (by omega), h1 j c]
    · simp [c, h.2 (j + 1) (by omega), h3 j (by omega) (by omega)]

theorem ArrIs.append {α : Type} {a g : Nat → α} {n : Nat} {l : List α} (h : ArrIs a n l)
    (l1 : List α) (h1 : ∀ j, j < n → g j = a j)
    (h2 : ∀ j, j < l1.length → l1[j]? = some (g (n + j))) :
    ArrIs g (n + l1.length) (l ++ l1) := by
  have hl := h.1
  constructor
  · simp; omega
  · intro j hj
    simp at hj
    by_cases c : j < l.length
    · rw [List.getElem?_append_left c, h.2 j c, h1 j (by omega)]
    · rw [List.getElem?_append_right (by omega), h2 (j - l.length) (by omega)]
      congr 2
      omega


/-! ## `Node::add` -/

theorem shift_right_loop_ok (N : Nat) (n i : Nat) (nd : Node) (h1 : i < 2 * N + 1) (h2 : n ≤ i) :
    Node.shift_right_loop N n i nd =
      .ok { nd with keys := fun j => if i - n < j ∧ j ≤ i then nd.keys (j - 1) else nd.keys j } := by
  simp [Node.shift_right_loop, arr_shift_right_ok _ n i nd.keys h1 h2]

theorem add_search_spec (N : Nat) (nd : Node) (key : Nat) (n : Nat) (hn : n ≤ 2 * N + 1)
    (hmono : ∀ i j, i < j → j < n → nd.keys i < nd.keys j)
    (hne : ∀ i, i < n → nd.keys i ≠ key) :
    ∀ (f start end_ : Nat), end_ - start < f → start < end_ → end_ < n →
      nd.keys start < key → key < nd.keys end_ →
      ∃ m, Node.add_search N nd key f start end_ = .ok m ∧ start ≤ m ∧ m < end_ ∧
        nd.keys m < key ∧ key < nd.keys (m + 1) := by
  intro f
  induction f with
  | zero => intro start end_ h; omega
  | succ f ih =>
    intro start end_ hf hse hen hs he
    have hm1 : start + (end_ - start) / 2 < end_ := by omega
    have hm0 : start ≤ start + (end_ - start) / 2 := by omega
    generalize hmid : start + (end_ - start) / 2 = middle at hm1 hm0
    have g1 : middle + 1 < 2 * N + 1 := by omega
    have g0 : middle < 2 * N + 1 := by omega
    simp only [Node.add_search, hmid, getKey_ok N nd g1, getKey_ok N nd g0, ok_bind]
    by_cases c1 : key < nd.keys (middle + 1) ∧ nd.keys middle < key
    · rw [if_pos c1]
      exact ⟨middle, rfl, hm0, hm1, c1.2, c1.1⟩
    · rw [if_neg c1]
      by_cases c2 : key < nd.keys middle
      · rw [if_pos c2]
        have hsm : start < middle := by
          rcases Nat.lt_or_ge start middle with h | h
          · exact h
          · have : middle = start := by omega
            subst this
            omega
        rw [if_neg (by omega)]
        obtain ⟨m, e, a1, a2, a3, a4⟩ := ih start middle (by omega) hsm (by omega) hs c2
        exact ⟨m, e, a1, by omega, a3, a4⟩
      · rw [if_neg c2]
        have c3 : nd.keys middle < key := by
          have := hne middle (by omega)
          omega
        have c4 : nd.keys (middle + 1) < key := by
          have := hne (middle + 1) (by omega)
          have : ¬ key < nd.keys (middle + 1) := fun h => c1 ⟨h, c3⟩
          omega
        have hsm : middle ≠ start := by
          intro e
          have e2 : middle + 1 = end_ := by omega
          rw [e2] at c4
          omega
        rw [if_neg hsm]
        have hme : middle + 1 < end_ := by
          rcases Nat.lt_or_ge (middle + 1) end_ with h | h
          · exact h
          · have e2 : middle + 1 = end_ := by omega
            rw [e2] at c4
            omega
        obtain ⟨m, e, a1, a2, a3, a4⟩ := ih middle end_ (by omega) (by omega) hen c3 he
        exact ⟨m, e, by omega, a2, a3, a4⟩

theorem add_spec (N : Nat) (nd : Node) (key : Nat) (ks : List Nat)
    (h : ArrIs nd.keys nd.keys_counter ks) (hs : ks.Pairwise (fun x y => x < y))
    (hn : key ∉ ks) (hc : nd.keys_counter < 2 * N + 1) :
    ∃ g i, nd.add N key = .ok ({ nd with keys := g, keys_counter := nd.keys_counter + 1 }, i) ∧
      i ≤ nd.keys_counter ∧ ArrIs g (nd.keys_counter + 1) (ks.take i ++ key :: ks.drop i) ∧
      (∀ j, j < i → nd.keys j < key) ∧ (∀ j, i ≤ j → j < nd.keys_counter → key < nd.keys j) := by
  have hmono : ∀ i j, i < j → j < nd.keys_counter → nd.keys i < nd.keys j :=
    fun i j hij hj => h.mono hs hij hj
  have hne : ∀ i, i < nd.keys_counter → nd.keys i ≠ key := by
    intro i hi e
    exact hn ((h.mem_iff key).2 ⟨i, hi, e⟩)
  unfold Node.add
  by_cases c0 : nd.keys_counter = 0
  · rw [if_pos c0]
    have g0 : nd.keys_counter < 2 * N + 1 := hc
    simp only [setKey_ok N nd key g0, ok_bind]
    refine ⟨_, _, rfl, le_refl _, ?_, ?_, ?_⟩
    · exact h.insert nd.keys_counter key (le_refl _) (fun j hj => by simp; omega) (by simp)
        (fun j h1 h2 => by omega)
    · intro j hj; omega
    · intro j h1 h2; omega
  · rw [if_neg c0]
    have g0 : 0 < 2 * N + 1 := by omega
    simp only [getKey_ok N nd g0, ok_bind]
    by_cases c1 : key < nd.keys 0
    · rw [if_pos c1]
      simp only [shift_right_loop_ok N _ _ nd hc (le_refl _), ok_bind, setKey_ok N _ key g0]
      refine ⟨_, 0, rfl, Nat.zero_le _, ?_, ?_, ?_⟩
      · apply h.insert 0 key (Nat.zero_le _)
        · intro j hj; omega
        · simp
        · intro j h1 h2
          have : j ≠ 0 := by omega
          simp [this, h1, h2]
      · intro j hj; omega
      · intro j _ h2
        rcases Nat.eq_zero_or_pos j with e | e
        · subst e; exact c1
        · have := hmono 0 j e h2
          omega
    · rw [if_neg c1]
      have g1 : nd.keys_counter - 1 < 2 * N + 1 := by omega
      simp only [getKey_ok N nd g1, ok_bind]
      by_cases c2 : nd.keys (nd.keys_counter - 1) < key
      · rw [if_pos c2]
        simp only [setKey_ok N nd key hc, ok_bind]
        refine ⟨_, _, rfl, le_refl _, ?_, ?_, ?_⟩
        · exact h.insert nd.keys_counter key (le_refl _) (fun j hj => by simp; omega) (by simp)
            (fun j h1 h2 => by omega)
        · intro j hj
          rcases Nat.lt_or_ge j (nd.keys_counter - 1) with e | e
          · have := hmono j (nd.keys_counter - 1) e (by omega)
            omega
          · have : j = nd.keys_counter - 1 := by omega
            subst this
            exact c2
        · intro j h1 h2; omega
      · rw [if_neg c2]
        have d0 : nd.keys 0 < key := by
          have := hne 0 (by omega)
          omega
        have d1 : key < nd.keys (nd.keys_counter - 1) := by
          have := hne (nd.keys_counter - 1) (by omega)
          omega
        have d2 : 0 < nd.keys_counter - 1 := by
          rcases Nat.eq_zero_or_pos (nd.keys_counter - 1) with e | e
          · rw [e] at d1; omega
          · exact e
        obtain ⟨m, e, a1, a2, a3, a4⟩ := add_search_spec N nd key nd.keys_counter (by omega)
          hmono hne (nd.keys_counter + 1) 0 (nd.keys_counter - 1) (by omega) d2 (by omega) d0 d1
        have g2 : m + 1 < 2 * N + 1 := by omega
        simp only [e, ok_bind, shift_right_loop_ok N _ _ nd hc (Nat.sub_le _ _),
          setKey_ok N _ key g2]
        refine ⟨_, m + 1, rfl, by omega, ?_, ?_, ?_⟩
        · apply h.insert (m + 1) key (by omega)
          · intro j hj
            have : j ≠ m + 1 := by omega
            have : ¬ (nd.keys_counter - (nd.keys_counter - m) < j ∧ j ≤ nd.keys_counter) := by omega
            simp [*]
          · simp
          · intro j h1 h2
            have : j ≠ m + 1 := by omega
            have : nd.keys_counter - (nd.keys_counter - m) < j ∧ j ≤ nd.keys_counter := by omega
            simp [*]
        · intro j hj
          rcases Nat.lt_or_ge j m with e1 | e1
          · have := hmono j m e1 (by omega)
            omega
          · have : j = m := by omega
            subst this
            exact a3
        · intro j h1 h2
          rcases Nat.lt_or_ge (m + 1) j with e1 | e1
          · have := hmono (m + 1) j e1 h2
            omega
          · have : j = m + 1 := by omega
            subst this
            exact a4


/-! ## Descriptions of trees: rows of children -/

theorem headFirst_append {α : Type} (first : α → Nat) (l m : List α) (nx : Option Nat) :
    headFirst first (l ++ m) nx = headFirst first l (headFirst first m nx) := by
  cases l <;> rfl

theorem kidsAt_append {α : Type} (R : Option Nat → α → Prop) (first : α → Nat)
    (l m : List α) (nx : Option Nat) :
    KidsAt R first (l ++ m) nx ↔ KidsAt R first l (headFirst first m nx) ∧ KidsAt R first m nx := by
  induction l with
  | nil => simp [KidsAt, headFirst]
  | cons c l ih =>
    simp only [List.cons_append, KidsAt, List.append_eq, ih, headFirst_append]
    tauto

theorem kidsAt_mono {α : Type} {R R1 : Option Nat → α → Prop} (first : α → Nat)
    (cs : List α) (nx : Option Nat) (h : ∀ c ∈ cs, ∀ n, R n c → R1 n c) :
    KidsAt R first cs nx → KidsAt R1 first cs nx := by
  induction cs with
  | nil => simp [KidsAt]
  | cons c cs ih =>
    intro hk
    exact ⟨h c (List.mem_cons_self _ _) _ hk.1,
      ih (fun c1 hc1 => h c1 (List.mem_cons_of_mem _ hc1)) hk.2⟩

theorem ordKids_length {α : Type} (O : Nat → Nat → α → Prop) :
    ∀ (ks : List Nat) (cs : List α) (lo hi : Nat), OrdKids O ks cs lo hi →
      cs.length = ks.length + 1 := by
  intro ks
  induction ks with
  | nil =>
    intro cs lo hi h
    match cs, h with
    | [c], _ => rfl
  | cons k ks ih =>
    intro cs lo hi h
    match cs, h with
    | c :: cs, h =>
      have := ih cs k hi h.2.2
      simp [this]

theorem ordKids_lt {α : Type} (O : Nat → Nat → α → Prop) :
    ∀ (ks : List Nat) (cs : List α) (lo hi : Nat), OrdKids O ks cs lo hi → lo < hi := by
  intro ks
  induction ks with
  | nil =>
    intro cs lo hi h
    match cs, h with
    | [c], h => exact h.1
  | cons k ks ih =>
    intro cs lo hi h
    match cs, h with
    | c :: cs, h =>
      have := ih cs k hi h.2.2
      have := h.1
      omega

theorem ordKids_mono {α : Type} {O O1 : Nat → Nat → α → Prop} :
    ∀ (ks : List Nat) (cs : List α) (lo hi : Nat), (∀ c ∈ cs, ∀ l h, O l h c → O1 l h c) →
      OrdKids O ks cs lo hi → OrdKids O1 ks cs lo hi := by
  intro ks
  induction ks with
  | nil =>
    intro cs lo hi hm h
    match cs, h with
    | [c], h => exact ⟨h.1, hm c (List.mem_cons_self _ _) _ _ h.2⟩
  | cons k ks ih =>
    intro cs lo hi hm h
    match cs, h with
    | c :: cs, h =>
      exact ⟨h.1, hm c (List.mem_cons_self _ _) _ _ h.2.1,
        ih cs k hi (fun c1 hc1 => hm c1 (List.mem_cons_of_mem _ hc1)) h.2.2⟩

theorem ordPre_length {α : Type} (O : Nat → Nat → α → Prop) :
    ∀ (ks : List Nat) (cs : List α) (lo lo1 : Nat), OrdPre O ks cs lo lo1 →
      cs.length = ks.length := by
  intro ks
  induction ks with
  | nil =>
    intro cs lo lo1 h
    match cs, h with
    | [], _ => rfl
  | cons k ks ih =>
    intro cs lo lo1 h
    match cs, h with
    | c :: cs, h =>
      have := ih cs k lo1 h.2.2
      simp [this]

theorem ordPre_le {α : Type} (O : Nat → Nat → α → Prop) :
    ∀ (ks : List Nat) (cs : List α) (lo lo1 : Nat), OrdPre O ks cs lo lo1 →
      lo ≤ lo1 ∧ (∀ k ∈ ks, k ≤ lo1) ∧ (ks = [] → lo1 = lo) ∧ (ks ≠ [] → lo1 ∈ ks) := by
  intro ks
  induction ks with
  | nil =>
    intro cs lo lo1 h
    match cs, h with
    | [], h =>
      simp [OrdPre] at h
      simp [h]
  | cons k ks ih =>
    intro cs lo lo1 h
    match cs, h with
    | c :: cs, h =>
      obtain ⟨h1, h2, h3, h4⟩ := ih cs k lo1 h.2.2
      have := h.1
      refine ⟨by omega, ?_, by simp, ?_⟩
      · intro x hx
        rcases List.mem_cons.1 hx with e | e
        · omega
        · exact h2 x e
      · intro _
        by_cases c0 : ks = []
        · simp [h3 c0]
        · exact List.mem_cons_of_mem _ (h4 c0)

theorem ordPost_length {α : Type} (O : Nat → Nat → α → Prop) :
    ∀ (ks : List Nat) (cs : List α) (hi1 hi : Nat), OrdPost O ks cs hi1 hi →
      cs.length = ks.length := by
  intro ks cs hi1 hi h
  match ks, cs, h with
  | [], [], _ => rfl
  | k :: ks, c :: cs, h =>
    have := ordKids_length O ks (c :: cs) k hi h.2
    simp at this
    simp [this]

/-- Focusing on a segment of a row of children. -/
theorem ordKids_focus {α : Type} (O : Nat → Nat → α → Prop) :
    ∀ (ksl : List Nat) (l : List α) (mks : List Nat) (mcs : List α) (ksr : List Nat) (r : List α)
      (lo hi : Nat), ksl.length = l.length → mcs.length = mks.length + 1 → ksr.length = r.length →
      (OrdKids O (ksl ++ mks ++ ksr) (l ++ mcs ++ r) lo hi ↔
        ∃ lo1 hi1, OrdPre O ksl l lo lo1 ∧ OrdKids O mks mcs lo1 hi1 ∧ OrdPost O ksr r hi1 hi) := by
  intro ksl
  induction ksl with
  | nil =>
    intro l mks
    induction mks with
    | nil =>
      intro mcs ksr r lo hi hl hm hr
      match l, mcs, hl, hm with
      | [], [c], _, _ =>
        match ksr, r, hr with
        | [], [], _ =>
          simp only [List.nil_append, List.append_nil, OrdPre, OrdPost]
          constructor
          · intro h; exact ⟨lo, hi, rfl, h, rfl⟩
          · rintro ⟨lo1, hi1, e1, h, e2⟩; subst e1; subst e2; exact h
        | k :: ksr, c1 :: r, _ =>
          simp only [List.nil_append, List.singleton_append, OrdKids, OrdPre, OrdPost,
            List.append_eq]
          constructor
          · intro h; exact ⟨lo, k, rfl, ⟨h.1, h.2.1⟩, rfl, h.2.2⟩
          · rintro ⟨lo1, hi1, e1, h, e2, h2⟩; subst e1; subst e2; exact ⟨h.1, h.2, h2⟩
    | cons k mks ih =>
      intro mcs ksr r lo hi hl hm hr
      match l, mcs, hl, hm with
      | [], c :: mcs, _, hm =>
        have hm1 : mcs.length = mks.length + 1 := by simpa using hm
        have := ih mcs ksr r k hi rfl hm1 hr
        simp only [List.nil_append, List.cons_append, OrdKids, OrdPre, List.append_eq] at this ⊢
        rw [this]
        constructor
        · rintro ⟨h1, h2, lo1, hi1, e1, h3, h4⟩
          subst e1
          exact ⟨lo, hi1, rfl, ⟨h1, h2, h3⟩, h4⟩
        · rintro ⟨lo1, hi1, e1, ⟨h1, h2, h3⟩, h4⟩
          subst e1
          exact ⟨h1, h2, _, hi1, rfl, h3, h4⟩
  | cons k ksl ih =>
    intro l mks mcs ksr r lo hi hl hm hr
    match l, hl with
    | c :: l, hl =>
      have hl1 : ksl.length = l.length := by simpa using hl
      have := ih l mks mcs ksr r k hi hl1 hm hr
      simp only [List.cons_append, OrdKids, OrdPre, List.append_eq]
      rw [this]
      constructor
      · rintro ⟨h1, h2, lo1, hi1, h3, h4, h5⟩
        exact ⟨lo1, hi1, ⟨h1, h2, h3⟩, h4, h5⟩
      · rintro ⟨lo1, hi1, ⟨h1, h2, h3⟩, h4, h5⟩
        exact ⟨h1, h2, lo1, hi1, h3, h4, h5⟩


/-! ## Descriptions of trees: unfolding, framing, contents -/

theorem treeAt_zero (h : Nat → Node) (par nx : Option Nat) (t : BTree 0) :
    TreeAt h 0 par nx t ↔ LeafAt (h t.1) t.2 par nx := Iff.rfl

theorem treeAt_succ (h : Nat → Node) (d : Nat) (par nx : Option Nat) (a : Nat) (ks : List Nat)
    (cs : List (BTree d)) :
    TreeAt h (d + 1) par nx (a, ks, cs) ↔
      NodeAt (h a) ks (cs.map (BTree.addr d)) par ∧
        KidsAt (fun nx1 c => TreeAt h d (some a) nx1 c) (BTree.firstLeaf d) cs nx := Iff.rfl

theorem addrs_succ (d : Nat) (a : Nat) (ks : List Nat) (cs : List (BTree d)) :
    BTree.addrs (d + 1) (a, ks, cs) = a :: (cs.map (BTree.addrs d)).flatten := rfl

theorem contents_succ (d : Nat) (a : Nat) (ks : List Nat) (cs : List (BTree d)) :
    BTree.contents (d + 1) (a, ks, cs) = (cs.map (BTree.contents d)).flatten := rfl

theorem keyOrd_succ (d : Nat) (lo hi : Nat) (a : Nat) (ks : List Nat) (cs : List (BTree d)) :
    KeyOrd (d + 1) lo hi (a, ks, cs) ↔ OrdKids (fun l h c => KeyOrd d l h c) ks cs lo hi := Iff.rfl

theorem balN_succ (N mn mx d : Nat) (a : Nat) (ks : List Nat) (cs : List (BTree d)) :
    BalN N mn mx (d + 1) (a, ks, cs) ↔
      mn ≤ ks.length ∧ ks.length ≤ mx ∧ cs.length = ks.length + 1 ∧
        ∀ c ∈ cs, BalN N N (2 * N) d c := Iff.rfl

theorem addr_mem_addrs : ∀ (d : Nat) (t : BTree d), BTree.addr d t ∈ BTree.addrs d t := by
  intro d
  cases d with
  | zero => intro t; simp [BTree.addr, BTree.addrs]
  | succ d => intro t; simp [BTree.addr, BTree.addrs]

theorem addrs_child_subset (d : Nat) (a : Nat) (ks : List Nat) (cs : List (BTree d))
    (c : BTree d) (hc : c ∈ cs) (x : Nat) (hx : x ∈ BTree.addrs d c) :
    x ∈ BTree.addrs (d + 1) (a, ks, cs) := by
  rw [addrs_succ]
  apply List.mem_cons_of_mem
  rw [List.mem_flatten]
  exact ⟨_, List.mem_map_of_mem _ hc, hx⟩

theorem firstLeaf_mem_addrs : ∀ (d : Nat) (t : BTree d), BTree.firstLeaf d t ∈ BTree.addrs d t := by
  intro d
  induction d with
  | zero => intro t; simp [BTree.firstLeaf, BTree.addrs]
  | succ d ih =>
    intro t
    obtain ⟨a, ks, cs⟩ := t
    cases cs with
    | nil => simp [BTree.firstLeaf, BTree.addrs]
    | cons c cs =>
      exact addrs_child_subset d a ks (c :: cs) c (List.mem_cons_self _ _) _ (ih c)

theorem treeAt_frame (h h1 : Nat → Node) :
    ∀ (d : Nat) (t : BTree d) (par nx : Option Nat), (∀ x ∈ BTree.addrs d t, h1 x = h x) →
      TreeAt h d par nx t → TreeAt h1 d par nx t := by
  intro d
  induction d with
  | zero =>
    intro t par nx hf ht
    rw [treeAt_zero] at ht ⊢
    rw [hf t.1 (by simp [BTree.addrs])]
    exact ht
  | succ d ih =>
    intro t par nx hf ht
    obtain ⟨a, ks, cs⟩ := t
    rw [treeAt_succ] at ht ⊢
    rw [hf a (by simp [addrs_succ])]
    refine ⟨ht.1, kidsAt_mono _ cs nx ?_ ht.2⟩
    intro c hc n hr
    exact ih c (some a) n (fun x hx => hf x (addrs_child_subset d a ks cs c hc x hx)) hr

theorem keyOrd_weaken :
    ∀ (d : Nat) (t : BTree d) (lo hi lo1 hi1 : Nat), lo1 ≤ lo → hi ≤ hi1 →
      KeyOrd d lo hi t → KeyOrd d lo1 hi1 t := by
  intro d
  induction d with
  | zero =>
    intro t lo hi lo1 hi1 h1 h2 h
    refine ⟨h.1, fun k hk => ?_⟩
    have := h.2 k hk
    omega
  | succ d ih =>
    intro t lo hi lo1 hi1 h1 h2 h
    obtain ⟨a, ks, cs⟩ := t
    rw [keyOrd_succ] at h ⊢
    induction ks generalizing cs lo lo1 with
    | nil =>
      match cs, h with
      | [c], h => exact ⟨by have := h.1; omega, ih c lo hi lo1 hi1 h1 h2 h.2⟩
    | cons k ks ihk =>
      match cs, h with
      | c :: cs, h =>
        exact ⟨by have := h.1; omega, ih c lo k lo1 k h1 (le_refl _) h.2.1,
          by apply ihk <;> first | exact h.2.2 | exact le_refl _⟩

theorem contents_bounds :
    ∀ (d : Nat) (t : BTree d) (lo hi : Nat), KeyOrd d lo hi t →
      (∀ x ∈ BTree.contents d t, lo ≤ x ∧ x < hi) ∧
        (BTree.contents d t).Pairwise (fun x y => x < y) := by
  intro d
  induction d with
  | zero =>
    intro t lo hi h
    exact ⟨h.2, h.1⟩
  | succ d ih =>
    intro t lo hi h
    obtain ⟨a, ks, cs⟩ := t
    rw [keyOrd_succ] at h
    rw [contents_succ]
    induction ks generalizing cs lo with
    | nil =>
      match cs, h with
      | [c], h =>
        simp only [List.map_cons, List.map_nil, List.flatten_cons, List.flatten_nil,
          List.append_nil]
        exact ih c lo hi h.2
    | cons k ks ihk =>
      match cs, h with
      | c :: cs, h =>
        simp only [List.map_cons, List.flatten_cons]
        obtain ⟨b1, p1⟩ := ih c lo k h.2.1
        obtain ⟨b2, p2⟩ := ihk k cs h.2.2
        have hk := ordKids_lt _ ks cs k hi h.2.2
        have hlo := h.1
        constructor
        · intro x hx
          rcases List.mem_append.1 hx with e | e
          · have := b1 x e; omega
          · have := b2 x e; omega
        · rw [List.pairwise_append]
          refine ⟨p1, p2, fun x hx y hy => ?_⟩
          have := b1 x hx
          have := b2 y hy
          omega


/-! ## The descents and the search inside a node -/

theorem route_scan_aux (N : Nat) (nd : Node) (key : Nat) (ks : List Nat)
    (h : ArrIs nd.keys nd.keys_counter ks) (hc : nd.keys_counter ≤ 2 * N + 1) :
    ∀ (n i : Nat), i + n = nd.keys_counter →
      ADS_set.route_scan N nd key n i =
        .ok (if (ks.drop i).findIdx (fun k => decide (key < k)) < n then
          some (i + (ks.drop i).findIdx (fun k => decide (key < k))) else none) := by
  intro n
  induction n with
  | zero =>
    intro i _
    simp [ADS_set.route_scan]
  | succ n ih =>
    intro i hi
    have hl := h.1
    have g : i < 2 * N + 1 := by omega
    have hi1 : i < ks.length := by omega
    simp only [ADS_set.route_scan, getKey_ok N nd g, ok_bind]
    rw [List.drop_eq_getElem_cons hi1, List.findIdx_cons, h.getElem hi1]
    by_cases c : key < nd.keys i
    · simp [c]
    · simp only [c, if_false, decide_False, cond_false]
      rw [ih (i + 1) (by omega)]
      by_cases c1 : List.findIdx (fun k => decide (key < k)) (List.drop (i + 1) ks) < n
      · simp [c1]; omega
      · simp [c1]

theorem route_scan_spec (N : Nat) (nd : Node) (key : Nat) (ks : List Nat)
    (h : ArrIs nd.keys nd.keys_counter ks) (hc : nd.keys_counter ≤ 2 * N + 1) :
    ADS_set.route_scan N nd key nd.keys_counter 0 =
      .ok (if routeIdx ks key < ks.length then some (routeIdx ks key) else none) := by
  rw [route_scan_aux N nd key ks h hc nd.keys_counter 0 (by omega)]
  simp [routeIdx, h.1]

theorem routeIdx_le (ks : List Nat) (key : Nat) : routeIdx ks key ≤ ks.length :=
  List.findIdx_le_length _

theorem NodeAt.child {nd : Node} {ks : List Nat} {cs : List Nat} {par : Option Nat}
    (h : NodeAt nd ks cs par) {i : Nat} (hi : i < cs.length) : nd.children i = some cs[i] := by
  have := h.2.2.1.2 i (by simpa using hi)
  rw [List.getElem?_map, List.getElem?_eq_getElem hi] at this
  simpa using this.symm

theorem kidsAt_get {α : Type} (R : Option Nat → α → Prop) (first : α → Nat) :
    ∀ (cs : List α) (nx : Option Nat), KidsAt R first cs nx →
      ∀ (i : Nat) (hi : i < cs.length), R (headFirst first (cs.drop (i + 1)) nx) cs[i] := by
  intro cs
  induction cs with
  | nil => intro nx _ i hi; simp at hi
  | cons c cs ih =>
    intro nx h i hi
    cases i with
    | zero => simpa using h.1
    | succ i => simpa using ih nx h.2 i (by simpa using hi)

theorem find_leaf_route (N : Nat) (s : ADS_set) (key : Nat) :
    ∀ (d : Nat) (t : BTree d) (f : Nat) (par nx : Option Nat) (mn : Nat), d < f →
      TreeAt s.heap d par nx t → BalN N mn (2 * N) d t →
      ADS_set.find_leaf N f s (BTree.addr d t) key = .ok (BTree.route d t key).1 := by
  intro d
  induction d with
  | zero =>
    intro t f par nx mn hf ht _
    cases f with
    | zero => omega
    | succ f =>
      rw [treeAt_zero] at ht
      simp [ADS_set.find_leaf, BTree.addr, BTree.route, ht.1]
  | succ d ih =>
    intro t f par nx mn hf ht hb
    obtain ⟨a, ks, cs⟩ := t
    cases f with
    | zero => omega
    | succ f =>
      rw [treeAt_succ] at ht
      rw [balN_succ] at hb
      obtain ⟨hn, hk⟩ := ht
      have hkc : (s.heap a).keys_counter = ks.length := hn.2.1.1
      have hcc : (s.heap a).children_counter = cs.length := by
        have := hn.2.2.1.1
        simpa using this
      have hri := routeIdx_le ks key
      have hi : routeIdx ks key < cs.length := by omega
      have hch := hn.child (i := routeIdx ks key) (by simpa using hi)
      simp only [List.getElem_map] at hch
      have hroute : BTree.route (d + 1) (a, ks, cs) key = BTree.route d cs[routeIdx ks key] key := by
        simp [BTree.route, List.getElem?_eq_getElem hi]
      have hrec := ih cs[routeIdx ks key] f (some a) _ N (by omega)
        (kidsAt_get _ _ cs nx hk _ hi) (hb.2.2.2 _ (List.getElem_mem _))
      rw [hroute, ← hrec]
      simp only [ADS_set.find_leaf, BTree.addr, hn.1, Bool.not_false, if_true]
      rw [route_scan_spec N (s.heap a) key ks hn.2.1 (by omega)]
      simp only [ok_bind]
      by_cases c : routeIdx ks key < ks.length
      · simp only [c, if_true]
        rw [getChild_ok N _ (by omega), ok_bind, hch]
        simp [deref, BTree.addr]
      · simp only [c, if_false]
        have e : routeIdx ks key = ks.length := by omega
        have hz : (s.heap a).children_counter ≠ 0 := by omega
        rw [if_neg hz, getChild_ok N _ (by omega), ok_bind]
        have e2 : (s.heap a).children_counter - 1 = routeIdx ks key := by omega
        rw [e2, hch]
        simp [deref, BTree.addr]


/-! ## Routing in a description -/

theorem list_split_at {α : Type} (cs : List α) (i : Nat) (hi : i < cs.length) :
    cs = cs.take i ++ [cs[i]] ++ cs.drop (i + 1) := by
  rw [List.append_assoc, List.singleton_append, List.getElem_cons_drop, List.take_append_drop]

theorem routeIdx_take_le (ks : List Nat) (key : Nat) :
    ∀ k ∈ ks.take (routeIdx ks key), k ≤ key := by
  intro k hk
  rw [List.mem_take_iff_getElem] at hk
  obtain ⟨j, hj, e⟩ := hk
  have hj1 : j < routeIdx ks key := by omega
  have := @List.not_of_lt_findIdx _ (fun k => decide (key < k)) ks j hj1
  simp at this
  omega

theorem routeIdx_drop_gt (ks : List Nat) (key : Nat) (hs : ks.Pairwise (fun x y => x < y)) :
    ∀ k ∈ ks.drop (routeIdx ks key), key < k := by
  intro k hk
  by_cases hi : routeIdx ks key < ks.length
  · have h0 : key < ks[routeIdx ks key] := by
      have := @List.findIdx_getElem _ (fun k => decide (key < k)) ks hi
      simpa using this
    rw [List.drop_eq_getElem_cons hi] at hk
    rcases List.mem_cons.1 hk with e | e
    · rw [e]; exact h0
    · have hp : (ks[routeIdx ks key] :: ks.drop (routeIdx ks key + 1)).Pairwise (fun x y => x < y) := by
        rw [← List.drop_eq_getElem_cons hi]
        exact hs.sublist (List.drop_sublist _ _)
      have := (List.pairwise_cons.1 hp).1 k e
      omega
  · have : ks.drop (routeIdx ks key) = [] := List.drop_eq_nil_of_le (by omega)
    rw [this] at hk
    simp at hk

theorem ordKids_seps_sorted {α : Type} (O : Nat → Nat → α → Prop) :
    ∀ (ks : List Nat) (cs : List α) (lo hi : Nat), OrdKids O ks cs lo hi →
      ks.Pairwise (fun x y => x < y) ∧ ∀ k ∈ ks, lo < k ∧ k < hi := by
  intro ks
  induction ks with
  | nil => intro cs lo hi _; simp
  | cons k ks ih =>
    intro cs lo hi h
    match cs, h with
    | c :: cs, h =>
      obtain ⟨p, b⟩ := ih cs k hi h.2.2
      have hk := ordKids_lt O ks cs k hi h.2.2
      have hlo := h.1
      constructor
      · rw [List.pairwise_cons]
        exact ⟨fun x hx => (b x hx).1, p⟩
      · intro x hx
        rcases List.mem_cons.1 hx with e | e
        · omega
        · have := b x e; omega

theorem ordKids_child_bounds (d : Nat) :
    ∀ (ks : List Nat) (cs : List (BTree d)) (lo hi : Nat),
      OrdKids (fun l h c => KeyOrd d l h c) ks cs lo hi →
      ∀ c ∈ cs, ∀ x ∈ BTree.contents d c, lo ≤ x ∧ x < hi := by
  intro ks cs lo hi h c hc x hx
  have := (contents_bounds (d + 1) (0, ks, cs) lo hi h).1 x
  rw [contents_succ] at this
  apply this
  rw [List.mem_flatten]
  exact ⟨_, List.mem_map_of_mem _ hc, hx⟩

theorem ordPre_contents (d : Nat) :
    ∀ (ks : List Nat) (cs : List (BTree d)) (lo lo1 : Nat),
      OrdPre (fun l h c => KeyOrd d l h c) ks cs lo lo1 →
      ∀ c ∈ cs, ∀ x ∈ BTree.contents d c, lo ≤ x ∧ x < lo1 := by
  intro ks
  induction ks with
  | nil =>
    intro cs lo lo1 h
    match cs, h with
    | [], _ => intro c hc; simp at hc
  | cons k ks ih =>
    intro cs lo lo1 h
    match cs, h with
    | c :: cs, h =>
      intro c1 hc1 x hx
      have hle := (ordPre_le _ ks cs k lo1 h.2.2).1
      have hlo := h.1
      rcases List.mem_cons.1 hc1 with e | e
      · subst e
        have := (contents_bounds d c1 lo k h.2.1).1 x hx
        omega
      · have := ih cs k lo1 h.2.2 c1 e x hx
        omega

theorem ordPost_contents (d : Nat) :
    ∀ (ks : List Nat) (cs : List (BTree d)) (hi1 hi : Nat),
      OrdPost (fun l h c => KeyOrd d l h c) ks cs hi1 hi →
      ∀ c ∈ cs, ∀ x ∈ BTree.contents d c, hi1 ≤ x ∧ x < hi := by
  intro ks cs hi1 hi h
  match ks, cs, h with
  | [], [], _ => intro c hc; simp at hc
  | k :: ks, c :: cs, h =>
    intro c1 hc1 x hx
    have := ordKids_child_bounds d ks (c :: cs) k hi h.2 c1 hc1 x hx
    have := h.1
    omega

theorem ordPost_head {α : Type} (O : Nat → Nat → α → Prop) (ks : List Nat) (cs : List α)
    (hi1 hi : Nat) (h : OrdPost O ks cs hi1 hi) :
    hi1 ≤ hi ∧ (ks = [] → hi1 = hi) ∧ (∀ k ∈ ks, hi1 ≤ k) ∧ (ks ≠ [] → hi1 ∈ ks) := by
  match ks, cs, h with
  | [], [], h =>
    simp [OrdPost] at h
    simp [h]
  | k :: ks, c :: cs, h =>
    obtain ⟨e, h2⟩ := h
    subst e
    have := ordKids_lt O ks (c :: cs) hi1 hi h2
    obtain ⟨_, b⟩ := ordKids_seps_sorted O ks (c :: cs) hi1 hi h2
    refine ⟨by omega, by simp, ?_, by simp⟩
    intro x hx
    rcases List.mem_cons.1 hx with e | e
    · omega
    · have := b x e; omega

/-- The child a search follows, with the bounds it lies between. -/
theorem route_focus (d : Nat) (ks : List Nat) (cs : List (BTree d)) (lo hi key : Nat)
    (h : OrdKids (fun l h c => KeyOrd d l h c) ks cs lo hi) (hlo : lo ≤ key) (hhi : key < hi) :
    ∃ (hi0 : routeIdx ks key < cs.length) (lo1 hi1 : Nat),
      OrdPre (fun l h c => KeyOrd d l h c) (ks.take (routeIdx ks key))
        (cs.take (routeIdx ks key)) lo lo1 ∧
      KeyOrd d lo1 hi1 cs[routeIdx ks key] ∧
      OrdPost (fun l h c => KeyOrd d l h c) (ks.drop (routeIdx ks key))
        (cs.drop (routeIdx ks key + 1)) hi1 hi ∧
      lo1 ≤ key ∧ key < hi1 := by
  have hlen := ordKids_length _ ks cs lo hi h
  have hri := routeIdx_le ks key
  have hi0 : routeIdx ks key < cs.length := by omega
  have hs := (ordKids_seps_sorted _ ks cs lo hi h).1
  refine ⟨hi0, ?_⟩
  have e1 : ks = ks.take (routeIdx ks key) ++ [] ++ ks.drop (routeIdx ks key) := by simp
  have e2 := list_split_at cs _ hi0
  rw [e1, e2] at h
  rw [ordKids_focus _ _ _ _ _ _ _ lo hi (by simp; omega) (by simp) (by simp; omega)] at h
  obtain ⟨lo1, hi1, hpre, hmid, hpost⟩ := h
  refine ⟨lo1, hi1, hpre, hmid.2, hpost, ?_, ?_⟩
  · obtain ⟨_, b, b0, b1⟩ := ordPre_le _ _ _ _ _ hpre
    by_cases c : ks.take (routeIdx ks key) = []
    · rw [b0 c]; exact hlo
    · exact routeIdx_take_le ks key _ (b1 c)
  · obtain ⟨_, b0, _, b1⟩ := ordPost_head _ _ _ _ _ hpost
    by_cases c : ks.drop (routeIdx ks key) = []
    · rw [b0 c]; exact hhi
    · exact routeIdx_drop_gt ks key hs _ (b1 c)

theorem route_succ (d : Nat) (a : Nat) (ks : List Nat) (cs : List (BTree d)) (key : Nat)
    (hi : routeIdx ks key < cs.length) :
    BTree.route (d + 1) (a, ks, cs) key = BTree.route d cs[routeIdx ks key] key := by
  simp [BTree.route, List.getElem?_eq_getElem hi]

/-- The leaf reached by a search: it is in the heap, sorted, within the key-count
bounds, and it holds the key whenever the tree does. -/
theorem route_leaf (N : Nat) (h : Nat → Node) (key : Nat) :
    ∀ (d : Nat) (t : BTree d) (par nx : Option Nat) (lo hi mn : Nat),
      TreeAt h d par nx t → KeyOrd d lo hi t → BalN N mn (2 * N) d t → lo ≤ key → key < hi →
      ∃ par1 nx1, LeafAt (h (BTree.route d t key).1) (BTree.route d t key).2 par1 nx1 ∧
        (BTree.route d t key).2.Pairwise (fun x y => x < y) ∧
        (BTree.route d t key).2.length ≤ 2 * N ∧
        (key ∈ BTree.contents d t ↔ key ∈ (BTree.route d t key).2) := by
  intro d
  induction d with
  | zero =>
    intro t par nx lo hi mn ht ho hb _ _
    exact ⟨par, nx, ht, ho.1, hb.2, Iff.rfl⟩
  | succ d ih =>
    intro t par nx lo hi mn ht ho hb hlo hhi
    obtain ⟨a, ks, cs⟩ := t
    rw [treeAt_succ] at ht
    rw [keyOrd_succ] at ho
    rw [balN_succ] at hb
    obtain ⟨hi0, lo1, hi1, hpre, hmid, hpost, hl1, hh1⟩ := route_focus d ks cs lo hi key ho hlo hhi
    rw [route_succ d a ks cs key hi0]
    obtain ⟨par1, nx1, r1, r2, r3, r4⟩ := ih cs[routeIdx ks key] (some a) _ lo1 hi1 N
      (kidsAt_get _ _ cs nx ht.2 _ hi0) hmid (hb.2.2.2 _ (List.getElem_mem _)) hl1 hh1
    refine ⟨par1, nx1, r1, r2, r3, ?_⟩
    rw [← r4, contents_succ]
    constructor
    · intro hm
      rw [List.mem_flatten] at hm
      obtain ⟨l, hl, hx⟩ := hm
      rw [List.mem_map] at hl
      obtain ⟨c, hc, e⟩ := hl
      subst e
      rw [list_split_at cs _ hi0] at hc
      simp only [List.mem_append, List.mem_singleton] at hc
      rcases hc with (hc | hc) | hc
      · have := ordPre_contents d _ _ _ _ hpre c hc key hx
        omega
      · rw [← hc]; exact hx
      · have := ordPost_contents d _ _ _ _ hpost c hc key hx
        omega
    · intro hm
      rw [List.mem_flatten]
      exact ⟨_, List.mem_map_of_mem _ (List.getElem_mem _), hm⟩


/-! ## `binary_search_in_node`, `count` -/

theorem binary_search_spec (N : Nat) (nd : Node) (key : Nat) (ks : List Nat)
    (h : ArrIs nd.keys nd.keys_counter ks) (hs : ks.Pairwise (fun x y => x < y))
    (hc : nd.keys_counter ≤ 2 * N + 1) :
    ∀ (f : Nat) (start end_ : Int), 0 ≤ start → end_ ≤ nd.keys_counter →
      (end_ - start + 1).toNat < f → (0 < nd.keys_counter ∨ end_ < start) →
      (∀ i : Nat, (i : Int) < start → i < nd.keys_counter → nd.keys i < key) →
      (∀ i : Nat, end_ < (i : Int) → i < nd.keys_counter → key < nd.keys i) →
      ∃ m b, ADS_set.binary_search_in_node N nd key f start end_ = .ok (m, b) ∧
        (b = true → 0 ≤ m ∧ m.toNat < nd.keys_counter ∧ nd.keys m.toNat = key) ∧
        (b = false → m = -1 ∧ ∀ i, i < nd.keys_counter → nd.keys i ≠ key) := by
  have hmono : ∀ i j, i < j → j < nd.keys_counter → nd.keys i < nd.keys j :=
    fun i j hij hj => h.mono hs hij hj
  intro f
  induction f with
  | zero => intro start end_ _ _ hf; omega
  | succ f ih =>
    intro start end_ h0 he hf hpos hlo hhi
    unfold ADS_set.binary_search_in_node
    by_cases c : start ≤ end_
    · rw [if_pos c]
      have hkc : 0 < nd.keys_counter := by omega
      have hdiv : Int.tdiv (start + end_) 2 = (start + end_) / 2 :=
        Int.tdiv_eq_ediv (by omega) (by omega)
      simp only [hdiv]
      generalize hm : (start + end_) / 2 = middle
      have hm1 : start ≤ middle := by omega
      have hm2 : middle ≤ end_ := by omega
      by_cases ca : middle > (nd.keys_counter : Int) - 1
      · have : ADS_set.above_last middle nd.keys_counter = true := by
          simp [ADS_set.above_last]
          omega
        rw [this, if_pos rfl]
        refine ⟨-1, false, rfl, by simp, fun _ => ⟨rfl, ?_⟩⟩
        intro i hi
        have := hlo i (by omega) hi
        omega
      · have : ADS_set.above_last middle nd.keys_counter = false := by
          simp [ADS_set.above_last]
          omega
        rw [this]
        simp only [Bool.false_eq_true, if_false]
        rw [if_neg (by omega)]
        have g : middle.toNat < 2 * N + 1 := by omega
        simp only [getKey_ok N nd g, ok_bind]
        by_cases c1 : key < nd.keys middle.toNat
        · rw [if_pos c1]
          apply ih start (middle - 1) h0 (by omega) (by omega) (Or.inl hkc) hlo
          intro i h1 h2
          rcases Nat.lt_or_ge middle.toNat i with e | e
          · have := hmono _ _ e h2; omega
          · have : i = middle.toNat := by omega
            rw [this]; exact c1
        · rw [if_neg c1]
          by_cases c2 : nd.keys middle.toNat < key
          · rw [if_pos c2]
            apply ih (middle + 1) end_ (by omega) he (by omega) (Or.inl hkc) _ hhi
            intro i h1 h2
            rcases Nat.lt_or_ge i middle.toNat with e | e
            · have := hmono _ _ e (by omega); omega
            · have : i = middle.toNat := by omega
              rw [this]; exact c2
          · rw [if_neg c2]
            exact ⟨middle, true, rfl, fun _ => ⟨by omega, by omega, by omega⟩, by simp⟩
    · rw [if_neg c]
      refine ⟨-1, false, rfl, by simp, fun _ => ⟨rfl, ?_⟩⟩
      intro i hi
      rcases Int.lt_or_le (i : Int) start with e | e
      · have := hlo i e hi; omega
      · have := hhi i (by omega) hi; omega

/-- The search as `count`, `find` and `insert` call it (`end = keys_counter - 1`)
and as `erase` calls it (`end = keys_counter`). -/
theorem binary_search_call (N : Nat) (nd : Node) (key : Nat) (ks : List Nat)
    (h : ArrIs nd.keys nd.keys_counter ks) (hs : ks.Pairwise (fun x y => x < y))
    (hc : nd.keys_counter ≤ 2 * N + 1) (e : Int)
    (he : e = (nd.keys_counter : Int) - 1 ∨ (e = nd.keys_counter ∧ 0 < nd.keys_counter)) :
    ∃ m b, ADS_set.binary_search_in_node N nd key (ADS_set.search_fuel 0 e) 0 e = .ok (m, b) ∧
      (b = true ↔ key ∈ ks) ∧
      (b = true → 0 ≤ m ∧ m.toNat < nd.keys_counter ∧ nd.keys m.toNat = key) ∧
      (b = false → m = -1) := by
  obtain ⟨m, b, e1, h1, h2⟩ := binary_search_spec N nd key ks h hs hc (ADS_set.search_fuel 0 e) 0 e
    (le_refl _) (by omega) (by simp [ADS_set.search_fuel]; omega) (by omega)
    (fun i hi _ => by omega) (fun i hi hk => by omega)
  refine ⟨m, b, e1, ?_, h1, fun hb => (h2 hb).1⟩
  constructor
  · intro hb
    obtain ⟨_, a1, a2⟩ := h1 hb
    exact (h.mem_iff key).2 ⟨_, a1, a2⟩
  · intro hk
    obtain ⟨i, hi, e2⟩ := (h.mem_iff key).1 hk
    cases b with
    | true => rfl
    | false => exact absurd e2 ((h2 rfl).2 i hi)

theorem good_fuel (N : Nat) (s : ADS_set) (d : Nat) (t : BTree d) (hi : Nat)
    (g : GoodT N s d t hi) : d < s.fuel := by
  have h1 : ∀ (d : Nat) (t : BTree d) (mn : Nat), BalN N mn (2 * N) d t →
      d < (BTree.addrs d t).length := by
    intro d
    induction d with
    | zero => intro t mn _; simp [BTree.addrs]
    | succ d ih =>
      intro t mn hb
      obtain ⟨a, ks, cs⟩ := t
      rw [balN_succ] at hb
      rw [addrs_succ]
      match cs, hb with
      | c :: cs, hb =>
        have := ih c N (hb.2.2.2 c (List.mem_cons_self _ _))
        simp
        omega
  have h2 := h1 d t _ g.bal
  have h3 : (BTree.addrs d t).length ≤ s.nxt := by
    have hsub : (BTree.addrs d t).toFinset ⊆ Finset.range s.nxt := by
      intro x hx
      simp at hx
      simp [g.alloc x hx]
    have := Finset.card_le_card hsub
    rw [List.toFinset_card_of_nodup g.nodup] at this
    simpa using this
  simp [ADS_set.fuel]
  omega

theorem count_spec (N : Nat) (s : ADS_set) (d : Nat) (t : BTree d) (hi : Nat)
    (g : GoodT N s d t hi) (key : Nat) :
    ADS_set.count N s key = .ok (if key ∈ BTree.contents d t then 1 else 0) := by
  have hw : KeyOrd d 0 (max hi (key + 1)) t :=
    keyOrd_weaken d t 0 hi 0 _ (le_refl _) (le_max_left _ _) g.ord
  obtain ⟨par1, nx1, r1, r2, r3, r4⟩ := route_leaf N s.heap key d t none none 0 _ _
    g.tree hw g.bal (Nat.zero_le _) (by omega)
  have hfl := find_leaf_route N s key d t s.fuel none none _ (good_fuel N s d t hi g) g.tree g.bal
  rw [g.root_eq] at hfl
  unfold ADS_set.count
  rw [hfl]
  simp only [ok_bind]
  have hkc := r1.2.1.1
  obtain ⟨m, b, e1, hb, _, _⟩ := binary_search_call N _ key _ r1.2.1 r2 (by omega)
    (((s.heap (BTree.route d t key).1).keys_counter : Int) - 1) (Or.inl rfl)
  rw [e1]
  simp only [ok_bind]
  cases b with
  | true =>
    have : key ∈ BTree.contents d t := r4.2 (hb.1 rfl)
    simp [this]
  | false =>
    have : key ∉ BTree.contents d t := fun hk => by simpa using hb.2 (r4.1 hk)
    simp [this]


/-! ## Heap bookkeeping and the loops of the splits -/

theorem state_ext (s t : ADS_set) (h1 : s.heap = t.heap) (h2 : s.nxt = t.nxt)
    (h3 : s.root = t.root) (h4 : s.depth = t.depth) (h5 : s.element_counter = t.element_counter) :
    s = t := by
  cases s; cases t; simp at *; exact ⟨h1, h2, h3, h4, h5⟩

theorem node_ext (a b : Node) (h1 : a.keys = b.keys) (h2 : a.children = b.children)
    (h3 : a.parent = b.parent) (h4 : a.next = b.next) (h5 : a.leaf = b.leaf)
    (h6 : a.keys_counter = b.keys_counter) (h7 : a.children_counter = b.children_counter) :
    a = b := by
  cases a; cases b; simp at *; exact ⟨h1, h2, h3, h4, h5, h6, h7⟩

theorem upd_upd_same {α : Type} (a : Nat → α) (i : Nat) (v w : α) :
    upd (upd a i v) i w = upd a i w := by
  funext j
  by_cases h : j = i <;> simp [h]

@[simp] theorem set_set_same (s : ADS_set) (p : Nat) (a b : Node) :
    (s.set p a).set p b = s.set p b := by
  apply state_ext <;> simp [upd_upd_same]

theorem set_heap_same (s : ADS_set) (p : Nat) (nd : Node) : (s.set p nd).heap p = nd := by simp

theorem set_heap_other (s : ADS_set) (p q : Nat) (nd : Node) (h : q ≠ p) :
    (s.set p nd).heap q = s.heap q := by simp [h]

theorem add_append_eq (N : Nat) (nd : Node) (key : Nat) (hc : nd.keys_counter < 2 * N + 1)
    (h : 0 < nd.keys_counter → nd.keys 0 ≤ key ∧ nd.keys (nd.keys_counter - 1) < key) :
    nd.add N key =
      .ok ({ nd with keys := upd nd.keys nd.keys_counter key,
                     keys_counter := nd.keys_counter + 1 }, nd.keys_counter) := by
  unfold Node.add
  by_cases c0 : nd.keys_counter = 0
  · rw [if_pos c0]
    simp only [setKey_ok N nd key hc, ok_bind]
  · rw [if_neg c0]
    obtain ⟨h1, h2⟩ := h (by omega)
    have g0 : 0 < 2 * N + 1 := by omega
    have g1 : nd.keys_counter - 1 < 2 * N + 1 := by omega
    simp only [getKey_ok N nd g0, getKey_ok N nd g1, ok_bind]
    rw [if_neg (by omega), if_pos h2]
    simp only [setKey_ok N nd key hc, ok_bind]

theorem move_keys_loop_eq (N : Nat) (left right : Nat) (hlr : left ≠ right) :
    ∀ (n i : Nat) (s : ADS_set), i + n ≤ 2 * N + 1 →
      (s.heap right).keys_counter + n ≤ 2 * N + 1 →
      (∀ j j1, i ≤ j → j < j1 → j1 < i + n → (s.heap left).keys j < (s.heap left).keys j1) →
      (0 < (s.heap right).keys_counter → 0 < n →
        (s.heap right).keys 0 < (s.heap left).keys i ∧
          (s.heap right).keys ((s.heap right).keys_counter - 1) < (s.heap left).keys i) →
      ADS_set.move_keys_loop N n i s left right =
        .ok (s.set right { s.heap right with
          keys := fun j =>
            if (s.heap right).keys_counter ≤ j ∧ j < (s.heap right).keys_counter + n then
              (s.heap left).keys (i + (j - (s.heap right).keys_counter))
            else (s.heap right).keys j,
          keys_counter := (s.heap right).keys_counter + n }) := by
  intro n
  induction n with
  | zero =>
    intro i s _ _ _ _
    simp only [ADS_set.move_keys_loop]
    congr 1
    apply state_ext <;> simp
    funext q
    by_cases c : q = right
    · subst c
      simp
      have : ∀ j, ¬ ((s.heap q).keys_counter ≤ j ∧ j < (s.heap q).keys_counter) := by
        intro j; omega
      simp [this]
    · simp [c]
  | succ n ih =>
    intro i s h1 h2 hmono hlt
    have g0 : i < 2 * N + 1 := by omega
    have hadd := add_append_eq N (s.heap right) ((s.heap left).keys i) (by omega)
      (fun hp => by have := hlt hp (by omega); omega)
    simp only [ADS_set.move_keys_loop, getKey_ok N _ g0, ok_bind, hadd]
    rw [ih (i + 1) _ (by omega) (by simp; omega)
      (by
        intro j j1 a1 a2 a3
        simp only [set_heap, upd_apply, if_neg hlr]
        exact hmono j j1 (by omega) a2 (by omega))
      (by
        intro _ hn
        simp only [set_heap, upd_apply, if_neg hlr, if_true]
        have hm := hmono i (i + 1) (le_refl _) (by omega) (by omega)
        constructor
        · by_cases c : (s.heap right).keys_counter = 0
          · rw [if_pos c.symm]; exact hm
          · have := (hlt (by omega) (by omega)).1
            have c1 : ¬ 0 = (s.heap right).keys_counter := fun e => c e.symm
            rw [if_neg c1]; omega
        · simp only [Nat.add_sub_cancel, if_true]; exact hm)]
    congr 1
    apply state_ext <;> simp
    funext q
    by_cases c : q = right
    · subst c
      simp only [upd_apply, eq_self_iff_true, if_true, if_neg hlr]
      apply node_ext <;> try rfl
      · funext j
        simp only [upd_apply]
        split_ifs <;> first | rfl | (exfalso; omega) | (congr 1 <;> omega)
      · show (s.heap q).keys_counter + 1 + n = (s.heap q).keys_counter + (n + 1)
        omega
    · simp [c]

theorem move_children_loop_eq (N : Nat) (left right : Nat) (hlr : left ≠ right) :
    ∀ (n i : Nat) (s : ADS_set) (moved : List Nat), moved.length = n → i + n ≤ 2 * N + 2 →
      (s.heap right).children_counter + n ≤ 2 * N + 2 →
      (∀ j (hj : j < moved.length), (s.heap left).children (i + j) = some moved[j]) →
      (∀ x ∈ moved, x ≠ left ∧ x ≠ right) →
      ADS_set.move_children_loop N n i s left right =
        .ok ((({ s with heap := reparent s.heap moved right }).set right
          { s.heap right with
            children := fun j =>
              if (s.heap right).children_counter ≤ j ∧ j < (s.heap right).children_counter + n then
                (s.heap left).children (i + (j - (s.heap right).children_counter))
              else (s.heap right).children j,
            children_counter := (s.heap right).children_counter + n }).set left
          { s.heap left with
            children := fun j => if i ≤ j ∧ j < i + n then none else (s.heap left).children j }) := by
  intro n
  induction n with
  | zero =>
    intro i s moved hm _ _ _ _
    have : moved = [] := List.eq_nil_of_length_eq_zero hm
    subst this
    simp only [ADS_set.move_children_loop]
    congr 1
    apply state_ext <;> simp [reparent]
    funext q
    have : ∀ j, ¬ ((s.heap right).children_counter ≤ j ∧ j < (s.heap right).children_counter) := by
      intro j; omega
    have e2 : ∀ j, ¬ (i ≤ j ∧ j < i) := by intro j; omega
    by_cases c : q = left
    · subst c; simp [e2]
    · by_cases c1 : q = right
      · subst c1; simp [c, this]
      · simp [c, c1, reparent]
  | succ n ih =>
    intro i s moved hm h1 h2 hch hne
    match moved, hm with
    | c :: moved, hm =>
      have hm1 : moved.length = n := by simpa using hm
      have hc0 : (s.heap left).children i = some c := by simpa using hch 0 (by simp)
      obtain ⟨hcl, hcr⟩ := hne c (List.mem_cons_self _ _)
      have g0 : i < 2 * N + 2 := by omega
      have g1 : (s.heap right).children_counter < 2 * N + 2 := by omega
      have hlr1 : right ≠ left := fun e => hlr e.symm
      simp only [ADS_set.move_children_loop, getChild_ok N _ g0, ok_bind, hc0, deref, set_heap,
        upd_apply, if_neg hlr, if_neg hcl.symm, if_neg hcr.symm, if_neg hlr1, if_true,
        setChild_ok N _ _ g1, setChild_ok N _ _ g0]
      rw [ih (i + 1) _ moved hm1 (by omega)
        (by simp [hlr1]; omega)
        (by
          intro j hj
          have := hch (j + 1) (by simp; omega)
          simp only [List.getElem_cons_succ] at this
          simp only [set_heap, upd_apply, if_true]
          rw [if_neg (by omega), ← this]
          congr 1; omega)
        (fun x hx => hne x (List.mem_cons_of_mem _ hx))]
      congr 1
      apply state_ext <;> simp
      funext q
      simp only [reparent, upd_apply]
      by_cases c1 : q = left
      · subst c1
        simp only [upd_apply, eq_self_iff_true, if_true]
        apply node_ext <;> try rfl
        funext j
        simp only [upd_apply]
        split_ifs <;> first | rfl | (exfalso; omega)
      · simp only [if_neg c1]
        by_cases c2 : q = right
        · subst c2
          simp only [upd_apply, eq_self_iff_true, if_true, if_neg hlr1]
          apply node_ext <;> try rfl
          · funext j
            simp only [upd_apply]
            split_ifs <;> first | rfl | (exfalso; omega) | (congr 1 <;> omega) | simp_all
          · show (s.heap q).children_counter + 1 + n = (s.heap q).children_counter + (n + 1)
            omega
        · simp only [if_neg c2]
          by_cases c3 : q = c
          · subst c3
            simp [c1, c2]
          · simp [c3, c1, c2]

theorem list_take_succ_drop {α : Type} (l : List α) (i n : Nat) (hi : i < l.length) :
    (l.drop i).take (n + 1) = l[i] :: (l.drop (i + 1)).take n := by
  rw [List.drop_eq_getElem_cons hi, List.take_succ_cons]

theorem move_keys_loop_spec (N : Nat) (left right : Nat) (hlr : left ≠ right) (lks : List Nat)
    (hls : lks.Pairwise (fun x y => x < y)) :
    ∀ (n i : Nat) (s : ADS_set) (rks : List Nat) (lkc : Nat),
      ArrIs (s.heap left).keys lkc lks → lkc ≤ 2 * N + 1 →
      i + n ≤ lks.length →
      ArrIs (s.heap right).keys (s.heap right).keys_counter rks →
      rks.Pairwise (fun x y => x < y) → (∀ x ∈ rks, ∀ y ∈ lks.drop i, x < y) →
      (s.heap right).keys_counter + n ≤ 2 * N + 1 →
      ∃ g, ADS_set.move_keys_loop N n i s left right =
          .ok (s.set right { s.heap right with
            keys := g, keys_counter := (s.heap right).keys_counter + n }) ∧
        ArrIs g ((s.heap right).keys_counter + n) (rks ++ (lks.drop i).take n) := by
  intro n
  induction n with
  | zero =>
    intro i s rks lkc _ _ _ hr _ _ _
    refine ⟨(s.heap right).keys, ?_, by simpa using hr⟩
    simp only [ADS_set.move_keys_loop]
    congr 1
    apply state_ext <;> simp
    funext q
    by_cases c : q = right
    · simp [c]
    · simp [c]
  | succ n ih =>
    intro i s rks lkc hl hlc hin hr hrs hlt hcap
    have hi : i < lks.length := by omega
    have hl1 := hl.1
    have g0 : i < 2 * N + 1 := by omega
    have hkey : (s.heap left).keys i = lks[i] := (hl.getElem hi).symm
    have hnot : lks[i] ∉ rks := by
      intro hm
      have := hlt _ hm lks[i] (by rw [List.drop_eq_getElem_cons hi]; exact List.mem_cons_self _ _)
      omega
    obtain ⟨g1, j, eadd, hj, harr, hlo, hhi⟩ := add_spec N (s.heap right) lks[i] rks hr hrs hnot
      (by omega)
    have hjl : j = rks.length := by
      rcases Nat.lt_or_ge j rks.length with c | c
      · exfalso
        have h1 := hhi j (le_refl _) (by rw [hr.1]; exact c)
        have h2 := hlt rks[j] (List.getElem_mem _) lks[i]
          (by rw [List.drop_eq_getElem_cons hi]; exact List.mem_cons_self _ _)
        rw [← hr.getElem c] at h1
        omega
      · have := hr.1; omega
    subst hjl
    simp only [List.take_length, List.drop_length] at harr
    simp only [ADS_set.move_keys_loop, getKey_ok N _ g0, ok_bind, hkey, eadd]
    obtain ⟨g, e, ha⟩ := ih (i + 1)
      (s.set right { s.heap right with keys := g1, keys_counter := (s.heap right).keys_counter + 1 })
      (rks ++ [lks[i]]) lkc
      (by simpa [hlr] using hl) hlc (by omega) (by simpa using harr)
      (by
        rw [List.pairwise_append]
        refine ⟨hrs, by simp, ?_⟩
        intro x hx y hy
        simp at hy
        subst hy
        exact hlt x hx _ (by rw [List.drop_eq_getElem_cons hi]; exact List.mem_cons_self _ _))
      (by
        intro x hx y hy
        rcases List.mem_append.1 hx with c | c
        · exact hlt x c y (by rw [List.drop_eq_getElem_cons hi]; exact List.mem_cons_of_mem _ hy)
        · simp at c
          subst c
          have hp : (lks[i] :: lks.drop (i + 1)).Pairwise (fun x y => x < y) := by
            rw [← List.drop_eq_getElem_cons hi]
            exact hls.sublist (List.drop_sublist _ _)
          exact (List.pairwise_cons.1 hp).1 y hy)
      (by simp; omega)
    refine ⟨g, ?_, ?_⟩
    · rw [e]
      congr 1
      simp
      rw [show (s.heap right).keys_counter + 1 + n = (s.heap right).keys_counter + (n + 1) by omega]
    · rw [list_take_succ_drop lks i n hi]
      simp at ha
      have e2 : (s.heap right).keys_counter + (n + 1) = (s.heap right).keys_counter + 1 + n := by
        omega
      rw [e2]
      simpa using ha


/-! ## `root_split` -/

theorem ArrIs.drop {α : Type} {a : Nat → α} {n : Nat} {l : List α} (h : ArrIs a n l) (i : Nat)
    (g : Nat → α) (hg : ∀ j, i + j < n → g j = a (i + j)) : ArrIs g (n - i) (l.drop i) := by
  have hl := h.1
  constructor
  · simp; omega
  · intro j hj
    simp at hj
    rw [List.getElem?_drop, h.2 (i + j) (by omega), hg j (by omega)]

theorem ArrIs.of_append_left {α : Type} {a : Nat → α} {n : Nat} {l r : List α}
    (h : ArrIs a n (l ++ r)) (k : Nat) (hk : k = l.length) : ArrIs a k l := by
  subst hk
  have := h.take (m := l.length) (by rw [h.1]; simp)
  simpa using this

theorem ArrIs.of_append_right {α : Type} {a : Nat → α} {n : Nat} {l r : List α}
    (h : ArrIs a n (l ++ r)) (k : Nat) (hk : k = r.length) (g : Nat → α)
    (hg : ∀ j, j < r.length → g j = a (l.length + j)) : ArrIs g k r := by
  subst hk
  have hl := h.1
  simp at hl
  have := h.drop l.length g (fun j hj => hg j (by omega))
  simpa [hl] using this

theorem arrIs_two {α : Type} (a : Nat → α) (x y : α) (h0 : a 0 = x) (h1 : a 1 = y) :
    ArrIs a 2 [x, y] := by
  constructor
  · rfl
  · intro i hi
    simp at hi
    match i, hi with
    | 0, _ => simp [h0]
    | 1, _ => simp [h1]

theorem arrIs_one {α : Type} (a : Nat → α) (x : α) (h0 : a 0 = x) : ArrIs a 1 [x] := by
  constructor
  · rfl
  · intro i hi
    simp at hi
    subst hi
    simp [h0]

theorem root_split_leaf (N : Nat) (s : ADS_set) (lks rks : List Nat) (m : Nat)
    (hl : LeafAt (s.heap s.root) (lks ++ m :: rks) none none) (h1 : lks.length = N)
    (h2 : rks.length = N) (hs : (lks ++ m :: rks).Pairwise (fun x y => x < y))
    (hr : s.root < s.nxt) :
    ∃ s1, ADS_set.root_split N s = .ok s1 ∧ s1.root = s.nxt ∧ s1.nxt = s.nxt + 2 ∧
      s1.depth = s.depth + 1 ∧ s1.element_counter = s.element_counter ∧
      (∀ q, q < s.nxt → q ≠ s.root → s1.heap q = s.heap q) ∧
      TreeAt s1.heap 1 none none (s.nxt, [m], [(s.root, lks), (s.nxt + 1, m :: rks)]) := by
  obtain ⟨hleaf, hkeys, hpar, hnx⟩ := hl
  have hkc : (s.heap s.root).keys_counter = 2 * N + 1 := by
    rw [hkeys.1]; simp; omega
  have hm : (s.heap s.root).keys N = m := by
    have := hkeys.2 N (by simp; omega)
    rw [List.getElem?_append_right (by omega)] at this
    simp [h1] at this
    exact this.symm
  have d1 : s.root ≠ s.nxt := by omega
  have d2 : s.root ≠ s.nxt + 1 := by omega
  have d3 : s.nxt ≠ s.nxt + 1 := by omega
  have gN : N < 2 * N + 1 := by omega
  unfold ADS_set.root_split
  simp only [ADS_set.alloc, getKey_ok N _ gN, ok_bind, hm, hleaf, pure_eq_ok]
  simp [d1, d2, d3, d1.symm, d2.symm, d3.symm, setChild_ok, Node.fresh, Node.add, setKey_ok]
  rw [move_keys_loop_eq N _ _ d2]
  · simp [d1, d2, d3, d1.symm, d2.symm, d3.symm]
    constructor
    · intro q hq hqr
      have : q ≠ s.nxt := by omega
      have : q ≠ s.nxt + 1 := by omega
      simp [*]
    · simp only [treeAt_succ, treeAt_zero, KidsAt, headFirst, BTree.firstLeaf, NodeAt, LeafAt,
        List.map_cons, List.map_nil, BTree.addr, upd_apply]
      simp [d1, d2, d3, d1.symm, d2.symm, d3.symm]
      refine ⟨⟨arrIs_one _ _ (by simp), arrIs_two _ _ _ (by simp) (by simp)⟩, ?_, ?_⟩
      · exact hkeys.of_append_left _ (by omega)
      · exact hkeys.of_append_right _ (by simp; omega) _ (fun j hj => by
          simp at hj
          have : j < (s.heap s.root).keys_counter - N := by omega
          simp [this, h1])
  · omega
  · simp [d1, d2, d3, d1.symm, d2.symm, d3.symm]; omega
  · intro j j1 a1 a2 a3
    simp [d1, d2, d3, d1.symm, d2.symm, d3.symm] at a3 ⊢
    exact hkeys.mono hs a2 (by omega)
  · intro h
    simp [d1, d2, d3, d1.symm, d2.symm, d3.symm] at h


/-! ## Distinct addresses, framing of rows of children -/

theorem flatten_nodup_focus {α β : Type} (f : α → List β) (l r : List α) (c : α)
    (h : ((l ++ c :: r).map f).flatten.Nodup) :
    (f c).Nodup ∧ (∀ c1 ∈ l ++ r, ∀ x ∈ f c1, x ∉ f c) ∧ ((l ++ r).map f).flatten.Nodup := by
  simp only [List.map_append, List.map_cons, List.flatten_append, List.flatten_cons] at h ⊢
  rw [List.nodup_append] at h
  obtain ⟨h1, h2, h3⟩ := h
  rw [List.nodup_append] at h2
  obtain ⟨h4, h5, h6⟩ := h2
  refine ⟨h4, ?_, ?_⟩
  · intro c1 hc1 x hx hxc
    rcases List.mem_append.1 hc1 with e | e
    · have hm : x ∈ (List.map f l).flatten := by
        rw [List.mem_flatten]; exact ⟨_, List.mem_map_of_mem _ e, hx⟩
      exact h3 hm (List.mem_append_left _ hxc)
    · have hm : x ∈ (List.map f r).flatten := by
        rw [List.mem_flatten]; exact ⟨_, List.mem_map_of_mem _ e, hx⟩
      exact h6 hxc hm
  · rw [List.nodup_append]
    refine ⟨h1, h5, ?_⟩
    intro x hx hx2
    exact h3 hx (List.mem_append_right _ hx2)

theorem addrs_nodup_root (d : Nat) (a : Nat) (ks : List Nat) (cs : List (BTree d))
    (h : (BTree.addrs (d + 1) (a, ks, cs)).Nodup) :
    (∀ c ∈ cs, a ∉ BTree.addrs d c) ∧ ((cs.map (BTree.addrs d)).flatten).Nodup := by
  rw [addrs_succ, List.nodup_cons] at h
  refine ⟨?_, h.2⟩
  intro c hc ha
  apply h.1
  rw [List.mem_flatten]
  exact ⟨_, List.mem_map_of_mem _ hc, ha⟩

theorem kidsAt_frame (h h1 : Nat → Node) (d : Nat) (par : Option Nat) (cs : List (BTree d))
    (nx : Option Nat) (hf : ∀ c ∈ cs, ∀ x ∈ BTree.addrs d c, h1 x = h x) :
    KidsAt (fun n c => TreeAt h d par n c) (BTree.firstLeaf d) cs nx →
      KidsAt (fun n c => TreeAt h1 d par n c) (BTree.firstLeaf d) cs nx := by
  apply kidsAt_mono
  intro c hc n ht
  exact treeAt_frame h h1 d c par n (hf c hc) ht

theorem treeAt_reparent (h h1 : Nat → Node) (p1 : Option Nat) :
    ∀ (d : Nat) (t : BTree d) (par nx : Option Nat), (BTree.addrs d t).Nodup →
      (∀ x ∈ BTree.addrs d t, x ≠ BTree.addr d t → h1 x = h x) →
      h1 (BTree.addr d t) = { h (BTree.addr d t) with parent := p1 } →
      TreeAt h d par nx t → TreeAt h1 d p1 nx t := by
  intro d
  cases d with
  | zero =>
    intro t par nx _ _ he ht
    rw [treeAt_zero] at ht ⊢
    simp only [BTree.addr] at he
    rw [he]
    exact ⟨ht.1, ht.2.1, rfl, ht.2.2.2⟩
  | succ d =>
    intro t par nx hnd hf he ht
    obtain ⟨a, ks, cs⟩ := t
    rw [treeAt_succ] at ht ⊢
    simp only [BTree.addr] at he hf
    rw [he]
    refine ⟨⟨ht.1.1, ht.1.2.1, ht.1.2.2.1, rfl, ht.1.2.2.2.2⟩, ?_⟩
    apply kidsAt_frame h h1 d (some a) cs nx _ ht.2
    intro c hc x hx
    apply hf x (addrs_child_subset d a ks cs c hc x hx)
    intro e
    subst e
    exact (addrs_nodup_root d x ks cs hnd).1 c hc hx

theorem kidsAt_reparent (h h1 : Nat → Node) (d : Nat) (par : Option Nat) (p1 : Nat)
    (cs : List (BTree d)) (nx : Option Nat)
    (hnd : ∀ c ∈ cs, (BTree.addrs d c).Nodup)
    (hf : ∀ c ∈ cs, ∀ x ∈ BTree.addrs d c, x ≠ BTree.addr d c → h1 x = h x)
    (he : ∀ c ∈ cs, h1 (BTree.addr d c) = { h (BTree.addr d c) with parent := some p1 }) :
    KidsAt (fun n c => TreeAt h d par n c) (BTree.firstLeaf d) cs nx →
      KidsAt (fun n c => TreeAt h1 d (some p1) n c) (BTree.firstLeaf d) cs nx := by
  apply kidsAt_mono
  intro c hc n ht
  exact treeAt_reparent h h1 (some p1) d c par n (hnd c hc) (hf c hc) (he c hc) ht


/-! ## Replacing a segment of a row of children -/

theorem treeAt_replace (h h1 : Nat → Node) (d : Nat) (a : Nat) (ks ks1 : List Nat)
    (l r mid mid1 : List (BTree d)) (par nx : Option Nat)
    (hT : TreeAt h (d + 1) par nx (a, ks, l ++ (mid ++ r)))
    (hN : NodeAt (h1 a) ks1 ((l ++ (mid1 ++ r)).map (BTree.addr d)) par)
    (hf : ∀ c ∈ l ++ r, ∀ x ∈ BTree.addrs d c, h1 x = h x)
    (hfirst : headFirst (BTree.firstLeaf d) (mid1 ++ r) nx =
      headFirst (BTree.firstLeaf d) (mid ++ r) nx)
    (hmid : KidsAt (fun n c => TreeAt h1 d (some a) n c) (BTree.firstLeaf d) mid1
      (headFirst (BTree.firstLeaf d) r nx)) :
    TreeAt h1 (d + 1) par nx (a, ks1, l ++ (mid1 ++ r)) := by
  rw [treeAt_succ] at hT ⊢
  refine ⟨hN, ?_⟩
  have hk := hT.2
  rw [kidsAt_append, kidsAt_append] at hk
  rw [kidsAt_append, kidsAt_append]
  refine ⟨?_, hmid, ?_⟩
  · rw [hfirst]
    exact kidsAt_frame h h1 d (some a) l _
      (fun c hc x hx => hf c (List.mem_append_left _ hc) x hx) hk.1
  · exact kidsAt_frame h h1 d (some a) r _
      (fun c hc x hx => hf c (List.mem_append_right _ hc) x hx) hk.2.2

theorem take_drop_insert {α : Type} (l r : List α) (x v : α) :
    (l ++ x :: r).take (l.length + 1) ++ v :: (l ++ x :: r).drop (l.length + 1) =
      l ++ x :: v :: r := by
  have e : l ++ x :: r = (l ++ [x]) ++ r := by simp
  have hl : (l ++ [x]).length = l.length + 1 := by simp
  rw [e, ← hl, List.take_left, List.drop_left]
  simp

/-- The children array after a new child is inserted right of child number `l.length`. -/
theorem kids_insert (d : Nat) (l r : List (BTree d)) (c c1 c2 : BTree d)
    (hc : BTree.addr d c1 = BTree.addr d c) (a g : Nat → Option Nat) (n : Nat)
    (h : ArrIs a n ((l ++ c :: r).map (BTree.addr d) |>.map some))
    (h1 : ∀ j, j ≤ l.length → g j = a j) (h2 : g (l.length + 1) = some (BTree.addr d c2))
    (h3 : ∀ j, l.length + 1 < j → j ≤ n → g j = a (j - 1)) :
    ArrIs g (n + 1) ((l ++ c1 :: c2 :: r).map (BTree.addr d) |>.map some) := by
  have hn := h.1
  simp at hn
  have := h.insert (g := g) (l.length + 1) (some (BTree.addr d c2)) (by omega)
    (fun j hj => h1 j (by omega)) h2 h3
  convert this using 1
  simp only [List.map_append, List.map_cons, hc]
  have := take_drop_insert (List.map some (List.map (BTree.addr d) l))
    (List.map some (List.map (BTree.addr d) r)) (some (BTree.addr d c)) (some (BTree.addr d c2))
  simp only [List.length_map] at this
  exact this.symm

theorem flatten_nodup_unique {α β : Type} (f : α → List β) :
    ∀ (cs : List α), (cs.map f).flatten.Nodup → ∀ c1 ∈ cs, ∀ c2 ∈ cs, ∀ x, x ∈ f c1 → x ∈ f c2 →
      c1 = c2 := by
  intro cs
  induction cs with
  | nil => intro _ c1 h1; simp at h1
  | cons c cs ih =>
    intro h c1 h1 c2 h2 x hx1 hx2
    simp only [List.map_cons, List.flatten_cons] at h
    rw [List.nodup_append] at h
    obtain ⟨_, h4, h5⟩ := h
    rcases List.mem_cons.1 h1 with e1 | e1 <;> rcases List.mem_cons.1 h2 with e2 | e2
    · rw [e1, e2]
    · exfalso
      subst e1
      exact h5 hx1 (List.mem_flatten.2 ⟨_, List.mem_map_of_mem _ e2, hx2⟩)
    · exfalso
      subst e2
      exact h5 hx2 (List.mem_flatten.2 ⟨_, List.mem_map_of_mem _ e1, hx1⟩)
    · exact ih h4 c1 e1 c2 e2 x hx1 hx2

theorem flatten_nodup_append {α β : Type} (f : α → List β) (l r : List α)
    (h : ((l ++ r).map f).flatten.Nodup) :
    (l.map f).flatten.Nodup ∧ (r.map f).flatten.Nodup ∧
      ∀ c1 ∈ l, ∀ c2 ∈ r, ∀ x, x ∈ f c1 → x ∉ f c2 := by
  simp only [List.map_append, List.flatten_append] at h
  rw [List.nodup_append] at h
  refine ⟨h.1, h.2.1, ?_⟩
  intro c1 h1 c2 h2 x hx1 hx2
  exact h.2.2 (List.mem_flatten.2 ⟨_, List.mem_map_of_mem _ h1, hx1⟩)
    (List.mem_flatten.2 ⟨_, List.mem_map_of_mem _ h2, hx2⟩)

theorem flatten_nodup_mem {α β : Type} (f : α → List β) (cs : List α)
    (h : (cs.map f).flatten.Nodup) (c : α) (hc : c ∈ cs) : (f c).Nodup := by
  obtain ⟨l, r, rfl⟩ := List.append_of_mem hc
  exact (flatten_nodup_focus f l r c h).1

theorem firstLeaf_succ_cons (d : Nat) (a : Nat) (ks : List Nat) (c : BTree d)
    (cs : List (BTree d)) :
    BTree.firstLeaf (d + 1) (a, ks, c :: cs) = BTree.firstLeaf d c := rfl

theorem headFirst_cons {α : Type} (first : α → Nat) (c : α) (cs : List α) (nx : Option Nat) :
    headFirst first (c :: cs) nx = some (first c) := rfl

theorem headFirst_nil {α : Type} (first : α → Nat) (nx : Option Nat) :
    headFirst first [] nx = nx := rfl


/-! ## `external_split` -/

theorem add_position (ksl ksr : List Nat) (m : Nat) (a : Nat → Nat) (n i : Nat)
    (h : ArrIs a n (ksl ++ ksr)) (hlo : ∀ x ∈ ksl, x < m) (hhi : ∀ x ∈ ksr, m < x)
    (hi : i ≤ n) (h1 : ∀ j, j < i → a j < m) (h2 : ∀ j, i ≤ j → j < n → m < a j) :
    i = ksl.length := by
  have hl := h.1
  simp at hl
  rcases Nat.lt_trichotomy i ksl.length with c | c | c
  · exfalso
    have e := h.2 i (by simp; omega)
    rw [List.getElem?_append_left c, List.getElem?_eq_getElem c] at e
    have e1 : ksl[i] = a i := Option.some.inj e
    have := hlo ksl[i] (List.getElem_mem _)
    have := h2 i (le_refl _) (by omega)
    omega
  · exact c
  · exfalso
    have hlt : ksl.length < (ksl ++ ksr).length := by simp; omega
    have e := h.2 ksl.length hlt
    rw [List.getElem?_append_right (le_refl _)] at e
    simp at e
    have hr0 : 0 < ksr.length := by omega
    rw [List.getElem?_eq_getElem hr0] at e
    have e1 : ksr[0] = a ksl.length := Option.some.inj e
    have := hhi ksr[0] (List.getElem_mem _)
    have := h1 ksl.length c
    omega

theorem external_split_body_spec (N : Nat) (s : ADS_set) (a : Nat) (ksl ksr : List Nat)
    (l r : List (BTree 0)) (ca : Nat) (lks rks : List Nat) (m : Nat) (par nx : Option Nat)
    (hT : TreeAt s.heap 1 par nx (a, ksl ++ ksr, l ++ BTree.leaf ca (lks ++ m :: rks) :: r))
    (hkl : ksl.length = l.length) (hkr : ksr.length = r.length)
    (hN1 : lks.length = N) (hN2 : rks.length = N)
    (hsort : (lks ++ m :: rks).Pairwise (fun x y => x < y))
    (hks : (ksl ++ ksr).Pairwise (fun x y => x < y))
    (hlo : ∀ x ∈ ksl, x < m) (hhi : ∀ x ∈ ksr, m < x) (hcap : (ksl ++ ksr).length ≤ 2 * N)
    (hnd : (BTree.addrs 1 (a, ksl ++ ksr, l ++ BTree.leaf ca (lks ++ m :: rks) :: r)).Nodup)
    (hal : ∀ x ∈ BTree.addrs 1 (a, ksl ++ ksr, l ++ BTree.leaf ca (lks ++ m :: rks) :: r), x < s.nxt) :
    ∃ s1, ADS_set.external_split_body N s ca = .ok s1 ∧
      TreeAt s1.heap 1 par nx
        (a, ksl ++ m :: ksr, l ++ BTree.leaf ca lks :: BTree.leaf s.nxt (m :: rks) :: r) ∧
      s1.nxt = s.nxt + 1 ∧ s1.root = s.root ∧ s1.depth = s.depth ∧
      s1.element_counter = s.element_counter ∧
      (∀ q, q < s.nxt → q ≠ a → q ≠ ca → s1.heap q = s.heap q) := by
  have hT0 := hT
  rw [treeAt_succ] at hT
  obtain ⟨hnode, hkids⟩ := hT
  rw [kidsAt_append] at hkids
  obtain ⟨hkl1, hkids2⟩ := hkids
  obtain ⟨hleaf, hkr1⟩ := hkids2
  rw [treeAt_zero] at hleaf
  obtain ⟨hna, hnk, hnc, hnp⟩ := hnode
  have hla : (s.heap ca).leaf = true := hleaf.1
  have hlk : ArrIs (s.heap ca).keys (s.heap ca).keys_counter (lks ++ m :: rks) := hleaf.2.1
  have hlp : (s.heap ca).parent = some a := hleaf.2.2.1
  have hln : (s.heap ca).next = headFirst (BTree.firstLeaf 0) r nx := hleaf.2.2.2
  clear hleaf
  -- addresses
  have hnr := addrs_nodup_root 0 a _ _ hnd
  have haca : a ≠ ca := by
    intro e
    exact hnr.1 (BTree.leaf ca (lks ++ m :: rks)) (by simp) (by simp [BTree.addrs, e])
  have hfoc := flatten_nodup_focus (BTree.addrs 0) l r (BTree.leaf ca (lks ++ m :: rks)) hnr.2
  have han : a < s.nxt := hal a (by simp [addrs_succ])
  have hcan : ca < s.nxt := hal ca (by simp [addrs_succ, BTree.addrs])
  have d1 : a ≠ s.nxt := by omega
  have d2 : ca ≠ s.nxt := by omega
  -- the leaf
  have hkc : (s.heap ca).keys_counter = 2 * N + 1 := by
    rw [hlk.1]; simp; omega
  have hm : (s.heap ca).keys N = m := by
    have := hlk.2 N (by simp; omega)
    rw [List.getElem?_append_right (by omega)] at this
    simp [hN1] at this
    exact this.symm
  -- the parent's keys
  have hmk : m ∉ ksl ++ ksr := by
    intro hm
    rcases List.mem_append.1 hm with e | e
    · have := hlo m e; omega
    · have := hhi m e; omega
  obtain ⟨g, i, eadd, hi, harr, hp1, hp2⟩ := add_spec N (s.heap a) m (ksl ++ ksr) hnk hks hmk
    (by rw [hnk.1]; omega)
  have hil : i = ksl.length := add_position ksl ksr m _ _ i hnk hlo hhi hi hp1 hp2
  subst hil
  rw [List.take_left, List.drop_left] at harr
  -- the parent's children
  have hcc : (s.heap a).children_counter = l.length + 1 + r.length := by
    rw [hnc.1]; simp; omega
  have hchild : ∀ j (hj : j < (l ++ BTree.leaf ca (lks ++ m :: rks) :: r).length),
      (s.heap a).children j = some (BTree.addr 0 (l ++ BTree.leaf ca (lks ++ m :: rks) :: r)[j]) := by
    intro j hj
    have := hnc.2 j (by simpa using hj)
    rw [List.getElem?_map, List.getElem?_map, List.getElem?_eq_getElem hj] at this
    simpa using this.symm
  have hchl : (s.heap a).children l.length = some ca := by
    have := hnc.2 l.length (by simp)
    simp only [List.map_append, List.map_cons] at this
    rw [List.getElem?_append_right (by simp)] at this
    simp [BTree.addr] at this
    exact this.symm
  have hidx : ∀ (nd : Node) (n : Nat), nd.children = (s.heap a).children →
      n = l.length + 1 + r.length →
      Node.child_index_loop N nd ca n 0 = .ok (some l.length) := by
    intro nd n hnd1 hn
    have := arr_index_found (2 * N + 2) (s.heap a).children (some ca) l.length
      n 0 (by omega) (by simp at hcap; omega) (by simpa using hchl)
      (by
        intro j hj
        simp only [Nat.zero_add]
        rw [hchild j (by simp; omega), List.getElem_append_left hj]
        intro e
        have hx := hfoc.2.1 l[j] (List.mem_append_left _ (List.getElem_mem _))
          (BTree.addr 0 l[j]) (addr_mem_addrs 0 _)
        apply hx
        simp only [Option.some.injEq] at e
        rw [e]
        simp [BTree.addrs])
    simpa [Node.child_index_loop, hnd1] using this
  have gN : N < 2 * N + 1 := by omega
  rcases r with _ | ⟨c1, r1⟩
  · -- the split leaf is the last child
    simp only [headFirst] at hln
    have hkr0 : ksr = [] := List.eq_nil_of_length_eq_zero (by simpa using hkr)
    subst hkr0
    simp only [List.length_nil, Nat.add_zero] at hcc
    unfold ADS_set.external_split_body
    simp only [ADS_set.alloc, getKey_ok N _ gN, ok_bind, hm, pure_eq_ok]
    cases nx with
    | none =>
      have gl : l.length < 2 * N + 2 := by simp at hcap; omega
      have gl1 : l.length + 1 < 2 * N + 2 := by simp at hcap; omega
      simp [d1, d2, d1.symm, d2.symm, haca, haca.symm, hlp, deref, eadd, hidx, Node.fresh, hln, hnp, hcc,
        getChild_ok N _ gl, setChild_ok N _ _ gl1, hchl]
      rw [move_keys_loop_eq N _ _ d2]
      · simp [d1, d2, d1.symm, d2.symm, haca, haca.symm]
        constructor
        · apply treeAt_replace s.heap _ 0 a (ksl ++ []) (ksl ++ [m]) l []
            [BTree.leaf ca (lks ++ m :: rks)] [BTree.leaf ca lks, BTree.leaf s.nxt (m :: rks)] par none hT0
          · simp only [NodeAt, upd_apply]
            simp only [d1, d2, d1.symm, d2.symm, haca, haca.symm, if_true, if_false, eq_self_iff_true]
            refine ⟨hna, by simpa using harr, ?_, trivial, trivial⟩
            have := kids_insert 0 l [] (BTree.leaf ca (lks ++ m :: rks)) (BTree.leaf ca lks)
              (BTree.leaf s.nxt (m :: rks)) rfl _
              (upd (s.heap a).children (l.length + 1) (some s.nxt)) _ hnc
              (fun j hj => by simp; intro e; omega) (by simp [BTree.addr]) (fun j h1 h2 => by omega)
            rw [hcc] at this
            exact this
          · intro c hc x hx
            simp only [List.append_nil] at hc
            have hx1 := hfoc.2.1 c (by simpa using hc) x hx
            have hx2 : x ≠ ca := by
              intro e; apply hx1; simp [BTree.addrs, e]
            have hx3 : x ≠ a := by
              intro e
              exact hnr.1 c (by simp [hc]) (e ▸ hx)
            have hx4 : x ≠ s.nxt := by
              have := hal x (addrs_child_subset 0 a _ _ c (by simp [hc]) x hx)
              omega
            simp [hx2, hx3, hx4]
          · simp [headFirst, BTree.firstLeaf]
          · simp only [KidsAt, headFirst, treeAt_zero, LeafAt, upd_apply, BTree.firstLeaf]
            simp only [d1, d2, d1.symm, d2.symm, haca, haca.symm, if_true, if_false, eq_self_iff_true]
            refine ⟨⟨hla, ?_, trivial, trivial⟩, ⟨trivial, ?_, trivial, trivial⟩, trivial⟩
            · have := hlk.of_append_left (2 * N + 1 - (N + 1)) (by omega)
              simpa [hkc] using this
            · rw [hkc]
              exact hlk.of_append_right _ (by simp; omega) _ (fun j hj => by
                simp at hj
                have : j < 2 * N + 1 - N := by omega
                simp [this, hN1])
        · intro q hq hqa hqc
          have : q ≠ s.nxt := by omega
          simp [*]
      · omega
      · simp [d1, d2, d1.symm, d2.symm, haca, haca.symm]; omega
      · intro j j1 a1 a2 a3
        simp [d1, d2, d1.symm, d2.symm, haca, haca.symm] at a3 ⊢
        exact hlk.mono hsort a2 (by omega)
      · intro h
        simp [d1, d2, d1.symm, d2.symm, haca, haca.symm] at h
    | some n1 =>
      have gl : l.length < 2 * N + 2 := by simp at hcap; omega
      have gl1 : l.length + 1 < 2 * N + 2 := by simp at hcap; omega
      simp [d1, d2, d1.symm, d2.symm, haca, haca.symm, hlp, deref, eadd, hidx, Node.fresh, hln, hnp, hcc,
        getChild_ok N _ gl, setChild_ok N _ _ gl1, hchl]
      rw [move_keys_loop_eq N _ _ d2]
      · simp [d1, d2, d1.symm, d2.symm, haca, haca.symm]
        constructor
        · apply treeAt_replace s.heap _ 0 a (ksl ++ []) (ksl ++ [m]) l []
            [BTree.leaf ca (lks ++ m :: rks)] [BTree.leaf ca lks, BTree.leaf s.nxt (m :: rks)] par (some n1) hT0
          · simp only [NodeAt, upd_apply]
            simp only [d1, d2, d1.symm, d2.symm, haca, haca.symm, if_true, if_false, eq_self_iff_true]
            refine ⟨hna, by simpa using harr, ?_, trivial, trivial⟩
            have := kids_insert 0 l [] (BTree.leaf ca (lks ++ m :: rks)) (BTree.leaf ca lks)
              (BTree.leaf s.nxt (m :: rks)) rfl _
              (upd (s.heap a).children (l.length + 1) (some s.nxt)) _ hnc
              (fun j hj => by simp; intro e; omega) (by simp [BTree.addr]) (fun j h1 h2 => by omega)
            rw [hcc] at this
            exact this
          · intro c hc x hx
            simp only [List.append_nil] at hc
            have hx1 := hfoc.2.1 c (by simpa using hc) x hx
            have hx2 : x ≠ ca := by
              intro e; apply hx1; simp [BTree.addrs, e]
            have hx3 : x ≠ a := by
              intro e
              exact hnr.1 c (by simp [hc]) (e ▸ hx)
            have hx4 : x ≠ s.nxt := by
              have := hal x (addrs_child_subset 0 a _ _ c (by simp [hc]) x hx)
              omega
            simp [hx2, hx3, hx4]
          · simp [headFirst, BTree.firstLeaf]
          · simp only [KidsAt, headFirst, treeAt_zero, LeafAt, upd_apply, BTree.firstLeaf]
            simp only [d1, d2, d1.symm, d2.symm, haca, haca.symm, if_true, if_false, eq_self_iff_true]
            refine ⟨⟨hla, ?_, trivial, trivial⟩, ⟨trivial, ?_, trivial, trivial⟩, trivial⟩
            · have := hlk.of_append_left (2 * N + 1 - (N + 1)) (by omega)
              simpa [hkc] using this
            · rw [hkc]
              exact hlk.of_append_right _ (by simp; omega) _ (fun j hj => by
                simp at hj
                have : j < 2 * N + 1 - N := by omega
                simp [this, hN1])
        · intro q hq hqa hqc
          have : q ≠ s.nxt := by omega
          simp [*]
      · omega
      · simp [d1, d2, d1.symm, d2.symm, haca, haca.symm]; omega
      · intro j j1 a1 a2 a3
        simp [d1, d2, d1.symm, d2.symm, haca, haca.symm] at a3 ⊢
        exact hlk.mono hsort a2 (by omega)
      · intro h
        simp [d1, d2, d1.symm, d2.symm, haca, haca.symm] at h
  · -- the split leaf has a right sibling
    simp only [headFirst] at hln
    have hkr0 : ksr.length = r1.length + 1 := by simpa using hkr
    simp only [List.length_cons] at hcc
    have gl : l.length < 2 * N + 2 := by simp at hcap; omega
    have gl1 : l.length + 1 < 2 * N + 2 := by simp at hcap; omega
    have gl2 : l.length + 2 < 2 * N + 2 := by simp at hcap; omega
    have hbr : l.length < l.length + 1 + r1.length := by omega
    have esh : arr_shift_by (2 * N + 2) 1 (l.length + 1 + (r1.length + 1) - l.length)
        (l.length + 1 + r1.length) (s.heap a).children =
        .ok (fun j => if l.length + 1 ≤ j ∧ j ≤ l.length + 2 + r1.length then
          (s.heap a).children (j - 1) else (s.heap a).children j) := by
      rw [arr_shift_by_ok (2 * N + 2) 1 (l.length + 1 + (r1.length + 1) - l.length)
        (l.length + 1 + r1.length) (s.heap a).children (Or.inl (by simp at hcap; omega)) (by omega)]
      congr 1
      funext j
      split_ifs <;> first | rfl | (exfalso; omega)
    have hch1 : (s.heap a).children (l.length + 1) = some (BTree.addr 0 c1) := by
      have := hchild (l.length + 1) (by simp)
      rw [this, List.getElem_append_right (by omega)]
      simp
    unfold ADS_set.external_split_body
    simp only [ADS_set.alloc, getKey_ok N _ gN, ok_bind, hm, pure_eq_ok]
    simp [d1, d2, d1.symm, d2.symm, haca, haca.symm, hlp, deref, eadd, hidx, Node.fresh, hln, hnp, hcc,
      getChild_ok N _ gl, setChild_ok N _ _ gl1, getChild_ok N _ gl2, hchl, hbr,
      Node.shift_children_right_loop, esh, hch1]
    rw [move_keys_loop_eq N _ _ d2]
    · simp [d1, d2, d1.symm, d2.symm, haca, haca.symm]
      constructor
      · apply treeAt_replace s.heap _ 0 a (ksl ++ ksr) (ksl ++ m :: ksr) l (c1 :: r1)
          [BTree.leaf ca (lks ++ m :: rks)] [BTree.leaf ca lks, BTree.leaf s.nxt (m :: rks)] par nx hT0
        · simp only [NodeAt, upd_apply]
          simp only [d1, d2, d1.symm, d2.symm, haca, haca.symm, if_true, if_false, eq_self_iff_true]
          refine ⟨hna, by simpa using harr, ?_, trivial, trivial⟩
          have := kids_insert 0 l (c1 :: r1) (BTree.leaf ca (lks ++ m :: rks)) (BTree.leaf ca lks)
            (BTree.leaf s.nxt (m :: rks)) rfl _
            (upd (fun j => if l.length + 1 ≤ j ∧ j ≤ l.length + 2 + r1.length then
              (s.heap a).children (j - 1) else (s.heap a).children j) (l.length + 1) (some s.nxt)) _ hnc
            (fun j hj => by
              simp only [upd_apply]
              rw [if_neg (by omega), if_neg (by omega)])
            (by simp [BTree.addr])
            (fun j h1 h2 => by
              simp only [upd_apply]
              rw [if_neg (by omega), if_pos (by omega)])
          rw [hcc] at this
          exact this
        · intro c hc x hx
          have hx1 := hfoc.2.1 c hc x hx
          have hcm : c ∈ l ++ BTree.leaf ca (lks ++ m :: rks) :: c1 :: r1 := by
            rcases List.mem_append.1 hc with e | e
            · exact List.mem_append_left _ e
            · exact List.mem_append_right _ (List.mem_cons_of_mem _ e)
          have hx2 : x ≠ ca := by
            intro e; apply hx1; simp [BTree.addrs, e]
          have hx3 : x ≠ a := by
            intro e
            exact hnr.1 c hcm (e ▸ hx)
          have hx4 : x ≠ s.nxt := by
            have := hal x (addrs_child_subset 0 a _ _ c hcm x hx)
            omega
          simp [hx2, hx3, hx4]
        · simp [headFirst, BTree.firstLeaf]
        · simp only [KidsAt, headFirst, treeAt_zero, LeafAt, upd_apply, BTree.firstLeaf, BTree.addr]
          simp only [d1, d2, d1.symm, d2.symm, haca, haca.symm, if_true, if_false, eq_self_iff_true]
          refine ⟨⟨hla, ?_, trivial, trivial⟩, ⟨trivial, ?_, trivial, trivial⟩, trivial⟩
          · have := hlk.of_append_left (2 * N + 1 - (N + 1)) (by omega)
            simpa [hkc] using this
          · rw [hkc]
            exact hlk.of_append_right _ (by simp; omega) _ (fun j hj => by
              simp at hj
              have : j < 2 * N + 1 - N := by omega
              simp [this, hN1])
      · intro q hq hqa hqc
        have : q ≠ s.nxt := by omega
        simp [*]
    · omega
    · simp [d1, d2, d1.symm, d2.symm, haca, haca.symm]; omega
    · intro j j1 a1 a2 a3
      simp [d1, d2, d1.symm, d2.symm, haca, haca.symm] at a3 ⊢
      exact hlk.mono hsort a2 (by omega)
    · intro h
      simp [d1, d2, d1.symm, d2.symm, haca, haca.symm] at h


/-! ## `internal_split` -/

/-- Facts about the children array of a node whose row of children is `l ++ c :: r`. -/
theorem row_facts (N d : Nat) (h : Nat → Node) (a : Nat) (ks : List Nat) (l r : List (BTree d))
    (c : BTree d) (par : Option Nat)
    (hN : NodeAt (h a) ks ((l ++ c :: r).map (BTree.addr d)) par)
    (hnd : (BTree.addrs (d + 1) (a, ks, l ++ c :: r)).Nodup)
    (hcap : l.length + 1 + r.length ≤ 2 * N + 1) :
    (h a).children_counter = l.length + 1 + r.length ∧
      (h a).children l.length = some (BTree.addr d c) ∧
      (∀ j (hj : j < r.length), (h a).children (l.length + 1 + j) = some (BTree.addr d r[j])) ∧
      (∀ (nd : Node) (n : Nat), nd.children = (h a).children → n = l.length + 1 + r.length →
        Node.child_index_loop N nd (BTree.addr d c) n 0 = .ok (some l.length)) ∧
      a ≠ BTree.addr d c := by
  obtain ⟨_, _, hnc, _⟩ := hN
  have hnr := addrs_nodup_root d a _ _ hnd
  have hfoc := flatten_nodup_focus (BTree.addrs d) l r c hnr.2
  have hcc : (h a).children_counter = l.length + 1 + r.length := by
    rw [hnc.1]; simp; omega
  have hchild : ∀ j (hj : j < (l ++ c :: r).length),
      (h a).children j = some (BTree.addr d (l ++ c :: r)[j]) := by
    intro j hj
    have := hnc.2 j (by simpa using hj)
    rw [List.getElem?_map, List.getElem?_map, List.getElem?_eq_getElem hj] at this
    simpa using this.symm
  have hchl : (h a).children l.length = some (BTree.addr d c) := by
    rw [hchild l.length (by simp), List.getElem_append_right (le_refl _)]
    simp
  refine ⟨hcc, hchl, ?_, ?_, ?_⟩
  · intro j hj
    rw [hchild (l.length + 1 + j) (by simp; omega), List.getElem_append_right (by omega)]
    simp [show l.length + 1 + j - l.length = j + 1 by omega]
  · intro nd n hnd1 hn
    have := arr_index_found (2 * N + 2) (h a).children (some (BTree.addr d c)) l.length
      n 0 (by omega) (by omega) (by simpa using hchl)
      (by
        intro j hj
        simp only [Nat.zero_add]
        rw [hchild j (by simp; omega), List.getElem_append_left hj]
        intro e
        have hx := hfoc.2.1 l[j] (List.mem_append_left _ (List.getElem_mem _))
          (BTree.addr d l[j]) (addr_mem_addrs d _)
        apply hx
        simp only [Option.some.injEq] at e
        rw [e]
        exact addr_mem_addrs d c)
    simpa [Node.child_index_loop, hnd1] using this
  · intro e
    exact hnr.1 c (by simp) (e ▸ addr_mem_addrs d c)

/-- The separator `m` enters the parent's keys between `ksl` and `ksr`. -/
theorem parent_add (N : Nat) (nd : Node) (ksl ksr : List Nat) (m : Nat)
    (hnk : ArrIs nd.keys nd.keys_counter (ksl ++ ksr))
    (hks : (ksl ++ ksr).Pairwise (fun x y => x < y))
    (hlo : ∀ x ∈ ksl, x < m) (hhi : ∀ x ∈ ksr, m < x) (hcap : (ksl ++ ksr).length ≤ 2 * N) :
    ∃ g, nd.add N m = .ok ({ nd with keys := g, keys_counter := nd.keys_counter + 1 }, ksl.length) ∧
      ArrIs g (nd.keys_counter + 1) (ksl ++ m :: ksr) := by
  have hmk : m ∉ ksl ++ ksr := by
    intro hm
    rcases List.mem_append.1 hm with e | e
    · have := hlo m e; omega
    · have := hhi m e; omega
  obtain ⟨g, i, eadd, hi, harr, hp1, hp2⟩ := add_spec N nd m (ksl ++ ksr) hnk hks hmk
    (by rw [hnk.1]; omega)
  have hil : i = ksl.length := add_position ksl ksr m _ _ i hnk hlo hhi hi hp1 hp2
  subst hil
  rw [List.take_left, List.drop_left] at harr
  exact ⟨g, eadd, harr⟩

/-- Nodes outside a row's changed segment keep their heap cells. -/
theorem row_frame (d : Nat) (h h1 : Nat → Node) (a : Nat) (ks : List Nat) (l r : List (BTree d))
    (mid : List (BTree d)) (bound : Nat)
    (hnd : (BTree.addrs (d + 1) (a, ks, l ++ (mid ++ r))).Nodup)
    (hal : ∀ x ∈ BTree.addrs (d + 1) (a, ks, l ++ (mid ++ r)), x < bound)
    (hf : ∀ q, q < bound → q ≠ a → (∀ c ∈ mid, q ∉ BTree.addrs d c) → h1 q = h q) :
    ∀ c ∈ l ++ r, ∀ x ∈ BTree.addrs d c, h1 x = h x := by
  intro c hc x hx
  have hnr := addrs_nodup_root d a _ _ hnd
  have hcm : c ∈ l ++ (mid ++ r) := by
    rcases List.mem_append.1 hc with e | e
    · exact List.mem_append_left _ e
    · exact List.mem_append_right _ (List.mem_append_right _ e)
  apply hf x (hal x (addrs_child_subset d a _ _ c hcm x hx))
  · intro e
    exact hnr.1 c hcm (e ▸ hx)
  · intro c1 hc1 hx1
    have h2 := hnr.2
    simp only [List.map_append, List.flatten_append] at h2
    rw [List.nodup_append] at h2
    obtain ⟨_, h3, h4⟩ := h2
    rw [List.nodup_append] at h3
    obtain ⟨_, _, h5⟩ := h3
    have hm1 : x ∈ (List.map (BTree.addrs d) mid).flatten := by
      rw [List.mem_flatten]; exact ⟨_, List.mem_map_of_mem _ hc1, hx1⟩
    rcases List.mem_append.1 hc with e | e
    · have hm : x ∈ (List.map (BTree.addrs d) l).flatten := by
        rw [List.mem_flatten]; exact ⟨_, List.mem_map_of_mem _ e, hx⟩
      exact h4 hm (List.mem_append_left _ hm1)
    · have hm : x ∈ (List.map (BTree.addrs d) r).flatten := by
        rw [List.mem_flatten]; exact ⟨_, List.mem_map_of_mem _ e, hx⟩
      exact h5 hm1 hm

/-- The heap after an internal node was split describes the tree with the two halves. -/
theorem internal_split_assemble (d : Nat) (h H : Nat → Node) (a ca nxt : Nat)
    (ks ks1 cks lks rks : List Nat) (l r : List (BTree (d + 1))) (lcs rcs : List (BTree d))
    (par nx : Option Nat)
    (hT : TreeAt h (d + 2) par nx (a, ks, l ++ ([BTree.node ca cks (lcs ++ rcs)] ++ r)))
    (hnd : (BTree.addrs (d + 2) (a, ks, l ++ ([BTree.node ca cks (lcs ++ rcs)] ++ r))).Nodup)
    (hal : ∀ x ∈ BTree.addrs (d + 2) (a, ks, l ++ ([BTree.node ca cks (lcs ++ rcs)] ++ r)), x < nxt)
    (hl0 : lcs ≠ []) (hr0 : rcs ≠ [])
    (hA : NodeAt (H a) ks1
      ((l ++ ([BTree.node ca lks lcs, BTree.node nxt rks rcs] ++ r)).map (BTree.addr (d + 1))) par)
    (hL : NodeAt (H ca) lks (lcs.map (BTree.addr d)) (some a))
    (hR : NodeAt (H nxt) rks (rcs.map (BTree.addr d)) (some a))
    (hO : ∀ q, q ≠ a → q ≠ ca → q ≠ nxt →
      H q = if q ∈ rcs.map (BTree.addr d) then { h q with parent := some nxt } else h q) :
    TreeAt H (d + 2) par nx
        (a, ks1, l ++ ([BTree.node ca lks lcs, BTree.node nxt rks rcs] ++ r)) ∧
      (∀ q, q < nxt → q ≠ a → q ∉ BTree.addrs (d + 1) (BTree.node ca cks (lcs ++ rcs)) →
        H q = h q) := by
  have hnr := addrs_nodup_root (d + 1) a _ _ hnd
  have hcnd : (BTree.addrs (d + 1) (BTree.node ca cks (lcs ++ rcs))).Nodup :=
    flatten_nodup_mem _ _ hnr.2 _ (by simp)
  have hcr := addrs_nodup_root d ca _ _ hcnd
  have hgs := flatten_nodup_append (BTree.addrs d) lcs rcs hcr.2
  have hgc : ∀ c ∈ lcs ++ rcs, ∀ x ∈ BTree.addrs d c, x ≠ a ∧ x ≠ ca ∧ x ≠ nxt := by
    intro c hc x hx
    have hx1 : x ∈ BTree.addrs (d + 1) (BTree.node ca cks (lcs ++ rcs)) :=
      addrs_child_subset d ca _ _ c hc x hx
    have hx2 : x ∈ BTree.addrs (d + 2) (a, ks, l ++ ([BTree.node ca cks (lcs ++ rcs)] ++ r)) :=
      addrs_child_subset (d + 1) a _ _ _ (by simp) x hx1
    refine ⟨?_, ?_, ?_⟩
    · intro e
      exact hnr.1 _ (by simp) (e ▸ hx1)
    · intro e
      exact hcr.1 c hc (e ▸ hx)
    · have := hal x hx2
      omega
  have hframe : ∀ q, q < nxt → q ≠ a → q ∉ BTree.addrs (d + 1) (BTree.node ca cks (lcs ++ rcs)) →
      H q = h q := by
    intro q hq hqa hqc
    have hqca : q ≠ ca := by
      intro e; apply hqc; rw [e]; simp [BTree.addrs]
    rw [hO q hqa hqca (by omega), if_neg]
    intro hm
    obtain ⟨c, hc, e⟩ := List.mem_map.1 hm
    apply hqc
    rw [← e]
    exact addrs_child_subset d ca _ _ c (List.mem_append_right _ hc) _ (addr_mem_addrs d c)
  refine ⟨?_, hframe⟩
  have hT1 := hT
  rw [treeAt_succ, kidsAt_append, kidsAt_append] at hT1
  have hch : TreeAt h (d + 1) (some a) (headFirst (BTree.firstLeaf (d + 1)) r nx)
      (ca, cks, lcs ++ rcs) := hT1.2.2.1.1
  rw [treeAt_succ, kidsAt_append] at hch
  obtain ⟨y0, rcs0, hrcs⟩ : ∃ y0 rcs0, rcs = y0 :: rcs0 := by
    cases rcs with
    | nil => exact absurd rfl hr0
    | cons y0 rcs0 => exact ⟨y0, rcs0, rfl⟩
  obtain ⟨x0, lcs0, hlcs⟩ : ∃ x0 lcs0, lcs = x0 :: lcs0 := by
    cases lcs with
    | nil => exact absurd rfl hl0
    | cons x0 lcs0 => exact ⟨x0, lcs0, rfl⟩
  apply treeAt_replace h H (d + 1) a ks ks1 l r [BTree.node ca cks (lcs ++ rcs)]
    [BTree.node ca lks lcs, BTree.node nxt rks rcs] par nx hT hA
  · apply row_frame (d + 1) h H a ks l r [BTree.node ca cks (lcs ++ rcs)] nxt hnd hal
    intro q hq hqa hqc
    exact hframe q hq hqa (hqc _ (by simp))
  · subst hlcs
    rfl
  · simp only [KidsAt]
    refine ⟨?_, ?_, trivial⟩
    · rw [treeAt_succ]
      refine ⟨hL, ?_⟩
      have e1 : ∀ X, headFirst (BTree.firstLeaf (d + 1)) [BTree.node nxt rks rcs] X =
          headFirst (BTree.firstLeaf d) rcs X := by
        subst hrcs; intro X; rfl
      rw [e1]
      apply kidsAt_frame h H d (some ca) lcs _ _ hch.2.1
      intro c hc x hx
      obtain ⟨g1, g2, g3⟩ := hgc c (List.mem_append_left _ hc) x hx
      rw [hO x g1 g2 g3, if_neg]
      intro hm
      obtain ⟨c2, hc2, e⟩ := List.mem_map.1 hm
      exact hgs.2.2 c hc c2 hc2 x hx (e ▸ addr_mem_addrs d c2)
    · rw [treeAt_succ]
      refine ⟨hR, ?_⟩
      apply kidsAt_reparent h H d (some ca) nxt rcs _ _ _ _ hch.2.2
      · intro c hc
        exact flatten_nodup_mem _ _ hgs.2.1 c hc
      · intro c hc x hx hne
        obtain ⟨g1, g2, g3⟩ := hgc c (List.mem_append_right _ hc) x hx
        rw [hO x g1 g2 g3, if_neg]
        intro hm
        obtain ⟨c2, hc2, e⟩ := List.mem_map.1 hm
        have := flatten_nodup_unique (BTree.addrs d) rcs hgs.2.1 c hc c2 hc2 x hx
          (e ▸ addr_mem_addrs d c2)
        subst this
        exact hne e.symm
      · intro c hc
        obtain ⟨g1, g2, g3⟩ := hgc c (List.mem_append_right _ hc) _ (addr_mem_addrs d c)
        rw [hO _ g1 g2 g3, if_pos (List.mem_map_of_mem _ hc)]

theorem internal_split_body_spec (N d : Nat) (s : ADS_set) (a : Nat) (ksl ksr : List Nat)
    (l r : List (BTree (d + 1))) (ca : Nat) (lks rks : List Nat) (m : Nat)
    (lcs rcs : List (BTree d)) (par nx : Option Nat)
    (hT : TreeAt s.heap (d + 2) par nx
      (a, ksl ++ ksr, l ++ ([BTree.node ca (lks ++ m :: rks) (lcs ++ rcs)] ++ r)))
    (hkl : ksl.length = l.length) (hkr : ksr.length = r.length)
    (hN1 : lks.length = N) (hN2 : rks.length = N)
    (hC1 : lcs.length = N + 1) (hC2 : rcs.length = N + 1)
    (hsort : (lks ++ m :: rks).Pairwise (fun x y => x < y))
    (hks : (ksl ++ ksr).Pairwise (fun x y => x < y))
    (hlo : ∀ x ∈ ksl, x < m) (hhi : ∀ x ∈ ksr, m < x) (hcap : (ksl ++ ksr).length ≤ 2 * N)
    (hnd : (BTree.addrs (d + 2)
      (a, ksl ++ ksr, l ++ ([BTree.node ca (lks ++ m :: rks) (lcs ++ rcs)] ++ r))).Nodup)
    (hal : ∀ x ∈ BTree.addrs (d + 2)
      (a, ksl ++ ksr, l ++ ([BTree.node ca (lks ++ m :: rks) (lcs ++ rcs)] ++ r)), x < s.nxt) :
    ∃ s1, ADS_set.internal_split_body N s ca = .ok (s1, a) ∧
      TreeAt s1.heap (d + 2) par nx
        (a, ksl ++ m :: ksr, l ++ ([BTree.node ca lks lcs, BTree.node s.nxt rks rcs] ++ r)) ∧
      s1.nxt = s.nxt + 1 ∧ s1.root = s.root ∧ s1.depth = s.depth ∧
      s1.element_counter = s.element_counter ∧
      (∀ q, q < s.nxt → q ≠ a →
        q ∉ BTree.addrs (d + 1) (BTree.node ca (lks ++ m :: rks) (lcs ++ rcs)) →
        s1.heap q = s.heap q) := by
  have hT0 := hT
  rw [treeAt_succ] at hT
  obtain ⟨hnode, hkids⟩ := hT
  rw [kidsAt_append, kidsAt_append] at hkids
  obtain ⟨hkl1, hkc, hkr1⟩ := hkids
  have hch : TreeAt s.heap (d + 1) (some a) (headFirst (BTree.firstLeaf (d + 1)) r nx)
      (ca, lks ++ m :: rks, lcs ++ rcs) := hkc.1
  clear hkc
  rw [treeAt_succ] at hch
  obtain ⟨⟨hla, hlk, hlc, hlp⟩, hlkids⟩ := hch
  rw [kidsAt_append] at hlkids
  obtain ⟨hna, hnk, hnc, hnp⟩ := hnode
  have hlen : l.length + 1 + r.length ≤ 2 * N + 1 := by simp at hcap; omega
  obtain ⟨hcc, hchl, hchr, hidx, haca⟩ := row_facts N (d + 1) s.heap a (ksl ++ ksr) l r
    (BTree.node ca (lks ++ m :: rks) (lcs ++ rcs)) par ⟨hna, hnk, hnc, hnp⟩ hnd hlen
  simp only [BTree.addr] at hchl hidx haca
  obtain ⟨g, eadd, harr⟩ := parent_add N (s.heap a) ksl ksr m hnk hks hlo hhi hcap
  have han : a < s.nxt := hal a (by simp [addrs_succ])
  have hcan : ca < s.nxt := hal ca (by simp [addrs_succ, BTree.addrs])
  have d1 : a ≠ s.nxt := by omega
  have d2 : ca ≠ s.nxt := by omega
  have hl0 : lcs ≠ [] := by intro e; simp [e] at hC1
  have hr0 : rcs ≠ [] := by intro e; simp [e] at hC2
  -- the node that is split
  have hkc : (s.heap ca).keys_counter = 2 * N + 1 := by
    rw [hlk.1]; simp; omega
  have hcc2 : (s.heap ca).children_counter = 2 * N + 2 := by
    rw [hlc.1]; simp; omega
  have hm : (s.heap ca).keys N = m := by
    have := hlk.2 N (by simp; omega)
    rw [List.getElem?_append_right (by omega)] at this
    simp [hN1] at this
    exact this.symm
  have gN : N < 2 * N + 1 := by omega
  have gl : l.length < 2 * N + 2 := by omega
  have gl1 : l.length + 1 < 2 * N + 2 := by simp at hcap; omega
  -- addresses below the split node
  have hnr := addrs_nodup_root (d + 1) a _ _ hnd
  have hcnd : (BTree.addrs (d + 1) (BTree.node ca (lks ++ m :: rks) (lcs ++ rcs))).Nodup :=
    flatten_nodup_mem _ _ hnr.2 _ (by simp)
  have hcr := addrs_nodup_root d ca _ _ hcnd
  have hgs := flatten_nodup_append (BTree.addrs d) lcs rcs hcr.2
  have hgc : ∀ c ∈ lcs ++ rcs, ∀ x ∈ BTree.addrs d c, x ≠ a ∧ x ≠ ca ∧ x ≠ s.nxt := by
    intro c hc x hx
    have hx1 : x ∈ BTree.addrs (d + 1) (BTree.node ca (lks ++ m :: rks) (lcs ++ rcs)) :=
      addrs_child_subset d ca _ _ c hc x hx
    have hx2 : x ∈ BTree.addrs (d + 2)
        (a, ksl ++ ksr, l ++ ([BTree.node ca (lks ++ m :: rks) (lcs ++ rcs)] ++ r)) :=
      addrs_child_subset (d + 1) a _ _ _ (by simp) x hx1
    refine ⟨?_, ?_, ?_⟩
    · intro e
      exact hnr.1 _ (by simp) (e ▸ hx1)
    · intro e
      exact hcr.1 c hc (e ▸ hx)
    · have := hal x hx2
      omega
  have hmv : ∀ j (hj : j < (rcs.map (BTree.addr d)).length),
      (s.heap ca).children (N + 1 + j) = some (rcs.map (BTree.addr d))[j] := by
    intro j hj
    simp at hj
    have := hlc.2 (N + 1 + j) (by simp; omega)
    simp only [List.map_append] at this
    rw [List.getElem?_append_right (by simp; omega)] at this
    simp only [List.length_map, hC1, Nat.add_sub_cancel_left] at this
    rw [List.getElem?_map, List.getElem?_map, List.getElem?_eq_getElem hj] at this
    simp at this
    simp [this]
  have hne : ∀ x ∈ rcs.map (BTree.addr d), x ≠ ca ∧ x ≠ s.nxt := by
    intro x hx
    obtain ⟨c, hc, rfl⟩ := List.mem_map.1 hx
    have := hgc c (List.mem_append_right _ hc) _ (addr_mem_addrs d c)
    exact ⟨this.2.1, this.2.2⟩
  have hna1 : a ∉ rcs.map (BTree.addr d) := by
    intro hx
    obtain ⟨c, hc, e⟩ := List.mem_map.1 hx
    exact (hgc c (List.mem_append_right _ hc) _ (addr_mem_addrs d c)).1 e
  rcases r with _ | ⟨c1, r1⟩
  · -- the split node is the last child
    have hkr0 : ksr = [] := List.eq_nil_of_length_eq_zero (by simpa using hkr)
    subst hkr0
    simp only [List.length_nil, Nat.add_zero] at hcc
    unfold ADS_set.internal_split_body
    simp only [ADS_set.alloc, getKey_ok N _ gN, ok_bind, hm, pure_eq_ok]
    simp [d1, d2, d1.symm, d2.symm, haca, Ne.symm haca, hlp, deref, eadd, hidx, Node.fresh, hnp, hcc,
      getChild_ok N _ gl, setChild_ok N _ _ gl1, hchl]
    rw [move_keys_loop_eq N _ _ d2]
    · simp [d1, d2, d1.symm, d2.symm, haca, Ne.symm haca, hkc, hcc2]
      rw [move_children_loop_eq N _ _ d2 _ _ _ (rcs.map (BTree.addr d))]
      · simp [d1, d2, d1.symm, d2.symm, haca, Ne.symm haca]
        apply internal_split_assemble d s.heap _ a ca s.nxt (ksl ++ []) _ (lks ++ m :: rks) lks rks
          l [] lcs rcs par nx hT0 hnd hal hl0 hr0
        · simp only [NodeAt, upd_apply, reparent]
          simp only [d1, d2, d1.symm, d2.symm, haca, Ne.symm haca, hna1, if_true, if_false,
            eq_self_iff_true]
          refine ⟨hna, by simpa using harr, ?_, trivial, trivial⟩
          have := kids_insert (d + 1) l [] (BTree.node ca (lks ++ m :: rks) (lcs ++ rcs))
            (BTree.node ca lks lcs) (BTree.node s.nxt rks rcs) rfl _
            (upd (s.heap a).children (l.length + 1) (some s.nxt)) _ hnc
            (fun j hj => by simp; intro e; omega) (by simp [BTree.addr]) (fun j h1 h2 => by omega)
          rw [hcc] at this
          exact this
        · simp only [NodeAt, upd_apply, reparent]
          simp only [if_true, eq_self_iff_true]
          refine ⟨hla, ?_, ?_, hlp⟩
          · have := hlk.of_append_left (2 * N - N) (by omega)
            exact this
          · have e1 : List.map some (List.map (BTree.addr d) (lcs ++ rcs)) =
                List.map some (List.map (BTree.addr d) lcs) ++
                  List.map some (List.map (BTree.addr d) rcs) := by simp
            rw [e1] at hlc
            have := hlc.of_append_left (N + 1) (by simp [hC1])
            exact this.congr (fun i hi => by simp; intro h; omega)
        · simp only [NodeAt, upd_apply, reparent]
          simp only [d2.symm, if_true, if_false, eq_self_iff_true]
          refine ⟨trivial, ?_, ?_, trivial, trivial⟩
          · have e1 : lks ++ m :: rks = (lks ++ [m]) ++ rks := by simp
            rw [e1] at hlk
            exact hlk.of_append_right _ (by omega) _ (fun j hj => by
              have : j < 2 * N - N := by omega
              simp [this, hN1])
          · have e1 : List.map some (List.map (BTree.addr d) (lcs ++ rcs)) =
                List.map some (List.map (BTree.addr d) lcs) ++
                  List.map some (List.map (BTree.addr d) rcs) := by simp
            rw [e1] at hlc
            exact hlc.of_append_right _ (by simp [hC2]; omega) _ (fun j hj => by
              simp at hj
              have : j < 2 * N + 1 - N := by omega
              simp [this, hC1])
        · intro q h1 h2 h3
          simp [reparent, h1, h2, h3]
      · simp [hC2]; omega
      · omega
      · simp [d1, d2, d1.symm, d2.symm, haca, Ne.symm haca]; omega
      · intro j hj
        simp only [set_heap, upd_apply, if_true, eq_self_iff_true]
        exact hmv j hj
      · exact hne
    · omega
    · simp [d1, d2, d1.symm, d2.symm, haca, Ne.symm haca]; omega
    · intro j j1 a1 a2 a3
      simp [d1, d2, d1.symm, d2.symm, haca, Ne.symm haca] at a3 ⊢
      exact hlk.mono hsort a2 (by omega)
    · intro h
      simp [d1, d2, d1.symm, d2.symm, haca, Ne.symm haca] at h
  · -- the split node has a right sibling
    simp only [List.length_cons] at hcc
    have hkr0 : ksr.length = r1.length + 1 := by simpa using hkr
    have hcap0 : ksl.length + ksr.length ≤ 2 * N := by simpa using hcap
    have gl2 : l.length + 2 < 2 * N + 2 := by omega
    have hbr : l.length < l.length + 1 + r1.length := by omega
    have esh : ∀ n i, n = l.length + 1 + (r1.length + 1) - 1 - l.length →
        i = l.length + 1 + (r1.length + 1) - 1 →
        arr_shift_by (2 * N + 2) 1 n i (s.heap a).children =
        .ok (fun j => if l.length + 2 ≤ j ∧ j ≤ l.length + 2 + r1.length then
          (s.heap a).children (j - 1) else (s.heap a).children j) := by
      intro n i hn hi
      subst hn hi
      rw [arr_shift_by_ok (2 * N + 2) 1 _ _ (s.heap a).children
        (Or.inl (by omega)) (by omega)]
      congr 1
      funext j
      split_ifs <;> first | rfl | (exfalso; omega)
    unfold ADS_set.internal_split_body
    simp only [ADS_set.alloc, getKey_ok N _ gN, ok_bind, hm, pure_eq_ok]
    simp [d1, d2, d1.symm, d2.symm, haca, Ne.symm haca, hlp, deref, eadd, hidx, Node.fresh, hnp, hcc,
      getChild_ok N _ gl, setChild_ok N _ _ gl1, hchl, hbr,
      Node.shift_children_right_loop, esh]
    rw [move_keys_loop_eq N _ _ d2]
    · simp [d1, d2, d1.symm, d2.symm, haca, Ne.symm haca, hkc, hcc2]
      rw [move_children_loop_eq N _ _ d2 _ _ _ (rcs.map (BTree.addr d))]
      · simp [d1, d2, d1.symm, d2.symm, haca, Ne.symm haca]
        apply internal_split_assemble d s.heap _ a ca s.nxt (ksl ++ ksr) _ (lks ++ m :: rks) lks rks
          l (c1 :: r1) lcs rcs par nx hT0 hnd hal hl0 hr0
        · simp only [NodeAt, upd_apply, reparent]
          simp only [d1, d2, d1.symm, d2.symm, haca, Ne.symm haca, hna1, if_true, if_false,
            eq_self_iff_true]
          refine ⟨hna, by simpa using harr, ?_, trivial, trivial⟩
          have := kids_insert (d + 1) l (c1 :: r1) (BTree.node ca (lks ++ m :: rks) (lcs ++ rcs))
            (BTree.node ca lks lcs) (BTree.node s.nxt rks rcs) rfl _
            (upd (fun j => if l.length + 2 ≤ j ∧ j ≤ l.length + 2 + r1.length then
              (s.heap a).children (j - 1) else (s.heap a).children j) (l.length + 1) (some s.nxt)) _ hnc
            (fun j hj => by
              simp only [upd_apply]
              rw [if_neg (by omega), if_neg (by omega)])
            (by simp [BTree.addr])
            (fun j h1 h2 => by
              simp only [upd_apply]
              rw [if_neg (by omega), if_pos (by omega)])
          rw [hcc] at this
          exact this
        · simp only [NodeAt, upd_apply, reparent]
          simp only [if_true, eq_self_iff_true]
          refine ⟨hla, ?_, ?_, hlp⟩
          · have := hlk.of_append_left (2 * N - N) (by omega)
            exact this
          · have e1 : List.map some (List.map (BTree.addr d) (lcs ++ rcs)) =
                List.map some (List.map (BTree.addr d) lcs) ++
                  List.map some (List.map (BTree.addr d) rcs) := by simp
            rw [e1] at hlc
            have := hlc.of_append_left (N + 1) (by simp [hC1])
            exact this.congr (fun i hi => by simp; intro h; omega)
        · simp only [NodeAt, upd_apply, reparent]
          simp only [d2.symm, if_true, if_false, eq_self_iff_true]
          refine ⟨trivial, ?_, ?_, trivial, trivial⟩
          · have e1 : lks ++ m :: rks = (lks ++ [m]) ++ rks := by simp
            rw [e1] at hlk
            exact hlk.of_append_right _ (by omega) _ (fun j hj => by
              have : j < 2 * N - N := by omega
              simp [this, hN1])
          · have e1 : List.map some (List.map (BTree.addr d) (lcs ++ rcs)) =
                List.map some (List.map (BTree.addr d) lcs) ++
                  List.map some (List.map (BTree.addr d) rcs) := by simp
            rw [e1] at hlc
            exact hlc.of_append_right _ (by simp [hC2]; omega) _ (fun j hj => by
              simp at hj
              have : j < 2 * N + 1 - N := by omega
              simp [this, hC1])
        · intro q h1 h2 h3
          simp [reparent, h1, h2, h3]
      · simp [hC2]; omega
      · omega
      · simp [d1, d2, d1.symm, d2.symm, haca, Ne.symm haca]; omega
      · intro j hj
        simp only [set_heap, upd_apply, if_true, eq_self_iff_true]
        exact hmv j hj
      · exact hne
    · omega
    · simp [d1, d2, d1.symm, d2.symm, haca, Ne.symm haca]; omega
    · intro j j1 a1 a2 a3
      simp [d1, d2, d1.symm, d2.symm, haca, Ne.symm haca] at a3 ⊢
      exact hlk.mono hsort a2 (by omega)
    · intro h
      simp [d1, d2, d1.symm, d2.symm, haca, Ne.symm haca] at h


/-! ## `root_split` of an internal root -/

/-- The heap after an internal root was split describes the tree with the new root. -/
theorem root_split_assemble (d : Nat) (h H : Nat → Node) (ra nr rr : Nat)
    (cks lks rks : List Nat) (m : Nat) (lcs rcs : List (BTree d))
    (hT : TreeAt h (d + 1) none none (ra, cks, lcs ++ rcs))
    (hnd : (BTree.addrs (d + 1) (ra, cks, lcs ++ rcs)).Nodup)
    (hal : ∀ x ∈ BTree.addrs (d + 1) (ra, cks, lcs ++ rcs), x ≠ nr ∧ x ≠ rr)
    (hl0 : lcs ≠ []) (hr0 : rcs ≠ [])
    (hA : NodeAt (H nr) [m] [ra, rr] none)
    (hL : NodeAt (H ra) lks (lcs.map (BTree.addr d)) (some nr))
    (hR : NodeAt (H rr) rks (rcs.map (BTree.addr d)) (some nr))
    (hO : ∀ q, q ≠ nr → q ≠ ra → q ≠ rr →
      H q = if q ∈ rcs.map (BTree.addr d) then { h q with parent := some rr } else h q) :
    TreeAt H (d + 2) none none
      (nr, [m], [BTree.node ra lks lcs, BTree.node rr rks rcs]) := by
  have hcr := addrs_nodup_root d ra _ _ hnd
  have hgs := flatten_nodup_append (BTree.addrs d) lcs rcs hcr.2
  have hgc : ∀ c ∈ lcs ++ rcs, ∀ x ∈ BTree.addrs d c, x ≠ nr ∧ x ≠ ra ∧ x ≠ rr := by
    intro c hc x hx
    have hx1 : x ∈ BTree.addrs (d + 1) (ra, cks, lcs ++ rcs) :=
      addrs_child_subset d ra _ _ c hc x hx
    refine ⟨(hal x hx1).1, ?_, (hal x hx1).2⟩
    intro e
    exact hcr.1 c hc (e ▸ hx)
  have hch := hT
  rw [treeAt_succ, kidsAt_append] at hch
  obtain ⟨y0, rcs0, hrcs⟩ : ∃ y0 rcs0, rcs = y0 :: rcs0 := by
    cases rcs with
    | nil => exact absurd rfl hr0
    | cons y0 rcs0 => exact ⟨y0, rcs0, rfl⟩
  rw [treeAt_succ]
  refine ⟨hA, ?_⟩
  simp only [KidsAt]
  refine ⟨?_, ?_, trivial⟩
  · rw [treeAt_succ]
    refine ⟨hL, ?_⟩
    have e1 : ∀ X, headFirst (BTree.firstLeaf (d + 1)) [BTree.node rr rks rcs] X =
        headFirst (BTree.firstLeaf d) rcs X := by
      subst hrcs; intro X; rfl
    rw [e1]
    apply kidsAt_frame h H d (some ra) lcs _ _ hch.2.1
    intro c hc x hx
    obtain ⟨g1, g2, g3⟩ := hgc c (List.mem_append_left _ hc) x hx
    rw [hO x g1 g2 g3, if_neg]
    intro hm
    obtain ⟨c2, hc2, e⟩ := List.mem_map.1 hm
    exact hgs.2.2 c hc c2 hc2 x hx (e ▸ addr_mem_addrs d c2)
  · rw [treeAt_succ]
    refine ⟨hR, ?_⟩
    apply kidsAt_reparent h H d (some ra) rr rcs _ _ _ _ hch.2.2
    · intro c hc
      exact flatten_nodup_mem _ _ hgs.2.1 c hc
    · intro c hc x hx hne
      obtain ⟨g1, g2, g3⟩ := hgc c (List.mem_append_right _ hc) x hx
      rw [hO x g1 g2 g3, if_neg]
      intro hm
      obtain ⟨c2, hc2, e⟩ := List.mem_map.1 hm
      have := flatten_nodup_unique (BTree.addrs d) rcs hgs.2.1 c hc c2 hc2 x hx
        (e ▸ addr_mem_addrs d c2)
      subst this
      exact hne e.symm
    · intro c hc
      obtain ⟨g1, g2, g3⟩ := hgc c (List.mem_append_right _ hc) _ (addr_mem_addrs d c)
      rw [hO _ g1 g2 g3, if_pos (List.mem_map_of_mem _ hc)]

theorem root_split_node (N d : Nat) (s : ADS_set) (lks rks : List Nat) (m : Nat)
    (lcs rcs : List (BTree d))
    (hT : TreeAt s.heap (d + 1) none none (s.root, lks ++ m :: rks, lcs ++ rcs))
    (hN1 : lks.length = N) (hN2 : rks.length = N)
    (hC1 : lcs.length = N + 1) (hC2 : rcs.length = N + 1)
    (hsort : (lks ++ m :: rks).Pairwise (fun x y => x < y))
    (hnd : (BTree.addrs (d + 1) (s.root, lks ++ m :: rks, lcs ++ rcs)).Nodup)
    (hal : ∀ x ∈ BTree.addrs (d + 1) (s.root, lks ++ m :: rks, lcs ++ rcs), x < s.nxt) :
    ∃ s1, ADS_set.root_split N s = .ok s1 ∧ s1.root = s.nxt ∧ s1.nxt = s.nxt + 2 ∧
      s1.depth = s.depth + 1 ∧ s1.element_counter = s.element_counter ∧
      (∀ q, q < s.nxt → q ∉ BTree.addrs (d + 1) (s.root, lks ++ m :: rks, lcs ++ rcs) →
        s1.heap q = s.heap q) ∧
      TreeAt s1.heap (d + 2) none none
        (s.nxt, [m], [BTree.node s.root lks lcs, BTree.node (s.nxt + 1) rks rcs]) := by
  have hch := hT
  rw [treeAt_succ] at hch
  obtain ⟨⟨hla, hlk, hlc, hlp⟩, hlkids⟩ := hch
  have hr : s.root < s.nxt := hal _ (by simp [addrs_succ])
  have hkc : (s.heap s.root).keys_counter = 2 * N + 1 := by
    rw [hlk.1]; simp; omega
  have hcc2 : (s.heap s.root).children_counter = 2 * N + 2 := by
    rw [hlc.1]; simp; omega
  have hm : (s.heap s.root).keys N = m := by
    have := hlk.2 N (by simp; omega)
    rw [List.getElem?_append_right (by omega)] at this
    simp [hN1] at this
    exact this.symm
  have d1 : s.root ≠ s.nxt := by omega
  have d2 : s.root ≠ s.nxt + 1 := by omega
  have d3 : s.nxt ≠ s.nxt + 1 := by omega
  have gN : N < 2 * N + 1 := by omega
  have hl0 : lcs ≠ [] := by intro e; simp [e] at hC1
  have hr0 : rcs ≠ [] := by intro e; simp [e] at hC2
  have hcr := addrs_nodup_root d s.root _ _ hnd
  have hgc : ∀ c ∈ lcs ++ rcs, ∀ x ∈ BTree.addrs d c,
      x ≠ s.root ∧ x ≠ s.nxt ∧ x ≠ s.nxt + 1 := by
    intro c hc x hx
    have hx1 : x ∈ BTree.addrs (d + 1) (s.root, lks ++ m :: rks, lcs ++ rcs) :=
      addrs_child_subset d s.root _ _ c hc x hx
    have := hal x hx1
    refine ⟨?_, by omega, by omega⟩
    intro e
    exact hcr.1 c hc (e ▸ hx)
  have hmv : ∀ j (hj : j < (rcs.map (BTree.addr d)).length),
      (s.heap s.root).children (N + 1 + j) = some (rcs.map (BTree.addr d))[j] := by
    intro j hj
    simp at hj
    have := hlc.2 (N + 1 + j) (by simp; omega)
    simp only [List.map_append] at this
    rw [List.getElem?_append_right (by simp; omega)] at this
    simp only [List.length_map, hC1, Nat.add_sub_cancel_left] at this
    rw [List.getElem?_map, List.getElem?_map, List.getElem?_eq_getElem hj] at this
    simp at this
    simp [this]
  have hne : ∀ x ∈ rcs.map (BTree.addr d), x ≠ s.root ∧ x ≠ s.nxt + 1 := by
    intro x hx
    obtain ⟨c, hc, rfl⟩ := List.mem_map.1 hx
    have := hgc c (List.mem_append_right _ hc) _ (addr_mem_addrs d c)
    exact ⟨this.1, this.2.2⟩
  have hna1 : s.nxt ∉ rcs.map (BTree.addr d) := by
    intro hx
    obtain ⟨c, hc, e⟩ := List.mem_map.1 hx
    exact (hgc c (List.mem_append_right _ hc) _ (addr_mem_addrs d c)).2.1 e
  have hna2 : s.root ∉ rcs.map (BTree.addr d) := fun hx => (hne _ hx).1 rfl
  have hna3 : s.nxt + 1 ∉ rcs.map (BTree.addr d) := fun hx => (hne _ hx).2 rfl
  unfold ADS_set.root_split
  simp only [ADS_set.alloc, getKey_ok N _ gN, ok_bind, hm, hla, pure_eq_ok]
  simp [d1, d2, d3, d1.symm, d2.symm, d3.symm, setChild_ok, Node.fresh, Node.add, setKey_ok]
  rw [move_keys_loop_eq N _ _ d2]
  · simp [d1, d2, d3, d1.symm, d2.symm, d3.symm, hkc, hcc2]
    rw [move_children_loop_eq N _ _ d2 _ _ _ (rcs.map (BTree.addr d))]
    · simp [d1, d2, d3, d1.symm, d2.symm, d3.symm, reparent, hna1, hna2, hna3]
      constructor
      · intro q hq hqn
        have h1 : q ≠ s.nxt := by omega
        have h2 : q ≠ s.nxt + 1 := by omega
        have h3 : q ≠ s.root := by
          intro e; apply hqn; rw [e]; simp [addrs_succ]
        have h4 : ¬ ∃ c ∈ rcs, BTree.addr d c = q := by
          rintro ⟨c, hc, e⟩
          apply hqn
          rw [← e]
          exact addrs_child_subset d s.root _ _ c (List.mem_append_right _ hc) _
            (addr_mem_addrs d c)
        simp [h1, h2, h3, h4]
      · apply root_split_assemble d s.heap _ s.root s.nxt (s.nxt + 1) (lks ++ m :: rks) lks rks m
          lcs rcs hT hnd (fun x hx => by have := hal x hx; constructor <;> omega) hl0 hr0
        · simp only [NodeAt, upd_apply, reparent]
          simp only [d1, d2, d3, d1.symm, d2.symm, d3.symm, if_true, if_false, eq_self_iff_true]
          exact ⟨trivial, arrIs_one _ _ (by simp), arrIs_two _ _ _ (by simp) (by simp), trivial, trivial⟩
        · simp only [NodeAt, upd_apply, reparent]
          simp only [d1, d2, d3, d1.symm, d2.symm, d3.symm, if_true, if_false, eq_self_iff_true]
          refine ⟨hla, ?_, ?_, trivial, hlp.2⟩
          · have := hlk.of_append_left (2 * N - N) (by omega)
            exact this
          · have e1 : List.map some (List.map (BTree.addr d) (lcs ++ rcs)) =
                List.map some (List.map (BTree.addr d) lcs) ++
                  List.map some (List.map (BTree.addr d) rcs) := by simp
            rw [e1] at hlc
            have := hlc.of_append_left (N + 1) (by simp [hC1])
            rw [show 2 * N + 1 - N = N + 1 by omega]
            exact this.congr (fun i hi => by simp; intro h; omega)
        · simp only [NodeAt, upd_apply, reparent]
          simp only [d1, d2, d3, d1.symm, d2.symm, d3.symm, if_true, if_false, eq_self_iff_true]
          refine ⟨trivial, ?_, ?_, trivial, trivial⟩
          · have e1 : lks ++ m :: rks = (lks ++ [m]) ++ rks := by simp
            rw [e1] at hlk
            exact hlk.of_append_right _ (by omega) _ (fun j hj => by
              have : j < 2 * N - N := by omega
              simp [this, hN1])
          · have e1 : List.map some (List.map (BTree.addr d) (lcs ++ rcs)) =
                List.map some (List.map (BTree.addr d) lcs) ++
                  List.map some (List.map (BTree.addr d) rcs) := by simp
            rw [e1] at hlc
            exact hlc.of_append_right _ (by simp [hC2]; omega) _ (fun j hj => by
              simp at hj
              have : j < 2 * N + 1 - N := by omega
              simp [this, hC1])
        · intro q h1 h2 h3
          simp [reparent, h1, h2, h3]
    · simp [hC2]; omega
    · omega
    · simp [d1, d2, d3, d1.symm, d2.symm, d3.symm]; omega
    · intro j hj
      simp only [set_heap, upd_apply, if_true, eq_self_iff_true, d1, d2, if_false]
      exact hmv j hj
    · exact hne
  · omega
  · simp [d1, d2, d3, d1.symm, d2.symm, d3.symm]; omega
  · intro j j1 a1 a2 a3
    simp [d1, d2, d3, d1.symm, d2.symm, d3.symm] at a3 ⊢
    exact hlk.mono hsort a2 (by omega)
  · intro h
    simp [d1, d2, d3, d1.symm, d2.symm, d3.symm] at h


/-! ## Rows of children: replacing a segment in the description -/

theorem ordKids_split {α : Type} (O : Nat → Nat → α → Prop) :
    ∀ (ks1 : List Nat) (cs1 : List α) (ks2 : List Nat) (cs2 : List α) (lo hi m : Nat),
      cs1.length = ks1.length + 1 → OrdKids O (ks1 ++ m :: ks2) (cs1 ++ cs2) lo hi →
      OrdKids O ks1 cs1 lo m ∧ OrdKids O ks2 cs2 m hi := by
  intro ks1
  induction ks1 with
  | nil =>
    intro cs1 ks2 cs2 lo hi m hl h
    match cs1, hl with
    | [c], _ =>
      simp only [List.nil_append, List.singleton_append, OrdKids] at h ⊢
      exact ⟨⟨h.1, h.2.1⟩, h.2.2⟩
  | cons k ks1 ih =>
    intro cs1 ks2 cs2 lo hi m hl h
    match cs1, hl with
    | c :: cs1, hl =>
      have hl1 : cs1.length = ks1.length + 1 := by simpa using hl
      simp only [List.cons_append, OrdKids, List.append_eq] at h ⊢
      obtain ⟨a1, a2⟩ := ih cs1 ks2 cs2 k hi m hl1 h.2.2
      exact ⟨⟨h.1, h.2.1, a1⟩, a2⟩

theorem contents_row (d : Nat) (a : Nat) (ks : List Nat) (l mid r : List (BTree d)) :
    BTree.contents (d + 1) (a, ks, l ++ (mid ++ r)) =
      (l.map (BTree.contents d)).flatten ++
        ((mid.map (BTree.contents d)).flatten ++ (r.map (BTree.contents d)).flatten) := by
  simp [contents_succ]

theorem addrs_row (d : Nat) (a : Nat) (ks : List Nat) (l mid r : List (BTree d)) :
    BTree.addrs (d + 1) (a, ks, l ++ (mid ++ r)) =
      a :: ((l.map (BTree.addrs d)).flatten ++
        ((mid.map (BTree.addrs d)).flatten ++ (r.map (BTree.addrs d)).flatten)) := by
  simp [addrs_succ]

theorem row_nodup_replace (d : Nat) (a : Nat) (ks ks1 : List Nat) (l r mid mid1 : List (BTree d))
    (bound : Nat)
    (hnd : (BTree.addrs (d + 1) (a, ks, l ++ (mid ++ r))).Nodup)
    (hal : ∀ x ∈ BTree.addrs (d + 1) (a, ks, l ++ (mid ++ r)), x < bound)
    (h1 : ((mid1.map (BTree.addrs d)).flatten).Nodup)
    (h2 : ∀ x ∈ (mid1.map (BTree.addrs d)).flatten,
      x ∈ (mid.map (BTree.addrs d)).flatten ∨ bound ≤ x) :
    (BTree.addrs (d + 1) (a, ks1, l ++ (mid1 ++ r))).Nodup := by
  rw [addrs_row] at hnd hal ⊢
  rw [List.nodup_cons] at hnd ⊢
  obtain ⟨ha, hn⟩ := hnd
  rw [List.nodup_append] at hn
  obtain ⟨n1, n2, n3⟩ := hn
  rw [List.nodup_append] at n2
  obtain ⟨n4, n5, n6⟩ := n2
  have hab : a < bound := hal a (List.mem_cons_self _ _)
  have hLb : ∀ x ∈ (l.map (BTree.addrs d)).flatten, x < bound := fun x hx =>
    hal x (List.mem_cons_of_mem _ (List.mem_append_left _ hx))
  have hRb : ∀ x ∈ (r.map (BTree.addrs d)).flatten, x < bound := fun x hx =>
    hal x (List.mem_cons_of_mem _ (List.mem_append_right _ (List.mem_append_right _ hx)))
  constructor
  · intro hm
    rcases List.mem_append.1 hm with e | e
    · exact ha (List.mem_append_left _ e)
    · rcases List.mem_append.1 e with e1 | e1
      · rcases h2 a e1 with e2 | e2
        · exact ha (List.mem_append_right _ (List.mem_append_left _ e2))
        · omega
      · exact ha (List.mem_append_right _ (List.mem_append_right _ e1))
  · rw [List.nodup_append]
    refine ⟨n1, ?_, ?_⟩
    · rw [List.nodup_append]
      refine ⟨h1, n5, ?_⟩
      intro x hx hx1
      rcases h2 x hx with e2 | e2
      · exact n6 e2 hx1
      · have := hRb x hx1; omega
    · intro x hx hx1
      rcases List.mem_append.1 hx1 with e | e
      · rcases h2 x e with e2 | e2
        · exact n3 hx (List.mem_append_left _ e2)
        · have := hLb x hx; omega
      · exact n3 hx (List.mem_append_right _ e)

theorem row_alloc_replace (d : Nat) (a : Nat) (ks ks1 : List Nat) (l r mid mid1 : List (BTree d))
    (b0 b1 : Nat)
    (hal : ∀ x ∈ BTree.addrs (d + 1) (a, ks, l ++ (mid ++ r)), x < b0) (hb : b0 ≤ b1)
    (h2 : ∀ x ∈ (mid1.map (BTree.addrs d)).flatten, x < b1) :
    ∀ x ∈ BTree.addrs (d + 1) (a, ks1, l ++ (mid1 ++ r)), x < b1 := by
  rw [addrs_row] at hal ⊢
  intro x hx
  rcases List.mem_cons.1 hx with e | e
  · have := hal a (List.mem_cons_self _ _); omega
  · rcases List.mem_append.1 e with e1 | e1
    · have := hal x (List.mem_cons_of_mem _ (List.mem_append_left _ e1)); omega
    · rcases List.mem_append.1 e1 with e2 | e2
      · exact h2 x e2
      · have := hal x (List.mem_cons_of_mem _
          (List.mem_append_right _ (List.mem_append_right _ e2)))
        omega

theorem row_fresh_replace (d : Nat) (a : Nat) (ks ks1 : List Nat) (l r mid mid1 : List (BTree d))
    (bound : Nat)
    (h2 : ∀ x ∈ (mid1.map (BTree.addrs d)).flatten,
      x ∈ (mid.map (BTree.addrs d)).flatten ∨ bound ≤ x) :
    ∀ x ∈ BTree.addrs (d + 1) (a, ks1, l ++ (mid1 ++ r)),
      x ∈ BTree.addrs (d + 1) (a, ks, l ++ (mid ++ r)) ∨ bound ≤ x := by
  rw [addrs_row, addrs_row]
  intro x hx
  rcases List.mem_cons.1 hx with e | e
  · left; rw [e]; exact List.mem_cons_self _ _
  · rcases List.mem_append.1 e with e1 | e1
    · left; exact List.mem_cons_of_mem _ (List.mem_append_left _ e1)
    · rcases List.mem_append.1 e1 with e2 | e2
      · rcases h2 x e2 with e3 | e3
        · left
          exact List.mem_cons_of_mem _ (List.mem_append_right _ (List.mem_append_left _ e3))
        · right; exact e3
      · left
        exact List.mem_cons_of_mem _ (List.mem_append_right _ (List.mem_append_right _ e2))

theorem row_mem_contents (d : Nat) (a : Nat) (ks ks1 : List Nat) (l r mid mid1 : List (BTree d))
    (P : Nat → Prop)
    (h : ∀ x, x ∈ (mid1.map (BTree.contents d)).flatten ↔
      P x ∨ x ∈ (mid.map (BTree.contents d)).flatten) :
    ∀ x, x ∈ BTree.contents (d + 1) (a, ks1, l ++ (mid1 ++ r)) ↔
      P x ∨ x ∈ BTree.contents (d + 1) (a, ks, l ++ (mid ++ r)) := by
  intro x
  rw [contents_row, contents_row]
  simp only [List.mem_append, h x]
  tauto

theorem row_len_contents (d : Nat) (a : Nat) (ks ks1 : List Nat) (l r mid mid1 : List (BTree d))
    (n n1 : Nat) (h : (mid.map (BTree.contents d)).flatten.length = n)
    (h1 : (mid1.map (BTree.contents d)).flatten.length = n1) :
    (BTree.contents (d + 1) (a, ks1, l ++ (mid1 ++ r))).length + n =
      (BTree.contents (d + 1) (a, ks, l ++ (mid ++ r))).length + n1 := by
  rw [contents_row, contents_row]
  simp only [List.length_append, h, h1]
  omega

theorem row_balN (N mn mx mn1 mx1 d : Nat) (a : Nat) (ks ks1 : List Nat)
    (l r mid mid1 : List (BTree d))
    (hb : BalN N mn mx (d + 1) (a, ks, l ++ (mid ++ r)))
    (h1 : mn1 ≤ ks1.length) (h2 : ks1.length ≤ mx1)
    (h3 : (l ++ (mid1 ++ r)).length = ks1.length + 1)
    (h4 : ∀ c ∈ mid1, BalN N N (2 * N) d c) :
    BalN N mn1 mx1 (d + 1) (a, ks1, l ++ (mid1 ++ r)) := by
  rw [balN_succ] at hb ⊢
  refine ⟨h1, h2, h3, ?_⟩
  intro c hc
  rcases List.mem_append.1 hc with e | e
  · exact hb.2.2.2 c (List.mem_append_left _ e)
  · rcases List.mem_append.1 e with e1 | e1
    · exact h4 c e1
    · exact hb.2.2.2 c (List.mem_append_right _ (List.mem_append_right _ e1))

/-- The search order of a row whose segment `mid` was replaced by `mid1` between the
same bounds. -/
theorem row_keyOrd (d : Nat) (a : Nat) (ksl ksr mks mks1 : List Nat)
    (l r mid mid1 : List (BTree d)) (lo hi lo1 hi1 : Nat)
    (hpre : OrdPre (fun l h c => KeyOrd d l h c) ksl l lo lo1)
    (hpost : OrdPost (fun l h c => KeyOrd d l h c) ksr r hi1 hi)
    (hkl : ksl.length = l.length) (hkr : ksr.length = r.length)
    (hm1 : mid1.length = mks1.length + 1)
    (hmid : OrdKids (fun l h c => KeyOrd d l h c) mks1 mid1 lo1 hi1) :
    KeyOrd (d + 1) lo hi (a, ksl ++ (mks1 ++ ksr), l ++ (mid1 ++ r)) := by
  rw [keyOrd_succ, ← List.append_assoc, ← List.append_assoc]
  rw [ordKids_focus _ ksl l mks1 mid1 ksr r lo hi hkl hm1 hkr]
  exact ⟨lo1, hi1, hpre, hmid, hpost⟩


/-! ## Insertion into a leaf -/

/-- The row of children around the child a search follows. -/
theorem route_row (d : Nat) (a : Nat) (ks : List Nat) (cs : List (BTree d)) (lo hi key : Nat)
    (h : KeyOrd (d + 1) lo hi (a, ks, cs)) (hlo : lo ≤ key) (hhi : key < hi) :
    ∃ (ksl ksr : List Nat) (l r : List (BTree d)) (c : BTree d) (lo1 hi1 : Nat),
      ks = ksl ++ ksr ∧ cs = l ++ ([c] ++ r) ∧ ksl.length = l.length ∧ ksr.length = r.length ∧
      OrdPre (fun l h c => KeyOrd d l h c) ksl l lo lo1 ∧ KeyOrd d lo1 hi1 c ∧
      OrdPost (fun l h c => KeyOrd d l h c) ksr r hi1 hi ∧ lo1 ≤ key ∧ key < hi1 ∧
      BTree.route (d + 1) (a, ks, cs) key = BTree.route d c key := by
  rw [keyOrd_succ] at h
  obtain ⟨hi0, lo1, hi1, hpre, hmid, hpost, h1, h2⟩ := route_focus d ks cs lo hi key h hlo hhi
  have hlen := ordKids_length _ ks cs lo hi h
  have hri := routeIdx_le ks key
  refine ⟨ks.take (routeIdx ks key), ks.drop (routeIdx ks key), cs.take (routeIdx ks key),
    cs.drop (routeIdx ks key + 1), cs[routeIdx ks key], lo1, hi1, by simp, ?_, ?_, ?_,
    hpre, hmid, hpost, h1, h2, route_succ d a ks cs key hi0⟩
  · have := list_split_at cs _ hi0
    rw [List.append_assoc] at this
    exact this
  · simp; omega
  · simp; omega

theorem sorted_insert (ks : List Nat) (key : Nat) (a : Nat → Nat) (n i : Nat)
    (h : ArrIs a n ks) (hs : ks.Pairwise (fun x y => x < y)) (hi : i ≤ n)
    (h1 : ∀ j, j < i → a j < key) (h2 : ∀ j, i ≤ j → j < n → key < a j) :
    (ks.take i ++ key :: ks.drop i).Pairwise (fun x y => x < y) := by
  have hn := h.1
  have ht : ∀ x ∈ ks.take i, x < key := by
    intro x hx
    rw [List.mem_take_iff_getElem] at hx
    obtain ⟨j, hj, e⟩ := hx
    have hj1 : j < ks.length := by omega
    have := h.getElem hj1
    rw [← e, this]
    exact h1 j (by omega)
  have hd : ∀ x ∈ ks.drop i, key < x := by
    intro x hx
    rw [List.mem_iff_getElem] at hx
    obtain ⟨j, hj, e⟩ := hx
    rw [List.getElem_drop] at e
    simp at hj
    have hj1 : i + j < ks.length := by omega
    have := h.getElem hj1
    rw [← e, this]
    exact h2 (i + j) (by omega) (by omega)
  rw [List.pairwise_append]
  refine ⟨hs.sublist (List.take_sublist _ _), ?_, ?_⟩
  · rw [List.pairwise_cons]
    exact ⟨hd, hs.sublist (List.drop_sublist _ _)⟩
  · intro x hx y hy
    rcases List.mem_cons.1 hy with e | e
    · rw [e]; exact ht x hx
    · have := ht x hx
      have := hd y e
      omega

theorem mem_insert_iff (ks : List Nat) (key : Nat) (i : Nat) (x : Nat) :
    x ∈ ks.take i ++ key :: ks.drop i ↔ x = key ∨ x ∈ ks := by
  have e : ks = ks.take i ++ ks.drop i := (List.take_append_drop i ks).symm
  constructor
  · intro h
    rcases List.mem_append.1 h with c | c
    · right; exact List.mem_of_mem_take c
    · rcases List.mem_cons.1 c with c1 | c1
      · left; exact c1
      · right; exact List.mem_of_mem_drop c1
  · intro h
    rcases h with c | c
    · rw [c]; simp
    · rw [e] at c
      rcases List.mem_append.1 c with c1 | c1
      · exact List.mem_append_left _ c1
      · exact List.mem_append_right _ (List.mem_cons_of_mem _ c1)

theorem length_insert (ks : List Nat) (key : Nat) (i : Nat) :
    (ks.take i ++ key :: ks.drop i).length = ks.length + 1 := by
  simp
  omega

theorem insert_leaf (N : Nat) (key : Nat) (s : ADS_set) (a : Nat) (ks : List Nat)
    (par nx : Option Nat) (lo hi mn : Nat)
    (hT : TreeAt s.heap 0 par nx (a, ks)) (hO : KeyOrd 0 lo hi (a, ks))
    (hB : BalN N mn (2 * N) 0 (a, ks)) (han : a < s.nxt)
    (hlo : lo ≤ key) (hhi : key < hi) (hk : key ∉ ks) (hroot : par = none ↔ a = s.root) :
    ∃ s1 ks1 c,
      ADS_set.insert_private_internal N s a key =
        (if ks1.length = 2 * N + 1 then
          (ADS_set.pending_split N s.fuel 0 par s1 a) >>= fun s2 => .ok (s2, c)
         else .ok (s1, c)) ∧
      InsPost s s1 0 (a, ks) (a, ks1) par nx lo hi key ∧ BalN N mn (2 * N + 1) 0 (a, ks1) := by
  rw [treeAt_zero] at hT
  obtain ⟨hleaf, hkeys, hpar, hnx⟩ := hT
  have hkeys0 : ArrIs (s.heap a).keys (s.heap a).keys_counter ks := hkeys
  have hlen : ks.length ≤ 2 * N := hB.2
  have hkc : (s.heap a).keys_counter = ks.length := hkeys0.1
  obtain ⟨g, i, eadd, hi, harr, hp1, hp2⟩ := add_spec N (s.heap a) key ks hkeys0 hO.1 hk
    (by omega)
  have hsorted := sorted_insert ks key _ _ i hkeys0 hO.1 hi hp1 hp2
  refine ⟨{ (s.set a { s.heap a with keys := g, keys_counter := (s.heap a).keys_counter + 1 })
    with element_counter := s.element_counter + 1 }, ks.take i ++ key :: ks.drop i, i, ?_, ?_, ?_⟩
  · unfold ADS_set.insert_private_internal
    simp only [eadd, ok_bind, ADS_set.has_max_num_of_keys, ADS_set.is_root, length_insert,
      set_heap, upd_apply, if_true, eq_self_iff_true, hkc, set_root, beq_iff_eq,
      Nat.add_right_cancel_iff, ADS_set.pending_split]
    by_cases c1 : ks.length = 2 * N
    · simp only [c1, if_true]
      cases par with
      | none =>
        have := hroot.1 rfl
        simp [this]
      | some p =>
        have : a ≠ s.root := fun e => by simpa using hroot.2 e
        simp [this]
    · simp only [c1, if_false]
      rfl
  · exact {
      tree := by
        rw [treeAt_zero]
        simp only [set_heap, upd_apply, if_true, eq_self_iff_true]
        exact ⟨hleaf, harr, hpar, hnx⟩
      ord := by
        refine ⟨hsorted, fun k hk1 => ?_⟩
        rcases (mem_insert_iff ks key i k).1 hk1 with e | e
        · omega
        · exact hO.2 k e
      addr_eq := rfl
      first_eq := rfl
      mem := mem_insert_iff ks key i
      len := length_insert ks key i
      nodup := by simp [BTree.addrs]
      alloc := by
        intro x hx
        simp [BTree.addrs] at hx
        simp [hx, han]
      fresh := by
        intro x hx
        left
        exact hx
      nxt_le := le_refl _
      root_eq := rfl
      depth_eq := rfl
      count_eq := rfl
      frame := by
        intro q _ hq
        have : q ≠ a := by
          intro e; apply hq; simp [BTree.addrs, e]
        simp [this]
      seps := fun x hx => by simp [BTree.seps] at hx }
  · have h1 : mn ≤ ks.length := hB.1
    have h2 := length_insert ks key i
    exact ⟨by simp only [h2]; omega, by simp only [h2]; omega⟩


/-! ## Insertion below an internal node -/

theorem firstLeaf_row (d : Nat) (a a1 : Nat) (ks ks1 : List Nat) (l r mid mid1 : List (BTree d))
    (h : headFirst (BTree.firstLeaf d) mid1 none = headFirst (BTree.firstLeaf d) mid none)
    (hm : mid ≠ []) (hm1 : mid1 ≠ []) (ha : a1 = a) :
    BTree.firstLeaf (d + 1) (a1, ks1, l ++ (mid1 ++ r)) =
      BTree.firstLeaf (d + 1) (a, ks, l ++ (mid ++ r)) := by
  subst ha
  cases l with
  | nil =>
    cases mid with
    | nil => exact absurd rfl hm
    | cons c mid =>
      cases mid1 with
      | nil => exact absurd rfl hm1
      | cons c1 mid1 =>
        simp only [headFirst, Option.some.injEq] at h
        simp only [List.nil_append, List.cons_append, firstLeaf_succ_cons, h]
  | cons c l => rfl

theorem treeAt_root (h : Nat → Node) (d : Nat) (par nx : Option Nat) (t : BTree (d + 1))
    (hT : TreeAt h (d + 1) par nx t) :
    (h (BTree.addr (d + 1) t)).keys_counter = (BTree.keys (d + 1) t).length ∧
      (h (BTree.addr (d + 1) t)).parent = par := by
  obtain ⟨a, ks, cs⟩ := t
  rw [treeAt_succ] at hT
  exact ⟨hT.1.2.1.1, hT.1.2.2.2.1⟩

theorem seps_succ (d : Nat) (a : Nat) (ks : List Nat) (cs : List (BTree d)) :
    BTree.seps (d + 1) (a, ks, cs) = ks ++ (cs.map (BTree.seps d)).flatten := rfl

theorem mem_seps_row (d : Nat) (a : Nat) (ks : List Nat) (l mid r : List (BTree d)) (x : Nat) :
    x ∈ BTree.seps (d + 1) (a, ks, l ++ (mid ++ r)) ↔
      x ∈ ks ∨ (∃ c ∈ l ++ r, x ∈ BTree.seps d c) ∨ ∃ c ∈ mid, x ∈ BTree.seps d c := by
  simp only [seps_succ, List.mem_append, List.mem_flatten, List.mem_map]
  constructor
  · rintro (h | ⟨_, ⟨c, hc, rfl⟩, hx⟩)
    · exact Or.inl h
    · rcases hc with hc | hc | hc
      · exact Or.inr (Or.inl ⟨c, Or.inl hc, hx⟩)
      · exact Or.inr (Or.inr ⟨c, hc, hx⟩)
      · exact Or.inr (Or.inl ⟨c, Or.inr hc, hx⟩)
  · rintro (h | ⟨c, hc, hx⟩ | ⟨c, hc, hx⟩)
    · exact Or.inl h
    · rcases hc with hc | hc
      · exact Or.inr ⟨_, ⟨c, Or.inl hc, rfl⟩, hx⟩
      · exact Or.inr ⟨_, ⟨c, Or.inr (Or.inr hc), rfl⟩, hx⟩
    · exact Or.inr ⟨_, ⟨c, Or.inr (Or.inl hc), rfl⟩, hx⟩

theorem mem_contents_row (d : Nat) (a : Nat) (ks : List Nat) (l mid r : List (BTree d))
    (x : Nat) :
    x ∈ BTree.contents (d + 1) (a, ks, l ++ (mid ++ r)) ↔
      (∃ c ∈ l ++ r, x ∈ BTree.contents d c) ∨ ∃ c ∈ mid, x ∈ BTree.contents d c := by
  simp only [contents_succ, List.mem_append, List.mem_flatten, List.mem_map]
  constructor
  · rintro ⟨_, ⟨c, hc, rfl⟩, hx⟩
    rcases hc with hc | hc | hc
    · exact Or.inl ⟨c, Or.inl hc, hx⟩
    · exact Or.inr ⟨c, hc, hx⟩
    · exact Or.inl ⟨c, Or.inr hc, hx⟩
  · rintro (⟨c, hc, hx⟩ | ⟨c, hc, hx⟩)
    · rcases hc with hc | hc
      · exact ⟨_, ⟨c, Or.inl hc, rfl⟩, hx⟩
      · exact ⟨_, ⟨c, Or.inr (Or.inr hc), rfl⟩, hx⟩
    · exact ⟨_, ⟨c, Or.inr (Or.inl hc), rfl⟩, hx⟩

/-- The insertion seen from the parent of the subtree it went into. -/
theorem ins_row (d : Nat) (s s1 : ADS_set) (a : Nat) (ksl ksr : List Nat) (l r : List (BTree d))
    (c c1 : BTree d) (par nx : Option Nat) (lo hi lo1 hi1 key : Nat)
    (hT : TreeAt s.heap (d + 1) par nx (a, ksl ++ ksr, l ++ ([c] ++ r)))
    (hnd : (BTree.addrs (d + 1) (a, ksl ++ ksr, l ++ ([c] ++ r))).Nodup)
    (hal : ∀ x ∈ BTree.addrs (d + 1) (a, ksl ++ ksr, l ++ ([c] ++ r)), x < s.nxt)
    (hkl : ksl.length = l.length) (hkr : ksr.length = r.length)
    (hpre : OrdPre (fun l h c => KeyOrd d l h c) ksl l lo lo1)
    (hpost : OrdPost (fun l h c => KeyOrd d l h c) ksr r hi1 hi) (hlt : lo1 < hi1)
    (hP : InsPost s s1 d c c1 (some a) (headFirst (BTree.firstLeaf d) r nx) lo1 hi1 key) :
    InsPost s s1 (d + 1) (a, ksl ++ ksr, l ++ ([c] ++ r)) (a, ksl ++ ksr, l ++ ([c1] ++ r))
      par nx lo hi key := by
  have hnr := addrs_nodup_root d a _ _ hnd
  have hac : a ∉ BTree.addrs d c := hnr.1 c (by simp)
  have han : a < s.nxt := hal a (by simp [addrs_succ])
  have hsub : ∀ x ∈ BTree.addrs d c, x ∈ BTree.addrs (d + 1) (a, ksl ++ ksr, l ++ ([c] ++ r)) :=
    fun x hx => addrs_child_subset d a _ _ c (by simp) x hx
  exact {
    tree := by
      apply treeAt_replace s.heap s1.heap d a (ksl ++ ksr) (ksl ++ ksr) l r [c] [c1] par nx hT
      · rw [hP.frame a han hac]
        have e : (l ++ ([c1] ++ r)).map (BTree.addr d) = (l ++ ([c] ++ r)).map (BTree.addr d) := by
          simp [hP.addr_eq]
        rw [e]
        rw [treeAt_succ] at hT
        exact hT.1
      · apply row_frame d s.heap s1.heap a (ksl ++ ksr) l r [c] s.nxt hnd hal
        intro q hq _ hqc
        exact hP.frame q hq (hqc c (by simp))
      · simp [headFirst, hP.first_eq]
      · exact ⟨hP.tree, trivial⟩
    ord := row_keyOrd d a ksl ksr [] [] l r [c] [c1] lo hi lo1 hi1 hpre hpost hkl hkr rfl
      ⟨hlt, hP.ord⟩
    addr_eq := rfl
    first_eq := firstLeaf_row d a a _ _ l r [c] [c1] (by simp [headFirst, hP.first_eq])
      (by simp) (by simp) rfl
    mem := row_mem_contents d a _ _ l r [c] [c1] (fun x => x = key) (by simpa using hP.mem)
    len := by
      have := row_len_contents d a (ksl ++ ksr) (ksl ++ ksr) l r [c] [c1] _ _ rfl rfl
      simp only [List.map_cons, List.map_nil, List.flatten_cons, List.flatten_nil,
        List.append_nil, hP.len] at this
      omega
    nodup := row_nodup_replace d a _ _ l r [c] [c1] s.nxt hnd hal (by simpa using hP.nodup)
      (by simpa using hP.fresh)
    alloc := row_alloc_replace d a (ksl ++ ksr) _ l r [c] [c1] s.nxt s1.nxt hal hP.nxt_le
      (by simpa using hP.alloc)
    fresh := row_fresh_replace d a _ _ l r [c] [c1] s.nxt (by simpa using hP.fresh)
    nxt_le := hP.nxt_le
    root_eq := hP.root_eq
    depth_eq := hP.depth_eq
    count_eq := hP.count_eq
    frame := fun q hq hqt => hP.frame q hq (fun hx => hqt (hsub q hx))
    seps := by
      intro x hx
      rcases (mem_seps_row d a _ l [c1] r x).1 hx with h | h | ⟨c0, hc0, h⟩
      · exact Or.inl ((mem_seps_row d a _ l [c] r x).2 (Or.inl h))
      · exact Or.inl ((mem_seps_row d a _ l [c] r x).2 (Or.inr (Or.inl h)))
      · rw [List.mem_singleton] at hc0
        subst hc0
        rcases hP.seps x h with h1 | h1
        · exact Or.inl ((mem_seps_row d a _ l [c] r x).2
            (Or.inr (Or.inr ⟨c, List.mem_singleton_self _, h1⟩)))
        · exact Or.inr ((mem_contents_row d a _ l [c0] r x).2
            (Or.inr ⟨c0, List.mem_singleton_self _, h1⟩)) }

/-- The insertion seen from the parent after the subtree it went into was split. -/
theorem ins_after_split (d : Nat) (s s1 s2 : ADS_set) (a : Nat) (ks ks1 : List Nat)
    (l r : List (BTree d)) (t : BTree (d + 1)) (cm c1 c2 : BTree d) (par nx : Option Nat)
    (lo hi key : Nat)
    (hPm : InsPost s s1 (d + 1) t (a, ks, l ++ ([cm] ++ r)) par nx lo hi key)
    (hT : TreeAt s2.heap (d + 1) par nx (a, ks1, l ++ ([c1, c2] ++ r)))
    (hO : KeyOrd (d + 1) lo hi (a, ks1, l ++ ([c1, c2] ++ r)))
    (hn : s2.nxt = s1.nxt + 1) (hr : s2.root = s1.root) (hd : s2.depth = s1.depth)
    (he : s2.element_counter = s1.element_counter)
    (hf : ∀ q, q < s1.nxt → q ≠ a → q ∉ BTree.addrs d cm → s2.heap q = s1.heap q)
    (hc : BTree.contents d c1 ++ BTree.contents d c2 = BTree.contents d cm)
    (had : ∀ x, x ∈ BTree.addrs d c1 ++ BTree.addrs d c2 ↔ (x = s1.nxt ∨ x ∈ BTree.addrs d cm))
    (hnd12 : (BTree.addrs d c1 ++ BTree.addrs d c2).Nodup)
    (hfl : BTree.firstLeaf d c1 = BTree.firstLeaf d cm)
    (hs : ∀ x, (x ∈ ks1 ∨ x ∈ BTree.seps d c1 ∨ x ∈ BTree.seps d c2) →
      (x ∈ ks ∨ x ∈ BTree.seps d cm ∨ x ∈ BTree.contents d c2)) :
    InsPost s s2 (d + 1) t (a, ks1, l ++ ([c1, c2] ++ r)) par nx lo hi key := by
  have hcont : BTree.contents (d + 1) (a, ks1, l ++ ([c1, c2] ++ r)) =
      BTree.contents (d + 1) (a, ks, l ++ ([cm] ++ r)) := by
    rw [contents_row, contents_row]
    simp [hc]
  have hfr : ∀ x ∈ (List.map (BTree.addrs d) [c1, c2]).flatten,
      x ∈ (List.map (BTree.addrs d) [cm]).flatten ∨ s1.nxt ≤ x := by
    intro x hx
    simp only [List.map_cons, List.map_nil, List.flatten_cons, List.flatten_nil,
      List.append_nil] at hx ⊢
    rcases (had x).1 hx with e | e
    · right; omega
    · left; exact e
  have hsub : ∀ x ∈ BTree.addrs d cm, x ∈ BTree.addrs (d + 1) (a, ks, l ++ ([cm] ++ r)) :=
    fun x hx => addrs_child_subset d a _ _ cm (by simp) x hx
  exact {
    tree := hT
    ord := hO
    addr_eq := hPm.addr_eq
    first_eq := by
      rw [← hPm.first_eq]
      exact firstLeaf_row d a a _ _ l r [cm] [c1, c2] (by simp [headFirst, hfl])
        (by simp) (by simp) rfl
    mem := by rw [hcont]; exact hPm.mem
    len := by rw [hcont]; exact hPm.len
    nodup := row_nodup_replace d a ks ks1 l r [cm] [c1, c2] s1.nxt hPm.nodup hPm.alloc
      (by simpa using hnd12) hfr
    alloc := row_alloc_replace d a ks ks1 l r [cm] [c1, c2] s1.nxt s2.nxt hPm.alloc (by omega)
      (by
        intro x hx
        simp only [List.map_cons, List.map_nil, List.flatten_cons, List.flatten_nil,
          List.append_nil] at hx
        rcases (had x).1 hx with e | e
        · omega
        · have := hPm.alloc x (hsub x e); omega)
    fresh := by
      intro x hx
      rcases row_fresh_replace d a ks ks1 l r [cm] [c1, c2] s1.nxt hfr x hx with e | e
      · exact hPm.fresh x e
      · right; have := hPm.nxt_le; omega
    nxt_le := by have := hPm.nxt_le; omega
    root_eq := by rw [hr, hPm.root_eq]
    depth_eq := by rw [hd, hPm.depth_eq]
    count_eq := by rw [he, hPm.count_eq]
    frame := by
      intro q hq hqt
      have hqa : q ≠ a := by
        intro e
        have h1 : q ∈ BTree.addrs (d + 1) (a, ks, l ++ ([cm] ++ r)) := by
          rw [e]; simp [addrs_succ]
        rcases hPm.fresh q h1 with e1 | e1
        · exact hqt e1
        · omega
      have hqc : q ∉ BTree.addrs d cm := by
        intro hx
        rcases hPm.fresh q (hsub q hx) with e1 | e1
        · exact hqt e1
        · omega
      rw [hf q (by have := hPm.nxt_le; omega) hqa hqc]
      exact hPm.frame q hq hqt
    seps := by
      intro x hx
      have hold : x ∈ BTree.seps (d + 1) (a, ks, l ++ ([cm] ++ r)) →
          x ∈ BTree.seps (d + 1) t ∨
            x ∈ BTree.contents (d + 1) (a, ks1, l ++ ([c1, c2] ++ r)) := by
        intro h
        rcases hPm.seps x h with h1 | h1
        · exact Or.inl h1
        · right
          rw [hcont]
          exact h1
      have hmid : (x ∈ ks1 ∨ x ∈ BTree.seps d c1 ∨ x ∈ BTree.seps d c2) →
          x ∈ BTree.seps (d + 1) t ∨
            x ∈ BTree.contents (d + 1) (a, ks1, l ++ ([c1, c2] ++ r)) := by
        intro h
        rcases hs x h with h1 | h1 | h1
        · exact hold ((mem_seps_row d a _ l [cm] r x).2 (Or.inl h1))
        · exact hold ((mem_seps_row d a _ l [cm] r x).2
            (Or.inr (Or.inr ⟨cm, List.mem_singleton_self _, h1⟩)))
        · exact Or.inr ((mem_contents_row d a _ l [c1, c2] r x).2
            (Or.inr ⟨c2, by simp, h1⟩))
      rcases (mem_seps_row d a _ l [c1, c2] r x).1 hx with h | h | ⟨c0, hc0, h⟩
      · exact hmid (Or.inl h)
      · exact hold ((mem_seps_row d a _ l [cm] r x).2 (Or.inr (Or.inl h)))
      · simp only [List.mem_cons, List.mem_singleton, List.not_mem_nil, or_false] at hc0
        rcases hc0 with e | e
        · subst e
          exact hmid (Or.inr (Or.inl h))
        · subst e
          exact hmid (Or.inr (Or.inr h)) }


/-! ## Insertion: a child that overflowed is split under its parent -/

theorem split_keys (N : Nat) (ks : List Nat) (h : ks.length = 2 * N + 1) :
    ∃ lks m rks, ks = lks ++ m :: rks ∧ lks.length = N ∧ rks.length = N := by
  have hN : N < ks.length := by omega
  refine ⟨ks.take N, ks[N], ks.drop (N + 1), ?_, ?_, ?_⟩
  · rw [List.getElem_cons_drop, List.take_append_drop]
  · simp; omega
  · simp; omega

theorem split_kids {α : Type} (N : Nat) (cs : List α) (h : cs.length = 2 * N + 2) :
    ∃ lcs rcs, cs = lcs ++ rcs ∧ lcs.length = N + 1 ∧ rcs.length = N + 1 := by
  refine ⟨cs.take (N + 1), cs.drop (N + 1), ?_, ?_, ?_⟩
  · rw [List.take_append_drop]
  · simp; omega
  · simp; omega

theorem sorted_split (lks rks : List Nat) (m : Nat)
    (h : (lks ++ m :: rks).Pairwise (fun x y => x < y)) :
    lks.Pairwise (fun x y => x < y) ∧ (m :: rks).Pairwise (fun x y => x < y) ∧
      (∀ x ∈ lks, x < m) ∧ (∀ x ∈ rks, m < x) := by
  rw [List.pairwise_append] at h
  obtain ⟨h1, h2, h3⟩ := h
  refine ⟨h1, h2, fun x hx => h3 x hx m (List.mem_cons_self _ _), ?_⟩
  rw [List.pairwise_cons] at h2
  exact h2.1

theorem ins_split_leaf (N : Nat) (hN : 0 < N) (s s1 : ADS_set) (a : Nat) (ksl ksr : List Nat)
    (l r : List (BTree 0)) (t : BTree 1) (ca : Nat) (ks1 : List Nat) (par nx : Option Nat)
    (lo hi lo1 hi1 key mn : Nat)
    (hPm : InsPost s s1 1 t (a, ksl ++ ksr, l ++ ([BTree.leaf ca ks1] ++ r)) par nx lo hi key)
    (hkl : ksl.length = l.length) (hkr : ksr.length = r.length)
    (hpre : OrdPre (fun l h c => KeyOrd 0 l h c) ksl l lo lo1)
    (hpost : OrdPost (fun l h c => KeyOrd 0 l h c) ksr r hi1 hi)
    (hco : KeyOrd 0 lo1 hi1 (ca, ks1)) (hover : ks1.length = 2 * N + 1)
    (hcap : (ksl ++ ksr).length ≤ 2 * N) (hmn : mn ≤ (ksl ++ ksr).length)
    (hBs : ∀ c ∈ l ++ r, BalN N N (2 * N) 0 c) :
    ∃ s2 t1, ADS_set.external_split_body N s1 ca = .ok s2 ∧
      InsPost s s2 1 t t1 par nx lo hi key ∧ BalN N mn (2 * N + 1) 1 t1 ∧
      BTree.addr 1 t1 = a ∧ (s2.heap ca).parent = some a := by
  obtain ⟨lks, m, rks, rfl, hN1, hN2⟩ := split_keys N ks1 hover
  have hks : (ksl ++ ksr).Pairwise (fun x y => x < y) := by
    have := hPm.ord
    rw [keyOrd_succ] at this
    exact (ordKids_seps_sorted _ _ _ _ _ this).1
  obtain ⟨hsl, hsr, hlm, hmr⟩ := sorted_split lks rks m hco.1
  have hlo1m : lo1 < m := by
    have h0 : 0 < lks.length := by omega
    have h1 := hlm lks[0] (List.getElem_mem _)
    have h2 := (hco.2 lks[0] (List.mem_append_left _ (List.getElem_mem _))).1
    omega
  have hmhi1 : m < hi1 := (hco.2 m (by simp)).2
  have hlo : ∀ x ∈ ksl, x < m := by
    intro x hx
    have := (ordPre_le _ _ _ _ _ hpre).2.1 x hx
    omega
  have hhi : ∀ x ∈ ksr, m < x := by
    intro x hx
    have := (ordPost_head _ _ _ _ _ hpost).2.2.1 x hx
    omega
  obtain ⟨s2, e, hT2, hn, hr, hd, he, hf⟩ := external_split_body_spec N s1 a ksl ksr l r ca
    lks rks m par nx hPm.tree hkl hkr hN1 hN2 hco.1 hks hlo hhi hcap hPm.nodup hPm.alloc
  have hcan : ca < s1.nxt := hPm.alloc ca (by simp [addrs_succ, BTree.addrs])
  have hO2 : KeyOrd 1 lo hi
      (a, ksl ++ m :: ksr, l ++ ([BTree.leaf ca lks, BTree.leaf s1.nxt (m :: rks)] ++ r)) :=
    row_keyOrd 0 a ksl ksr [] [m] l r [BTree.leaf ca (lks ++ m :: rks)]
      [BTree.leaf ca lks, BTree.leaf s1.nxt (m :: rks)] lo hi lo1 hi1 hpre hpost hkl hkr rfl
      ⟨hlo1m, ⟨hsl, fun k hk => ⟨(hco.2 k (List.mem_append_left _ hk)).1, hlm k hk⟩⟩,
        hmhi1, ⟨hsr, fun k hk => by
          refine ⟨?_, (hco.2 k (List.mem_append_right _ hk)).2⟩
          rcases List.mem_cons.1 hk with e1 | e1
          · omega
          · have := hmr k e1; omega⟩⟩
  refine ⟨s2, (a, ksl ++ m :: ksr, l ++ ([BTree.leaf ca lks, BTree.leaf s1.nxt (m :: rks)] ++ r)),
    e, ?_, ?_, rfl, ?_⟩
  · apply ins_after_split 0 s s1 s2 a (ksl ++ ksr) (ksl ++ m :: ksr) l r t
      (BTree.leaf ca (lks ++ m :: rks)) (BTree.leaf ca lks) (BTree.leaf s1.nxt (m :: rks))
      par nx lo hi key hPm hT2 hO2 hn hr hd he
    · intro q hq hqa hqc
      apply hf q hq hqa
      intro e1
      apply hqc
      simp [BTree.addrs, e1]
    · rfl
    · intro x
      simp [BTree.addrs]
      tauto
    · simp [BTree.addrs]
      omega
    · rfl
    · intro x hx
      simp only [BTree.seps, List.not_mem_nil, or_false, List.mem_append, List.mem_cons] at hx
      rcases hx with h | h | h
      · exact Or.inl (List.mem_append_left _ h)
      · subst h
        exact Or.inr (Or.inr (List.mem_cons_self _ _))
      · exact Or.inl (List.mem_append_right _ h)
  · rw [balN_succ]
    refine ⟨by simp at hmn ⊢; omega, by simp at hcap ⊢; omega, by simp; omega, ?_⟩
    intro c hc
    simp only [List.mem_append, List.mem_cons, List.mem_singleton, List.not_mem_nil,
      or_false] at hc
    rcases hc with e1 | (e1 | e1) | e1
    · exact hBs c (List.mem_append_left _ e1)
    · subst e1
      exact ⟨by simp [hN1], by simp [hN1]; omega⟩
    · subst e1
      exact ⟨by simp [hN2], by simp [hN2]; omega⟩
    · exact hBs c (List.mem_append_right _ e1)
  · rw [treeAt_succ, kidsAt_append] at hT2
    exact hT2.2.2.1.2.2.1

theorem ins_split_node (N : Nat) (d : Nat) (s s1 : ADS_set) (a : Nat)
    (ksl ksr : List Nat) (l r : List (BTree (d + 1))) (t : BTree (d + 2)) (ca : Nat)
    (cks : List Nat) (ccs : List (BTree d)) (par nx : Option Nat)
    (lo hi lo1 hi1 key mn : Nat)
    (hPm : InsPost s s1 (d + 2) t (a, ksl ++ ksr, l ++ ([BTree.node ca cks ccs] ++ r))
      par nx lo hi key)
    (hkl : ksl.length = l.length) (hkr : ksr.length = r.length)
    (hpre : OrdPre (fun l h c => KeyOrd (d + 1) l h c) ksl l lo lo1)
    (hpost : OrdPost (fun l h c => KeyOrd (d + 1) l h c) ksr r hi1 hi)
    (hco : KeyOrd (d + 1) lo1 hi1 (ca, cks, ccs)) (hover : cks.length = 2 * N + 1)
    (hcb : ∀ c ∈ ccs, BalN N N (2 * N) d c)
    (hcap : (ksl ++ ksr).length ≤ 2 * N) (hmn : mn ≤ (ksl ++ ksr).length)
    (hBs : ∀ c ∈ l ++ r, BalN N N (2 * N) (d + 1) c) :
    ∃ s2 t1, ADS_set.internal_split_body N s1 ca = .ok (s2, a) ∧
      InsPost s s2 (d + 2) t t1 par nx lo hi key ∧ BalN N mn (2 * N + 1) (d + 2) t1 ∧
      BTree.addr (d + 2) t1 = a := by
  rw [keyOrd_succ] at hco
  have hclen := ordKids_length _ _ _ _ _ hco
  obtain ⟨lks, m, rks, rfl, hN1, hN2⟩ := split_keys N cks hover
  obtain ⟨lcs, rcs, rfl, hC1, hC2⟩ := split_kids N ccs (by omega)
  have hks : (ksl ++ ksr).Pairwise (fun x y => x < y) := by
    have := hPm.ord
    rw [keyOrd_succ] at this
    exact (ordKids_seps_sorted _ _ _ _ _ this).1
  have hsort := (ordKids_seps_sorted _ _ _ _ _ hco).1
  obtain ⟨ho1, ho2⟩ := ordKids_split _ lks lcs rks rcs lo1 hi1 m (by omega) hco
  have hlo1m : lo1 < m := ordKids_lt _ _ _ _ _ ho1
  have hmhi1 : m < hi1 := ordKids_lt _ _ _ _ _ ho2
  have hlo : ∀ x ∈ ksl, x < m := by
    intro x hx
    have := (ordPre_le _ _ _ _ _ hpre).2.1 x hx
    omega
  have hhi : ∀ x ∈ ksr, m < x := by
    intro x hx
    have := (ordPost_head _ _ _ _ _ hpost).2.2.1 x hx
    omega
  obtain ⟨s2, e, hT2, hn, hr, hd, he, hf⟩ := internal_split_body_spec N d s1 a ksl ksr l r ca
    lks rks m lcs rcs par nx hPm.tree hkl hkr hN1 hN2 hC1 hC2 hsort hks hlo hhi hcap
    hPm.nodup hPm.alloc
  have hcm : BTree.node ca (lks ++ m :: rks) (lcs ++ rcs) ∈
      l ++ ([BTree.node ca (lks ++ m :: rks) (lcs ++ rcs)] ++ r) := by simp
  have hcnd : (BTree.addrs (d + 1) (BTree.node ca (lks ++ m :: rks) (lcs ++ rcs))).Nodup :=
    flatten_nodup_mem _ _ (addrs_nodup_root (d + 1) a _ _ hPm.nodup).2 _ hcm
  have hcal : ∀ x ∈ BTree.addrs (d + 1) (BTree.node ca (lks ++ m :: rks) (lcs ++ rcs)),
      x < s1.nxt := fun x hx =>
    hPm.alloc x (addrs_child_subset (d + 1) a _ _ _ hcm x hx)
  have hO2 : KeyOrd (d + 2) lo hi
      (a, ksl ++ m :: ksr, l ++ ([BTree.node ca lks lcs, BTree.node s1.nxt rks rcs] ++ r)) :=
    row_keyOrd (d + 1) a ksl ksr [] [m] l r [BTree.node ca (lks ++ m :: rks) (lcs ++ rcs)]
      [BTree.node ca lks lcs, BTree.node s1.nxt rks rcs] lo hi lo1 hi1 hpre hpost hkl hkr rfl
      ⟨hlo1m, ho1, hmhi1, ho2⟩
  refine ⟨s2, (a, ksl ++ m :: ksr,
    l ++ ([BTree.node ca lks lcs, BTree.node s1.nxt rks rcs] ++ r)), e, ?_, ?_, rfl⟩
  · apply ins_after_split (d + 1) s s1 s2 a (ksl ++ ksr) (ksl ++ m :: ksr) l r t
      (BTree.node ca (lks ++ m :: rks) (lcs ++ rcs)) (BTree.node ca lks lcs)
      (BTree.node s1.nxt rks rcs) par nx lo hi key hPm hT2 hO2 hn hr hd he hf
    · simp [contents_succ]
    · intro x
      simp only [addrs_succ, List.map_append, List.flatten_append, List.mem_append,
        List.mem_cons]
      tauto
    · rw [addrs_succ] at hcnd hcal
      simp only [addrs_succ, List.map_append, List.flatten_append] at hcnd hcal ⊢
      have hp : (ca :: (List.map (BTree.addrs d) lcs).flatten ++
          s1.nxt :: (List.map (BTree.addrs d) rcs).flatten).Perm
          (s1.nxt :: (ca :: ((List.map (BTree.addrs d) lcs).flatten ++
            (List.map (BTree.addrs d) rcs).flatten))) := List.perm_middle
      rw [hp.nodup_iff, List.nodup_cons]
      refine ⟨fun hx => ?_, hcnd⟩
      have := hcal _ hx
      omega
    · cases lcs with
      | nil => simp at hC1
      | cons c0 lcs0 => rfl
    · intro x hx
      simp only [seps_succ, List.map_append, List.flatten_append, List.mem_append,
        List.mem_cons] at hx ⊢
      tauto
  · rw [balN_succ]
    refine ⟨by simp at hmn ⊢; omega, by simp at hcap ⊢; omega, by simp; omega, ?_⟩
    intro c hc
    simp only [List.mem_append, List.mem_cons, List.mem_singleton, List.not_mem_nil,
      or_false] at hc
    rcases hc with e1 | (e1 | e1) | e1
    · exact hBs c (List.mem_append_left _ e1)
    · subst e1
      rw [balN_succ]
      exact ⟨by omega, by omega, by omega,
        fun c1 hc1 => hcb c1 (List.mem_append_left _ hc1)⟩
    · subst e1
      rw [balN_succ]
      exact ⟨by omega, by omega, by omega,
        fun c1 hc1 => hcb c1 (List.mem_append_right _ hc1)⟩
    · exact hBs c (List.mem_append_right _ e1)


/-! ## Insertion: induction over the height of the subtree -/

theorem balN_fit (N mn : Nat) : ∀ (d : Nat) (t : BTree d), BalN N mn (2 * N + 1) d t →
    (BTree.keys d t).length ≠ 2 * N + 1 → BalN N mn (2 * N) d t := by
  intro d
  cases d with
  | zero =>
    intro t h hf
    have h1 : mn ≤ t.2.length := h.1
    have h2 : t.2.length ≤ 2 * N + 1 := h.2
    have h3 : t.2.length ≠ 2 * N + 1 := hf
    exact ⟨h1, by omega⟩
  | succ d =>
    intro t h hf
    obtain ⟨a, ks, cs⟩ := t
    rw [balN_succ] at h ⊢
    have h3 : ks.length ≠ 2 * N + 1 := hf
    exact ⟨h.1, by omega, h.2.2.1, h.2.2.2⟩

theorem insert_subtree (N : Nat) (hN : 0 < N) (key : Nat) (s : ADS_set) :
    ∀ (d : Nat) (t : BTree d) (par nx : Option Nat) (lo hi mn : Nat),
      TreeAt s.heap d par nx t → KeyOrd d lo hi t → BalN N mn (2 * N) d t →
      (BTree.addrs d t).Nodup → (∀ x ∈ BTree.addrs d t, x < s.nxt) →
      lo ≤ key → key < hi → key ∉ BTree.contents d t →
      (par = none → BTree.addr d t = s.root) → (par ≠ none → s.root ∉ BTree.addrs d t) →
      d ≤ s.fuel →
      ∃ s1 t1 c,
        ADS_set.insert_private_internal N s (BTree.route d t key).1 key =
          (if (BTree.keys d t1).length = 2 * N + 1 then
            (ADS_set.pending_split N s.fuel d par s1 (BTree.addr d t)) >>= fun s2 => .ok (s2, c)
           else .ok (s1, c)) ∧
        InsPost s s1 d t t1 par nx lo hi key ∧ BalN N mn (2 * N + 1) d t1 := by
  intro d
  induction d with
  | zero =>
    intro t par nx lo hi mn hT hO hB hnd hal hlo hhi hk hr1 hr2 hf
    obtain ⟨a, ks⟩ := t
    have hroot : par = none ↔ a = s.root := by
      constructor
      · exact hr1
      · intro e
        by_contra hp
        exact hr2 hp (by simp [BTree.addrs, e])
    obtain ⟨s1, ks1, c, e, hP, hB1⟩ := insert_leaf N key s a ks par nx lo hi mn hT hO hB
      (hal a (by simp [BTree.addrs])) hlo hhi hk hroot
    exact ⟨s1, (a, ks1), c, e, hP, hB1⟩
  | succ d ih =>
    intro t par nx lo hi mn hT hO hB hnd hal hlo hhi hk hr1 hr2 hf
    obtain ⟨a, ks, cs⟩ := t
    obtain ⟨ksl, ksr, l, r, c, lo1, hi1, rfl, rfl, hkl, hkr, hpre, hco, hpost, hl1, hh1, hroute⟩ :=
      route_row d a ks cs lo hi key hO hlo hhi
    rw [hroute]
    have hcm : c ∈ l ++ ([c] ++ r) := by simp
    have hT1 := hT
    rw [treeAt_succ, kidsAt_append, kidsAt_append] at hT1
    have hTc : TreeAt s.heap d (some a) (headFirst (BTree.firstLeaf d) r nx) c := hT1.2.2.1.1
    have hB0 := hB
    rw [balN_succ] at hB0
    have hnr := addrs_nodup_root d a _ _ hnd
    have hndc : (BTree.addrs d c).Nodup := flatten_nodup_mem _ _ hnr.2 c hcm
    have hsub : ∀ x ∈ BTree.addrs d c,
        x ∈ BTree.addrs (d + 1) (a, ksl ++ ksr, l ++ ([c] ++ r)) :=
      fun x hx => addrs_child_subset d a _ _ c hcm x hx
    have hkc : key ∉ BTree.contents d c := by
      intro hx
      apply hk
      rw [contents_succ, List.mem_flatten]
      exact ⟨_, List.mem_map_of_mem _ hcm, hx⟩
    have hrc : s.root ∉ BTree.addrs d c := by
      intro hx
      cases par with
      | none =>
        have e : a = s.root := hr1 rfl
        exact hnr.1 c hcm (e ▸ hx)
      | some p => exact hr2 (by simp) (hsub _ hx)
    obtain ⟨s1, c1, idx, e, hP, hB1⟩ := ih c (some a) _ lo1 hi1 N hTc hco (hB0.2.2.2 c hcm) hndc
      (fun x hx => hal x (hsub x hx)) hl1 hh1 hkc (by simp) (fun _ => hrc) (by omega)
    have hPm := ins_row d s s1 a ksl ksr l r c c1 par nx lo hi lo1 hi1 key hT hnd hal hkl hkr
      hpre hpost (by omega) hP
    have hBs : ∀ c ∈ l ++ r, BalN N N (2 * N) d c := by
      intro c2 hc2
      apply hB0.2.2.2
      rcases List.mem_append.1 hc2 with e1 | e1
      · exact List.mem_append_left _ e1
      · exact List.mem_append_right _ (List.mem_append_right _ e1)
    have hroot : par = none ↔ a = s.root := by
      constructor
      · exact hr1
      · intro e1
        by_contra hp
        exact hr2 hp (by simp [addrs_succ, e1])
    by_cases hov : (BTree.keys d c1).length = 2 * N + 1
    · rw [e, if_pos hov]
      cases d with
      | zero =>
        obtain ⟨ca, ks1⟩ := c1
        have hca : BTree.addr 0 c = ca := hP.addr_eq.symm
        obtain ⟨s2, t1, eb, hP2, hB2, hat, hcp⟩ := ins_split_leaf N hN s s1 a ksl ksr l r _ ca ks1
          par nx lo hi lo1 hi1 key mn hPm hkl hkr hpre hpost hP.ord hov hB0.2.1 hB0.1 hBs
        refine ⟨s2, t1, idx, ?_, hP2, hB2⟩
        obtain ⟨hk2, hp2⟩ := treeAt_root _ _ _ _ t1 hP2.tree
        rw [hat] at hk2 hp2
        rw [hca]
        simp only [ADS_set.pending_split, ADS_set.external_split, eb, ok_bind, hcp, deref,
          hk2, hp2, beq_iff_eq, BTree.addr, Nat.sub_zero]
        by_cases hov2 : (BTree.keys 1 t1).length = 2 * N + 1
        · simp only [hov2, if_true]
          all_goals (cases par <;> rfl)
        · simp only [hov2, if_false]
          rfl
      | succ d1 =>
        obtain ⟨ca, cks, ccs⟩ := c1
        have hca : BTree.addr (d1 + 1) c = ca := hP.addr_eq.symm
        have hB1' := hB1
        rw [balN_succ] at hB1'
        obtain ⟨s2, t1, eb, hP2, hB2, hat⟩ := ins_split_node N d1 s s1 a ksl ksr l r _ ca cks ccs
          par nx lo hi lo1 hi1 key mn hPm hkl hkr hpre hpost hP.ord hov hB1'.2.2.2 hB0.2.1 hB0.1
          hBs
        refine ⟨s2, t1, idx, ?_, hP2, hB2⟩
        obtain ⟨hk2, hp2⟩ := treeAt_root _ _ _ _ t1 hP2.tree
        rw [hat] at hk2 hp2
        obtain ⟨g, hg⟩ : ∃ g, s.fuel - d1 = g + 1 := ⟨s.fuel - d1 - 1, by omega⟩
        have hg2 : s.fuel - (d1 + 1) = g := by omega
        rw [hca]
        simp only [ADS_set.pending_split, hg, ADS_set.internal_split, eb, ok_bind,
          ADS_set.has_max_num_of_keys, ADS_set.is_root, hk2, beq_iff_eq, BTree.addr, hg2,
          hP2.root_eq]
        by_cases hov2 : (BTree.keys (d1 + 2) t1).length = 2 * N + 1
        · simp only [hov2, if_true]
          cases par with
          | none =>
            have := hroot.1 rfl
            simp [this]
          | some p =>
            have : a ≠ s.root := fun e1 => by simpa using hroot.2 e1
            simp [this]
        · simp only [hov2, if_false]
          rfl
    · refine ⟨s1, (a, ksl ++ ksr, l ++ ([c1] ++ r)), idx, ?_, hPm, ?_⟩
      · rw [e, if_neg hov]
        have h2 : (BTree.keys (d + 1) (a, ksl ++ ksr, l ++ ([c1] ++ r))).length ≠ 2 * N + 1 := by
          have := hB0.2.1
          simp only [BTree.keys]
          omega
        rw [if_neg h2]
      · apply row_balN N mn (2 * N) mn (2 * N + 1) d a (ksl ++ ksr) (ksl ++ ksr) l r [c] [c1] hB
          hB0.1 (by have := hB0.2.1; omega) (by have := hB0.2.2.1; simpa using this)
        intro c2 hc2
        simp only [List.mem_singleton] at hc2
        subst hc2
        exact balN_fit N N d c2 hB1 hov


/-! ## `insert` keeps the tree well formed -/

theorem good_root_split_leaf (N : Nat) (hN : 0 < N) (s s1 : ADS_set) (hi key : Nat)
    (t : BTree 0) (a : Nat) (ks1 : List Nat)
    (hP : InsPost s s1 0 t (a, ks1) none none 0 hi key) (hr : a = s.root)
    (hd : s.depth = 0) (hc : s.element_counter = (BTree.contents 0 t).length)
    (hov : ks1.length = 2 * N + 1) :
    ∃ s2, ADS_set.root_split N s1 = .ok s2 ∧ ∃ t2 : BTree 1, GoodT N s2 1 t2 hi ∧
      BTree.contents 1 t2 = ks1 ∧ ∀ x ∈ BTree.seps 1 t2, x ∈ BTree.contents 1 t2 := by
  obtain ⟨lks, m, rks, rfl, hN1, hN2⟩ := split_keys N ks1 hov
  have hroot : s1.root = a := by rw [hP.root_eq, hr]
  have hl := hP.tree
  rw [treeAt_zero] at hl
  have han : a < s1.nxt := hP.alloc a (by simp [BTree.addrs])
  obtain ⟨s2, e, h1, h2, h3, h4, _, hT⟩ := root_split_leaf N s1 lks rks m (by rw [hroot]; exact hl)
    hN1 hN2 hP.ord.1 (by rw [hroot]; exact han)
  obtain ⟨hsl, hsr, hlm, hmr⟩ := sorted_split lks rks m hP.ord.1
  have hco := hP.ord
  have h0m : 0 < m := by
    have h0 : 0 < lks.length := by omega
    have := hlm lks[0] (List.getElem_mem _)
    omega
  refine ⟨s2, e, (s1.nxt, [m], [(s1.root, lks), (s1.nxt + 1, m :: rks)]), ?_, ?_, ?_⟩
  · exact {
      depth_eq := by rw [h3, hP.depth_eq, hd]; rfl
      root_eq := h1.symm
      tree := hT
      ord := by
        rw [keyOrd_succ]
        exact ⟨h0m, ⟨hsl, fun k hk => ⟨Nat.zero_le _, hlm k hk⟩⟩,
          (hco.2 m (by simp)).2, ⟨hsr, fun k hk => by
            refine ⟨?_, (hco.2 k (List.mem_append_right _ hk)).2⟩
            rcases List.mem_cons.1 hk with e1 | e1
            · omega
            · have := hmr k e1; omega⟩⟩
      bal := by
        rw [balN_succ]
        refine ⟨by simp [rootMin], by simp; omega, by simp, ?_⟩
        intro c hc1
        simp only [List.mem_cons, List.mem_singleton, List.not_mem_nil, or_false] at hc1
        rcases hc1 with e1 | e1
        · subst e1
          exact ⟨by simp [hN1], by simp [hN1]; omega⟩
        · subst e1
          exact ⟨by simp [hN2], by simp [hN2]; omega⟩
      nodup := by
        simp [BTree.addrs, hroot]
        omega
      alloc := by
        intro x hx
        simp [BTree.addrs, hroot] at hx
        omega
      count_eq := by
        rw [h4, hP.count_eq, hc, ← hP.len]
        simp [BTree.contents] }
  · simp [BTree.contents]
  · intro x hx
    simp [BTree.seps] at hx
    subst hx
    simp [BTree.contents]

theorem good_root_split_node (N : Nat) (hN : 0 < N) (d : Nat) (s s1 : ADS_set) (hi key : Nat)
    (t : BTree (d + 1)) (a : Nat) (cks : List Nat) (ccs : List (BTree d))
    (hP : InsPost s s1 (d + 1) t (a, cks, ccs) none none 0 hi key) (hr : a = s.root)
    (hd : s.depth = ((d + 1 : Nat) : Int))
    (hc : s.element_counter = (BTree.contents (d + 1) t).length)
    (hB : BalN N 1 (2 * N + 1) (d + 1) (a, cks, ccs))
    (hov : cks.length = 2 * N + 1) :
    ∃ s2, ADS_set.root_split N s1 = .ok s2 ∧ ∃ t2 : BTree (d + 2), GoodT N s2 (d + 2) t2 hi ∧
      BTree.contents (d + 2) t2 = BTree.contents (d + 1) (a, cks, ccs) ∧
      ∀ x ∈ BTree.seps (d + 2) t2, x ∈ BTree.seps (d + 1) (a, cks, ccs) := by
  have hco := hP.ord
  rw [keyOrd_succ] at hco
  have hclen := ordKids_length _ _ _ _ _ hco
  obtain ⟨lks, m, rks, rfl, hN1, hN2⟩ := split_keys N cks hov
  obtain ⟨lcs, rcs, rfl, hC1, hC2⟩ := split_kids N ccs (by omega)
  have hroot : s1.root = a := by rw [hP.root_eq, hr]
  have hsort := (ordKids_seps_sorted _ _ _ _ _ hco).1
  obtain ⟨ho1, ho2⟩ := ordKids_split _ lks lcs rks rcs 0 hi m (by omega) hco
  have hT := hP.tree
  rw [← hroot] at hT
  have hnd := hP.nodup
  have hal := hP.alloc
  rw [← hroot] at hnd hal
  obtain ⟨s2, e, h1, h2, h3, h4, _, hT2⟩ := root_split_node N d s1 lks rks m lcs rcs hT
    hN1 hN2 hC1 hC2 hsort hnd hal
  rw [balN_succ] at hB
  refine ⟨s2, e, (s1.nxt, [m], [BTree.node s1.root lks lcs, BTree.node (s1.nxt + 1) rks rcs]),
    ?_, ?_, ?_⟩
  · exact {
      depth_eq := by rw [h3, hP.depth_eq, hd]; push_cast; ring
      root_eq := h1.symm
      tree := hT2
      ord := by
        rw [keyOrd_succ]
        exact ⟨ordKids_lt _ _ _ _ _ ho1, ho1, ordKids_lt _ _ _ _ _ ho2, ho2⟩
      bal := by
        rw [balN_succ]
        refine ⟨by simp [rootMin], by simp; omega, by simp, ?_⟩
        intro c hc1
        simp only [List.mem_cons, List.mem_singleton, List.not_mem_nil, or_false] at hc1
        rcases hc1 with e1 | e1
        · subst e1
          rw [balN_succ]
          exact ⟨by omega, by omega, by omega,
            fun c1 hc1 => hB.2.2.2 c1 (List.mem_append_left _ hc1)⟩
        · subst e1
          rw [balN_succ]
          exact ⟨by omega, by omega, by omega,
            fun c1 hc1 => hB.2.2.2 c1 (List.mem_append_right _ hc1)⟩
      nodup := by
        rw [addrs_succ] at hnd hal
        simp only [addrs_succ, List.map_cons, List.map_nil, List.flatten_cons, List.flatten_nil,
          List.append_nil, List.map_append, List.flatten_append] at hnd hal ⊢
        have hp : (s1.root :: (List.map (BTree.addrs d) lcs).flatten ++
            (s1.nxt + 1) :: (List.map (BTree.addrs d) rcs).flatten).Perm
            ((s1.nxt + 1) :: (s1.root :: ((List.map (BTree.addrs d) lcs).flatten ++
              (List.map (BTree.addrs d) rcs).flatten))) := List.perm_middle
        rw [List.nodup_cons, hp.nodup_iff, List.nodup_cons]
        refine ⟨fun hx => ?_, fun hx => ?_, hnd⟩
        · have h5 := (hp.mem_iff).1 hx
          rcases List.mem_cons.1 h5 with e1 | e1
          · omega
          · have := hal _ e1
            omega
        · have := hal _ hx
          omega
      alloc := by
        intro x hx
        rw [addrs_succ] at hal
        simp only [addrs_succ, List.map_cons, List.map_nil, List.flatten_cons, List.flatten_nil,
          List.append_nil, List.map_append, List.flatten_append, List.mem_cons,
          List.mem_append] at hal hx
        rcases hx with e1 | (e1 | e1) | (e1 | e1)
        · omega
        · have := hal x (Or.inl e1); omega
        · have := hal x (Or.inr (Or.inl e1)); omega
        · omega
        · have := hal x (Or.inr (Or.inr e1)); omega
      count_eq := by
        rw [h4, hP.count_eq, hc, ← hP.len]
        simp [contents_succ] }
  · simp [contents_succ]
  · intro x hx
    simp only [seps_succ, List.map_cons, List.map_nil, List.flatten_cons, List.flatten_nil,
      List.append_nil, List.map_append, List.flatten_append, List.mem_append, List.mem_cons,
      List.mem_singleton, List.not_mem_nil, or_false] at hx ⊢
    tauto

theorem insert_good_seps (N : Nat) (hN : 0 < N) (s : ADS_set) (d : Nat) (t : BTree d) (hi : Nat)
    (g : GoodT N s d t hi) (key : Nat) :
    ∃ s1 it d1, ∃ t1 : BTree d1, ∃ hi1,
      ADS_set.insert N s key = .ok (s1, (it, !decide (key ∈ BTree.contents d t))) ∧
      GoodT N s1 d1 t1 hi1 ∧
      (∀ x, x ∈ BTree.contents d1 t1 ↔ x = key ∨ x ∈ BTree.contents d t) ∧
      (key ∈ BTree.contents d t → s1 = s) ∧ (d1 = d ∨ d1 = d + 1) ∧
      (∀ x ∈ BTree.seps d1 t1, x ∈ BTree.seps d t ∨ x ∈ BTree.contents d1 t1) := by
  have hw : KeyOrd d 0 (max hi (key + 1)) t :=
    keyOrd_weaken d t 0 hi 0 _ (le_refl _) (le_max_left _ _) g.ord
  obtain ⟨par1, nx1, r1, r2, r3, r4⟩ := route_leaf N s.heap key d t none none 0 _ _
    g.tree hw g.bal (Nat.zero_le _) (by omega)
  have hfl := find_leaf_route N s key d t s.fuel none none _ (good_fuel N s d t hi g) g.tree g.bal
  rw [g.root_eq] at hfl
  unfold ADS_set.insert ADS_set.insert_private_external
  rw [hfl]
  simp only [ok_bind]
  have hkc := r1.2.1.1
  obtain ⟨m, b, e1, hb, _, _⟩ := binary_search_call N _ key _ r1.2.1 r2 (by omega)
    (((s.heap (BTree.route d t key).1).keys_counter : Int) - 1) (Or.inl rfl)
  rw [e1]
  simp only [ok_bind]
  cases b with
  | true =>
    have hk : key ∈ BTree.contents d t := r4.2 (hb.1 rfl)
    refine ⟨s, ⟨(BTree.route d t key).1, m.toNat⟩, d, t, hi, ?_, g, ?_, fun _ => rfl,
      Or.inl rfl, fun x hx => Or.inl hx⟩
    · simp [hk]
    · intro x
      constructor
      · intro h; right; exact h
      · rintro (h | h)
        · rw [h]; exact hk
        · exact h
  | false =>
    have hk : key ∉ BTree.contents d t := fun hk => by simpa using hb.2 (r4.1 hk)
    simp only [Bool.not_false, if_true, hk, decide_False]
    obtain ⟨s1, t1, c, e, hP, hB1⟩ := insert_subtree N hN key s d t none none 0 _ (rootMin d)
      g.tree hw g.bal g.nodup g.alloc (Nat.zero_le _) (by omega) hk (fun _ => g.root_eq)
      (fun h => absurd rfl h) (le_of_lt (good_fuel N s d t hi g))
    rw [e]
    by_cases hov : (BTree.keys d t1).length = 2 * N + 1
    · rw [if_pos hov]
      simp only [ADS_set.pending_split]
      cases d with
      | zero =>
        obtain ⟨a, ks1⟩ := t1
        have hr : a = s.root := by
          have := hP.addr_eq
          rw [g.root_eq] at this
          exact this
        obtain ⟨s2, e2, t2, g2, hc2, hs2⟩ := good_root_split_leaf N hN s s1 _ key t a ks1 hP hr
          (by simpa using g.depth_eq) g.count_eq hov
        refine ⟨s2, ⟨(BTree.route 0 t key).1, c⟩, 1, t2, max hi (key + 1), ?_, g2, ?_,
          fun h => h.elim, Or.inr rfl, fun x hx => Or.inr (hs2 x hx)⟩
        · rw [e2]; rfl
        · intro x
          rw [hc2]
          exact hP.mem x
      | succ d =>
        obtain ⟨a, cks, ccs⟩ := t1
        have hr : a = s.root := by
          have := hP.addr_eq
          rw [g.root_eq] at this
          exact this
        obtain ⟨s2, e2, t2, g2, hc2, hs2⟩ := good_root_split_node N hN d s s1 _ key t a cks ccs
          hP hr g.depth_eq g.count_eq (by simpa [rootMin] using hB1) hov
        refine ⟨s2, ⟨(BTree.route (d + 1) t key).1, c⟩, d + 2, t2, max hi (key + 1), ?_, g2, ?_,
          fun h => h.elim, Or.inr rfl, fun x hx => ?_⟩
        rotate_left 2
        · rcases hP.seps x (hs2 x hx) with h1 | h1
          · exact Or.inl h1
          · right
            rw [hc2]
            exact h1
        · rw [e2]; rfl
        · intro x
          rw [hc2]
          exact hP.mem x
    · rw [if_neg hov]
      simp only [ok_bind]
      refine ⟨s1, ⟨(BTree.route d t key).1, c⟩, d, t1, max hi (key + 1), rfl, ?_, hP.mem,
        fun h => h.elim, Or.inl rfl, hP.seps⟩
      exact {
        depth_eq := by rw [hP.depth_eq]; exact g.depth_eq
        root_eq := by rw [hP.addr_eq, g.root_eq, hP.root_eq]
        tree := hP.tree
        ord := hP.ord
        bal := balN_fit N _ d t1 hB1 hov
        nodup := hP.nodup
        alloc := hP.alloc
        count_eq := by rw [hP.count_eq, g.count_eq, hP.len] }

theorem insert_good_depth (N : Nat) (hN : 0 < N) (s : ADS_set) (d : Nat) (t : BTree d) (hi : Nat)
    (g : GoodT N s d t hi) (key : Nat) :
    ∃ s1 it d1, ∃ t1 : BTree d1, ∃ hi1,
      ADS_set.insert N s key = .ok (s1, (it, !decide (key ∈ BTree.contents d t))) ∧
      GoodT N s1 d1 t1 hi1 ∧
      (∀ x, x ∈ BTree.contents d1 t1 ↔ x = key ∨ x ∈ BTree.contents d t) ∧
      (key ∈ BTree.contents d t → s1 = s) ∧ (d1 = d ∨ d1 = d + 1) := by
  obtain ⟨s1, it, d1, t1, hi1, h1, h2, h3, h4, h5, _⟩ := insert_good_seps N hN s d t hi g key
  exact ⟨s1, it, d1, t1, hi1, h1, h2, h3, h4, h5⟩

/-- `insert` on a well-formed tree: the tree stays well formed, holds the old keys and
`key`, reports whether `key` was new and changes nothing when it was not. -/
theorem insert_good (N : Nat) (hN : 0 < N) (s : ADS_set) (d : Nat) (t : BTree d) (hi : Nat)
    (g : GoodT N s d t hi) (key : Nat) :
    ∃ s1 it d1, ∃ t1 : BTree d1, ∃ hi1,
      ADS_set.insert N s key = .ok (s1, (it, !decide (key ∈ BTree.contents d t))) ∧
      GoodT N s1 d1 t1 hi1 ∧
      (∀ x, x ∈ BTree.contents d1 t1 ↔ x = key ∨ x ∈ BTree.contents d t) ∧
      (key ∈ BTree.contents d t → s1 = s) := by
  obtain ⟨s1, it, d1, t1, hi1, h1, h2, h3, h4, _⟩ := insert_good_depth N hN s d t hi g key
  exact ⟨s1, it, d1, t1, hi1, h1, h2, h3, h4⟩


/-! ## Helpers for the rebalancing steps of `erase` -/

theorem shift_left_eq (N : Nat) (start end_ : Nat) (s : ADS_set) (cur : Nat)
    (h1 : start ≤ end_) (h2 : end_ < 2 * N + 1) :
    ADS_set.shift_left N start end_ s cur =
      .ok (s.set cur { s.heap cur with
        keys := fun j => if start ≤ j ∧ j < end_ then (s.heap cur).keys (j + 1)
          else (s.heap cur).keys j }) := by
  unfold ADS_set.shift_left Node.shift_left_loop
  rw [arr_shift_left_ok (2 * N + 1) (end_ - start) start _ (Or.inl (by omega))]
  simp only [ok_bind]
  congr 3
  funext j
  split_ifs <;> first | rfl | (exfalso; omega)

theorem shift_right_eq (N : Nat) (start end_ : Nat) (s : ADS_set) (cur : Nat)
    (h1 : start ≤ end_) (h2 : end_ < 2 * N + 1) :
    ADS_set.shift_right N start end_ s cur =
      .ok (s.set cur { s.heap cur with
        keys := fun j => if start < j ∧ j ≤ end_ then (s.heap cur).keys (j - 1)
          else (s.heap cur).keys j }) := by
  unfold ADS_set.shift_right Node.shift_right_loop
  rw [arr_shift_right_ok (2 * N + 1) (end_ - start) end_ _ h2 (by omega)]
  simp only [ok_bind]
  congr 3
  funext j
  split_ifs <;> first | rfl | (exfalso; omega)

theorem index_from_parent_eq (N : Nat) (s : ADS_set) (c a i : Nat)
    (hp : (s.heap c).parent = some a) (hr : c ≠ s.root)
    (hi : Node.child_index_loop N (s.heap a) c (s.heap a).children_counter 0 = .ok (some i)) :
    ADS_set.index_from_parent N s c = .ok i := by
  simp [ADS_set.index_from_parent, hr, hp, deref, hi]

/-- Facts about the children array of a node whose row of children is
`l ++ c1 :: c2 :: r`. -/
theorem row_facts2 (N d : Nat) (h : Nat → Node) (a : Nat) (ks : List Nat) (l r : List (BTree d))
    (c1 c2 : BTree d) (par : Option Nat)
    (hN : NodeAt (h a) ks ((l ++ ([c1, c2] ++ r)).map (BTree.addr d)) par)
    (hnd : (BTree.addrs (d + 1) (a, ks, l ++ ([c1, c2] ++ r))).Nodup)
    (hcap : l.length + 2 + r.length ≤ 2 * N + 1) :
    (h a).children_counter = l.length + 2 + r.length ∧
      (h a).children l.length = some (BTree.addr d c1) ∧
      (h a).children (l.length + 1) = some (BTree.addr d c2) ∧
      (∀ (nd : Node) (n : Nat), nd.children = (h a).children → n = l.length + 2 + r.length →
        Node.child_index_loop N nd (BTree.addr d c1) n 0 = .ok (some l.length)) ∧
      (∀ (nd : Node) (n : Nat), nd.children = (h a).children → n = l.length + 2 + r.length →
        Node.child_index_loop N nd (BTree.addr d c2) n 0 = .ok (some (l.length + 1))) ∧
      a ≠ BTree.addr d c1 ∧ a ≠ BTree.addr d c2 ∧ BTree.addr d c1 ≠ BTree.addr d c2 := by
  have f1 := row_facts N d h a ks l (c2 :: r) c1 par hN hnd (by simp; omega)
  have hN2 : NodeAt (h a) ks (((l ++ [c1]) ++ c2 :: r).map (BTree.addr d)) par := by
    simpa using hN
  have hnd2 : (BTree.addrs (d + 1) (a, ks, (l ++ [c1]) ++ c2 :: r)).Nodup := by
    simpa using hnd
  have f2 := row_facts N d h a ks (l ++ [c1]) r c2 par hN2 hnd2 (by simp; omega)
  simp only [List.length_append, List.length_singleton, List.length_cons] at f1 f2
  refine ⟨by rw [f1.1]; omega, f1.2.1, f2.2.1, ?_, ?_, f1.2.2.2.2, f2.2.2.2.2, ?_⟩
  · intro nd n h1 h2
    exact f1.2.2.2.1 nd n h1 (by omega)
  · intro nd n h1 h2
    exact f2.2.2.2.1 nd n h1 (by omega)
  · intro e
    have hnr := addrs_nodup_root d a _ _ hnd
    have h3 := flatten_nodup_append (BTree.addrs d) l ([c1, c2] ++ r) hnr.2
    have h4 := h3.2.1
    simp only [List.cons_append, List.nil_append, List.map_cons, List.flatten_cons] at h4
    rw [List.nodup_append] at h4
    exact h4.2.2 (addr_mem_addrs d c1)
      (List.mem_append_left _ (e ▸ addr_mem_addrs d c2))

theorem ArrIs.tail {α : Type} {a g : Nat → α} {n : Nat} {x : α} {xs : List α}
    (h : ArrIs a n (x :: xs)) (hg : ∀ j, j + 1 < n → g j = a (j + 1)) :
    ArrIs g (n - 1) xs := by
  have := h.erase (g := g) 0 (by rw [h.1]; simp) (fun j hj => by omega)
    (fun j _ hj => hg j hj)
  simpa using this

theorem ArrIs.cons {α : Type} {a g : Nat → α} {n : Nat} {xs : List α} (x : α)
    (h : ArrIs a n xs) (h0 : g 0 = x) (hg : ∀ j, 0 < j → j ≤ n → g j = a (j - 1)) :
    ArrIs g (n + 1) (x :: xs) := by
  have := h.insert (g := g) 0 x (Nat.zero_le _) (fun j hj => by omega) h0 hg
  simpa using this

theorem ArrIs.dropLast {α : Type} {a : Nat → α} {n : Nat} {xs : List α}
    (h : ArrIs a n xs) : ArrIs a (n - 1) xs.dropLast := by
  have := h.take (m := n - 1) (by omega)
  rw [List.dropLast_eq_take]
  rw [← h.1]
  exact this

theorem set_middle {α : Type} (l1 l2 : List α) (x y : α) :
    (l1 ++ x :: l2).set l1.length y = l1 ++ y :: l2 := by
  induction l1 with
  | nil => rfl
  | cons z l1 ih => simp [ih]

/-- Nodes outside a row's changed segment keep their heap cells. -/
theorem row_frame0 (d : Nat) (h h1 : Nat → Node) (a : Nat) (ks : List Nat) (l r : List (BTree d))
    (mid : List (BTree d))
    (hnd : (BTree.addrs (d + 1) (a, ks, l ++ (mid ++ r))).Nodup)
    (hf : ∀ q, q ≠ a → (∀ c ∈ mid, q ∉ BTree.addrs d c) → h1 q = h q) :
    ∀ c ∈ l ++ r, ∀ x ∈ BTree.addrs d c, h1 x = h x := by
  have hb : ∀ x ∈ BTree.addrs (d + 1) (a, ks, l ++ (mid ++ r)),
      x < (BTree.addrs (d + 1) (a, ks, l ++ (mid ++ r))).sum + 1 := by
    intro x hx
    have := List.single_le_sum (fun _ _ => Nat.zero_le _) x hx
    omega
  exact row_frame d h h1 a ks l r mid _ hnd hb (fun q _ hqa hqc => hf q hqa hqc)


/-! ## Stealing a key between leaves -/

theorem steal_right_leaf (N : Nat) (s : ADS_set) (a : Nat) (ksl ksr : List Nat) (k : Nat)
    (l r : List (BTree 0)) (ca ra : Nat) (cks : List Nat) (rk0 rk1 : Nat) (rks : List Nat)
    (par nx : Option Nat) (tw : Option Nat × Nat)
    (hT : TreeAt s.heap 1 par nx (a, ksl ++ ([k] ++ ksr),
      l ++ ([BTree.leaf ca cks, BTree.leaf ra (rk0 :: rk1 :: rks)] ++ r)))
    (hkl : ksl.length = l.length) (hkr : ksr.length = r.length)
    (hcap : (ksl ++ ([k] ++ ksr)).length ≤ 2 * N)
    (hc1 : cks.length < 2 * N + 1) (hc2 : rks.length + 2 ≤ 2 * N + 1)
    (hsz : 2 * N ≤ cks.length + (rks.length + 2))
    (hnd : (BTree.addrs 1 (a, ksl ++ ([k] ++ ksr),
      l ++ ([BTree.leaf ca cks, BTree.leaf ra (rk0 :: rk1 :: rks)] ++ r))).Nodup)
    (hroot : ra ≠ s.root) :
    ∃ s1, ADS_set.steal_from_right N s ca l.length tw =
        (ADS_set.fix_twin N s1 ca tw >>= fun s2 => .ok (s2, true)) ∧
      TreeAt s1.heap 1 par nx (a, ksl ++ ([rk1] ++ ksr),
        l ++ ([BTree.leaf ca (cks ++ [rk0]), BTree.leaf ra (rk1 :: rks)] ++ r)) ∧
      (∀ q, q ≠ a → q ≠ ca → q ≠ ra → s1.heap q = s.heap q) ∧
      s1.nxt = s.nxt ∧ s1.root = s.root ∧ s1.depth = s.depth ∧
      s1.element_counter = s.element_counter := by
  have hT0 := hT
  rw [treeAt_succ] at hT
  obtain ⟨hnode, hkids⟩ := hT
  rw [kidsAt_append, kidsAt_append] at hkids
  obtain ⟨_, hk2, _⟩ := hkids
  obtain ⟨hcl, hcr, _⟩ := hk2
  rw [treeAt_zero] at hcl hcr
  have hla : (s.heap ca).leaf = true := hcl.1
  have hlk : ArrIs (s.heap ca).keys (s.heap ca).keys_counter cks := hcl.2.1
  have hlp : (s.heap ca).parent = some a := hcl.2.2.1
  have hra : (s.heap ra).leaf = true := hcr.1
  have hrk : ArrIs (s.heap ra).keys (s.heap ra).keys_counter (rk0 :: rk1 :: rks) := hcr.2.1
  have hrp : (s.heap ra).parent = some a := hcr.2.2.1
  have hln : (s.heap ca).next = some ra := hcl.2.2.2
  have hrn : (s.heap ra).next = headFirst (BTree.firstLeaf 0) r nx := hcr.2.2.2
  clear hcl hcr
  have hlen : l.length + 2 + r.length ≤ 2 * N + 1 := by simp at hcap; omega
  obtain ⟨hcc, hch1, hch2, hidx1, hidx2, haca, hara, hcara⟩ := row_facts2 N 0 s.heap a _ l r
    (BTree.leaf ca cks) (BTree.leaf ra (rk0 :: rk1 :: rks)) par hnode hnd hlen
  simp only [BTree.addr] at hch1 hch2 hidx1 hidx2 haca hara hcara
  obtain ⟨hna, hnk, hnc, hnp⟩ := hnode
  have hkc : (s.heap ca).keys_counter = cks.length := hlk.1
  have hrkc : (s.heap ra).keys_counter = rks.length + 2 := by rw [hrk.1]; simp
  have hr0 : (s.heap ra).keys 0 = rk0 := by
    have := hrk.2 0 (by simp)
    simpa using this.symm
  have hr1 : (s.heap ra).keys 1 = rk1 := by
    have := hrk.2 1 (by simp)
    simpa using this.symm
  have g0 : 0 < 2 * N + 1 := by omega
  have gl1 : l.length + 1 < 2 * N + 2 := by omega
  have gl : l.length < 2 * N + 1 := by omega
  have gc : cks.length < 2 * N + 1 := hc1
  have hsz2 : ¬ cks.length + (rks.length + 2) < 2 * N := by omega
  unfold ADS_set.steal_from_right
  simp only [hlp, deref, ok_bind, getChild_ok N _ gl1, hch2, hkc, hrkc, hsz2, if_false, hla,
    if_true, getKey_ok N _ g0, hr0, setKey_ok N _ _ gc, set_heap, upd_apply, hcara.symm, hcara,
    Nat.add_eq_zero, OfNat.ofNat_ne_zero, and_false]
  rw [shift_left_eq N 0 _ _ ra (Nat.zero_le _) (by simp [hcara.symm, hrkc]; omega)]
  simp only [ok_bind, set_heap, upd_apply, hcara.symm, hcara, if_false, if_true, eq_self_iff_true,
    set_set_same]
  rw [index_from_parent_eq N _ ra a (l.length + 1) (by simp [hrp]) (by simpa using hroot)
    (by
      simp only [set_heap, upd_apply, haca, hara, if_false]
      exact hidx2 _ _ rfl hcc)]
  simp [hcara, hcara.symm, haca, hara, setKey_ok N _ _ gl, hr1]
  refine ⟨_, rfl, ?_, ?_, rfl, rfl, rfl, rfl⟩
  · apply treeAt_replace s.heap _ 0 a (ksl ++ ([k] ++ ksr)) (ksl ++ ([rk1] ++ ksr)) l r
      [BTree.leaf ca cks, BTree.leaf ra (rk0 :: rk1 :: rks)]
      [BTree.leaf ca (cks ++ [rk0]), BTree.leaf ra (rk1 :: rks)] par nx hT0
    · simp only [NodeAt, set_heap, upd_apply, if_true, eq_self_iff_true]
      refine ⟨hna, ?_, by simpa [BTree.addr] using hnc, hnp⟩
      have := hnk.set l.length rk1
      rw [← hkl] at this
      rw [show ksl ++ ([k] ++ ksr) = ksl ++ k :: ksr from rfl, set_middle] at this
      rw [← hkl]
      exact this
    · apply row_frame0 0 s.heap _ a _ l r _ hnd
      intro q hqa hqc
      have h1 : q ≠ ca := by
        intro e
        exact hqc (BTree.leaf ca cks) (by simp) (by simp [BTree.addrs, e])
      have h2 : q ≠ ra := by
        intro e
        exact hqc (BTree.leaf ra (rk0 :: rk1 :: rks)) (by simp) (by simp [BTree.addrs, e])
      simp [hqa, h1, h2]
    · rfl
    · simp only [KidsAt, headFirst, treeAt_zero, LeafAt, set_heap, upd_apply, BTree.firstLeaf]
      simp only [hcara, hcara.symm, haca, hara, haca.symm, hara.symm, if_true, if_false,
        eq_self_iff_true]
      refine ⟨⟨trivial, ?_, trivial, hln⟩, ⟨hra, ?_, hrp, hrn⟩, trivial⟩
      · have := hlk.append_one rk0
        rw [hkc] at this
        exact this
      · exact hrk.tail (g := fun j => if j < rks.length + 1 then (s.heap ra).keys (j + 1)
          else (s.heap ra).keys j) (fun j hj => by
          have : j < rks.length + 1 := by omega
          exact if_pos this)
  · intro q h1 h2 h3
    simp [h1, h2, h3]

theorem steal_left_leaf (N : Nat) (s : ADS_set) (a : Nat) (ksl ksr : List Nat) (k : Nat)
    (l r : List (BTree 0)) (la ca : Nat) (lks : List Nat) (lk : Nat) (cks : List Nat)
    (par nx : Option Nat) (tw : Option Nat × Nat)
    (hT : TreeAt s.heap 1 par nx (a, ksl ++ ([k] ++ ksr),
      l ++ ([BTree.leaf la (lks ++ [lk]), BTree.leaf ca cks] ++ r)))
    (hkl : ksl.length = l.length) (hkr : ksr.length = r.length)
    (hcap : (ksl ++ ([k] ++ ksr)).length ≤ 2 * N)
    (hc1 : cks.length < 2 * N + 1) (hc2 : lks.length + 1 ≤ 2 * N + 1)
    (hsz : 2 * N ≤ cks.length + (lks.length + 1))
    (hnd : (BTree.addrs 1 (a, ksl ++ ([k] ++ ksr),
      l ++ ([BTree.leaf la (lks ++ [lk]), BTree.leaf ca cks] ++ r))).Nodup)
    (hroot : ca ≠ s.root) :
    ∃ s1, ADS_set.steal_from_left N s ca (l.length + 1) tw =
        (ADS_set.fix_twin N s1 ca tw >>= fun s2 => .ok (s2, true)) ∧
      TreeAt s1.heap 1 par nx (a, ksl ++ ([lk] ++ ksr),
        l ++ ([BTree.leaf la lks, BTree.leaf ca (lk :: cks)] ++ r)) ∧
      (∀ q, q ≠ a → q ≠ ca → q ≠ la → s1.heap q = s.heap q) ∧
      s1.nxt = s.nxt ∧ s1.root = s.root ∧ s1.depth = s.depth ∧
      s1.element_counter = s.element_counter := by
  have hT0 := hT
  rw [treeAt_succ] at hT
  obtain ⟨hnode, hkids⟩ := hT
  rw [kidsAt_append, kidsAt_append] at hkids
  obtain ⟨_, hk2, _⟩ := hkids
  obtain ⟨hcl, hcr, _⟩ := hk2
  rw [treeAt_zero] at hcl hcr
  have hla : (s.heap la).leaf = true := hcl.1
  have hlk : ArrIs (s.heap la).keys (s.heap la).keys_counter (lks ++ [lk]) := hcl.2.1
  have hlp : (s.heap la).parent = some a := hcl.2.2.1
  have hln : (s.heap la).next = some ca := hcl.2.2.2
  have hca : (s.heap ca).leaf = true := hcr.1
  have hck : ArrIs (s.heap ca).keys (s.heap ca).keys_counter cks := hcr.2.1
  have hcp : (s.heap ca).parent = some a := hcr.2.2.1
  have hcn : (s.heap ca).next = headFirst (BTree.firstLeaf 0) r nx := hcr.2.2.2
  clear hcl hcr
  have hlen : l.length + 2 + r.length ≤ 2 * N + 1 := by simp at hcap; omega
  obtain ⟨hcc, hch1, hch2, hidx1, hidx2, hala, haca, hlaca⟩ := row_facts2 N 0 s.heap a _ l r
    (BTree.leaf la (lks ++ [lk])) (BTree.leaf ca cks) par hnode hnd hlen
  simp only [BTree.addr] at hch1 hch2 hidx1 hidx2 hala haca hlaca
  obtain ⟨hna, hnk, hnc, hnp⟩ := hnode
  have hkc : (s.heap ca).keys_counter = cks.length := hck.1
  have hlkc : (s.heap la).keys_counter = lks.length + 1 := by rw [hlk.1]; simp
  have hl0 : (s.heap la).keys lks.length = lk := by
    have := hlk.2 lks.length (by simp)
    simpa using this.symm
  have g0 : 0 < 2 * N + 1 := by omega
  have gl1 : l.length < 2 * N + 2 := by omega
  have gl : l.length < 2 * N + 1 := by omega
  have gk : lks.length < 2 * N + 1 := by omega
  have hsz2 : ¬ cks.length + (lks.length + 1) < 2 * N := by omega
  unfold ADS_set.steal_from_left
  simp only [hcp, deref, ok_bind, Nat.add_eq_zero, OfNat.ofNat_ne_zero, and_false, if_false,
    Nat.add_sub_cancel, getChild_ok N _ gl1, hch1, hkc, hlkc, hsz2, one_ne_zero]
  rw [shift_right_eq N 0 _ _ ca (Nat.zero_le _) hc1]
  simp only [ok_bind, set_heap, upd_apply, hlaca.symm, hlaca, if_false, if_true,
    eq_self_iff_true, set_set_same, hca, hlkc, Nat.add_eq_zero, OfNat.ofNat_ne_zero, and_false,
    one_ne_zero, Nat.add_sub_cancel, getKey_ok N _ gk, hl0, setKey_ok N _ _ g0]
  rw [index_from_parent_eq N _ ca a (l.length + 1) (by simp [hlaca, hlaca.symm, hcp])
    (by simpa using hroot)
    (by
      simp only [set_heap, upd_apply, haca, hala, if_false]
      exact hidx2 _ _ rfl hcc)]
  simp [hlaca, hlaca.symm, haca, hala, setKey_ok N _ _ gl, hcp, getKey_ok N _ g0]
  refine ⟨_, rfl, ?_, ?_, rfl, rfl, rfl, rfl⟩
  · apply treeAt_replace s.heap _ 0 a (ksl ++ ([k] ++ ksr)) (ksl ++ ([lk] ++ ksr)) l r
      [BTree.leaf la (lks ++ [lk]), BTree.leaf ca cks]
      [BTree.leaf la lks, BTree.leaf ca (lk :: cks)] par nx hT0
    · simp only [NodeAt, set_heap, upd_apply, if_true, eq_self_iff_true]
      refine ⟨hna, ?_, by simpa [BTree.addr] using hnc, hnp⟩
      have := hnk.set l.length lk
      rw [← hkl] at this
      rw [show ksl ++ ([k] ++ ksr) = ksl ++ k :: ksr from rfl, set_middle] at this
      rw [← hkl]
      exact this
    · apply row_frame0 0 s.heap _ a _ l r _ hnd
      intro q hqa hqc
      have h1 : q ≠ la := by
        intro e
        exact hqc (BTree.leaf la (lks ++ [lk])) (by simp) (by simp [BTree.addrs, e])
      have h2 : q ≠ ca := by
        intro e
        exact hqc (BTree.leaf ca cks) (by simp) (by simp [BTree.addrs, e])
      simp [hqa, h1, h2]
    · rfl
    · simp only [KidsAt, headFirst, treeAt_zero, LeafAt, set_heap, upd_apply, BTree.firstLeaf]
      simp only [hlaca, hlaca.symm, haca, hala, haca.symm, hala.symm, if_true, if_false,
        eq_self_iff_true]
      refine ⟨⟨hla, ?_, hlp, hln⟩, ⟨trivial, ?_, trivial, hcn⟩, trivial⟩
      · have := hlk.dropLast
        simpa [hlkc] using this
      · exact hck.cons (g := upd (fun j => if 0 < j ∧ j ≤ cks.length then (s.heap ca).keys (j - 1)
          else (s.heap ca).keys j) 0 lk) lk (by simp) (fun j h1 h2 => by
          have h3 : j ≠ 0 := by omega
          simp only [upd_apply, h3, if_false]
          rw [if_pos ⟨h1, by rw [hkc] at h2; exact h2⟩])
  · intro q h1 h2 h3
    simp [h1, h2, h3]


/-! ## The loops of the merges -/

theorem append_keys_loop_eq (N : Nat) (src dst : Nat) (hsd : src ≠ dst) :
    ∀ (n i : Nat) (s : ADS_set), i + n ≤ 2 * N + 1 →
      (s.heap dst).keys_counter + n ≤ 2 * N + 1 →
      ADS_set.append_keys_loop N n i s src dst =
        .ok (s.set dst { s.heap dst with
          keys := fun j =>
            if (s.heap dst).keys_counter ≤ j ∧ j < (s.heap dst).keys_counter + n then
              (s.heap src).keys (i + (j - (s.heap dst).keys_counter))
            else (s.heap dst).keys j,
          keys_counter := (s.heap dst).keys_counter + n }) := by
  intro n
  induction n with
  | zero =>
    intro i s _ _
    simp only [ADS_set.append_keys_loop]
    congr 1
    apply state_ext <;> simp
    funext q
    by_cases c : q = dst
    · subst c
      simp
      have : ∀ j, ¬ ((s.heap q).keys_counter ≤ j ∧ j < (s.heap q).keys_counter) := by
        intro j; omega
      simp [this]
    · simp [c]
  | succ n ih =>
    intro i s h1 h2
    have g0 : i < 2 * N + 1 := by omega
    have g1 : (s.heap dst).keys_counter < 2 * N + 1 := by omega
    simp only [ADS_set.append_keys_loop, getKey_ok N _ g0, ok_bind, setKey_ok N _ _ g1]
    rw [ih (i + 1) _ (by omega) (by simp; omega)]
    congr 1
    apply state_ext <;> simp
    funext q
    by_cases c : q = dst
    · subst c
      simp only [upd_apply, eq_self_iff_true, if_true, if_neg hsd]
      apply node_ext <;> try rfl
      · funext j
        simp only [upd_apply]
        split_ifs <;> first | rfl | (exfalso; omega) | (congr 1 <;> omega)
      · show (s.heap q).keys_counter + 1 + n = (s.heap q).keys_counter + (n + 1)
        omega
    · simp [c]

theorem copy_keys_loop_eq (N : Nat) (src dst : Nat) (hsd : src ≠ dst) :
    ∀ (n i : Nat) (s : ADS_set), i + n ≤ 2 * N + 1 →
      ADS_set.copy_keys_loop N n i s src dst =
        .ok (s.set dst { s.heap dst with
          keys := fun j =>
            if i ≤ j ∧ j < i + n then (s.heap src).keys j else (s.heap dst).keys j }) := by
  intro n
  induction n with
  | zero =>
    intro i s _
    simp only [ADS_set.copy_keys_loop]
    congr 1
    apply state_ext <;> simp
    funext q
    by_cases c : q = dst
    · subst c
      simp
      have : ∀ j, ¬ (i ≤ j ∧ j < i) := by intro j; omega
      simp [this]
    · simp [c]
  | succ n ih =>
    intro i s h1
    have g0 : i < 2 * N + 1 := by omega
    simp only [ADS_set.copy_keys_loop, getKey_ok N _ g0, ok_bind, setKey_ok N _ _ g0]
    rw [ih (i + 1) _ (by omega)]
    congr 1
    apply state_ext <;> simp
    funext q
    by_cases c : q = dst
    · subst c
      simp only [upd_apply, eq_self_iff_true, if_true, if_neg hsd]
      apply node_ext <;> try rfl
      funext j
      simp only [upd_apply]
      split_ifs <;> first | rfl | (exfalso; omega) | (congr 1 <;> omega)
    · simp [c]

theorem adopt_append_loop_eq (N : Nat) (src dst : Nat) (hsd : src ≠ dst) :
    ∀ (n i : Nat) (s : ADS_set) (moved : List Nat), moved.length = n → i + n ≤ 2 * N + 2 →
      (s.heap dst).children_counter + n ≤ 2 * N + 2 →
      (∀ j (hj : j < moved.length), (s.heap src).children (i + j) = some moved[j]) →
      (∀ x ∈ moved, x ≠ src ∧ x ≠ dst) →
      ADS_set.adopt_append_loop N n i s src dst =
        .ok (({ s with heap := reparent s.heap moved dst }).set dst
          { s.heap dst with
            children := fun j =>
              if (s.heap dst).children_counter ≤ j ∧ j < (s.heap dst).children_counter + n then
                (s.heap src).children (i + (j - (s.heap dst).children_counter))
              else (s.heap dst).children j,
            children_counter := (s.heap dst).children_counter + n }) := by
  intro n
  induction n with
  | zero =>
    intro i s moved hm _ _ _ _
    have : moved = [] := List.eq_nil_of_length_eq_zero hm
    subst this
    simp only [ADS_set.adopt_append_loop]
    congr 1
    apply state_ext <;> simp [reparent]
    funext q
    have : ∀ j, ¬ ((s.heap dst).children_counter ≤ j ∧ j < (s.heap dst).children_counter) := by
      intro j; omega
    by_cases c1 : q = dst
    · subst c1; simp [this]
    · simp [c1, reparent]
  | succ n ih =>
    intro i s moved hm h1 h2 hch hne
    match moved, hm with
    | c :: moved, hm =>
      have hm1 : moved.length = n := by simpa using hm
      have hc0 : (s.heap src).children i = some c := by simpa using hch 0 (by simp)
      obtain ⟨hcl, hcr⟩ := hne c (List.mem_cons_self _ _)
      have g0 : i < 2 * N + 2 := by omega
      have g1 : (s.heap dst).children_counter < 2 * N + 2 := by omega
      have hds : dst ≠ src := fun e => hsd e.symm
      simp only [ADS_set.adopt_append_loop, getChild_ok N _ g0, ok_bind, hc0, deref, set_heap,
        upd_apply, if_neg hsd, if_neg hcl.symm, if_neg hcr.symm, if_neg hds, if_true,
        setChild_ok N _ _ g1, if_neg hcr, if_neg hcl]
      rw [ih (i + 1) _ moved hm1 (by omega)
        (by simp [hds, hcr.symm]; omega)
        (by
          intro j hj
          have := hch (j + 1) (by simp; omega)
          simp only [List.getElem_cons_succ] at this
          simp only [set_heap, upd_apply, if_neg hsd, if_neg hcl.symm]
          rw [← this]
          congr 1; omega)
        (fun x hx => hne x (List.mem_cons_of_mem _ hx))]
      congr 1
      apply state_ext <;> simp
      funext q
      simp only [reparent, upd_apply]
      by_cases c2 : q = dst
      · subst c2
        simp only [upd_apply, eq_self_iff_true, if_true, if_neg hds, if_neg hcr.symm]
        apply node_ext <;> try rfl
        · funext j
          simp only [upd_apply]
          split_ifs <;> first | rfl | (exfalso; omega) | (congr 1 <;> omega) | simp_all
        · show (s.heap q).children_counter + 1 + n = (s.heap q).children_counter + (n + 1)
          omega
      · simp only [if_neg c2]
        by_cases c3 : q = c
        · subst c3
          simp [c2]
        · simp [c3, c2]

theorem adopt_front_loop_eq (N : Nat) (src dst : Nat) (hsd : src ≠ dst) :
    ∀ (n i : Nat) (s : ADS_set) (moved : List Nat), moved.length = n → i + n ≤ 2 * N + 2 →
      (∀ j (hj : j < moved.length), (s.heap src).children (i + j) = some moved[j]) →
      (∀ x ∈ moved, x ≠ src ∧ x ≠ dst) →
      ADS_set.adopt_front_loop N n i s src dst =
        .ok ((({ s with heap := reparent s.heap moved dst }).set dst
          { s.heap dst with
            children := fun j =>
              if i ≤ j ∧ j < i + n then (s.heap src).children j else (s.heap dst).children j }).set
          src { s.heap src with
            children := fun j => if i ≤ j ∧ j < i + n then none else (s.heap src).children j }) := by
  intro n
  induction n with
  | zero =>
    intro i s moved hm _ _ _
    have : moved = [] := List.eq_nil_of_length_eq_zero hm
    subst this
    simp only [ADS_set.adopt_front_loop]
    congr 1
    apply state_ext <;> simp [reparent]
    funext q
    have e2 : ∀ j, ¬ (i ≤ j ∧ j < i) := by intro j; omega
    by_cases c : q = src
    · subst c; simp [e2]
    · by_cases c1 : q = dst
      · subst c1; simp [c, e2]
      · simp [c, c1, reparent]
  | succ n ih =>
    intro i s moved hm h1 hch hne
    match moved, hm with
    | c :: moved, hm =>
      have hm1 : moved.length = n := by simpa using hm
      have hc0 : (s.heap src).children i = some c := by simpa using hch 0 (by simp)
      obtain ⟨hcl, hcr⟩ := hne c (List.mem_cons_self _ _)
      have g0 : i < 2 * N + 2 := by omega
      have hds : dst ≠ src := fun e => hsd e.symm
      simp only [ADS_set.adopt_front_loop, getChild_ok N _ g0, ok_bind, hc0, deref, set_heap,
        upd_apply, if_neg hsd, if_neg hcl.symm, if_neg hcr.symm, if_neg hds, if_true,
        setChild_ok N _ _ g0, if_neg hcr, if_neg hcl]
      rw [ih (i + 1) _ moved hm1 (by omega)
        (by
          intro j hj
          have := hch (j + 1) (by simp; omega)
          simp only [List.getElem_cons_succ] at this
          simp only [set_heap, upd_apply, if_true]
          rw [if_neg (by omega), ← this]
          congr 1; omega)
        (fun x hx => hne x (List.mem_cons_of_mem _ hx))]
      congr 1
      apply state_ext <;> simp
      funext q
      simp only [reparent, upd_apply]
      by_cases c1 : q = src
      · subst c1
        simp only [upd_apply, eq_self_iff_true, if_true]
        apply node_ext <;> try rfl
        funext j
        simp only [upd_apply]
        split_ifs <;> first | rfl | (exfalso; omega)
      · simp only [if_neg c1]
        by_cases c2 : q = dst
        · subst c2
          simp only [upd_apply, eq_self_iff_true, if_true, if_neg hds, if_neg hcr.symm]
          apply node_ext <;> try rfl
          funext j
          simp only [upd_apply]
          split_ifs <;> first | rfl | (exfalso; omega) | (congr 1 <;> omega) | simp_all
        · simp only [if_neg c2]
          by_cases c3 : q = c
          · subst c3
            simp [c1, c2]
          · simp [c3, c1, c2]

theorem clear_both_loop_eq (N : Nat) (left right : Nat) (hlr : left ≠ right) :
    ∀ (n i : Nat) (s : ADS_set), i + n ≤ 2 * N + 2 →
      ADS_set.clear_both_loop N n i s left right =
        .ok ((s.set left { s.heap left with
            children := fun j => if i ≤ j ∧ j < i + n then none else (s.heap left).children j }).set
          right { s.heap right with
            children := fun j => if i ≤ j ∧ j < i + n then none else (s.heap right).children j }) := by
  intro n
  induction n with
  | zero =>
    intro i s _
    simp only [ADS_set.clear_both_loop]
    congr 1
    apply state_ext <;> simp
    funext q
    have e2 : ∀ j, ¬ (i ≤ j ∧ j < i) := by intro j; omega
    by_cases c : q = right
    · subst c; simp [e2]
    · by_cases c1 : q = left
      · subst c1; simp [c, e2]
      · simp [c, c1]
  | succ n ih =>
    intro i s h1
    have g0 : i < 2 * N + 2 := by omega
    have hrl : right ≠ left := fun e => hlr e.symm
    simp only [ADS_set.clear_both_loop, ok_bind, set_heap, upd_apply, if_neg hlr, if_neg hrl,
      if_true, setChild_ok N _ _ g0]
    rw [ih (i + 1) _ (by omega)]
    congr 1
    apply state_ext <;> simp
    funext q
    simp only [upd_apply]
    by_cases c1 : q = right
    · subst c1
      simp only [upd_apply, eq_self_iff_true, if_true, if_neg hrl]
      apply node_ext <;> try rfl
      funext j
      simp only [upd_apply]
      split_ifs <;> first | rfl | (exfalso; omega)
    · simp only [if_neg c1]
      by_cases c2 : q = left
      · subst c2
        simp only [upd_apply, eq_self_iff_true, if_true, if_neg hlr]
        apply node_ext <;> try rfl
        funext j
        simp only [upd_apply]
        split_ifs <;> first | rfl | (exfalso; omega)
      · simp [c2]

theorem shift_keys_by_loop_eq (N : Nat) (off n i : Nat) (nd : Node)
    (h1 : i + off < 2 * N + 1 ∨ n = 0) (h2 : n ≤ i + 1) :
    Node.shift_keys_by_loop N off n i nd =
      .ok { nd with keys := fun j =>
        if i + 1 - n + off ≤ j ∧ j ≤ i + off ∧ 0 < n then nd.keys (j - off) else nd.keys j } := by
  unfold Node.shift_keys_by_loop
  rw [arr_shift_by_ok (2 * N + 1) off n i _ h1 h2]
  rfl

theorem shift_children_by_loop_eq (N : Nat) (off n i : Nat) (nd : Node)
    (h1 : i + off < 2 * N + 2 ∨ n = 0) (h2 : n ≤ i + 1) :
    Node.shift_children_by_loop N off n i nd =
      .ok { nd with children := fun j =>
        if i + 1 - n + off ≤ j ∧ j ≤ i + off ∧ 0 < n then nd.children (j - off)
        else nd.children j } := by
  unfold Node.shift_children_by_loop
  rw [arr_shift_by_ok (2 * N + 2) off n i _ h1 h2]
  rfl

theorem shift_children_right_loop_eq (N : Nat) (n i : Nat) (nd : Node)
    (h1 : i + 1 < 2 * N + 2 ∨ n = 0) (h2 : n ≤ i + 1) :
    Node.shift_children_right_loop N n i nd =
      .ok { nd with children := fun j =>
        if i + 1 - n + 1 ≤ j ∧ j ≤ i + 1 ∧ 0 < n then nd.children (j - 1)
        else nd.children j } := by
  unfold Node.shift_children_right_loop
  rw [arr_shift_by_ok (2 * N + 2) 1 n i _ h1 h2]
  rfl

theorem shift_children_left_loop_eq (N : Nat) (n i : Nat) (nd : Node)
    (h1 : i + n < 2 * N + 2 ∨ n = 0) :
    Node.shift_children_left_loop N n i nd =
      .ok { nd with children := fun j =>
        if i ≤ j ∧ j < i + n then nd.children (j + 1) else nd.children j } := by
  unfold Node.shift_children_left_loop
  rw [arr_shift_left_ok (2 * N + 2) n i _ h1]
  rfl

theorem clear_children_loop_eq (N : Nat) (n i : Nat) (nd : Node) (h1 : i + n ≤ 2 * N + 2) :
    Node.clear_children_loop N n i nd =
      .ok { nd with children := fun j => if i ≤ j ∧ j < i + n then none else nd.children j } := by
  unfold Node.clear_children_loop
  rw [arr_fill_ok (2 * N + 2) none n i _ h1]
  rfl


/-! ## Merging two leaves -/

theorem merge_leaf_assemble (h H : Nat → Node) (a xa ya : Nat) (ks ks1 xks yks : List Nat)
    (l r : List (BTree 0)) (par nx : Option Nat)
    (hT : TreeAt h 1 par nx (a, ks, l ++ ([BTree.leaf xa xks, BTree.leaf ya yks] ++ r)))
    (hnd : (BTree.addrs 1 (a, ks, l ++ ([BTree.leaf xa xks, BTree.leaf ya yks] ++ r))).Nodup)
    (hA : NodeAt (H a) ks1 ((l ++ ([BTree.leaf xa (xks ++ yks)] ++ r)).map (BTree.addr 0)) par)
    (hX : LeafAt (H xa) (xks ++ yks) (some a) (h ya).next)
    (hO : ∀ q, q ≠ a → q ≠ xa → q ≠ ya → H q = h q) :
    TreeAt H 1 par nx (a, ks1, l ++ ([BTree.leaf xa (xks ++ yks)] ++ r)) := by
  have hT0 := hT
  rw [treeAt_succ] at hT
  obtain ⟨_, hkids⟩ := hT
  rw [kidsAt_append, kidsAt_append] at hkids
  obtain ⟨_, hk2, _⟩ := hkids
  obtain ⟨_, hcr, _⟩ := hk2
  rw [treeAt_zero] at hcr
  have hyn : (h ya).next = headFirst (BTree.firstLeaf 0) r nx := hcr.2.2.2
  apply treeAt_replace h H 0 a ks ks1 l r [BTree.leaf xa xks, BTree.leaf ya yks]
    [BTree.leaf xa (xks ++ yks)] par nx hT0 hA
  · apply row_frame0 0 h H a _ l r _ hnd
    intro q hqa hqc
    have h1 : q ≠ xa := by
      intro e
      exact hqc (BTree.leaf xa xks) (by simp) (by simp [BTree.addrs, e])
    have h2 : q ≠ ya := by
      intro e
      exact hqc (BTree.leaf ya yks) (by simp) (by simp [BTree.addrs, e])
    exact hO q hqa h1 h2
  · rfl
  · refine ⟨?_, trivial⟩
    show LeafAt (H xa) (xks ++ yks) (some a) (headFirst (BTree.firstLeaf 0) r nx)
    rw [← hyn]
    exact hX

/-- The key and child arrays of a parent after the separator at `l.length` and the
child right of it are removed. -/
theorem parent_remove (d : Nat) (nd nd1 : Node) (ksl ksr : List Nat) (k : Nat)
    (l r : List (BTree d)) (x y z : BTree d) (par : Option Nat)
    (hz : BTree.addr d z = BTree.addr d x) (hkl : ksl.length = l.length)
    (hN : NodeAt nd (ksl ++ ([k] ++ ksr)) ((l ++ ([x, y] ++ r)).map (BTree.addr d)) par)
    (h1 : nd1.leaf = nd.leaf) (h2 : nd1.parent = nd.parent) (h3 : nd1.next = nd.next)
    (h4 : nd1.keys_counter = nd.keys_counter - 1)
    (h5 : nd1.children_counter = nd.children_counter - 1)
    (hgk1 : ∀ j, j < l.length → nd1.keys j = nd.keys j)
    (hgk2 : ∀ j, l.length ≤ j → j + 1 < nd.keys_counter → nd1.keys j = nd.keys (j + 1))
    (hgc1 : ∀ j, j < l.length + 1 → nd1.children j = nd.children j)
    (hgc2 : ∀ j, l.length + 1 ≤ j → j + 1 < nd.children_counter →
      nd1.children j = nd.children (j + 1)) :
    NodeAt nd1 (ksl ++ ksr) ((l ++ ([z] ++ r)).map (BTree.addr d)) par := by
  obtain ⟨hna, hnk, hnc, hnp, hnn⟩ := hN
  refine ⟨by rw [h1]; exact hna, ?_, ?_, by rw [h2]; exact hnp, by rw [h3]; exact hnn⟩
  · have := hnk.erase (g := nd1.keys) l.length (by rw [hnk.1]; simp; omega) hgk1 hgk2
    rw [← hkl, ← h4] at this
    simpa [List.eraseIdx_append_of_length_le] using this
  · have := hnc.erase (g := nd1.children) (l.length + 1) (by rw [hnc.1]; simp) hgc1 hgc2
    have e : (List.map some (List.map (BTree.addr d) (l ++ ([x, y] ++ r)))).eraseIdx
        (l.length + 1) = List.map some (List.map (BTree.addr d) (l ++ ([z] ++ r))) := by
      rw [List.map_append, List.map_append, List.eraseIdx_append_of_length_le (by simp)]
      simp [hz]
    rw [e, ← h5] at this
    exact this

theorem merge_left_leaf (N : Nat) (s : ADS_set) (a : Nat) (ksl ksr : List Nat) (k : Nat)
    (l r : List (BTree 0)) (la ca : Nat) (lks cks : List Nat)
    (par nx : Option Nat) (key : Nat) (tw : Option Nat × Nat)
    (hT : TreeAt s.heap 1 par nx (a, ksl ++ ([k] ++ ksr),
      l ++ ([BTree.leaf la lks, BTree.leaf ca cks] ++ r)))
    (hkl : ksl.length = l.length) (hkr : ksr.length = r.length)
    (hcap : (ksl ++ ([k] ++ ksr)).length ≤ 2 * N)
    (hsz : lks.length + cks.length ≤ 2 * N + 1)
    (hnd : (BTree.addrs 1 (a, ksl ++ ([k] ++ ksr),
      l ++ ([BTree.leaf la lks, BTree.leaf ca cks] ++ r))).Nodup)
    (htw : tw.1 = none ∨ (tw.1 = some a ∧ tw.2 = l.length)) :
    ∃ s1, ADS_set.merge_with_left_body N s ca (l.length + 1) key tw a (some la) = .ok s1 ∧
      TreeAt s1.heap 1 par nx (a, ksl ++ ksr, l ++ ([BTree.leaf la (lks ++ cks)] ++ r)) ∧
      (∀ q, q ≠ a → q ≠ ca → q ≠ la → s1.heap q = s.heap q) ∧
      s1.nxt = s.nxt ∧ s1.root = s.root ∧ s1.depth = s.depth ∧
      s1.element_counter = s.element_counter := by
  have hT0 := hT
  rw [treeAt_succ] at hT
  obtain ⟨hnode, hkids⟩ := hT
  rw [kidsAt_append, kidsAt_append] at hkids
  obtain ⟨_, hk2, _⟩ := hkids
  obtain ⟨hcl, hcr, _⟩ := hk2
  rw [treeAt_zero] at hcl hcr
  have hla : (s.heap la).leaf = true := hcl.1
  have hlk : ArrIs (s.heap la).keys (s.heap la).keys_counter lks := hcl.2.1
  have hlp : (s.heap la).parent = some a := hcl.2.2.1
  have hln : (s.heap la).next = some ca := hcl.2.2.2
  have hca : (s.heap ca).leaf = true := hcr.1
  have hck : ArrIs (s.heap ca).keys (s.heap ca).keys_counter cks := hcr.2.1
  have hcp : (s.heap ca).parent = some a := hcr.2.2.1
  have hcn : (s.heap ca).next = headFirst (BTree.firstLeaf 0) r nx := hcr.2.2.2
  clear hcl hcr
  have hlen : l.length + 2 + r.length ≤ 2 * N + 1 := by simp at hcap; omega
  obtain ⟨hcc, hch1, hch2, hidx1, hidx2, hala, haca, hlaca⟩ := row_facts2 N 0 s.heap a _ l r
    (BTree.leaf la lks) (BTree.leaf ca cks) par hnode hnd hlen
  simp only [BTree.addr] at hch1 hch2 hidx1 hidx2 hala haca hlaca
  have hkc : (s.heap ca).keys_counter = cks.length := hck.1
  have hlkc : (s.heap la).keys_counter = lks.length := hlk.1
  have hakc : (s.heap a).keys_counter = l.length + 1 + r.length := by
    rw [hnode.2.1.1]; simp; omega
  have g0 : 0 < 2 * N + 1 := by omega
  have gl : l.length < 2 * N + 1 := by omega
  have fin : ∀ H : Nat → Node,
      (H a).leaf = (s.heap a).leaf → (H a).parent = (s.heap a).parent →
      (H a).next = (s.heap a).next → (H a).keys_counter = (s.heap a).keys_counter - 1 →
      (H a).children_counter = (s.heap a).children_counter - 1 →
      (∀ j, j < l.length → (H a).keys j = (s.heap a).keys j) →
      (∀ j, l.length ≤ j → j + 1 < (s.heap a).keys_counter →
        (H a).keys j = (s.heap a).keys (j + 1)) →
      (∀ j, j < l.length + 1 → (H a).children j = (s.heap a).children j) →
      (∀ j, l.length + 1 ≤ j → j + 1 < (s.heap a).children_counter →
        (H a).children j = (s.heap a).children (j + 1)) →
      H la = { s.heap la with
        keys := fun j => if lks.length ≤ j ∧ j < lks.length + cks.length then
          (s.heap ca).keys (0 + (j - lks.length)) else (s.heap la).keys j,
        keys_counter := lks.length + cks.length,
        next := (s.heap ca).next } →
      (∀ q, q ≠ a → q ≠ la → q ≠ ca → H q = s.heap q) →
      TreeAt H 1 par nx (a, ksl ++ ksr, l ++ ([BTree.leaf la (lks ++ cks)] ++ r)) := by
    intro H a1 a2 a3 a4 a5 a6 a7 a8 a9 hL hO
    apply merge_leaf_assemble s.heap H a la ca (ksl ++ ([k] ++ ksr)) (ksl ++ ksr) lks cks l r
      par nx hT0 hnd
    · exact parent_remove 0 (s.heap a) (H a) ksl ksr k l r (BTree.leaf la lks) (BTree.leaf ca cks)
        (BTree.leaf la (lks ++ cks)) par rfl hkl hnode a1 a2 a3 a4 a5 a6 a7 a8 a9
    · rw [hL]
      refine ⟨hla, ?_, hlp, rfl⟩
      have := hlk.append (g := fun j => if lks.length ≤ j ∧ j < lks.length + cks.length then
          (s.heap ca).keys (0 + (j - lks.length)) else (s.heap la).keys j) cks
        (fun j hj => by
          have h1 : ¬ (lks.length ≤ j ∧ j < lks.length + cks.length) := by omega
          beta_reduce
          rw [if_neg h1])
        (fun j hj => by
          have h1 : lks.length ≤ (s.heap la).keys_counter + j ∧
            (s.heap la).keys_counter + j < lks.length + cks.length := by omega
          beta_reduce
          rw [if_pos h1, hck.2 j hj]
          congr 2
          omega)
      rw [hlkc] at this
      exact this
    · exact hO
  unfold ADS_set.merge_with_left_body
  simp only [hca, if_true, deref, ok_bind]
  rw [append_keys_loop_eq N ca la hlaca.symm _ _ _ (by omega) (by omega)]
  obtain ⟨t1, t2⟩ := tw
  simp only at htw
  rcases htw with h | ⟨h1, h2⟩
  · subst h
    simp only [ok_bind, set_heap, upd_apply, hlaca, hlaca.symm, if_false, if_true,
      eq_self_iff_true, set_set_same, hkc, hlkc, hala.symm, haca.symm, hala, haca]
    rw [shift_left_eq N _ _ _ a (by rw [hakc]; omega) (by rw [hakc]; omega)]
    simp only [ok_bind, set_heap, upd_apply, if_true, eq_self_iff_true, set_set_same, hala, haca,
      if_false]
    rw [shift_children_left_loop_eq N _ _ _ (Or.inl (by rw [hcc]; omega))]
    simp only [ok_bind, set_heap, upd_apply, if_true, eq_self_iff_true, set_set_same]
    refine ⟨_, rfl, fin _ (by simp) (by simp) (by simp) (by simp) (by simp) ?_ ?_ ?_ ?_ ?_ ?_, ?_,
      rfl, rfl, rfl, rfl⟩
    · intro j hj
      simp only [set_heap, upd_apply, if_true, eq_self_iff_true]
      split_ifs <;> first | rfl | (exfalso; omega)
    · intro j hj1 hj2
      rw [hakc] at hj2
      simp only [set_heap, upd_apply, if_true, eq_self_iff_true, hakc]
      split_ifs <;> first | rfl | (exfalso; omega)
    · intro j hj
      simp only [set_heap, upd_apply, if_true, eq_self_iff_true]
      split_ifs <;> first | rfl | (exfalso; omega)
    · intro j hj1 hj2
      rw [hcc] at hj2
      simp only [set_heap, upd_apply, if_true, eq_self_iff_true, hcc]
      split_ifs <;> first | rfl | (exfalso; omega)
    · simp [hala.symm, hlaca]
    · intro q h1 h2 h3
      simp [h1, h2, h3]
    · intro q h1 h2 h3
      simp [h1, h2, h3]
  · subst h1 h2
    simp only [ok_bind, set_heap, upd_apply, hlaca, hlaca.symm, if_false, if_true,
      eq_self_iff_true, set_set_same, hkc, hlkc, hala.symm, haca.symm, hala, haca,
      getKey_ok N _ gl, getKey_ok N _ g0, setKey_ok N _ _ gl]
    split_ifs with hb
    · skip
      rw [shift_left_eq N _ _ _ a (by rw [hakc]; omega) (by rw [hakc]; omega)]
      simp only [ok_bind, set_heap, upd_apply, if_true, eq_self_iff_true, set_set_same, hala, haca,
        if_false]
      rw [shift_children_left_loop_eq N _ _ _ (Or.inl (by rw [hcc]; omega))]
      simp only [ok_bind, set_heap, upd_apply, if_true, eq_self_iff_true, set_set_same]
      refine ⟨_, rfl, fin _ (by simp) (by simp) (by simp) (by simp) (by simp) ?_ ?_ ?_ ?_ ?_ ?_, ?_,
        rfl, rfl, rfl, rfl⟩
      · intro j hj
        simp only [set_heap, upd_apply, if_true, eq_self_iff_true]
        split_ifs <;> first | rfl | (exfalso; omega)
      · intro j hj1 hj2
        rw [hakc] at hj2
        simp only [set_heap, upd_apply, if_true, eq_self_iff_true, hakc]
        split_ifs <;> first | rfl | (exfalso; omega)
      · intro j hj
        simp only [set_heap, upd_apply, if_true, eq_self_iff_true]
        split_ifs <;> first | rfl | (exfalso; omega)
      · intro j hj1 hj2
        rw [hcc] at hj2
        simp only [set_heap, upd_apply, if_true, eq_self_iff_true, hcc]
        split_ifs <;> first | rfl | (exfalso; omega)
      · simp [hala.symm, hlaca]
      · intro q h1 h2 h3
        simp [h1, h2, h3]
      · intro q h1 h2 h3
        simp [h1, h2, h3]
    · skip
      rw [shift_left_eq N _ _ _ a (by rw [hakc]; omega) (by rw [hakc]; omega)]
      simp only [ok_bind, set_heap, upd_apply, if_true, eq_self_iff_true, set_set_same, hala, haca,
        if_false]
      rw [shift_children_left_loop_eq N _ _ _ (Or.inl (by rw [hcc]; omega))]
      simp only [ok_bind, set_heap, upd_apply, if_true, eq_self_iff_true, set_set_same]
      refine ⟨_, rfl, fin _ (by simp) (by simp) (by simp) (by simp) (by simp) ?_ ?_ ?_ ?_ ?_ ?_, ?_,
        rfl, rfl, rfl, rfl⟩
      · intro j hj
        simp only [set_heap, upd_apply, if_true, eq_self_iff_true]
        split_ifs <;> first | rfl | (exfalso; omega)
      · intro j hj1 hj2
        rw [hakc] at hj2
        simp only [set_heap, upd_apply, if_true, eq_self_iff_true, hakc]
        split_ifs <;> first | rfl | (exfalso; omega)
      · intro j hj
        simp only [set_heap, upd_apply, if_true, eq_self_iff_true]
        split_ifs <;> first | rfl | (exfalso; omega)
      · intro j hj1 hj2
        rw [hcc] at hj2
        simp only [set_heap, upd_apply, if_true, eq_self_iff_true, hcc]
        split_ifs <;> first | rfl | (exfalso; omega)
      · simp [hala.symm, hlaca]
      · intro q h1 h2 h3
        simp [h1, h2, h3]
      · intro q h1 h2 h3
        simp [h1, h2, h3]

theorem merge_right_leaf (N : Nat) (s : ADS_set) (a : Nat) (ksl ksr : List Nat) (k : Nat)
    (l r : List (BTree 0)) (ca ra : Nat) (cks rks : List Nat)
    (par nx : Option Nat) (tw : Option Nat × Nat)
    (hT : TreeAt s.heap 1 par nx (a, ksl ++ ([k] ++ ksr),
      l ++ ([BTree.leaf ca cks, BTree.leaf ra rks] ++ r)))
    (hkl : ksl.length = l.length) (hkr : ksr.length = r.length)
    (hcap : (ksl ++ ([k] ++ ksr)).length ≤ 2 * N)
    (hsz : cks.length + rks.length ≤ 2 * N + 1)
    (hnd : (BTree.addrs 1 (a, ksl ++ ([k] ++ ksr),
      l ++ ([BTree.leaf ca cks, BTree.leaf ra rks] ++ r))).Nodup)
    (hroot : ra ≠ s.root) :
    ∃ s1, ADS_set.merge_with_right_body N s ca l.length tw a (some ra) =
        (ADS_set.fix_twin N s1 ca tw >>= fun s2 => .ok (s2, ((none : Option Nat), tw.2))) ∧
      TreeAt s1.heap 1 par nx (a, ksl ++ ksr, l ++ ([BTree.leaf ca (cks ++ rks)] ++ r)) ∧
      (∀ q, q ≠ a → q ≠ ca → q ≠ ra → s1.heap q = s.heap q) ∧
      s1.nxt = s.nxt ∧ s1.root = s.root ∧ s1.depth = s.depth ∧
      s1.element_counter = s.element_counter := by
  have hT0 := hT
  rw [treeAt_succ] at hT
  obtain ⟨hnode, hkids⟩ := hT
  rw [kidsAt_append, kidsAt_append] at hkids
  obtain ⟨_, hk2, _⟩ := hkids
  obtain ⟨hcl, hcr, _⟩ := hk2
  rw [treeAt_zero] at hcl hcr
  have hca : (s.heap ca).leaf = true := hcl.1
  have hck : ArrIs (s.heap ca).keys (s.heap ca).keys_counter cks := hcl.2.1
  have hcp : (s.heap ca).parent = some a := hcl.2.2.1
  have hcn : (s.heap ca).next = some ra := hcl.2.2.2
  have hra : (s.heap ra).leaf = true := hcr.1
  have hrk : ArrIs (s.heap ra).keys (s.heap ra).keys_counter rks := hcr.2.1
  have hrp : (s.heap ra).parent = some a := hcr.2.2.1
  have hrn : (s.heap ra).next = headFirst (BTree.firstLeaf 0) r nx := hcr.2.2.2
  clear hcl hcr
  have hlen : l.length + 2 + r.length ≤ 2 * N + 1 := by simp at hcap; omega
  obtain ⟨hcc, hch1, hch2, hidx1, hidx2, haca, hara, hcara⟩ := row_facts2 N 0 s.heap a _ l r
    (BTree.leaf ca cks) (BTree.leaf ra rks) par hnode hnd hlen
  simp only [BTree.addr] at hch1 hch2 hidx1 hidx2 haca hara hcara
  have hkc : (s.heap ca).keys_counter = cks.length := hck.1
  have hrkc : (s.heap ra).keys_counter = rks.length := hrk.1
  have hakc : (s.heap a).keys_counter = l.length + 1 + r.length := by
    rw [hnode.2.1.1]; simp; omega
  have hakc0 : ¬ (s.heap a).keys_counter = 0 := by omega
  have fin : ∀ H : Nat → Node,
      (H a).leaf = (s.heap a).leaf → (H a).parent = (s.heap a).parent →
      (H a).next = (s.heap a).next → (H a).keys_counter = (s.heap a).keys_counter - 1 →
      (H a).children_counter = (s.heap a).children_counter - 1 →
      (∀ j, j < l.length → (H a).keys j = (s.heap a).keys j) →
      (∀ j, l.length ≤ j → j + 1 < (s.heap a).keys_counter →
        (H a).keys j = (s.heap a).keys (j + 1)) →
      (∀ j, j < l.length + 1 → (H a).children j = (s.heap a).children j) →
      (∀ j, l.length + 1 ≤ j → j + 1 < (s.heap a).children_counter →
        (H a).children j = (s.heap a).children (j + 1)) →
      H ca = { s.heap ca with
        keys := fun j => if cks.length ≤ j ∧ j < cks.length + rks.length then
          (s.heap ra).keys (0 + (j - cks.length)) else (s.heap ca).keys j,
        keys_counter := cks.length + rks.length,
        next := (s.heap ra).next } →
      (∀ q, q ≠ a → q ≠ ca → q ≠ ra → H q = s.heap q) →
      TreeAt H 1 par nx (a, ksl ++ ksr, l ++ ([BTree.leaf ca (cks ++ rks)] ++ r)) := by
    intro H a1 a2 a3 a4 a5 a6 a7 a8 a9 hL hO
    apply merge_leaf_assemble s.heap H a ca ra (ksl ++ ([k] ++ ksr)) (ksl ++ ksr) cks rks l r
      par nx hT0 hnd
    · exact parent_remove 0 (s.heap a) (H a) ksl ksr k l r (BTree.leaf ca cks) (BTree.leaf ra rks)
        (BTree.leaf ca (cks ++ rks)) par rfl hkl hnode a1 a2 a3 a4 a5 a6 a7 a8 a9
    · rw [hL]
      refine ⟨hca, ?_, hcp, rfl⟩
      have := hck.append (g := fun j => if cks.length ≤ j ∧ j < cks.length + rks.length then
          (s.heap ra).keys (0 + (j - cks.length)) else (s.heap ca).keys j) rks
        (fun j hj => by
          have h1 : ¬ (cks.length ≤ j ∧ j < cks.length + rks.length) := by omega
          beta_reduce
          rw [if_neg h1])
        (fun j hj => by
          have h1 : cks.length ≤ (s.heap ca).keys_counter + j ∧
            (s.heap ca).keys_counter + j < cks.length + rks.length := by omega
          beta_reduce
          rw [if_pos h1, hrk.2 j hj]
          congr 2
          omega)
      rw [hkc] at this
      exact this
    · exact hO
  unfold ADS_set.merge_with_right_body
  simp only [hca, if_true, deref, ok_bind]
  rw [append_keys_loop_eq N ra ca hcara.symm _ _ _ (by omega) (by omega)]
  simp only [ok_bind, set_heap, upd_apply, hcara, hcara.symm, if_false, if_true,
    eq_self_iff_true, set_set_same, hkc, hrkc, hara.symm, haca.symm, hara, haca, hca, hakc0]
  rw [shift_left_eq N _ _ _ a (by rw [hakc]; omega) (by rw [hakc]; omega)]
  simp only [ok_bind, set_heap, upd_apply, if_true, eq_self_iff_true, set_set_same, hara, haca,
    if_false]
  rw [index_from_parent_eq N _ ra a (l.length + 1) (by simp [hcara, hcara.symm, hara.symm, hrp])
    (by simpa using hroot)
    (by
      simp only [set_heap, upd_apply, if_true, eq_self_iff_true]
      exact hidx2 _ _ rfl hcc)]
  simp only [ok_bind, set_heap, upd_apply, if_true, eq_self_iff_true, set_set_same]
  rw [shift_children_left_loop_eq N _ _ _ (Or.inl (by rw [hcc]; omega))]
  simp only [ok_bind, set_heap, upd_apply, if_true, eq_self_iff_true, set_set_same]
  refine ⟨_, rfl, fin _ (by simp) (by simp) (by simp) (by simp) (by simp) ?_ ?_ ?_ ?_ ?_ ?_, ?_,
    rfl, rfl, rfl, rfl⟩
  · intro j hj
    simp only [set_heap, upd_apply, if_true, eq_self_iff_true]
    split_ifs <;> first | rfl | (exfalso; omega)
  · intro j hj1 hj2
    rw [hakc] at hj2
    simp only [set_heap, upd_apply, if_true, eq_self_iff_true, hakc]
    split_ifs <;> first | rfl | (exfalso; omega)
  · intro j hj
    simp only [set_heap, upd_apply, if_true, eq_self_iff_true]
    split_ifs <;> first | rfl | (exfalso; omega)
  · intro j hj1 hj2
    rw [hcc] at hj2
    simp only [set_heap, upd_apply, if_true, eq_self_iff_true, hcc]
    split_ifs <;> first | rfl | (exfalso; omega)
  · simp [haca.symm, hcara, hca]
  · intro q h1 h2 h3
    simp [h1, h2, h3]
  · intro q h1 h2 h3
    simp [h1, h2, h3]


/-! ## Deleting from a leaf, the twin separator, failing steals, merging into the root -/

theorem delete_element_eq (N : Nat) (s : ADS_set) (c i : Nat)
    (h0 : 0 < (s.heap c).keys_counter) (h1 : i < (s.heap c).keys_counter)
    (h2 : (s.heap c).keys_counter ≤ 2 * N + 1) :
    ADS_set.delete_element N s c i =
      .ok { (s.set c { s.heap c with
              keys := fun j => if i ≤ j ∧ j < (s.heap c).keys_counter - 1 then
                (s.heap c).keys (j + 1) else (s.heap c).keys j,
              keys_counter := (s.heap c).keys_counter - 1 }) with
            element_counter := s.element_counter - 1 } := by
  unfold ADS_set.delete_element
  rw [if_neg (by omega)]
  rw [shift_left_eq N _ _ _ c (by omega) (by omega)]
  simp only [ok_bind, set_heap, upd_apply, if_true, eq_self_iff_true, set_set_same]
  congr 1
  apply state_ext <;> simp [upd_upd_same]

theorem ArrIs.append_of {α : Type} {a1 a2 g : Nat → α} {n1 n2 : Nat} {l1 l2 : List α}
    (h1 : ArrIs a1 n1 l1) (h2 : ArrIs a2 n2 l2) (n : Nat) (hn : n = n1 + n2)
    (hg1 : ∀ j, j < n1 → g j = a1 j) (hg2 : ∀ j, j < n2 → g (n1 + j) = a2 j) :
    ArrIs g n (l1 ++ l2) := by
  subst hn
  have h3 : ArrIs g n1 l1 := h1.congr hg1
  have := h3.append (g := g) l2 (fun j _ => rfl) (fun j hj => by
    rw [h2.2 j hj, hg2 j (by rw [h2.1]; exact hj)])
  rw [h2.1]
  exact this

theorem fix_twin_none (N : Nat) (s : ADS_set) (c : Nat) (tw : Option Nat × Nat)
    (h : tw.1 = none) : ADS_set.fix_twin N s c tw = .ok s := by
  unfold ADS_set.fix_twin
  rw [h]

theorem fix_twin_some (N : Nat) (s : ADS_set) (c p : Nat) (tw : Option Nat × Nat)
    (h : tw.1 = some p) (h2 : tw.2 < 2 * N + 1) :
    ADS_set.fix_twin N s c tw =
      .ok (s.set p { s.heap p with keys := upd (s.heap p).keys tw.2 ((s.heap c).keys 0) }) := by
  unfold ADS_set.fix_twin
  rw [h]
  have g0 : 0 < 2 * N + 1 := by omega
  simp only [getKey_ok N _ g0, setKey_ok N _ _ h2, ok_bind]

theorem set_self (s : ADS_set) (p : Nat) : s.set p (s.heap p) = s := by
  apply state_ext <;> simp
  funext q
  by_cases c : q = p
  · subst c; simp
  · simp [c]

/-- Writing the value a separator already has changes nothing. -/
theorem fix_twin_same (N : Nat) (s : ADS_set) (c p : Nat) (tw : Option Nat × Nat)
    (h : tw.1 = some p) (h2 : tw.2 < 2 * N + 1)
    (hv : (s.heap p).keys tw.2 = (s.heap c).keys 0) :
    ADS_set.fix_twin N s c tw = .ok s := by
  rw [fix_twin_some N s c p tw h h2]
  congr 1
  have : upd (s.heap p).keys tw.2 ((s.heap c).keys 0) = (s.heap p).keys := by
    funext j
    by_cases e : j = tw.2
    · subst e; simp [hv]
    · simp [e]
  rw [this]
  exact set_self s p

theorem steal_from_right_fail (N : Nat) (s : ADS_set) (ca a ra i : Nat)
    (tw : Option Nat × Nat) (hp : (s.heap ca).parent = some a)
    (hc : (s.heap a).children (i + 1) = some ra) (hi : i + 1 < 2 * N + 2)
    (hsz : (s.heap ca).keys_counter + (s.heap ra).keys_counter < 2 * N) :
    ADS_set.steal_from_right N s ca i tw = .ok (s, false) := by
  unfold ADS_set.steal_from_right
  simp only [hp, deref, ok_bind, getChild_ok N _ hi, hc, hsz, if_true]

theorem steal_from_left_fail (N : Nat) (s : ADS_set) (ca a la i : Nat)
    (tw : Option Nat × Nat) (hp : (s.heap ca).parent = some a) (h0 : i ≠ 0)
    (hc : (s.heap a).children (i - 1) = some la) (hi : i - 1 < 2 * N + 2)
    (hsz : (s.heap ca).keys_counter + (s.heap la).keys_counter < 2 * N) :
    ADS_set.steal_from_left N s ca i tw = .ok (s, false) := by
  unfold ADS_set.steal_from_left
  simp only [hp, deref, ok_bind, getChild_ok N _ hi, hc, hsz, if_true, if_neg h0]

theorem merge_root_leaf (N : Nat) (s : ADS_set) (k : Nat) (xa ya : Nat) (xks yks : List Nat)
    (hT : TreeAt s.heap 1 none none (s.root, [k], [BTree.leaf xa xks, BTree.leaf ya yks]))
    (hnd : (BTree.addrs 1 (s.root, [k], [BTree.leaf xa xks, BTree.leaf ya yks])).Nodup)
    (hsz : xks.length + yks.length ≤ 2 * N + 1) (hx : xks.length ≤ 2 * N) :
    ∃ s1, ADS_set.merge_root N s = .ok s1 ∧
      TreeAt s1.heap 0 none none (s.root, xks ++ yks) ∧
      (∀ q, q ≠ s.root → s1.heap q = s.heap q) ∧
      s1.nxt = s.nxt ∧ s1.root = s.root ∧ s1.depth = s.depth - 1 ∧
      s1.element_counter = s.element_counter := by
  rw [treeAt_succ] at hT
  obtain ⟨hnode, hkids⟩ := hT
  obtain ⟨hcl, hcr, _⟩ := hkids
  rw [treeAt_zero] at hcl hcr
  have hxa : (s.heap xa).leaf = true := hcl.1
  have hxk : ArrIs (s.heap xa).keys (s.heap xa).keys_counter xks := hcl.2.1
  have hya : (s.heap ya).leaf = true := hcr.1
  have hyk : ArrIs (s.heap ya).keys (s.heap ya).keys_counter yks := hcr.2.1
  clear hcl hcr
  simp only [addrs_succ, List.map_cons, List.map_nil, List.flatten_cons, List.flatten_nil,
    BTree.addrs, List.append_nil, List.singleton_append, List.nodup_cons, List.mem_cons,
    List.mem_singleton, not_or, List.not_mem_nil, not_false_eq_true, List.nodup_nil,
    and_true] at hnd
  obtain ⟨⟨hax, hay⟩, hxy⟩ := hnd
  obtain ⟨hna, hnk, hnc, hnp, hnn⟩ := hnode
  have hc0 : (s.heap s.root).children 0 = some xa := by
    have := hnc.2 0 (by simp)
    simpa [BTree.addr] using this.symm
  have hc1 : (s.heap s.root).children 1 = some ya := by
    have := hnc.2 1 (by simp)
    simpa [BTree.addr] using this.symm
  have hakc : (s.heap s.root).keys_counter = 1 := by rw [hnk.1]; simp
  have hxkc : (s.heap xa).keys_counter = xks.length := hxk.1
  have hykc : (s.heap ya).keys_counter = yks.length := hyk.1
  have g0 : 0 < 2 * N + 2 := by omega
  have g1 : 1 < 2 * N + 2 := by omega
  have hxa1 : xa ≠ s.root := fun e => hax e.symm
  have hya1 : ya ≠ s.root := fun e => hay e.symm
  unfold ADS_set.merge_root
  simp only [getChild_ok N _ g0, getChild_ok N _ g1, hc0, hc1, deref, ok_bind, hya, if_true,
    set_heap, upd_apply, eq_self_iff_true, hxa1, hya1, if_false, hakc, hxkc, hykc,
    Nat.sub_self, set_set_same, set_root]
  rw [shift_keys_by_loop_eq N _ _ _ _ (Or.inl (by omega)) (by omega)]
  simp only [ok_bind, set_heap, upd_apply, eq_self_iff_true, hxa1, hya1, if_false, if_true,
    set_set_same, set_root]
  rw [copy_keys_loop_eq N xa s.root hxa1 _ _ _ (by omega)]
  simp only [ok_bind, set_heap, upd_apply, eq_self_iff_true, hxa1, hya1, if_false, if_true,
    set_set_same, hxkc, hykc, set_root]
  rw [append_keys_loop_eq N ya s.root hya1 _ _ _ (by omega) (by simp; omega)]
  simp only [ok_bind, set_heap, upd_apply, eq_self_iff_true, hxa1, hya1, if_false, if_true,
    set_set_same, hxkc, hykc, set_root]
  rw [clear_children_loop_eq N _ _ _ (by omega)]
  simp only [ok_bind, set_heap, upd_apply, eq_self_iff_true, hxa1, hya1, if_false, if_true,
    set_set_same, hxkc, hykc, hxa, Bool.not_true, Bool.false_eq_true, set_root]
  refine ⟨_, rfl, ?_, ?_, ?_, ?_, ?_, ?_⟩
  · rw [treeAt_zero]
    refine ⟨by simp, ?_, by simp [hnp], by simp [hnn]⟩
    apply ArrIs.append_of hxk hyk
    · simp [hxkc, hykc]
    · intro j hj
      rw [hxkc] at hj
      simp only [set_heap, upd_apply, eq_self_iff_true, if_true, set_root]
      split_ifs <;> first | rfl | (exfalso; omega)
    · intro j hj
      rw [hykc] at hj
      simp only [set_heap, upd_apply, eq_self_iff_true, if_true, set_root, hxkc]
      split_ifs <;> first | rfl | (exfalso; omega) | (congr 1; omega)
  · intro q hq
    simp [hq]
  · simp
  · simp
  · simp
  · simp


/-! ## Regrouping the children of two adjacent internal nodes -/

theorem treeAt_parent (h : Nat → Node) :
    ∀ (d : Nat) (t : BTree d) (par nx : Option Nat), TreeAt h d par nx t →
      (h (BTree.addr d t)).parent = par
  | 0, _, _, _, ht => ht.2.2.1
  | _ + 1, _, _, _, ht => ht.1.2.2.2.1

theorem node_parent_eta (nd : Node) (p : Option Nat) (h : nd.parent = p) :
    { nd with parent := p } = nd := by
  cases nd
  simp at h ⊢
  exact h.symm

theorem kids_regroup (h H : Nat → Node) (d : Nat) (p1 : Nat) (cs : List (BTree d))
    (nx : Option Nat)
    (hk : KidsAt (fun n c => ∃ p, TreeAt h d p n c) (BTree.firstLeaf d) cs nx)
    (hnd : ∀ c ∈ cs, (BTree.addrs d c).Nodup)
    (hf : ∀ c ∈ cs, ∀ x ∈ BTree.addrs d c, x ≠ BTree.addr d c → H x = h x)
    (he : ∀ c ∈ cs, H (BTree.addr d c) = { h (BTree.addr d c) with parent := some p1 }) :
    KidsAt (fun n c => TreeAt H d (some p1) n c) (BTree.firstLeaf d) cs nx :=
  kidsAt_mono (BTree.firstLeaf d) cs nx
    (fun c hc n hp => by
      obtain ⟨p, hp⟩ := hp
      exact treeAt_reparent h H (some p1) d c p n (hnd c hc) (hf c hc) (he c hc) hp) hk

theorem kidsAt_ex (h : Nat → Node) (d : Nat) (par : Option Nat) (cs : List (BTree d))
    (nx : Option Nat)
    (hk : KidsAt (fun n c => TreeAt h d par n c) (BTree.firstLeaf d) cs nx) :
    KidsAt (fun n c => ∃ p, TreeAt h d p n c) (BTree.firstLeaf d) cs nx :=
  kidsAt_mono (BTree.firstLeaf d) cs nx (fun _ _ _ hp => ⟨par, hp⟩) hk

theorem firstLeaf_node (d : Nat) (a : Nat) (ks : List Nat) (cs : List (BTree d)) (hc : cs ≠ [])
    (nx : Option Nat) :
    some (BTree.firstLeaf (d + 1) (BTree.node a ks cs)) = headFirst (BTree.firstLeaf d) cs nx := by
  cases cs with
  | nil => exact absurd rfl hc
  | cons c cs => rfl

/-- The addresses of two adjacent internal nodes, of their subtrees and of their
parent are pairwise distinct. -/
theorem pair_nodup (d : Nat) (a xa ya : Nat) (ks xks yks : List Nat) (l r : List (BTree (d + 1)))
    (xcs ycs : List (BTree d))
    (hnd : (BTree.addrs (d + 2)
      (a, ks, l ++ ([BTree.node xa xks xcs, BTree.node ya yks ycs] ++ r))).Nodup) :
    (xa :: ((xcs.map (BTree.addrs d)).flatten ++
        ya :: (ycs.map (BTree.addrs d)).flatten)).Nodup ∧
      a ∉ xa :: ((xcs.map (BTree.addrs d)).flatten ++ ya :: (ycs.map (BTree.addrs d)).flatten) := by
  have hr := addrs_nodup_root (d + 1) a ks _ hnd
  have h3 := flatten_nodup_append (BTree.addrs (d + 1)) l
    ([BTree.node xa xks xcs, BTree.node ya yks ycs] ++ r) hr.2
  have h4 := flatten_nodup_append (BTree.addrs (d + 1))
    [BTree.node xa xks xcs, BTree.node ya yks ycs] r h3.2.1
  have h5 := h4.1
  simp only [List.map_cons, List.map_nil, List.flatten_cons, List.flatten_nil, List.append_nil,
    addrs_succ] at h5
  refine ⟨by simpa using h5, ?_⟩
  have hx := hr.1 (BTree.node xa xks xcs) (by simp)
  have hy := hr.1 (BTree.node ya yks ycs) (by simp)
  simp only [addrs_succ] at hx hy
  intro hm
  simp only [List.mem_cons, List.mem_append] at hm hx hy
  tauto

theorem regroup2 (d : Nat) (h H : Nat → Node) (a xa ya : Nat)
    (ks ks1 xks yks xks1 yks1 : List Nat) (l r : List (BTree (d + 1)))
    (xcs ycs xcs1 ycs1 : List (BTree d)) (par nx : Option Nat)
    (hT : TreeAt h (d + 2) par nx
      (a, ks, l ++ ([BTree.node xa xks xcs, BTree.node ya yks ycs] ++ r)))
    (hnd : (BTree.addrs (d + 2)
      (a, ks, l ++ ([BTree.node xa xks xcs, BTree.node ya yks ycs] ++ r))).Nodup)
    (hcat : xcs1 ++ ycs1 = xcs ++ ycs) (hx0 : xcs ≠ []) (hx1 : xcs1 ≠ []) (hy0 : ycs ≠ [])
    (hy1 : ycs1 ≠ [])
    (hA : NodeAt (H a) ks1
      ((l ++ ([BTree.node xa xks1 xcs1, BTree.node ya yks1 ycs1] ++ r)).map (BTree.addr (d + 1)))
      par)
    (hX : NodeAt (H xa) xks1 (xcs1.map (BTree.addr d)) (some a))
    (hY : NodeAt (H ya) yks1 (ycs1.map (BTree.addr d)) (some a))
    (hcx : ∀ c ∈ xcs1, H (BTree.addr d c) = { h (BTree.addr d c) with parent := some xa })
    (hcy : ∀ c ∈ ycs1, H (BTree.addr d c) = { h (BTree.addr d c) with parent := some ya })
    (hO : ∀ q, q ≠ a → q ≠ xa → q ≠ ya → (∀ c ∈ xcs ++ ycs, q ≠ BTree.addr d c) → H q = h q) :
    TreeAt H (d + 2) par nx
      (a, ks1, l ++ ([BTree.node xa xks1 xcs1, BTree.node ya yks1 ycs1] ++ r)) := by
  have hT0 := hT
  obtain ⟨hpn, hpa⟩ := pair_nodup d a xa ya ks xks yks l r xcs ycs hnd
  rw [treeAt_succ] at hT
  obtain ⟨_, hkids⟩ := hT
  rw [kidsAt_append, kidsAt_append] at hkids
  obtain ⟨_, hk2, _⟩ := hkids
  obtain ⟨hx, hy, _⟩ := hk2
  rw [headFirst_nil] at hy
  rw [headFirst_cons] at hx
  rw [treeAt_succ] at hx hy
  obtain ⟨_, hxk⟩ := hx
  obtain ⟨_, hyk⟩ := hy
  rw [firstLeaf_node d ya yks ycs hy0 (headFirst (BTree.firstLeaf (d + 1)) r nx)] at hxk
  have hall : KidsAt (fun n c => ∃ p, TreeAt h d p n c) (BTree.firstLeaf d) (xcs ++ ycs)
      (headFirst (BTree.firstLeaf (d + 1)) r nx) :=
    (kidsAt_append _ _ _ _ _).mpr ⟨kidsAt_ex h d _ _ _ hxk, kidsAt_ex h d _ _ _ hyk⟩
  rw [← hcat, kidsAt_append] at hall
  obtain ⟨hk1, hk2⟩ := hall
  -- facts on the children
  have hflat : ((xcs ++ ycs).map (BTree.addrs d)).flatten.Nodup := by
    have := hpn
    rw [List.nodup_cons] at this
    have h2 := this.2
    rw [List.nodup_append] at h2
    rw [List.map_append, List.flatten_append, List.nodup_append]
    refine ⟨h2.1, (List.nodup_cons.mp h2.2.1).2, ?_⟩
    intro x h3 h4
    exact h2.2.2 h3 (List.mem_cons_of_mem _ h4)
  have hin : ∀ c ∈ xcs ++ ycs, ∀ x ∈ BTree.addrs d c,
      x ∈ xa :: ((xcs.map (BTree.addrs d)).flatten ++ ya :: (ycs.map (BTree.addrs d)).flatten) ∧
        x ≠ xa ∧ x ≠ ya := by
    intro c hc x hx
    have hm : x ∈ ((xcs ++ ycs).map (BTree.addrs d)).flatten :=
      List.mem_flatten.mpr ⟨_, List.mem_map.mpr ⟨c, hc, rfl⟩, hx⟩
    rw [List.map_append, List.flatten_append, List.mem_append] at hm
    have hpn1 := hpn
    rw [List.nodup_cons] at hpn1
    have h2 := hpn1.2
    rw [List.nodup_append] at h2
    refine ⟨?_, ?_, ?_⟩
    · rcases hm with hm | hm
      · exact List.mem_cons_of_mem _ (List.mem_append_left _ hm)
      · exact List.mem_cons_of_mem _ (List.mem_append_right _ (List.mem_cons_of_mem _ hm))
    · intro e
      subst e
      apply hpn1.1
      rcases hm with hm | hm
      · exact List.mem_append_left _ hm
      · exact List.mem_append_right _ (List.mem_cons_of_mem _ hm)
    · intro e
      subst e
      rcases hm with hm | hm
      · exact h2.2.2 hm (List.mem_cons_self _ _)
      · exact (List.nodup_cons.mp h2.2.1).1 hm
  have hsub : ∀ c ∈ xcs1 ++ ycs1, c ∈ xcs ++ ycs := by
    intro c hc
    rw [hcat] at hc
    exact hc
  have hf : ∀ c ∈ xcs1 ++ ycs1, ∀ x ∈ BTree.addrs d c, x ≠ BTree.addr d c → H x = h x := by
    intro c hc x hx hne
    obtain ⟨h1, h2, h3⟩ := hin c (hsub c hc) x hx
    apply hO x (fun e => hpa (e ▸ h1)) h2 h3
    intro c1 hc1 e
    have := flatten_nodup_unique (BTree.addrs d) (xcs ++ ycs) hflat c (hsub c hc) c1 hc1 x hx
      (e ▸ addr_mem_addrs d c1)
    subst this
    exact hne e
  have hndc : ∀ c ∈ xcs1 ++ ycs1, (BTree.addrs d c).Nodup := fun c hc =>
    flatten_nodup_mem (BTree.addrs d) (xcs ++ ycs) hflat c (hsub c hc)
  have hkx := kids_regroup h H d xa xcs1 _ hk1
    (fun c hc => hndc c (List.mem_append_left _ hc))
    (fun c hc => hf c (List.mem_append_left _ hc)) hcx
  have hky := kids_regroup h H d ya ycs1 _ hk2
    (fun c hc => hndc c (List.mem_append_right _ hc))
    (fun c hc => hf c (List.mem_append_right _ hc)) hcy
  apply treeAt_replace h H (d + 1) a ks ks1 l r
    [BTree.node xa xks xcs, BTree.node ya yks ycs]
    [BTree.node xa xks1 xcs1, BTree.node ya yks1 ycs1] par nx hT0 hA
  · apply row_frame0 (d + 1) h H a _ l r _ hnd
    intro q hqa hqc
    have hq1 := hqc (BTree.node xa xks xcs) (by simp)
    have hq2 := hqc (BTree.node ya yks ycs) (by simp)
    rw [addrs_succ] at hq1 hq2
    simp only [List.mem_cons, not_or] at hq1 hq2
    apply hO q hqa hq1.1 hq2.1
    intro c hc e
    rw [List.mem_append] at hc
    rcases hc with hc | hc
    · exact hq1.2 (List.mem_flatten.mpr ⟨_, List.mem_map.mpr ⟨c, hc, rfl⟩, e ▸ addr_mem_addrs d c⟩)
    · exact hq2.2 (List.mem_flatten.mpr ⟨_, List.mem_map.mpr ⟨c, hc, rfl⟩, e ▸ addr_mem_addrs d c⟩)
  · show some (BTree.firstLeaf (d + 1) (BTree.node xa xks1 xcs1)) =
      some (BTree.firstLeaf (d + 1) (BTree.node xa xks xcs))
    rw [firstLeaf_node d xa xks1 xcs1 hx1 none, firstLeaf_node d xa xks xcs hx0 none]
    have : headFirst (BTree.firstLeaf d) (xcs1 ++ ycs1) none =
        headFirst (BTree.firstLeaf d) (xcs ++ ycs) none := by rw [hcat]
    cases xcs1 with
    | nil => exact absurd rfl hx1
    | cons c1 t1 =>
      cases xcs with
      | nil => exact absurd rfl hx0
      | cons c0 t0 => exact this
  · refine ⟨?_, ?_, trivial⟩
    · show TreeAt H (d + 1) (some a) (some (BTree.firstLeaf (d + 1) (BTree.node ya yks1 ycs1)))
        (xa, xks1, xcs1)
      rw [treeAt_succ]
      refine ⟨hX, ?_⟩
      rw [firstLeaf_node d ya yks1 ycs1 hy1 (headFirst (BTree.firstLeaf (d + 1)) r nx)]
      exact hkx
    · show TreeAt H (d + 1) (some a) (headFirst (BTree.firstLeaf (d + 1)) r nx) (ya, yks1, ycs1)
      rw [treeAt_succ]
      exact ⟨hY, hky⟩

/-- The children of two adjacent internal nodes, seen as one row. -/
theorem pair_kids (d : Nat) (h : Nat → Node) (a xa ya : Nat)
    (ks xks yks : List Nat) (l r : List (BTree (d + 1)))
    (xcs ycs : List (BTree d)) (par nx : Option Nat)
    (hT : TreeAt h (d + 2) par nx
      (a, ks, l ++ ([BTree.node xa xks xcs, BTree.node ya yks ycs] ++ r)))
    (hnd : (BTree.addrs (d + 2)
      (a, ks, l ++ ([BTree.node xa xks xcs, BTree.node ya yks ycs] ++ r))).Nodup)
    (hy0 : ycs ≠ []) :
    KidsAt (fun n c => ∃ p, TreeAt h d p n c) (BTree.firstLeaf d) (xcs ++ ycs)
        (headFirst (BTree.firstLeaf (d + 1)) r nx) ∧
      (∀ c ∈ xcs ++ ycs, (BTree.addrs d c).Nodup) ∧
      (∀ c ∈ xcs ++ ycs, BTree.addr d c ≠ a ∧ BTree.addr d c ≠ xa ∧ BTree.addr d c ≠ ya) ∧
      a ≠ xa ∧ a ≠ ya ∧ xa ≠ ya ∧
      (∀ H : Nat → Node,
        (∀ q, q ≠ a → q ≠ xa → q ≠ ya → (∀ c ∈ xcs ++ ycs, q ≠ BTree.addr d c) → H q = h q) →
        (∀ c ∈ xcs ++ ycs, ∀ x ∈ BTree.addrs d c, x ≠ BTree.addr d c → H x = h x) ∧
          (∀ c ∈ l ++ r, ∀ x ∈ BTree.addrs (d + 1) c, H x = h x)) := by
  obtain ⟨hpn, hpa⟩ := pair_nodup d a xa ya ks xks yks l r xcs ycs hnd
  rw [treeAt_succ] at hT
  obtain ⟨_, hkids⟩ := hT
  rw [kidsAt_append, kidsAt_append] at hkids
  obtain ⟨_, hk2, _⟩ := hkids
  obtain ⟨hx, hy, _⟩ := hk2
  rw [headFirst_nil] at hy
  rw [headFirst_cons] at hx
  rw [treeAt_succ] at hx hy
  obtain ⟨_, hxk⟩ := hx
  obtain ⟨_, hyk⟩ := hy
  rw [firstLeaf_node d ya yks ycs hy0 (headFirst (BTree.firstLeaf (d + 1)) r nx)] at hxk
  have hall : KidsAt (fun n c => ∃ p, TreeAt h d p n c) (BTree.firstLeaf d) (xcs ++ ycs)
      (headFirst (BTree.firstLeaf (d + 1)) r nx) :=
    (kidsAt_append _ _ _ _ _).mpr ⟨kidsAt_ex h d _ _ _ hxk, kidsAt_ex h d _ _ _ hyk⟩
  have hflat : ((xcs ++ ycs).map (BTree.addrs d)).flatten.Nodup := by
    have := hpn
    rw [List.nodup_cons] at this
    have h2 := this.2
    rw [List.nodup_append] at h2
    rw [List.map_append, List.flatten_append, List.nodup_append]
    refine ⟨h2.1, (List.nodup_cons.mp h2.2.1).2, ?_⟩
    intro x h3 h4
    exact h2.2.2 h3 (List.mem_cons_of_mem _ h4)
  have hin : ∀ c ∈ xcs ++ ycs, ∀ x ∈ BTree.addrs d c,
      x ∈ xa :: ((xcs.map (BTree.addrs d)).flatten ++ ya :: (ycs.map (BTree.addrs d)).flatten) ∧
        x ≠ xa ∧ x ≠ ya := by
    intro c hc x hx
    have hm : x ∈ ((xcs ++ ycs).map (BTree.addrs d)).flatten :=
      List.mem_flatten.mpr ⟨_, List.mem_map.mpr ⟨c, hc, rfl⟩, hx⟩
    rw [List.map_append, List.flatten_append, List.mem_append] at hm
    have hpn1 := hpn
    rw [List.nodup_cons] at hpn1
    have h2 := hpn1.2
    rw [List.nodup_append] at h2
    refine ⟨?_, ?_, ?_⟩
    · rcases hm with hm | hm
      · exact List.mem_cons_of_mem _ (List.mem_append_left _ hm)
      · exact List.mem_cons_of_mem _ (List.mem_append_right _ (List.mem_cons_of_mem _ hm))
    · intro e
      subst e
      apply hpn1.1
      rcases hm with hm | hm
      · exact List.mem_append_left _ hm
      · exact List.mem_append_right _ (List.mem_cons_of_mem _ hm)
    · intro e
      subst e
      rcases hm with hm | hm
      · exact h2.2.2 hm (List.mem_cons_self _ _)
      · exact (List.nodup_cons.mp h2.2.1).1 hm
  refine ⟨hall, fun c hc => flatten_nodup_mem (BTree.addrs d) (xcs ++ ycs) hflat c hc, ?_, ?_, ?_,
    ?_, ?_⟩
  · intro c hc
    obtain ⟨h1, h2, h3⟩ := hin c hc _ (addr_mem_addrs d c)
    exact ⟨fun e => hpa (e ▸ h1), h2, h3⟩
  · intro e
    exact hpa (e ▸ List.mem_cons_self _ _)
  · intro e
    apply hpa
    rw [e]
    exact List.mem_cons_of_mem _ (List.mem_append_right _ (List.mem_cons_self _ _))
  · intro e
    have := (List.nodup_cons.mp hpn).1
    apply this
    rw [e]
    exact List.mem_append_right _ (List.mem_cons_self _ _)
  · intro H hO
    constructor
    · intro c hc x hx hne
      obtain ⟨h1, h2, h3⟩ := hin c hc x hx
      apply hO x (fun e => hpa (e ▸ h1)) h2 h3
      intro c1 hc1 e
      have := flatten_nodup_unique (BTree.addrs d) (xcs ++ ycs) hflat c hc c1 hc1 x hx
        (e ▸ addr_mem_addrs d c1)
      subst this
      exact hne e
    · apply row_frame0 (d + 1) h H a _ l r _ hnd
      intro q hqa hqc
      have hq1 := hqc (BTree.node xa xks xcs) (by simp)
      have hq2 := hqc (BTree.node ya yks ycs) (by simp)
      rw [addrs_succ] at hq1 hq2
      simp only [List.mem_cons, not_or] at hq1 hq2
      apply hO q hqa hq1.1 hq2.1
      intro c hc e
      rw [List.mem_append] at hc
      rcases hc with hc | hc
      · exact hq1.2
          (List.mem_flatten.mpr ⟨_, List.mem_map.mpr ⟨c, hc, rfl⟩, e ▸ addr_mem_addrs d c⟩)
      · exact hq2.2
          (List.mem_flatten.mpr ⟨_, List.mem_map.mpr ⟨c, hc, rfl⟩, e ▸ addr_mem_addrs d c⟩)

theorem regroup1 (d : Nat) (h H : Nat → Node) (a xa ya za : Nat)
    (ks ks1 xks yks zks : List Nat) (l r : List (BTree (d + 1)))
    (xcs ycs : List (BTree d)) (par nx : Option Nat)
    (hT : TreeAt h (d + 2) par nx
      (a, ks, l ++ ([BTree.node xa xks xcs, BTree.node ya yks ycs] ++ r)))
    (hnd : (BTree.addrs (d + 2)
      (a, ks, l ++ ([BTree.node xa xks xcs, BTree.node ya yks ycs] ++ r))).Nodup)
    (hx0 : xcs ≠ []) (hy0 : ycs ≠ [])
    (hA : NodeAt (H a) ks1
      ((l ++ ([BTree.node za zks (xcs ++ ycs)] ++ r)).map (BTree.addr (d + 1))) par)
    (hZ : NodeAt (H za) zks ((xcs ++ ycs).map (BTree.addr d)) (some a))
    (hc : ∀ c ∈ xcs ++ ycs, H (BTree.addr d c) = { h (BTree.addr d c) with parent := some za })
    (hO : ∀ q, q ≠ a → q ≠ xa → q ≠ ya → (∀ c ∈ xcs ++ ycs, q ≠ BTree.addr d c) → H q = h q) :
    TreeAt H (d + 2) par nx (a, ks1, l ++ ([BTree.node za zks (xcs ++ ycs)] ++ r)) := by
  obtain ⟨hall, hndc, _, _, _, _, hfr⟩ := pair_kids d h a xa ya ks xks yks l r xcs ycs par nx hT hnd hy0
  obtain ⟨hf, hlr⟩ := hfr H hO
  have hk := kids_regroup h H d za (xcs ++ ycs) _ hall hndc hf hc
  apply treeAt_replace h H (d + 1) a ks ks1 l r
    [BTree.node xa xks xcs, BTree.node ya yks ycs]
    [BTree.node za zks (xcs ++ ycs)] par nx hT hA hlr
  · show some (BTree.firstLeaf (d + 1) (BTree.node za zks (xcs ++ ycs))) =
      some (BTree.firstLeaf (d + 1) (BTree.node xa xks xcs))
    cases xcs with
    | nil => exact absurd rfl hx0
    | cons c0 t0 => rfl
  · refine ⟨?_, trivial⟩
    show TreeAt H (d + 1) (some a) (headFirst (BTree.firstLeaf (d + 1)) r nx)
      (za, zks, xcs ++ ycs)
    rw [treeAt_succ]
    exact ⟨hZ, hk⟩

theorem regroup0 (d : Nat) (h H : Nat → Node) (a xa ya : Nat)
    (k : Nat) (xks yks zks : List Nat) (xcs ycs : List (BTree d))
    (hT : TreeAt h (d + 2) none none (a, [k], [BTree.node xa xks xcs, BTree.node ya yks ycs]))
    (hnd : (BTree.addrs (d + 2)
      (a, [k], [BTree.node xa xks xcs, BTree.node ya yks ycs])).Nodup)
    (hy0 : ycs ≠ [])
    (hA : NodeAt (H a) zks ((xcs ++ ycs).map (BTree.addr d)) none)
    (hc : ∀ c ∈ xcs ++ ycs, H (BTree.addr d c) = { h (BTree.addr d c) with parent := some a })
    (hO : ∀ q, q ≠ a → q ≠ xa → q ≠ ya → (∀ c ∈ xcs ++ ycs, q ≠ BTree.addr d c) → H q = h q) :
    TreeAt H (d + 1) none none (a, zks, xcs ++ ycs) := by
  obtain ⟨hall, hndc, _, _, _, _, hfr⟩ := pair_kids d h a xa ya [k] xks yks [] [] xcs ycs none none
    hT hnd hy0
  obtain ⟨hf, _⟩ := hfr H hO
  have hk := kids_regroup h H d a (xcs ++ ycs) _ hall hndc hf hc
  rw [treeAt_succ]
  exact ⟨hA, hk⟩


/-! ## Stealing a key between internal nodes -/

theorem kids_parent (h : Nat → Node) (d : Nat) (par : Option Nat) :
    ∀ (cs : List (BTree d)) (nx : Option Nat),
      KidsAt (fun n c => TreeAt h d par n c) (BTree.firstLeaf d) cs nx →
      ∀ c ∈ cs, (h (BTree.addr d c)).parent = par
  | [], _, _, c, hc => by simp at hc
  | c0 :: cs, nx, hk, c, hc => by
    rcases List.mem_cons.mp hc with e | e
    · subst e
      exact treeAt_parent h d c _ _ hk.1
    · exact kids_parent h d par cs nx hk.2 c e

theorem flatten_nodup_addr (d : Nat) :
    ∀ (cs : List (BTree d)), ((cs.map (BTree.addrs d)).flatten).Nodup →
      (cs.map (BTree.addr d)).Nodup
  | [], _ => List.nodup_nil
  | c :: cs, h => by
    simp only [List.map_cons, List.flatten_cons] at h
    rw [List.nodup_append] at h
    rw [List.map_cons, List.nodup_cons]
    refine ⟨?_, flatten_nodup_addr d cs h.2.1⟩
    intro hm
    obtain ⟨c1, hc1, e⟩ := List.mem_map.mp hm
    apply h.2.2 (addr_mem_addrs d c)
    rw [← e]
    exact List.mem_flatten.mpr ⟨_, List.mem_map.mpr ⟨c1, hc1, rfl⟩, addr_mem_addrs d c1⟩

/-- The two internal nodes of a row segment, their children's parent pointers and the
distinctness of the children's addresses. -/
theorem pair_children (d : Nat) (h : Nat → Node) (a xa ya : Nat)
    (ks xks yks : List Nat) (l r : List (BTree (d + 1)))
    (xcs ycs : List (BTree d)) (par nx : Option Nat)
    (hT : TreeAt h (d + 2) par nx
      (a, ks, l ++ ([BTree.node xa xks xcs, BTree.node ya yks ycs] ++ r)))
    (hnd : (BTree.addrs (d + 2)
      (a, ks, l ++ ([BTree.node xa xks xcs, BTree.node ya yks ycs] ++ r))).Nodup) :
    NodeAt (h a) ks ((l ++ ([BTree.node xa xks xcs, BTree.node ya yks ycs] ++ r)).map
        (BTree.addr (d + 1))) par ∧
      NodeAt (h xa) xks (xcs.map (BTree.addr d)) (some a) ∧
      NodeAt (h ya) yks (ycs.map (BTree.addr d)) (some a) ∧
      ((xcs ++ ycs).map (BTree.addr d)).Nodup ∧
      (∀ c ∈ xcs, (h (BTree.addr d c)).parent = some xa) ∧
      (∀ c ∈ ycs, (h (BTree.addr d c)).parent = some ya) := by
  obtain ⟨hpn, _⟩ := pair_nodup d a xa ya ks xks yks l r xcs ycs hnd
  rw [treeAt_succ] at hT
  obtain ⟨hnode, hkids⟩ := hT
  rw [kidsAt_append, kidsAt_append] at hkids
  obtain ⟨_, hk2, _⟩ := hkids
  obtain ⟨hx, hy, _⟩ := hk2
  rw [treeAt_succ] at hx hy
  refine ⟨hnode, hx.1, hy.1, ?_, kids_parent h d _ _ _ hx.2, kids_parent h d _ _ _ hy.2⟩
  apply flatten_nodup_addr
  have := hpn
  rw [List.nodup_cons] at this
  have h2 := this.2
  rw [List.nodup_append] at h2
  rw [List.map_append, List.flatten_append, List.nodup_append]
  refine ⟨h2.1, (List.nodup_cons.mp h2.2.1).2, ?_⟩
  intro x h3 h4
  exact h2.2.2 h3 (List.mem_cons_of_mem _ h4)

theorem steal_right_assemble (d : Nat) (h H : Nat → Node) (a xa ya : Nat)
    (ksl ksr : List Nat) (k : Nat) (xks : List Nat) (yk0 : Nat) (yks : List Nat)
    (l r : List (BTree (d + 1))) (xcs : List (BTree d)) (yc0 : BTree d) (ycs : List (BTree d))
    (par nx : Option Nat)
    (hT : TreeAt h (d + 2) par nx (a, ksl ++ ([k] ++ ksr),
      l ++ ([BTree.node xa xks xcs, BTree.node ya (yk0 :: yks) (yc0 :: ycs)] ++ r)))
    (hnd : (BTree.addrs (d + 2) (a, ksl ++ ([k] ++ ksr),
      l ++ ([BTree.node xa xks xcs, BTree.node ya (yk0 :: yks) (yc0 :: ycs)] ++ r))).Nodup)
    (hkl : ksl.length = l.length) (hxl : xcs ≠ []) (hyl : ycs ≠ [])
    (hA : H a = { h a with keys := upd (h a).keys l.length yk0 })
    (hX : H xa = { h xa with
      keys := upd (h xa).keys xks.length k, keys_counter := xks.length + 1,
      children := upd (h xa).children xcs.length (some (BTree.addr d yc0)),
      children_counter := xcs.length + 1 })
    (hY1 : (H ya).leaf = (h ya).leaf) (hY2 : (H ya).parent = (h ya).parent)
    (hY3 : (H ya).next = (h ya).next) (hY4 : (H ya).keys_counter = (h ya).keys_counter - 1)
    (hY5 : (H ya).children_counter = (h ya).children_counter - 1)
    (hY6 : ∀ j, j + 1 < (h ya).keys_counter → (H ya).keys j = (h ya).keys (j + 1))
    (hY7 : ∀ j, j + 1 < (h ya).children_counter → (H ya).children j = (h ya).children (j + 1))
    (hM : H (BTree.addr d yc0) = { h (BTree.addr d yc0) with parent := some xa })
    (hO : ∀ q, q ≠ a → q ≠ xa → q ≠ ya → q ≠ BTree.addr d yc0 → H q = h q) :
    TreeAt H (d + 2) par nx (a, ksl ++ ([yk0] ++ ksr),
      l ++ ([BTree.node xa (xks ++ [k]) (xcs ++ [yc0]), BTree.node ya yks ycs] ++ r)) := by
  obtain ⟨hna, hnx, hny, hcn, hpx, hpy⟩ := pair_children d h a xa ya _ xks (yk0 :: yks) l r xcs
    (yc0 :: ycs) par nx hT hnd
  obtain ⟨_, _, hcd, _, _, _, _⟩ := pair_kids d h a xa ya _ xks (yk0 :: yks) l r xcs (yc0 :: ycs)
    par nx hT hnd (by simp)
  have hdis : ∀ c ∈ xcs ++ ycs, BTree.addr d c ≠ BTree.addr d yc0 := by
    intro c hc e
    rw [List.map_append, List.map_cons, List.nodup_append] at hcn
    rw [List.mem_append] at hc
    rcases hc with hc | hc
    · exact hcn.2.2 (List.mem_map.mpr ⟨c, hc, rfl⟩) (e ▸ List.mem_cons_self _ _)
    · exact (List.nodup_cons.mp hcn.2.1).1 (e ▸ List.mem_map.mpr ⟨c, hc, rfl⟩)
  have hstay : ∀ c ∈ xcs ++ ycs, H (BTree.addr d c) = h (BTree.addr d c) := by
    intro c hc
    have hc1 : c ∈ xcs ++ yc0 :: ycs := by
      rw [List.mem_append] at hc ⊢
      rcases hc with hc | hc
      · exact Or.inl hc
      · exact Or.inr (List.mem_cons_of_mem _ hc)
    obtain ⟨h1, h2, h3⟩ := hcd c hc1
    exact hO _ h1 h2 h3 (hdis c hc)
  apply regroup2 d h H a xa ya _ _ xks (yk0 :: yks) (xks ++ [k]) yks l r xcs (yc0 :: ycs)
    (xcs ++ [yc0]) ycs par nx hT hnd (by simp) hxl (by simp) (by simp) hyl
  · rw [hA]
    obtain ⟨h1, h2, h3, h4⟩ := hna
    refine ⟨h1, ?_, by simpa [BTree.addr] using h3, h4⟩
    have := h2.set l.length yk0
    rw [← hkl] at this
    rw [show ksl ++ ([k] ++ ksr) = ksl ++ k :: ksr from rfl, set_middle] at this
    rw [← hkl]
    exact this
  · rw [hX]
    obtain ⟨h1, h2, h3, h4⟩ := hnx
    refine ⟨h1, ?_, ?_, h4⟩
    · have := h2.append_one k
      rw [h2.1] at this
      exact this
    · have := h3.append_one (some (BTree.addr d yc0))
      rw [h3.1] at this
      simpa using this
  · obtain ⟨h1, h2, h3, h4, h5⟩ := hny
    refine ⟨by rw [hY1]; exact h1, ?_, ?_, by rw [hY2]; exact h4, by rw [hY3]; exact h5⟩
    · rw [hY4]
      exact h2.tail hY6
    · rw [hY5]
      have h3a : ArrIs (h ya).children (h ya).children_counter
          (some (BTree.addr d yc0) :: List.map some (List.map (BTree.addr d) ycs)) := by
        simpa using h3
      exact h3a.tail hY7
  · intro c hc
    rw [List.mem_append, List.mem_singleton] at hc
    rcases hc with hc | hc
    · rw [hstay c (List.mem_append_left _ hc), node_parent_eta _ _ (hpx c hc)]
    · subst hc
      exact hM
  · intro c hc
    rw [hstay c (List.mem_append_right _ hc),
      node_parent_eta _ _ (hpy c (List.mem_cons_of_mem _ hc))]
  · intro q h1 h2 h3 h4
    exact hO q h1 h2 h3 (h4 yc0 (by simp))

theorem steal_left_assemble (d : Nat) (h H : Nat → Node) (a xa ya : Nat)
    (ksl ksr : List Nat) (k : Nat) (xks : List Nat) (xkl : Nat) (yks : List Nat)
    (l r : List (BTree (d + 1))) (xcs : List (BTree d)) (xcl : BTree d) (ycs : List (BTree d))
    (par nx : Option Nat)
    (hT : TreeAt h (d + 2) par nx (a, ksl ++ ([k] ++ ksr),
      l ++ ([BTree.node xa (xks ++ [xkl]) (xcs ++ [xcl]), BTree.node ya yks ycs] ++ r)))
    (hnd : (BTree.addrs (d + 2) (a, ksl ++ ([k] ++ ksr),
      l ++ ([BTree.node xa (xks ++ [xkl]) (xcs ++ [xcl]), BTree.node ya yks ycs] ++ r))).Nodup)
    (hkl : ksl.length = l.length) (hxl : xcs ≠ []) (hyl : ycs ≠ [])
    (hA : H a = { h a with keys := upd (h a).keys l.length xkl })
    (hX : H xa = { h xa with keys_counter := xks.length, children_counter := xcs.length })
    (hY1 : (H ya).leaf = (h ya).leaf) (hY2 : (H ya).parent = (h ya).parent)
    (hY3 : (H ya).next = (h ya).next) (hY4 : (H ya).keys_counter = (h ya).keys_counter + 1)
    (hY5 : (H ya).children_counter = (h ya).children_counter + 1)
    (hY6 : (H ya).keys 0 = k)
    (hY7 : ∀ j, 0 < j → j ≤ (h ya).keys_counter → (H ya).keys j = (h ya).keys (j - 1))
    (hY8 : (H ya).children 0 = some (BTree.addr d xcl))
    (hY9 : ∀ j, 0 < j → j ≤ (h ya).children_counter →
      (H ya).children j = (h ya).children (j - 1))
    (hM : H (BTree.addr d xcl) = { h (BTree.addr d xcl) with parent := some ya })
    (hO : ∀ q, q ≠ a → q ≠ xa → q ≠ ya → q ≠ BTree.addr d xcl → H q = h q) :
    TreeAt H (d + 2) par nx (a, ksl ++ ([xkl] ++ ksr),
      l ++ ([BTree.node xa xks xcs, BTree.node ya (k :: yks) (xcl :: ycs)] ++ r)) := by
  obtain ⟨hna, hnx, hny, hcn, hpx, hpy⟩ := pair_children d h a xa ya _ (xks ++ [xkl]) yks l r
    (xcs ++ [xcl]) ycs par nx hT hnd
  obtain ⟨_, _, hcd, _, _, _, _⟩ := pair_kids d h a xa ya _ (xks ++ [xkl]) yks l r
    (xcs ++ [xcl]) ycs par nx hT hnd hyl
  have hdis : ∀ c ∈ xcs ++ ycs, BTree.addr d c ≠ BTree.addr d xcl := by
    intro c hc e
    rw [List.map_append, List.map_append, List.nodup_append] at hcn
    rw [List.mem_append] at hc
    rcases hc with hc | hc
    · have h1 := hcn.1
      rw [List.nodup_append] at h1
      exact h1.2.2 (List.mem_map.mpr ⟨c, hc, rfl⟩) (e ▸ by simp)
    · exact hcn.2.2 (by simp [e]) (List.mem_map.mpr ⟨c, hc, rfl⟩)
  have hstay : ∀ c ∈ xcs ++ ycs, H (BTree.addr d c) = h (BTree.addr d c) := by
    intro c hc
    have hc1 : c ∈ (xcs ++ [xcl]) ++ ycs := by
      rw [List.mem_append] at hc
      simp only [List.mem_append, List.mem_singleton]
      tauto
    obtain ⟨h1, h2, h3⟩ := hcd c hc1
    exact hO _ h1 h2 h3 (hdis c hc)
  apply regroup2 d h H a xa ya _ _ (xks ++ [xkl]) yks xks (k :: yks) l r (xcs ++ [xcl]) ycs
    xcs (xcl :: ycs) par nx hT hnd (by simp) (by simp) hxl hyl (by simp)
  · rw [hA]
    obtain ⟨h1, h2, h3, h4⟩ := hna
    refine ⟨h1, ?_, by simpa [BTree.addr] using h3, h4⟩
    have := h2.set l.length xkl
    rw [← hkl] at this
    rw [show ksl ++ ([k] ++ ksr) = ksl ++ k :: ksr from rfl, set_middle] at this
    rw [← hkl]
    exact this
  · rw [hX]
    obtain ⟨h1, h2, h3, h4⟩ := hnx
    refine ⟨h1, ?_, ?_, h4⟩
    · have := h2.dropLast
      simpa [h2.1] using this
    · have := h3.dropLast
      simpa [h3.1] using this
  · obtain ⟨h1, h2, h3, h4, h5⟩ := hny
    refine ⟨by rw [hY1]; exact h1, ?_, ?_, by rw [hY2]; exact h4, by rw [hY3]; exact h5⟩
    · rw [hY4]
      exact h2.cons k hY6 hY7
    · rw [hY5]
      have := h3.cons (some (BTree.addr d xcl)) hY8 hY9
      simpa using this
  · intro c hc
    rw [hstay c (List.mem_append_left _ hc),
      node_parent_eta _ _ (hpx c (List.mem_append_left _ hc))]
  · intro c hc
    rcases List.mem_cons.mp hc with hc | hc
    · subst hc
      exact hM
    · rw [hstay c (List.mem_append_right _ hc), node_parent_eta _ _ (hpy c hc)]
  · intro q h1 h2 h3 h4
    exact hO q h1 h2 h3 (h4 xcl (by simp))


/-! ## `steal_from_right` and `steal_from_left` on internal nodes -/

theorem steal_right_int (N d : Nat) (s : ADS_set) (a : Nat) (ksl ksr : List Nat) (k : Nat)
    (l r : List (BTree (d + 1))) (xa ya : Nat) (xks : List Nat) (yk0 : Nat) (yks : List Nat)
    (xcs : List (BTree d)) (yc0 : BTree d) (ycs : List (BTree d))
    (par nx : Option Nat) (tw : Option Nat × Nat)
    (hT : TreeAt s.heap (d + 2) par nx (a, ksl ++ ([k] ++ ksr),
      l ++ ([BTree.node xa xks xcs, BTree.node ya (yk0 :: yks) (yc0 :: ycs)] ++ r)))
    (hkl : ksl.length = l.length) (hkr : ksr.length = r.length)
    (hcap : (ksl ++ ([k] ++ ksr)).length ≤ 2 * N)
    (hxl : xcs.length = xks.length + 1) (hyl : ycs.length = yks.length + 1)
    (hc1 : xks.length < 2 * N) (hc2 : yks.length + 1 ≤ 2 * N)
    (hsz : 2 * N ≤ xks.length + (yks.length + 1))
    (hnd : (BTree.addrs (d + 2) (a, ksl ++ ([k] ++ ksr),
      l ++ ([BTree.node xa xks xcs, BTree.node ya (yk0 :: yks) (yc0 :: ycs)] ++ r))).Nodup)
    (hrx : xa ≠ s.root) (hry : ya ≠ s.root) :
    ∃ s1, ADS_set.steal_from_right N s xa l.length tw = .ok (s1, true) ∧
      TreeAt s1.heap (d + 2) par nx (a, ksl ++ ([yk0] ++ ksr),
        l ++ ([BTree.node xa (xks ++ [k]) (xcs ++ [yc0]), BTree.node ya yks ycs] ++ r)) ∧
      (∀ q, q ≠ a → q ≠ xa → q ≠ ya → q ≠ BTree.addr d yc0 → s1.heap q = s.heap q) ∧
      s1.nxt = s.nxt ∧ s1.root = s.root ∧ s1.depth = s.depth ∧
      s1.element_counter = s.element_counter := by
  obtain ⟨hna, hnx, hny, hcn, hpx, hpy⟩ := pair_children d s.heap a xa ya _ xks (yk0 :: yks) l r
    xcs (yc0 :: ycs) par nx hT hnd
  obtain ⟨_, _, hcd, haxa, haya, hxaya, _⟩ := pair_kids d s.heap a xa ya _ xks (yk0 :: yks) l r
    xcs (yc0 :: ycs) par nx hT hnd (by simp)
  obtain ⟨hqa, hqx, hqy⟩ := hcd yc0 (by simp)
  have hlen : l.length + 2 + r.length ≤ 2 * N + 1 := by simp at hcap; omega
  obtain ⟨hcc, hch1, hch2, hidx1, hidx2, _, _, _⟩ := row_facts2 N (d + 1) s.heap a _ l r
    (BTree.node xa xks xcs) (BTree.node ya (yk0 :: yks) (yc0 :: ycs)) par hna hnd hlen
  simp only [BTree.addr] at hch1 hch2 hidx1 hidx2
  have hxleaf : (s.heap xa).leaf = false := hnx.1
  have hxp : (s.heap xa).parent = some a := hnx.2.2.2.1
  have hyp : (s.heap ya).parent = some a := hny.2.2.2.1
  have hxkc : (s.heap xa).keys_counter = xks.length := hnx.2.1.1
  have hxcc : (s.heap xa).children_counter = xcs.length := by rw [hnx.2.2.1.1]; simp
  have hykc : (s.heap ya).keys_counter = yks.length + 1 := by rw [hny.2.1.1]; simp
  have hycc : (s.heap ya).children_counter = ycs.length + 1 := by rw [hny.2.2.1.1]; simp
  have hak : (s.heap a).keys l.length = k := by
    have := hna.2.1.2 l.length (by simp; omega)
    rw [List.getElem?_append_right (by omega)] at this
    simpa [hkl] using this.symm
  have hyk0 : (s.heap ya).keys 0 = yk0 := by
    have := hny.2.1.2 0 (by simp)
    simpa using this.symm
  have hyc0 : (s.heap ya).children 0 = some (BTree.addr d yc0) := by
    have := hny.2.2.1.2 0 (by simp)
    simpa using this.symm
  have g0 : 0 < 2 * N + 1 := by omega
  have g0c : 0 < 2 * N + 2 := by omega
  have gl1 : l.length + 1 < 2 * N + 2 := by omega
  have gl : l.length < 2 * N + 1 := by omega
  have gx : xks.length < 2 * N + 1 := by omega
  have gxc : xcs.length < 2 * N + 2 := by omega
  have hsz2 : ¬ xks.length + (yks.length + 1) < 2 * N := by omega
  unfold ADS_set.steal_from_right
  simp only [hxp, deref, ok_bind, getChild_ok N _ gl1, hch2, hxkc, hykc, hsz2, if_false, hxleaf,
    Bool.false_eq_true]
  rw [index_from_parent_eq N _ xa a l.length hxp hrx (hidx1 _ _ rfl hcc)]
  simp only [ok_bind, getKey_ok N _ gl, hak, setKey_ok N _ _ gx, set_heap, upd_apply, hxkc, hxcc,
    getChild_ok N _ g0c, hyc0, setChild_ok N _ _ gxc, deref, if_true, eq_self_iff_true,
    hxaya, hxaya.symm, haxa, haxa.symm, haya, haya.symm, hqa, hqx, hqy, hqa.symm, hqx.symm,
    hqy.symm, if_false, set_set_same, hycc]
  rw [shift_children_left_loop_eq N _ _ _ (Or.inl (by omega))]
  simp only [ok_bind, set_heap, upd_apply, if_true, eq_self_iff_true,
    hxaya, hxaya.symm, haxa, haxa.symm, haya, haya.symm, hqa, hqx, hqy, hqa.symm, hqx.symm,
    hqy.symm, if_false, set_set_same]
  rw [index_from_parent_eq N _ ya a (l.length + 1)
    (by simp [hxaya, hxaya.symm, haxa, haxa.symm, haya, haya.symm, hqa, hqx, hqy, hqa.symm,
      hqx.symm, hqy.symm, hyp])
    (by simpa using hry)
    (by
      simp only [set_heap, upd_apply, hxaya, hxaya.symm, haxa, haxa.symm, haya, haya.symm, hqa,
        hqx, hqy, hqa.symm, hqx.symm, hqy.symm, if_false, if_true]
      exact hidx2 _ _ rfl hcc)]
  simp only [ok_bind, set_heap, upd_apply, if_true, eq_self_iff_true,
    hxaya, hxaya.symm, haxa, haxa.symm, haya, haya.symm, hqa, hqx, hqy, hqa.symm, hqx.symm,
    hqy.symm, if_false, set_set_same, Nat.add_eq_zero, one_ne_zero, and_false,
    getKey_ok N _ g0, hyk0, Nat.add_sub_cancel, setKey_ok N _ _ gl, hykc]
  rw [shift_left_eq N 0 _ _ ya (Nat.zero_le _) (by omega)]
  simp only [ok_bind, set_heap, upd_apply, if_true, eq_self_iff_true,
    hxaya, hxaya.symm, haxa, haxa.symm, haya, haya.symm, hqa, hqx, hqy, hqa.symm, hqx.symm,
    hqy.symm, if_false, set_set_same]
  refine ⟨_, rfl, ?_, ?_, rfl, rfl, rfl, rfl⟩
  · apply steal_right_assemble d s.heap _ a xa ya ksl ksr k xks yk0 yks l r xcs yc0 ycs par nx
      hT hnd hkl (by intro e; rw [e] at hxl; simp at hxl) (by intro e; rw [e] at hyl; simp at hyl)
    · simp [hxaya, hxaya.symm, haxa, haxa.symm, haya, haya.symm, hqa, hqx, hqy, hqa.symm,
        hqx.symm, hqy.symm]
    · simp [hxaya, hxaya.symm, haxa, haxa.symm, haya, haya.symm, hqa, hqx, hqy, hqa.symm,
        hqx.symm, hqy.symm]
    · simp [hxaya, hxaya.symm, haxa, haxa.symm, haya, haya.symm, hqa, hqx, hqy, hqa.symm,
        hqx.symm, hqy.symm]
    · simp [hxaya, hxaya.symm, haxa, haxa.symm, haya, haya.symm, hqa, hqx, hqy, hqa.symm,
        hqx.symm, hqy.symm]
    · simp [hxaya, hxaya.symm, haxa, haxa.symm, haya, haya.symm, hqa, hqx, hqy, hqa.symm,
        hqx.symm, hqy.symm]
    · simp [hxaya, hxaya.symm, haxa, haxa.symm, haya, haya.symm, hqa, hqx, hqy, hqa.symm,
        hqx.symm, hqy.symm, hykc]
    · simp [hxaya, hxaya.symm, haxa, haxa.symm, haya, haya.symm, hqa, hqx, hqy, hqa.symm,
        hqx.symm, hqy.symm, hycc]
    · intro j hj
      rw [hykc] at hj
      simp only [set_heap, upd_apply, hxaya, hxaya.symm, haxa, haxa.symm, haya, haya.symm, hqa,
        hqx, hqy, hqa.symm, hqx.symm, hqy.symm, if_false, if_true, eq_self_iff_true]
      split_ifs <;> first | rfl | (exfalso; omega)
    · intro j hj
      rw [hycc] at hj
      simp only [set_heap, upd_apply, hxaya, hxaya.symm, haxa, haxa.symm, haya, haya.symm, hqa, hqx, hqy,
        hqa.symm, hqx.symm, hqy.symm, if_false, if_true, eq_self_iff_true]
      split_ifs <;> first | rfl | (exfalso; omega)
    · simp [hxaya, hxaya.symm, haxa, haxa.symm, haya, haya.symm, hqa, hqx, hqy, hqa.symm,
        hqx.symm, hqy.symm]
    · intro q h1 h2 h3 h4
      simp [h1, h2, h3, h4]
  · intro q h1 h2 h3 h4
    simp [h1, h2, h3, h4]

theorem steal_left_int (N d : Nat) (s : ADS_set) (a : Nat) (ksl ksr : List Nat) (k : Nat)
    (l r : List (BTree (d + 1))) (xa ya : Nat) (xks : List Nat) (xkl : Nat) (yks : List Nat)
    (xcs : List (BTree d)) (xcl : BTree d) (ycs : List (BTree d))
    (par nx : Option Nat) (tw : Option Nat × Nat)
    (hT : TreeAt s.heap (d + 2) par nx (a, ksl ++ ([k] ++ ksr),
      l ++ ([BTree.node xa (xks ++ [xkl]) (xcs ++ [xcl]), BTree.node ya yks ycs] ++ r)))
    (hkl : ksl.length = l.length) (hkr : ksr.length = r.length)
    (hcap : (ksl ++ ([k] ++ ksr)).length ≤ 2 * N)
    (hxl : xcs.length = xks.length + 1) (hyl : ycs.length = yks.length + 1)
    (hc1 : yks.length < 2 * N) (hc2 : xks.length + 1 ≤ 2 * N)
    (hsz : 2 * N ≤ yks.length + (xks.length + 1))
    (hnd : (BTree.addrs (d + 2) (a, ksl ++ ([k] ++ ksr),
      l ++ ([BTree.node xa (xks ++ [xkl]) (xcs ++ [xcl]), BTree.node ya yks ycs] ++ r))).Nodup) :
    ∃ s1, ADS_set.steal_from_left N s ya (l.length + 1) tw = .ok (s1, true) ∧
      TreeAt s1.heap (d + 2) par nx (a, ksl ++ ([xkl] ++ ksr),
        l ++ ([BTree.node xa xks xcs, BTree.node ya (k :: yks) (xcl :: ycs)] ++ r)) ∧
      (∀ q, q ≠ a → q ≠ xa → q ≠ ya → q ≠ BTree.addr d xcl → s1.heap q = s.heap q) ∧
      s1.nxt = s.nxt ∧ s1.root = s.root ∧ s1.depth = s.depth ∧
      s1.element_counter = s.element_counter := by
  obtain ⟨hna, hnx, hny, hcn, hpx, hpy⟩ := pair_children d s.heap a xa ya _ (xks ++ [xkl]) yks l r
    (xcs ++ [xcl]) ycs par nx hT hnd
  obtain ⟨_, _, hcd, haxa, haya, hxaya, _⟩ := pair_kids d s.heap a xa ya _ (xks ++ [xkl]) yks l r
    (xcs ++ [xcl]) ycs par nx hT hnd (by intro e; rw [e] at hyl; simp at hyl)
  obtain ⟨hqa, hqx, hqy⟩ := hcd xcl (by simp)
  have hlen : l.length + 2 + r.length ≤ 2 * N + 1 := by simp at hcap; omega
  obtain ⟨hcc, hch1, hch2, hidx1, hidx2, _, _, _⟩ := row_facts2 N (d + 1) s.heap a _ l r
    (BTree.node xa (xks ++ [xkl]) (xcs ++ [xcl])) (BTree.node ya yks ycs) par hna hnd hlen
  simp only [BTree.addr] at hch1 hch2 hidx1 hidx2
  have hyleaf : (s.heap ya).leaf = false := hny.1
  have hxp : (s.heap xa).parent = some a := hnx.2.2.2.1
  have hyp : (s.heap ya).parent = some a := hny.2.2.2.1
  have hxkc : (s.heap xa).keys_counter = xks.length + 1 := by rw [hnx.2.1.1]; simp
  have hxcc : (s.heap xa).children_counter = xcs.length + 1 := by rw [hnx.2.2.1.1]; simp
  have hykc : (s.heap ya).keys_counter = yks.length := hny.2.1.1
  have hycc : (s.heap ya).children_counter = ycs.length := by rw [hny.2.2.1.1]; simp
  have hak : (s.heap a).keys l.length = k := by
    have := hna.2.1.2 l.length (by simp; omega)
    rw [List.getElem?_append_right (by omega)] at this
    simpa [hkl] using this.symm
  have hxkl : (s.heap xa).keys xks.length = xkl := by
    have := hnx.2.1.2 xks.length (by simp)
    simpa using this.symm
  have hxcl : (s.heap xa).children xcs.length = some (BTree.addr d xcl) := by
    have := hnx.2.2.1.2 xcs.length (by simp)
    simpa using this.symm
  have g0 : 0 < 2 * N + 1 := by omega
  have g0c : 0 < 2 * N + 2 := by omega
  have gl1 : l.length < 2 * N + 2 := by omega
  have gl : l.length < 2 * N + 1 := by omega
  have gx : xks.length < 2 * N + 1 := by omega
  have gxc : xcs.length < 2 * N + 2 := by omega
  have hsz2 : ¬ yks.length + (xks.length + 1) < 2 * N := by omega
  unfold ADS_set.steal_from_left
  simp only [hyp, deref, ok_bind, Nat.add_eq_zero, one_ne_zero, and_false, if_false,
    Nat.add_sub_cancel, getChild_ok N _ gl1, hch1, hxkc, hykc, hsz2]
  rw [shift_right_eq N 0 _ _ ya (Nat.zero_le _) (by omega)]
  simp only [ok_bind, set_heap, upd_apply, if_true, eq_self_iff_true,
    hxaya, hxaya.symm, haxa, haxa.symm, haya, haya.symm, hqa, hqx, hqy, hqa.symm, hqx.symm,
    hqy.symm, if_false, set_set_same, hyleaf, Bool.false_eq_true, getKey_ok N _ gl, hak,
    setKey_ok N _ _ g0, hxkc, Nat.add_eq_zero, one_ne_zero, and_false, Nat.add_sub_cancel,
    getKey_ok N _ gx, hxkl, setKey_ok N _ _ gl, hycc]
  rw [shift_children_right_loop_eq N _ _ _ (Or.inl (by omega)) (by omega)]
  simp only [ok_bind, set_heap, upd_apply, if_true, eq_self_iff_true,
    hxaya, hxaya.symm, haxa, haxa.symm, haya, haya.symm, hqa, hqx, hqy, hqa.symm, hqx.symm,
    hqy.symm, if_false, set_set_same, hxcc, Nat.add_eq_zero, one_ne_zero, and_false,
    Nat.add_sub_cancel, getChild_ok N _ gxc, hxcl, setChild_ok N _ _ g0c, deref]
  refine ⟨_, rfl, ?_, ?_, rfl, rfl, rfl, rfl⟩
  · apply steal_left_assemble d s.heap _ a xa ya ksl ksr k xks xkl yks l r xcs xcl ycs par nx
      hT hnd hkl (by intro e; rw [e] at hxl; simp at hxl) (by intro e; rw [e] at hyl; simp at hyl)
    · simp [hxaya, hxaya.symm, haxa, haxa.symm, haya, haya.symm, hqa, hqx, hqy, hqa.symm,
        hqx.symm, hqy.symm, hyleaf]
    · simp [hxaya, hxaya.symm, haxa, haxa.symm, haya, haya.symm, hqa, hqx, hqy, hqa.symm,
        hqx.symm, hqy.symm, hyleaf]
    · simp [hxaya, hxaya.symm, haxa, haxa.symm, haya, haya.symm, hqa, hqx, hqy, hqa.symm,
        hqx.symm, hqy.symm, hyleaf]
    · simp [hxaya, hxaya.symm, haxa, haxa.symm, haya, haya.symm, hqa, hqx, hqy, hqa.symm,
        hqx.symm, hqy.symm, hyleaf]
    · simp [hxaya, hxaya.symm, haxa, haxa.symm, haya, haya.symm, hqa, hqx, hqy, hqa.symm,
        hqx.symm, hqy.symm, hyleaf]
    · simp [hxaya, hxaya.symm, haxa, haxa.symm, haya, haya.symm, hqa, hqx, hqy, hqa.symm,
        hqx.symm, hqy.symm, hykc]
    · simp [hxaya, hxaya.symm, haxa, haxa.symm, haya, haya.symm, hqa, hqx, hqy, hqa.symm,
        hqx.symm, hqy.symm, hycc]
    · simp [hxaya, hxaya.symm, haxa, haxa.symm, haya, haya.symm, hqa, hqx, hqy, hqa.symm,
        hqx.symm, hqy.symm, hyleaf]
    · intro j hj1 hj2
      rw [hykc] at hj2
      have hj0 : j ≠ 0 := by omega
      simp only [set_heap, upd_apply, hxaya, hxaya.symm, haxa, haxa.symm, haya, haya.symm, hqa,
        hqx, hqy, hqa.symm, hqx.symm, hqy.symm, if_false, if_true, eq_self_iff_true, hj0]
      split_ifs <;> first | rfl | (exfalso; omega)
    · simp [hxaya, hxaya.symm, haxa, haxa.symm, haya, haya.symm, hqa, hqx, hqy, hqa.symm,
        hqx.symm, hqy.symm, hyleaf]
    · intro j hj1 hj2
      rw [hycc] at hj2
      have hj0 : j ≠ 0 := by omega
      simp only [set_heap, upd_apply, hxaya, hxaya.symm, haxa, haxa.symm, haya, haya.symm, hqa,
        hqx, hqy, hqa.symm, hqx.symm, hqy.symm, if_false, if_true, eq_self_iff_true, hj0]
      split_ifs <;> first | rfl | (exfalso; omega)
    · simp [hxaya, hxaya.symm, haxa, haxa.symm, haya, haya.symm, hqa, hqx, hqy, hqa.symm,
        hqx.symm, hqy.symm, hyleaf]
    · intro q h1 h2 h3 h4
      simp [h1, h2, h3, h4]
  · intro q h1 h2 h3 h4
    simp [h1, h2, h3, h4]


/-! ## Merging two internal nodes: the resulting tree -/

/-- A node that holds the keys of `x`, the separator `k` and the keys of `y`, and the
children of both. -/
theorem nodeAt_merged (nx ny nd : Node) (xks yks : List Nat) (k : Nat) (xcs ycs : List Nat)
    (p : Option Nat) (p1 : Option Nat)
    (hx : NodeAt nx xks xcs p) (hy : NodeAt ny yks ycs p)
    (h1 : nd.leaf = false) (h2 : nd.parent = p1) (h3 : nd.next = none)
    (h4 : nd.keys_counter = xks.length + 1 + yks.length)
    (h5 : nd.children_counter = xcs.length + ycs.length)
    (hk1 : ∀ j, j < xks.length → nd.keys j = nx.keys j)
    (hk2 : nd.keys xks.length = k)
    (hk3 : ∀ j, j < yks.length → nd.keys (xks.length + 1 + j) = ny.keys j)
    (hc1 : ∀ j, j < xcs.length → nd.children j = nx.children j)
    (hc2 : ∀ j, j < ycs.length → nd.children (xcs.length + j) = ny.children j) :
    NodeAt nd (xks ++ k :: yks) (xcs ++ ycs) p1 := by
  obtain ⟨_, hxk, hxc, _, _⟩ := hx
  obtain ⟨_, hyk, hyc, _, _⟩ := hy
  refine ⟨h1, ?_, ?_, h2, h3⟩
  · have e1 : ArrIs nd.keys (nx.keys_counter + 1) (xks ++ [k]) := by
      have a1 : ArrIs (fun _ : Nat => k) 1 [k] := ⟨rfl, fun i hi => by
        simp at hi
        subst hi
        rfl⟩
      exact hxk.append_of a1 _ rfl (fun j hj => hk1 j (by rw [← hxk.1]; exact hj))
        (fun j hj => by
          have : j = 0 := by omega
          subst this
          rw [hxk.1]
          exact hk2)
    have := e1.append_of hyk nd.keys_counter (by rw [h4, hxk.1, hyk.1]) (fun j _ => rfl)
      (fun j hj => by
        rw [hxk.1]
        exact hk3 j (by rw [← hyk.1]; exact hj))
    simpa using this
  · have := hxc.append_of hyc nd.children_counter (by rw [h5, hxc.1, hyc.1]; simp)
      (fun j hj => hc1 j (by rw [hxc.1] at hj; simpa using hj))
      (fun j hj => by
        have := hc2 j (by rw [hyc.1] at hj; simpa using hj)
        rw [hxc.1]
        simpa using this)
    simpa using this

theorem merge_left_assemble (d : Nat) (h H : Nat → Node) (a xa ya : Nat)
    (ksl ksr : List Nat) (k : Nat) (xks yks : List Nat)
    (l r : List (BTree (d + 1))) (xcs ycs : List (BTree d)) (par nx : Option Nat)
    (hT : TreeAt h (d + 2) par nx (a, ksl ++ ([k] ++ ksr),
      l ++ ([BTree.node xa xks xcs, BTree.node ya yks ycs] ++ r)))
    (hnd : (BTree.addrs (d + 2) (a, ksl ++ ([k] ++ ksr),
      l ++ ([BTree.node xa xks xcs, BTree.node ya yks ycs] ++ r))).Nodup)
    (hkl : ksl.length = l.length) (hx0 : xcs ≠ []) (hy0 : ycs ≠ [])
    (h1 : (H a).leaf = (h a).leaf) (h2 : (H a).parent = (h a).parent)
    (h3 : (H a).next = (h a).next)
    (h4 : (H a).keys_counter = (h a).keys_counter - 1)
    (h5 : (H a).children_counter = (h a).children_counter - 1)
    (hgk1 : ∀ j, j < l.length → (H a).keys j = (h a).keys j)
    (hgk2 : ∀ j, l.length ≤ j → j + 1 < (h a).keys_counter → (H a).keys j = (h a).keys (j + 1))
    (hgc1 : ∀ j, j < l.length + 1 → (H a).children j = (h a).children j)
    (hgc2 : ∀ j, l.length + 1 ≤ j → j + 1 < (h a).children_counter →
      (H a).children j = (h a).children (j + 1))
    (hZ : NodeAt (H xa) (xks ++ k :: yks) ((xcs ++ ycs).map (BTree.addr d)) (some a))
    (hR : ∀ q, q ≠ a → q ≠ xa → q ≠ ya → H q = reparent h (ycs.map (BTree.addr d)) xa q) :
    TreeAt H (d + 2) par nx (a, ksl ++ ksr,
      l ++ ([BTree.node xa (xks ++ k :: yks) (xcs ++ ycs)] ++ r)) := by
  obtain ⟨hna, hnx, hny, hcn, hpx, hpy⟩ := pair_children d h a xa ya _ xks yks l r xcs ycs
    par nx hT hnd
  obtain ⟨_, _, hcd, _, _, _, _⟩ := pair_kids d h a xa ya _ xks yks l r xcs ycs par nx hT hnd hy0
  rw [List.map_append, List.nodup_append] at hcn
  apply regroup1 d h H a xa ya xa _ _ xks yks (xks ++ k :: yks) l r xcs ycs par nx hT hnd hx0 hy0
  · exact parent_remove (d + 1) (h a) (H a) ksl ksr k l r (BTree.node xa xks xcs)
      (BTree.node ya yks ycs) (BTree.node xa (xks ++ k :: yks) (xcs ++ ycs)) par rfl hkl hna
      h1 h2 h3 h4 h5 hgk1 hgk2 hgc1 hgc2
  · exact hZ
  · intro c hc
    obtain ⟨q1, q2, q3⟩ := hcd c hc
    rw [hR _ q1 q2 q3]
    unfold reparent
    rw [List.mem_append] at hc
    rcases hc with hc | hc
    · rw [if_neg (fun hm => hcn.2.2 (List.mem_map.mpr ⟨c, hc, rfl⟩) hm),
        node_parent_eta _ _ (hpx c hc)]
    · rw [if_pos (List.mem_map.mpr ⟨c, hc, rfl⟩)]
  · intro q q1 q2 q3 q4
    rw [hR _ q1 q2 q3]
    unfold reparent
    rw [if_neg]
    intro hm
    obtain ⟨c, hc, e⟩ := List.mem_map.mp hm
    exact q4 c (List.mem_append_right _ hc) e.symm

theorem merge_right_assemble (d : Nat) (h H : Nat → Node) (a xa ya : Nat)
    (ksr : List Nat) (k : Nat) (xks yks : List Nat)
    (r : List (BTree (d + 1))) (xcs ycs : List (BTree d)) (par nx : Option Nat)
    (hT : TreeAt h (d + 2) par nx (a, [] ++ ([k] ++ ksr),
      [] ++ ([BTree.node xa xks xcs, BTree.node ya yks ycs] ++ r)))
    (hnd : (BTree.addrs (d + 2) (a, [] ++ ([k] ++ ksr),
      [] ++ ([BTree.node xa xks xcs, BTree.node ya yks ycs] ++ r))).Nodup)
    (hx0 : xcs ≠ []) (hy0 : ycs ≠ [])
    (h1 : (H a).leaf = (h a).leaf) (h2 : (H a).parent = (h a).parent)
    (h3 : (H a).next = (h a).next)
    (h4 : (H a).keys_counter = (h a).keys_counter - 1)
    (h5 : (H a).children_counter = (h a).children_counter - 1)
    (hgk : ∀ j, j + 1 < (h a).keys_counter → (H a).keys j = (h a).keys (j + 1))
    (hgc : ∀ j, j + 1 < (h a).children_counter → (H a).children j = (h a).children (j + 1))
    (hZ : NodeAt (H ya) (xks ++ k :: yks) ((xcs ++ ycs).map (BTree.addr d)) (some a))
    (hR : ∀ q, q ≠ a → q ≠ xa → q ≠ ya → H q = reparent h (xcs.map (BTree.addr d)) ya q) :
    TreeAt H (d + 2) par nx (a, ksr,
      [] ++ ([BTree.node ya (xks ++ k :: yks) (xcs ++ ycs)] ++ r)) := by
  obtain ⟨hna, hnx, hny, hcn, hpx, hpy⟩ := pair_children d h a xa ya _ xks yks [] r xcs ycs
    par nx hT hnd
  obtain ⟨_, _, hcd, _, _, _, _⟩ := pair_kids d h a xa ya _ xks yks [] r xcs ycs par nx hT hnd hy0
  rw [List.map_append, List.nodup_append] at hcn
  apply regroup1 d h H a xa ya ya _ _ xks yks (xks ++ k :: yks) [] r xcs ycs par nx hT hnd hx0 hy0
  · obtain ⟨g1, g2, g3, g4, g5⟩ := hna
    refine ⟨by rw [h1]; exact g1, ?_, ?_, by rw [h2]; exact g4, by rw [h3]; exact g5⟩
    · rw [h4]
      have g2a : ArrIs (h a).keys (h a).keys_counter (k :: ksr) := by simpa using g2
      exact g2a.tail hgk
    · rw [h5]
      have g3a : ArrIs (h a).children (h a).children_counter
          (some xa :: some ya :: List.map some (List.map (BTree.addr (d + 1)) r)) := by
        simpa [BTree.addr] using g3
      have := g3a.tail hgc
      simpa [BTree.addr] using this
  · exact hZ
  · intro c hc
    obtain ⟨q1, q2, q3⟩ := hcd c hc
    rw [hR _ q1 q2 q3]
    unfold reparent
    rw [List.mem_append] at hc
    rcases hc with hc | hc
    · rw [if_pos (List.mem_map.mpr ⟨c, hc, rfl⟩)]
    · rw [if_neg (fun hm => hcn.2.2 hm (List.mem_map.mpr ⟨c, hc, rfl⟩)),
        node_parent_eta _ _ (hpy c hc)]
  · intro q q1 q2 q3 q4
    rw [hR _ q1 q2 q3]
    unfold reparent
    rw [if_neg]
    intro hm
    obtain ⟨c, hc, e⟩ := List.mem_map.mp hm
    exact q4 c (List.mem_append_left _ hc) e.symm

theorem merge_root_assemble (d : Nat) (h H : Nat → Node) (a xa ya : Nat)
    (k : Nat) (xks yks : List Nat) (xcs ycs : List (BTree d))
    (hT : TreeAt h (d + 2) none none (a, [k], [BTree.node xa xks xcs, BTree.node ya yks ycs]))
    (hnd : (BTree.addrs (d + 2)
      (a, [k], [BTree.node xa xks xcs, BTree.node ya yks ycs])).Nodup)
    (hy0 : ycs ≠ [])
    (hA : NodeAt (H a) (xks ++ k :: yks) ((xcs ++ ycs).map (BTree.addr d)) none)
    (hR : ∀ q, q ≠ a → q ≠ xa → q ≠ ya →
      H q = reparent h ((xcs ++ ycs).map (BTree.addr d)) a q) :
    TreeAt H (d + 1) none none (a, xks ++ k :: yks, xcs ++ ycs) := by
  obtain ⟨_, _, hcd, _, _, _, _⟩ := pair_kids d h a xa ya _ xks yks [] [] xcs ycs none none hT hnd
    hy0
  apply regroup0 d h H a xa ya k xks yks (xks ++ k :: yks) xcs ycs hT hnd hy0 hA
  · intro c hc
    obtain ⟨q1, q2, q3⟩ := hcd c hc
    rw [hR _ q1 q2 q3]
    unfold reparent
    rw [if_pos (List.mem_map.mpr ⟨c, hc, rfl⟩)]
  · intro q q1 q2 q3 q4
    rw [hR _ q1 q2 q3]
    unfold reparent
    rw [if_neg]
    intro hm
    obtain ⟨c, hc, e⟩ := List.mem_map.mp hm
    exact q4 c hc e.symm


/-! ## `merge_with_left` and `merge_with_right` on internal nodes -/

theorem children_get (nd : Node) (ks : List Nat) (cs : List Nat) (p : Option Nat)
    (h : NodeAt nd ks cs p) : ∀ j (hj : j < cs.length), nd.children (0 + j) = some cs[j] := by
  intro j hj
  rw [Nat.zero_add]
  exact h.child hj

theorem merge_left_int (N d : Nat) (s : ADS_set) (a : Nat) (ksl ksr : List Nat) (k : Nat)
    (l r : List (BTree (d + 1))) (xa ya : Nat) (xks yks : List Nat)
    (xcs ycs : List (BTree d)) (par nx : Option Nat) (key : Nat) (tw : Option Nat × Nat)
    (hT : TreeAt s.heap (d + 2) par nx (a, ksl ++ ([k] ++ ksr),
      l ++ ([BTree.node xa xks xcs, BTree.node ya yks ycs] ++ r)))
    (hkl : ksl.length = l.length) (hkr : ksr.length = r.length)
    (hcap : (ksl ++ ([k] ++ ksr)).length ≤ 2 * N)
    (hxl : xcs.length = xks.length + 1) (hyl : ycs.length = yks.length + 1)
    (hsz : xks.length + 1 + yks.length ≤ 2 * N + 1)
    (hnd : (BTree.addrs (d + 2) (a, ksl ++ ([k] ++ ksr),
      l ++ ([BTree.node xa xks xcs, BTree.node ya yks ycs] ++ r))).Nodup) :
    ∃ s1, ADS_set.merge_with_left_body N s ya (l.length + 1) key tw a (some xa) = .ok s1 ∧
      TreeAt s1.heap (d + 2) par nx (a, ksl ++ ksr,
        l ++ ([BTree.node xa (xks ++ k :: yks) (xcs ++ ycs)] ++ r)) ∧
      (∀ q, q ≠ a → q ≠ xa → q ≠ ya → (∀ c ∈ ycs, q ≠ BTree.addr d c) → s1.heap q = s.heap q) ∧
      s1.nxt = s.nxt ∧ s1.root = s.root ∧ s1.depth = s.depth ∧
      s1.element_counter = s.element_counter := by
  obtain ⟨hna, hnx, hny, hcn, hpx, hpy⟩ := pair_children d s.heap a xa ya _ xks yks l r
    xcs ycs par nx hT hnd
  have hy0 : ycs ≠ [] := by intro e; rw [e] at hyl; simp at hyl
  have hx0 : xcs ≠ [] := by intro e; rw [e] at hxl; simp at hxl
  obtain ⟨_, _, hcd, haxa, haya, hxaya, _⟩ := pair_kids d s.heap a xa ya _ xks yks l r
    xcs ycs par nx hT hnd hy0
  have hlen : l.length + 2 + r.length ≤ 2 * N + 1 := by simp at hcap; omega
  obtain ⟨hcc, hch1, hch2, hidx1, hidx2, _, _, _⟩ := row_facts2 N (d + 1) s.heap a _ l r
    (BTree.node xa xks xcs) (BTree.node ya yks ycs) par hna hnd hlen
  simp only [BTree.addr] at hch1 hch2 hidx1 hidx2
  have hyleaf : (s.heap ya).leaf = false := hny.1
  have hxkc : (s.heap xa).keys_counter = xks.length := hnx.2.1.1
  have hxcc : (s.heap xa).children_counter = xcs.length := by rw [hnx.2.2.1.1]; simp
  have hykc : (s.heap ya).keys_counter = yks.length := hny.2.1.1
  have hycc : (s.heap ya).children_counter = ycs.length := by rw [hny.2.2.1.1]; simp
  have hakc : (s.heap a).keys_counter = l.length + 1 + r.length := by
    rw [hna.2.1.1]; simp; omega
  have hakc0 : ¬ l.length + 1 + r.length = 0 := by omega
  have hak : (s.heap a).keys l.length = k := by
    have := hna.2.1.2 l.length (by simp; omega)
    rw [List.getElem?_append_right (by omega)] at this
    simpa [hkl] using this.symm
  have hmv := children_get _ _ _ _ hny
  have hne : ∀ x ∈ ycs.map (BTree.addr d), x ≠ ya ∧ x ≠ xa := by
    intro x hx
    obtain ⟨c, hc, rfl⟩ := List.mem_map.1 hx
    have := hcd c (List.mem_append_right _ hc)
    exact ⟨this.2.2, this.2.1⟩
  have ham : a ∉ ycs.map (BTree.addr d) := by
    intro hx
    obtain ⟨c, hc, e⟩ := List.mem_map.1 hx
    exact (hcd c (List.mem_append_right _ hc)).1 e
  have hyam : ya ∉ ycs.map (BTree.addr d) := fun hx => (hne _ hx).1 rfl
  have hxam : xa ∉ ycs.map (BTree.addr d) := fun hx => (hne _ hx).2 rfl
  have gl : l.length < 2 * N + 1 := by omega
  have gx : xks.length < 2 * N + 1 := by omega
  unfold ADS_set.merge_with_left_body
  simp only [hyleaf, Bool.false_eq_true, if_false, deref, ok_bind, Nat.add_sub_cancel,
    getKey_ok N _ gl, hak, hxkc, setKey_ok N _ _ gx, set_heap, upd_apply, hxaya, hxaya.symm,
    haxa, haxa.symm, haya, haya.symm, if_true, eq_self_iff_true, hakc, hakc0]
  rw [shift_left_eq N _ _ _ a (by omega) (by omega)]
  simp only [ok_bind, set_heap, upd_apply, hxaya, hxaya.symm, haxa, haxa.symm, haya, haya.symm,
    if_true, if_false, eq_self_iff_true, set_set_same, hykc]
  rw [append_keys_loop_eq N ya xa hxaya.symm _ _ _ (by omega)
    (by simp [hxaya, hxaya.symm, haxa, haxa.symm, haya, haya.symm]; omega)]
  simp only [ok_bind, set_heap, upd_apply, hxaya, hxaya.symm, haxa, haxa.symm, haya, haya.symm,
    if_true, if_false, eq_self_iff_true, set_set_same, hycc]
  rw [adopt_append_loop_eq N ya xa hxaya.symm _ _ _ (ycs.map (BTree.addr d)) (by simp)
    (by omega)
    (by simp [hxaya, hxaya.symm, haxa, haxa.symm, haya, haya.symm, hxcc]; omega)
    (by
      simp only [set_heap, upd_apply, hxaya, hxaya.symm, haxa, haxa.symm, haya, haya.symm,
        if_true, if_false, eq_self_iff_true]
      exact hmv)
    hne]
  simp only [ok_bind, set_heap, upd_apply, hxaya, hxaya.symm, haxa, haxa.symm, haya, haya.symm,
    if_true, if_false, eq_self_iff_true, set_set_same, reparent, ham, hyam, hxam, hcc]
  rw [shift_children_left_loop_eq N _ _ _ (Or.inl (by omega))]
  simp only [ok_bind, set_heap, upd_apply, hxaya, hxaya.symm, haxa, haxa.symm, haya, haya.symm,
    if_true, if_false, eq_self_iff_true, set_set_same, reparent, ham, hyam, hxam]
  rw [clear_children_loop_eq N _ _ _ (by omega)]
  simp only [ok_bind, set_heap, upd_apply, hxaya, hxaya.symm, haxa, haxa.symm, haya, haya.symm,
    if_true, if_false, eq_self_iff_true, set_set_same, reparent, ham, hyam, hxam]
  refine ⟨_, rfl, ?_, ?_, rfl, rfl, rfl, rfl⟩
  · apply merge_left_assemble d s.heap _ a xa ya ksl ksr k xks yks l r xcs ycs par nx hT hnd hkl
      hx0 hy0
    · simp [haxa, haya]
    · simp [haxa, haya]
    · simp [haxa, haya]
    · simp [haxa, haya, hakc]
    · simp [haxa, haya, hcc]
    · intro j hj
      simp only [set_heap, reparent, ham, hyam, hxam, upd_apply, haxa, haya, hxaya, hxaya.symm, haxa.symm, haya.symm, if_false, if_true,
        eq_self_iff_true]
      split_ifs <;> first | rfl | (exfalso; omega)
    · intro j hj1 hj2
      rw [hakc] at hj2
      simp only [set_heap, reparent, ham, hyam, hxam, upd_apply, haxa, haya, hxaya, hxaya.symm, haxa.symm, haya.symm, if_false, if_true,
        eq_self_iff_true]
      split_ifs <;> first | rfl | (exfalso; omega)
    · intro j hj
      simp only [set_heap, reparent, ham, hyam, hxam, upd_apply, haxa, haya, hxaya, hxaya.symm, haxa.symm, haya.symm, if_false, if_true,
        eq_self_iff_true]
      split_ifs <;> first | rfl | (exfalso; omega)
    · intro j hj1 hj2
      rw [hcc] at hj2
      simp only [set_heap, reparent, ham, hyam, hxam, upd_apply, haxa, haya, hxaya, hxaya.symm, haxa.symm, haya.symm, if_false, if_true,
        eq_self_iff_true]
      split_ifs <;> first | rfl | (exfalso; omega)
    · simp only [set_heap, reparent, ham, hyam, hxam, upd_apply, hxaya, hxaya.symm, haxa,
        haxa.symm, haya, haya.symm, if_false, if_true, eq_self_iff_true, List.map_append, hxcc]
      apply nodeAt_merged (s.heap xa) (s.heap ya) _ xks yks k _ _ (some a) (some a) hnx hny
      · exact hnx.1
      · exact hnx.2.2.2.1
      · exact hnx.2.2.2.2
      · simp <;> omega
      · simp [hxcc]
      · intro j hj
        try dsimp only
        try simp only [upd_apply]
        split_ifs <;> first | rfl | (exfalso; omega)
      · try dsimp only
        try simp only [upd_apply]
        split_ifs <;> first | rfl | (exfalso; omega)
      · intro j hj
        try dsimp only
        try simp only [upd_apply]
        split_ifs <;> first | rfl | (exfalso; omega) | (congr 1; omega)
      · intro j hj
        simp only [List.length_map] at hj
        try dsimp only
        split_ifs <;> first | rfl | (exfalso; omega)
      · intro j hj
        simp only [List.length_map] at hj ⊢
        try dsimp only
        split_ifs <;> first | rfl | (exfalso; omega) | (congr 1; omega)
    · intro q h1 h2 h3
      simp [h1, h2, h3, reparent]
  · intro q h1 h2 h3 h4
    have : q ∉ ycs.map (BTree.addr d) := by
      intro hm
      obtain ⟨c, hc, e⟩ := List.mem_map.mp hm
      exact h4 c hc e.symm
    simp [h1, h2, h3, this, reparent]

theorem merge_right_int (N d : Nat) (s : ADS_set) (a : Nat) (ksr : List Nat) (k : Nat)
    (r : List (BTree (d + 1))) (xa ya : Nat) (xks yks : List Nat)
    (xcs ycs : List (BTree d)) (par nx : Option Nat) (tw : Option Nat × Nat)
    (hT : TreeAt s.heap (d + 2) par nx (a, [] ++ ([k] ++ ksr),
      [] ++ ([BTree.node xa xks xcs, BTree.node ya yks ycs] ++ r)))
    (hkr : ksr.length = r.length)
    (hcap : ([k] ++ ksr).length ≤ 2 * N)
    (hxl : xcs.length = xks.length + 1) (hyl : ycs.length = yks.length + 1)
    (hsz : xks.length + 1 + yks.length ≤ 2 * N + 1)
    (hnd : (BTree.addrs (d + 2) (a, [] ++ ([k] ++ ksr),
      [] ++ ([BTree.node xa xks xcs, BTree.node ya yks ycs] ++ r))).Nodup) :
    ∃ s1, ADS_set.merge_with_right_body N s xa 0 tw a (some ya) = .ok (s1, tw) ∧
      TreeAt s1.heap (d + 2) par nx (a, ksr,
        [] ++ ([BTree.node ya (xks ++ k :: yks) (xcs ++ ycs)] ++ r)) ∧
      (∀ q, q ≠ a → q ≠ xa → q ≠ ya → (∀ c ∈ xcs, q ≠ BTree.addr d c) → s1.heap q = s.heap q) ∧
      s1.nxt = s.nxt ∧ s1.root = s.root ∧ s1.depth = s.depth ∧
      s1.element_counter = s.element_counter := by
  obtain ⟨hna, hnx, hny, hcn, hpx, hpy⟩ := pair_children d s.heap a xa ya _ xks yks [] r
    xcs ycs par nx hT hnd
  have hy0 : ycs ≠ [] := by intro e; rw [e] at hyl; simp at hyl
  have hx0 : xcs ≠ [] := by intro e; rw [e] at hxl; simp at hxl
  obtain ⟨_, _, hcd, haxa, haya, hxaya, _⟩ := pair_kids d s.heap a xa ya _ xks yks [] r
    xcs ycs par nx hT hnd hy0
  have hxleaf : (s.heap xa).leaf = false := hnx.1
  have hxkc : (s.heap xa).keys_counter = xks.length := hnx.2.1.1
  have hxcc : (s.heap xa).children_counter = xcs.length := by rw [hnx.2.2.1.1]; simp
  have hykc : (s.heap ya).keys_counter = yks.length := hny.2.1.1
  have hycc : (s.heap ya).children_counter = ycs.length := by rw [hny.2.2.1.1]; simp
  have hakc : (s.heap a).keys_counter = 1 + r.length := by
    rw [hna.2.1.1]; simp; omega
  have hcc : (s.heap a).children_counter = 2 + r.length := by
    rw [hna.2.2.1.1]; simp; omega
  have hakc0 : ¬ 1 + r.length = 0 := by omega
  have hak : (s.heap a).keys 0 = k := by
    have := hna.2.1.2 0 (by simp)
    simpa using this.symm
  have hmv := children_get _ _ _ _ hnx
  have hne : ∀ x ∈ xcs.map (BTree.addr d), x ≠ xa ∧ x ≠ ya := by
    intro x hx
    obtain ⟨c, hc, rfl⟩ := List.mem_map.1 hx
    have := hcd c (List.mem_append_left _ hc)
    exact ⟨this.2.1, this.2.2⟩
  have ham : a ∉ xcs.map (BTree.addr d) := by
    intro hx
    obtain ⟨c, hc, e⟩ := List.mem_map.1 hx
    exact (hcd c (List.mem_append_left _ hc)).1 e
  have hyam : ya ∉ xcs.map (BTree.addr d) := fun hx => (hne _ hx).2 rfl
  have hxam : xa ∉ xcs.map (BTree.addr d) := fun hx => (hne _ hx).1 rfl
  have g0 : 0 < 2 * N + 1 := by omega
  have gx : xks.length < 2 * N + 1 := by omega
  simp only [List.length_append, List.length_singleton] at hcap
  unfold ADS_set.merge_with_right_body
  simp only [hxleaf, Bool.false_eq_true, if_false, deref, ok_bind, hxkc, hykc]
  rw [shift_keys_by_loop_eq N _ _ _ _ (by omega) (by omega)]
  simp only [ok_bind, set_heap, upd_apply, hxaya, hxaya.symm, haxa, haxa.symm, haya, haya.symm,
    if_true, if_false, eq_self_iff_true, set_set_same, hycc]
  rw [shift_children_by_loop_eq N _ _ _ _ (by omega) (by omega)]
  simp only [ok_bind, set_heap, upd_apply, hxaya, hxaya.symm, haxa, haxa.symm, haya, haya.symm,
    if_true, if_false, eq_self_iff_true, set_set_same, hxkc]
  rw [copy_keys_loop_eq N xa ya hxaya _ _ _ (by omega)]
  simp only [ok_bind, set_heap, upd_apply, hxaya, hxaya.symm, haxa, haxa.symm, haya, haya.symm,
    if_true, if_false, eq_self_iff_true, set_set_same, hxkc, getKey_ok N _ g0, hak,
    setKey_ok N _ _ gx, hakc, hakc0]
  rw [shift_left_eq N _ _ _ a (by omega) (by omega)]
  simp only [ok_bind, set_heap, upd_apply, hxaya, hxaya.symm, haxa, haxa.symm, haya, haya.symm,
    if_true, if_false, eq_self_iff_true, set_set_same, hcc]
  rw [shift_children_left_loop_eq N _ _ _ (Or.inl (by omega))]
  simp only [ok_bind, set_heap, upd_apply, hxaya, hxaya.symm, haxa, haxa.symm, haya, haya.symm,
    if_true, if_false, eq_self_iff_true, set_set_same, hxcc]
  rw [adopt_front_loop_eq N xa ya hxaya _ _ _ (xcs.map (BTree.addr d)) (by simp)
    (by omega)
    (by
      simp only [set_heap, upd_apply, hxaya, hxaya.symm, haxa, haxa.symm, haya, haya.symm,
        if_true, if_false, eq_self_iff_true]
      exact hmv)
    hne]
  simp only [ok_bind, set_heap, upd_apply, hxaya, hxaya.symm, haxa, haxa.symm, haya, haya.symm,
    if_true, if_false, eq_self_iff_true, set_set_same, reparent, ham, hyam, hxam]
  refine ⟨_, rfl, ?_, ?_, rfl, rfl, rfl, rfl⟩
  · apply merge_right_assemble d s.heap _ a xa ya ksr k xks yks r xcs ycs par nx hT hnd
      hx0 hy0
    · simp [haxa, haya, reparent, ham]
    · simp [haxa, haya, reparent, ham]
    · simp [haxa, haya, reparent, ham]
    · simp [haxa, haya, hakc, reparent, ham]
    · simp [haxa, haya, hcc, reparent, ham]
    · intro j hj
      rw [hakc] at hj
      simp only [set_heap, reparent, ham, hyam, hxam, upd_apply, haxa, haya, hxaya, hxaya.symm,
        haxa.symm, haya.symm, if_false, if_true, eq_self_iff_true]
      split_ifs <;> first | rfl | (exfalso; omega)
    · intro j hj
      rw [hcc] at hj
      simp only [set_heap, reparent, ham, hyam, hxam, upd_apply, haxa, haya, hxaya, hxaya.symm,
        haxa.symm, haya.symm, if_false, if_true, eq_self_iff_true]
      split_ifs <;> first | rfl | (exfalso; omega)
    · simp only [set_heap, reparent, ham, hyam, hxam, upd_apply, hxaya, hxaya.symm, haxa,
        haxa.symm, haya, haya.symm, if_false, if_true, eq_self_iff_true, List.map_append, hycc]
      apply nodeAt_merged (s.heap xa) (s.heap ya) _ xks yks k _ _ (some a) (some a) hnx hny
      · exact hny.1
      · exact hny.2.2.2.1
      · exact hny.2.2.2.2
      · simp <;> omega
      · simp <;> omega
      · intro j hj
        try dsimp only
        try simp only [upd_apply]
        split_ifs <;> first | rfl | (exfalso; omega)
      · try dsimp only
        try simp only [upd_apply]
        split_ifs <;> first | rfl | (exfalso; omega)
      · intro j hj
        try dsimp only
        try simp only [upd_apply]
        split_ifs <;> first | rfl | (exfalso; omega) | (congr 1; omega)
      · intro j hj
        simp only [List.length_map] at hj
        try dsimp only
        split_ifs <;> first | rfl | (exfalso; omega)
      · intro j hj
        simp only [List.length_map] at hj ⊢
        try dsimp only
        split_ifs <;> first | rfl | (exfalso; omega) | (congr 1; omega)
    · intro q h1 h2 h3
      simp [h1, h2, h3, reparent]
  · intro q h1 h2 h3 h4
    have : q ∉ xcs.map (BTree.addr d) := by
      intro hm
      obtain ⟨c, hc, e⟩ := List.mem_map.mp hm
      exact h4 c hc e.symm
    simp [h1, h2, h3, this, reparent]


/-! ## `merge_root` on internal children -/

theorem merge_root_int (N d : Nat) (s : ADS_set) (k : Nat) (xa ya : Nat) (xks yks : List Nat)
    (xcs ycs : List (BTree d))
    (hT : TreeAt s.heap (d + 2) none none
      (s.root, [k], [BTree.node xa xks xcs, BTree.node ya yks ycs]))
    (hnd : (BTree.addrs (d + 2)
      (s.root, [k], [BTree.node xa xks xcs, BTree.node ya yks ycs])).Nodup)
    (hxl : xcs.length = xks.length + 1) (hyl : ycs.length = yks.length + 1)
    (hsz : xks.length + 1 + yks.length ≤ 2 * N + 1) (hx : xks.length + 1 < 2 * N + 1) :
    ∃ s1, ADS_set.merge_root N s = .ok s1 ∧
      TreeAt s1.heap (d + 1) none none (s.root, xks ++ k :: yks, xcs ++ ycs) ∧
      (∀ q, q ≠ s.root → q ≠ xa → q ≠ ya → (∀ c ∈ xcs ++ ycs, q ≠ BTree.addr d c) →
        s1.heap q = s.heap q) ∧
      s1.nxt = s.nxt ∧ s1.root = s.root ∧ s1.depth = s.depth - 1 ∧
      s1.element_counter = s.element_counter := by
  obtain ⟨hna, hnx, hny, hcn, hpx, hpy⟩ := pair_children d s.heap s.root xa ya [k] xks yks [] []
    xcs ycs none none hT hnd
  have hy0 : ycs ≠ [] := by intro e; rw [e] at hyl; simp at hyl
  have hx0 : xcs ≠ [] := by intro e; rw [e] at hxl; simp at hxl
  obtain ⟨_, _, hcd, haxa, haya, hxaya, _⟩ := pair_kids d s.heap s.root xa ya [k] xks yks [] []
    xcs ycs none none hT hnd hy0
  have hxleaf : (s.heap xa).leaf = false := hnx.1
  have hyleaf : (s.heap ya).leaf = false := hny.1
  have hxkc : (s.heap xa).keys_counter = xks.length := hnx.2.1.1
  have hxcc : (s.heap xa).children_counter = xcs.length := by rw [hnx.2.2.1.1]; simp
  have hykc : (s.heap ya).keys_counter = yks.length := hny.2.1.1
  have hycc : (s.heap ya).children_counter = ycs.length := by rw [hny.2.2.1.1]; simp
  have hakc : (s.heap s.root).keys_counter = 1 := by rw [hna.2.1.1]; simp
  have hak : (s.heap s.root).keys 0 = k := by
    have := hna.2.1.2 0 (by simp)
    simpa using this.symm
  have hc0 : (s.heap s.root).children 0 = some xa := by
    have := hna.2.2.1.2 0 (by simp)
    simpa [BTree.addr] using this.symm
  have hc1 : (s.heap s.root).children 1 = some ya := by
    have := hna.2.2.1.2 1 (by simp)
    simpa [BTree.addr] using this.symm
  have hmx := children_get _ _ _ _ hnx
  have hmy := children_get _ _ _ _ hny
  have hnex : ∀ x ∈ xcs.map (BTree.addr d), x ≠ xa ∧ x ≠ s.root := by
    intro x hx
    obtain ⟨c, hc, rfl⟩ := List.mem_map.1 hx
    have := hcd c (List.mem_append_left _ hc)
    exact ⟨this.2.1, this.1⟩
  have hney : ∀ x ∈ ycs.map (BTree.addr d), x ≠ ya ∧ x ≠ s.root := by
    intro x hx
    obtain ⟨c, hc, rfl⟩ := List.mem_map.1 hx
    have := hcd c (List.mem_append_right _ hc)
    exact ⟨this.2.2, this.1⟩
  have ham1 : s.root ∉ xcs.map (BTree.addr d) := fun hx => (hnex _ hx).2 rfl
  have ham2 : s.root ∉ ycs.map (BTree.addr d) := fun hx => (hney _ hx).2 rfl
  have hxm1 : xa ∉ xcs.map (BTree.addr d) := fun hx => (hnex _ hx).1 rfl
  have hym2 : ya ∉ ycs.map (BTree.addr d) := fun hx => (hney _ hx).1 rfl
  have hxm2 : xa ∉ ycs.map (BTree.addr d) := by
    intro hx
    obtain ⟨c, hc, e⟩ := List.mem_map.1 hx
    exact (hcd c (List.mem_append_right _ hc)).2.1 e
  have hym1 : ya ∉ xcs.map (BTree.addr d) := by
    intro hx
    obtain ⟨c, hc, e⟩ := List.mem_map.1 hx
    exact (hcd c (List.mem_append_left _ hc)).2.2 e
  have g0 : 0 < 2 * N + 2 := by omega
  have g1 : 1 < 2 * N + 2 := by omega
  have hxr : xa ≠ s.root := haxa.symm
  have hyr : ya ≠ s.root := haya.symm
  have hcz : ¬ xcs.length + ycs.length = 0 := by omega
  unfold ADS_set.merge_root
  simp only [getChild_ok N _ g0, getChild_ok N _ g1, hc0, hc1, deref, ok_bind, hyleaf,
    Bool.false_eq_true, if_false, hakc, hxkc, hykc]
  rw [shift_keys_by_loop_eq N _ _ _ _ (Or.inl (by omega)) (by omega)]
  simp only [ok_bind, set_heap, upd_apply, eq_self_iff_true, hxr, hyr, hxaya, hxaya.symm,
    if_false, if_true, set_set_same, set_root, hxkc, hykc]
  rw [copy_keys_loop_eq N xa s.root hxr _ _ _ (by omega)]
  simp only [ok_bind, set_heap, upd_apply, eq_self_iff_true, hxr, hyr, hxaya, hxaya.symm,
    if_false, if_true, set_set_same, set_root, hxkc, hykc]
  rw [append_keys_loop_eq N ya s.root hyr _ _ _ (by omega) (by simp; omega)]
  simp only [ok_bind, set_heap, upd_apply, eq_self_iff_true, hxr, hyr, hxaya, hxaya.symm,
    if_false, if_true, set_set_same, set_root, hxkc, hykc]
  rw [clear_children_loop_eq N _ _ _ (by omega)]
  simp only [ok_bind, set_heap, upd_apply, eq_self_iff_true, hxr, hyr, hxaya, hxaya.symm,
    if_false, if_true, set_set_same, set_root, hxleaf, Bool.not_false, hxcc]
  rw [adopt_append_loop_eq N xa s.root hxr _ _ _ (xcs.map (BTree.addr d)) (by simp) (by omega)
    (by simp; omega)
    (by
      simp only [set_heap, upd_apply, hxr, hyr, hxaya, hxaya.symm, if_true, if_false,
        eq_self_iff_true]
      exact hmx)
    hnex]
  simp only [ok_bind, set_heap, upd_apply, eq_self_iff_true, hxr, hyr, hxaya, hxaya.symm,
    if_false, if_true, set_set_same, set_root, reparent, ham1, ham2, hxm1, hxm2, hym1, hym2,
    hycc, haxa, haya]
  rw [adopt_append_loop_eq N ya s.root hyr _ _ _ (ycs.map (BTree.addr d)) (by simp) (by omega)
    (by simp; omega)
    (by
      simp only [set_heap, upd_apply, hxr, hyr, hxaya, hxaya.symm, if_true, if_false,
        eq_self_iff_true, reparent, ham1, ham2, hxm1, hxm2, hym1, hym2]
      exact hmy)
    hney]
  simp only [ok_bind, set_heap, upd_apply, eq_self_iff_true, hxr, hyr, hxaya, hxaya.symm,
    if_false, if_true, set_set_same, set_root, reparent, ham1, ham2, hxm1, hxm2, hym1, hym2,
    haxa, haya]
  rw [clear_both_loop_eq N xa ya hxaya _ _ _ (by omega)]
  simp only [ok_bind, set_heap, upd_apply, eq_self_iff_true, hxr, hyr, hxaya, hxaya.symm,
    if_false, if_true, set_set_same, set_root, reparent, ham1, ham2, hxm1, hxm2, hym1, hym2,
    haxa, haya, Nat.zero_add, hcz]
  refine ⟨_, rfl, ?_, ?_, rfl, rfl, rfl, rfl⟩
  · apply merge_root_assemble d s.heap _ s.root xa ya k xks yks xcs ycs hT hnd hy0
    · simp only [upd_apply, eq_self_iff_true, hxr, hyr, hxaya, hxaya.symm, if_false, if_true,
        haxa, haya, List.map_append]
      apply nodeAt_merged (s.heap xa) (s.heap ya) _ xks yks k _ _ (some s.root) none hnx hny
      · exact hna.1
      · exact hna.2.2.2.1
      · exact hna.2.2.2.2
      · simp <;> omega
      · simp <;> omega
      · intro j hj
        try dsimp only
        split_ifs <;> first | rfl | (exfalso; omega)
      · try dsimp only
        split_ifs <;> first | rfl | (exfalso; omega) | (rw [← hak]; congr 1; omega)
      · intro j hj
        try dsimp only
        split_ifs <;> first | rfl | (exfalso; omega) | (congr 1; omega)
      · intro j hj
        simp only [List.length_map] at hj
        try dsimp only
        split_ifs <;> first | rfl | (exfalso; omega) | (congr 1; omega)
      · intro j hj
        simp only [List.length_map] at hj ⊢
        try dsimp only
        split_ifs <;> first | rfl | (exfalso; omega) | (congr 1; omega)
    · intro q h1 h2 h3
      simp only [upd_apply, h1, h2, h3, if_false, reparent, List.map_append, List.mem_append]
      by_cases m1 : q ∈ xcs.map (BTree.addr d) <;> by_cases m2 : q ∈ ycs.map (BTree.addr d) <;>
        simp [m1, m2]
  · intro q h1 h2 h3 h4
    have m1 : q ∉ xcs.map (BTree.addr d) := by
      intro hm
      obtain ⟨c, hc, e⟩ := List.mem_map.mp hm
      exact h4 c (List.mem_append_left _ hc) e.symm
    have m2 : q ∉ ycs.map (BTree.addr d) := by
      intro hm
      obtain ⟨c, hc, e⟩ := List.mem_map.mp hm
      exact h4 c (List.mem_append_right _ hc) e.symm
    simp [h1, h2, h3, m1, m2, reparent]


/-! ## Replacing a segment of a row of children -/

theorem ordKids_snoc {α : Type} (O : Nat → Nat → α → Prop) :
    ∀ (ks : List Nat) (cs : List α) (lo m hi : Nat) (c : α), OrdKids O ks cs lo m → m < hi →
      O m hi c → OrdKids O (ks ++ [m]) (cs ++ [c]) lo hi
  | [], [c0], lo, m, hi, c, h, h1, h2 => ⟨h.1, h.2, h1, h2⟩
  | [], [], _, _, _, _, h, _, _ => h.elim
  | [], _ :: _ :: _, _, _, _, _, h, _, _ => h.elim
  | k :: ks, c0 :: cs, lo, m, hi, c, h, h1, h2 =>
    ⟨h.1, h.2.1, ordKids_snoc O ks cs k m hi c h.2.2 h1 h2⟩
  | _ :: _, [], _, _, _, _, h, _, _ => h.elim

theorem ordKids_join {α : Type} (O : Nat → Nat → α → Prop) :
    ∀ (ks1 : List Nat) (cs1 : List α) (ks2 : List Nat) (cs2 : List α) (lo m hi : Nat),
      OrdKids O ks1 cs1 lo m → OrdKids O ks2 cs2 m hi →
      OrdKids O (ks1 ++ m :: ks2) (cs1 ++ cs2) lo hi
  | [], [c0], ks2, cs2, lo, m, hi, h, h2 => ⟨h.1, h.2, h2⟩
  | [], [], _, _, _, _, _, h, _ => h.elim
  | [], _ :: _ :: _, _, _, _, _, _, h, _ => h.elim
  | k :: ks, c0 :: cs, ks2, cs2, lo, m, hi, h, h2 =>
    ⟨h.1, h.2.1, ordKids_join O ks cs ks2 cs2 k m hi h.2.2 h2⟩
  | _ :: _, [], _, _, _, _, _, h, _ => h.elim

theorem twinWrite_none (h : Nat → Node) (j v : Nat) : twinWrite h (none, j) v = h := rfl

theorem twinWrite_of_none (h : Nat → Node) (tw : Option Nat × Nat) (v : Nat)
    (e : tw.1 = none) : twinWrite h tw v = h := by
  unfold twinWrite
  rw [e]

theorem twinWrite_other (h : Nat → Node) (tw : Option Nat × Nat) (v q : Nat)
    (e : tw.1 ≠ some q) : twinWrite h tw v q = h q := by
  unfold twinWrite
  cases h1 : tw.1 with
  | none => rfl
  | some p =>
    have : q ≠ p := fun e1 => e (by rw [h1, e1])
    simp [this]

/-- A row whose segment was replaced, seen as a step from the old subtree to the new. -/
theorem seg_row (N d : Nat) (s s2 : ADS_set) (a : Nat) (ksl ksr mks mks1 : List Nat)
    (l r mid mid1 : List (BTree d)) (par nx : Option Nat) (lo hi : Nat)
    (hO : KeyOrd (d + 1) lo hi (a, ksl ++ (mks ++ ksr), l ++ (mid ++ r)))
    (hnd : (BTree.addrs (d + 1) (a, ksl ++ (mks ++ ksr), l ++ (mid ++ r))).Nodup)
    (hkl : ksl.length = l.length) (hkr : ksr.length = r.length)
    (hS : SegOK N d mks mks1 mid mid1)
    (hT2 : TreeAt s2.heap (d + 1) par nx (a, ksl ++ (mks1 ++ ksr), l ++ (mid1 ++ r)))
    (hfr : ∀ q, q ∉ BTree.addrs (d + 1) (a, ksl ++ (mks ++ ksr), l ++ (mid ++ r)) →
      s2.heap q = s.heap q)
    (hn : s2.nxt = s.nxt) (hr : s2.root = s.root) (hd : s2.depth = s.depth)
    (he : s2.element_counter = s.element_counter) :
    Post s s2 (d + 1) (a, ksl ++ (mks ++ ksr), l ++ (mid ++ r))
      (a, ksl ++ (mks1 ++ ksr), l ++ (mid1 ++ r)) par nx lo hi (none, 0)
      (BTree.contents (d + 1) (a, ksl ++ (mks ++ ksr), l ++ (mid ++ r))) s.element_counter := by
  have hm0 : mid ≠ [] := by
    intro e
    have := hS.len
    rw [e] at this
    simp at this
  have hm1 : mid1 ≠ [] := by
    intro e
    have := hS.len1
    rw [e] at this
    simp at this
  refine ⟨hT2, ?_, rfl, ?_, ?_, ?_, ?_, hn, hr, hd, he, ?_⟩
  · rw [keyOrd_succ] at hO
    rw [← List.append_assoc, ← List.append_assoc] at hO
    obtain ⟨lo1, hi1, hpre, hmid, hpost⟩ :=
      (ordKids_focus _ ksl l mks mid ksr r lo hi hkl hS.len hkr).mp hO
    exact row_keyOrd d a ksl ksr mks mks1 l r mid mid1 lo hi lo1 hi1 hpre hpost hkl hkr hS.len1
      (hS.ord lo1 hi1 hmid)
  · exact firstLeaf_row d a a _ _ l r mid mid1 hS.first hm0 hm1 rfl
  · rw [contents_row, contents_row, hS.cont]
  · have hb : ∀ x ∈ BTree.addrs (d + 1) (a, ksl ++ (mks ++ ksr), l ++ (mid ++ r)),
        x < (BTree.addrs (d + 1) (a, ksl ++ (mks ++ ksr), l ++ (mid ++ r))).sum + 1 := by
      intro x hx
      have := List.single_le_sum (fun _ _ => Nat.zero_le _) x hx
      omega
    have hr := addrs_nodup_root d a _ _ hnd
    have h3 := flatten_nodup_append (BTree.addrs d) l (mid ++ r) hr.2
    have h4 := flatten_nodup_append (BTree.addrs d) mid r h3.2.1
    exact row_nodup_replace d a _ _ l r mid mid1 _ hnd hb (hS.nodup h4.1)
      (fun x hx => Or.inl (hS.sub x hx))
  · intro x hx
    rw [addrs_row] at hx ⊢
    simp only [List.mem_cons, List.mem_append] at hx ⊢
    rcases hx with hx | hx | hx | hx
    · exact Or.inl hx
    · exact Or.inr (Or.inl hx)
    · exact Or.inr (Or.inr (Or.inl (hS.sub x hx)))
    · exact Or.inr (Or.inr (Or.inr hx))
  · intro q hq
    rw [twinWrite_none]
    exact hfr q hq

theorem seg_balN (N mn d : Nat) (a : Nat) (ksl ksr mks mks1 : List Nat)
    (l r mid mid1 : List (BTree d))
    (hB : BalN N mn (2 * N) (d + 1) (a, ksl ++ (mks ++ ksr), l ++ (mid ++ r)))
    (hkl : ksl.length = l.length) (hkr : ksr.length = r.length)
    (hS : SegOK N d mks mks1 mid mid1) (hle : mks1.length ≤ mks.length) (mn1 : Nat)
    (hmn : mn1 ≤ (ksl ++ (mks1 ++ ksr)).length) :
    BalN N mn1 (2 * N) (d + 1) (a, ksl ++ (mks1 ++ ksr), l ++ (mid1 ++ r)) := by
  have hb := hB
  rw [balN_succ] at hb
  apply row_balN N mn (2 * N) mn1 (2 * N) d a _ _ l r mid mid1 hB hmn
  · have := hb.2.1
    simp only [List.length_append] at this ⊢
    omega
  · have := hS.len1
    simp only [List.length_append]
    omega
  · exact hS.bal


/-! ## The six rebalancing steps, seen on the descriptions -/

theorem segOK_leaf_sr (N : Nat) (k ca ra : Nat) (cks : List Nat) (rk0 rk1 : Nat)
    (rks : List Nat) (hc : cks.length + 1 = N) (hr1 : N ≤ rks.length + 1)
    (hr2 : rks.length + 2 ≤ 2 * N) :
    SegOK N 0 [k] [rk1] [BTree.leaf ca cks, BTree.leaf ra (rk0 :: rk1 :: rks)]
      [BTree.leaf ca (cks ++ [rk0]), BTree.leaf ra (rk1 :: rks)] := by
  refine ⟨rfl, rfl, ?_, ?_, fun _ hx => hx, fun h => h, rfl, ?_⟩
  · intro lo1 hi1 h
    simp only [OrdKids, KeyOrd] at h ⊢
    obtain ⟨h1, ⟨hxs, hxb⟩, h2, hys, hyb⟩ := h
    have hk0 := hyb rk0 (by simp)
    have hk1 := hyb rk1 (by simp)
    rw [List.pairwise_cons] at hys
    have h01 : rk0 < rk1 := hys.1 rk1 (by simp)
    refine ⟨by omega, ⟨?_, ?_⟩, hk1.2, hys.2, ?_⟩
    · rw [List.pairwise_append]
      refine ⟨hxs, by simp, ?_⟩
      intro x hx y hy
      simp only [List.mem_singleton] at hy
      subst hy
      have := (hxb x hx).2
      omega
    · intro x hx
      rw [List.mem_append, List.mem_singleton] at hx
      rcases hx with hx | hx
      · have := hxb x hx
        omega
      · subst hx
        omega
    · intro x hx
      have h3 := hyb x (List.mem_cons_of_mem _ hx)
      rcases List.mem_cons.mp hx with e | e
      · subst e
        omega
      · have := (List.pairwise_cons.mp hys.2).1 x e
        omega
  · simp [BTree.contents]
  · intro c hc1
    simp only [List.mem_cons, List.mem_singleton, List.not_mem_nil, or_false] at hc1
    rcases hc1 with e | e <;> subst e <;> simp [BalN] <;> omega

theorem segOK_leaf_sl (N : Nat) (hN : 0 < N) (k la ca : Nat) (lks : List Nat) (lk : Nat)
    (cks : List Nat) (hc : cks.length + 1 = N) (hl1 : N ≤ lks.length)
    (hl2 : lks.length + 1 ≤ 2 * N) :
    SegOK N 0 [k] [lk] [BTree.leaf la (lks ++ [lk]), BTree.leaf ca cks]
      [BTree.leaf la lks, BTree.leaf ca (lk :: cks)] := by
  refine ⟨rfl, rfl, ?_, ?_, fun _ hx => hx, fun h => h, rfl, ?_⟩
  · intro lo1 hi1 h
    simp only [OrdKids, KeyOrd] at h ⊢
    obtain ⟨h1, ⟨hxs, hxb⟩, h2, hys, hyb⟩ := h
    rw [List.pairwise_append] at hxs
    have hlk := hxb lk (by simp)
    have hlo : lo1 < lk := by
      cases lks with
      | nil => simp at hl1; omega
      | cons x0 t =>
        have h3 := hxb x0 (by simp)
        have h4 := hxs.2.2 x0 (by simp) lk (by simp)
        omega
    refine ⟨hlo, ⟨hxs.1, ?_⟩, by omega, ?_, ?_⟩
    · intro x hx
      have h3 := hxb x (List.mem_append_left _ hx)
      have h4 := hxs.2.2 x hx lk (by simp)
      omega
    · rw [List.pairwise_cons]
      refine ⟨?_, hys⟩
      intro x hx
      have := hyb x hx
      omega
    · intro x hx
      rcases List.mem_cons.mp hx with e | e
      · subst e
        omega
      · have := hyb x e
        omega
  · simp [BTree.contents]
  · intro c hc1
    simp only [List.mem_cons, List.mem_singleton, List.not_mem_nil, or_false] at hc1
    rcases hc1 with e | e <;> subst e <;> simp [BalN] <;> omega

theorem segOK_leaf_m (N : Nat) (k xa ya : Nat) (xks yks : List Nat)
    (h1 : N ≤ xks.length + yks.length) (h2 : xks.length + yks.length ≤ 2 * N) :
    SegOK N 0 [k] [] [BTree.leaf xa xks, BTree.leaf ya yks] [BTree.leaf xa (xks ++ yks)] := by
  refine ⟨rfl, rfl, ?_, ?_, ?_, ?_, rfl, ?_⟩
  · intro lo1 hi1 h
    simp only [OrdKids, KeyOrd] at h ⊢
    obtain ⟨h1, ⟨hxs, hxb⟩, h2, hys, hyb⟩ := h
    refine ⟨by omega, ?_, ?_⟩
    · rw [List.pairwise_append]
      refine ⟨hxs, hys, ?_⟩
      intro x hx y hy
      have := hxb x hx
      have := hyb y hy
      omega
    · intro x hx
      rw [List.mem_append] at hx
      rcases hx with hx | hx
      · have := hxb x hx
        omega
      · have := hyb x hx
        omega
  · simp [BTree.contents]
  · intro x hx
    simp [BTree.addrs] at hx ⊢
    exact Or.inl hx
  · intro h
    simp [BTree.addrs] at h ⊢
  · intro c hc1
    simp only [List.mem_singleton] at hc1
    subst hc1
    simp [BalN]
    omega

theorem segOK_int_sr (N d : Nat) (hN : 0 < N) (k xa ya : Nat) (xks : List Nat) (yk0 : Nat)
    (yks : List Nat) (xcs : List (BTree d)) (yc0 : BTree d) (ycs : List (BTree d))
    (hBx : BalN N (N - 1) (N - 1) (d + 1) (BTree.node xa xks xcs))
    (hBy : BalN N (N + 1) (2 * N) (d + 1) (BTree.node ya (yk0 :: yks) (yc0 :: ycs))) :
    SegOK N (d + 1) [k] [yk0]
      [BTree.node xa xks xcs, BTree.node ya (yk0 :: yks) (yc0 :: ycs)]
      [BTree.node xa (xks ++ [k]) (xcs ++ [yc0]), BTree.node ya yks ycs] := by
  rw [balN_succ] at hBx hBy
  obtain ⟨bx1, bx2, bx3, bx4⟩ := hBx
  obtain ⟨by1, by2, by3, by4⟩ := hBy
  simp only [List.length_cons] at by1 by2 by3
  refine ⟨rfl, rfl, ?_, ?_, ?_, ?_, ?_, ?_⟩
  · intro lo1 hi1 h
    simp only [OrdKids] at h ⊢
    obtain ⟨h1, hx, h2, hy⟩ := h
    rw [keyOrd_succ] at hx hy
    simp only [OrdKids] at hy
    obtain ⟨h3, h4, h5⟩ := hy
    refine ⟨by omega, ?_, ordKids_lt _ _ _ _ _ h5, ?_⟩
    · rw [keyOrd_succ]
      exact ordKids_snoc _ xks xcs lo1 k yk0 yc0 hx h3 h4
    · rw [keyOrd_succ]
      exact h5
  · simp [contents_succ]
  · intro x hx
    simp only [List.map_cons, List.map_nil, List.flatten_cons, List.flatten_nil, addrs_succ,
      List.map_append, List.flatten_append, List.mem_append, List.mem_cons, List.append_nil,
      List.not_mem_nil, or_false] at hx ⊢
    tauto
  · intro h
    refine (List.Perm.nodup_iff ?_).mp h
    simp only [List.map_cons, List.map_nil, List.flatten_cons, List.flatten_nil, addrs_succ,
      List.map_append, List.flatten_append, List.append_nil]
    rw [List.perm_iff_count]
    intro x
    simp only [List.count_append, List.count_cons, List.count_nil]
    omega
  · cases xcs with
    | nil => simp at bx3
    | cons c0 t => rfl
  · intro c hc1
    simp only [List.mem_cons, List.mem_singleton, List.not_mem_nil, or_false] at hc1
    rcases hc1 with e | e <;> subst e <;> rw [balN_succ]
    · refine ⟨by simp; omega, by simp; omega, by simp; omega, ?_⟩
      intro c hc
      rw [List.mem_append, List.mem_singleton] at hc
      rcases hc with hc | hc
      · exact bx4 c hc
      · subst hc
        exact by4 _ (by simp)
    · refine ⟨by omega, by omega, by omega, ?_⟩
      intro c hc
      exact by4 c (List.mem_cons_of_mem _ hc)

theorem segOK_int_sl (N d : Nat) (hN : 0 < N) (k xa ya : Nat) (xks : List Nat) (xkl : Nat)
    (yks : List Nat) (xcs : List (BTree d)) (xcl : BTree d) (ycs : List (BTree d))
    (hBx : BalN N (N + 1) (2 * N) (d + 1) (BTree.node xa (xks ++ [xkl]) (xcs ++ [xcl])))
    (hBy : BalN N (N - 1) (N - 1) (d + 1) (BTree.node ya yks ycs)) :
    SegOK N (d + 1) [k] [xkl]
      [BTree.node xa (xks ++ [xkl]) (xcs ++ [xcl]), BTree.node ya yks ycs]
      [BTree.node xa xks xcs, BTree.node ya (k :: yks) (xcl :: ycs)] := by
  rw [balN_succ] at hBx hBy
  obtain ⟨bx1, bx2, bx3, bx4⟩ := hBx
  obtain ⟨by1, by2, by3, by4⟩ := hBy
  simp only [List.length_append, List.length_singleton] at bx1 bx2 bx3
  refine ⟨rfl, rfl, ?_, ?_, ?_, ?_, ?_, ?_⟩
  · intro lo1 hi1 h
    simp only [OrdKids] at h ⊢
    obtain ⟨h1, hx, h2, hy⟩ := h
    rw [keyOrd_succ] at hx hy
    obtain ⟨h3, h4⟩ := ordKids_split _ xks xcs [] [xcl] lo1 k xkl (by omega) hx
    simp only [OrdKids] at h4
    refine ⟨ordKids_lt _ _ _ _ _ h3, ?_, by omega, ?_⟩
    · rw [keyOrd_succ]
      exact h3
    · rw [keyOrd_succ]
      exact ⟨h4.1, h4.2, hy⟩
  · simp [contents_succ]
  · intro x hx
    simp only [List.map_cons, List.map_nil, List.flatten_cons, List.flatten_nil, addrs_succ,
      List.map_append, List.flatten_append, List.mem_append, List.mem_cons, List.append_nil,
      List.not_mem_nil, or_false] at hx ⊢
    tauto
  · intro h
    refine (List.Perm.nodup_iff ?_).mp h
    simp only [List.map_cons, List.map_nil, List.flatten_cons, List.flatten_nil, addrs_succ,
      List.map_append, List.flatten_append, List.append_nil]
    rw [List.perm_iff_count]
    intro x
    simp only [List.count_append, List.count_cons, List.count_nil]
    omega
  · cases xcs with
    | nil => simp at bx3 <;> omega
    | cons c0 t => rfl
  · intro c hc1
    simp only [List.mem_cons, List.mem_singleton, List.not_mem_nil, or_false] at hc1
    rcases hc1 with e | e <;> subst e <;> rw [balN_succ]
    · refine ⟨by omega, by omega, by omega, ?_⟩
      intro c hc
      exact bx4 c (List.mem_append_left _ hc)
    · refine ⟨by simp; omega, by simp; omega, by simp; omega, ?_⟩
      intro c hc
      rcases List.mem_cons.mp hc with hc | hc
      · subst hc
        exact bx4 _ (by simp)
      · exact by4 c hc

theorem segOK_int_m (N d : Nat) (k xa ya za : Nat) (xks yks : List Nat)
    (xcs ycs : List (BTree d)) (hza : za = xa ∨ za = ya) (mx my : Nat)
    (hBx : BalN N mx (2 * N) (d + 1) (BTree.node xa xks xcs))
    (hBy : BalN N my (2 * N) (d + 1) (BTree.node ya yks ycs))
    (h1 : N ≤ xks.length + 1 + yks.length) (h2 : xks.length + 1 + yks.length ≤ 2 * N) :
    SegOK N (d + 1) [k] []
      [BTree.node xa xks xcs, BTree.node ya yks ycs]
      [BTree.node za (xks ++ k :: yks) (xcs ++ ycs)] := by
  rw [balN_succ] at hBx hBy
  obtain ⟨bx1, bx2, bx3, bx4⟩ := hBx
  obtain ⟨by1, by2, by3, by4⟩ := hBy
  refine ⟨rfl, rfl, ?_, ?_, ?_, ?_, ?_, ?_⟩
  · intro lo1 hi1 h
    simp only [OrdKids] at h ⊢
    obtain ⟨h1, hx, h2, hy⟩ := h
    rw [keyOrd_succ] at hx hy
    refine ⟨by omega, ?_⟩
    rw [keyOrd_succ]
    exact ordKids_join _ xks xcs yks ycs lo1 k hi1 hx hy
  · simp [contents_succ]
  · intro x hx
    simp only [List.map_cons, List.map_nil, List.flatten_cons, List.flatten_nil, addrs_succ,
      List.map_append, List.flatten_append, List.mem_append, List.mem_cons, List.append_nil,
      List.not_mem_nil, or_false] at hx ⊢
    rcases hza with e | e <;> subst e <;> tauto
  · intro h
    simp only [List.map_cons, List.map_nil, List.flatten_cons, List.flatten_nil, addrs_succ,
      List.map_append, List.flatten_append, List.append_nil] at h ⊢
    have hs : (za :: ((xcs.map (BTree.addrs d)).flatten ++
        (ycs.map (BTree.addrs d)).flatten)).Subperm
        (xa :: (xcs.map (BTree.addrs d)).flatten ++ ya :: (ycs.map (BTree.addrs d)).flatten) := by
      rcases hza with e | e <;> subst e
      · apply List.Sublist.subperm
        simp
      · have hp : (za :: ((xcs.map (BTree.addrs d)).flatten ++
            (ycs.map (BTree.addrs d)).flatten)).Perm
            ((xcs.map (BTree.addrs d)).flatten ++ za :: (ycs.map (BTree.addrs d)).flatten) :=
          List.perm_middle.symm
        apply hp.subperm.trans
        apply List.Sublist.subperm
        simp
    obtain ⟨l0, hp0, hsub⟩ := hs
    exact hp0.nodup_iff.mp (List.Nodup.sublist hsub h)
  · cases xcs with
    | nil => simp at bx3
    | cons c0 t => rfl
  · intro c hc1
    simp only [List.mem_singleton] at hc1
    subst hc1
    rw [balN_succ]
    refine ⟨by simp; omega, by simp; omega, by simp; omega, ?_⟩
    intro c hc
    rw [List.mem_append] at hc
    rcases hc with hc | hc
    · exact bx4 c hc
    · exact by4 c hc


/-! ## The policy of `rebalance` and the tails of the merges -/

theorem bind_fst_true (m : Except Err ADS_set) :
    ((m >>= fun s => Except.ok (s, true)) >>= fun x => Except.ok x.1) = m := by
  cases m <;> rfl

theorem bind_ok_self {α : Type} (m : Except Err α) : (m >>= fun s => Except.ok s) = m := by
  cases m <;> rfl

theorem rebalance_sr0 (N : Nat)
    (mwl mwr : ADS_set → Nat → Nat → Nat → Option Nat × Nat → Except Err (ADS_set × Bool))
    (s s1 : ADS_set) (node a key : Nat) (tw : Option Nat × Nat)
    (hp : (s.heap node).parent = some a)
    (h : ADS_set.steal_from_right N s node 0 tw = .ok (s1, true)) :
    ADS_set.rebalance N mwl mwr s node 0 key tw = .ok s1 := by
  unfold ADS_set.rebalance
  simp [hp, deref, h]

theorem rebalance_mr0 (N : Nat)
    (mwl mwr : ADS_set → Nat → Nat → Nat → Option Nat × Nat → Except Err (ADS_set × Bool))
    (s : ADS_set) (node a key : Nat) (tw : Option Nat × Nat)
    (hp : (s.heap node).parent = some a)
    (h : ADS_set.steal_from_right N s node 0 tw = .ok (s, false)) :
    ADS_set.rebalance N mwl mwr s node 0 key tw =
      (mwr s node 0 key tw >>= fun x => .ok x.1) := by
  unfold ADS_set.rebalance
  simp [hp, deref, h]

theorem rebalance_sl (N : Nat)
    (mwl mwr : ADS_set → Nat → Nat → Nat → Option Nat × Nat → Except Err (ADS_set × Bool))
    (s s1 : ADS_set) (node a i key : Nat) (tw : Option Nat × Nat)
    (hp : (s.heap node).parent = some a) (hi : i ≠ 0)
    (h : ADS_set.steal_from_left N s node i tw = .ok (s1, true)) :
    ADS_set.rebalance N mwl mwr s node i key tw = .ok s1 := by
  unfold ADS_set.rebalance
  by_cases hm : i = (s.heap a).children_counter - 1
  · simp [hp, deref, h, hi, ← hm]
  · simp [hp, deref, h, hi, hm]

theorem rebalance_sr_mid (N : Nat)
    (mwl mwr : ADS_set → Nat → Nat → Nat → Option Nat × Nat → Except Err (ADS_set × Bool))
    (s s1 : ADS_set) (node a i key : Nat) (tw : Option Nat × Nat)
    (hp : (s.heap node).parent = some a) (hi : i ≠ 0)
    (hm : i ≠ (s.heap a).children_counter - 1)
    (h : ADS_set.steal_from_left N s node i tw = .ok (s, false))
    (h2 : ADS_set.steal_from_right N s node i tw = .ok (s1, true)) :
    ADS_set.rebalance N mwl mwr s node i key tw = .ok s1 := by
  unfold ADS_set.rebalance
  simp [hp, deref, h, h2, hi, hm]

theorem rebalance_ml (N : Nat)
    (mwl mwr : ADS_set → Nat → Nat → Nat → Option Nat × Nat → Except Err (ADS_set × Bool))
    (s : ADS_set) (node a i key : Nat) (tw : Option Nat × Nat)
    (hp : (s.heap node).parent = some a) (hi : i ≠ 0)
    (h : ADS_set.steal_from_left N s node i tw = .ok (s, false))
    (h2 : i = (s.heap a).children_counter - 1 ∨
      ADS_set.steal_from_right N s node i tw = .ok (s, false)) :
    ADS_set.rebalance N mwl mwr s node i key tw =
      (mwl s node i key tw >>= fun x => .ok x.1) := by
  unfold ADS_set.rebalance
  by_cases hm : i = (s.heap a).children_counter - 1
  · simp [hp, deref, h, hi, ← hm]
  · rcases h2 with h2 | h2
    · exact absurd h2 hm
    · simp [hp, deref, h, h2, hi, hm]

theorem merge_tail_pending (N f d : Nat) (s1 : ADS_set) (a key : Nat) (tw : Option Nat × Nat)
    (f1 : Nat) (hf : f - (d + 1) = f1) :
    (ADS_set.merge_tail N (fun s1 c i k t => ADS_set.merge_with_left N f1 s1 c i k t)
        (fun s1 c i k t => ADS_set.merge_with_right N f1 s1 c i k t) s1 a key tw >>=
        fun x => .ok x.1) =
      if (s1.heap a).keys_counter < N ∧ a ≠ s1.root then
        ADS_set.pending_rebalance N f (d + 1) s1 a key tw
      else .ok s1 := by
  unfold ADS_set.merge_tail
  split_ifs with hc
  · unfold ADS_set.pending_rebalance
    rw [hf]
    cases ADS_set.index_from_parent N s1 a with
    | error e => rfl
    | ok idx =>
      simp only [ok_bind]
      exact bind_fst_true _
  · rfl

theorem merge_left_pending (N f d : Nat) (s s1 : ADS_set) (c a i key : Nat)
    (tw : Option Nat × Nat) (lc : Option Nat) (hf : d + 1 ≤ f)
    (hp : (s.heap c).parent = some a) (hi : i ≠ 0)
    (hc : (s.heap a).children (i - 1) = lc) (hi2 : i - 1 < 2 * N + 2)
    (hnr : ¬ (a = s.root ∧ (s.heap a).keys_counter = 1))
    (hbody : ADS_set.merge_with_left_body N s c i key tw a lc = .ok s1) :
    (ADS_set.merge_with_left N (f - d) s c i key tw >>= fun x => .ok x.1) =
      if (s1.heap a).keys_counter < N ∧ a ≠ s1.root then
        ADS_set.pending_rebalance N f (d + 1) s1 a key tw
      else .ok s1 := by
  obtain ⟨f1, hf1⟩ : ∃ f1, f - d = f1 + 1 := ⟨f - d - 1, by omega⟩
  rw [hf1]
  unfold ADS_set.merge_with_left
  simp only [hp, deref, ok_bind, if_neg hi, getChild_ok N _ hi2, hc, if_neg hnr, hbody]
  exact merge_tail_pending N f d s1 a key tw f1 (by omega)

theorem merge_right_pending (N f d : Nat) (s s1 : ADS_set) (c a i key : Nat)
    (tw tw1 : Option Nat × Nat) (rc : Option Nat) (hf : d + 1 ≤ f)
    (hp : (s.heap c).parent = some a)
    (hc : (s.heap a).children (i + 1) = rc) (hi2 : i + 1 < 2 * N + 2)
    (hnr : ¬ (a = s.root ∧ (s.heap a).keys_counter = 1))
    (hbody : ADS_set.merge_with_right_body N s c i tw a rc = .ok (s1, tw1)) :
    (ADS_set.merge_with_right N (f - d) s c i key tw >>= fun x => .ok x.1) =
      if (s1.heap a).keys_counter < N ∧ a ≠ s1.root then
        ADS_set.pending_rebalance N f (d + 1) s1 a key tw1
      else .ok s1 := by
  obtain ⟨f1, hf1⟩ : ∃ f1, f - d = f1 + 1 := ⟨f - d - 1, by omega⟩
  rw [hf1]
  unfold ADS_set.merge_with_right
  simp only [hp, deref, ok_bind, getChild_ok N _ hi2, hc, if_neg hnr, hbody]
  exact merge_tail_pending N f d s1 a key tw1 f1 (by omega)

theorem merge_left_root (N f d : Nat) (s : ADS_set) (c a i key : Nat)
    (tw : Option Nat × Nat) (hf : d + 1 ≤ f)
    (hp : (s.heap c).parent = some a) (hi : i ≠ 0) (hi2 : i - 1 < 2 * N + 2)
    (hr : a = s.root ∧ (s.heap a).keys_counter = 1) :
    (ADS_set.merge_with_left N (f - d) s c i key tw >>= fun x => .ok x.1) =
      ADS_set.merge_root N s := by
  obtain ⟨f1, hf1⟩ : ∃ f1, f - d = f1 + 1 := ⟨f - d - 1, by omega⟩
  rw [hf1]
  unfold ADS_set.merge_with_left
  simp only [hp, deref, ok_bind, if_neg hi, getChild_ok N _ hi2, if_pos hr]
  exact bind_fst_true _

theorem merge_right_root (N f d : Nat) (s : ADS_set) (c a i key : Nat)
    (tw : Option Nat × Nat) (hf : d + 1 ≤ f)
    (hp : (s.heap c).parent = some a) (hi2 : i + 1 < 2 * N + 2)
    (hr : a = s.root ∧ (s.heap a).keys_counter = 1) :
    (ADS_set.merge_with_right N (f - d) s c i key tw >>= fun x => .ok x.1) =
      ADS_set.merge_root N s := by
  obtain ⟨f1, hf1⟩ : ∃ f1, f - d = f1 + 1 := ⟨f - d - 1, by omega⟩
  rw [hf1]
  unfold ADS_set.merge_with_right
  simp only [hp, deref, ok_bind, getChild_ok N _ hi2, if_pos hr]
  exact bind_fst_true _


/-! ## One row under the rebalancing policy -/

theorem treeAt_kc (h : Nat → Node) :
    ∀ (d : Nat) (t : BTree d) (par nx : Option Nat), TreeAt h d par nx t →
      (h (BTree.addr d t)).keys_counter = (BTree.keys d t).length
  | 0, _, _, _, ht => ht.2.1.1
  | _ + 1, _, _, _, ht => ht.1.2.1.1

theorem balN_keys (N mn mx : Nat) :
    ∀ (d : Nat) (t : BTree d), BalN N mn mx d t →
      mn ≤ (BTree.keys d t).length ∧ (BTree.keys d t).length ≤ mx
  | 0, _, hb => hb
  | _ + 1, _, hb => ⟨hb.1, hb.2.1⟩

theorem balN_mono (N mn mx mn1 mx1 : Nat) (h1 : mn1 ≤ mn) (h2 : mx ≤ mx1) :
    ∀ (d : Nat) (t : BTree d), BalN N mn mx d t → BalN N mn1 mx1 d t
  | 0, _, hb => ⟨le_trans h1 hb.1, le_trans hb.2 h2⟩
  | _ + 1, _, hb => ⟨le_trans h1 hb.1, le_trans hb.2.1 h2, hb.2.2⟩

theorem balN_of_keys (N mn mx mn1 mx1 : Nat) :
    ∀ (d : Nat) (t : BTree d), BalN N mn mx d t → mn1 ≤ (BTree.keys d t).length →
      (BTree.keys d t).length ≤ mx1 → BalN N mn1 mx1 d t
  | 0, _, _, h1, h2 => ⟨h1, h2⟩
  | _ + 1, _, hb, h1, h2 => ⟨h1, h2, hb.2.2⟩

theorem kids_mem (h : Nat → Node) (d : Nat) (par : Option Nat) :
    ∀ (cs : List (BTree d)) (nx : Option Nat),
      KidsAt (fun n c => TreeAt h d par n c) (BTree.firstLeaf d) cs nx →
      ∀ c ∈ cs, ∃ n, TreeAt h d par n c
  | [], _, _, c, hc => by simp at hc
  | c0 :: cs, nx, hk, c, hc => by
    rcases List.mem_cons.mp hc with e | e
    · subst e
      exact ⟨_, hk.1⟩
    · exact kids_mem h d par cs nx hk.2 c e

theorem split_len {α : Type} : ∀ (ks : List α) (n m : Nat), ks.length = n + 1 + m →
    ∃ ksl k ksr, ks = ksl ++ ([k] ++ ksr) ∧ ksl.length = n ∧ ksr.length = m := by
  intro ks n m h
  have hn : n < ks.length := by omega
  refine ⟨ks.take n, ks[n], ks.drop (n + 1), ?_, ?_, ?_⟩
  · have := list_split_at ks n hn
    rw [List.append_assoc] at this
    exact this
  · simp; omega
  · simp; omega

/-- What the heap says about two neighbouring children of a row. -/
theorem pair_facts (N dd : Nat) (h : Nat → Node) (a : Nat) (ks : List Nat)
    (l r : List (BTree dd)) (x y : BTree dd) (par nx : Option Nat)
    (hT : TreeAt h (dd + 1) par nx (a, ks, l ++ ([x, y] ++ r)))
    (hnd : (BTree.addrs (dd + 1) (a, ks, l ++ ([x, y] ++ r))).Nodup)
    (hcap : l.length + 2 + r.length ≤ 2 * N + 1) :
    (h (BTree.addr dd x)).parent = some a ∧ (h (BTree.addr dd y)).parent = some a ∧
      (h a).children_counter = l.length + 2 + r.length ∧ (h a).keys_counter = ks.length ∧
      (h a).children l.length = some (BTree.addr dd x) ∧
      (h a).children (l.length + 1) = some (BTree.addr dd y) ∧
      (h (BTree.addr dd x)).keys_counter = (BTree.keys dd x).length ∧
      (h (BTree.addr dd y)).keys_counter = (BTree.keys dd y).length ∧
      Node.child_index_loop N (h a) (BTree.addr dd x) (h a).children_counter 0 =
        .ok (some l.length) ∧
      Node.child_index_loop N (h a) (BTree.addr dd y) (h a).children_counter 0 =
        .ok (some (l.length + 1)) := by
  have hT1 := hT
  rw [treeAt_succ] at hT1
  obtain ⟨hNA, hK⟩ := hT1
  obtain ⟨f1, f2, f3, f4, f5, _, _, _⟩ := row_facts2 N dd h a ks l r x y par hNA hnd hcap
  have hx : x ∈ l ++ ([x, y] ++ r) := by simp
  have hy : y ∈ l ++ ([x, y] ++ r) := by simp
  obtain ⟨n1, hx1⟩ := kids_mem h dd (some a) _ nx hK x hx
  obtain ⟨n2, hy1⟩ := kids_mem h dd (some a) _ nx hK y hy
  refine ⟨treeAt_parent h dd x _ _ hx1, treeAt_parent h dd y _ _ hy1, f1, hNA.2.1.1, f2, f3,
    treeAt_kc h dd x _ _ hx1, treeAt_kc h dd y _ _ hy1, f4 _ _ rfl f1, f5 _ _ rfl f1⟩

/-- The policy for a first child: it steals from its right sibling or merges with it. -/
theorem rebalance_row_first (N dd f : Nat) (hN : 0 < N) (s : ADS_set) (key : Nat)
    (tw tw0 : Option Nat × Nat) (a : Nat)
    (hSR : StealRightOK N dd s a tw tw0) (hMR : MergeRightOK N dd s a tw tw0)
    (k : Nat) (ksr : List Nat) (r : List (BTree dd)) (x y : BTree dd)
    (par nx : Option Nat) (lo hi : Nat)
    (hT : TreeAt s.heap (dd + 1) par nx (a, [] ++ ([k] ++ ksr), [] ++ ([x, y] ++ r)))
    (hO : KeyOrd (dd + 1) lo hi (a, [] ++ ([k] ++ ksr), [] ++ ([x, y] ++ r)))
    (hkr : ksr.length = r.length) (hcap : ([] ++ ([k] ++ ksr)).length ≤ 2 * N)
    (hBx : BalN N (N - 1) (N - 1) dd x) (hBy : BalN N N (2 * N) dd y)
    (hB : ∀ z ∈ r, BalN N N (2 * N) dd z)
    (hnd : (BTree.addrs (dd + 1) (a, [] ++ ([k] ++ ksr), [] ++ ([x, y] ++ r))).Nodup)
    (hrx : BTree.addr dd x ≠ s.root) (hry : BTree.addr dd y ≠ s.root)
    (hmin : a ≠ s.root → N ≤ ([] ++ ([k] ++ ksr)).length)
    (htw : dd = 0 → TwinPend N tw a 0 (r.length + 1)
      (BTree.addrs (dd + 1) (a, [] ++ ([k] ++ ksr), [] ++ ([x, y] ++ r))))
    (hf : dd + 1 ≤ f) :
    (∃ s2 ks1 cs1 tw1,
      ADS_set.pending_rebalance N f dd s (BTree.addr dd x) key tw =
        (if ks1.length < N ∧ a ≠ s.root then ADS_set.pending_rebalance N f (dd + 1) s2 a key tw1
         else .ok s2) ∧
      Post s s2 (dd + 1) (a, [] ++ ([k] ++ ksr), [] ++ ([x, y] ++ r)) (a, ks1, cs1) par nx lo hi
        tw0 (BTree.contents (dd + 1) (a, [] ++ ([k] ++ ksr), [] ++ ([x, y] ++ r)))
        s.element_counter ∧
      BalN N (([] ++ ([k] ++ ksr)).length - 1) (2 * N) (dd + 1) (a, ks1, cs1) ∧
      (a = s.root → 1 ≤ ks1.length)) ∨
    (a = s.root ∧ ([] ++ ([k] ++ ksr)).length = 1 ∧
      ADS_set.pending_rebalance N f dd s (BTree.addr dd x) key tw = ADS_set.merge_root N s ∧
      BalN N N N dd y) := by
  have hcap2 : ([] : List (BTree dd)).length + 2 + r.length ≤ 2 * N + 1 := by
    simp at hcap ⊢; omega
  obtain ⟨px, py, hcc, hkc, hcx, hcy, kx, ky, ix, iy⟩ :=
    pair_facts N dd s.heap a _ [] r x y par nx hT hnd hcap2
  have hidx : ADS_set.index_from_parent N s (BTree.addr dd x) = .ok 0 :=
    index_from_parent_eq N s _ a 0 px hrx ix
  have hnx := balN_keys N _ _ dd x hBx
  have hny := balN_keys N _ _ dd y hBy
  have hpe : ADS_set.pending_rebalance N f dd s (BTree.addr dd x) key tw =
      ADS_set.rebalance N (ADS_set.merge_with_left N (f - dd)) (ADS_set.merge_with_right N (f - dd))
        s (BTree.addr dd x) 0 key tw := by
    unfold ADS_set.pending_rebalance
    rw [hidx]
    rfl
  by_cases hy : N + 1 ≤ (BTree.keys dd y).length
  · obtain ⟨s2, ks1, cs1, hs, hP, hB2⟩ := hSR [] ksr k [] r x y par nx lo hi hT hO rfl hkr hcap
      hBx (balN_of_keys N _ _ _ _ dd y hBy hy hny.2) (by simpa using hB) hnd hrx hry htw
    left
    refine ⟨s2, ks1, cs1, tw, ?_, hP, balN_mono N _ _ _ _ (by omega) (le_refl _) _ _ hB2,
      fun _ => le_trans (by simp only [List.length_append, List.length_singleton]; omega) hB2.1⟩
    rw [hpe, rebalance_sr0 N _ _ s s2 _ a key tw px hs, if_neg]
    intro hc
    have h1 := hmin hc.2
    have h2 : ([] ++ ([k] ++ ksr)).length ≤ ks1.length := hB2.1
    omega
  · have hfail : ADS_set.steal_from_right N s (BTree.addr dd x) 0 tw = .ok (s, false) :=
      steal_from_right_fail N s _ a _ 0 tw px hcy (by omega) (by omega)
    rw [rebalance_mr0 N _ _ s _ a key tw px hfail] at hpe
    by_cases hr : a = s.root ∧ (s.heap a).keys_counter = 1
    · right
      refine ⟨hr.1, by rw [← hkc]; exact hr.2, ?_, balN_of_keys N _ _ _ _ dd y hBy hny.1 (by omega)⟩
      rw [hpe]
      exact merge_right_root N f dd s _ a 0 key tw hf px (by omega) hr
    · obtain ⟨s2, ks1, cs1, tw1, hs, hP, hB2⟩ := hMR ksr k r x y par nx lo hi hT hO hkr hcap
        hBx (balN_of_keys N _ _ _ _ dd y hBy hny.1 (by omega)) hB hnd hrx hry htw
      left
      have hk1 : a = s.root → 1 ≤ ks1.length := by
        intro ha
        have h2 : ([k] ++ ksr).length - 1 ≤ ks1.length := hB2.1
        have h3 : (s.heap a).keys_counter ≠ 1 := fun e => hr ⟨ha, e⟩
        rw [hkc] at h3
        simp only [List.length_append, List.length_singleton, List.nil_append,
          List.length_nil] at h2 h3
        omega
      refine ⟨s2, ks1, cs1, tw1, ?_, hP, hB2, hk1⟩
      rw [hpe, merge_right_pending N f dd s s2 _ a 0 key tw tw1 _ hf px hcy (by omega) hr hs]
      have e1 := treeAt_kc s2.heap (dd + 1) (a, ks1, cs1) par nx hP.tree
      have e2 := hP.root_eq
      simp only [BTree.addr, BTree.keys] at e1
      rw [e1, e2]

/-- The policy for a child that has a left sibling: it steals from the left sibling, else
(when it has a right sibling) from the right one, else it merges with the left sibling. -/
theorem rebalance_row_left (N dd f : Nat) (hN : 0 < N) (s : ADS_set) (key : Nat)
    (tw tw0 : Option Nat × Nat) (a : Nat)
    (hSL : StealLeftOK N dd s a tw tw0) (hML : MergeLeftOK N dd s a key tw tw0)
    (ksl : List Nat) (k : Nat) (ksr : List Nat) (l r : List (BTree dd))
    (w x : BTree dd) (par nx : Option Nat) (lo hi : Nat)
    (hT : TreeAt s.heap (dd + 1) par nx (a, ksl ++ ([k] ++ ksr), l ++ ([w, x] ++ r)))
    (hO : KeyOrd (dd + 1) lo hi (a, ksl ++ ([k] ++ ksr), l ++ ([w, x] ++ r)))
    (hkl : ksl.length = l.length) (hkr : ksr.length = r.length)
    (hcap : (ksl ++ ([k] ++ ksr)).length ≤ 2 * N)
    (hBw : BalN N N (2 * N) dd w) (hBx : BalN N (N - 1) (N - 1) dd x)
    (hB : ∀ z ∈ l ++ r, BalN N N (2 * N) dd z)
    (hnd : (BTree.addrs (dd + 1) (a, ksl ++ ([k] ++ ksr), l ++ ([w, x] ++ r))).Nodup)
    (hrw : BTree.addr dd w ≠ s.root) (hrx : BTree.addr dd x ≠ s.root)
    (hmin : a ≠ s.root → N ≤ (ksl ++ ([k] ++ ksr)).length)
    (htw : dd = 0 → TwinPend N tw a (l.length + 1) r.length
      (BTree.addrs (dd + 1) (a, ksl ++ ([k] ++ ksr), l ++ ([w, x] ++ r))))
    (hf : dd + 1 ≤ f)
    (hR : r = [] ∨
      ADS_set.steal_from_right N s (BTree.addr dd x) (l.length + 1) tw = .ok (s, false) ∨
      (r ≠ [] ∧ ∃ s2 ks1 cs1,
        ADS_set.steal_from_right N s (BTree.addr dd x) (l.length + 1) tw = .ok (s2, true) ∧
        Post s s2 (dd + 1) (a, ksl ++ ([k] ++ ksr), l ++ ([w, x] ++ r)) (a, ks1, cs1) par nx
          lo hi tw0 (BTree.contents (dd + 1) (a, ksl ++ ([k] ++ ksr), l ++ ([w, x] ++ r)))
          s.element_counter ∧
        BalN N (ksl ++ ([k] ++ ksr)).length (2 * N) (dd + 1) (a, ks1, cs1))) :
    (∃ s2 ks1 cs1 tw1,
      ADS_set.pending_rebalance N f dd s (BTree.addr dd x) key tw =
        (if ks1.length < N ∧ a ≠ s.root then ADS_set.pending_rebalance N f (dd + 1) s2 a key tw1
         else .ok s2) ∧
      Post s s2 (dd + 1) (a, ksl ++ ([k] ++ ksr), l ++ ([w, x] ++ r)) (a, ks1, cs1) par nx lo hi
        tw0 (BTree.contents (dd + 1) (a, ksl ++ ([k] ++ ksr), l ++ ([w, x] ++ r)))
        s.element_counter ∧
      BalN N ((ksl ++ ([k] ++ ksr)).length - 1) (2 * N) (dd + 1) (a, ks1, cs1) ∧
      (a = s.root → 1 ≤ ks1.length)) ∨
    (a = s.root ∧ (ksl ++ ([k] ++ ksr)).length = 1 ∧
      ADS_set.pending_rebalance N f dd s (BTree.addr dd x) key tw = ADS_set.merge_root N s ∧
      BalN N N N dd w) := by
  have hcap2 : l.length + 2 + r.length ≤ 2 * N + 1 := by
    simp at hcap; omega
  obtain ⟨pw, px, hcc, hkc, hcw, hcx, kw, kx, iw, ix⟩ :=
    pair_facts N dd s.heap a _ l r w x par nx hT hnd hcap2
  have hidx : ADS_set.index_from_parent N s (BTree.addr dd x) = .ok (l.length + 1) :=
    index_from_parent_eq N s _ a _ px hrx ix
  have hnx := balN_keys N _ _ dd x hBx
  have hnw := balN_keys N _ _ dd w hBw
  have hi0 : l.length + 1 ≠ 0 := by omega
  have hpe : ADS_set.pending_rebalance N f dd s (BTree.addr dd x) key tw =
      ADS_set.rebalance N (ADS_set.merge_with_left N (f - dd)) (ADS_set.merge_with_right N (f - dd))
        s (BTree.addr dd x) (l.length + 1) key tw := by
    unfold ADS_set.pending_rebalance
    rw [hidx]
    rfl
  have settle : ∀ (s2 : ADS_set) (ks1 : List Nat) (cs1 : List (BTree dd)),
      BalN N (ksl ++ ([k] ++ ksr)).length (2 * N) (dd + 1) (a, ks1, cs1) →
      ¬ (ks1.length < N ∧ a ≠ s.root) := by
    intro s2 ks1 cs1 hB2 hc
    have h1 := hmin hc.2
    have h2 : (ksl ++ ([k] ++ ksr)).length ≤ ks1.length := hB2.1
    omega
  by_cases hw : N + 1 ≤ (BTree.keys dd w).length
  · obtain ⟨s2, ks1, cs1, hs, hP, hB2⟩ := hSL ksl ksr k l r w x par nx lo hi hT hO hkl hkr hcap
      (balN_of_keys N _ _ _ _ dd w hBw hw hnw.2) hBx hB hnd hrw hrx htw
    left
    refine ⟨s2, ks1, cs1, tw, ?_, hP, balN_mono N _ _ _ _ (by omega) (le_refl _) _ _ hB2,
      fun _ => le_trans (by simp only [List.length_append, List.length_singleton]; omega) hB2.1⟩
    rw [hpe, rebalance_sl N _ _ s s2 _ a _ key tw px hi0 hs, if_neg (settle s2 ks1 cs1 hB2)]
  · have hfail : ADS_set.steal_from_left N s (BTree.addr dd x) (l.length + 1) tw = .ok (s, false) :=
      steal_from_left_fail N s _ a _ _ tw px hi0 (by simpa using hcw) (by simp; omega) (by omega)
    have merge : (r = [] ∨
        ADS_set.steal_from_right N s (BTree.addr dd x) (l.length + 1) tw = .ok (s, false)) →
        ((∃ s2 ks1 cs1 tw1,
          ADS_set.pending_rebalance N f dd s (BTree.addr dd x) key tw =
            (if ks1.length < N ∧ a ≠ s.root then
              ADS_set.pending_rebalance N f (dd + 1) s2 a key tw1
             else .ok s2) ∧
          Post s s2 (dd + 1) (a, ksl ++ ([k] ++ ksr), l ++ ([w, x] ++ r)) (a, ks1, cs1) par nx
            lo hi tw0 (BTree.contents (dd + 1) (a, ksl ++ ([k] ++ ksr), l ++ ([w, x] ++ r)))
            s.element_counter ∧
          BalN N ((ksl ++ ([k] ++ ksr)).length - 1) (2 * N) (dd + 1) (a, ks1, cs1) ∧
      (a = s.root → 1 ≤ ks1.length)) ∨
        (a = s.root ∧ (ksl ++ ([k] ++ ksr)).length = 1 ∧
          ADS_set.pending_rebalance N f dd s (BTree.addr dd x) key tw = ADS_set.merge_root N s ∧
          BalN N N N dd w)) := by
      intro h2
      have h2a : l.length + 1 = (s.heap a).children_counter - 1 ∨
          ADS_set.steal_from_right N s (BTree.addr dd x) (l.length + 1) tw = .ok (s, false) := by
        rcases h2 with h2 | h2
        · left
          rw [hcc, h2]
          simp
        · exact Or.inr h2
      rw [rebalance_ml N _ _ s _ a _ key tw px hi0 hfail h2a] at hpe
      by_cases hr : a = s.root ∧ (s.heap a).keys_counter = 1
      · right
        refine ⟨hr.1, by rw [← hkc]; exact hr.2, ?_,
          balN_of_keys N _ _ _ _ dd w hBw hnw.1 (by omega)⟩
        rw [hpe]
        exact merge_left_root N f dd s _ a _ key tw hf px hi0 (by simp; omega) hr
      · obtain ⟨s2, ks1, cs1, hs, hP, hB2⟩ := hML ksl ksr k l r w x par nx lo hi hT hO hkl hkr
          hcap (balN_of_keys N _ _ _ _ dd w hBw hnw.1 (by omega)) hBx hB hnd hrw hrx htw
        left
        have hk1 : a = s.root → 1 ≤ ks1.length := by
          intro ha
          have h2 : (ksl ++ ([k] ++ ksr)).length - 1 ≤ ks1.length := hB2.1
          have h3 : (s.heap a).keys_counter ≠ 1 := fun e => hr ⟨ha, e⟩
          rw [hkc] at h3
          simp only [List.length_append, List.length_singleton] at h2 h3
          omega
        refine ⟨s2, ks1, cs1, tw, ?_, hP, hB2, hk1⟩
        rw [hpe, merge_left_pending N f dd s s2 _ a _ key tw _ hf px hi0 (by simpa using hcw)
          (by simp; omega) hr hs]
        have e1 := treeAt_kc s2.heap (dd + 1) (a, ks1, cs1) par nx hP.tree
        have e2 := hP.root_eq
        simp only [BTree.addr, BTree.keys] at e1
        rw [e1, e2]
    rcases hR with h | h | ⟨hne, s2, ks1, cs1, hs, hP, hB2⟩
    · exact merge (Or.inl h)
    · exact merge (Or.inr h)
    · left
      refine ⟨s2, ks1, cs1, tw, ?_, hP, balN_mono N _ _ _ _ (by omega) (le_refl _) _ _ hB2,
      fun _ => le_trans (by simp only [List.length_append, List.length_singleton]; omega) hB2.1⟩
      have hm : l.length + 1 ≠ (s.heap a).children_counter - 1 := by
        rw [hcc]
        cases r with
        | nil => exact absurd rfl hne
        | cons y r1 => simp only [List.length_cons]; omega
      rw [hpe, rebalance_sr_mid N _ _ s s2 _ a _ key tw px hi0 hm hfail hs,
        if_neg (settle s2 ks1 cs1 hB2)]

/-- The three-way policy applied to the one child of a row that holds `N - 1` keys: either
the row is well formed again afterwards, with as many separators or one less (and then
the policy goes on at the row's node when that is too small now), or the row is the root
with a single separator and the two children are merged into the root. -/
theorem rebalance_row (N dd f : Nat) (hN : 0 < N) (s : ADS_set) (key : Nat)
    (tw tw0 : Option Nat × Nat) (a : Nat)
    (hSR : StealRightOK N dd s a tw tw0) (hSL : StealLeftOK N dd s a tw tw0)
    (hML : MergeLeftOK N dd s a key tw tw0) (hMR : MergeRightOK N dd s a tw tw0)
    (ks : List Nat) (l r : List (BTree dd)) (x : BTree dd)
    (par nx : Option Nat) (lo hi : Nat)
    (hT : TreeAt s.heap (dd + 1) par nx (a, ks, l ++ ([x] ++ r)))
    (hO : KeyOrd (dd + 1) lo hi (a, ks, l ++ ([x] ++ r)))
    (hlen : ks.length = l.length + r.length) (h1 : 1 ≤ ks.length) (hcap : ks.length ≤ 2 * N)
    (hBx : BalN N (N - 1) (N - 1) dd x) (hB : ∀ z ∈ l ++ r, BalN N N (2 * N) dd z)
    (hnd : (BTree.addrs (dd + 1) (a, ks, l ++ ([x] ++ r))).Nodup)
    (hroot : ∀ z ∈ l ++ ([x] ++ r), BTree.addr dd z ≠ s.root)
    (hmin : a ≠ s.root → N ≤ ks.length)
    (htw : dd = 0 →
      TwinPend N tw a l.length r.length (BTree.addrs (dd + 1) (a, ks, l ++ ([x] ++ r))))
    (hf : dd + 1 ≤ f) :
    (∃ s2 ks1 cs1 tw1,
      ADS_set.pending_rebalance N f dd s (BTree.addr dd x) key tw =
        (if ks1.length < N ∧ a ≠ s.root then ADS_set.pending_rebalance N f (dd + 1) s2 a key tw1
         else .ok s2) ∧
      Post s s2 (dd + 1) (a, ks, l ++ ([x] ++ r)) (a, ks1, cs1) par nx lo hi tw0
        (BTree.contents (dd + 1) (a, ks, l ++ ([x] ++ r))) s.element_counter ∧
      BalN N (ks.length - 1) (2 * N) (dd + 1) (a, ks1, cs1) ∧
      (a = s.root → 1 ≤ ks1.length)) ∨
    (a = s.root ∧ ks.length = 1 ∧
      ADS_set.pending_rebalance N f dd s (BTree.addr dd x) key tw = ADS_set.merge_root N s ∧
      ∀ z ∈ l ++ r, BalN N N N dd z) := by
  rcases List.eq_nil_or_concat l with hl | ⟨l1, w, hl⟩
  · subst hl
    cases r with
    | nil => simp only [List.length_nil] at hlen; omega
    | cons y r1 =>
      obtain ⟨ksl, k, ksr, hks, hl0, hr0⟩ := split_len ks 0 r1.length
        (by simp only [List.length_nil, List.length_cons] at hlen; omega)
      have hnil : ksl = [] := List.length_eq_zero.mp hl0
      subst hnil
      subst hks
      rcases rebalance_row_first N dd f hN s key tw tw0 a hSR hMR k ksr r1 x y par nx lo hi hT hO
        hr0 hcap hBx (hB y (by simp)) (fun z hz => hB z (by simp [hz])) hnd
        (hroot x (by simp)) (hroot y (by simp)) hmin htw hf with h | ⟨g1, g2, g3, g4⟩
      · exact Or.inl h
      · right
        refine ⟨g1, g2, g3, ?_⟩
        have hr1 : r1 = [] := by
          apply List.length_eq_zero.mp
          simp only [List.nil_append, List.length_append, List.length_singleton,
            List.length_cons, List.length_nil] at g2
          omega
        subst hr1
        intro z hz
        simp at hz
        subst hz
        exact g4
  · rw [List.concat_eq_append] at hl
    subst hl
    obtain ⟨ksl, k, ksr, hks, hl0, hr0⟩ := split_len ks l1.length r.length
      (by simp only [List.length_append, List.length_singleton] at hlen; omega)
    subst hks
    have e : (l1 ++ [w]) ++ ([x] ++ r) = l1 ++ ([w, x] ++ r) := by simp
    simp only [List.length_append, List.length_singleton] at htw
    have hBw : BalN N N (2 * N) dd w := hB w (by simp)
    have hrw : BTree.addr dd w ≠ s.root := hroot w (by simp)
    have hrx : BTree.addr dd x ≠ s.root := hroot x (by simp)
    have hB1 : ∀ z ∈ l1 ++ r, BalN N N (2 * N) dd z := by
      intro z hz
      apply hB z
      simp at hz ⊢
      tauto
    rw [e] at hT hO hnd htw ⊢
    have hR : r = [] ∨
      ADS_set.steal_from_right N s (BTree.addr dd x) (l1.length + 1) tw = .ok (s, false) ∨
      (r ≠ [] ∧ ∃ s2 ks1 cs1,
        ADS_set.steal_from_right N s (BTree.addr dd x) (l1.length + 1) tw = .ok (s2, true) ∧
        Post s s2 (dd + 1) (a, ksl ++ ([k] ++ ksr), l1 ++ ([w, x] ++ r)) (a, ks1, cs1) par nx
          lo hi tw0 (BTree.contents (dd + 1) (a, ksl ++ ([k] ++ ksr), l1 ++ ([w, x] ++ r)))
          s.element_counter ∧
        BalN N (ksl ++ ([k] ++ ksr)).length (2 * N) (dd + 1) (a, ks1, cs1)) := by
      cases r with
      | nil => exact Or.inl rfl
      | cons y r1 =>
        right
        obtain ⟨k2, ksr2, hk2⟩ : ∃ k2 ksr2, ksr = k2 :: ksr2 := by
          cases ksr with
          | nil => simp at hr0
          | cons k2 ksr2 => exact ⟨k2, ksr2, rfl⟩
        subst hk2
        have eB : ksl ++ ([k] ++ (k2 :: ksr2)) = (ksl ++ [k]) ++ ([k2] ++ ksr2) := by simp
        have eC : l1 ++ ([w, x] ++ (y :: r1)) = (l1 ++ [w]) ++ ([x, y] ++ r1) := by simp
        have hT2 := hT
        have hO2 := hO
        have hnd2 := hnd
        have htw2 := htw
        have hcapB := hcap
        rw [eB, eC] at hT2 hO2 hnd2 htw2
        rw [eB] at hcapB
        have hcap3 : (l1 ++ [w]).length + 2 + r1.length ≤ 2 * N + 1 := by
          simp at hcap hr0 ⊢; omega
        obtain ⟨px, py, hcc, hkc, hcx, hcy, kx, ky, ix, iy⟩ :=
          pair_facts N dd s.heap a _ (l1 ++ [w]) r1 x y par nx hT2 hnd2 hcap3
        have hlw : (l1 ++ [w]).length = l1.length + 1 := by simp
        rw [hlw] at hcy hcx
        have hBy : BalN N N (2 * N) dd y := hB y (by simp)
        have hnx := balN_keys N _ _ dd x hBx
        have hny := balN_keys N _ _ dd y hBy
        by_cases hy : N + 1 ≤ (BTree.keys dd y).length
        · right
          refine ⟨by simp, ?_⟩
          obtain ⟨s2, ks1, cs1, hs, hP, hB2⟩ := hSR (ksl ++ [k]) ksr2 k2 (l1 ++ [w]) r1 x y
            par nx lo hi hT2 hO2 (by simp; omega) (by simp at hr0; omega) hcapB
            hBx (balN_of_keys N _ _ _ _ dd y hBy hy hny.2)
            (by
              intro z hz
              apply hB z
              simp at hz ⊢
              tauto) hnd2 hrx (hroot y (by simp))
            (by rw [hlw]; exact htw2)
          rw [hlw] at hs
          rw [← eB, ← eC] at hP
          rw [← eB] at hB2
          exact ⟨s2, ks1, cs1, hs, hP, hB2⟩
        · left
          exact steal_from_right_fail N s _ a _ _ tw px hcy (by omega) (by omega)
    rcases rebalance_row_left N dd f hN s key tw tw0 a hSL hML ksl k ksr l1 r w x par nx lo hi
      hT hO hl0 hr0 hcap hBw hBx hB1 hnd hrw hrx hmin htw hf hR with h | ⟨g1, g2, g3, g4⟩
    · exact Or.inl h
    · right
      refine ⟨g1, g2, g3, ?_⟩
      have hl1 : l1 = [] := by
        apply List.length_eq_zero.mp
        simp only [List.nil_append, List.length_append, List.length_singleton,
          List.length_cons, List.length_nil] at g2
        omega
      have hr1 : r = [] := by
        apply List.length_eq_zero.mp
        simp only [List.nil_append, List.length_append, List.length_singleton,
          List.length_cons, List.length_nil] at g2
        omega
      subst hl1
      subst hr1
      intro z hz
      simp at hz
      subst hz
      exact g4


/-! ## The rebalancing steps on a row of internal nodes -/

theorem mem_row_mid (d : Nat) (a : Nat) (ks : List Nat) (l mid r : List (BTree d)) (q : Nat)
    (h : q ∈ (mid.map (BTree.addrs d)).flatten) :
    q ∈ BTree.addrs (d + 1) (a, ks, l ++ (mid ++ r)) := by
  rw [addrs_row]
  simp only [List.mem_cons, List.mem_append]
  exact Or.inr (Or.inr (Or.inl h))

theorem mem_row_self (d : Nat) (a : Nat) (ks : List Nat) (cs : List (BTree d)) :
    a ∈ BTree.addrs (d + 1) (a, ks, cs) := by
  rw [addrs_succ]
  exact List.mem_cons_self _ _

theorem mem_node_child (d : Nat) (a : Nat) (ks : List Nat) (cs : List (BTree d)) (c : BTree d)
    (hc : c ∈ cs) : BTree.addr d c ∈ BTree.addrs (d + 1) (a, ks, cs) :=
  addrs_child_subset d a ks cs c hc _ (addr_mem_addrs d c)

/-- A row whose segment was replaced is balanced when the rest of the row is. -/
theorem row_balN2 (N mn1 mx1 d : Nat) (a : Nat) (ks1 : List Nat) (l r mid1 : List (BTree d))
    (hlr : ∀ z ∈ l ++ r, BalN N N (2 * N) d z)
    (h1 : mn1 ≤ ks1.length) (h2 : ks1.length ≤ mx1)
    (h3 : (l ++ (mid1 ++ r)).length = ks1.length + 1)
    (h4 : ∀ c ∈ mid1, BalN N N (2 * N) d c) :
    BalN N mn1 mx1 (d + 1) (a, ks1, l ++ (mid1 ++ r)) := by
  rw [balN_succ]
  refine ⟨h1, h2, h3, ?_⟩
  intro c hc
  rcases List.mem_append.1 hc with e | e
  · exact hlr c (List.mem_append_left _ e)
  · rcases List.mem_append.1 e with e1 | e1
    · exact h4 c e1
    · exact hlr c (List.mem_append_right _ e1)

/-- The postcondition and the balance of a row after one of its segments was replaced
without a change outside the row. -/
theorem seg_finish (N d : Nat) (s s2 : ADS_set) (a : Nat) (ksl ksr mks mks1 : List Nat)
    (l r mid mid1 : List (BTree d)) (par nx : Option Nat) (lo hi : Nat)
    (hO : KeyOrd (d + 1) lo hi (a, ksl ++ (mks ++ ksr), l ++ (mid ++ r)))
    (hnd : (BTree.addrs (d + 1) (a, ksl ++ (mks ++ ksr), l ++ (mid ++ r))).Nodup)
    (hkl : ksl.length = l.length) (hkr : ksr.length = r.length)
    (hS : SegOK N d mks mks1 mid mid1)
    (hT2 : TreeAt s2.heap (d + 1) par nx (a, ksl ++ (mks1 ++ ksr), l ++ (mid1 ++ r)))
    (hfr : ∀ q, q ∉ BTree.addrs (d + 1) (a, ksl ++ (mks ++ ksr), l ++ (mid ++ r)) →
      s2.heap q = s.heap q)
    (hn : s2.nxt = s.nxt) (hr : s2.root = s.root) (hd : s2.depth = s.depth)
    (he : s2.element_counter = s.element_counter)
    (hlr : ∀ z ∈ l ++ r, BalN N N (2 * N) d z)
    (hcap : (ksl ++ (mks ++ ksr)).length ≤ 2 * N) (hle : mks1.length ≤ mks.length) :
    Post s s2 (d + 1) (a, ksl ++ (mks ++ ksr), l ++ (mid ++ r))
      (a, ksl ++ (mks1 ++ ksr), l ++ (mid1 ++ r)) par nx lo hi (none, 0)
      (BTree.contents (d + 1) (a, ksl ++ (mks ++ ksr), l ++ (mid ++ r))) s.element_counter ∧
    BalN N (ksl ++ (mks1 ++ ksr)).length (2 * N) (d + 1)
      (a, ksl ++ (mks1 ++ ksr), l ++ (mid1 ++ r)) := by
  refine ⟨seg_row N d s s2 a ksl ksr mks mks1 l r mid mid1 par nx lo hi hO hnd hkl hkr hS hT2
    hfr hn hr hd he, ?_⟩
  apply row_balN2 N _ _ d a _ l r mid1 hlr (le_refl _)
  · simp only [List.length_append] at hcap ⊢
    omega
  · have := hS.len1
    simp only [List.length_append]
    omega
  · exact hS.bal

theorem stealRightOK_int (N d : Nat) (hN : 0 < N) (s : ADS_set) (a : Nat)
    (tw : Option Nat × Nat) : StealRightOK N (d + 1) s a tw (none, 0) := by
  intro ksl ksr k l r x y par nx lo hi hT hO hkl hkr hcap hBx hBy hB hnd hrx hry _
  obtain ⟨xa, xks, xcs⟩ := x
  obtain ⟨ya, yks0, ycs0⟩ := y
  have hx1 : N - 1 ≤ xks.length := hBx.1
  have hx2 : xks.length ≤ N - 1 := hBx.2.1
  have hx3 : xcs.length = xks.length + 1 := hBx.2.2.1
  have hy1 : N + 1 ≤ yks0.length := hBy.1
  have hy2 : yks0.length ≤ 2 * N := hBy.2.1
  have hy3 : ycs0.length = yks0.length + 1 := hBy.2.2.1
  obtain ⟨yk0, yks, hyk⟩ : ∃ yk0 yks, yks0 = yk0 :: yks := by
    cases yks0 with
    | nil => simp at hy1
    | cons yk0 yks => exact ⟨yk0, yks, rfl⟩
  subst hyk
  obtain ⟨yc0, ycs, hyc⟩ : ∃ yc0 ycs, ycs0 = yc0 :: ycs := by
    cases ycs0 with
    | nil => simp at hy3
    | cons yc0 ycs => exact ⟨yc0, ycs, rfl⟩
  subst hyc
  simp only [List.length_cons] at hy1 hy2 hy3
  obtain ⟨s1, hs, hT1, hfr, hn, hr, hd, he⟩ := steal_right_int N d s a ksl ksr k l r xa ya xks
    yk0 yks xcs yc0 ycs par nx tw hT hkl hkr hcap hx3 (by omega) (by omega) (by omega)
    (by omega) hnd hrx hry
  have hS := segOK_int_sr N d hN k xa ya xks yk0 yks xcs yc0 ycs hBx hBy
  obtain ⟨hP, hB2⟩ := seg_finish N (d + 1) s s1 a ksl ksr [k] [yk0] l r _ _ par nx lo hi hO hnd
    hkl hkr hS hT1
    (by
      intro q hq
      apply hfr q
      · rintro rfl
        exact hq (mem_row_self _ _ _ _)
      · rintro rfl
        exact hq (mem_row_mid _ _ _ _ _ _ _ (by simp [addrs_succ]))
      · rintro rfl
        exact hq (mem_row_mid _ _ _ _ _ _ _ (by simp [addrs_succ]))
      · rintro rfl
        exact hq (mem_row_mid _ _ _ _ _ _ _ (by
          simp only [List.map_cons, List.map_nil, List.flatten_cons, List.flatten_nil,
            List.append_nil, List.mem_append]
          exact Or.inr (mem_node_child d ya _ _ yc0 (by simp))))) hn hr hd he hB hcap (le_refl _)
  refine ⟨s1, _, _, hs, hP, ?_⟩
  have e : (ksl ++ ([k] ++ ksr)).length = (ksl ++ ([yk0] ++ ksr)).length := by simp
  rw [e]
  exact hB2

theorem stealLeftOK_int (N d : Nat) (hN : 0 < N) (s : ADS_set) (a : Nat)
    (tw : Option Nat × Nat) : StealLeftOK N (d + 1) s a tw (none, 0) := by
  intro ksl ksr k l r x y par nx lo hi hT hO hkl hkr hcap hBx hBy hB hnd _ _ _
  obtain ⟨xa, xks0, xcs0⟩ := x
  obtain ⟨ya, yks, ycs⟩ := y
  have hy1 : N - 1 ≤ yks.length := hBy.1
  have hy2 : yks.length ≤ N - 1 := hBy.2.1
  have hy3 : ycs.length = yks.length + 1 := hBy.2.2.1
  have hx1 : N + 1 ≤ xks0.length := hBx.1
  have hx2 : xks0.length ≤ 2 * N := hBx.2.1
  have hx3 : xcs0.length = xks0.length + 1 := hBx.2.2.1
  obtain ⟨xks, xkl, hxk⟩ : ∃ xks xkl, xks0 = xks ++ [xkl] := by
    rcases List.eq_nil_or_concat xks0 with h | ⟨xks, xkl, h⟩
    · subst h
      simp at hx1
    · exact ⟨xks, xkl, by rw [h, List.concat_eq_append]⟩
  subst hxk
  obtain ⟨xcs, xcl, hxc⟩ : ∃ xcs xcl, xcs0 = xcs ++ [xcl] := by
    rcases List.eq_nil_or_concat xcs0 with h | ⟨xcs, xcl, h⟩
    · subst h
      simp at hx3
    · exact ⟨xcs, xcl, by rw [h, List.concat_eq_append]⟩
  subst hxc
  simp only [List.length_append, List.length_singleton] at hx1 hx2 hx3
  obtain ⟨s1, hs, hT1, hfr, hn, hr, hd, he⟩ := steal_left_int N d s a ksl ksr k l r xa ya xks
    xkl yks xcs xcl ycs par nx tw hT hkl hkr hcap (by omega) hy3 (by omega) (by omega)
    (by omega) hnd
  have hS := segOK_int_sl N d hN k xa ya xks xkl yks xcs xcl ycs hBx hBy
  obtain ⟨hP, hB2⟩ := seg_finish N (d + 1) s s1 a ksl ksr [k] [xkl] l r _ _ par nx lo hi hO hnd
    hkl hkr hS hT1
    (by
      intro q hq
      apply hfr q
      · rintro rfl
        exact hq (mem_row_self _ _ _ _)
      · rintro rfl
        exact hq (mem_row_mid _ _ _ _ _ _ _ (by simp [addrs_succ]))
      · rintro rfl
        exact hq (mem_row_mid _ _ _ _ _ _ _ (by simp [addrs_succ]))
      · rintro rfl
        exact hq (mem_row_mid _ _ _ _ _ _ _ (by
          simp only [List.map_cons, List.map_nil, List.flatten_cons, List.flatten_nil,
            List.append_nil, List.mem_append]
          exact Or.inl (mem_node_child d xa _ _ xcl (by simp))))) hn hr hd he hB hcap (le_refl _)
  refine ⟨s1, _, _, hs, hP, ?_⟩
  have e : (ksl ++ ([k] ++ ksr)).length = (ksl ++ ([xkl] ++ ksr)).length := by simp
  rw [e]
  exact hB2

theorem mergeLeftOK_int (N d : Nat) (hN : 0 < N) (s : ADS_set) (a key : Nat)
    (tw : Option Nat × Nat) : MergeLeftOK N (d + 1) s a key tw (none, 0) := by
  intro ksl ksr k l r x y par nx lo hi hT hO hkl hkr hcap hBx hBy hB hnd _ _ _
  obtain ⟨xa, xks, xcs⟩ := x
  obtain ⟨ya, yks, ycs⟩ := y
  have hy1 : N - 1 ≤ yks.length := hBy.1
  have hy2 : yks.length ≤ N - 1 := hBy.2.1
  have hy3 : ycs.length = yks.length + 1 := hBy.2.2.1
  have hx1 : N ≤ xks.length := hBx.1
  have hx2 : xks.length ≤ N := hBx.2.1
  have hx3 : xcs.length = xks.length + 1 := hBx.2.2.1
  obtain ⟨s1, hs, hT1, hfr, hn, hr, hd, he⟩ := merge_left_int N d s a ksl ksr k l r xa ya xks
    yks xcs ycs par nx key tw hT hkl hkr hcap hx3 hy3 (by omega) hnd
  have hS := segOK_int_m N d k xa ya xa xks yks xcs ycs (Or.inl rfl) N (N - 1)
    (balN_mono N _ _ _ _ (le_refl _) (by omega) _ _ hBx)
    (balN_mono N _ _ _ _ (le_refl _) (by omega) _ _ hBy) (by omega) (by omega)
  obtain ⟨hP, hB2⟩ := seg_finish N (d + 1) s s1 a ksl ksr [k] [] l r _ _ par nx lo hi hO hnd
    hkl hkr hS hT1
    (by
      intro q hq
      apply hfr q
      · rintro rfl
        exact hq (mem_row_self _ _ _ _)
      · rintro rfl
        exact hq (mem_row_mid _ _ _ _ _ _ _ (by simp [addrs_succ]))
      · rintro rfl
        exact hq (mem_row_mid _ _ _ _ _ _ _ (by simp [addrs_succ]))
      · intro c hc e
        subst e
        exact hq (mem_row_mid _ _ _ _ _ _ _ (by
          simp only [List.map_cons, List.map_nil, List.flatten_cons, List.flatten_nil,
            List.append_nil, List.mem_append]
          exact Or.inr (mem_node_child d ya _ _ c hc)))) hn hr hd he hB hcap (by simp)
  refine ⟨s1, _, _, hs, hP, ?_⟩
  have e : (ksl ++ ([k] ++ ksr)).length - 1 = (ksl ++ ([] ++ ksr)).length := by simp
  rw [e]
  exact hB2

theorem mergeRightOK_int (N d : Nat) (hN : 0 < N) (s : ADS_set) (a : Nat)
    (tw : Option Nat × Nat) : MergeRightOK N (d + 1) s a tw (none, 0) := by
  intro ksr k r x y par nx lo hi hT hO hkr hcap hBx hBy hB hnd _ _ _
  obtain ⟨xa, xks, xcs⟩ := x
  obtain ⟨ya, yks, ycs⟩ := y
  have hx1 : N - 1 ≤ xks.length := hBx.1
  have hx2 : xks.length ≤ N - 1 := hBx.2.1
  have hx3 : xcs.length = xks.length + 1 := hBx.2.2.1
  have hy1 : N ≤ yks.length := hBy.1
  have hy2 : yks.length ≤ N := hBy.2.1
  have hy3 : ycs.length = yks.length + 1 := hBy.2.2.1
  obtain ⟨s1, hs, hT1, hfr, hn, hr, hd, he⟩ := merge_right_int N d s a ksr k r xa ya xks
    yks xcs ycs par nx tw hT hkr hcap hx3 hy3 (by omega) hnd
  have hS := segOK_int_m N d k xa ya ya xks yks xcs ycs (Or.inr rfl) (N - 1) N
    (balN_mono N _ _ _ _ (le_refl _) (by omega) _ _ hBx)
    (balN_mono N _ _ _ _ (le_refl _) (by omega) _ _ hBy) (by omega) (by omega)
  obtain ⟨hP, hB2⟩ := seg_finish N (d + 1) s s1 a [] ksr [k] [] [] r _ _ par nx lo hi hO hnd
    rfl hkr hS hT1
    (by
      intro q hq
      apply hfr q
      · rintro rfl
        exact hq (mem_row_self _ _ _ _)
      · rintro rfl
        exact hq (mem_row_mid _ _ _ _ _ _ _ (by simp [addrs_succ]))
      · rintro rfl
        exact hq (mem_row_mid _ _ _ _ _ _ _ (by simp [addrs_succ]))
      · intro c hc e
        subst e
        exact hq (mem_row_mid _ _ _ _ _ _ _ (by
          simp only [List.map_cons, List.map_nil, List.flatten_cons, List.flatten_nil,
            List.append_nil, List.mem_append]
          exact Or.inl (mem_node_child d xa _ _ c hc)))) hn hr hd he (by simpa using hB) hcap
    (by simp)
  refine ⟨s1, _, _, tw, hs, hP, ?_⟩
  have e : ([] ++ ([k] ++ ksr)).length - 1 = ([] ++ ([] ++ ksr)).length := by simp
  have e2 : ([k] ++ ksr).length - 1 = ([] ++ ([] ++ ksr)).length := by simp
  rw [e2]
  exact hB2


/-! ## The rebalancing steps on a row of leaves, with the twin separator -/

theorem twOut_of_ne (a : Nat) (tw : Option Nat × Nat) (h : tw.1 ≠ some a) : twOut a tw = tw := by
  unfold twOut
  rw [if_neg h]

theorem twOut_of_eq (a : Nat) (tw : Option Nat × Nat) (h : tw.1 = some a) :
    twOut a tw = (none, 0) := by
  unfold twOut
  rw [if_pos h]

theorem post_twin_none (s s1 : ADS_set) (d : Nat) (t t1 : BTree d) (par nx : Option Nat)
    (lo hi : Nat) (tw : Option Nat × Nat) (cont : List Nat) (ec : Nat) (h : tw.1 = none)
    (hP : Post s s1 d t t1 par nx lo hi (none, 0) cont ec) :
    Post s s1 d t t1 par nx lo hi tw cont ec :=
  { hP with
    frame := by
      intro q hq
      rw [twinWrite_of_none _ _ _ h]
      exact hP.frame q hq }

theorem post_twin_outer (s s1 : ADS_set) (d : Nat) (t t1 : BTree d) (par nx : Option Nat)
    (lo hi : Nat) (tw : Option Nat × Nat) (cont : List Nat) (ec : Nat) (p v : Nat)
    (h : tw.1 = some p) (hp : p ∉ BTree.addrs d t)
    (hv : v = (BTree.contents d t1).headD 0)
    (hP : Post s s1 d t t1 par nx lo hi (none, 0) cont ec) :
    Post s (s1.set p { s1.heap p with keys := upd (s1.heap p).keys tw.2 v }) d t t1 par nx
      lo hi tw cont ec where
  tree := by
    apply treeAt_frame s1.heap _ d t1 par nx _ hP.tree
    intro x hx
    have : x ≠ p := by
      rintro rfl
      exact hp (hP.sub x hx)
    simp [ADS_set.set, upd, this]
  ord := hP.ord
  addr_eq := hP.addr_eq
  first_eq := hP.first_eq
  cont_eq := hP.cont_eq
  nodup := hP.nodup
  sub := hP.sub
  nxt_eq := hP.nxt_eq
  root_eq := hP.root_eq
  depth_eq := hP.depth_eq
  count_eq := hP.count_eq
  frame := by
    intro q hq
    have h1 := hP.frame q hq
    have h2 := hP.frame p hp
    rw [twinWrite_none] at h1 h2
    unfold twinWrite
    rw [h]
    simp only [ADS_set.set, upd]
    by_cases e : q = p
    · subst e
      simp only [if_true]
      rw [h1, hv]
    · simp only [if_neg e]
      exact h1

theorem leaf_key0 (nd : Node) (ks : List Nat) (par nx : Option Nat) (h : LeafAt nd ks par nx)
    (hne : ks ≠ []) : nd.keys 0 = ks.headD 0 := by
  cases ks with
  | nil => exact absurd rfl hne
  | cons k ks1 =>
    have := h.2.1.2 0 (by simp)
    simp at this
    simp [this]

theorem row_head_contents (a : Nat) (ks : List Nat) (ca : Nat) (cks : List Nat)
    (rest : List (BTree 0)) (hne : cks ≠ []) :
    (BTree.contents 1 (a, ks, [] ++ ([BTree.leaf ca cks] ++ rest))).headD 0 = cks.headD 0 := by
  cases cks with
  | nil => exact absurd rfl hne
  | cons k ks1 => simp [BTree.contents]

theorem row_first_leaf (h : Nat → Node) (a : Nat) (ks : List Nat) (ca : Nat) (cks : List Nat)
    (rest : List (BTree 0)) (par nx : Option Nat)
    (hT : TreeAt h 1 par nx (a, ks, [] ++ ([BTree.leaf ca cks] ++ rest))) (hne : cks ≠ []) :
    (h ca).keys 0 = (BTree.contents 1 (a, ks, [] ++ ([BTree.leaf ca cks] ++ rest))).headD 0 := by
  rw [row_head_contents a ks ca cks rest hne]
  obtain ⟨n, hn⟩ := kids_mem h 0 (some a) _ nx hT.2 (BTree.leaf ca cks) (by simp)
  exact leaf_key0 _ _ _ _ hn hne

theorem leaf_frame (a ca ra : Nat) (ks : List Nat) (cks rks : List Nat) (l r : List (BTree 0))
    (h h1 : Nat → Node) (hfr : ∀ q, q ≠ a → q ≠ ca → q ≠ ra → h1 q = h q) :
    ∀ q, q ∉ BTree.addrs 1 (a, ks, l ++ ([BTree.leaf ca cks, BTree.leaf ra rks] ++ r)) →
      h1 q = h q := by
  intro q hq
  apply hfr q
  · rintro rfl
    exact hq (mem_row_self _ _ _ _)
  · rintro rfl
    exact hq (mem_row_mid _ _ _ _ _ _ _ (by simp [BTree.addrs]))
  · rintro rfl
    exact hq (mem_row_mid _ _ _ _ _ _ _ (by simp [BTree.addrs]))

theorem leaf_frame2 (a ca ra : Nat) (ks : List Nat) (cks rks : List Nat) (l r : List (BTree 0))
    (h h1 : Nat → Node) (hfr : ∀ q, q ≠ a → q ≠ ra → q ≠ ca → h1 q = h q) :
    ∀ q, q ∉ BTree.addrs 1 (a, ks, l ++ ([BTree.leaf ca cks, BTree.leaf ra rks] ++ r)) →
      h1 q = h q :=
  leaf_frame a ca ra ks cks rks l r h h1 (fun q h1 h2 h3 => hfr q h1 h3 h2)

theorem stealRightOK_leaf (N : Nat) (hN : 0 < N) (s : ADS_set) (a : Nat)
    (tw : Option Nat × Nat) : StealRightOK N 0 s a tw (twOut a tw) := by
  intro ksl ksr k l r x y par nx lo hi hT hO hkl hkr hcap hBx hBy hB hnd hrx hry htw0
  have htw := htw0 rfl
  obtain ⟨ca, cks⟩ := x
  obtain ⟨ra, rks0⟩ := y
  have hx1 : N - 1 ≤ cks.length := hBx.1
  have hx2 : cks.length ≤ N - 1 := hBx.2
  have hy1 : N + 1 ≤ rks0.length := hBy.1
  have hy2 : rks0.length ≤ 2 * N := hBy.2
  obtain ⟨rk0, rk1, rks, hrk⟩ : ∃ rk0 rk1 rks, rks0 = rk0 :: rk1 :: rks := by
    match rks0, hy1 with
    | [], h => simp at h
    | [_], h => simp at h; omega
    | rk0 :: rk1 :: rks, _ => exact ⟨rk0, rk1, rks, rfl⟩
  subst hrk
  simp only [List.length_cons] at hy1 hy2
  obtain ⟨s1, hs, hT1, hfr, hn, hr, hd, he⟩ := steal_right_leaf N s a ksl ksr k l r ca ra cks
    rk0 rk1 rks par nx tw hT hkl hkr hcap (by omega) (by omega) (by omega) hnd hry
  have hS := segOK_leaf_sr N k ca ra cks rk0 rk1 rks (by omega) (by omega) (by omega)
  obtain ⟨hP, hB2⟩ := seg_finish N 0 s s1 a ksl ksr [k] [rk1] l r _ _ par nx lo hi hO hnd
    hkl hkr hS hT1 (leaf_frame a ca ra _ _ _ l r s.heap s1.heap hfr) hn hr hd he hB hcap
    (le_refl _)
  have e : (ksl ++ ([k] ++ ksr)).length = (ksl ++ ([rk1] ++ ksr)).length := by simp
  rw [← e] at hB2
  rcases htw with h0 | ⟨_, _, h3⟩ | ⟨p, h1, h2, h3, h4⟩
  · rw [fix_twin_none N s1 ca tw h0] at hs
    refine ⟨s1, _, _, hs, ?_, hB2⟩
    rw [twOut_of_ne a tw (by rw [h0]; simp)]
    exact post_twin_none _ _ _ _ _ _ _ _ _ _ _ _ h0 hP
  · omega
  · have hl : l = [] := List.length_eq_zero.mp h3
    subst hl
    have hksl : ksl = [] := List.length_eq_zero.mp hkl
    subst hksl
    rw [fix_twin_some N s1 ca p tw h1 h4] at hs
    refine ⟨_, _, _, hs, ?_, hB2⟩
    have hpa : tw.1 ≠ some a := by
      rw [h1]
      intro e1
      injection e1 with e1
      subst e1
      exact h2 (mem_row_self _ _ _ _)
    rw [twOut_of_ne a tw hpa]
    exact post_twin_outer _ _ _ _ _ _ _ _ _ _ _ _ p _ h1 h2
      (row_first_leaf s1.heap a _ ca (cks ++ [rk0]) _ par nx hT1 (by simp)) hP

theorem stealLeftOK_leaf (N : Nat) (hN : 0 < N) (s : ADS_set) (a : Nat)
    (tw : Option Nat × Nat) : StealLeftOK N 0 s a tw (twOut a tw) := by
  intro ksl ksr k l r x y par nx lo hi hT hO hkl hkr hcap hBx hBy hB hnd hrx hry htw0
  have htw := htw0 rfl
  obtain ⟨la, lks0⟩ := x
  obtain ⟨ca, cks⟩ := y
  have hy1 : N - 1 ≤ cks.length := hBy.1
  have hy2 : cks.length ≤ N - 1 := hBy.2
  have hx1 : N + 1 ≤ lks0.length := hBx.1
  have hx2 : lks0.length ≤ 2 * N := hBx.2
  obtain ⟨lks, lk, hlk⟩ : ∃ lks lk, lks0 = lks ++ [lk] := by
    rcases List.eq_nil_or_concat lks0 with h | ⟨lks, lk, h⟩
    · subst h
      simp at hx1
    · exact ⟨lks, lk, by rw [h, List.concat_eq_append]⟩
  subst hlk
  simp only [List.length_append, List.length_singleton] at hx1 hx2
  obtain ⟨s1, hs, hT1, hfr, hn, hr, hd, he⟩ := steal_left_leaf N s a ksl ksr k l r la ca lks
    lk cks par nx tw hT hkl hkr hcap (by omega) (by omega) (by omega) hnd hry
  have hS := segOK_leaf_sl N hN k la ca lks lk cks (by omega) (by omega) (by omega)
  obtain ⟨hP, hB2⟩ := seg_finish N 0 s s1 a ksl ksr [k] [lk] l r _ _ par nx lo hi hO hnd
    hkl hkr hS hT1 (leaf_frame2 a la ca _ _ _ l r s.heap s1.heap hfr) hn hr hd he hB hcap
    (le_refl _)
  have e : (ksl ++ ([k] ++ ksr)).length = (ksl ++ ([lk] ++ ksr)).length := by simp
  rw [← e] at hB2
  rcases htw with h0 | ⟨h1, h2, h3⟩ | ⟨p, _, _, h3, _⟩
  · rw [fix_twin_none N s1 ca tw h0] at hs
    refine ⟨s1, _, _, hs, ?_, hB2⟩
    rw [twOut_of_ne a tw (by rw [h0]; simp)]
    exact post_twin_none _ _ _ _ _ _ _ _ _ _ _ _ h0 hP
  · have hA := hT1.1
    have hka : (s1.heap a).keys l.length = lk := by
      have := hA.2.1.2 l.length (by simp; omega)
      rw [List.getElem?_append_right (by omega)] at this
      simp [hkl] at this
      exact this.symm
    obtain ⟨n, hn1⟩ := kids_mem s1.heap 0 (some a) _ nx hT1.2 (BTree.leaf ca (lk :: cks))
      (by simp)
    have hkc : (s1.heap ca).keys 0 = lk := by
      have := leaf_key0 _ _ _ _ hn1 (by simp)
      simpa using this
    have ht2 : tw.2 = l.length := by omega
    rw [fix_twin_same N s1 ca a tw h1 (by simp at hcap; omega) (by rw [ht2, hka, hkc])] at hs
    refine ⟨s1, _, _, hs, ?_, hB2⟩
    rw [twOut_of_eq a tw h1]
    exact hP
  · omega

theorem mergeLeftOK_leaf (N : Nat) (hN : 0 < N) (s : ADS_set) (a key : Nat)
    (tw : Option Nat × Nat) : MergeLeftOK N 0 s a key tw (twOut a tw) := by
  intro ksl ksr k l r x y par nx lo hi hT hO hkl hkr hcap hBx hBy hB hnd hrx hry htw0
  have htw := htw0 rfl
  obtain ⟨la, lks⟩ := x
  obtain ⟨ca, cks⟩ := y
  have hy1 : N - 1 ≤ cks.length := hBy.1
  have hy2 : cks.length ≤ N - 1 := hBy.2
  have hx1 : N ≤ lks.length := hBx.1
  have hx2 : lks.length ≤ N := hBx.2
  have htw2 : tw.1 = none ∨ (tw.1 = some a ∧ tw.2 = l.length) := by
    rcases htw with h0 | ⟨h1, h2, _⟩ | ⟨p, _, _, h3, _⟩
    · exact Or.inl h0
    · exact Or.inr ⟨h1, by omega⟩
    · omega
  obtain ⟨s1, hs, hT1, hfr, hn, hr, hd, he⟩ := merge_left_leaf N s a ksl ksr k l r la ca lks
    cks par nx key tw hT hkl hkr hcap (by omega) hnd htw2
  have hS := segOK_leaf_m N k la ca lks cks (by omega) (by omega)
  obtain ⟨hP, hB2⟩ := seg_finish N 0 s s1 a ksl ksr [k] [] l r _ _ par nx lo hi hO hnd
    hkl hkr hS hT1 (leaf_frame2 a la ca _ _ _ l r s.heap s1.heap hfr) hn hr hd he hB hcap
    (by simp)
  have e : (ksl ++ ([k] ++ ksr)).length - 1 = (ksl ++ ([] ++ ksr)).length := by simp
  rw [← e] at hB2
  refine ⟨s1, _, _, hs, ?_, hB2⟩
  rcases htw2 with h0 | ⟨h1, _⟩
  · rw [twOut_of_ne a tw (by rw [h0]; simp)]
    exact post_twin_none _ _ _ _ _ _ _ _ _ _ _ _ h0 hP
  · rw [twOut_of_eq a tw h1]
    exact hP

theorem mergeRightOK_leaf (N : Nat) (hN : 0 < N) (s : ADS_set) (a : Nat)
    (tw : Option Nat × Nat) : MergeRightOK N 0 s a tw (twOut a tw) := by
  intro ksr k r x y par nx lo hi hT hO hkr hcap hBx hBy hB hnd hrx hry htw0
  have htw := htw0 rfl
  obtain ⟨ca, cks⟩ := x
  obtain ⟨ra, rks⟩ := y
  have hx1 : N - 1 ≤ cks.length := hBx.1
  have hx2 : cks.length ≤ N - 1 := hBx.2
  have hy1 : N ≤ rks.length := hBy.1
  have hy2 : rks.length ≤ N := hBy.2
  obtain ⟨s1, hs, hT1, hfr, hn, hr, hd, he⟩ := merge_right_leaf N s a [] ksr k [] r ca ra cks
    rks par nx tw hT rfl hkr hcap (by omega) hnd hry
  have hS := segOK_leaf_m N k ca ra cks rks (by omega) (by omega)
  obtain ⟨hP, hB2⟩ := seg_finish N 0 s s1 a [] ksr [k] [] [] r _ _ par nx lo hi hO hnd
    rfl hkr hS hT1 (leaf_frame a ca ra _ _ _ [] r s.heap s1.heap hfr) hn hr hd he
    (by simpa using hB) hcap (by simp)
  have e : ([k] ++ ksr).length - 1 = ([] ++ ([] ++ ksr)).length := by simp
  rw [← e] at hB2
  have hne : cks ++ rks ≠ [] := by
    intro h
    have := congrArg List.length h
    simp only [List.length_append, List.length_nil] at this
    omega
  rcases htw with h0 | ⟨_, h2, _⟩ | ⟨p, h1, h2, _, h4⟩
  · rw [fix_twin_none N s1 ca tw h0] at hs
    refine ⟨s1, _, _, _, hs, ?_, hB2⟩
    rw [twOut_of_ne a tw (by rw [h0]; simp)]
    exact post_twin_none _ _ _ _ _ _ _ _ _ _ _ _ h0 hP
  · omega
  · rw [fix_twin_some N s1 ca p tw h1 h4] at hs
    refine ⟨_, _, _, _, hs, ?_, hB2⟩
    have hpa : tw.1 ≠ some a := by
      rw [h1]
      intro e1
      injection e1 with e1
      subst e1
      exact h2 (mem_row_self _ _ _ _)
    rw [twOut_of_ne a tw hpa]
    exact post_twin_outer _ _ _ _ _ _ _ _ _ _ _ _ p _ h1 h2
      (row_first_leaf s1.heap a _ ca (cks ++ rks) _ par nx hT1 hne) hP


/-! ## `erase` at the leaf -/

theorem child_index_loop_congr (N : Nat) (nd nd1 : Node) (t n i : Nat)
    (h : nd1.children = nd.children) :
    Node.child_index_loop N nd1 t n i = Node.child_index_loop N nd t n i := by
  unfold Node.child_index_loop
  rw [h]

theorem index_from_parent_congr (N : Nat) (s s1 : ADS_set) (c : Nat) (hr : s1.root = s.root)
    (hp : (s1.heap c).parent = (s.heap c).parent)
    (hc : ∀ q, (s1.heap q).children = (s.heap q).children)
    (hcc : ∀ q, (s1.heap q).children_counter = (s.heap q).children_counter) :
    ADS_set.index_from_parent N s1 c = ADS_set.index_from_parent N s c := by
  unfold ADS_set.index_from_parent
  rw [hr, hp]
  split_ifs with h
  · rfl
  · cases (s.heap c).parent with
    | none => rfl
    | some pp =>
      simp only [deref, ok_bind]
      rw [hcc pp, child_index_loop_congr N _ _ c _ 0 (hc pp)]

theorem sorted_nodup (ks : List Nat) (h : ks.Pairwise (fun x y => x < y)) : ks.Nodup :=
  h.imp (fun hxy => Nat.ne_of_lt hxy)

theorem mem_eraseIdx_key (ks : List Nat) (i : Nat) (key : Nat) (hi : i < ks.length)
    (hs : ks.Pairwise (fun x y => x < y)) (hk : ks[i] = key) (x : Nat) :
    x ∈ ks.eraseIdx i ↔ x ∈ ks ∧ x ≠ key := by
  have hnd := sorted_nodup ks hs
  rw [← hnd.erase_getElem i hi, hnd.mem_erase_iff, hk]
  tauto

/-- The state after `delete_element` removed the key at index `i` of the leaf `c`. -/
theorem delete_leaf (N : Nat) (s : ADS_set) (c : Nat) (ks : List Nat) (par nx : Option Nat)
    (lo hi : Nat) (i key : Nat)
    (hT : TreeAt s.heap 0 par nx (c, ks)) (hO : KeyOrd 0 lo hi (c, ks))
    (hcap : ks.length ≤ 2 * N + 1) (hil : i < ks.length) (hk : ks[i] = key) :
    ∃ s1, ADS_set.delete_element N s c i = .ok s1 ∧
      Post s s1 0 (c, ks) (c, ks.eraseIdx i) par nx lo hi (none, 0)
        (BTree.contents 0 (c, ks.eraseIdx i)) (s.element_counter - 1) ∧
      (∀ x, x ∈ BTree.contents 0 (c, ks.eraseIdx i) ↔ x ∈ BTree.contents 0 (c, ks) ∧ x ≠ key) ∧
      (BTree.contents 0 (c, ks.eraseIdx i)).length + 1 = (BTree.contents 0 (c, ks)).length ∧
      (∀ q, (s1.heap q).parent = (s.heap q).parent) ∧
      (∀ q, (s1.heap q).children = (s.heap q).children) ∧
      (∀ q, (s1.heap q).children_counter = (s.heap q).children_counter) ∧
      (∀ q, (s1.heap q).leaf = (s.heap q).leaf) := by
  have hL : LeafAt (s.heap c) ks par nx := hT
  obtain ⟨hl1, hl2, hl3, hl4⟩ := hL
  have hkc : (s.heap c).keys_counter = ks.length := hl2.1
  have hd := delete_element_eq N s c i (by omega) (by omega) (by omega)
  refine ⟨_, hd, ?_, ?_, ?_, ?_, ?_, ?_, ?_⟩
  · refine ⟨?_, ?_, rfl, rfl, rfl, ?_, ?_, rfl, rfl, rfl, rfl, ?_⟩
    · show LeafAt _ _ _ _
      simp only [ADS_set.set, upd, if_true]
      refine ⟨hl1, ?_, hl3, hl4⟩
      apply hl2.erase i (by omega)
      · intro j hj
        simp only
        rw [if_neg (by omega)]
      · intro j hj1 hj2
        simp only
        rw [if_pos (by omega)]
    · obtain ⟨h1, h2⟩ := hO
      refine ⟨h1.sublist (List.eraseIdx_sublist _ _), ?_⟩
      intro k hk1
      exact h2 k ((List.eraseIdx_sublist _ _).subset hk1)
    · simp [BTree.addrs]
    · intro x hx
      exact hx
    · intro q hq
      have : q ≠ c := by
        intro e
        apply hq
        simp [BTree.addrs, e]
      simp [ADS_set.set, upd, this, twinWrite]
  · intro x
    exact mem_eraseIdx_key ks i key hil hO.1 hk x
  · simp only [BTree.contents]
    rw [List.length_eraseIdx_of_lt hil]
    omega
  · intro q
    simp only [ADS_set.set, upd]
    split_ifs with h
    · rw [h]
    · rfl
  · intro q
    simp only [ADS_set.set, upd]
    split_ifs with h
    · rw [h]
    · rfl
  · intro q
    simp only [ADS_set.set, upd]
    split_ifs with h
    · rw [h]
    · rfl
  · intro q
    simp only [ADS_set.set, upd]
    split_ifs with h
    · rw [h]
    · rfl

/-- `erase` at a leaf that is not the root and holds the key: the key is removed; a leaf
that keeps `N` keys is done once the twin is written, a smaller one is left to the
three-way policy. -/
theorem erase_leaf (N f : Nat) (hN : 0 < N) (key : Nat) (s : ADS_set) (c : Nat) (ks : List Nat)
    (par nx : Option Nat) (lo hi : Nat) (tw : Option Nat × Nat)
    (hT : TreeAt s.heap 0 par nx (c, ks)) (hO : KeyOrd 0 lo hi (c, ks))
    (hB : BalN N N (2 * N) 0 (c, ks)) (hk : key ∈ ks)
    (hleaf : (s.heap s.root).leaf = false)
    (htw : TwinIn N tw key lo [c]) :
    EraOut N f key s 0 (c, ks) par nx lo hi tw (ADS_set.erase_at N f s key c tw) := by
  have hL : LeafAt (s.heap c) ks par nx := hT
  have hkc := hL.2.1.1
  have hB1 : N ≤ ks.length := hB.1
  have hB2 : ks.length ≤ 2 * N := hB.2
  obtain ⟨m, b, hbs, hb1, hb2, _⟩ := binary_search_call N (s.heap c) key ks hL.2.1 hO.1
    (by omega) ((s.heap c).keys_counter : Int) (Or.inr ⟨rfl, by omega⟩)
  have hbt : b = true := hb1.2 hk
  subst hbt
  obtain ⟨hm0, hm1, hm2⟩ := hb2 rfl
  have hil : m.toNat < ks.length := by omega
  have hki : ks[m.toNat] = key := by
    rw [hL.2.1.getElem hil]
    exact hm2
  obtain ⟨s1, hd, hP, hmem, hlen, hpp, hch, hcc, hlf⟩ :=
    delete_leaf N s c ks par nx lo hi m.toNat key hT hO (by omega) hil hki
  have hl1 : (ks.eraseIdx m.toNat).length = ks.length - 1 := List.length_eraseIdx_of_lt hil
  by_cases hbig : N ≤ ks.length - 1
  · have e : ADS_set.erase_at N f s key c tw =
        (ADS_set.fix_twin N s1 c tw >>= fun s2 => .ok (s2, 1)) := by
      unfold ADS_set.erase_at
      simp only [hbs, ok_bind, Bool.not_true, Bool.false_eq_true, if_false]
      rw [if_pos (Or.inr (Or.inl (by omega))), hd]
      rfl
    have hB3 : BalN N N (2 * N) 0 (c, ks.eraseIdx m.toNat) := by
      show N ≤ (ks.eraseIdx m.toNat).length ∧ (ks.eraseIdx m.toNat).length ≤ 2 * N
      omega
    rcases htw with h0 | ⟨_, h2, p, h3, h4⟩
    · rw [fix_twin_none N s1 c tw h0] at e
      exact ⟨s1, _, tw, post_twin_none _ _ _ _ _ _ _ _ _ _ _ _ h0 hP, hmem, hlen,
        Or.inl ⟨hB3, rfl, e⟩⟩
    · rw [fix_twin_some N s1 c p tw h3 h2] at e
      have hne : ks.eraseIdx m.toNat ≠ [] := by
        intro h
        rw [h] at hl1
        simp at hl1
        omega
      refine ⟨_, _, tw, post_twin_outer _ _ _ _ _ _ _ _ _ _ _ _ p _ h3 (by simpa [BTree.addrs] using h4)
        ?_ hP, hmem, hlen, Or.inl ⟨hB3, rfl, e⟩⟩
      exact leaf_key0 _ _ _ _ hP.tree hne
  · have e : ADS_set.erase_at N f s key c tw =
        (ADS_set.pending_rebalance N f 0 s1 c key tw >>= fun s2 => .ok (s2, 1)) := by
      unfold ADS_set.erase_at ADS_set.pending_rebalance
      simp only [hbs, ok_bind, Bool.not_true, Bool.false_eq_true, if_false]
      rw [if_neg (by
        intro h
        rcases h with h | h | h
        · omega
        · omega
        · rw [hleaf] at h
          exact Bool.false_ne_true h)]
      rw [index_from_parent_congr N s s1 c hP.root_eq (hpp c) hch hcc, hd]
      cases ADS_set.index_from_parent N s c with
      | error e => rfl
      | ok idx => rfl
    refine ⟨s1, _, (none, 0), hP, hmem, hlen, Or.inr ⟨?_, Or.inl ⟨rfl, rfl, e⟩⟩⟩
    show N - 1 ≤ (ks.eraseIdx m.toNat).length ∧ (ks.eraseIdx m.toNat).length ≤ N - 1
    omega


/-! ## From a subtree to the row it is in -/

theorem sorted_head_le (ks : List Nat) (hs : ks.Pairwise (fun x y => x < y)) :
    ∀ k ∈ ks, ks.headD 0 ≤ k := by
  cases ks with
  | nil => simp
  | cons k0 ks1 =>
    intro k hk
    rcases List.mem_cons.mp hk with e | e
    · simp [e]
    · have := (List.pairwise_cons.mp hs).1 k e
      simp only [List.headD_cons]
      omega

theorem headD_mem (ks : List Nat) (h : ks ≠ []) : ks.headD 0 ∈ ks := by
  cases ks with
  | nil => exact absurd rfl h
  | cons k ks1 => simp

theorem headD_append (l1 l2 : List Nat) (h : l1 ≠ []) : (l1 ++ l2).headD 0 = l1.headD 0 := by
  cases l1 with
  | nil => exact absurd rfl h
  | cons k ks1 => rfl

/-- The lower bound of a tree whose leaves are not empty may be raised to its least key. -/
theorem keyOrd_raise (N : Nat) (hN : 0 < N) :
    ∀ (d : Nat) (t : BTree d) (lo hi mn : Nat), KeyOrd d lo hi t → BalN N mn (2 * N) d t →
      (d = 0 → 1 ≤ mn) →
      BTree.contents d t ≠ [] ∧ KeyOrd d ((BTree.contents d t).headD 0) hi t := by
  intro d
  induction d with
  | zero =>
    intro t lo hi mn hO hB hmn
    obtain ⟨a, ks⟩ := t
    have h1 : 1 ≤ ks.length := le_trans (hmn rfl) hB.1
    have hne : ks ≠ [] := by
      intro e
      rw [e] at h1
      simp at h1
    refine ⟨hne, hO.1, ?_⟩
    intro k hk
    exact ⟨sorted_head_le ks hO.1 k hk, (hO.2 k hk).2⟩
  | succ d ih =>
    intro t lo hi mn hO hB _
    obtain ⟨a, ks, cs⟩ := t
    rw [balN_succ] at hB
    rw [keyOrd_succ] at hO
    cases cs with
    | nil =>
      have := hB.2.2.1
      simp at this
    | cons c cs1 =>
      have hBc : BalN N N (2 * N) d c := hB.2.2.2 c (by simp)
      cases ks with
      | nil =>
        cases cs1 with
        | nil =>
          obtain ⟨h1, h2⟩ := hO
          obtain ⟨i1, i2⟩ := ih c lo hi N h2 hBc (fun _ => hN)
          have hb := (contents_bounds d c lo hi h2).1 _ (headD_mem _ i1)
          have e : BTree.contents (d + 1) (a, ([] : List Nat), [c]) = BTree.contents d c := by
            simp [BTree.contents]
          rw [e]
          refine ⟨i1, ?_⟩
          rw [keyOrd_succ]
          exact ⟨hb.2, i2⟩
        | cons c2 cs2 =>
          have := hB.2.2.1
          simp at this
      | cons k ks1 =>
        obtain ⟨h1, h2, h3⟩ := hO
        obtain ⟨i1, i2⟩ := ih c lo k N h2 hBc (fun _ => hN)
        have hb := (contents_bounds d c lo k h2).1 _ (headD_mem _ i1)
        have e : BTree.contents (d + 1) (a, k :: ks1, c :: cs1) =
            BTree.contents d c ++ (cs1.map (BTree.contents d)).flatten := by
          simp [BTree.contents]
        rw [e, headD_append _ _ i1]
        refine ⟨by simp [i1], ?_⟩
        rw [keyOrd_succ]
        exact ⟨hb.2, i2, h3⟩

/-- The last separator of the left part of a row may be raised. -/
theorem ordPre_raise_last (d : Nat) :
    ∀ (ksl0 : List Nat) (l0 : List (BTree d)) (k : Nat) (cl : BTree d) (lo lo1 v : Nat),
      OrdPre (fun l h c => KeyOrd d l h c) (ksl0 ++ [k]) (l0 ++ [cl]) lo lo1 → k ≤ v →
      lo1 = k ∧ OrdPre (fun l h c => KeyOrd d l h c) (ksl0 ++ [v]) (l0 ++ [cl]) lo v
  | [], [], k, cl, lo, lo1, v, h, hv => by
    obtain ⟨h1, h2, h3⟩ := h
    exact ⟨h3, by omega, keyOrd_weaken d cl lo k lo v (le_refl _) hv h2, rfl⟩
  | [], _ :: l1, k, cl, lo, lo1, v, h, _ => by
    obtain ⟨_, _, h3⟩ := h
    cases l1 <;> exact h3.elim
  | _ :: ks1, [], k, cl, lo, lo1, v, h, _ => by
    obtain ⟨_, _, h3⟩ := h
    cases ks1 <;> exact h3.elim
  | k0 :: ks1, c0 :: l1, k, cl, lo, lo1, v, h, hv => by
    obtain ⟨h1, h2, h3⟩ := h
    obtain ⟨i1, i2⟩ := ordPre_raise_last d ks1 l1 k cl k0 lo1 v h3 hv
    exact ⟨i1, h1, h2, i2⟩

theorem twinWrite_congr (h h1 : Nat → Node) (tw : Option Nat × Nat) (v q : Nat)
    (e : h1 q = h q) : twinWrite h1 tw v q = twinWrite h tw v q := by
  unfold twinWrite
  cases tw.1 with
  | none => exact e
  | some p =>
    simp only [upd]
    by_cases hq : q = p
    · subst hq
      simp only [if_true]
      rw [e]
    · simp only [if_neg hq]
      exact e

/-- Two steps in a row, the second of which writes the twin. -/
theorem post_trans_nt (s s1 s2 : ADS_set) (d : Nat) (t t1 t2 : BTree d) (par nx : Option Nat)
    (lo hi : Nat) (tw : Option Nat × Nat) (c1 c2 : List Nat) (e1 e2 : Nat)
    (hP1 : Post s s1 d t t1 par nx lo hi (none, 0) c1 e1)
    (hP2 : Post s1 s2 d t1 t2 par nx lo hi tw c2 e2) :
    Post s s2 d t t2 par nx lo hi tw c2 e2 where
  tree := hP2.tree
  ord := hP2.ord
  addr_eq := hP2.addr_eq.trans hP1.addr_eq
  first_eq := hP2.first_eq.trans hP1.first_eq
  cont_eq := hP2.cont_eq
  nodup := hP2.nodup
  sub := fun x hx => hP1.sub x (hP2.sub x hx)
  nxt_eq := hP2.nxt_eq.trans hP1.nxt_eq
  root_eq := hP2.root_eq.trans hP1.root_eq
  depth_eq := hP2.depth_eq.trans hP1.depth_eq
  count_eq := hP2.count_eq
  frame := by
    intro q hq
    have hq1 : q ∉ BTree.addrs d t1 := fun hx => hq (hP1.sub q hx)
    rw [hP2.frame q hq1]
    apply twinWrite_congr
    have := hP1.frame q hq
    rw [twinWrite_none] at this
    exact this

/-- Two steps in a row, the first of which wrote the twin. -/
theorem post_trans_tn (s s1 s2 : ADS_set) (d : Nat) (t t1 t2 : BTree d) (par nx : Option Nat)
    (lo hi : Nat) (tw : Option Nat × Nat) (c1 c2 : List Nat) (e1 e2 : Nat)
    (hP1 : Post s s1 d t t1 par nx lo hi tw c1 e1)
    (hP2 : Post s1 s2 d t1 t2 par nx lo hi (none, 0) c2 e2)
    (hv : (BTree.contents d t2).headD 0 = (BTree.contents d t1).headD 0) :
    Post s s2 d t t2 par nx lo hi tw c2 e2 where
  tree := hP2.tree
  ord := hP2.ord
  addr_eq := hP2.addr_eq.trans hP1.addr_eq
  first_eq := hP2.first_eq.trans hP1.first_eq
  cont_eq := hP2.cont_eq
  nodup := hP2.nodup
  sub := fun x hx => hP1.sub x (hP2.sub x hx)
  nxt_eq := hP2.nxt_eq.trans hP1.nxt_eq
  root_eq := hP2.root_eq.trans hP1.root_eq
  depth_eq := hP2.depth_eq.trans hP1.depth_eq
  count_eq := hP2.count_eq
  frame := by
    intro q hq
    have hq1 : q ∉ BTree.addrs d t1 := fun hx => hq (hP1.sub q hx)
    have h2 := hP2.frame q hq1
    rw [twinWrite_none] at h2
    rw [h2, hP1.frame q hq, hv]

theorem addrs_bound (d : Nat) (t : BTree d) :
    ∀ x ∈ BTree.addrs d t, x < (BTree.addrs d t).sum + 1 := by
  intro x hx
  have := List.single_le_sum (fun _ _ => Nat.zero_le _) x hx
  omega

theorem row_sub_replace (d : Nat) (a : Nat) (ks ks1 : List Nat) (l r : List (BTree d))
    (c c1 : BTree d) (h : ∀ x ∈ BTree.addrs d c1, x ∈ BTree.addrs d c) :
    ∀ x ∈ BTree.addrs (d + 1) (a, ks1, l ++ ([c1] ++ r)),
      x ∈ BTree.addrs (d + 1) (a, ks, l ++ ([c] ++ r)) := by
  intro x hx
  rw [addrs_row] at hx ⊢
  simp only [List.mem_cons, List.mem_append, List.map_cons, List.map_nil,
    List.flatten_cons, List.flatten_nil, List.append_nil] at hx ⊢
  rcases hx with hx | hx | hx | hx
  · exact Or.inl hx
  · exact Or.inr (Or.inl hx)
  · exact Or.inr (Or.inr (Or.inl (h x hx)))
  · exact Or.inr (Or.inr (Or.inr hx))

/-- A step below the child `c` of a row, seen from the row, when no separator of the row
is written. -/
theorem lift_post_plain (d : Nat) (s s1 : ADS_set) (a : Nat) (ksl ksr : List Nat)
    (l r : List (BTree d)) (c c1 : BTree d) (par nx : Option Nat) (lo hi lo1 hi1 : Nat)
    (twp : Option Nat × Nat) (ec : Nat)
    (hT : TreeAt s.heap (d + 1) par nx (a, ksl ++ ksr, l ++ ([c] ++ r)))
    (hnd : (BTree.addrs (d + 1) (a, ksl ++ ksr, l ++ ([c] ++ r))).Nodup)
    (hkl : ksl.length = l.length) (hkr : ksr.length = r.length)
    (hpre : OrdPre (fun l h c => KeyOrd d l h c) ksl l lo lo1)
    (hpost : OrdPost (fun l h c => KeyOrd d l h c) ksr r hi1 hi) (hlt : lo1 < hi1)
    (hP : Post s s1 d c c1 (some a) (headFirst (BTree.firstLeaf d) r nx) lo1 hi1 twp
      (BTree.contents d c1) ec)
    (htw : twp.1 = none ∨ (l = [] ∧ BTree.contents d c1 ≠ [] ∧
      ∃ p, twp.1 = some p ∧ p ∉ BTree.addrs (d + 1) (a, ksl ++ ksr, l ++ ([c] ++ r)))) :
    Post s s1 (d + 1) (a, ksl ++ ksr, l ++ ([c] ++ r)) (a, ksl ++ ksr, l ++ ([c1] ++ r))
      par nx lo hi twp (BTree.contents (d + 1) (a, ksl ++ ksr, l ++ ([c1] ++ r))) ec := by
  have hnr := addrs_nodup_root d a _ _ hnd
  have hac : a ∉ BTree.addrs d c := hnr.1 c (by simp)
  have hsub : ∀ x ∈ BTree.addrs d c, x ∈ BTree.addrs (d + 1) (a, ksl ++ ksr, l ++ ([c] ++ r)) :=
    fun x hx => addrs_child_subset d a _ _ c (by simp) x hx
  have hfoc := flatten_nodup_focus (BTree.addrs d) l r c hnr.2
  have hin : ∀ q ∈ BTree.addrs (d + 1) (a, ksl ++ ksr, l ++ ([c] ++ r)), twp.1 ≠ some q := by
    intro q hq
    rcases htw with h0 | ⟨_, _, p, h1, h2⟩
    · rw [h0]
      simp
    · rw [h1]
      intro e
      injection e with e
      subst e
      exact h2 hq
  have hkeep : ∀ q ∈ BTree.addrs (d + 1) (a, ksl ++ ksr, l ++ ([c] ++ r)),
      q ∉ BTree.addrs d c → s1.heap q = s.heap q := by
    intro q hq hqc
    rw [hP.frame q hqc, twinWrite_other _ _ _ _ (hin q hq)]
  have hval : ∀ q, twinWrite s.heap twp ((BTree.contents d c1).headD 0) q =
      twinWrite s.heap twp
        ((BTree.contents (d + 1) (a, ksl ++ ksr, l ++ ([c1] ++ r))).headD 0) q := by
    intro q
    rcases htw with h0 | ⟨hl, hne, _⟩
    · rw [twinWrite_of_none _ _ _ h0, twinWrite_of_none _ _ _ h0]
    · subst hl
      have e : BTree.contents (d + 1) (a, ksl ++ ksr, [] ++ ([c1] ++ r)) =
          BTree.contents d c1 ++ (r.map (BTree.contents d)).flatten := by
        simp [BTree.contents]
      rw [e, headD_append _ _ hne]
  exact {
    tree := by
      apply treeAt_replace s.heap s1.heap d a (ksl ++ ksr) (ksl ++ ksr) l r [c] [c1] par nx hT
      · rw [hkeep a (mem_row_self _ _ _ _) hac]
        have e : (l ++ ([c1] ++ r)).map (BTree.addr d) = (l ++ ([c] ++ r)).map (BTree.addr d) := by
          simp [hP.addr_eq]
        rw [e]
        rw [treeAt_succ] at hT
        exact hT.1
      · intro c2 hc2 x hx
        apply hkeep x
        · apply addrs_child_subset d a _ _ c2 _ x hx
          rcases List.mem_append.1 hc2 with e | e
          · exact List.mem_append_left _ e
          · exact List.mem_append_right _ (List.mem_append_right _ e)
        · exact hfoc.2.1 c2 hc2 x hx
      · simp [headFirst, hP.first_eq]
      · exact ⟨hP.tree, trivial⟩
    ord := row_keyOrd d a ksl ksr [] [] l r [c] [c1] lo hi lo1 hi1 hpre hpost hkl hkr rfl
      ⟨hlt, hP.ord⟩
    addr_eq := rfl
    first_eq := firstLeaf_row d a a _ _ l r [c] [c1] (by simp [headFirst, hP.first_eq])
      (by simp) (by simp) rfl
    cont_eq := rfl
    nodup := row_nodup_replace d a _ _ l r [c] [c1] _ hnd (addrs_bound _ _)
      (by simpa using hP.nodup) (fun x hx => Or.inl (by simpa using hP.sub x (by simpa using hx)))
    sub := row_sub_replace d a _ _ _ _ c c1 hP.sub
    nxt_eq := hP.nxt_eq
    root_eq := hP.root_eq
    depth_eq := hP.depth_eq
    count_eq := hP.count_eq
    frame := by
      intro q hq
      rw [hP.frame q (fun hx => hq (hsub q hx))]
      exact hval q }

/-- A step below the last child `c` of a row, seen from the row, when the step wrote the
least key of the child into the last separator of the row. -/
theorem lift_post_twin (d : Nat) (s s1 : ADS_set) (a : Nat) (ksl0 : List Nat) (k : Nat)
    (l0 : List (BTree d)) (cl c c1 : BTree d) (par nx : Option Nat) (lo hi lo1 hi1 v : Nat)
    (ec : Nat)
    (hT : TreeAt s.heap (d + 1) par nx (a, (ksl0 ++ [k]) ++ [], (l0 ++ [cl]) ++ ([c] ++ [])))
    (hnd : (BTree.addrs (d + 1) (a, (ksl0 ++ [k]) ++ [], (l0 ++ [cl]) ++ ([c] ++ []))).Nodup)
    (hkl : ksl0.length = l0.length)
    (hpre : OrdPre (fun l h c => KeyOrd d l h c) (ksl0 ++ [k]) (l0 ++ [cl]) lo lo1)
    (hpost : OrdPost (fun l h c => KeyOrd d l h c) [] [] hi1 hi)
    (hP : Post s s1 d c c1 (some a) (headFirst (BTree.firstLeaf d) [] nx) lo1 hi1
      (some a, ksl0.length) (BTree.contents d c1) ec)
    (hv : v = (BTree.contents d c1).headD 0) (hkv : k ≤ v) (hvh : v < hi1)
    (hraise : KeyOrd d v hi1 c1) :
    Post s s1 (d + 1) (a, (ksl0 ++ [k]) ++ [], (l0 ++ [cl]) ++ ([c] ++ []))
      (a, (ksl0 ++ [v]) ++ [], (l0 ++ [cl]) ++ ([c1] ++ [])) par nx lo hi (none, 0)
      (BTree.contents (d + 1) (a, (ksl0 ++ [v]) ++ [], (l0 ++ [cl]) ++ ([c1] ++ []))) ec := by
  have hnr := addrs_nodup_root d a _ _ hnd
  have hac : a ∉ BTree.addrs d c := hnr.1 c (by simp)
  have hsub : ∀ x ∈ BTree.addrs d c,
      x ∈ BTree.addrs (d + 1) (a, (ksl0 ++ [k]) ++ [], (l0 ++ [cl]) ++ ([c] ++ [])) :=
    fun x hx => addrs_child_subset d a _ _ c (by simp) x hx
  have hfoc := flatten_nodup_focus (BTree.addrs d) (l0 ++ [cl]) [] c hnr.2
  have hkeep : ∀ q, q ≠ a → q ∉ BTree.addrs d c → s1.heap q = s.heap q := by
    intro q hqa hqc
    rw [hP.frame q hqc, twinWrite_other]
    simp only [ne_eq, Option.some.injEq]
    exact fun e => hqa e.symm
  have hA : s1.heap a = { s.heap a with keys := upd (s.heap a).keys ksl0.length v } := by
    rw [hP.frame a hac, ← hv]
    simp [twinWrite, upd]
  have hpr := ordPre_raise_last d ksl0 l0 k cl lo lo1 v hpre hkv
  exact {
    tree := by
      apply treeAt_replace s.heap s1.heap d a ((ksl0 ++ [k]) ++ []) ((ksl0 ++ [v]) ++ [])
        (l0 ++ [cl]) [] [c] [c1] par nx hT
      · rw [hA]
        have e : ((l0 ++ [cl]) ++ ([c1] ++ [])).map (BTree.addr d) =
            ((l0 ++ [cl]) ++ ([c] ++ [])).map (BTree.addr d) := by
          simp [hP.addr_eq]
        rw [e]
        rw [treeAt_succ] at hT
        obtain ⟨h1, h2, h3, h4, h5⟩ := hT.1
        refine ⟨h1, ?_, h3, h4, h5⟩
        have := h2.set ksl0.length v
        simp only [List.append_nil] at this ⊢
        rw [set_middle] at this
        exact this
      · intro c2 hc2 x hx
        apply hkeep x
        · rintro rfl
          exact hnr.1 c2 (by
            rcases List.mem_append.1 hc2 with e | e
            · exact List.mem_append_left _ e
            · simp at e) hx
        · exact hfoc.2.1 c2 hc2 x hx
      · simp [headFirst, hP.first_eq]
      · exact ⟨hP.tree, trivial⟩
    ord := row_keyOrd d a (ksl0 ++ [v]) [] [] [] (l0 ++ [cl]) [] [c] [c1] lo hi v hi1 hpr.2 hpost
      (by simp [hkl]) rfl rfl ⟨hvh, hraise⟩
    addr_eq := rfl
    first_eq := firstLeaf_row d a a _ _ (l0 ++ [cl]) [] [c] [c1]
      (by simp [headFirst, hP.first_eq]) (by simp) (by simp) rfl
    cont_eq := rfl
    nodup := row_nodup_replace d a _ _ (l0 ++ [cl]) [] [c] [c1] _ hnd (addrs_bound _ _)
      (by simpa using hP.nodup) (fun x hx => Or.inl (by simpa using hP.sub x (by simpa using hx)))
    sub := row_sub_replace d a _ _ _ _ c c1 hP.sub
    nxt_eq := hP.nxt_eq
    root_eq := hP.root_eq
    depth_eq := hP.depth_eq
    count_eq := hP.count_eq
    frame := by
      intro q hq
      rw [twinWrite_none]
      apply hkeep q
      · rintro rfl
        exact hq (mem_row_self _ _ _ _)
      · exact fun hx => hq (hsub q hx) }


/-! ## `erase` below an internal node -/

/-- The child that the search for `key` follows, with the row around it. -/
theorem route_row2 (d : Nat) (a : Nat) (ks : List Nat) (cs : List (BTree d)) (lo hi key : Nat)
    (h : KeyOrd (d + 1) lo hi (a, ks, cs)) (hlo : lo ≤ key) (hhi : key < hi) :
    ∃ (ksl ksr : List Nat) (l r : List (BTree d)) (c : BTree d) (lo1 hi1 : Nat),
      ks = ksl ++ ksr ∧ cs = l ++ ([c] ++ r) ∧ ksl.length = l.length ∧ ksr.length = r.length ∧
      OrdPre (fun l h c => KeyOrd d l h c) ksl l lo lo1 ∧ KeyOrd d lo1 hi1 c ∧
      OrdPost (fun l h c => KeyOrd d l h c) ksr r hi1 hi ∧ lo1 ≤ key ∧ key < hi1 ∧
      BTree.route (d + 1) (a, ks, cs) key = BTree.route d c key ∧
      l.length = routeIdx ks key ∧
      (∀ tw, BTree.twin (d + 1) (a, ks, cs) key tw = BTree.twin d c key (twinStep a ks key tw)) := by
  rw [keyOrd_succ] at h
  obtain ⟨hi0, lo1, hi1, hpre, hmid, hpost, h1, h2⟩ := route_focus d ks cs lo hi key h hlo hhi
  have hlen := ordKids_length _ ks cs lo hi h
  have hri := routeIdx_le ks key
  refine ⟨ks.take (routeIdx ks key), ks.drop (routeIdx ks key), cs.take (routeIdx ks key),
    cs.drop (routeIdx ks key + 1), cs[routeIdx ks key], lo1, hi1, by simp, ?_, ?_, ?_,
    hpre, hmid, hpost, h1, h2, route_succ d a ks cs key hi0, ?_, ?_⟩
  · have := list_split_at cs _ hi0
    rw [List.append_assoc] at this
    exact this
  · simp; omega
  · simp; omega
  · simp; omega
  · intro tw
    simp [BTree.twin, List.getElem?_eq_getElem hi0]

/-- The twin after the descent passed a node: either the node itself became the twin,
and then no twin came from above and `key` is the last separator, or the twin did not
change. -/
theorem twinStep_cases (N d : Nat) (a : Nat) (ksl ksr : List Nat) (l r : List (BTree d))
    (c : BTree d) (lo hi lo1 key : Nat) (tw : Option Nat × Nat)
    (hO : KeyOrd (d + 1) lo hi (a, ksl ++ ksr, l ++ ([c] ++ r)))
    (hkl : ksl.length = l.length) (hkr : ksr.length = r.length)
    (hpre : OrdPre (fun l h c => KeyOrd d l h c) ksl l lo lo1) (hl1 : lo1 ≤ key)
    (hidx : l.length = routeIdx (ksl ++ ksr) key) (hcap : (ksl ++ ksr).length ≤ 2 * N)
    (htw : TwinIn N tw key lo (BTree.addrs (d + 1) (a, ksl ++ ksr, l ++ ([c] ++ r)))) :
    (twinStep a (ksl ++ ksr) key tw = (some a, ksl.length - 1) ∧ tw.1 = none ∧ r = [] ∧
      ksr = [] ∧ key = lo1 ∧ ∃ ksl0 l0 cl, ksl = ksl0 ++ [key] ∧ l = l0 ++ [cl] ∧
        ksl0.length = l0.length) ∨
    (twinStep a (ksl ++ ksr) key tw = tw ∧
      (tw.1 = none ∨ (l = [] ∧ key = lo1 ∧ tw.2 < 2 * N + 1 ∧ ∃ p, tw.1 = some p ∧
        p ∉ BTree.addrs (d + 1) (a, ksl ++ ksr, l ++ ([c] ++ r))))) := by
  have hle := ordPre_le _ ksl l lo lo1 hpre
  have hsep := ordKids_seps_sorted _ _ _ lo hi hO
  by_cases hfire : routeIdx (ksl ++ ksr) key = (ksl ++ ksr).length ∧
      (ksl ++ ksr).getLast? = some key
  · left
    obtain ⟨hf1, hf2⟩ := hfire
    have hr0 : ksr = [] := by
      apply List.length_eq_zero.mp
      rw [← hidx, List.length_append] at hf1
      omega
    subst hr0
    have hr1 : r = [] := List.length_eq_zero.mp hkr.symm
    subst hr1
    have hg1 := hf1
    have hg2 := hf2
    simp only [List.append_nil] at hf1 hf2 hsep
    have hne : ksl ≠ [] := by
      intro e
      rw [e] at hf2
      simp at hf2
    have hkm : key ∈ ksl := List.mem_of_getLast?_eq_some hf2
    have hkey : key = lo1 := by
      have := hle.2.1 key hkm
      omega
    have hlo : lo < key := (hsep.2 key hkm).1
    have htn : tw.1 = none := by
      rcases htw with h0 | ⟨h1, _⟩
      · exact h0
      · omega
    refine ⟨?_, htn, rfl, rfl, hkey, ?_⟩
    · unfold twinStep
      rw [if_pos ⟨hg1, hg2⟩]
      simp
    · obtain ⟨ksl0, k0, e0⟩ : ∃ ksl0 k0, ksl = ksl0 ++ [k0] := by
        rcases List.eq_nil_or_concat ksl with h | ⟨ksl0, k0, h⟩
        · exact absurd h hne
        · exact ⟨ksl0, k0, by rw [h, List.concat_eq_append]⟩
      subst e0
      have hk0 : k0 = key := by
        simp at hf2
        exact hf2
      subst hk0
      obtain ⟨l0, cl, e1⟩ : ∃ l0 cl, l = l0 ++ [cl] := by
        rcases List.eq_nil_or_concat l with h | ⟨l0, cl, h⟩
        · subst h
          simp at hkl
        · exact ⟨l0, cl, by rw [h, List.concat_eq_append]⟩
      subst e1
      refine ⟨ksl0, l0, cl, rfl, rfl, ?_⟩
      simp at hkl
      exact hkl
  · right
    refine ⟨?_, ?_⟩
    · unfold twinStep
      rw [if_neg hfire]
    · rcases htw with h0 | ⟨h1, h2, p, h3, h4⟩
      · exact Or.inl h0
      · right
        have hl0 : ksl = [] := by
          by_contra hne
          have hm := hle.2.2.2 hne
          have := (hsep.2 lo1 (List.mem_append_left _ hm)).1
          omega
        have hlo1 := hle.2.2.1 hl0
        refine ⟨?_, by omega, h2, p, h3, h4⟩
        apply List.length_eq_zero.mp
        rw [← hkl, hl0]
        rfl

theorem bind_ite_ok (c : Prop) [Decidable c] (m : Except Err ADS_set) (s2 : ADS_set) :
    ((if c then m else .ok s2) >>= fun s3 => (Except.ok (s3, 1) : Except Err (ADS_set × Nat))) =
      if c then m >>= fun s3 => .ok (s3, 1) else .ok (s2, 1) := by
  split_ifs <;> rfl

/-- A row one of whose children holds `N - 1` keys after the step below it: the policy
runs for that child. -/
theorem row_finish (N f : Nat) (hN : 0 < N) (key : Nat) (s s1 : ADS_set) (d : Nat)
    (a : Nat) (ks ks1 : List Nat) (l r : List (BTree d)) (c c1 : BTree d)
    (par nx : Option Nat) (lo hi : Nat) (tw twr twc tw0 : Option Nat × Nat)
    (R : Except Err (ADS_set × Nat))
    (hP : Post s s1 (d + 1) (a, ks, l ++ ([c] ++ r)) (a, ks1, l ++ ([c1] ++ r)) par nx lo hi twr
      (BTree.contents (d + 1) (a, ks1, l ++ ([c1] ++ r))) (s.element_counter - 1))
    (hlen : ks1.length = l.length + r.length) (hks : ks1.length = ks.length)
    (h1 : 1 ≤ ks1.length) (hcap : ks1.length ≤ 2 * N)
    (hBx : BalN N (N - 1) (N - 1) d c1) (hB : ∀ z ∈ l ++ r, BalN N N (2 * N) d z)
    (hroot : ∀ z ∈ l ++ ([c1] ++ r), BTree.addr d z ≠ s.root)
    (hmin : a ≠ s.root → N ≤ ks.length)
    (hSR : StealRightOK N d s1 a twc tw0) (hSL : StealLeftOK N d s1 a twc tw0)
    (hML : MergeLeftOK N d s1 a key twc tw0) (hMR : MergeRightOK N d s1 a twc tw0)
    (htw : d = 0 → TwinPend N twc a l.length r.length
      (BTree.addrs (d + 1) (a, ks1, l ++ ([c1] ++ r))))
    (hf : d + 1 ≤ f)
    (hR : R = (ADS_set.pending_rebalance N f d s1 (BTree.addr d c1) key twc >>=
      fun s2 => .ok (s2, 1)))
    (hcomp : ∀ (s2 : ADS_set) (t2 : BTree (d + 1)),
      Post s1 s2 (d + 1) (a, ks1, l ++ ([c1] ++ r)) t2 par nx lo hi tw0
        (BTree.contents (d + 1) (a, ks1, l ++ ([c1] ++ r))) s1.element_counter →
      Post s s2 (d + 1) (a, ks, l ++ ([c] ++ r)) t2 par nx lo hi tw
        (BTree.contents (d + 1) t2) (s.element_counter - 1))
    (hmem : ∀ x, x ∈ BTree.contents (d + 1) (a, ks1, l ++ ([c1] ++ r)) ↔
      x ∈ BTree.contents (d + 1) (a, ks, l ++ ([c] ++ r)) ∧ x ≠ key)
    (hlenc : (BTree.contents (d + 1) (a, ks1, l ++ ([c1] ++ r))).length + 1 =
      (BTree.contents (d + 1) (a, ks, l ++ ([c] ++ r))).length) :
    RowOut N f key s d (a, ks, l ++ ([c] ++ r)) par nx lo hi tw R := by
  have hre := hP.root_eq
  rcases rebalance_row N d f hN s1 key twc tw0 a hSR hSL hML hMR ks1 l r c1 par nx lo hi
    hP.tree hP.ord hlen h1 hcap hBx hB hP.nodup (by rw [hre]; exact hroot)
    (by rw [hre, hks]; exact hmin) htw hf with
    ⟨s2, ks2, cs2, tw1, he, hP2, hB2, hk1⟩ | ⟨ha, hk1, he, hBs⟩
  · left
    have hc2 := hP2.cont_eq
    refine ⟨s2, (a, ks2, cs2), tw1, hcomp s2 _ hP2, ?_, ?_, ?_, ?_, ?_⟩
    · intro x
      rw [hc2]
      exact hmem x
    · rw [hc2]
      exact hlenc
    · rw [hks] at hB2
      exact hB2
    · intro e
      exact hk1 (by rw [hre]; exact e)
    · rw [hR, he, bind_ite_ok, hre]
      rfl
  · right
    rw [hre] at ha
    obtain ⟨k1, hk⟩ : ∃ k1, ks1 = [k1] := by
      match ks1, hk1 with
      | [k1], _ => exact ⟨k1, rfl⟩
    subst hk
    simp only [List.length_singleton] at hlen
    have hBc : BalN N (N - 1) N d c1 := balN_mono N _ _ _ _ (le_refl _) (by omega) _ _ hBx
    have hkc := balN_keys N _ _ d c1 hBx
    cases l with
    | nil =>
      match r, hlen with
      | [y], _ =>
        have hy := hBs y (by simp)
        have hky := balN_keys N _ _ d y hy
        refine ⟨s1, k1, c1, y, twr, ha, hP, hmem, hlenc, hBc,
          balN_mono N _ _ _ _ (by omega) (le_refl _) _ _ hy, by omega, ?_⟩
        rw [hR, he]
    | cons x l1 =>
      have hl1 : l1 = [] := by
        apply List.length_eq_zero.mp
        simp only [List.length_cons] at hlen
        omega
      subst hl1
      have hr1 : r = [] := by
        apply List.length_eq_zero.mp
        simp only [List.length_cons, List.length_nil] at hlen
        omega
      subst hr1
      have hx := hBs x (by simp)
      have hkx := balN_keys N _ _ d x hx
      refine ⟨s1, k1, x, c1, twr, ha, hP, hmem, hlenc,
        balN_mono N _ _ _ _ (by omega) (le_refl _) _ _ hx, hBc, by omega, ?_⟩
      rw [hR, he]

theorem row_mem_erase (d : Nat) (a : Nat) (ks ks1 : List Nat) (l r : List (BTree d))
    (c c1 : BTree d) (key : Nat)
    (h : ∀ x, x ∈ BTree.contents d c1 ↔ x ∈ BTree.contents d c ∧ x ≠ key)
    (hl : key ∉ (l.map (BTree.contents d)).flatten)
    (hr : key ∉ (r.map (BTree.contents d)).flatten) :
    ∀ x, x ∈ BTree.contents (d + 1) (a, ks1, l ++ ([c1] ++ r)) ↔
      x ∈ BTree.contents (d + 1) (a, ks, l ++ ([c] ++ r)) ∧ x ≠ key := by
  intro x
  rw [contents_row, contents_row]
  simp only [List.mem_append, List.map_cons, List.map_nil, List.flatten_cons,
    List.flatten_nil, List.append_nil, h x]
  constructor
  · rintro (hx | hx | hx)
    · exact ⟨Or.inl hx, fun e => hl (e ▸ hx)⟩
    · exact ⟨Or.inr (Or.inl hx.1), hx.2⟩
    · exact ⟨Or.inr (Or.inr hx), fun e => hr (e ▸ hx)⟩
  · rintro ⟨hx | hx | hx, hne⟩
    · exact Or.inl hx
    · exact Or.inr (Or.inl ⟨hx, hne⟩)
    · exact Or.inr (Or.inr hx)

theorem row_len_erase (d : Nat) (a : Nat) (ks ks1 : List Nat) (l r : List (BTree d))
    (c c1 : BTree d)
    (h : (BTree.contents d c1).length + 1 = (BTree.contents d c).length) :
    (BTree.contents (d + 1) (a, ks1, l ++ ([c1] ++ r))).length + 1 =
      (BTree.contents (d + 1) (a, ks, l ++ ([c] ++ r))).length := by
  rw [contents_row, contents_row]
  simp only [List.length_append, List.map_cons, List.map_nil, List.flatten_cons,
    List.flatten_nil, List.append_nil]
  omega

theorem post_recast (s s2 : ADS_set) (d : Nat) (t t2 : BTree d) (par nx : Option Nat)
    (lo hi : Nat) (tw : Option Nat × Nat) (c : List Nat) (e e1 : Nat)
    (hP : Post s s2 d t t2 par nx lo hi tw c e) (he : e = e1) :
    Post s s2 d t t2 par nx lo hi tw (BTree.contents d t2) e1 :=
  { hP with
    cont_eq := rfl
    count_eq := hP.count_eq.trans he }

/-- A row whose changed child is balanced is done. -/
theorem settled_row (N f : Nat) (key : Nat) (s s1 : ADS_set) (d : Nat)
    (a : Nat) (ks ks1 : List Nat) (l r : List (BTree d)) (c c1 : BTree d)
    (par nx : Option Nat) (lo hi : Nat) (tw : Option Nat × Nat)
    (hP : Post s s1 (d + 1) (a, ks, l ++ ([c] ++ r)) (a, ks1, l ++ ([c1] ++ r)) par nx lo hi tw
      (BTree.contents (d + 1) (a, ks1, l ++ ([c1] ++ r))) (s.element_counter - 1))
    (hlen : ks1.length = l.length + r.length) (hks : ks1.length = ks.length)
    (h1 : 1 ≤ ks1.length) (hcap : ks1.length ≤ 2 * N)
    (hBx : BalN N N (2 * N) d c1) (hB : ∀ z ∈ l ++ r, BalN N N (2 * N) d z)
    (hmin : a ≠ s.root → N ≤ ks.length)
    (hmem : ∀ x, x ∈ BTree.contents (d + 1) (a, ks1, l ++ ([c1] ++ r)) ↔
      x ∈ BTree.contents (d + 1) (a, ks, l ++ ([c] ++ r)) ∧ x ≠ key)
    (hlenc : (BTree.contents (d + 1) (a, ks1, l ++ ([c1] ++ r))).length + 1 =
      (BTree.contents (d + 1) (a, ks, l ++ ([c] ++ r))).length) :
    RowOut N f key s d (a, ks, l ++ ([c] ++ r)) par nx lo hi tw (.ok (s1, 1)) := by
  left
  refine ⟨s1, _, tw, hP, hmem, hlenc, ?_, fun _ => h1, ?_⟩
  · apply row_balN2 N _ _ d a ks1 l r [c1] hB
    · simp only [BTree.keys]
      omega
    · exact hcap
    · simp only [List.length_append, List.length_singleton]
      omega
    · intro z hz
      simp only [List.mem_singleton] at hz
      subst hz
      exact hBx
  · rw [if_neg]
    intro hc
    have := hmin hc.2
    have h2 : ks1.length < N := hc.1
    omega


/-! ## `erase` below an internal node: the row after the step below one child -/

theorem balN_under (N : Nat) (d : Nat) (t : BTree d) (h : BalN N (N - 1) (N - 1) d t) :
    BalN N (N - 1) (2 * N) d t :=
  balN_mono N _ _ _ _ (le_refl _) (by omega) d t h

/-- `erase` seen from an internal node whose children are handled as `ih` says. -/
theorem erase_row (N f : Nat) (hN : 0 < N) (key : Nat) (s : ADS_set) (d : Nat)
    (a : Nat) (ks : List Nat) (cs : List (BTree d)) (par nx : Option Nat) (lo hi : Nat)
    (tw : Option Nat × Nat) (mn : Nat)
    (hT : TreeAt s.heap (d + 1) par nx (a, ks, cs)) (hO : KeyOrd (d + 1) lo hi (a, ks, cs))
    (hB : BalN N mn (2 * N) (d + 1) (a, ks, cs)) (h1 : 1 ≤ ks.length)
    (hmin : a ≠ s.root → N ≤ ks.length)
    (hnd : (BTree.addrs (d + 1) (a, ks, cs)).Nodup)
    (hroot : ∀ z ∈ cs, s.root ∉ BTree.addrs d z)
    (hlo : lo ≤ key) (hhi : key < hi) (hk : key ∈ BTree.contents (d + 1) (a, ks, cs))
    (htw : TwinIn N tw key lo (BTree.addrs (d + 1) (a, ks, cs)))
    (hf : d + 1 ≤ f)
    (ih : ∀ c ∈ cs, ∀ (nx1 : Option Nat) (lo1 hi1 : Nat) (twc : Option Nat × Nat),
      TreeAt s.heap d (some a) nx1 c → KeyOrd d lo1 hi1 c → lo1 ≤ key → key < hi1 →
      key ∈ BTree.contents d c → TwinIn N twc key lo1 (BTree.addrs d c) →
      EraOut N f key s d c (some a) nx1 lo1 hi1 twc
        (ADS_set.erase_at N f s key (BTree.route d c key).1 (BTree.twin d c key twc))) :
    RowOut N f key s d (a, ks, cs) par nx lo hi tw
      (ADS_set.erase_at N f s key (BTree.route (d + 1) (a, ks, cs) key).1
        (BTree.twin (d + 1) (a, ks, cs) key tw)) := by
  obtain ⟨ksl, ksr, l, r, c, lo1, hi1, rfl, rfl, hkl, hkr, hpre, hco, hpost, hl1, hh1, hroute,
    hidx, htwin⟩ := route_row2 d a ks cs lo hi key hO hlo hhi
  rw [hroute, htwin tw]
  have hB0 := hB
  rw [balN_succ] at hB0
  have hcm : c ∈ l ++ ([c] ++ r) := by simp
  have hT1 := hT
  rw [treeAt_succ, kidsAt_append, kidsAt_append] at hT1
  have hTc : TreeAt s.heap d (some a) (headFirst (BTree.firstLeaf d) r nx) c := hT1.2.2.1.1
  have hnl : key ∉ (l.map (BTree.contents d)).flatten := by
    intro hx
    obtain ⟨z, hz, hkz⟩ := List.mem_flatten.mp hx
    obtain ⟨z1, hz1, rfl⟩ := List.mem_map.mp hz
    have := ordPre_contents d ksl l lo lo1 hpre z1 hz1 key hkz
    omega
  have hnr : key ∉ (r.map (BTree.contents d)).flatten := by
    intro hx
    obtain ⟨z, hz, hkz⟩ := List.mem_flatten.mp hx
    obtain ⟨z1, hz1, rfl⟩ := List.mem_map.mp hz
    have := ordPost_contents d ksr r hi1 hi hpost z1 hz1 key hkz
    omega
  have hkc : key ∈ BTree.contents d c := by
    rw [contents_row] at hk
    simp only [List.mem_append, List.map_cons, List.map_nil, List.flatten_cons,
      List.flatten_nil, List.append_nil] at hk
    rcases hk with hx | hx | hx
    · exact absurd hx hnl
    · exact hx
    · exact absurd hx hnr
  have hBs : ∀ z ∈ l ++ r, BalN N N (2 * N) d z := by
    intro z hz
    apply hB0.2.2.2
    rcases List.mem_append.1 hz with e | e
    · exact List.mem_append_left _ e
    · exact List.mem_append_right _ (List.mem_append_right _ e)
  have hcap : (ksl ++ ksr).length ≤ 2 * N := hB0.2.1
  have hndr := addrs_nodup_root d a _ _ hnd
  have hac : a ∉ BTree.addrs d c := hndr.1 c hcm
  have hsubc : ∀ x ∈ BTree.addrs d c,
      x ∈ BTree.addrs (d + 1) (a, ksl ++ ksr, l ++ ([c] ++ r)) :=
    fun x hx => addrs_child_subset d a _ _ c hcm x hx
  have hlt : lo1 < hi1 := by omega
  have hlenrow : (ksl ++ ksr).length = l.length + r.length := by
    simp only [List.length_append]
    omega
  have hrootz : ∀ c1 : BTree d, BTree.addr d c1 = BTree.addr d c →
      ∀ z ∈ l ++ ([c1] ++ r), BTree.addr d z ≠ s.root := by
    intro c1 hc1 z hz e
    simp only [List.mem_append, List.mem_singleton] at hz
    rcases hz with hz | hz | hz
    · exact hroot z (List.mem_append_left _ hz) (e ▸ addr_mem_addrs d z)
    · subst hz
      rw [hc1] at e
      exact hroot c hcm (e ▸ addr_mem_addrs d c)
    · exact hroot z (List.mem_append_right _ (List.mem_append_right _ hz))
        (e ▸ addr_mem_addrs d z)
  rcases twinStep_cases N d a ksl ksr l r c lo hi lo1 key tw hO hkl hkr hpre hl1 hidx hcap htw with
    ⟨hts, htn, hr0, hksr0, hkey, ksl0, l0, cl, hksl, hll, hkl0⟩ | ⟨hts, htw2⟩
  · -- the node itself is the twin
    subst hr0
    subst hksr0
    subst hksl
    subst hll
    have etw : (ksl0 ++ [key]).length - 1 = ksl0.length := by simp
    rw [hts, etw]
    have hTwc : TwinIn N (some a, ksl0.length) key lo1 (BTree.addrs d c) :=
      Or.inr ⟨hkey, by
        simp only [List.length_append, List.length_singleton, List.length_nil] at hcap
        show ksl0.length < 2 * N + 1
        omega, a, rfl, hac⟩
    obtain ⟨s1, c1, twp, hP, hmem, hlen, hcase⟩ :=
      ih c hcm _ lo1 hi1 _ hTc hco hl1 hh1 hkc hTwc
    have hmemr := row_mem_erase d a ((ksl0 ++ [key]) ++ [])
      ((ksl0 ++ [(BTree.contents d c1).headD 0]) ++ []) (l0 ++ [cl]) [] c c1 key hmem hnl hnr
    have hlenr := row_len_erase d a ((ksl0 ++ [key]) ++ [])
      ((ksl0 ++ [(BTree.contents d c1).headD 0]) ++ []) (l0 ++ [cl]) [] c c1 hlen
    have hmemp := row_mem_erase d a ((ksl0 ++ [key]) ++ []) ((ksl0 ++ [key]) ++ [])
      (l0 ++ [cl]) [] c c1 key hmem hnl hnr
    have hlenp := row_len_erase d a ((ksl0 ++ [key]) ++ []) ((ksl0 ++ [key]) ++ [])
      (l0 ++ [cl]) [] c c1 hlen
    have hlift : ∀ mn1, BalN N mn1 (2 * N) d c1 → (d = 0 → 1 ≤ mn1) →
        twp = (some a, ksl0.length) →
        Post s s1 (d + 1) (a, (ksl0 ++ [key]) ++ [], (l0 ++ [cl]) ++ ([c] ++ []))
          (a, (ksl0 ++ [(BTree.contents d c1).headD 0]) ++ [], (l0 ++ [cl]) ++ ([c1] ++ []))
          par nx lo hi (none, 0)
          (BTree.contents (d + 1)
            (a, (ksl0 ++ [(BTree.contents d c1).headD 0]) ++ [], (l0 ++ [cl]) ++ ([c1] ++ [])))
          (s.element_counter - 1) := by
      intro mn1 hb1 hm1 htp
      obtain ⟨hne, hrs⟩ := keyOrd_raise N hN d c1 lo1 hi1 mn1 hP.ord hb1 hm1
      have hvb := (contents_bounds d c1 lo1 hi1 hP.ord).1 _ (headD_mem _ hne)
      rw [htp] at hP
      exact lift_post_twin d s s1 a ksl0 key l0 cl c c1 par nx lo hi lo1 hi1 _ _ hT hnd hkl0
        hpre hpost hP rfl (by omega) hvb.2 hrs
    rcases hcase with ⟨hBc, htp, hR⟩ | ⟨hBc, ⟨hd0, htp, hR⟩ | ⟨hd1, htp, tw1, hR⟩⟩
    · rw [hR]
      have hProw := post_twin_none _ _ _ _ _ _ _ _ _ tw _ _ htn (hlift N hBc (fun _ => hN) htp)
      exact settled_row N f key s s1 d a _ _ (l0 ++ [cl]) [] c c1 par nx lo hi tw hProw
        (by simp; omega) (by simp) (by simp) (by simpa using hcap) hBc hBs hmin hmemr hlenr
    · subst hd0
      rw [htp] at hP
      have hProw := lift_post_plain 0 s s1 a (ksl0 ++ [key]) [] (l0 ++ [cl]) [] c c1 par nx
        lo hi lo1 hi1 (none, 0) _ hT hnd hkl hkr hpre hpost hlt hP (Or.inl rfl)
      have hae := hP.addr_eq
      rw [← hae] at hR
      apply row_finish N f hN key s s1 0 a _ _ (l0 ++ [cl]) [] c c1 par nx lo hi tw (none, 0)
        (some a, ksl0.length) (twOut a (some a, ksl0.length)) _ hProw hlenrow rfl h1 hcap hBc hBs
        (hrootz c1 hae) hmin (stealRightOK_leaf N hN s1 a _) (stealLeftOK_leaf N hN s1 a _)
        (mergeLeftOK_leaf N hN s1 a key _) (mergeRightOK_leaf N hN s1 a _)
        (fun _ => Or.inr (Or.inl ⟨rfl, by simp [hkl0], rfl⟩)) hf hR ?_ hmemp hlenp
      intro s2 t2 hP2
      have h3 := post_trans_nt _ _ _ _ _ _ _ _ _ _ _ _ _ _ _ _ hProw hP2
      rw [twOut_of_eq a _ rfl] at h3
      exact post_twin_none _ _ _ _ _ _ _ _ _ tw _ _ htn
        (post_recast _ _ _ _ _ _ _ _ _ _ _ _ _ h3 hProw.count_eq)
    · obtain ⟨d1, rfl⟩ : ∃ d1, d = d1 + 1 := ⟨d - 1, by omega⟩
      have hProw := hlift (N - 1) (balN_under N _ c1 hBc) (fun e => by omega) htp
      have hae := hP.addr_eq
      rw [← hae] at hR
      apply row_finish N f hN key s s1 (d1 + 1) a _ _ (l0 ++ [cl]) [] c c1 par nx lo hi tw
        (none, 0) tw1 (none, 0) _ hProw (by simp; omega) (by simp) (by simp)
        (by simpa using hcap) hBc hBs
        (hrootz c1 hae) hmin (stealRightOK_int N d1 hN s1 a _) (stealLeftOK_int N d1 hN s1 a _)
        (mergeLeftOK_int N d1 hN s1 a key _) (mergeRightOK_int N d1 hN s1 a _)
        (fun e => by omega) hf hR ?_ hmemr hlenr
      intro s2 t2 hP2
      have h3 := post_trans_nt _ _ _ _ _ _ _ _ _ _ _ _ _ _ _ _ hProw hP2
      exact post_twin_none _ _ _ _ _ _ _ _ _ tw _ _ htn
        (post_recast _ _ _ _ _ _ _ _ _ _ _ _ _ h3 hProw.count_eq)
  · -- the twin does not change at this node
    rw [hts]
    have hTwc : TwinIn N tw key lo1 (BTree.addrs d c) := by
      rcases htw2 with h0 | ⟨_, hk1, h2, p, h3, h4⟩
      · exact Or.inl h0
      · exact Or.inr ⟨hk1, h2, p, h3, fun hx => h4 (hsubc p hx)⟩
    obtain ⟨s1, c1, twp, hP, hmem, hlen, hcase⟩ :=
      ih c hcm _ lo1 hi1 tw hTc hco hl1 hh1 hkc hTwc
    have hmemr := row_mem_erase d a (ksl ++ ksr) (ksl ++ ksr) l r c c1 key hmem hnl hnr
    have hlenr := row_len_erase d a (ksl ++ ksr) (ksl ++ ksr) l r c c1 hlen
    have hta : tw.1 ≠ some a := by
      rcases htw2 with h0 | ⟨_, _, _, p, h3, h4⟩
      · rw [h0]
        simp
      · rw [h3]
        intro e
        injection e with e
        subst e
        exact h4 (mem_row_self _ _ _ _)
    have hlift : ∀ mn1, BalN N mn1 (2 * N) d c1 → (d = 0 → 1 ≤ mn1) → twp = tw →
        Post s s1 (d + 1) (a, ksl ++ ksr, l ++ ([c] ++ r)) (a, ksl ++ ksr, l ++ ([c1] ++ r))
          par nx lo hi tw (BTree.contents (d + 1) (a, ksl ++ ksr, l ++ ([c1] ++ r)))
          (s.element_counter - 1) := by
      intro mn1 hb1 hm1 htp
      obtain ⟨hne, _⟩ := keyOrd_raise N hN d c1 lo1 hi1 mn1 hP.ord hb1 hm1
      rw [htp] at hP
      apply lift_post_plain d s s1 a ksl ksr l r c c1 par nx lo hi lo1 hi1 tw _ hT hnd hkl hkr
        hpre hpost hlt hP
      rcases htw2 with h0 | ⟨hl0, _, _, p, h3, h4⟩
      · exact Or.inl h0
      · exact Or.inr ⟨hl0, hne, p, h3, h4⟩
    rcases hcase with ⟨hBc, htp, hR⟩ | ⟨hBc, ⟨hd0, htp, hR⟩ | ⟨hd1, htp, tw1, hR⟩⟩
    · rw [hR]
      exact settled_row N f key s s1 d a _ _ l r c c1 par nx lo hi tw
        (hlift N hBc (fun _ => hN) htp) hlenrow rfl h1 hcap hBc hBs hmin hmemr hlenr
    · subst hd0
      rw [htp] at hP
      have hProw := lift_post_plain 0 s s1 a ksl ksr l r c c1 par nx
        lo hi lo1 hi1 (none, 0) _ hT hnd hkl hkr hpre hpost hlt hP (Or.inl rfl)
      have hae := hP.addr_eq
      rw [← hae] at hR
      apply row_finish N f hN key s s1 0 a _ _ l r c c1 par nx lo hi tw (none, 0)
        tw (twOut a tw) _ hProw hlenrow rfl h1 hcap hBc hBs
        (hrootz c1 hae) hmin (stealRightOK_leaf N hN s1 a _) (stealLeftOK_leaf N hN s1 a _)
        (mergeLeftOK_leaf N hN s1 a key _) (mergeRightOK_leaf N hN s1 a _) ?_ hf hR ?_
        hmemr hlenr
      · intro _
        rcases htw2 with h0 | ⟨hl0, _, h2, p, h3, h4⟩
        · exact Or.inl h0
        · exact Or.inr (Or.inr ⟨p, h3, fun hx => h4 (hProw.sub p hx), by rw [hl0]; rfl, h2⟩)
      · intro s2 t2 hP2
        have h3 := post_trans_nt _ _ _ _ _ _ _ _ _ _ _ _ _ _ _ _ hProw hP2
        rw [twOut_of_ne a _ hta] at h3
        exact post_recast _ _ _ _ _ _ _ _ _ _ _ _ _ h3 hProw.count_eq
    · obtain ⟨d1, rfl⟩ : ∃ d1, d = d1 + 1 := ⟨d - 1, by omega⟩
      have hProw := hlift (N - 1) (balN_under N _ c1 hBc) (fun e => by omega) htp
      have hae := hP.addr_eq
      rw [← hae] at hR
      apply row_finish N f hN key s s1 (d1 + 1) a _ _ l r c c1 par nx lo hi tw
        tw tw1 (none, 0) _ hProw hlenrow rfl h1 hcap hBc hBs
        (hrootz c1 hae) hmin (stealRightOK_int N d1 hN s1 a _) (stealLeftOK_int N d1 hN s1 a _)
        (mergeLeftOK_int N d1 hN s1 a key _) (mergeRightOK_int N d1 hN s1 a _)
        (fun e => by omega) hf hR ?_ hmemr hlenr
      intro s2 t2 hP2
      have h3 := post_trans_tn _ _ _ _ _ _ _ _ _ _ _ _ _ _ _ _ hProw hP2
        (by rw [hP2.cont_eq])
      exact post_recast _ _ _ _ _ _ _ _ _ _ _ _ _ h3 hProw.count_eq


/-! ## The descent of `erase` and the subtrees below the root -/

theorem equal_iff (key k : Nat) : ADS_set.equal key k = true ↔ key = k := by
  unfold ADS_set.equal
  simp only [Bool.and_eq_true, Bool.not_eq_true', decide_eq_false_iff_not]
  omega

/-- `find_leaf_with_twin` reaches the leaf that the description routes `key` to and
returns the twin of the description. -/
theorem flt_route (N : Nat) (hN : 0 < N) (s : ADS_set) (key : Nat) :
    ∀ (d : Nat) (t : BTree d) (f : Nat) (par nx : Option Nat) (mn : Nat)
      (tw : Option Nat × Nat), d < f →
      TreeAt s.heap d par nx t → BalN N mn (2 * N) d t → (0 < d → 1 ≤ mn) →
      ADS_set.find_leaf_with_twin N f s (BTree.addr d t) key tw =
        .ok ((BTree.route d t key).1, BTree.twin d t key tw) := by
  intro d
  induction d with
  | zero =>
    intro t f par nx mn tw hf ht _ _
    cases f with
    | zero => omega
    | succ f =>
      rw [treeAt_zero] at ht
      simp [ADS_set.find_leaf_with_twin, BTree.addr, BTree.route, BTree.twin, ht.1]
  | succ d ih =>
    intro t f par nx mn tw hf ht hb hmn
    obtain ⟨a, ks, cs⟩ := t
    cases f with
    | zero => omega
    | succ f =>
      rw [treeAt_succ] at ht
      rw [balN_succ] at hb
      obtain ⟨hn, hk⟩ := ht
      have hk1 : 1 ≤ ks.length := le_trans (hmn (by omega)) hb.1
      have hkc : (s.heap a).keys_counter = ks.length := hn.2.1.1
      have hcc : (s.heap a).children_counter = cs.length := by
        have := hn.2.2.1.1
        simpa using this
      have hri := routeIdx_le ks key
      have hi : routeIdx ks key < cs.length := by omega
      have hch := hn.child (i := routeIdx ks key) (by simpa using hi)
      simp only [List.getElem_map] at hch
      have hroute : BTree.route (d + 1) (a, ks, cs) key = BTree.route d cs[routeIdx ks key] key := by
        simp [BTree.route, List.getElem?_eq_getElem hi]
      have htwin : BTree.twin (d + 1) (a, ks, cs) key tw =
          BTree.twin d cs[routeIdx ks key] key (twinStep a ks key tw) := by
        simp [BTree.twin, List.getElem?_eq_getElem hi]
      have hrec := ih cs[routeIdx ks key] f (some a) _ N (twinStep a ks key tw) (by omega)
        (kidsAt_get _ _ cs nx hk _ hi) (hb.2.2.2 _ (List.getElem_mem _)) (fun _ => hN)
      rw [hroute, htwin, ← hrec]
      simp only [ADS_set.find_leaf_with_twin, BTree.addr, hn.1, Bool.not_false, if_true]
      rw [route_scan_spec N (s.heap a) key ks hn.2.1 (by omega)]
      simp only [ok_bind]
      by_cases c : routeIdx ks key < ks.length
      · simp only [c, if_true]
        have hkey : key < ks[routeIdx ks key] := by
          have := @List.findIdx_getElem _ (fun k => decide (key < k)) ks c
          simpa using this
        have hki : (s.heap a).keys (routeIdx ks key) = ks[routeIdx ks key] :=
          (hn.2.1.getElem c).symm
        have hne : ADS_set.equal key ((s.heap a).keys (routeIdx ks key)) = false := by
          rw [Bool.eq_false_iff]
          intro e
          rw [equal_iff, hki] at e
          omega
        have hts : twinStep a ks key tw = tw := by
          unfold twinStep
          rw [if_neg]
          intro e
          omega
        rw [getKey_ok N _ (by omega), ok_bind, hne, getChild_ok N _ (by omega), ok_bind, hch, hts]
        simp [deref, BTree.addr]
      · simp only [c, if_false]
        have e : routeIdx ks key = ks.length := by omega
        have hz : ¬ (s.heap a).children_counter < 2 := by omega
        have e2 : (s.heap a).children_counter - 1 = routeIdx ks key := by omega
        have e3 : (s.heap a).children_counter - 2 = ks.length - 1 := by omega
        have hlast : ks.getLast? = some ((s.heap a).keys (ks.length - 1)) := by
          rw [List.getLast?_eq_getElem?, hn.2.1.2 (ks.length - 1) (by omega)]
        have hts : (if ADS_set.equal key ((s.heap a).keys (ks.length - 1)) = true then
            (some a, ks.length - 1) else tw) = twinStep a ks key tw := by
          unfold twinStep
          by_cases hq : key = (s.heap a).keys (ks.length - 1)
          · rw [if_pos ((equal_iff _ _).2 hq), if_pos ⟨e, by rw [hlast, ← hq]⟩]
          · rw [if_neg (fun h => hq ((equal_iff _ _).1 h)), if_neg]
            intro h
            rw [hlast] at h
            injection h.2 with h2
            exact hq h2.symm
        rw [if_neg hz, e3, getKey_ok N _ (by omega), ok_bind, getChild_ok N _ (by omega),
          ok_bind, e2, hch, hts]
        simp [deref, BTree.addr]

/-- `erase` below a subtree that is not the whole tree and holds `key`. -/
theorem erase_subtree (N f : Nat) (hN : 0 < N) (key : Nat) (s : ADS_set)
    (hleaf : (s.heap s.root).leaf = false) :
    ∀ (d : Nat) (t : BTree d) (par nx : Option Nat) (lo hi : Nat) (tw : Option Nat × Nat),
      TreeAt s.heap d par nx t → KeyOrd d lo hi t → BalN N N (2 * N) d t →
      (BTree.addrs d t).Nodup → s.root ∉ BTree.addrs d t →
      lo ≤ key → key < hi → key ∈ BTree.contents d t →
      TwinIn N tw key lo (BTree.addrs d t) → d ≤ f →
      EraOut N f key s d t par nx lo hi tw
        (ADS_set.erase_at N f s key (BTree.route d t key).1 (BTree.twin d t key tw)) := by
  intro d
  induction d with
  | zero =>
    intro t par nx lo hi tw hT hO hB _ _ _ _ hk htw _
    obtain ⟨c, ks⟩ := t
    exact erase_leaf N f hN key s c ks par nx lo hi tw hT hO hB hk hleaf htw
  | succ d ih =>
    intro t par nx lo hi tw hT hO hB hnd hrt hlo hhi hk htw hf
    obtain ⟨a, ks, cs⟩ := t
    have hB0 := hB
    rw [balN_succ] at hB0
    have hndr := addrs_nodup_root d a _ _ hnd
    have har : a ≠ s.root := by
      intro e
      apply hrt
      rw [← e]
      exact mem_row_self _ _ _ _
    have hrow := erase_row N f hN key s d a ks cs par nx lo hi tw N hT hO hB
      (le_trans hN hB0.1) (fun _ => hB0.1) hnd
      (fun z hz hx => hrt (addrs_child_subset d a ks cs z hz _ hx)) hlo hhi hk htw hf
      (fun c hc nx1 lo1 hi1 twc hTc hOc h1 h2 hkc htc =>
        ih c (some a) nx1 lo1 hi1 twc hTc hOc (hB0.2.2.2 c hc)
          (flatten_nodup_mem _ _ hndr.2 c hc)
          (fun hx => hrt (addrs_child_subset d a ks cs c hc _ hx)) h1 h2 hkc htc (by omega))
    rcases hrow with ⟨s1, t1, tw1, hP, hmem, hlen, hB2, _, hR⟩ | ⟨_, _, _, _, _, hroot, _⟩
    · have hkl : N - 1 ≤ (BTree.keys (d + 1) t1).length := by
        have h2 := (balN_keys N _ _ (d + 1) t1 hB2).1
        simp only [BTree.keys] at h2 ⊢
        omega
      have hku := (balN_keys N _ _ (d + 1) t1 hB2).2
      by_cases hlt : (BTree.keys (d + 1) t1).length < N
      · rw [if_pos ⟨hlt, har⟩] at hR
        exact ⟨s1, t1, tw, hP, hmem, hlen, Or.inr
          ⟨balN_of_keys N _ _ _ _ (d + 1) t1 hB2 hkl (by omega),
            Or.inr ⟨by omega, rfl, tw1, hR⟩⟩⟩
      · rw [if_neg (fun h => hlt h.1)] at hR
        exact ⟨s1, t1, tw, hP, hmem, hlen, Or.inl
          ⟨balN_of_keys N _ _ _ _ (d + 1) t1 hB2 (by omega) hku, rfl, hR⟩⟩
    · exact absurd hroot har


/-! ## `erase` on a well-formed tree -/

theorem erase_eq (N : Nat) (s : ADS_set) (key : Nat) :
    ADS_set.erase N s key =
      if s.element_counter = 0 then .ok (s, 0)
      else ADS_set.find_leaf_with_twin N s.fuel s s.root key (none, 0) >>=
        fun x => ADS_set.erase_at N s.fuel s key x.1 x.2 := by
  unfold ADS_set.erase ADS_set.erase_at
  rfl

/-- The leaf a search reaches holds as many keys as the balance demands. -/
theorem route_len (N : Nat) (key : Nat) :
    ∀ (d : Nat) (t : BTree d) (mn : Nat), BalN N mn (2 * N) d t →
      (if d = 0 then mn else N) ≤ (BTree.route d t key).2.length := by
  intro d
  induction d with
  | zero =>
    intro t mn hb
    exact hb.1
  | succ d ih =>
    intro t mn hb
    obtain ⟨a, ks, cs⟩ := t
    rw [balN_succ] at hb
    have hri := routeIdx_le ks key
    have hi : routeIdx ks key < cs.length := by omega
    rw [route_succ d a ks cs key hi]
    have := ih cs[routeIdx ks key] N (hb.2.2.2 _ (List.getElem_mem _))
    simp only [Nat.succ_ne_zero, if_false]
    split_ifs at this <;> exact this

theorem rootMin_pos (d : Nat) (h : 0 < d) : 1 ≤ rootMin d := by
  unfold rootMin
  rw [if_neg (by omega)]

/-- `erase` of a key that is not stored returns 0 and changes nothing. -/
theorem erase_absent (N : Nat) (hN : 0 < N) (s : ADS_set) (d : Nat) (t : BTree d) (hi : Nat)
    (g : GoodT N s d t hi) (key : Nat) (hk : key ∉ BTree.contents d t) :
    ADS_set.erase N s key = .ok (s, 0) := by
  rw [erase_eq]
  split_ifs with h0
  · rfl
  · have hw : KeyOrd d 0 (max hi (key + 1)) t :=
      keyOrd_weaken d t 0 hi 0 _ (le_refl _) (le_max_left _ _) g.ord
    obtain ⟨par1, nx1, r1, r2, r3, r4⟩ := route_leaf N s.heap key d t none none 0 _ _
      g.tree hw g.bal (Nat.zero_le _) (by omega)
    have hfl := flt_route N hN s key d t s.fuel none none _ (none, 0) (good_fuel N s d t hi g)
      g.tree g.bal (rootMin_pos d)
    rw [g.root_eq] at hfl
    rw [hfl]
    simp only [ok_bind]
    have hkc := r1.2.1.1
    have hlen := route_len N key d t _ g.bal
    have hpos : 0 < (BTree.route d t key).2.length := by
      by_cases hd : d = 0
      · subst hd
        have hc := g.count_eq
        have : BTree.route 0 t key = t := rfl
        rw [this]
        have e : BTree.contents 0 t = t.2 := rfl
        rw [e] at hc
        omega
      · rw [if_neg hd] at hlen
        omega
    obtain ⟨m, b, e1, hb, _, _⟩ := binary_search_call N _ key _ r1.2.1 r2 (by omega)
      ((s.heap (BTree.route d t key).1).keys_counter : Int) (Or.inr ⟨rfl, by omega⟩)
    have hbf : b = false := by
      cases b with
      | false => rfl
      | true => exact absurd (r4.2 (hb.1 rfl)) hk
    subst hbf
    unfold ADS_set.erase_at
    simp only [e1, ok_bind, Bool.not_false, if_true]

/-- The root collapse after the two children of a root with one separator came to hold
`2N - 1` keys together. -/
theorem good_merge_root (N : Nat) (hN : 0 < N) (s1 : ADS_set) (d : Nat) (k1 : Nat)
    (x1 y1 : BTree d) (hi : Nat)
    (hT : TreeAt s1.heap (d + 1) none none (s1.root, [k1], [x1, y1]))
    (hO : KeyOrd (d + 1) 0 hi (s1.root, [k1], [x1, y1]))
    (hnd : (BTree.addrs (d + 1) (s1.root, [k1], [x1, y1])).Nodup)
    (hBx : BalN N (N - 1) N d x1) (hBy : BalN N (N - 1) N d y1)
    (hsum : (BTree.keys d x1).length + (BTree.keys d y1).length + 1 = 2 * N) :
    ∃ (s2 : ADS_set) (t2 : BTree d), ADS_set.merge_root N s1 = .ok s2 ∧
      TreeAt s2.heap d none none t2 ∧ KeyOrd d 0 hi t2 ∧
      BalN N (rootMin d) (2 * N) d t2 ∧ (BTree.addrs d t2).Nodup ∧
      (∀ x ∈ BTree.addrs d t2, x ∈ BTree.addrs (d + 1) (s1.root, [k1], [x1, y1])) ∧
      BTree.contents d t2 = BTree.contents (d + 1) (s1.root, [k1], [x1, y1]) ∧
      BTree.addr d t2 = s1.root ∧
      s2.nxt = s1.nxt ∧ s2.root = s1.root ∧ s2.depth = s1.depth - 1 ∧
      s2.element_counter = s1.element_counter := by
  obtain ⟨h0, hOx, hkh, hOy⟩ := hO
  cases d with
  | zero =>
    obtain ⟨xa, xks⟩ := x1
    obtain ⟨ya, yks⟩ := y1
    simp only [BTree.keys] at hsum
    obtain ⟨s2, hm, hT2, _, hn, hr, hd, he⟩ := merge_root_leaf N s1 k1 xa ya xks yks hT hnd
      (by omega) (by omega)
    refine ⟨s2, (s1.root, xks ++ yks), hm, hT2, ?_, ?_, ?_, ?_, ?_, rfl, hn, hr, hd, he⟩
    · refine ⟨?_, ?_⟩
      · rw [List.pairwise_append]
        refine ⟨hOx.1, hOy.1, ?_⟩
        intro p hp q hq
        have := (hOx.2 p hp).2
        have := (hOy.2 q hq).1
        omega
      · intro p hp
        rcases List.mem_append.1 hp with e | e
        · have := hOx.2 p e
          omega
        · have := hOy.2 p e
          omega
    · show rootMin 0 ≤ (xks ++ yks).length ∧ (xks ++ yks).length ≤ 2 * N
      simp only [List.length_append, rootMin, if_true]
      omega
    · simp [BTree.addrs]
    · intro x hx
      simp only [BTree.addrs, List.mem_singleton] at hx
      subst hx
      exact mem_row_self _ _ _ _
    · simp [BTree.contents]
  | succ d1 =>
    obtain ⟨xa, xks, xcs⟩ := x1
    obtain ⟨ya, yks, ycs⟩ := y1
    simp only [BTree.keys] at hsum
    have hxl : xcs.length = xks.length + 1 := hBx.2.2.1
    have hyl : ycs.length = yks.length + 1 := hBy.2.2.1
    obtain ⟨s2, hm, hT2, _, hn, hr, hd, he⟩ := merge_root_int N d1 s1 k1 xa ya xks yks xcs ycs
      hT hnd hxl hyl (by omega) (by omega)
    have hpn := pair_nodup d1 s1.root xa ya [k1] xks yks [] [] xcs ycs hnd
    refine ⟨s2, (s1.root, xks ++ k1 :: yks, xcs ++ ycs), hm, hT2, ?_, ?_, ?_, ?_, ?_, rfl,
      hn, hr, hd, he⟩
    · rw [keyOrd_succ]
      exact ordKids_join _ xks xcs yks ycs 0 k1 hi hOx hOy
    · rw [balN_succ]
      refine ⟨?_, ?_, ?_, ?_⟩
      · simp only [List.length_append, List.length_cons, rootMin]
        rw [if_neg (by omega)]
        omega
      · simp only [List.length_append, List.length_cons]
        omega
      · simp only [List.length_append, List.length_cons]
        omega
      · intro c hc
        rcases List.mem_append.1 hc with e | e
        · exact hBx.2.2.2 c e
        · exact hBy.2.2.2 c e
    · rw [addrs_succ, List.nodup_cons]
      obtain ⟨p1, p2⟩ := hpn
      refine ⟨?_, ?_⟩
      · intro hx
        apply p2
        simp only [List.map_append, List.flatten_append, List.mem_append, List.mem_cons] at hx ⊢
        rcases hx with hx | hx
        · exact Or.inr (Or.inl hx)
        · exact Or.inr (Or.inr (Or.inr hx))
      · simp only [List.map_append, List.flatten_append]
        have p3 := (List.nodup_cons.mp p1).2
        rw [List.nodup_append] at p3 ⊢
        refine ⟨p3.1, (List.nodup_cons.mp p3.2.1).2, ?_⟩
        intro z hz1 hz2
        exact p3.2.2 hz1 (List.mem_cons_of_mem _ hz2)
    · intro x hx
      rw [addrs_succ] at hx ⊢
      simp only [List.mem_cons, List.map_append, List.flatten_append, List.mem_append,
        List.map_cons, List.map_nil, List.flatten_cons, List.flatten_nil, List.append_nil,
        addrs_succ] at hx ⊢
      rcases hx with hx | hx | hx
      · exact Or.inl hx
      · exact Or.inr (Or.inl (Or.inr hx))
      · exact Or.inr (Or.inr (Or.inr hx))
    · simp [BTree.contents]

/-- `erase` of a stored key when the root is a leaf. -/
theorem erase_root_leaf (N : Nat) (hN : 0 < N) (s : ADS_set) (t : BTree 0) (hi : Nat)
    (g : GoodT N s 0 t hi) (key : Nat) (hk : key ∈ BTree.contents 0 t) :
    ∃ (s1 : ADS_set) (t1 : BTree 0), ADS_set.erase N s key = .ok (s1, 1) ∧
      GoodT N s1 0 t1 hi ∧
      (∀ x, x ∈ BTree.contents 0 t1 ↔ x ∈ BTree.contents 0 t ∧ x ≠ key) ∧
      s1.nxt = s.nxt := by
  obtain ⟨c, ks⟩ := t
  have hr : c = s.root := g.root_eq
  have hL : LeafAt (s.heap c) ks none none := g.tree
  have hkc := hL.2.1.1
  have hB2 : ks.length ≤ 2 * N := g.bal.2
  have hks : key ∈ ks := hk
  have hpos : 0 < ks.length := List.length_pos_of_mem hks
  have hec : s.element_counter ≠ 0 := by
    have := g.count_eq
    simp only [BTree.contents] at this
    omega
  have hfl := flt_route N hN s key 0 (c, ks) s.fuel none none _ (none, 0)
    (good_fuel N s 0 (c, ks) hi g) g.tree g.bal (fun h => by omega)
  simp only [BTree.addr, BTree.route, BTree.twin] at hfl
  obtain ⟨m, b, hbs, hb1, hb2, _⟩ := binary_search_call N (s.heap c) key ks hL.2.1 g.ord.1
    (by omega) ((s.heap c).keys_counter : Int) (Or.inr ⟨rfl, by omega⟩)
  have hbt : b = true := hb1.2 hks
  subst hbt
  obtain ⟨hm0, hm1, hm2⟩ := hb2 rfl
  have hil : m.toNat < ks.length := by omega
  have hki : ks[m.toNat] = key := by
    rw [hL.2.1.getElem hil]
    exact hm2
  obtain ⟨s1, hd, hP, hmem, hlen, _, _, _, _⟩ :=
    delete_leaf N s c ks none none 0 hi m.toNat key g.tree g.ord (by omega) hil hki
  have hl1 : (ks.eraseIdx m.toNat).length = ks.length - 1 := List.length_eraseIdx_of_lt hil
  refine ⟨s1, (c, ks.eraseIdx m.toNat), ?_, ?_, hmem, hP.nxt_eq⟩
  · rw [erase_eq, if_neg hec, ← hr, hfl]
    simp only [ok_bind]
    unfold ADS_set.erase_at
    simp only [hbs, ok_bind, Bool.not_true, Bool.false_eq_true, if_false]
    rw [if_pos (Or.inr (Or.inr (by rw [← hr]; exact hL.1))), hd]
    simp only [ok_bind]
    rw [fix_twin_none N s1 c _ rfl]
    rfl
  · exact {
      depth_eq := hP.depth_eq.trans g.depth_eq
      root_eq := hr.trans hP.root_eq.symm
      tree := hP.tree
      ord := hP.ord
      bal := by
        show rootMin 0 ≤ (ks.eraseIdx m.toNat).length ∧ (ks.eraseIdx m.toNat).length ≤ 2 * N
        simp only [rootMin, if_true]
        omega
      nodup := hP.nodup
      alloc := by
        intro x hx
        rw [hP.nxt_eq]
        exact g.alloc x (hP.sub x hx)
      count_eq := by
        rw [hP.count_eq, g.count_eq]
        omega }

/-- `erase` of a stored key when the root is an internal node: the tree stays well formed
and keeps its height, or loses one level by the collapse of the root. -/
theorem erase_root_node (N : Nat) (hN : 0 < N) (s : ADS_set) (d : Nat) (t : BTree (d + 1))
    (hi : Nat) (g : GoodT N s (d + 1) t hi) (key : Nat)
    (hk : key ∈ BTree.contents (d + 1) t) :
    ∃ (s1 : ADS_set) (d1 : Nat) (t1 : BTree d1), ADS_set.erase N s key = .ok (s1, 1) ∧
      GoodT N s1 d1 t1 hi ∧
      (∀ x, x ∈ BTree.contents d1 t1 ↔ x ∈ BTree.contents (d + 1) t ∧ x ≠ key) ∧
      (d1 = d + 1 ∨ d1 = d) ∧ s1.nxt = s.nxt := by
  obtain ⟨a, ks, cs⟩ := t
  have hr : a = s.root := g.root_eq
  have hleaf : (s.heap s.root).leaf = false := by
    rw [← hr]
    exact g.tree.1.1
  have hec : s.element_counter ≠ 0 := by
    have := g.count_eq
    have := List.length_pos_of_mem hk
    omega
  have hfu := good_fuel N s (d + 1) (a, ks, cs) hi g
  have hfl := flt_route N hN s key (d + 1) (a, ks, cs) s.fuel none none _ (none, 0) hfu
    g.tree g.bal (rootMin_pos (d + 1))
  simp only [BTree.addr] at hfl
  have hB0 := g.bal
  rw [balN_succ] at hB0
  have hndr := addrs_nodup_root d a _ _ g.nodup
  have hkb := (contents_bounds (d + 1) (a, ks, cs) 0 hi g.ord).1 key hk
  have hrc : ∀ z ∈ cs, s.root ∉ BTree.addrs d z := by
    intro z hz
    rw [← hr]
    exact hndr.1 z hz
  have he : ADS_set.erase N s key =
      ADS_set.erase_at N s.fuel s key (BTree.route (d + 1) (a, ks, cs) key).1
        (BTree.twin (d + 1) (a, ks, cs) key (none, 0)) := by
    rw [erase_eq, if_neg hec, ← hr, hfl]
    rfl
  have hrow := erase_row N s.fuel hN key s d a ks cs none none 0 hi (none, 0) _ g.tree g.ord
    g.bal (le_trans (rootMin_pos (d + 1) (by omega)) hB0.1) (fun h => absurd hr h) g.nodup hrc
    (Nat.zero_le _) hkb.2 hk (Or.inl rfl) (by omega)
    (fun c hc nx1 lo1 hi1 twc hTc hOc h1 h2 hkc htc =>
      erase_subtree N s.fuel hN key s hleaf d c (some a) nx1 lo1 hi1 twc hTc hOc
        (hB0.2.2.2 c hc) (flatten_nodup_mem _ _ hndr.2 c hc) (hrc c hc) h1 h2 hkc htc
        (by omega))
  rw [← he] at hrow
  rcases hrow with ⟨s1, t1, tw1, hP, hmem, hlen, hB2, hk1, hR⟩ |
    ⟨s1, k1, x1, y1, twp, _, hP, hmem, hlen, hBx, hBy, hsum, hR⟩
  · refine ⟨s1, d + 1, t1, ?_, ?_, hmem, Or.inl rfl, hP.nxt_eq⟩
    · rw [hR, if_neg]
      intro h
      exact h.2 hr
    · exact {
        depth_eq := hP.depth_eq.trans g.depth_eq
        root_eq := by
          rw [hP.addr_eq, hP.root_eq]
          exact hr
        tree := hP.tree
        ord := hP.ord
        bal := balN_of_keys N _ _ _ _ (d + 1) t1 hB2
          (by
            have := hk1 hr
            unfold rootMin
            rw [if_neg (by omega)]
            exact this)
          (balN_keys N _ _ (d + 1) t1 hB2).2
        nodup := hP.nodup
        alloc := by
          intro x hx
          rw [hP.nxt_eq]
          exact g.alloc x (hP.sub x hx)
        count_eq := by
          rw [hP.count_eq, g.count_eq]
          omega }
  · simp only [BTree.addr] at hP hmem hlen
    subst hr
    have hre := hP.root_eq
    have hT1 := hP.tree
    have hO1 := hP.ord
    have hnd1 := hP.nodup
    rw [← hre] at hT1 hO1 hnd1
    obtain ⟨s2, t2, hm, hT2, hO2, hB2, hnd2, hsub2, hc2, ha2, hn2, hr2, hd2, he2⟩ :=
      good_merge_root N hN s1 d k1 x1 y1 hi hT1 hO1 hnd1 hBx hBy hsum
    rw [hre] at hsub2 hc2 ha2 hr2
    refine ⟨s2, d, t2, ?_, ?_, ?_, Or.inr rfl, hn2.trans hP.nxt_eq⟩
    · rw [hR, hm]
      rfl
    · exact {
        depth_eq := by
          rw [hd2, hP.depth_eq, g.depth_eq]
          push_cast
          omega
        root_eq := ha2.trans hr2.symm
        tree := hT2
        ord := hO2
        bal := hB2
        nodup := hnd2
        alloc := by
          intro x hx
          rw [hn2, hP.nxt_eq]
          exact g.alloc x (hP.sub x (hsub2 x hx))
        count_eq := by
          rw [he2, hP.count_eq, g.count_eq, hc2]
          omega }
    · intro x
      rw [hc2]
      exact hmem x

/-- `erase` on a well-formed tree: it returns 1 exactly when the key is stored, the tree
stays well formed and holds the other keys, its height stays or goes down by one, and a
call that returns 0 changes nothing. -/
theorem erase_good (N : Nat) (hN : 0 < N) (s : ADS_set) (d : Nat) (t : BTree d) (hi : Nat)
    (g : GoodT N s d t hi) (key : Nat) :
    ∃ (s1 : ADS_set) (d1 : Nat) (t1 : BTree d1),
      ADS_set.erase N s key = .ok (s1, if key ∈ BTree.contents d t then 1 else 0) ∧
      GoodT N s1 d1 t1 hi ∧
      (∀ x, x ∈ BTree.contents d1 t1 ↔ x ∈ BTree.contents d t ∧ x ≠ key) ∧
      (key ∉ BTree.contents d t → s1 = s) ∧ (d1 = d ∨ d1 + 1 = d) ∧ s1.nxt = s.nxt := by
  by_cases hk : key ∈ BTree.contents d t
  · rw [if_pos hk]
    cases d with
    | zero =>
      obtain ⟨s1, t1, he, g1, hm, hn⟩ := erase_root_leaf N hN s t hi g key hk
      exact ⟨s1, 0, t1, he, g1, hm, fun h => absurd hk h, Or.inl rfl, hn⟩
    | succ d0 =>
      obtain ⟨s1, d1, t1, he, g1, hm, hd, hn⟩ := erase_root_node N hN s d0 t hi g key hk
      refine ⟨s1, d1, t1, he, g1, hm, fun h => absurd hk h, ?_, hn⟩
      rcases hd with e | e
      · exact Or.inl e
      · exact Or.inr (by omega)
  · rw [if_neg hk]
    refine ⟨s, d, t, erase_absent N hN s d t hi g key hk, g, ?_, fun _ => rfl, Or.inl rfl, rfl⟩
    intro x
    constructor
    · intro hx
      exact ⟨hx, fun e => hk (e ▸ hx)⟩
    · exact fun h => h.1


/-! ## Every reachable tree is well formed -/

theorem init_good (N : Nat) : GoodT N ADS_set.init 0 (0, []) 0 where
  depth_eq := rfl
  root_eq := rfl
  tree := ⟨rfl, ⟨rfl, fun i hi => by simp at hi⟩, rfl, rfl⟩
  ord := ⟨List.Pairwise.nil, fun k hk => by simp at hk⟩
  bal := by
    show rootMin 0 ≤ 0 ∧ 0 ≤ 2 * N
    simp [rootMin]
  nodup := by simp [BTree.addrs]
  alloc := by
    intro x hx
    simp only [BTree.addrs, List.mem_singleton] at hx
    subst hx
    show 0 < 1
    omega
  count_eq := rfl

theorem apply_good (N : Nat) (hN : 0 < N) (s : ADS_set) (h : Good N s) (o : Op) :
    ∃ s1, ADS_set.apply N s o = .ok s1 ∧ Good N s1 := by
  obtain ⟨d, t, hi, g⟩ := h
  cases o with
  | ins k =>
    obtain ⟨s1, it, d1, t1, hi1, h1, g1, _⟩ := insert_good N hN s d t hi g k
    refine ⟨s1, ?_, d1, t1, hi1, g1⟩
    simp [ADS_set.apply, h1]
  | era k =>
    obtain ⟨s1, d1, t1, h1, g1, _⟩ := erase_good N hN s d t hi g k
    refine ⟨s1, ?_, d1, t1, hi, g1⟩
    simp [ADS_set.apply, h1]

theorem run_good (N : Nat) (hN : 0 < N) :
    ∀ (ops : List Op) (s : ADS_set), Good N s → ∃ s1, ADS_set.run N ops s = .ok s1 ∧ Good N s1
  | [], s, h => ⟨s, rfl, h⟩
  | o :: ops, s, h => by
    obtain ⟨s1, h1, g1⟩ := apply_good N hN s h o
    obtain ⟨s2, h2, g2⟩ := run_good N hN ops s1 g1
    refine ⟨s2, ?_, g2⟩
    simp [ADS_set.run, h1, h2]

/-- Every tree reached from the empty tree by inserts and erases is well formed. -/
theorem reachable_good (N : Nat) (hN : 0 < N) (s : ADS_set) (h : Reachable N s) : Good N s := by
  obtain ⟨ops, ho⟩ := h
  obtain ⟨s1, h1, g1⟩ := run_good N hN ops ADS_set.init ⟨0, (0, []), 0, init_good N⟩
  rw [ho] at h1
  injection h1 with h1
  rw [h1]
  exact g1

theorem reachable_init (N : Nat) : Reachable N ADS_set.init := ⟨[], rfl⟩

theorem reachable_after (N : Nat) (hN : 0 < N) (ops : List Op) :
    Reachable N (ADS_set.after N ops) := by
  obtain ⟨s1, h1, _⟩ := run_good N hN ops ADS_set.init ⟨0, (0, []), 0, init_good N⟩
  refine ⟨ops, ?_⟩
  unfold ADS_set.after
  rw [h1]

theorem reachable_two : Reachable 1 ADS_set.two := reachable_after 1 (by decide) _

theorem reachable_pair : Reachable 1 ADS_set.pair := reachable_after 1 (by decide) _

theorem reachable_seven : Reachable 1 ADS_set.seven := reachable_after 1 (by decide) _

theorem reachable_three : Reachable 1 ADS_set.three := reachable_after 1 (by decide) _


/-! ## The leaf chain and the iterator -/

theorem leafChain_append (h : Nat → Node) :
    ∀ (l1 l2 : List (Nat × List Nat)) (nx : Option Nat),
      LeafChain h l1 (headFirst Prod.fst l2 nx) → LeafChain h l2 nx → LeafChain h (l1 ++ l2) nx
  | [], _, _, _, h2 => h2
  | lf :: rest, l2, nx, h1, h2 => by
    obtain ⟨a1, a2, a3, a4⟩ := h1
    refine ⟨a1, a2, ?_, leafChain_append h rest l2 nx a4 h2⟩
    rw [a3]
    exact (headFirst_append Prod.fst rest l2 nx).symm

theorem leaves_succ (d : Nat) (a : Nat) (ks : List Nat) (cs : List (BTree d)) :
    BTree.leaves (d + 1) (a, ks, cs) = (cs.map (BTree.leaves d)).flatten := rfl

/-- The leaves of a balanced tree: there is one, and the first one is the first leaf. -/
theorem leaves_head (N : Nat) :
    ∀ (d : Nat) (t : BTree d) (mn : Nat), BalN N mn (2 * N) d t →
      ∃ ks rest, BTree.leaves d t = (BTree.firstLeaf d t, ks) :: rest
  | 0, t, _, _ => ⟨t.2, [], rfl⟩
  | d + 1, t, mn, hb => by
    obtain ⟨a, ks, cs⟩ := t
    rw [balN_succ] at hb
    cases cs with
    | nil =>
      have := hb.2.2.1
      simp at this
    | cons c cs1 =>
      obtain ⟨ks1, rest, e⟩ := leaves_head N d c N (hb.2.2.2 c (by simp))
      refine ⟨ks1, rest ++ (cs1.map (BTree.leaves d)).flatten, ?_⟩
      rw [leaves_succ]
      simp only [List.map_cons, List.flatten_cons, e, List.cons_append]
      rfl

theorem headFirst_leaves (N : Nat) (d : Nat) :
    ∀ (cs : List (BTree d)) (nx : Option Nat), (∀ c ∈ cs, BalN N N (2 * N) d c) →
      headFirst Prod.fst ((cs.map (BTree.leaves d)).flatten) nx =
        headFirst (BTree.firstLeaf d) cs nx
  | [], _, _ => rfl
  | c :: cs1, nx, hb => by
    obtain ⟨ks1, rest, e⟩ := leaves_head N d c N (hb c (by simp))
    simp only [List.map_cons, List.flatten_cons, e, List.cons_append]
    rfl

/-- The leaves of a tree that is in the heap form a chain. -/
theorem treeAt_chain (N : Nat) (h : Nat → Node) :
    ∀ (d : Nat) (t : BTree d) (par nx : Option Nat) (mn : Nat), TreeAt h d par nx t →
      BalN N mn (2 * N) d t → LeafChain h (BTree.leaves d t) nx := by
  intro d
  induction d with
  | zero =>
    intro t par nx mn hT _
    obtain ⟨a, ks⟩ := t
    obtain ⟨h1, h2, _, h4⟩ := hT
    exact ⟨h1, h2, h4, trivial⟩
  | succ d ih =>
    intro t par nx mn hT hb
    obtain ⟨a, ks, cs⟩ := t
    rw [balN_succ] at hb
    rw [treeAt_succ] at hT
    rw [leaves_succ]
    have hk := hT.2
    have hbc := hb.2.2.2
    clear hT hb
    induction cs generalizing nx with
    | nil => trivial
    | cons c cs1 ih2 =>
      simp only [List.map_cons, List.flatten_cons]
      apply leafChain_append
      · rw [headFirst_leaves N d cs1 nx (fun z hz => hbc z (List.mem_cons_of_mem _ hz))]
        exact ih c (some a) _ N hk.1 (hbc c (by simp))
      · exact ih2 nx hk.2 (fun z hz => hbc z (List.mem_cons_of_mem _ hz))

theorem lastIt_cons_cons (x y : Nat × List Nat) (rest : List (Nat × List Nat)) :
    lastIt (x :: y :: rest) = lastIt (y :: rest) := by
  unfold lastIt
  rw [List.getLast?_cons_cons]

theorem lastIt_mem (x : Nat × List Nat) (rest : List (Nat × List Nat)) :
    ∃ lf ∈ x :: rest, lastIt (x :: rest) = ⟨lf.1, lf.2.length⟩ := by
  induction rest generalizing x with
  | nil => exact ⟨x, by simp, rfl⟩
  | cons y rest ih =>
    obtain ⟨lf, h1, h2⟩ := ih y
    exact ⟨lf, List.mem_cons_of_mem _ h1, by rw [lastIt_cons_cons, h2]⟩

/-- Walking a chain of leaves with `operator++`: from the key number `j` of the first leaf
the iterator passes every later key once, in valid slots, and then equals the end
position. -/
theorem chain_iter (s : ADS_set) :
    ∀ (n : Nat) (rest : List (Nat × List Nat)) (a : Nat) (ks : List Nat) (j : Nat),
      LeafChain s.heap ((a, ks) :: rest) none → (((a, ks) :: rest).map Prod.fst).Nodup →
      (∀ lf ∈ rest, lf.2 ≠ []) → j ≤ ks.length → (j = ks.length → rest = []) →
      (ks.drop j ++ (rest.map Prod.snd).flatten).length = n →
      (ADS_set.incr s)^[n] ⟨a, j⟩ = lastIt ((a, ks) :: rest) ∧
      ∀ i (hi : i < (ks.drop j ++ (rest.map Prod.snd).flatten).length),
        (ADS_set.incr s)^[i] ⟨a, j⟩ ≠ lastIt ((a, ks) :: rest) ∧
        (∃ lf ∈ (a, ks) :: rest, ((ADS_set.incr s)^[i] ⟨a, j⟩).current = lf.1) ∧
        (s.heap ((ADS_set.incr s)^[i] ⟨a, j⟩).current).leaf = true ∧
        ((ADS_set.incr s)^[i] ⟨a, j⟩).index <
          (s.heap ((ADS_set.incr s)^[i] ⟨a, j⟩).current).keys_counter ∧
        (s.heap ((ADS_set.incr s)^[i] ⟨a, j⟩).current).keys
          ((ADS_set.incr s)^[i] ⟨a, j⟩).index =
          (ks.drop j ++ (rest.map Prod.snd).flatten)[i] := by
  intro n
  induction n with
  | zero =>
    intro rest a ks j _ _ _ hj hjr hlen
    have h0 : ks.drop j = [] := by
      apply List.length_eq_zero.mp
      simp only [List.length_append] at hlen
      omega
    have hje : j = ks.length := by
      have := congrArg List.length h0
      simp only [List.length_drop, List.length_nil] at this
      omega
    have hr := hjr hje
    subst hr
    refine ⟨?_, ?_⟩
    · simp [lastIt, hje]
    · intro i hi
      simp only [h0, List.map_nil, List.flatten_nil, List.append_nil, List.length_nil] at hi
      omega
  | succ n ih =>
    intro rest a ks j hC hnd hne hj hjr hlen
    have hjl : j < ks.length := by
      by_contra hc
      have hje : j = ks.length := by omega
      have hr := hjr hje
      subst hr
      simp [hje] at hlen
    obtain ⟨c1, c2, c3, c4⟩ := hC
    simp only at c1 c2 c3
    have hkc : (s.heap a).keys_counter = ks.length := c2.1
    have hdrop : ks.drop j = ks[j] :: ks.drop (j + 1) := List.drop_eq_getElem_cons hjl
    have hkey : (s.heap a).keys j = ks[j] := (c2.getElem hjl).symm
    -- the first position is not the end
    have hfirst : (⟨a, j⟩ : Iterator) ≠ lastIt ((a, ks) :: rest) := by
      obtain ⟨lf, hm, he⟩ := lastIt_mem (a, ks) rest
      rw [he]
      intro e
      injection e with e1 e2
      rcases List.mem_cons.mp hm with h | h
      · rw [h] at e2
        have e3 : j = ks.length := e2
        omega
      · rw [List.map_cons, List.nodup_cons] at hnd
        apply hnd.1
        have e3 : a = lf.1 := e1
        exact List.mem_map.mpr ⟨lf, h, e3.symm⟩
    -- one step
    have hstep : ∃ (rest1 : List (Nat × List Nat)) (a1 : Nat) (ks1 : List Nat) (j1 : Nat),
        ADS_set.incr s ⟨a, j⟩ = ⟨a1, j1⟩ ∧ LeafChain s.heap ((a1, ks1) :: rest1) none ∧
        (((a1, ks1) :: rest1).map Prod.fst).Nodup ∧ (∀ lf ∈ rest1, lf.2 ≠ []) ∧
        j1 ≤ ks1.length ∧ (j1 = ks1.length → rest1 = []) ∧
        ks1.drop j1 ++ (rest1.map Prod.snd).flatten =
          ks.drop (j + 1) ++ (rest.map Prod.snd).flatten ∧
        lastIt ((a1, ks1) :: rest1) = lastIt ((a, ks) :: rest) ∧
        (∀ lf ∈ (a1, ks1) :: rest1, lf ∈ (a, ks) :: rest) := by
      by_cases hj1 : j + 1 < ks.length
      · refine ⟨rest, a, ks, j + 1, ?_, ⟨c1, c2, c3, c4⟩, hnd, hne, by omega,
          fun e => by omega, rfl, rfl, fun _ h => h⟩
        unfold ADS_set.incr
        simp only [hkc]
        rw [if_pos (Or.inl hj1)]
      · cases rest with
        | nil =>
          refine ⟨[], a, ks, j + 1, ?_, ⟨c1, c2, c3, c4⟩, hnd, hne, by omega, fun _ => rfl,
            rfl, rfl, fun _ h => h⟩
          unfold ADS_set.incr
          simp only [hkc]
          exact if_pos (Or.inr c3)
        | cons lb rest1 =>
          obtain ⟨b, ksb⟩ := lb
          have hnb : (s.heap a).next = some b := c3
          have hbne : ksb ≠ [] := hne (b, ksb) (by simp)
          refine ⟨rest1, b, ksb, 0, ?_, c4, ?_, fun lf hlf => hne lf (List.mem_cons_of_mem _ hlf),
            Nat.zero_le _, ?_, ?_, lastIt_cons_cons (a, ks) (b, ksb) rest1,
            fun _ h => List.mem_cons_of_mem _ h⟩
          · unfold ADS_set.incr
            simp only [hkc, hnb]
            rw [if_neg]
            intro h
            rcases h with h | h
            · omega
            · exact Option.some_ne_none _ h
          · rw [List.map_cons, List.nodup_cons] at hnd
            exact hnd.2
          · intro e
            exfalso
            apply hbne
            apply List.length_eq_zero.mp
            omega
          · have e1 : ks.drop (j + 1) = [] := List.drop_eq_nil_of_le (by omega)
            rw [e1]
            simp
    obtain ⟨rest1, a1, ks1, j1, hs, hC1, hnd1, hne1, hj1, hjr1, hout, hlast, hsub⟩ := hstep
    have hlen1 : (ks1.drop j1 ++ (rest1.map Prod.snd).flatten).length = n := by
      rw [hout]
      rw [hdrop] at hlen
      simp only [List.cons_append, List.length_cons] at hlen
      omega
    obtain ⟨i1, i2⟩ := ih rest1 a1 ks1 j1 hC1 hnd1 hne1 hj1 hjr1 hlen1
    refine ⟨?_, ?_⟩
    · rw [Function.iterate_succ_apply, hs, i1, hlast]
    · intro i hi
      cases i with
      | zero =>
        simp only [Function.iterate_zero, id_eq]
        refine ⟨hfirst, ⟨(a, ks), by simp, rfl⟩, c1, by omega, ?_⟩
        rw [hkey]
        simp only [hdrop, List.cons_append, List.getElem_cons_zero]
      | succ i0 =>
        have hi0 : i0 < (ks1.drop j1 ++ (rest1.map Prod.snd).flatten).length := by
          rw [hlen1]
          omega
        obtain ⟨k1, ⟨lf, km, ke⟩, k2, k3, k4⟩ := i2 i0 hi0
        rw [Function.iterate_succ_apply, hs]
        refine ⟨by rw [← hlast]; exact k1, ⟨lf, hsub lf km, ke⟩, k2, k3, ?_⟩
        rw [k4]
        simp only [hout, hdrop, List.cons_append, List.getElem_cons_succ]


/-! ## `begin`, `end` and the traversal of a well-formed tree -/

theorem contents_leaves :
    ∀ (d : Nat) (t : BTree d), BTree.contents d t = ((BTree.leaves d t).map Prod.snd).flatten
  | 0, t => by simp [BTree.contents, BTree.leaves]
  | d + 1, t => by
    obtain ⟨a, ks, cs⟩ := t
    rw [contents_succ, leaves_succ]
    induction cs with
    | nil => rfl
    | cons c cs1 ih =>
      simp only [List.map_cons, List.flatten_cons, List.map_append, List.flatten_append]
      rw [contents_leaves d c, ih]

theorem leaves_sublist :
    ∀ (d : Nat) (t : BTree d), List.Sublist ((BTree.leaves d t).map Prod.fst) (BTree.addrs d t)
  | 0, t => by simp [BTree.leaves, BTree.addrs]
  | d + 1, t => by
    obtain ⟨a, ks, cs⟩ := t
    rw [addrs_succ, leaves_succ]
    apply List.Sublist.cons
    induction cs with
    | nil => simp
    | cons c cs1 ih =>
      simp only [List.map_cons, List.flatten_cons, List.map_append]
      exact List.Sublist.append (leaves_sublist d c) ih

theorem leaves_bal (N : Nat) :
    ∀ (d : Nat) (t : BTree d) (mn : Nat), BalN N mn (2 * N) d t →
      ∀ lf ∈ BTree.leaves d t, (if d = 0 then mn else N) ≤ lf.2.length ∧ lf.2.length ≤ 2 * N
  | 0, t, mn, hb => by
    intro lf hlf
    simp only [BTree.leaves, List.mem_singleton] at hlf
    subst hlf
    simpa using hb
  | d + 1, t, mn, hb => by
    obtain ⟨a, ks, cs⟩ := t
    rw [balN_succ] at hb
    intro lf hlf
    rw [leaves_succ, List.mem_flatten] at hlf
    obtain ⟨l, hl, hm⟩ := hlf
    obtain ⟨c, hc, rfl⟩ := List.mem_map.mp hl
    have := leaves_bal N d c N (hb.2.2.2 c hc) lf hm
    simp only [Nat.succ_ne_zero, if_false]
    split_ifs at this <;> exact this

/-- The descent of `begin` ends in the first leaf. -/
theorem begin_loop_first (N : Nat) (s : ADS_set) :
    ∀ (d : Nat) (t : BTree d) (f : Nat) (par nx : Option Nat) (mn : Nat), d < f →
      TreeAt s.heap d par nx t → BalN N mn (2 * N) d t →
      ADS_set.begin_loop N f s (BTree.addr d t) = .ok (BTree.firstLeaf d t) := by
  intro d
  induction d with
  | zero =>
    intro t f par nx mn hf ht _
    cases f with
    | zero => omega
    | succ f =>
      rw [treeAt_zero] at ht
      simp [ADS_set.begin_loop, BTree.addr, BTree.firstLeaf, ht.1]
  | succ d ih =>
    intro t f par nx mn hf ht hb
    obtain ⟨a, ks, cs⟩ := t
    cases f with
    | zero => omega
    | succ f =>
      rw [treeAt_succ] at ht
      rw [balN_succ] at hb
      obtain ⟨hn, hk⟩ := ht
      cases cs with
      | nil =>
        have := hb.2.2.1
        simp at this
      | cons c cs1 =>
        have hch := hn.child (i := 0) (by simp)
        simp only [List.map_cons, List.getElem_cons_zero] at hch
        have hrec := ih c f (some a) _ N (by omega) hk.1 (hb.2.2.2 c (by simp))
        simp only [ADS_set.begin_loop, BTree.addr, hn.1, Bool.not_false, if_true]
        rw [getChild_ok N _ (by omega), ok_bind, hch]
        simp only [deref, ok_bind]
        rw [hrec]
        rfl

theorem lastLeaf_succ (d : Nat) (a : Nat) (ks : List Nat) (cs : List (BTree d)) (c : BTree d) :
    BTree.lastLeaf (d + 1) (a, ks, cs ++ [c]) = BTree.lastLeaf d c := by
  simp [BTree.lastLeaf]

/-- The descent of `end` ends in the last leaf. -/
theorem end_loop_last (N : Nat) (s : ADS_set) :
    ∀ (d : Nat) (t : BTree d) (f : Nat) (par nx : Option Nat) (mn : Nat), d < f →
      TreeAt s.heap d par nx t → BalN N mn (2 * N) d t →
      ADS_set.end_loop N f s (BTree.addr d t) = .ok (BTree.lastLeaf d t) := by
  intro d
  induction d with
  | zero =>
    intro t f par nx mn hf ht _
    cases f with
    | zero => omega
    | succ f =>
      rw [treeAt_zero] at ht
      simp [ADS_set.end_loop, BTree.addr, BTree.lastLeaf, ht.1]
  | succ d ih =>
    intro t f par nx mn hf ht hb
    obtain ⟨a, ks, cs⟩ := t
    cases f with
    | zero => omega
    | succ f =>
      rw [treeAt_succ] at ht
      rw [balN_succ] at hb
      obtain ⟨hn, hk⟩ := ht
      rcases List.eq_nil_or_concat cs with h | ⟨cs1, c, h⟩
      · subst h
        have := hb.2.2.1
        simp at this
      · rw [List.concat_eq_append] at h
        subst h
        have hcc : (s.heap a).children_counter = (cs1 ++ [c]).length := by
          have := hn.2.2.1.1
          simpa using this
        have hcl := hb.2.1
        have hlen := hb.2.2.1
        have hch := hn.child (i := cs1.length) (by simp)
        simp only [List.map_append, List.map_cons, List.map_nil] at hch
        rw [List.getElem_append_right (by simp)] at hch
        simp only [List.length_map, Nat.sub_self, List.getElem_cons_zero] at hch
        rw [kidsAt_append] at hk
        have hrec := ih c f (some a) _ N (by omega) hk.2.1 (hb.2.2.2 c (by simp))
        simp only [ADS_set.end_loop, BTree.addr, hn.1, Bool.not_false, if_true]
        have hz : (s.heap a).children_counter ≠ 0 := by
          rw [hcc]
          simp
        have e2 : (s.heap a).children_counter - 1 = cs1.length := by
          rw [hcc]
          simp
        rw [if_neg hz, e2, getChild_ok N _ (by
          simp only [List.length_append, List.length_singleton] at hlen
          omega), ok_bind, hch]
        simp only [deref, ok_bind]
        rw [hrec, lastLeaf_succ]


/-! ## The iterator on a well-formed tree -/

theorem leaves_last (N : Nat) :
    ∀ (d : Nat) (t : BTree d) (mn : Nat), BalN N mn (2 * N) d t →
      ∃ ks front, BTree.leaves d t = front ++ [(BTree.lastLeaf d t, ks)]
  | 0, t, _, _ => ⟨t.2, [], rfl⟩
  | d + 1, t, mn, hb => by
    obtain ⟨a, ks, cs⟩ := t
    rw [balN_succ] at hb
    rcases List.eq_nil_or_concat cs with h | ⟨cs1, c, h⟩
    · subst h
      have := hb.2.2.1
      simp at this
    · rw [List.concat_eq_append] at h
      subst h
      obtain ⟨ks1, front, e⟩ := leaves_last N d c N (hb.2.2.2 c (by simp))
      refine ⟨ks1, (cs1.map (BTree.leaves d)).flatten ++ front, ?_⟩
      rw [leaves_succ, lastLeaf_succ]
      simp only [List.map_append, List.map_cons, List.map_nil, List.flatten_append,
        List.flatten_cons, List.flatten_nil, List.append_nil, e, List.append_assoc]

theorem lastIt_append (front : List (Nat × List Nat)) (lf : Nat × List Nat) :
    lastIt (front ++ [lf]) = ⟨lf.1, lf.2.length⟩ := by
  simp [lastIt]

theorem leafChain_mem (h : Nat → Node) :
    ∀ (L : List (Nat × List Nat)) (nx : Option Nat), LeafChain h L nx →
      ∀ lf ∈ L, (h lf.1).leaf = true ∧ ArrIs (h lf.1).keys (h lf.1).keys_counter lf.2
  | [], _, _ => by simp
  | x :: rest, nx, hc => by
    intro lf hlf
    rcases List.mem_cons.mp hlf with e | e
    · subst e
      exact ⟨hc.1, hc.2.1⟩
    · exact leafChain_mem h rest nx hc.2.2.2 lf e

theorem nodup_bound : ∀ (n : Nat) (l : List Nat), l.Nodup → (∀ x ∈ l, x < n) → l.length ≤ n := by
  intro n l hn hb
  have h1 : l.toFinset ⊆ Finset.range n := by
    intro x hx
    rw [List.mem_toFinset] at hx
    exact Finset.mem_range.mpr (hb x hx)
  have h2 := Finset.card_le_card h1
  rw [List.toFinset_card_of_nodup hn, Finset.card_range] at h2
  exact h2

theorem flatten_len_le (m : Nat) :
    ∀ (L : List (List Nat)), (∀ l ∈ L, l.length ≤ m) → L.flatten.length ≤ L.length * m
  | [], _ => by simp
  | l :: rest, h => by
    have h1 := flatten_len_le m rest (fun x hx => h x (List.mem_cons_of_mem _ hx))
    have h2 := h l (by simp)
    simp only [List.flatten_cons, List.length_append, List.length_cons]
    rw [Nat.add_mul]
    omega

/-- The loop from `first` to `last` collects the keys at the positions met, provided
`last` is met after as many steps as there are keys. -/
theorem walk_iter (N : Nat) (s : ADS_set) (last : Iterator) :
    ∀ (out : List Nat) (f : Nat) (it : Iterator), out.length < f →
      (ADS_set.incr s)^[out.length] it = last →
      (∀ i (hi : i < out.length), (ADS_set.incr s)^[i] it ≠ last ∧
        ADS_set.deref_it N s ((ADS_set.incr s)^[i] it) = .ok out[i]) →
      ADS_set.walk N s last f it = .ok out
  | [], f, it, hf, hl, _ => by
    cases f with
    | zero => simp at hf
    | succ f =>
      simp only [List.length_nil, Function.iterate_zero, id_eq] at hl
      simp [ADS_set.walk, hl]
  | k :: out, f, it, hf, hl, hs => by
    cases f with
    | zero => simp at hf
    | succ f =>
      simp only [List.length_cons] at hf
      have h0 := hs 0 (by simp)
      simp only [Function.iterate_zero, id_eq, List.getElem_cons_zero] at h0
      have hrec := walk_iter N s last out f (ADS_set.incr s it) (by omega)
        (by simpa [Function.iterate_succ_apply] using hl)
        (fun i hi => by
          have := hs (i + 1) (by simp only [List.length_cons]; omega)
          simpa [Function.iterate_succ_apply] using this)
      simp only [ADS_set.walk, if_neg h0.1, h0.2, ok_bind, hrec]

/-- On a well-formed tree `begin()` is the first slot of the leftmost leaf, `end()` the
slot behind the keys of the rightmost leaf, and stepping from `begin()` meets the stored
keys in order, one per step, before it arrives at `end()`. -/
theorem good_iter (N : Nat) (hN : 0 < N) (s : ADS_set) (d : Nat) (t : BTree d) (hi : Nat)
    (g : GoodT N s d t hi) :
    ∃ e : Iterator,
      ADS_set.begin_ N s = .ok ⟨BTree.firstLeaf d t, 0⟩ ∧
      ADS_set.end_ N s = .ok e ∧
      e = ⟨BTree.lastLeaf d t, (s.heap (BTree.lastLeaf d t)).keys_counter⟩ ∧
      (s.heap (BTree.firstLeaf d t)).leaf = true ∧ (s.heap (BTree.lastLeaf d t)).leaf = true ∧
      (ADS_set.incr s)^[(BTree.contents d t).length] ⟨BTree.firstLeaf d t, 0⟩ = e ∧
      ∀ i (hi : i < (BTree.contents d t).length),
        (ADS_set.incr s)^[i] ⟨BTree.firstLeaf d t, 0⟩ ≠ e ∧
        (s.heap ((ADS_set.incr s)^[i] ⟨BTree.firstLeaf d t, 0⟩).current).leaf = true ∧
        ((ADS_set.incr s)^[i] ⟨BTree.firstLeaf d t, 0⟩).index <
          (s.heap ((ADS_set.incr s)^[i] ⟨BTree.firstLeaf d t, 0⟩).current).keys_counter ∧
        ADS_set.deref_it N s ((ADS_set.incr s)^[i] ⟨BTree.firstLeaf d t, 0⟩) =
          .ok (BTree.contents d t)[i] := by
  have hf := good_fuel N s d t hi g
  have hb := begin_loop_first N s d t s.fuel none none _ hf g.tree g.bal
  have he := end_loop_last N s d t s.fuel none none _ hf g.tree g.bal
  rw [g.root_eq] at hb he
  have hch := treeAt_chain N s.heap d t none none _ g.tree g.bal
  obtain ⟨ks0, rest, eL⟩ := leaves_head N d t _ g.bal
  obtain ⟨ksl, front, eR⟩ := leaves_last N d t _ g.bal
  have hmemL : (BTree.lastLeaf d t, ksl) ∈ BTree.leaves d t := by
    rw [eR]
    simp
  have hmemF : (BTree.firstLeaf d t, ks0) ∈ BTree.leaves d t := by
    rw [eL]
    simp
  have hL := leafChain_mem s.heap _ _ hch _ hmemL
  have hF := leafChain_mem s.heap _ _ hch _ hmemF
  have hlast : lastIt (BTree.leaves d t) =
      ⟨BTree.lastLeaf d t, (s.heap (BTree.lastLeaf d t)).keys_counter⟩ := by
    rw [eR, lastIt_append, hL.2.1]
  have hnd : ((BTree.leaves d t).map Prod.fst).Nodup :=
    List.Nodup.sublist (leaves_sublist d t) g.nodup
  have hbal := leaves_bal N d t _ g.bal
  have hne : ∀ lf ∈ rest, lf.2 ≠ [] := by
    intro lf hlf
    have hm : lf ∈ BTree.leaves d t := by
      rw [eL]
      exact List.mem_cons_of_mem _ hlf
    have h1 := (hbal lf hm).1
    by_cases hd : d = 0
    · subst hd
      simp only [BTree.leaves] at eL
      have : rest = [] := by
        have := congrArg List.length eL
        simp only [List.length_cons, List.length_nil] at this
        exact List.length_eq_zero.mp (by omega)
      subst this
      simp at hlf
    · rw [if_neg hd] at h1
      intro h0
      rw [h0] at h1
      simp at h1
      omega
  have hz : 0 = ks0.length → rest = [] := by
    intro h0
    by_cases hd : d = 0
    · subst hd
      simp only [BTree.leaves] at eL
      have := congrArg List.length eL
      simp only [List.length_cons, List.length_nil] at this
      exact List.length_eq_zero.mp (by omega)
    · have h1 := (hbal _ hmemF).1
      rw [if_neg hd] at h1
      simp only at h1
      omega
  have hcont : BTree.contents d t = ks0.drop 0 ++ (rest.map Prod.snd).flatten := by
    rw [contents_leaves, eL]
    simp
  have hch0 := hch
  rw [eL] at hch hnd hlast
  have hit := chain_iter s (BTree.contents d t).length rest (BTree.firstLeaf d t) ks0 0 hch hnd
    hne (Nat.zero_le _) hz (by rw [hcont])
  refine ⟨⟨BTree.lastLeaf d t, (s.heap (BTree.lastLeaf d t)).keys_counter⟩, ?_, ?_, rfl,
    hF.1, hL.1, ?_, ?_⟩
  · simp [ADS_set.begin_, hb]
  · simp [ADS_set.end_, he]
  · rw [← hlast]
    exact hit.1
  · intro i hi2
    have h2 := hit.2 i (by rw [← hcont]; exact hi2)
    rw [hlast] at h2
    obtain ⟨k1, ⟨lf, km, ke⟩, k2, k3, k4⟩ := h2
    refine ⟨k1, k2, k3, ?_⟩
    have hkc : (s.heap ((ADS_set.incr s)^[i] ⟨BTree.firstLeaf d t, 0⟩).current).keys_counter
        ≤ 2 * N := by
      have hm : lf ∈ BTree.leaves d t := by
        rw [eL]
        exact km
      rw [ke, (leafChain_mem s.heap _ _ hch0 lf hm).2.1]
      exact (hbal lf hm).2
    unfold ADS_set.deref_it
    rw [getKey_ok N _ (by omega), k4]
    simp only [hcont]

/-- The traversal of a well-formed tree yields the stored keys in order. -/
theorem traverse_good (N : Nat) (hN : 0 < N) (s : ADS_set) (d : Nat) (t : BTree d) (hi : Nat)
    (g : GoodT N s d t hi) : ADS_set.traverse N s = .ok (BTree.contents d t) := by
  obtain ⟨e, h1, h2, _, _, _, h3, h4⟩ := good_iter N hN s d t hi g
  have hlen : (BTree.contents d t).length < s.nxt * (2 * N + 2) + 1 := by
    rw [contents_leaves]
    have hb := leaves_bal N d t _ g.bal
    have h5 := flatten_len_le (2 * N) ((BTree.leaves d t).map Prod.snd) (by
      intro l hl
      obtain ⟨lf, hlf, rfl⟩ := List.mem_map.mp hl
      exact (hb lf hlf).2)
    have h6 := nodup_bound s.nxt ((BTree.leaves d t).map Prod.fst)
      (List.Nodup.sublist (leaves_sublist d t) g.nodup)
      (fun x hx => g.alloc x ((leaves_sublist d t).subset hx))
    simp only [List.length_map] at h5 h6
    have h7 : (BTree.leaves d t).length * (2 * N) ≤ s.nxt * (2 * N + 2) :=
      Nat.mul_le_mul h6 (by omega)
    omega
  unfold ADS_set.traverse
  rw [h1, h2]
  simp only [ok_bind]
  exact walk_iter N s e _ _ _ hlen h3 (fun i hi2 => ⟨(h4 i hi2).1, (h4 i hi2).2.2.2⟩)


/-! ## The heap observers on a well-formed tree -/

theorem live_eq {nd : Node} {ks : List Nat} (h : ArrIs nd.keys nd.keys_counter ks) :
    nd.live = ks := by
  rw [arrIs_iff] at h
  exact h.symm

theorem range_children_map {β : Type} (nd : Node) (cs : List Nat)
    (hA : ArrIs nd.children nd.children_counter (cs.map some)) (g : Option Nat → β) :
    (List.range nd.children_counter).map (fun i => g (nd.children i)) =
      cs.map (fun c => g (some c)) := by
  rw [arrIs_iff] at hA
  have h1 : (cs.map some).map g = ((List.range nd.children_counter).map nd.children).map g := by
    rw [hA]
  rw [List.map_map, List.map_map] at h1
  exact h1.symm

theorem range_children_all (nd : Node) (cs : List Nat)
    (hA : ArrIs nd.children nd.children_counter (cs.map some)) (g : Option Nat → Bool) :
    (List.range nd.children_counter).all (fun i => g (nd.children i)) =
      cs.all (fun c => g (some c)) := by
  have h1 := range_children_map nd cs hA g
  have h2 : ∀ (l : List Bool), l.all id = true ↔ ∀ b ∈ l, b = true := by
    intro l
    simp
  rw [Bool.eq_iff_iff, List.all_eq_true, List.all_eq_true]
  constructor
  · intro h c hc
    have : g (some c) ∈ cs.map (fun c => g (some c)) := List.mem_map.mpr ⟨c, hc, rfl⟩
    rw [← h1] at this
    obtain ⟨i, hi, e⟩ := List.mem_map.mp this
    rw [← e]
    exact h i hi
  · intro h i hi
    have : g (nd.children i) ∈ (List.range nd.children_counter).map (fun i => g (nd.children i)) :=
      List.mem_map.mpr ⟨i, hi, rfl⟩
    rw [h1] at this
    obtain ⟨c, hc, e⟩ := List.mem_map.mp this
    rw [← e]
    exact h c hc

/-- The shape checker accepts a well-formed subtree. -/
theorem shape_of_tree (N : Nat) (h : Nat → Node) :
    ∀ (d : Nat) (t : BTree d) (par nx : Option Nat) (mn : Nat) (top : Bool),
      TreeAt h d par nx t → BalN N mn (2 * N) d t → (top = false → N ≤ mn) →
      (top = true → 0 < d → 1 ≤ mn) →
      ADS_set.shape_ok N h d top (BTree.addr d t) = true := by
  intro d
  induction d with
  | zero =>
    intro t par nx mn top ht hb h1 _
    rw [treeAt_zero] at ht
    have hkc := ht.2.1.1
    have hb1 : mn ≤ t.2.length ∧ t.2.length ≤ 2 * N := hb
    cases top with
    | true => simp [ADS_set.shape_ok, BTree.addr, ht.1]
    | false =>
      have := h1 rfl
      simp only [ADS_set.shape_ok, BTree.addr, ht.1, Bool.true_and, Bool.false_or,
        Bool.and_eq_true, decide_eq_true_eq]
      omega
  | succ d ih =>
    intro t par nx mn top ht hb h1 h2
    obtain ⟨a, ks, cs⟩ := t
    rw [treeAt_succ] at ht
    rw [balN_succ] at hb
    obtain ⟨hn, hk⟩ := ht
    have hkc : (h a).keys_counter = ks.length := hn.2.1.1
    have hcc : (h a).children_counter = cs.length := by
      have := hn.2.2.1.1
      simpa using this
    have hall := range_children_all (h a) _ hn.2.2.1
      (fun o => match o with
        | some c => ADS_set.shape_ok N h d false c
        | none => false)
    have hkids : (cs.map (BTree.addr d)).all (fun c => ADS_set.shape_ok N h d false c) = true := by
      rw [List.all_eq_true]
      intro x hx
      obtain ⟨c, hc, rfl⟩ := List.mem_map.mp hx
      obtain ⟨n, hcT⟩ := kids_mem h d (some a) cs nx hk c hc
      exact ih c (some a) n N false hcT (hb.2.2.2 c hc) (fun _ => le_refl _) (fun e => by simp at e)
    have hlast : (List.range (h a).children_counter).all (fun i =>
        match (h a).children i with
        | some c => ADS_set.shape_ok N h d false c
        | none => false) = true := by
      rw [← hkids]
      exact hall
    simp only [ADS_set.shape_ok, BTree.addr, hn.1, Bool.not_false, Bool.true_and,
      Bool.and_eq_true, decide_eq_true_eq]
    refine ⟨⟨?_, by omega⟩, hlast⟩
    cases top with
    | true =>
      have := h2 rfl (Nat.succ_pos _)
      simp only [if_true, decide_eq_true_eq]
      omega
    | false =>
      have := h1 rfl
      simp only [Bool.false_eq_true, if_false, Bool.and_eq_true, decide_eq_true_eq]
      omega

/-- The leaves the heap holds below a well-formed subtree are those of its description. -/
theorem leaf_rows_eq (N : Nat) (h : Nat → Node) :
    ∀ (d : Nat) (t : BTree d) (par nx : Option Nat) (mn : Nat),
      TreeAt h d par nx t → BalN N mn (2 * N) d t →
      ADS_set.leaf_rows h d (BTree.addr d t) = (BTree.leaves d t).map Prod.snd := by
  intro d
  induction d with
  | zero =>
    intro t par nx mn ht _
    rw [treeAt_zero] at ht
    simp [ADS_set.leaf_rows, BTree.addr, BTree.leaves, live_eq ht.2.1]
  | succ d ih =>
    intro t par nx mn ht hb
    obtain ⟨a, ks, cs⟩ := t
    rw [treeAt_succ] at ht
    rw [balN_succ] at hb
    obtain ⟨hn, hk⟩ := ht
    have hmap := range_children_map (h a) _ hn.2.2.1
      (fun o => match o with
        | some c => ADS_set.leaf_rows h d c
        | none => [])
    have e1 : ADS_set.leaf_rows h (d + 1) (BTree.addr (d + 1) (a, ks, cs)) =
        ((cs.map (BTree.addr d)).map (fun c => ADS_set.leaf_rows h d c)).flatten := by
      rw [← hmap]
      rfl
    rw [e1, leaves_succ, List.map_flatten, List.map_map, List.map_map]
    congr 1
    apply List.map_congr_left
    intro c hc
    obtain ⟨n, hcT⟩ := kids_mem h d (some a) cs nx hk c hc
    exact ih c (some a) n N hcT (hb.2.2.2 c hc)

theorem stored_eq (N : Nat) (h : Nat → Node) (d : Nat) (t : BTree d) (par nx : Option Nat)
    (mn : Nat) (ht : TreeAt h d par nx t) (hb : BalN N mn (2 * N) d t) :
    ADS_set.stored h d (BTree.addr d t) = BTree.contents d t := by
  unfold ADS_set.stored
  rw [leaf_rows_eq N h d t par nx mn ht hb, contents_leaves]

theorem ordKids_index (d : Nat) :
    ∀ (ks : List Nat) (cs : List (BTree d)) (lo hi : Nat),
      OrdKids (fun l h c => KeyOrd d l h c) ks cs lo hi →
      ∀ (i : Nat) (hi1 : i < ks.length) (h0 : i < cs.length) (h1 : i + 1 < cs.length),
        (∀ x ∈ BTree.contents d cs[i], x < ks[i]) ∧
        (∀ x ∈ BTree.contents d cs[i + 1], ks[i] ≤ x) := by
  intro ks
  induction ks with
  | nil => intro cs lo hi _ i hi1; simp at hi1
  | cons k ks ih =>
    intro cs lo hi h i hi1 h0 h1
    match cs, h with
    | c :: cs, h =>
      cases i with
      | zero =>
        constructor
        · intro x hx
          exact ((contents_bounds d c lo k h.2.1).1 x hx).2
        · intro x hx
          simp only [List.getElem_cons_succ, List.getElem_cons_zero] at hx ⊢
          exact (ordKids_child_bounds d ks cs k hi h.2.2 _ (List.getElem_mem _) x hx).1
      | succ j =>
        simp only [List.length_cons] at hi1 h0 h1
        have := ih cs k hi h.2.2 j (by omega) (by omega) (by omega)
        simpa using this

theorem ordKids_child_ord (d : Nat) :
    ∀ (ks : List Nat) (cs : List (BTree d)) (lo hi : Nat),
      OrdKids (fun l h c => KeyOrd d l h c) ks cs lo hi →
      ∀ c ∈ cs, ∃ l1 h1, KeyOrd d l1 h1 c
  | [], [c0], lo, hi, ho, c, hc => by
    simp only [List.mem_singleton] at hc
    subst hc
    exact ⟨lo, hi, ho.2⟩
  | [], [], _, _, ho, _, _ => ho.elim
  | [], _ :: _ :: _, _, _, ho, _, _ => ho.elim
  | _ :: _, [], _, _, ho, _, _ => ho.elim
  | k :: ks, c0 :: cs1, lo, hi, ho, c, hc => by
    rcases List.mem_cons.mp hc with e | e
    · subst e
      exact ⟨lo, k, ho.2.1⟩
    · exact ordKids_child_ord d ks cs1 k hi ho.2.2 c e

/-- The routing checker accepts a well-formed subtree. -/
theorem routes_of_tree (N : Nat) (h : Nat → Node) :
    ∀ (d : Nat) (t : BTree d) (par nx : Option Nat) (mn lo hi : Nat),
      TreeAt h d par nx t → BalN N mn (2 * N) d t → KeyOrd d lo hi t →
      ADS_set.routes_ok h d (BTree.addr d t) = true := by
  intro d
  induction d with
  | zero => intro t par nx mn lo hi _ _ _; rfl
  | succ d ih =>
    intro t par nx mn lo hi ht hb ho
    obtain ⟨a, ks, cs⟩ := t
    have htree := ht
    rw [treeAt_succ] at ht
    rw [balN_succ] at hb
    rw [keyOrd_succ] at ho
    obtain ⟨hn, hk⟩ := ht
    have hkc : (h a).keys_counter = ks.length := hn.2.1.1
    have hlen := hb.2.2.1
    have hall := range_children_all (h a) _ hn.2.2.1
      (fun o => match o with
        | some c => ADS_set.routes_ok h d c
        | none => false)
    have hkids : (cs.map (BTree.addr d)).all (fun c => ADS_set.routes_ok h d c) = true := by
      rw [List.all_eq_true]
      intro x hx
      obtain ⟨c, hc, rfl⟩ := List.mem_map.mp hx
      obtain ⟨n, hcT⟩ := kids_mem h d (some a) cs nx hk c hc
      obtain ⟨l1, h1, hco⟩ := ordKids_child_ord d ks cs lo hi ho c hc
      exact ih c (some a) n N l1 h1 hcT (hb.2.2.2 c hc) hco
    have hlast : (List.range (h a).children_counter).all (fun i =>
        match (h a).children i with
        | some c => ADS_set.routes_ok h d c
        | none => false) = true := by
      rw [← hkids]
      exact hall
    have hsorted := (ordKids_seps_sorted _ ks cs lo hi ho).1
    have hfirst : (List.range (h a).keys_counter).all (fun i =>
        (decide (i + 1 < (h a).keys_counter → (h a).keys i < (h a).keys (i + 1))) &&
        (match (h a).children i with
          | some c => (ADS_set.stored h d c).all (fun k => decide (k < (h a).keys i))
          | none => false) &&
        (match (h a).children (i + 1) with
          | some c => (ADS_set.stored h d c).all (fun k => decide ((h a).keys i ≤ k))
          | none => false)) = true := by
      rw [List.all_eq_true]
      intro i hi1
      rw [List.mem_range, hkc] at hi1
      have hci : i < cs.length := by omega
      have hci1 : i + 1 < cs.length := by omega
      have c0 := hn.child (i := i) (by simpa using hci)
      have c1 := hn.child (i := i + 1) (by simpa using hci1)
      simp only [List.getElem_map] at c0 c1
      have hki : (h a).keys i = ks[i] := (hn.2.1.getElem hi1).symm
      obtain ⟨n0, hT0⟩ := kids_mem h d (some a) cs nx hk cs[i] (List.getElem_mem _)
      obtain ⟨n1, hT1⟩ := kids_mem h d (some a) cs nx hk cs[i + 1] (List.getElem_mem _)
      have s0 := stored_eq N h d cs[i] (some a) n0 N hT0 (hb.2.2.2 _ (List.getElem_mem _))
      have s1 := stored_eq N h d cs[i + 1] (some a) n1 N hT1 (hb.2.2.2 _ (List.getElem_mem _))
      obtain ⟨b0, b1⟩ := ordKids_index d ks cs lo hi ho i hi1 hci hci1
      rw [c0, c1]
      simp only [s0, s1, hki, Bool.and_eq_true, decide_eq_true_eq, List.all_eq_true]
      refine ⟨⟨?_, b0⟩, b1⟩
      intro hlt
      rw [hkc] at hlt
      rw [(hn.2.1.getElem hlt).symm]
      exact List.pairwise_iff_getElem.mp hsorted i (i + 1) hi1 hlt (by omega)
    simp only [ADS_set.routes_ok, BTree.addr, Bool.and_eq_true]
    exact ⟨hfirst, hlast⟩

theorem leftmost_first (N : Nat) (h : Nat → Node) :
    ∀ (d : Nat) (t : BTree d) (par nx : Option Nat) (mn : Nat),
      TreeAt h d par nx t → BalN N mn (2 * N) d t →
      ADS_set.leftmost h d (BTree.addr d t) = some (BTree.firstLeaf d t) := by
  intro d
  induction d with
  | zero => intro t par nx mn _ _; rfl
  | succ d ih =>
    intro t par nx mn ht hb
    obtain ⟨a, ks, cs⟩ := t
    rw [treeAt_succ] at ht
    rw [balN_succ] at hb
    obtain ⟨hn, hk⟩ := ht
    cases cs with
    | nil =>
      have := hb.2.2.1
      simp at this
    | cons c cs1 =>
      have hch := hn.child (i := 0) (by simp)
      simp only [List.map_cons, List.getElem_cons_zero] at hch
      have hrec := ih c (some a) _ N hk.1 (hb.2.2.2 c (by simp))
      show ADS_set.leftmost h (d + 1) a = _
      simp only [ADS_set.leftmost, hch]
      exact hrec

theorem rightmost_last (N : Nat) (h : Nat → Node) :
    ∀ (d : Nat) (t : BTree d) (par nx : Option Nat) (mn : Nat),
      TreeAt h d par nx t → BalN N mn (2 * N) d t →
      ADS_set.rightmost h d (BTree.addr d t) = some (BTree.lastLeaf d t) := by
  intro d
  induction d with
  | zero => intro t par nx mn _ _; rfl
  | succ d ih =>
    intro t par nx mn ht hb
    obtain ⟨a, ks, cs⟩ := t
    rw [treeAt_succ] at ht
    rw [balN_succ] at hb
    obtain ⟨hn, hk⟩ := ht
    rcases List.eq_nil_or_concat cs with e | ⟨cs1, c, e⟩
    · subst e
      have := hb.2.2.1
      simp at this
    · rw [List.concat_eq_append] at e
      subst e
      have hcc : (h a).children_counter = (cs1 ++ [c]).length := by
        have := hn.2.2.1.1
        simpa using this
      have hch := hn.child (i := cs1.length) (by simp)
      simp only [List.map_append, List.map_cons, List.map_nil] at hch
      rw [List.getElem_append_right (by simp)] at hch
      simp only [List.length_map, Nat.sub_self, List.getElem_cons_zero] at hch
      rw [kidsAt_append] at hk
      have hrec := ih c (some a) _ N hk.2.1 (hb.2.2.2 c (by simp))
      have e2 : (h a).children_counter - 1 = cs1.length := by
        rw [hcc]
        simp
      show ADS_set.rightmost h (d + 1) a = _
      simp only [ADS_set.rightmost, e2, hch]
      rw [lastLeaf_succ]
      exact hrec


/-! ## Sequences of calls on a well-formed tree -/

theorem good_contents_nodup (N : Nat) (s : ADS_set) (d : Nat) (t : BTree d) (hi : Nat)
    (g : GoodT N s d t hi) : (BTree.contents d t).Nodup :=
  (contents_bounds d t 0 hi g.ord).2.imp (fun h => Nat.ne_of_lt h)

theorem good_unique (N : Nat) (hN : 0 < N) (s : ADS_set) (d d1 : Nat) (t : BTree d)
    (t1 : BTree d1) (hi hi1 : Nat) (g : GoodT N s d t hi) (g1 : GoodT N s d1 t1 hi1) :
    d = d1 ∧ BTree.contents d t = BTree.contents d1 t1 := by
  constructor
  · have := g.depth_eq
    rw [g1.depth_eq] at this
    exact (Int.ofNat_inj.mp this).symm
  · have h1 := traverse_good N hN s d t hi g
    rw [traverse_good N hN s d1 t1 hi1 g1] at h1
    injection h1 with h1
    exact h1.symm

theorem len_insert (l l1 : List Nat) (key : Nat) (hn : l.Nodup) (hn1 : l1.Nodup)
    (hm : ∀ x, x ∈ l1 ↔ x = key ∨ x ∈ l) (hk : key ∉ l) : l1.length = l.length + 1 := by
  have e : l1.toFinset = insert key l.toFinset := by
    ext x
    simp [hm]
  have c := congrArg Finset.card e
  rw [Finset.card_insert_of_not_mem (by simpa using hk), List.toFinset_card_of_nodup hn,
    List.toFinset_card_of_nodup hn1] at c
  exact c

theorem len_same (l l1 : List Nat) (hn : l.Nodup) (hn1 : l1.Nodup)
    (hm : ∀ x, x ∈ l1 ↔ x ∈ l) : l1.length = l.length := by
  have e : l1.toFinset = l.toFinset := by
    ext x
    simp [hm]
  have c := congrArg Finset.card e
  rw [List.toFinset_card_of_nodup hn, List.toFinset_card_of_nodup hn1] at c
  exact c

theorem len_erase (l l1 : List Nat) (key : Nat) (hn : l.Nodup) (hn1 : l1.Nodup)
    (hm : ∀ x, x ∈ l1 ↔ x ∈ l ∧ x ≠ key) (hk : key ∈ l) : l1.length + 1 = l.length := by
  have h1 := len_insert l1 l key hn1 hn (by
    intro x
    rw [hm]
    constructor
    · intro hx
      by_cases e : x = key
      · exact Or.inl e
      · exact Or.inr ⟨hx, e⟩
    · intro hx
      rcases hx with e | e
      · rw [e]
        exact hk
      · exact e.1) (by
    intro h
    exact ((hm key).mp h).2 rfl)
  omega

/-- The size after `insert`. -/
theorem insert_size (N : Nat) (hN : 0 < N) (s : ADS_set) (d : Nat) (t : BTree d) (hi : Nat)
    (g : GoodT N s d t hi) (key : Nat) :
    ∃ s1 it d1, ∃ t1 : BTree d1, ∃ hi1,
      ADS_set.insert N s key = .ok (s1, (it, !decide (key ∈ BTree.contents d t))) ∧
      GoodT N s1 d1 t1 hi1 ∧
      (∀ x, x ∈ BTree.contents d1 t1 ↔ x = key ∨ x ∈ BTree.contents d t) ∧
      (key ∈ BTree.contents d t → s1 = s) ∧ (d1 = d ∨ d1 = d + 1) ∧
      s1.element_counter = s.element_counter + (if key ∈ BTree.contents d t then 0 else 1) := by
  obtain ⟨s1, it, d1, t1, hi1, h1, g1, hm, hs, hd⟩ := insert_good_depth N hN s d t hi g key
  refine ⟨s1, it, d1, t1, hi1, h1, g1, hm, hs, hd, ?_⟩
  by_cases hk : key ∈ BTree.contents d t
  · rw [hs hk]
    simp [hk]
  · rw [if_neg hk, g1.count_eq, g.count_eq]
    exact len_insert _ _ key (good_contents_nodup N s d t hi g)
      (good_contents_nodup N s1 d1 t1 hi1 g1) hm hk

/-- The size after `erase`. -/
theorem erase_size (N : Nat) (hN : 0 < N) (s : ADS_set) (d : Nat) (t : BTree d) (hi : Nat)
    (g : GoodT N s d t hi) (key : Nat) :
    ∃ (s1 : ADS_set) (d1 : Nat) (t1 : BTree d1),
      ADS_set.erase N s key = .ok (s1, if key ∈ BTree.contents d t then 1 else 0) ∧
      GoodT N s1 d1 t1 hi ∧
      (∀ x, x ∈ BTree.contents d1 t1 ↔ x ∈ BTree.contents d t ∧ x ≠ key) ∧
      (key ∉ BTree.contents d t → s1 = s) ∧ (d1 = d ∨ d1 + 1 = d) ∧
      s1.element_counter + (if key ∈ BTree.contents d t then 1 else 0) = s.element_counter := by
  obtain ⟨s1, d1, t1, h1, g1, hm, hs, hd, _⟩ := erase_good N hN s d t hi g key
  refine ⟨s1, d1, t1, h1, g1, hm, hs, hd, ?_⟩
  by_cases hk : key ∈ BTree.contents d t
  · rw [if_pos hk, g1.count_eq, g.count_eq]
    exact len_erase _ _ key (good_contents_nodup N s d t hi g)
      (good_contents_nodup N s1 d1 t1 hi g1) hm hk
  · rw [hs hk]
    simp [hk]

/-- A sequence of calls runs through and leaves the keys of the set model behind. -/
theorem run_keys (N : Nat) (hN : 0 < N) :
    ∀ (ops : List Op) (s : ADS_set) (d : Nat) (t : BTree d) (hi : Nat), GoodT N s d t hi →
      ∃ s1 d1, ∃ t1 : BTree d1, ∃ hi1, ADS_set.run N ops s = .ok s1 ∧ GoodT N s1 d1 t1 hi1 ∧
        (BTree.contents d1 t1).toFinset = Op.keys_after ops (BTree.contents d t).toFinset
  | [], s, d, t, hi, g => ⟨s, d, t, hi, rfl, g, rfl⟩
  | .ins k :: ops, s, d, t, hi, g => by
    obtain ⟨s1, it, d1, t1, hi1, h1, g1, hm, _⟩ := insert_good N hN s d t hi g k
    obtain ⟨s2, d2, t2, hi2, h2, g2, e2⟩ := run_keys N hN ops s1 d1 t1 hi1 g1
    refine ⟨s2, d2, t2, hi2, ?_, g2, ?_⟩
    · simp [ADS_set.run, ADS_set.apply, h1, h2]
    · rw [e2]
      have : (BTree.contents d1 t1).toFinset = insert k (BTree.contents d t).toFinset := by
        ext x
        simp [hm]
      rw [this]
      rfl
  | .era k :: ops, s, d, t, hi, g => by
    obtain ⟨s1, d1, t1, h1, g1, hm, _⟩ := erase_good N hN s d t hi g k
    obtain ⟨s2, d2, t2, hi2, h2, g2, e2⟩ := run_keys N hN ops s1 d1 t1 hi g1
    refine ⟨s2, d2, t2, hi2, ?_, g2, ?_⟩
    · simp [ADS_set.run, ADS_set.apply, h1, h2]
    · rw [e2]
      have : (BTree.contents d1 t1).toFinset = (BTree.contents d t).toFinset.erase k := by
        ext x
        simp [hm, and_comm]
      rw [this]
      rfl

/-- Counting the successful `erase` calls of a sequence that inserts fresh keys only. -/
theorem run_erased_spec (N : Nat) (hN : 0 < N) :
    ∀ (ops : List Op) (s : ADS_set) (d : Nat) (t : BTree d) (hi : Nat), GoodT N s d t hi →
      (Op.inserted ops).Nodup → (∀ k ∈ Op.inserted ops, k ∉ BTree.contents d t) →
      ∃ s1 m, ADS_set.run_erased N ops s = .ok (s1, m) ∧ ADS_set.run N ops s = .ok s1 ∧
        s1.element_counter + m = s.element_counter + (Op.inserted ops).length
  | [], s, d, t, hi, g, _, _ => ⟨s, 0, rfl, rfl, rfl⟩
  | .ins k :: ops, s, d, t, hi, g, hnd, hfresh => by
    have hk : k ∉ BTree.contents d t := hfresh k (by simp [Op.inserted])
    obtain ⟨s1, it, d1, t1, hi1, h1, g1, hm, _, _, hc⟩ := insert_size N hN s d t hi g k
    simp only [Op.inserted, List.nodup_cons] at hnd
    obtain ⟨s2, m, h2, h3, hc2⟩ := run_erased_spec N hN ops s1 d1 t1 hi1 g1 hnd.2 (by
      intro x hx hx1
      rcases (hm x).mp hx1 with e | e
      · rw [e] at hx
        exact hnd.1 hx
      · exact hfresh x (by simp [Op.inserted, hx]) e)
    refine ⟨s2, m, ?_, ?_, ?_⟩
    · simp [ADS_set.run_erased, h1, h2]
    · simp [ADS_set.run, ADS_set.apply, h1, h3]
    · rw [if_neg hk] at hc
      simp only [Op.inserted, List.length_cons]
      omega
  | .era k :: ops, s, d, t, hi, g, hnd, hfresh => by
    obtain ⟨s1, d1, t1, h1, g1, hm, _, _, hc⟩ := erase_size N hN s d t hi g k
    simp only [Op.inserted] at hnd hfresh
    obtain ⟨s2, m, h2, h3, hc2⟩ := run_erased_spec N hN ops s1 d1 t1 hi g1 hnd (by
      intro x hx hx1
      exact hfresh x hx ((hm x).mp hx1).1)
    refine ⟨s2, if (if k ∈ BTree.contents d t then 1 else 0) = 1 then m + 1 else m, ?_, ?_, ?_⟩
    · simp [ADS_set.run_erased, h1, h2]
    · simp [ADS_set.run, ADS_set.apply, h1, h3]
    · simp only [Op.inserted]
      by_cases hk : k ∈ BTree.contents d t
      · simp only [hk, if_true] at hc ⊢
        omega
      · simp only [hk, if_false] at hc ⊢
        simp only [Nat.zero_ne_one, if_false]
        omega

/-- The position `find` returns on a well-formed tree. -/
theorem find_spec (N : Nat) (hN : 0 < N) (s : ADS_set) (d : Nat) (t : BTree d) (hi : Nat)
    (g : GoodT N s d t hi) (key : Nat) :
    ∃ it, ADS_set.find N s key = .ok it ∧
      (key ∈ BTree.contents d t → (s.heap it.current).leaf = true ∧
        it.index < (s.heap it.current).keys_counter ∧ ADS_set.deref_it N s it = .ok key) ∧
      (key ∉ BTree.contents d t → ADS_set.end_ N s = .ok it) := by
  have hw : KeyOrd d 0 (max hi (key + 1)) t :=
    keyOrd_weaken d t 0 hi 0 _ (le_refl _) (le_max_left _ _) g.ord
  obtain ⟨par1, nx1, r1, r2, r3, r4⟩ := route_leaf N s.heap key d t none none 0 _ _
    g.tree hw g.bal (Nat.zero_le _) (by omega)
  have hfl := find_leaf_route N s key d t s.fuel none none _ (good_fuel N s d t hi g) g.tree g.bal
  rw [g.root_eq] at hfl
  unfold ADS_set.find
  rw [hfl]
  simp only [ok_bind]
  have hkc := r1.2.1.1
  obtain ⟨m, b, e1, hb, hpos, _⟩ := binary_search_call N _ key _ r1.2.1 r2 (by omega)
    (((s.heap (BTree.route d t key).1).keys_counter : Int) - 1) (Or.inl rfl)
  rw [e1]
  simp only [ok_bind]
  cases b with
  | true =>
    have hin : key ∈ BTree.contents d t := r4.2 (hb.1 rfl)
    obtain ⟨p1, p2, p3⟩ := hpos rfl
    refine ⟨⟨(BTree.route d t key).1, m.toNat⟩, by simp, fun _ => ⟨r1.1, p2, ?_⟩,
      fun h => (h hin).elim⟩
    unfold ADS_set.deref_it
    rw [getKey_ok N _ (by simp only; omega)]
    simp only
    rw [p3]
  | false =>
    have hout : key ∉ BTree.contents d t := fun hk => by simpa using hb.2 (r4.1 hk)
    obtain ⟨e, _, h2, _⟩ := good_iter N hN s d t hi g
    refine ⟨e, by simpa using h2, fun h => (hout h).elim, fun _ => h2⟩


/-! ## Equality, `clear`, and small trees -/

/-- The loop of `operator==` tells whether every key met is stored in the other tree. -/
theorem all_counted_iter (N : Nat) (lhs rhs : ADS_set) (last : Iterator) (R : List Nat)
    (hc : ∀ k, ADS_set.count N rhs k = .ok (if k ∈ R then 1 else 0)) :
    ∀ (out : List Nat) (f : Nat) (it : Iterator), out.length < f →
      (ADS_set.incr lhs)^[out.length] it = last →
      (∀ i (hi : i < out.length), (ADS_set.incr lhs)^[i] it ≠ last ∧
        ADS_set.deref_it N lhs ((ADS_set.incr lhs)^[i] it) = .ok out[i]) →
      ADS_set.all_counted N lhs rhs last f it = .ok (decide (∀ k ∈ out, k ∈ R))
  | [], f, it, hf, hl, _ => by
    cases f with
    | zero => simp at hf
    | succ f =>
      simp only [List.length_nil, Function.iterate_zero, id_eq] at hl
      simp [ADS_set.all_counted, hl]
  | k :: out, f, it, hf, hl, hs => by
    cases f with
    | zero => simp at hf
    | succ f =>
      simp only [List.length_cons] at hf
      have h0 := hs 0 (by simp)
      simp only [Function.iterate_zero, id_eq, List.getElem_cons_zero] at h0
      have hrec := all_counted_iter N lhs rhs last R hc out f (ADS_set.incr lhs it) (by omega)
        (by simpa [Function.iterate_succ_apply] using hl)
        (fun i hi => by
          have := hs (i + 1) (by simp only [List.length_cons]; omega)
          simpa [Function.iterate_succ_apply] using this)
      simp only [ADS_set.all_counted, if_neg h0.1, h0.2, ok_bind, hc k, hrec]
      by_cases hk : k ∈ R
      · simp [hk]
      · simp [hk]

/-- The result of `operator==` on two well-formed trees. -/
theorem equals_good (N : Nat) (hN : 0 < N) (a b : ADS_set) (da db : Nat) (ta : BTree da)
    (tb : BTree db) (ha hb : Nat) (ga : GoodT N a da ta ha) (gb : GoodT N b db tb hb) :
    ADS_set.equals N a b = .ok (decide ((BTree.contents da ta).length = (BTree.contents db tb).length ∧
      ∀ k ∈ BTree.contents da ta, k ∈ BTree.contents db tb)) := by
  unfold ADS_set.equals
  rw [ga.count_eq, gb.count_eq]
  by_cases hl : (BTree.contents da ta).length = (BTree.contents db tb).length
  · obtain ⟨e, h1, h2, _, _, _, h3, h4⟩ := good_iter N hN a da ta ha ga
    have hlen : (BTree.contents da ta).length < a.nxt * (2 * N + 2) + 1 := by
      rw [contents_leaves]
      have hb1 := leaves_bal N da ta _ ga.bal
      have h5 := flatten_len_le (2 * N) ((BTree.leaves da ta).map Prod.snd) (by
        intro l hl
        obtain ⟨lf, hlf, rfl⟩ := List.mem_map.mp hl
        exact (hb1 lf hlf).2)
      have h6 := nodup_bound a.nxt ((BTree.leaves da ta).map Prod.fst)
        (List.Nodup.sublist (leaves_sublist da ta) ga.nodup)
        (fun x hx => ga.alloc x ((leaves_sublist da ta).subset hx))
      simp only [List.length_map] at h5 h6
      have h7 : (BTree.leaves da ta).length * (2 * N) ≤ a.nxt * (2 * N + 2) :=
        Nat.mul_le_mul h6 (by omega)
      omega
    have := all_counted_iter N a b e (BTree.contents db tb) (count_spec N b db tb hb gb)
      (BTree.contents da ta) _ _ hlen h3 (fun i hi2 => ⟨(h4 i hi2).1, (h4 i hi2).2.2.2⟩)
    rw [if_neg (by simpa using hl), h1, h2]
    simp only [ok_bind, this, hl, true_and]
  · rw [if_pos (by simpa using hl)]
    simp [hl]

/-- After `clear` the state holds the one-leaf tree without keys. -/
theorem clear_good (N : Nat) (s : ADS_set) : GoodT N (ADS_set.clear s) 0 (s.nxt, []) 0 where
  depth_eq := rfl
  root_eq := rfl
  tree := by
    show LeafAt ((upd s.heap s.nxt Node.fresh) s.nxt) [] none none
    rw [upd_same]
    exact ⟨rfl, ⟨rfl, fun i hi => by simp at hi⟩, rfl, rfl⟩
  ord := ⟨List.Pairwise.nil, fun k hk => by simp at hk⟩
  bal := by
    show rootMin 0 ≤ 0 ∧ 0 ≤ 2 * N
    simp [rootMin]
  nodup := by simp [BTree.addrs]
  alloc := by
    intro x hx
    simp only [BTree.addrs, List.mem_singleton] at hx
    subst hx
    show s.nxt < s.nxt + 1
    omega
  count_eq := rfl

theorem bal_contents_len (N : Nat) :
    ∀ (d : Nat) (t : BTree d), BalN N N (2 * N) d t → N ≤ (BTree.contents d t).length
  | 0, t, hb => hb.1
  | d + 1, t, hb => by
    obtain ⟨a, ks, cs⟩ := t
    rw [balN_succ] at hb
    rw [contents_succ]
    cases cs with
    | nil =>
      have := hb.2.2.1
      simp at this
    | cons c cs1 =>
      have := bal_contents_len N d c (hb.2.2.2 c (by simp))
      simp only [List.map_cons, List.flatten_cons, List.length_append]
      omega

/-- A well-formed tree of height above 0 stores at least `2N` keys. -/
theorem good_contents_two (N : Nat) (s : ADS_set) (d : Nat) (t : BTree (d + 1)) (hi : Nat)
    (g : GoodT N s (d + 1) t hi) : 2 * N ≤ (BTree.contents (d + 1) t).length := by
  obtain ⟨a, ks, cs⟩ := t
  have hb := g.bal
  rw [balN_succ] at hb
  rw [contents_succ]
  have h1 : 1 ≤ ks.length := by
    have := hb.1
    simpa [rootMin] using this
  match cs, hb with
  | [], hb =>
    have := hb.2.2.1
    simp at this
  | [_], hb =>
    have := hb.2.2.1
    simp only [List.length_singleton] at this
    omega
  | c0 :: c1 :: cs1, hb =>
    have e0 := bal_contents_len N d c0 (hb.2.2.2 c0 (by simp))
    have e1 := bal_contents_len N d c1 (hb.2.2.2 c1 (by simp))
    simp only [List.map_cons, List.flatten_cons, List.length_append]
    omega

theorem keys_after_ins : ∀ (l : List Nat) (ops : List Op) (S : Finset Nat),
    Op.keys_after (l.map Op.ins ++ ops) S = Op.keys_after ops (S ∪ l.toFinset)
  | [], ops, S => by simp
  | k :: l, ops, S => by
    show Op.keys_after (l.map Op.ins ++ ops) (insert k S) = _
    rw [keys_after_ins l ops (insert k S)]
    congr 1
    ext x
    simp only [Finset.mem_union, Finset.mem_insert, List.toFinset_cons]
    tauto

theorem keys_after_era : ∀ (l : List Nat) (S : Finset Nat),
    Op.keys_after (l.map Op.era) S = S \ l.toFinset
  | [], S => by simp [Op.keys_after]
  | k :: l, S => by
    show Op.keys_after (l.map Op.era) (S.erase k) = _
    rw [keys_after_era l (S.erase k)]
    ext x
    simp only [Finset.mem_sdiff, Finset.mem_erase, List.toFinset_cons, Finset.mem_insert]
    tauto


/-! ## The contract of the public functions on reachable trees

`N` is the order parameter of the tree; the theorems are for `N ≥ 1`. -/

/-- C1: on every tree of order `N ≥ 1` reached from the empty tree by inserts and erases,
`insert(k)`
returns, and afterwards `count(k)` is 1, that is `contains(k)` is true. -/
theorem insert_then_contains (N : Nat) (hN : 0 < N) (s : ADS_set) (h : Reachable N s) (k : Nat) :
    ∃ s1 r, ADS_set.insert N s k = .ok (s1, r) ∧ ADS_set.count N s1 k = .ok 1 := by
  obtain ⟨d, t, hi, g⟩ := reachable_good N hN s h
  obtain ⟨s1, it, d1, t1, hi1, h1, g1, hm, _⟩ := insert_good N hN s d t hi g k
  refine ⟨s1, _, h1, ?_⟩
  rw [count_spec N s1 d1 t1 hi1 g1 k, if_pos ((hm k).mpr (Or.inl rfl))]

theorem insert_then_contains_witness :
    0 < 1 ∧ Reachable 1 ADS_set.init ∧
      ∃ s1 r, ADS_set.insert 1 ADS_set.init 5 = .ok (s1, r) ∧ ADS_set.count 1 s1 5 = .ok 1 :=
  ⟨by decide, reachable_init 1,
    insert_then_contains 1 (by decide) ADS_set.init (reachable_init 1) 5⟩

/-- C2: on every reachable tree (order `N ≥ 1`), `erase(k)` returns; afterwards `count(k)` is 0, and a
second `erase(k)` returns 0 (and leaves the tree as it is). -/
theorem erase_then_absent (N : Nat) (hN : 0 < N) (s : ADS_set) (h : Reachable N s) (k : Nat) :
    ∃ s1 r, ADS_set.erase N s k = .ok (s1, r) ∧ ADS_set.count N s1 k = .ok 0 ∧
      ADS_set.erase N s1 k = .ok (s1, 0) := by
  obtain ⟨d, t, hi, g⟩ := reachable_good N hN s h
  obtain ⟨s1, d1, t1, h1, g1, hm, _⟩ := erase_good N hN s d t hi g k
  have hk : k ∉ BTree.contents d1 t1 := fun hx => ((hm k).mp hx).2 rfl
  obtain ⟨s2, d2, t2, h2, _, _, hs, _⟩ := erase_good N hN s1 d1 t1 hi g1 k
  refine ⟨s1, _, h1, ?_, ?_⟩
  · rw [count_spec N s1 d1 t1 hi g1 k, if_neg hk]
  · rw [h2, if_neg hk, hs hk]

/-- At order 1, on the tree of depth 2 that holds 1 to 7: the key 5 is stored, `erase(5)`
empties its leaf, which takes a key from its right sibling, and returns 1, after which
`count(5)` is 0; `erase(4)` empties a leaf and runs a merge on two levels. -/
theorem erase_then_absent_witness :
    0 < 1 ∧ Reachable 1 ADS_set.seven ∧ ADS_set.count 1 ADS_set.seven 5 = .ok 1 ∧
      (ADS_set.erase 1 ADS_set.seven 5).map Prod.snd = .ok 1 ∧
      (ADS_set.erase 1 ADS_set.seven 5 >>= fun r => ADS_set.count 1 r.1 5) = .ok 0 ∧
      (∃ s1 r, ADS_set.erase 1 ADS_set.seven 5 = .ok (s1, r) ∧ ADS_set.count 1 s1 5 = .ok 0 ∧
        ADS_set.erase 1 s1 5 = .ok (s1, 0)) ∧
      ADS_set.count 1 ADS_set.seven 4 = .ok 1 ∧
      (∃ s1 r, ADS_set.erase 1 ADS_set.seven 4 = .ok (s1, r) ∧ ADS_set.count 1 s1 4 = .ok 0 ∧
        ADS_set.erase 1 s1 4 = .ok (s1, 0)) :=
  ⟨by decide, reachable_seven, by decide, by decide, by decide,
    erase_then_absent 1 (by decide) ADS_set.seven reachable_seven 5, by decide,
    erase_then_absent 1 (by decide) ADS_set.seven reachable_seven 4⟩

/-- C3: on every tree of order `N ≥ 1` reached from the empty tree by inserts and erases,
the walk from
`begin()` to `end()` returns a strictly increasing, duplicate-free sequence of keys whose
length is `size()`. -/
theorem traversal_sorted (N : Nat) (hN : 0 < N) (s : ADS_set) (h : Reachable N s) :
    ∃ l, ADS_set.traverse N s = .ok l ∧ l.Pairwise (fun x y => x < y) ∧ l.Nodup ∧
      l.length = ADS_set.size s := by
  obtain ⟨d, t, hi, g⟩ := reachable_good N hN s h
  exact ⟨_, traverse_good N hN s d t hi g, (contents_bounds d t 0 hi g.ord).2,
    good_contents_nodup N s d t hi g, g.count_eq.symm⟩

/-- At order 1: the tree after the insertion of 1, 2, 3 has the leaves 1 and 2, 3 and its
traversal is 1, 2, 3; the theorem also applies to the tree of depth 2 that holds 1 to 7. -/
theorem traversal_sorted_witness :
    0 < 1 ∧ Reachable 1 ADS_set.three ∧ Reachable 1 ADS_set.seven ∧
      ADS_set.traverse 1 ADS_set.three = .ok [1, 2, 3] ∧ ADS_set.size ADS_set.three = 3 ∧
      (∃ l, ADS_set.traverse 1 ADS_set.three = .ok l ∧ l.Pairwise (fun x y => x < y) ∧
        l.Nodup ∧ l.length = ADS_set.size ADS_set.three) ∧
      ADS_set.size ADS_set.seven = 7 ∧
      (∃ l, ADS_set.traverse 1 ADS_set.seven = .ok l ∧ l.Pairwise (fun x y => x < y) ∧
        l.Nodup ∧ l.length = ADS_set.size ADS_set.seven) :=
  ⟨by decide, reachable_three, reachable_seven, by decide, by decide,
    traversal_sorted 1 (by decide) ADS_set.three reachable_three, by decide,
    traversal_sorted 1 (by decide) ADS_set.seven reachable_seven⟩

/-- C4: on every reachable tree (order `N ≥ 1`), inserting `k` twice in a row: the second `insert` reports
`inserted = false` and leaves `size()` as it was after the first, and the first reports
`true` exactly when `k` was absent (`count(k)` was 0). -/
theorem insert_twice (N : Nat) (hN : 0 < N) (s : ADS_set) (h : Reachable N s) (k : Nat) :
    ∃ s1 it1 b1 s2 it2, ADS_set.insert N s k = .ok (s1, (it1, b1)) ∧
      ADS_set.insert N s1 k = .ok (s2, (it2, false)) ∧
      ADS_set.size s2 = ADS_set.size s1 ∧ (b1 = true ↔ ADS_set.count N s k = .ok 0) := by
  obtain ⟨d, t, hi, g⟩ := reachable_good N hN s h
  obtain ⟨s1, it1, d1, t1, hi1, h1, g1, hm, _⟩ := insert_good N hN s d t hi g k
  have hk : k ∈ BTree.contents d1 t1 := (hm k).mpr (Or.inl rfl)
  obtain ⟨s2, it2, d2, t2, hi2, h2, _, _, hs⟩ := insert_good N hN s1 d1 t1 hi1 g1 k
  refine ⟨s1, it1, _, s2, it2, h1, ?_, ?_, ?_⟩
  · rw [h2]
    simp [hk]
  · rw [hs hk]
  · rw [count_spec N s d t hi g k]
    by_cases hc : k ∈ BTree.contents d t
    · simp [hc]
    · simp [hc]

theorem insert_twice_witness :
    0 < 1 ∧ Reachable 1 ADS_set.init ∧
      ∃ s1 it1 b1 s2 it2, ADS_set.insert 1 ADS_set.init 5 = .ok (s1, (it1, b1)) ∧
        ADS_set.insert 1 s1 5 = .ok (s2, (it2, false)) ∧
        ADS_set.size s2 = ADS_set.size s1 ∧
        (b1 = true ↔ ADS_set.count 1 ADS_set.init 5 = .ok 0) :=
  ⟨by decide, reachable_init 1, insert_twice 1 (by decide) ADS_set.init (reachable_init 1) 5⟩

/-- C5: for every order `N ≥ 1`, a sequence of calls on the empty tree that inserts distinct keys and erases keys
among them runs through, and afterwards `size()` is the number of inserts minus the number
of `erase` calls that returned 1. -/
theorem cardinality_conserved (N : Nat) (hN : 0 < N) (ops : List Op)
    (hd : (Op.inserted ops).Nodup) (_hsub : ∀ k ∈ Op.erased ops, k ∈ Op.inserted ops) :
    ∃ s m, ADS_set.run_erased N ops ADS_set.init = .ok (s, m) ∧
      ADS_set.run N ops ADS_set.init = .ok s ∧ m ≤ (Op.inserted ops).length ∧
      ADS_set.size s = (Op.inserted ops).length - m := by
  obtain ⟨s, m, h1, h2, h3⟩ := run_erased_spec N hN ops ADS_set.init 0 (0, []) 0 (init_good N) hd
    (fun k _ hk => by simp [BTree.contents] at hk)
  have h0 : ADS_set.init.element_counter = 0 := rfl
  refine ⟨s, m, h1, h2, ?_, ?_⟩
  · omega
  · show s.element_counter = _
    omega

theorem cardinality_conserved_witness :
    0 < 1 ∧ (Op.inserted [Op.ins 1, Op.ins 2, Op.era 1, Op.ins 3, Op.era 1]).Nodup ∧
      (∀ k ∈ Op.erased [Op.ins 1, Op.ins 2, Op.era 1, Op.ins 3, Op.era 1],
        k ∈ Op.inserted [Op.ins 1, Op.ins 2, Op.era 1, Op.ins 3, Op.era 1]) ∧
      ∃ s m, ADS_set.run_erased 1 [Op.ins 1, Op.ins 2, Op.era 1, Op.ins 3, Op.era 1]
          ADS_set.init = .ok (s, m) ∧
        ADS_set.run 1 [Op.ins 1, Op.ins 2, Op.era 1, Op.ins 3, Op.era 1] ADS_set.init = .ok s ∧
        m ≤ (Op.inserted [Op.ins 1, Op.ins 2, Op.era 1, Op.ins 3, Op.era 1]).length ∧
        ADS_set.size s =
          (Op.inserted [Op.ins 1, Op.ins 2, Op.era 1, Op.ins 3, Op.era 1]).length - m :=
  ⟨by decide, by decide, by decide,
    cardinality_conserved 1 (by decide) [Op.ins 1, Op.ins 2, Op.era 1, Op.ins 3, Op.era 1]
      (by decide) (by decide)⟩

/-- C6: on every reachable tree (order `N ≥ 1`), `erase(k)` returns 1 if `k` is stored (occurs in the
traversal, `count(k)` is 1) and 0 otherwise; when it returns 0 the state, with every node,
the depth and the element count, is unchanged. -/
theorem erase_result (N : Nat) (hN : 0 < N) (s : ADS_set) (h : Reachable N s) (k : Nat) :
    ∃ l s1 r, ADS_set.traverse N s = .ok l ∧ ADS_set.erase N s k = .ok (s1, r) ∧
      r = (if k ∈ l then 1 else 0) ∧ ADS_set.count N s k = .ok r ∧ (r = 0 → s1 = s) := by
  obtain ⟨d, t, hi, g⟩ := reachable_good N hN s h
  obtain ⟨s1, d1, t1, h1, _, _, hs, _⟩ := erase_good N hN s d t hi g k
  refine ⟨_, s1, _, traverse_good N hN s d t hi g, h1, rfl, count_spec N s d t hi g k, ?_⟩
  intro h0
  apply hs
  intro hk
  rw [if_pos hk] at h0
  exact absurd h0 (by decide)

/-- At order 1, on the tree of depth 2 that holds 1 to 7: `erase(5)` finds the key and
returns 1, `erase(9)` descends to a leaf, does not find the key and returns 0. -/
theorem erase_result_witness :
    0 < 1 ∧ Reachable 1 ADS_set.seven ∧
      (ADS_set.erase 1 ADS_set.seven 5).map Prod.snd = .ok 1 ∧
      (ADS_set.erase 1 ADS_set.seven 9).map Prod.snd = .ok 0 ∧
      ADS_set.find_leaf_with_twin 1 ADS_set.seven.fuel ADS_set.seven ADS_set.seven.root 9
        (none, 0) = .ok (8, (none, 0)) ∧
      (∃ l s1 r, ADS_set.traverse 1 ADS_set.seven = .ok l ∧
        ADS_set.erase 1 ADS_set.seven 5 = .ok (s1, r) ∧
        r = (if 5 ∈ l then 1 else 0) ∧ ADS_set.count 1 ADS_set.seven 5 = .ok r ∧
        (r = 0 → s1 = ADS_set.seven)) ∧
      (∃ l s1 r, ADS_set.traverse 1 ADS_set.seven = .ok l ∧
        ADS_set.erase 1 ADS_set.seven 9 = .ok (s1, r) ∧
        r = (if 9 ∈ l then 1 else 0) ∧ ADS_set.count 1 ADS_set.seven 9 = .ok r ∧
        (r = 0 → s1 = ADS_set.seven)) :=
  ⟨by decide, reachable_seven, by decide, by decide, by decide,
    erase_result 1 (by decide) ADS_set.seven reachable_seven 5,
    erase_result 1 (by decide) ADS_set.seven reachable_seven 9⟩

/-- C8: on every reachable tree (order `N ≥ 1`), `count(k)` is 1 exactly when `k` occurs in the traversal
from `begin()` to `end()` (and 0 otherwise); `find(k)` then returns a valid slot of a leaf
whose dereference is `k`, and otherwise it returns `end()`. -/
theorem find_agrees_with_traversal (N : Nat) (hN : 0 < N) (s : ADS_set) (h : Reachable N s)
    (k : Nat) :
    ∃ l it e, ADS_set.traverse N s = .ok l ∧ ADS_set.end_ N s = .ok e ∧
      ADS_set.count N s k = .ok (if k ∈ l then 1 else 0) ∧ ADS_set.find N s k = .ok it ∧
      (k ∈ l → (s.heap it.current).leaf = true ∧
        it.index < (s.heap it.current).keys_counter ∧ ADS_set.deref_it N s it = .ok k) ∧
      (k ∉ l → it = e) := by
  obtain ⟨d, t, hi, g⟩ := reachable_good N hN s h
  obtain ⟨it, f1, f2, f3⟩ := find_spec N hN s d t hi g k
  obtain ⟨e, _, he, _⟩ := good_iter N hN s d t hi g
  refine ⟨_, it, e, traverse_good N hN s d t hi g, he, count_spec N s d t hi g k, f1, f2, ?_⟩
  intro hk
  have := f3 hk
  rw [he] at this
  injection this with this
  exact this.symm

/-- At order 1, on the tree of depth 2 that holds 1 to 7: `find(6)` returns the slot 0 of
the leaf 8, whose dereference is 6, and `find(9)` returns `end()`. -/
theorem find_agrees_with_traversal_witness :
    0 < 1 ∧ Reachable 1 ADS_set.seven ∧
      ADS_set.find 1 ADS_set.seven 6 = .ok ⟨8, 0⟩ ∧
      ADS_set.deref_it 1 ADS_set.seven ⟨8, 0⟩ = .ok 6 ∧
      ADS_set.find 1 ADS_set.seven 9 = ADS_set.end_ 1 ADS_set.seven ∧
      (∃ l it e, ADS_set.traverse 1 ADS_set.seven = .ok l ∧
        ADS_set.end_ 1 ADS_set.seven = .ok e ∧
        ADS_set.count 1 ADS_set.seven 6 = .ok (if 6 ∈ l then 1 else 0) ∧
        ADS_set.find 1 ADS_set.seven 6 = .ok it ∧
        (6 ∈ l → (ADS_set.seven.heap it.current).leaf = true ∧
          it.index < (ADS_set.seven.heap it.current).keys_counter ∧
          ADS_set.deref_it 1 ADS_set.seven it = .ok 6) ∧
        (6 ∉ l → it = e)) ∧
      (∃ l it e, ADS_set.traverse 1 ADS_set.seven = .ok l ∧
        ADS_set.end_ 1 ADS_set.seven = .ok e ∧
        ADS_set.count 1 ADS_set.seven 9 = .ok (if 9 ∈ l then 1 else 0) ∧
        ADS_set.find 1 ADS_set.seven 9 = .ok it ∧
        (9 ∈ l → (ADS_set.seven.heap it.current).leaf = true ∧
          it.index < (ADS_set.seven.heap it.current).keys_counter ∧
          ADS_set.deref_it 1 ADS_set.seven it = .ok 9) ∧
        (9 ∉ l → it = e)) :=
  ⟨by decide, reachable_seven, by decide, by decide, by decide,
    find_agrees_with_traversal 1 (by decide) ADS_set.seven reachable_seven 6,
    find_agrees_with_traversal 1 (by decide) ADS_set.seven reachable_seven 9⟩

/-- C9: after every insert and every erase applied to a reachable tree (order `N ≥ 1`) the
shape checker
accepts the tree: all leaves lie exactly `depth` levels below the root, every node other
than the root holds between `N` and `2N+1` keys, a root that is not a leaf holds at least
one key, and every internal node has one child more than it has keys. -/
theorem shape_after_call (N : Nat) (hN : 0 < N) (s : ADS_set) (h : Reachable N s) (o : Op) :
    ∃ s1, ADS_set.apply N s o = .ok s1 ∧ 0 ≤ s1.depth ∧
      ADS_set.shape_ok N s1.heap s1.depth.toNat true s1.root = true := by
  obtain ⟨s1, h1, d1, t1, hi1, g1⟩ := apply_good N hN s (reachable_good N hN s h) o
  refine ⟨s1, h1, ?_, ?_⟩
  · rw [g1.depth_eq]
    exact Int.ofNat_nonneg _
  · rw [g1.depth_eq, Int.toNat_ofNat, ← g1.root_eq]
    apply shape_of_tree N s1.heap d1 t1 none none _ true g1.tree g1.bal
    · intro e
      exact absurd e (by decide)
    · intro _ hd
      simp only [rootMin]
      rw [if_neg (by omega)]

/-- At order 1, on the tree of depth 2 that holds 1 to 7: `insert(8)` splits a leaf (one
node more), `erase(5)` lets a leaf take a key from its sibling, `erase(4)` merges on two
levels; each leaves a tree that the shape checker accepts, of depth 2 in the first two
cases. -/
theorem shape_after_call_witness :
    0 < 1 ∧ Reachable 1 ADS_set.seven ∧ ADS_set.seven.nxt = 10 ∧
      (ADS_set.apply 1 ADS_set.seven (Op.ins 8)).map (fun s => (s.depth, s.nxt)) = .ok (2, 11) ∧
      (ADS_set.apply 1 ADS_set.seven (Op.era 5)).map (fun s => (s.depth, s.nxt)) = .ok (2, 10) ∧
      (∃ s1, ADS_set.apply 1 ADS_set.seven (Op.ins 8) = .ok s1 ∧ 0 ≤ s1.depth ∧
        ADS_set.shape_ok 1 s1.heap s1.depth.toNat true s1.root = true) ∧
      (∃ s1, ADS_set.apply 1 ADS_set.seven (Op.era 5) = .ok s1 ∧ 0 ≤ s1.depth ∧
        ADS_set.shape_ok 1 s1.heap s1.depth.toNat true s1.root = true) ∧
      (∃ s1, ADS_set.apply 1 ADS_set.seven (Op.era 4) = .ok s1 ∧ 0 ≤ s1.depth ∧
        ADS_set.shape_ok 1 s1.heap s1.depth.toNat true s1.root = true) :=
  ⟨by decide, reachable_seven, by decide, by decide, by decide,
    shape_after_call 1 (by decide) ADS_set.seven reachable_seven (Op.ins 8),
    shape_after_call 1 (by decide) ADS_set.seven reachable_seven (Op.era 5),
    shape_after_call 1 (by decide) ADS_set.seven reachable_seven (Op.era 4)⟩

/-- C11: in every reachable tree (order `N ≥ 1`) the routing checker accepts the root: the keys of every
internal node increase strictly, every key stored below `children[i]` is less than
`keys[i]`, and every key stored below `children[i+1]` is not less than `keys[i]`. -/
theorem routing_order (N : Nat) (hN : 0 < N) (s : ADS_set) (h : Reachable N s) :
    0 ≤ s.depth ∧ ADS_set.routes_ok s.heap s.depth.toNat s.root = true := by
  obtain ⟨d, t, hi, g⟩ := reachable_good N hN s h
  constructor
  · rw [g.depth_eq]
    exact Int.ofNat_nonneg _
  · rw [g.depth_eq, Int.toNat_ofNat, ← g.root_eq]
    exact routes_of_tree N s.heap d t none none _ 0 hi g.tree g.bal g.ord

/-- At order 1, the tree that holds 1 to 7 has depth 2, the root holds the separators 3
and 5, and the routing checker accepts it. -/
theorem routing_order_witness :
    0 < 1 ∧ Reachable 1 ADS_set.seven ∧ ADS_set.seven.depth = 2 ∧
      (ADS_set.seven.heap ADS_set.seven.root).live = [3, 5] ∧ 0 ≤ ADS_set.seven.depth ∧
      ADS_set.routes_ok ADS_set.seven.heap ADS_set.seven.depth.toNat ADS_set.seven.root = true :=
  ⟨by decide, reachable_seven, by decide, by decide,
    routing_order 1 (by decide) ADS_set.seven reachable_seven⟩

/-- C12 (as claimed, refuted): with `N = 1`, after inserting 1, 2, 3, 4 into the empty tree
the leaves are not `[1,2]` and `[3,4]`. -/
theorem four_inserts_not_two_leaves :
    (ADS_set.run 1 [.ins 1, .ins 2, .ins 3, .ins 4] ADS_set.init).map
      (fun s => (s.depth, ADS_set.leaf_rows s.heap s.depth.toNat s.root)) ≠
      .ok (1, [[1, 2], [3, 4]]) := by
  decide

/-- C12 (amended): with `N = 1`, inserting 1, 2, 3, 4 in that order into the empty tree
produces a tree of depth 1 with exactly three leaves, `[1]`, `[2]` and `[3,4]`: a leaf is
split as soon as it holds `2N+1 = 3` keys, and its left half keeps `N` of them. -/
theorem four_inserts_three_leaves :
    (ADS_set.run 1 [.ins 1, .ins 2, .ins 3, .ins 4] ADS_set.init).map
      (fun s => (s.depth, ADS_set.leaf_rows s.heap s.depth.toNat s.root)) =
      .ok (1, [[1], [2], [3, 4]]) := by
  decide

/-- C13: with `N = 1`, inserting 1 to 7 in ascending order into the empty tree produces a
tree of depth 2 and size 7. -/
theorem seven_inserts_depth_two :
    (ADS_set.run 1 [.ins 1, .ins 2, .ins 3, .ins 4, .ins 5, .ins 6, .ins 7] ADS_set.init).map
      (fun s => (s.depth, ADS_set.size s)) = .ok (2, 7) := by
  decide

/-- C15: on every reachable tree of depth `d` (order `N ≥ 1`), `insert` returns with depth `d` or `d+1`,
and `erase` returns with depth `d` or `d-1` (and never below 0). -/
theorem depth_changes_by_one (N : Nat) (hN : 0 < N) (s : ADS_set) (h : Reachable N s)
    (k : Nat) :
    (∃ s1 r, ADS_set.insert N s k = .ok (s1, r) ∧
      (s1.depth = s.depth ∨ s1.depth = s.depth + 1)) ∧
    (∃ s1 r, ADS_set.erase N s k = .ok (s1, r) ∧
      (s1.depth = s.depth ∨ s1.depth = s.depth - 1) ∧ 0 ≤ s1.depth) := by
  obtain ⟨d, t, hi, g⟩ := reachable_good N hN s h
  constructor
  · obtain ⟨s1, it, d1, t1, hi1, h1, g1, _, _, hd⟩ := insert_good_depth N hN s d t hi g k
    refine ⟨s1, _, h1, ?_⟩
    rw [g1.depth_eq, g.depth_eq]
    rcases hd with e | e
    · exact Or.inl (by rw [e])
    · exact Or.inr (by rw [e]; rfl)
  · obtain ⟨s1, d1, t1, h1, g1, _, _, hd, _⟩ := erase_good N hN s d t hi g k
    refine ⟨s1, _, h1, ?_, ?_⟩
    · rw [g1.depth_eq, g.depth_eq]
      rcases hd with e | e
      · exact Or.inl (by rw [e])
      · right
        rw [← e]
        simp
    · rw [g1.depth_eq]
      exact Int.ofNat_nonneg _

/-- On a tree that holds `2N` keys, the removal of a stored key leaves a tree of depth 0: a
tree of depth above 0 stores at least `2N` keys. -/
theorem erase_to_depth_zero (N : Nat) (hN : 0 < N) (s : ADS_set) (h : Reachable N s) (k : Nat)
    (hk : ADS_set.count N s k = .ok 1) (hsz : ADS_set.size s = 2 * N) :
    ∃ s1, ADS_set.erase N s k = .ok (s1, 1) ∧ s1.depth = 0 := by
  obtain ⟨d, t, hi, g⟩ := reachable_good N hN s h
  have hmem : k ∈ BTree.contents d t := by
    have hc := count_spec N s d t hi g k
    rw [hk] at hc
    by_contra hn
    rw [if_neg hn] at hc
    cases hc
  obtain ⟨s1, d1, t1, h1, g1, _, _, _, hc⟩ := erase_size N hN s d t hi g k
  rw [if_pos hmem] at h1 hc
  refine ⟨s1, h1, ?_⟩
  have hsz1 : s.element_counter = 2 * N := hsz
  cases d1 with
  | zero =>
    rw [g1.depth_eq]
    rfl
  | succ d1 =>
    have h2 := good_contents_two N s1 d1 t1 hi g1
    have h3 := g1.count_eq
    omega

/-- At order 1: `insert(3)` into the root leaf that holds 1 and 2 splits the root, the
depth goes from 0 to 1; `erase(1)` on the root above the leaves with 1 and with 2 merges the
leaves and collapses the root, the depth goes from 1 to 0. -/
theorem depth_changes_by_one_witness :
    0 < 1 ∧ Reachable 1 ADS_set.two ∧ Reachable 1 ADS_set.pair ∧
      ADS_set.two.depth = 0 ∧
      (ADS_set.insert 1 ADS_set.two 3).map (fun r => r.1.depth) = .ok 1 ∧
      ADS_set.pair.depth = 1 ∧
      (∃ s1, ADS_set.erase 1 ADS_set.pair 1 = .ok (s1, 1) ∧ s1.depth = 0) ∧
      (∃ s1 r, ADS_set.insert 1 ADS_set.two 3 = .ok (s1, r) ∧
        (s1.depth = ADS_set.two.depth ∨ s1.depth = ADS_set.two.depth + 1)) ∧
      (∃ s1 r, ADS_set.erase 1 ADS_set.pair 1 = .ok (s1, r) ∧
        (s1.depth = ADS_set.pair.depth ∨ s1.depth = ADS_set.pair.depth - 1) ∧ 0 ≤ s1.depth) :=
  ⟨by decide, reachable_two, reachable_pair, by decide, by decide, by decide,
    erase_to_depth_zero 1 (by decide) ADS_set.pair reachable_pair 1 (by decide) (by decide),
    (depth_changes_by_one 1 (by decide) ADS_set.two reachable_two 3).1,
    (depth_changes_by_one 1 (by decide) ADS_set.pair reachable_pair 1).2⟩

/-- C18: `clear()` resets the tree to the default state: the root is a new leaf without
keys, the depth is 0, `size()` is 0, `begin()` and `end()` return the same position, and
`count(k)` is 0 for every key `k`. -/
theorem clear_resets (N : Nat) (s : ADS_set) :
    (ADS_set.clear s).heap (ADS_set.clear s).root = Node.fresh ∧
      (ADS_set.clear s).depth = 0 ∧ ADS_set.size (ADS_set.clear s) = 0 ∧
      (∃ it, ADS_set.begin_ N (ADS_set.clear s) = .ok it ∧
        ADS_set.end_ N (ADS_set.clear s) = .ok it) ∧
      ∀ k, ADS_set.count N (ADS_set.clear s) k = .ok 0 := by
  have g := clear_good N s
  have hroot : (ADS_set.clear s).heap (ADS_set.clear s).root = Node.fresh := by
    show (upd s.heap s.nxt Node.fresh) s.nxt = Node.fresh
    rw [upd_same]
  have hf := good_fuel N _ _ _ _ g
  have hb := begin_loop_first N _ 0 (s.nxt, []) _ none none _ hf g.tree g.bal
  have he := end_loop_last N _ 0 (s.nxt, []) _ none none _ hf g.tree g.bal
  rw [g.root_eq] at hb he
  refine ⟨hroot, rfl, rfl, ⟨⟨s.nxt, 0⟩, ?_, ?_⟩, ?_⟩
  · unfold ADS_set.begin_
    rw [hb]
    rfl
  · unfold ADS_set.end_
    rw [he]
    simp only [ok_bind]
    have : BTree.lastLeaf 0 (s.nxt, []) = (ADS_set.clear s).root := rfl
    rw [this, hroot]
    rfl
  · intro k
    rw [count_spec N _ _ _ _ g k]
    simp [BTree.contents]

/-- C20: on every reachable tree (order `N ≥ 1`) `erase` returns a result for every key; in particular it
ends in neither of the two errors of `index_from_parent` (called on the root, or the node
not found among the children of its parent). -/
theorem erase_never_throws (N : Nat) (hN : 0 < N) (s : ADS_set) (h : Reachable N s) (k : Nat) :
    (∃ r, ADS_set.erase N s k = .ok r) ∧ ADS_set.erase N s k ≠ .error .root_index ∧
      ADS_set.erase N s k ≠ .error .not_child := by
  obtain ⟨d, t, hi, g⟩ := reachable_good N hN s h
  obtain ⟨s1, d1, t1, h1, _⟩ := erase_good N hN s d t hi g k
  rw [h1]
  exact ⟨⟨_, rfl⟩, ⟨fun e => Except.noConfusion e, fun e => Except.noConfusion e⟩⟩

/-- At order 1, on the tree of depth 2 that holds 1 to 7: `erase(5)` leaves the leaf 7
without a key, so that `index_from_parent` runs on that leaf (it is child 0 of the node 9),
and the call returns 1; `erase(4)` empties the leaf 4, child 1 of the node 6, and the merge
that follows leaves the node 6, child 1 of the root, without a key, so that
`index_from_parent` runs on both. -/
theorem erase_never_throws_witness :
    0 < 1 ∧ Reachable 1 ADS_set.seven ∧
      ADS_set.find_leaf 1 ADS_set.seven.fuel ADS_set.seven ADS_set.seven.root 5 = .ok 7 ∧
      ADS_set.index_from_parent 1 ADS_set.seven 7 = .ok 0 ∧
      (ADS_set.erase 1 ADS_set.seven 5).map Prod.snd = .ok 1 ∧
      ((∃ r, ADS_set.erase 1 ADS_set.seven 5 = .ok r) ∧
        ADS_set.erase 1 ADS_set.seven 5 ≠ .error .root_index ∧
        ADS_set.erase 1 ADS_set.seven 5 ≠ .error .not_child) ∧
      ADS_set.find_leaf 1 ADS_set.seven.fuel ADS_set.seven ADS_set.seven.root 4 = .ok 4 ∧
      ADS_set.index_from_parent 1 ADS_set.seven 4 = .ok 1 ∧
      ADS_set.index_from_parent 1 ADS_set.seven 6 = .ok 1 ∧
      ((∃ r, ADS_set.erase 1 ADS_set.seven 4 = .ok r) ∧
        ADS_set.erase 1 ADS_set.seven 4 ≠ .error .root_index ∧
        ADS_set.erase 1 ADS_set.seven 4 ≠ .error .not_child) :=
  ⟨by decide, reachable_seven, by decide, by decide, by decide,
    erase_never_throws 1 (by decide) ADS_set.seven reachable_seven 5,
    by decide, by decide, by decide,
    erase_never_throws 1 (by decide) ADS_set.seven reachable_seven 4⟩



/-! ## Collapse, equality and the iterator range -/

theorem sub_eq_of_card (A B : Finset Nat) (h : A ⊆ B) (hc : B.card ≤ A.card) : A = B :=
  Finset.eq_of_subset_of_card_le h hc

/-- C14: with `N = 1`, after inserting 1 to 7 and then erasing six of the seven keys in any
order, the tree has depth 0: the root is a leaf without successor that holds exactly the
one remaining key, and `size()` is 1. -/
theorem six_erases_collapse (ks : List Nat) (hnd : ks.Nodup) (hlen : ks.length = 6)
    (hr : ∀ k ∈ ks, 1 ≤ k ∧ k ≤ 7) :
    ∃ s r, ADS_set.run 1 ([1, 2, 3, 4, 5, 6, 7].map Op.ins ++ ks.map Op.era) ADS_set.init =
        .ok s ∧
      s.depth = 0 ∧ (s.heap s.root).leaf = true ∧ (s.heap s.root).next = none ∧
      (s.heap s.root).live = [r] ∧ r ∉ ks ∧ 1 ≤ r ∧ r ≤ 7 ∧ ADS_set.size s = 1 := by
  obtain ⟨s, d, t, hi, h1, g, hk⟩ := run_keys 1 (by decide)
    ([1, 2, 3, 4, 5, 6, 7].map Op.ins ++ ks.map Op.era) ADS_set.init 0 (0, []) 0 (init_good 1)
  rw [keys_after_ins, keys_after_era] at hk
  have hsub : ks.toFinset ⊆ ([1, 2, 3, 4, 5, 6, 7] : List Nat).toFinset := by
    intro x hx
    have := hr x (List.mem_toFinset.mp hx)
    simp only [List.toFinset_cons, List.toFinset_nil, Finset.mem_insert, Finset.mem_singleton]
    omega
  have hcard : (BTree.contents d t).length = 1 := by
    have c := congrArg Finset.card hk
    rw [List.toFinset_card_of_nodup (good_contents_nodup 1 s d t hi g)] at c
    rw [c]
    have e0 : (BTree.contents 0 ((0, []) : BTree 0)).toFinset ∪
        ([1, 2, 3, 4, 5, 6, 7] : List Nat).toFinset = ([1, 2, 3, 4, 5, 6, 7] : List Nat).toFinset := by
      simp [BTree.contents]
    rw [e0, Finset.card_sdiff hsub, List.toFinset_card_of_nodup hnd, hlen]
    rfl
  have hd : d = 0 := by
    cases d with
    | zero => rfl
    | succ d0 =>
      have := good_contents_two 1 s d0 t hi g
      omega
  subst hd
  obtain ⟨a, cs⟩ := t
  have hT := g.tree
  rw [treeAt_zero] at hT
  have hroot : a = s.root := g.root_eq
  simp only [BTree.contents] at hcard hk
  obtain ⟨r, hcs⟩ := List.length_eq_one.mp hcard
  subst hcs
  have hmem : r ∈ ([r] : List Nat).toFinset := by simp
  rw [hk] at hmem
  simp only [BTree.contents, List.toFinset_nil, Finset.empty_union, Finset.mem_sdiff,
    List.mem_toFinset] at hmem
  have hr7 : 1 ≤ r ∧ r ≤ 7 := by
    have := hmem.1
    simp only [List.mem_cons, List.mem_singleton, List.not_mem_nil, or_false] at this
    omega
  refine ⟨s, r, h1, ?_, ?_, ?_, ?_, hmem.2, hr7.1, hr7.2, ?_⟩
  · rw [g.depth_eq]
    rfl
  · rw [← hroot]
    exact hT.1
  · rw [← hroot]
    exact hT.2.2.2
  · rw [← hroot]
    exact live_eq hT.2.1
  · show s.element_counter = 1
    rw [g.count_eq]
    rfl

theorem six_erases_collapse_witness :
    ([3, 7, 1, 5, 2, 6] : List Nat).Nodup ∧ ([3, 7, 1, 5, 2, 6] : List Nat).length = 6 ∧
      (∀ k ∈ ([3, 7, 1, 5, 2, 6] : List Nat), 1 ≤ k ∧ k ≤ 7) ∧
      ∃ s r, ADS_set.run 1 ([1, 2, 3, 4, 5, 6, 7].map Op.ins ++
          ([3, 7, 1, 5, 2, 6] : List Nat).map Op.era) ADS_set.init = .ok s ∧
        s.depth = 0 ∧ (s.heap s.root).leaf = true ∧ (s.heap s.root).next = none ∧
        (s.heap s.root).live = [r] ∧ r ∉ ([3, 7, 1, 5, 2, 6] : List Nat) ∧ 1 ≤ r ∧ r ≤ 7 ∧
        ADS_set.size s = 1 :=
  ⟨by decide, by decide, by decide,
    six_erases_collapse [3, 7, 1, 5, 2, 6] (by decide) (by decide) (by decide)⟩

/-- C16: for two reachable trees of order `N ≥ 1`, `a == b` returns true exactly when they have the same
size and hold the same keys, and `b == a` returns the same; two trees built by inserting
the same keys in different orders compare equal. -/
theorem equals_spec (N : Nat) (hN : 0 < N) :
    (∀ a b : ADS_set, Reachable N a → Reachable N b →
      ∃ la lb r, ADS_set.traverse N a = .ok la ∧ ADS_set.traverse N b = .ok lb ∧
        ADS_set.equals N a b = .ok r ∧ ADS_set.equals N b a = .ok r ∧
        (r = true ↔ ADS_set.size a = ADS_set.size b ∧ ∀ k, k ∈ la ↔ k ∈ lb)) ∧
    (∀ ks1 ks2 : List Nat, ks1.Perm ks2 →
      ∃ a b, ADS_set.run N (ks1.map Op.ins) ADS_set.init = .ok a ∧
        ADS_set.run N (ks2.map Op.ins) ADS_set.init = .ok b ∧
        ADS_set.equals N a b = .ok true) := by
  have key : ∀ (a b : ADS_set) (da db : Nat) (ta : BTree da) (tb : BTree db) (ha hb : Nat),
      GoodT N a da ta ha → GoodT N b db tb hb →
      (((BTree.contents da ta).length = (BTree.contents db tb).length ∧
        ∀ k ∈ BTree.contents da ta, k ∈ BTree.contents db tb) ↔
      ((BTree.contents da ta).length = (BTree.contents db tb).length ∧
        ∀ k, k ∈ BTree.contents da ta ↔ k ∈ BTree.contents db tb)) := by
    intro a b da db ta tb ha hb ga gb
    constructor
    · intro ⟨h1, h2⟩
      refine ⟨h1, ?_⟩
      have hsub : (BTree.contents da ta).toFinset ⊆ (BTree.contents db tb).toFinset := by
        intro x hx
        exact List.mem_toFinset.mpr (h2 x (List.mem_toFinset.mp hx))
      have heq := sub_eq_of_card _ _ hsub (by
        rw [List.toFinset_card_of_nodup (good_contents_nodup N a da ta ha ga),
          List.toFinset_card_of_nodup (good_contents_nodup N b db tb hb gb), h1])
      intro k
      rw [← List.mem_toFinset, heq, List.mem_toFinset]
    · intro ⟨h1, h2⟩
      exact ⟨h1, fun k hk => (h2 k).mp hk⟩
  constructor
  · intro a b ra rb
    obtain ⟨da, ta, ha, ga⟩ := reachable_good N hN a ra
    obtain ⟨db, tb, hb, gb⟩ := reachable_good N hN b rb
    refine ⟨_, _, _, traverse_good N hN a da ta ha ga, traverse_good N hN b db tb hb gb,
      equals_good N hN a b da db ta tb ha hb ga gb, ?_, ?_⟩
    · rw [equals_good N hN b a db da tb ta hb ha gb ga]
      congr 1
      rw [decide_eq_decide, key b a db da tb ta hb ha gb ga, key a b da db ta tb ha hb ga gb]
      constructor
      · intro ⟨h1, h2⟩
        exact ⟨h1.symm, fun k => (h2 k).symm⟩
      · intro ⟨h1, h2⟩
        exact ⟨h1.symm, fun k => (h2 k).symm⟩
    · rw [decide_eq_true_iff, key a b da db ta tb ha hb ga gb]
      show _ ↔ a.element_counter = b.element_counter ∧ _
      rw [ga.count_eq, gb.count_eq]
  · intro ks1 ks2 hp
    obtain ⟨a, da, ta, ha, h1, ga, ka⟩ := run_keys N hN (ks1.map Op.ins) ADS_set.init 0 (0, []) 0
      (init_good N)
    obtain ⟨b, db, tb, hb, h2, gb, kb⟩ := run_keys N hN (ks2.map Op.ins) ADS_set.init 0 (0, []) 0
      (init_good N)
    refine ⟨a, b, h1, h2, ?_⟩
    have e1 := keys_after_ins ks1 [] (BTree.contents 0 ((0, []) : BTree 0)).toFinset
    have e2 := keys_after_ins ks2 [] (BTree.contents 0 ((0, []) : BTree 0)).toFinset
    rw [List.append_nil] at e1 e2
    rw [e1] at ka
    rw [e2] at kb
    have hfin : (BTree.contents da ta).toFinset = (BTree.contents db tb).toFinset := by
      rw [ka, kb]
      simp only [Op.keys_after]
      congr 1
      exact List.toFinset_eq_of_perm _ _ hp
    rw [equals_good N hN a b da db ta tb ha hb ga gb]
    congr 1
    rw [decide_eq_true_iff]
    constructor
    · have c := congrArg Finset.card hfin
      rw [List.toFinset_card_of_nodup (good_contents_nodup N a da ta ha ga),
        List.toFinset_card_of_nodup (good_contents_nodup N b db tb hb gb)] at c
      exact c
    · intro k hk
      rw [← List.mem_toFinset, ← hfin, List.mem_toFinset]
      exact hk

theorem equals_spec_witness :
    0 < 1 ∧ Reachable 1 ADS_set.init ∧ ([1, 2, 3] : List Nat).Perm [3, 1, 2] ∧
      (∃ la lb r, ADS_set.traverse 1 ADS_set.init = .ok la ∧
        ADS_set.traverse 1 ADS_set.init = .ok lb ∧
        ADS_set.equals 1 ADS_set.init ADS_set.init = .ok r ∧
        ADS_set.equals 1 ADS_set.init ADS_set.init = .ok r ∧
        (r = true ↔ ADS_set.size ADS_set.init = ADS_set.size ADS_set.init ∧
          ∀ k, k ∈ la ↔ k ∈ lb)) ∧
      ∃ a b, ADS_set.run 1 (([1, 2, 3] : List Nat).map Op.ins) ADS_set.init = .ok a ∧
        ADS_set.run 1 (([3, 1, 2] : List Nat).map Op.ins) ADS_set.init = .ok b ∧
        ADS_set.equals 1 a b = .ok true :=
  ⟨by decide, reachable_init 1, by decide,
    (equals_spec 1 (by decide)).1 ADS_set.init ADS_set.init (reachable_init 1) (reachable_init 1),
    (equals_spec 1 (by decide)).2 [1, 2, 3] [3, 1, 2] (by decide)⟩

/-- C19: on every reachable tree (order `N ≥ 1`) `begin()` is the first slot of the leftmost leaf and
`end()` the slot behind the last key of the rightmost leaf; `size()` steps of `operator++`
lead from `begin()` to `end()`, no fewer do, and every position before that is a valid
key slot of a leaf, so that its dereference reads a key; on a tree without elements
`begin()` equals `end()`. -/
theorem iterator_range (N : Nat) (hN : 0 < N) (s : ADS_set) (h : Reachable N s) :
    ∃ b e l r, ADS_set.begin_ N s = .ok b ∧ ADS_set.end_ N s = .ok e ∧ 0 ≤ s.depth ∧
      ADS_set.leftmost s.heap s.depth.toNat s.root = some l ∧
      ADS_set.rightmost s.heap s.depth.toNat s.root = some r ∧
      (s.heap l).leaf = true ∧ (s.heap r).leaf = true ∧
      b = ⟨l, 0⟩ ∧ e = ⟨r, (s.heap r).keys_counter⟩ ∧
      (ADS_set.incr s)^[ADS_set.size s] b = e ∧
      (∀ i, i < ADS_set.size s →
        (ADS_set.incr s)^[i] b ≠ e ∧
        (s.heap ((ADS_set.incr s)^[i] b).current).leaf = true ∧
        ((ADS_set.incr s)^[i] b).index < (s.heap ((ADS_set.incr s)^[i] b).current).keys_counter ∧
        ∃ k, ADS_set.deref_it N s ((ADS_set.incr s)^[i] b) = .ok k) ∧
      (ADS_set.size s = 0 → b = e) := by
  obtain ⟨d, t, hi, g⟩ := reachable_good N hN s h
  obtain ⟨e, h1, h2, h3, h4, h5, h6, h7⟩ := good_iter N hN s d t hi g
  have hsz : ADS_set.size s = (BTree.contents d t).length := g.count_eq
  refine ⟨⟨BTree.firstLeaf d t, 0⟩, e, BTree.firstLeaf d t, BTree.lastLeaf d t, h1, h2, ?_, ?_, ?_,
    h4, h5, rfl, h3, ?_, ?_, ?_⟩
  · rw [g.depth_eq]
    exact Int.ofNat_nonneg _
  · rw [g.depth_eq, Int.toNat_ofNat, ← g.root_eq]
    exact leftmost_first N s.heap d t none none _ g.tree g.bal
  · rw [g.depth_eq, Int.toNat_ofNat, ← g.root_eq]
    exact rightmost_last N s.heap d t none none _ g.tree g.bal
  · rw [hsz]
    exact h6
  · intro i hi1
    rw [hsz] at hi1
    obtain ⟨k1, k2, k3, k4⟩ := h7 i hi1
    exact ⟨k1, k2, k3, _, k4⟩
  · intro h0
    rw [hsz] at h0
    rw [h0] at h6
    exact h6

/-- At order 1, on the tree of depth 2 that holds 1 to 7: `begin()` is the slot 0 of the
leaf 0, `end()` the slot 2 of the leaf 8, seven steps lead from the one to the other, and
the position after three steps is the slot 0 of the leaf 4, whose dereference is 4. -/
theorem iterator_range_witness :
    0 < 1 ∧ Reachable 1 ADS_set.seven ∧ ADS_set.size ADS_set.seven = 7 ∧
      ADS_set.begin_ 1 ADS_set.seven = .ok ⟨0, 0⟩ ∧ ADS_set.end_ 1 ADS_set.seven = .ok ⟨8, 2⟩ ∧
      (ADS_set.incr ADS_set.seven)^[7] ⟨0, 0⟩ = ⟨8, 2⟩ ∧
      (ADS_set.incr ADS_set.seven)^[3] ⟨0, 0⟩ = ⟨4, 0⟩ ∧
      ADS_set.deref_it 1 ADS_set.seven ⟨4, 0⟩ = .ok 4 ∧
      ∃ b e l r, ADS_set.begin_ 1 ADS_set.seven = .ok b ∧ ADS_set.end_ 1 ADS_set.seven = .ok e ∧
        0 ≤ ADS_set.seven.depth ∧
        ADS_set.leftmost ADS_set.seven.heap ADS_set.seven.depth.toNat ADS_set.seven.root =
          some l ∧
        ADS_set.rightmost ADS_set.seven.heap ADS_set.seven.depth.toNat ADS_set.seven.root =
          some r ∧
        (ADS_set.seven.heap l).leaf = true ∧ (ADS_set.seven.heap r).leaf = true ∧
        b = ⟨l, 0⟩ ∧ e = ⟨r, (ADS_set.seven.heap r).keys_counter⟩ ∧
        (ADS_set.incr ADS_set.seven)^[ADS_set.size ADS_set.seven] b = e ∧
        (∀ i, i < ADS_set.size ADS_set.seven →
          (ADS_set.incr ADS_set.seven)^[i] b ≠ e ∧
          (ADS_set.seven.heap ((ADS_set.incr ADS_set.seven)^[i] b).current).leaf = true ∧
          ((ADS_set.incr ADS_set.seven)^[i] b).index <
            (ADS_set.seven.heap ((ADS_set.incr ADS_set.seven)^[i] b).current).keys_counter ∧
          ∃ k, ADS_set.deref_it 1 ADS_set.seven ((ADS_set.incr ADS_set.seven)^[i] b) = .ok k) ∧
        (ADS_set.size ADS_set.seven = 0 → b = e) :=
  ⟨by decide, reachable_seven, by decide, by decide, by decide, by decide, by decide, by decide,
    iterator_range 1 (by decide) ADS_set.seven reachable_seven⟩



/-! ## `insert` does not read the element count -/

namespace ADS_set

theorem wc_heap (c : Nat) (s : ADS_set) : (with_count c s).heap = s.heap := rfl
theorem wc_root (c : Nat) (s : ADS_set) : (with_count c s).root = s.root := rfl
theorem wc_nxt (c : Nat) (s : ADS_set) : (with_count c s).nxt = s.nxt := rfl
theorem wc_depth (c : Nat) (s : ADS_set) : (with_count c s).depth = s.depth := rfl
theorem wc_fuel (c : Nat) (s : ADS_set) : (with_count c s).fuel = s.fuel := rfl
theorem wc_count (c : Nat) (s : ADS_set) : (with_count c s).element_counter = c := rfl
theorem wc_wc (c c1 : Nat) (s : ADS_set) : with_count c (with_count c1 s) = with_count c s := rfl
theorem wc_set (c : Nat) (s : ADS_set) (p : Nat) (nd : Node) :
    (with_count c s).set p nd = with_count c (s.set p nd) := rfl
theorem wc_alloc (c : Nat) (s : ADS_set) :
    (with_count c s).alloc = (with_count c s.alloc.1, s.alloc.2) := rfl
theorem wc_self (s : ADS_set) : with_count s.element_counter s = s := rfl
theorem wc_has_max (N : Nat) (c : Nat) (s : ADS_set) (p : Nat) :
    has_max_num_of_keys N (with_count c s) p = has_max_num_of_keys N s p := rfl
theorem wc_is_root (c : Nat) (s : ADS_set) (p : Nat) :
    is_root (with_count c s) p = is_root s p := rfl

theorem mk_core (h : Nat → Node) (n r : Nat) (d : Int) (e : Nat) :
    ADS_set.mk h n r d e = with_count e (core h n r d) := rfl
theorem core_heap (h : Nat → Node) (n r : Nat) (d : Int) : (core h n r d).heap = h := rfl
theorem core_nxt (h : Nat → Node) (n r : Nat) (d : Int) : (core h n r d).nxt = n := rfl
theorem core_root (h : Nat → Node) (n r : Nat) (d : Int) : (core h n r d).root = r := rfl
theorem core_depth (h : Nat → Node) (n r : Nat) (d : Int) : (core h n r d).depth = d := rfl
theorem core_fuel (h : Nat → Node) (n r : Nat) (d : Int) : (core h n r d).fuel = n + 1 := rfl
theorem core_count (h : Nat → Node) (n r : Nat) (d : Int) :
    (core h n r d).element_counter = 0 := rfl
theorem core_set (h : Nat → Node) (n r : Nat) (d : Int) (p : Nat) (nd : Node) :
    (core h n r d).set p nd = core (upd h p nd) n r d := rfl
theorem core_alloc (h : Nat → Node) (n r : Nat) (d : Int) :
    (core h n r d).alloc = (core (upd h n Node.fresh) (n + 1) r d, n) := rfl

theorem map_bind_ok {α β γ : Type} (x : Except Err α) (f : α → Except Err β) (g : β → γ) :
    Except.map g (x >>= f) = x >>= fun a => Except.map g (f a) := by
  cases x <;> rfl

theorem bind_map_ok {α β γ : Type} (x : Except Err α) (f : β → Except Err γ) (g : α → β) :
    (Except.map g x >>= f) = x >>= fun a => f (g a) := by
  cases x <;> rfl

theorem map_map_ok {α β γ : Type} (x : Except Err α) (f : α → β) (g : β → γ) :
    Except.map g (Except.map f x) = Except.map (fun a => g (f a)) x := by
  cases x <;> rfl

theorem map_ok {α β : Type} (a : α) (g : α → β) :
    Except.map g (Except.ok a : Except Err α) = .ok (g a) := rfl

theorem map_error {α β : Type} (e : Err) (g : α → β) :
    Except.map g (Except.error e : Except Err α) = .error e := rfl

theorem map_ite_ok {α β : Type} (p : Prop) [Decidable p] (a b : Except Err α) (g : α → β) :
    Except.map g (if p then a else b) = if p then Except.map g a else Except.map g b := by
  split <;> rfl

theorem ite_wc (p : Prop) [Decidable p] (c : Nat) (a b : ADS_set) :
    (if p then with_count c a else with_count c b) = with_count c (if p then a else b) := by
  split <;> rfl

theorem find_leaf_wc (N : Nat) (c : Nat) (key : Nat) :
    ∀ (f : Nat) (s : ADS_set) (p : Nat),
      find_leaf N f (with_count c s) p key = find_leaf N f s p key
  | 0, _, _ => rfl
  | f + 1, s, p => by
    simp only [find_leaf, wc_heap, find_leaf_wc N c key f s]

theorem move_keys_loop_wc (N : Nat) (c : Nat) :
    ∀ (n i : Nat) (s : ADS_set) (left right : Nat),
      move_keys_loop N n i (with_count c s) left right =
        Except.map (with_count c) (move_keys_loop N n i s left right)
  | 0, _, _, _, _ => rfl
  | n + 1, i, s, left, right => by
    simp only [move_keys_loop, wc_heap, wc_set, move_keys_loop_wc N c n, map_bind_ok]

theorem move_children_loop_wc (N : Nat) (c : Nat) :
    ∀ (n i : Nat) (s : ADS_set) (left right : Nat),
      move_children_loop N n i (with_count c s) left right =
        Except.map (with_count c) (move_children_loop N n i s left right)
  | 0, _, _, _, _ => rfl
  | n + 1, i, s, left, right => by
    simp only [move_children_loop, wc_heap, wc_set, move_children_loop_wc N c n, map_bind_ok]

theorem step_pure {α β : Type} {W : β → β} {x y : Except Err α} {f g : α → Except Err β}
    (h : x = y) (hf : ∀ a, f a = Except.map W (g a)) :
    (x >>= f) = Except.map W (y >>= g) := by
  subst h
  cases x with
  | error e => rfl
  | ok a => exact hf a

theorem step_state {α β : Type} {V : α → α} {W : β → β} {x y : Except Err α}
    {f g : α → Except Err β}
    (h : x = Except.map V y) (hf : ∀ a, f (V a) = Except.map W (g a)) :
    (x >>= f) = Except.map W (y >>= g) := by
  subst h
  cases y with
  | error e => rfl
  | ok a => exact hf a

theorem root_split_wc (N : Nat) (c : Nat) (s : ADS_set) :
    root_split N (with_count c s) = Except.map (with_count c) (root_split N s) := by
  obtain ⟨h, n, r, d, e⟩ := s
  simp only [root_split, mk_core, wc_wc, wc_heap, wc_set, wc_root, wc_depth, wc_nxt, wc_count,
    wc_alloc, core_heap, core_nxt, core_root, core_depth, core_count, core_set, core_alloc,
    map_bind_ok, bind_map_ok, map_map_ok, map_ok, map_error, move_keys_loop_wc,
    move_children_loop_wc, map_ite_ok]
  refine bind_congr (fun middle => ?_)
  refine bind_congr (fun r1 => ?_)
  refine bind_congr (fun r1b => ?_)
  refine bind_congr (fun p => ?_)
  obtain ⟨r2, x⟩ := p
  refine bind_congr (fun a => ?_)
  simp only [ok_bind]
  simp only [wc_wc, wc_heap, wc_set, wc_root, wc_depth, wc_nxt, wc_count]

theorem internal_split_body_wc (N : Nat) (c : Nat) (s : ADS_set) (left : Nat) :
    internal_split_body N (with_count c s) left =
      Except.map (fun r => (with_count c r.1, r.2)) (internal_split_body N s left) := by
  obtain ⟨h, n, r, d, e⟩ := s
  simp only [internal_split_body, mk_core, wc_wc, wc_heap, wc_set, wc_root, wc_depth, wc_nxt,
    wc_count, wc_alloc, core_heap, core_nxt, core_root, core_depth, core_count, core_set,
    core_alloc, map_bind_ok, bind_map_ok, map_map_ok, map_ok, map_error, move_keys_loop_wc,
    move_children_loop_wc, map_ite_ok, ok_bind, error_bind]

theorem internal_split_wc (N : Nat) (c : Nat) :
    ∀ (f : Nat) (s : ADS_set) (left : Nat),
      internal_split N f (with_count c s) left =
        Except.map (with_count c) (internal_split N f s left)
  | 0, _, _ => rfl
  | f + 1, s, left => by
    simp only [internal_split, internal_split_body_wc, bind_map_ok, map_bind_ok, wc_has_max,
      wc_is_root, root_split_wc, internal_split_wc N c f, map_ite_ok, map_ok]

theorem external_split_body_wc (N : Nat) (c : Nat) (s : ADS_set) (left : Nat) :
    external_split_body N (with_count c s) left =
      Except.map (with_count c) (external_split_body N s left) := by
  obtain ⟨h, n, r, d, e⟩ := s
  simp only [external_split_body, mk_core, wc_wc, wc_heap, wc_set, wc_root, wc_depth, wc_nxt,
    wc_count, wc_alloc, core_heap, core_nxt, core_root, core_depth, core_count, core_set,
    core_alloc, map_bind_ok, bind_map_ok, map_map_ok, map_ok, map_error, move_keys_loop_wc,
    move_children_loop_wc, map_ite_ok, ok_bind, error_bind, ite_wc]

theorem external_split_wc (N : Nat) (c : Nat) (f : Nat) (s : ADS_set) (left : Nat) :
    external_split N f (with_count c s) left =
      Except.map (with_count c) (external_split N f s left) := by
  simp only [external_split, external_split_body_wc, bind_map_ok, map_bind_ok, wc_heap,
    root_split_wc, internal_split_wc, map_ite_ok, map_ok]
  refine bind_congr (fun a => ?_)
  refine bind_congr (fun lp => ?_)
  split
  · split <;> rfl
  · rfl

theorem insert_private_internal_wc (N : Nat) (c : Nat) (s : ADS_set) (current key : Nat) :
    insert_private_internal N (with_count c s) current key =
      Except.map (fun r => (with_count (c + 1) r.1, r.2))
        (insert_private_internal N s current key) := by
  obtain ⟨h, n, r, d, e⟩ := s
  simp only [insert_private_internal, mk_core, wc_wc, wc_heap, wc_set, wc_root, wc_depth,
    wc_nxt, wc_count, wc_fuel, core_heap, core_nxt, core_root, core_depth, core_count,
    core_set, core_fuel, map_bind_ok, bind_map_ok, map_map_ok, map_ok, map_error,
    root_split_wc, external_split_wc, wc_has_max, wc_is_root, map_ite_ok, ok_bind, error_bind]

theorem insert_private_external_wc (N : Nat) (c : Nat) (s : ADS_set) (key : Nat) :
    insert_private_external N (with_count c s) key =
      Except.map (fun r => (with_count (if r.2.2 then c + 1 else c) r.1, r.2))
        (insert_private_external N s key) := by
  simp only [insert_private_external, wc_heap, wc_root, wc_fuel, find_leaf_wc,
    insert_private_internal_wc, map_bind_ok, bind_map_ok, map_map_ok, map_ok, map_ite_ok]
  refine bind_congr (fun current => ?_)
  refine bind_congr (fun pair => ?_)
  cases hb : pair.2 <;> simp [map_ok]

end ADS_set


/-! ## The copy constructor -/

theorem sorted_eq_of_toFinset (l l1 : List Nat) (hs : l.Pairwise (fun x y => x < y))
    (hs1 : l1.Pairwise (fun x y => x < y)) (h : l.toFinset = l1.toFinset) : l = l1 := by
  have hn : l.Nodup := hs.imp (fun h => Nat.ne_of_lt h)
  have hn1 : l1.Nodup := hs1.imp (fun h => Nat.ne_of_lt h)
  have hp := List.perm_of_nodup_nodup_toFinset_eq hn hn1 h
  exact List.eq_of_perm_of_sorted hp hs hs1

/-- The loop of the range `insert` puts the keys it meets into the target tree, whatever
value the element count of the target holds. -/
theorem insert_each_iter (N : Nat) (hN : 0 < N) (src : ADS_set) (last : Iterator) :
    ∀ (out : List Nat) (f : Nat) (it : Iterator) (s : ADS_set) (c d : Nat) (t : BTree d)
      (hi : Nat), out.length < f →
      (ADS_set.incr src)^[out.length] it = last →
      (∀ i (hi : i < out.length), (ADS_set.incr src)^[i] it ≠ last ∧
        ADS_set.deref_it N src ((ADS_set.incr src)^[i] it) = .ok out[i]) →
      GoodT N s d t hi →
      ∃ s1 c1 d1, ∃ t1 : BTree d1, ∃ hi1,
        ADS_set.insert_each N src last f it (ADS_set.with_count c s) =
          .ok (ADS_set.with_count c1 s1) ∧
        GoodT N s1 d1 t1 hi1 ∧
        (BTree.contents d1 t1).toFinset = (BTree.contents d t).toFinset ∪ out.toFinset
  | [], f, it, s, c, d, t, hi, hf, hl, _, g => by
    cases f with
    | zero => simp at hf
    | succ f =>
      simp only [List.length_nil, Function.iterate_zero, id_eq] at hl
      refine ⟨s, c, d, t, hi, ?_, g, by simp⟩
      simp [ADS_set.insert_each, hl]
  | k :: out, f, it, s, c, d, t, hi, hf, hl, hs, g => by
    cases f with
    | zero => simp at hf
    | succ f =>
      simp only [List.length_cons] at hf
      have h0 := hs 0 (by simp)
      simp only [Function.iterate_zero, id_eq, List.getElem_cons_zero] at h0
      obtain ⟨s1, it1, d1, t1, hi1, h1, g1, hm, _⟩ := insert_good N hN s d t hi g k
      have h1b : ADS_set.insert_private_external N s k =
          .ok (s1, (it1, !decide (k ∈ BTree.contents d t))) := h1
      obtain ⟨s2, c2, d2, t2, hi2, h2, g2, e2⟩ := insert_each_iter N hN src last out f
        (ADS_set.incr src it) s1
        (if (!decide (k ∈ BTree.contents d t)) = true then c + 1 else c) d1 t1 hi1 (by omega)
        (by simpa [Function.iterate_succ_apply] using hl)
        (fun i hi => by
          have := hs (i + 1) (by simp only [List.length_cons]; omega)
          simpa [Function.iterate_succ_apply] using this) g1
      refine ⟨s2, c2, d2, t2, hi2, ?_, g2, ?_⟩
      · rw [← h2]
        simp only [ADS_set.insert_each, if_neg h0.1, h0.2, ok_bind,
          ADS_set.insert_private_external_wc, h1b, ADS_set.map_ok]
      · rw [e2]
        have : (BTree.contents d1 t1).toFinset = insert k (BTree.contents d t).toFinset := by
          ext x
          simp [hm]
        rw [this]
        ext x
        simp only [Finset.mem_union, Finset.mem_insert, List.toFinset_cons]
        tauto

/-- The copy constructor builds a well-formed tree with the keys of the source. -/
theorem copy_good (N : Nat) (hN : 0 < N) (junk : Nat) (s : ADS_set) (d : Nat) (t : BTree d)
    (hi : Nat) (g : GoodT N s d t hi) :
    ∃ c d1, ∃ t1 : BTree d1, ∃ hi1, ADS_set.copy N junk s = .ok c ∧ GoodT N c d1 t1 hi1 ∧
      BTree.contents d1 t1 = BTree.contents d t := by
  obtain ⟨e, h1, h2, _, _, _, h3, h4⟩ := good_iter N hN s d t hi g
  have hlen : (BTree.contents d t).length < s.nxt * (2 * N + 2) + 1 := by
    rw [contents_leaves]
    have hb1 := leaves_bal N d t _ g.bal
    have h5 := flatten_len_le (2 * N) ((BTree.leaves d t).map Prod.snd) (by
      intro l hl
      obtain ⟨lf, hlf, rfl⟩ := List.mem_map.mp hl
      exact (hb1 lf hlf).2)
    have h6 := nodup_bound s.nxt ((BTree.leaves d t).map Prod.fst)
      (List.Nodup.sublist (leaves_sublist d t) g.nodup)
      (fun x hx => g.alloc x ((leaves_sublist d t).subset hx))
    simp only [List.length_map] at h5 h6
    have h7 : (BTree.leaves d t).length * (2 * N) ≤ s.nxt * (2 * N + 2) :=
      Nat.mul_le_mul h6 (by omega)
    omega
  obtain ⟨s1, c1, d1, t1, hi1, k1, g1, e1⟩ := insert_each_iter N hN s e (BTree.contents d t)
    (s.nxt * (2 * N + 2) + 1) ⟨BTree.firstLeaf d t, 0⟩ ADS_set.init junk 0 (0, []) 0 hlen h3
    (fun i hi2 => ⟨(h4 i hi2).1, (h4 i hi2).2.2.2⟩) (init_good N)
  have hrange : ADS_set.insert_range N s (ADS_set.with_count junk ADS_set.init) =
      .ok (ADS_set.with_count c1 s1) := by
    unfold ADS_set.insert_range
    rw [h1, h2]
    simp only [ok_bind]
    split
    · rename_i hbe
      rw [← k1]
      simp [ADS_set.insert_each, hbe]
    · exact k1
  have hc : BTree.contents d1 t1 = BTree.contents d t := by
    apply sorted_eq_of_toFinset _ _ (contents_bounds d1 t1 0 hi1 g1.ord).2
      (contents_bounds d t 0 hi g.ord).2
    rw [e1]
    simp [BTree.contents]
  refine ⟨s1, d1, t1, hi1, ?_, g1, hc⟩
  have hcopy : ADS_set.copy N junk s =
      (ADS_set.insert_range N s (ADS_set.with_count junk ADS_set.init) >>= fun s2 =>
        .ok (ADS_set.with_count s.element_counter s2)) := rfl
  have hec : s.element_counter = s1.element_counter := by
    rw [g.count_eq, g1.count_eq, hc]
  rw [hcopy, hrange, hec]
  rfl


/-! ## The contract of the copy constructor -/

/-- C17: copy construction from a reachable tree (order `N ≥ 1`) returns a tree that holds exactly the
keys of the source: the two traversals agree and `copy == source` (in both directions);
the element count the copy takes from the source is the length of the traversal of the
copy, the number of insertions that succeeded.  This holds for every value `junk` that
the element count of the copy holds before the insertions. -/
theorem copy_spec (N : Nat) (hN : 0 < N) (junk : Nat) (s : ADS_set) (h : Reachable N s) :
    ∃ c l, ADS_set.copy N junk s = .ok c ∧ ADS_set.traverse N s = .ok l ∧
      ADS_set.traverse N c = .ok l ∧ ADS_set.equals N c s = .ok true ∧
      ADS_set.equals N s c = .ok true ∧ ADS_set.size c = ADS_set.size s ∧
      ADS_set.size c = l.length := by
  obtain ⟨d, t, hi, g⟩ := reachable_good N hN s h
  obtain ⟨c, d1, t1, hi1, h1, g1, hc⟩ := copy_good N hN junk s d t hi g
  refine ⟨c, BTree.contents d t, h1, traverse_good N hN s d t hi g, ?_, ?_, ?_, ?_, ?_⟩
  · rw [← hc]
    exact traverse_good N hN c d1 t1 hi1 g1
  · rw [equals_good N hN c s d1 d t1 t hi1 hi g1 g, hc]
    simp
  · rw [equals_good N hN s c d d1 t t1 hi hi1 g g1, hc]
    simp
  · show c.element_counter = s.element_counter
    rw [g1.count_eq, g.count_eq, hc]
  · show c.element_counter = _
    rw [g1.count_eq, hc]

/-- At order 1: the copy of the tree that holds 1, 2, 3 in two leaves is built by three
insertions, the third of which splits the root; its traversal is 1, 2, 3 and its size 3,
whatever the element count held before (here 9). The theorem also applies to the tree of
depth 2 that holds 1 to 7. -/
theorem copy_spec_witness :
    0 < 1 ∧ Reachable 1 ADS_set.three ∧ Reachable 1 ADS_set.seven ∧
      (ADS_set.copy 1 9 ADS_set.three >>= fun c => ADS_set.traverse 1 c) = .ok [1, 2, 3] ∧
      (ADS_set.copy 1 9 ADS_set.three).map (fun c => (c.depth, ADS_set.size c)) = .ok (1, 3) ∧
      (∃ c l, ADS_set.copy 1 9 ADS_set.three = .ok c ∧ ADS_set.traverse 1 ADS_set.three = .ok l ∧
        ADS_set.traverse 1 c = .ok l ∧ ADS_set.equals 1 c ADS_set.three = .ok true ∧
        ADS_set.equals 1 ADS_set.three c = .ok true ∧
        ADS_set.size c = ADS_set.size ADS_set.three ∧ ADS_set.size c = l.length) ∧
      ADS_set.size ADS_set.seven = 7 ∧
      (∃ c l, ADS_set.copy 1 9 ADS_set.seven = .ok c ∧ ADS_set.traverse 1 ADS_set.seven = .ok l ∧
        ADS_set.traverse 1 c = .ok l ∧ ADS_set.equals 1 c ADS_set.seven = .ok true ∧
        ADS_set.equals 1 ADS_set.seven c = .ok true ∧
        ADS_set.size c = ADS_set.size ADS_set.seven ∧ ADS_set.size c = l.length) :=
  ⟨by decide, reachable_three, reachable_seven, by decide, by decide,
    copy_spec 1 (by decide) 9 ADS_set.three reachable_three, by decide,
    copy_spec 1 (by decide) 9 ADS_set.seven reachable_seven⟩



/-! ## Node-level functions, capacities and the key set -/

theorem live_arrIs (nd : Node) : ArrIs nd.keys nd.keys_counter nd.live := by
  rw [arrIs_iff]
  rfl

/-- C24: `Node::add` on a node whose live keys increase strictly and number fewer than
`2N+1`, with a key that is not among them: the call returns (its search loop ends), the
live keys afterwards are the old ones with the new key inserted in ascending order, one
more than before, and the returned index is where the new key sits; the other fields of
the node are unchanged. -/
theorem add_inserts_sorted (N : Nat) (nd : Node) (key : Nat)
    (hs : nd.live.Pairwise (fun x y => x < y)) (hc : nd.keys_counter < 2 * N + 1)
    (hk : key ∉ nd.live) :
    ∃ nd1 i, nd.add N key = .ok (nd1, i) ∧ nd1.keys_counter = nd.keys_counter + 1 ∧
      nd1.live = nd.live.take i ++ key :: nd.live.drop i ∧
      nd1.live.Pairwise (fun x y => x < y) ∧
      (∀ x, x ∈ nd1.live ↔ x = key ∨ x ∈ nd.live) ∧
      i < nd1.keys_counter ∧ nd1.keys i = key ∧
      nd1.leaf = nd.leaf ∧ nd1.children = nd.children ∧
      nd1.children_counter = nd.children_counter ∧ nd1.parent = nd.parent ∧
      nd1.next = nd.next := by
  obtain ⟨g, i, h1, h2, h3, h4, h5⟩ := add_spec N nd key nd.live (live_arrIs nd) hs hk hc
  have hl : ({ nd with keys := g, keys_counter := nd.keys_counter + 1 } : Node).live =
      nd.live.take i ++ key :: nd.live.drop i := live_eq h3
  have hlen : nd.live.length = nd.keys_counter := by simp [Node.live]
  refine ⟨_, i, h1, rfl, hl, ?_, ?_, ?_, ?_, rfl, rfl, rfl, rfl, rfl⟩
  · rw [hl]
    exact sorted_insert nd.live key nd.keys nd.keys_counter i (live_arrIs nd) hs h2 h4 h5
  · intro x
    rw [hl]
    exact mem_insert_iff nd.live key i x
  · show i < nd.keys_counter + 1
    omega
  · show g i = key
    have := h3.getElem (i := i) (by
      rw [length_insert]
      omega)
    rw [← this]
    simp [List.getElem_append_right, List.length_take, hlen, Nat.min_eq_left h2]

theorem add_inserts_sorted_witness :
    Node.two_keys.live.Pairwise
        (fun x y => x < y) ∧
      Node.two_keys.keys_counter
        < 2 * 1 + 1 ∧
      15 ∉ Node.two_keys.live ∧
      ∃ nd1 i,
        Node.two_keys.add 1 15 =
          .ok (nd1, i) ∧
        nd1.keys_counter =
          Node.two_keys.keys_counter
            + 1 ∧
        nd1.live =
          Node.two_keys.live.take i
            ++ 15 ::
          Node.two_keys.live.drop i ∧
        nd1.live.Pairwise (fun x y => x < y) ∧
        (∀ x, x ∈ nd1.live ↔ x = 15 ∨
          x ∈ Node.two_keys.live) ∧
        i < nd1.keys_counter ∧ nd1.keys i = 15 ∧
        nd1.leaf =
          Node.two_keys.leaf ∧
        nd1.children =
          Node.two_keys.children ∧
        nd1.children_counter =
          Node.two_keys.children_counter ∧
        nd1.parent =
          Node.two_keys.parent ∧
        nd1.next =
          Node.two_keys.next :=
  ⟨by decide, by decide, by decide,
    add_inserts_sorted 1 Node.two_keys 15
      (by decide) (by decide) (by decide)⟩

theorem binary_search_reads_lt (N : Nat) (nd : Node) (key : Nat) :
    ∀ (f : Nat) (start end_ : Int), 0 ≤ start → (0 < nd.keys_counter ∨ end_ < start) →
      ∀ r, ADS_set.binary_search_in_node N nd key f start end_ = .ok r →
        ∃ rs, ADS_set.binary_search_reads N nd key f start end_ = .ok rs ∧
          ∀ i ∈ rs, i < nd.keys_counter := by
  intro f
  induction f with
  | zero =>
    intro start end_ _ _ r h
    simp [ADS_set.binary_search_in_node] at h
  | succ f ih =>
    intro start end_ h0 hpos r h
    unfold ADS_set.binary_search_in_node at h
    unfold ADS_set.binary_search_reads
    by_cases c : start ≤ end_
    · rw [if_pos c] at h
      rw [if_pos c]
      have hkc : 0 < nd.keys_counter := by omega
      have hdiv : Int.tdiv (start + end_) 2 = (start + end_) / 2 :=
        Int.tdiv_eq_ediv (by omega) (by omega)
      simp only [hdiv] at h ⊢
      generalize hm : (start + end_) / 2 = middle at h ⊢
      have hm1 : start ≤ middle := by omega
      by_cases ca : ADS_set.above_last middle nd.keys_counter = true
      · rw [if_pos ca]
        exact ⟨[], rfl, by simp⟩
      · rw [if_neg ca] at h
        rw [if_neg ca]
        rw [if_neg (by omega)] at h
        rw [if_neg (by omega)]
        have hlt : middle.toNat < nd.keys_counter := by
          simp only [ADS_set.above_last] at ca
          rw [if_neg (by omega), if_neg (by omega)] at ca
          simp only [decide_eq_true_eq] at ca
          omega
        cases hg : nd.getKey N middle.toNat with
        | error e =>
          rw [hg] at h
          simp at h
        | ok km =>
          rw [hg] at h
          simp only [ok_bind] at h ⊢
          by_cases c1 : key < km
          · rw [if_pos c1] at h
            rw [if_pos c1]
            obtain ⟨rs, e1, e2⟩ := ih start (middle - 1) h0 (Or.inl hkc) r h
            refine ⟨middle.toNat :: rs, by rw [e1]; rfl, ?_⟩
            intro i hi
            rcases List.mem_cons.mp hi with e | e
            · rw [e]
              exact hlt
            · exact e2 i e
          · rw [if_neg c1] at h
            rw [if_neg c1]
            by_cases c2 : km < key
            · rw [if_pos c2] at h
              rw [if_pos c2]
              obtain ⟨rs, e1, e2⟩ := ih (middle + 1) end_ (by omega) (Or.inl hkc) r h
              refine ⟨middle.toNat :: rs, by rw [e1]; rfl, ?_⟩
              intro i hi
              rcases List.mem_cons.mp hi with e | e
              · rw [e]
                exact hlt
              · exact e2 i e
            · rw [if_neg c2]
              refine ⟨[middle.toNat], rfl, ?_⟩
              intro i hi
              simp only [List.mem_singleton] at hi
              rw [hi]
              exact hlt
    · rw [if_neg c]
      exact ⟨[], rfl, by simp⟩

/-- C25 (as claimed, refuted): on a node without live keys whose slot 0 holds a stale 7,
the call form of `erase` (`end = count`, here 0) reads slot 0 and reports the key 7 as
found at index 0, while the call form of `count` (`end = count - 1`) reads nothing and
reports it as absent. -/
theorem binary_search_reads_stale_slot :
    ADS_set.binary_search_in_node 1 Node.stale 7
        (ADS_set.search_fuel 0 0) 0 0 = .ok (0, true) ∧
      ADS_set.binary_search_reads 1 Node.stale 7
        (ADS_set.search_fuel 0 0) 0 0 = .ok [0] ∧
      ADS_set.binary_search_in_node 1 Node.stale 7
        (ADS_set.search_fuel 0 (-1)) 0 (-1) = .ok (-1, false) ∧
      Node.stale.live = [] := by
  decide

/-- C25 (amended): `binary_search_in_node` on a node whose live keys increase strictly,
called with `start = 0` and `end = count - 1` as `insert`, `count` and `find` do: it returns
`(i, true)` with `keys[i]` equal to the key when the key is among the live keys and
`(-1, false)` otherwise, and it reads no slot at an index `≥ count`; called with
`end = count` as `erase` does, on a node with at least one live key, it returns the same
result and again reads no slot at an index `≥ count`. -/
theorem binary_search_finds (N : Nat) (nd : Node) (key : Nat)
    (hs : nd.live.Pairwise (fun x y => x < y)) (hc : nd.keys_counter ≤ 2 * N + 1) :
    ∃ r rs,
      ADS_set.binary_search_in_node N nd key
        (ADS_set.search_fuel 0 ((nd.keys_counter : Int) - 1)) 0 ((nd.keys_counter : Int) - 1) =
          .ok r ∧
      ADS_set.binary_search_reads N nd key
        (ADS_set.search_fuel 0 ((nd.keys_counter : Int) - 1)) 0 ((nd.keys_counter : Int) - 1) =
          .ok rs ∧
      (∀ i ∈ rs, i < nd.keys_counter) ∧
      (key ∈ nd.live → r.2 = true ∧ 0 ≤ r.1 ∧ r.1.toNat < nd.keys_counter ∧
        nd.keys r.1.toNat = key) ∧
      (key ∉ nd.live → r = (-1, false)) ∧
      (0 < nd.keys_counter →
        ADS_set.binary_search_in_node N nd key
          (ADS_set.search_fuel 0 (nd.keys_counter : Int)) 0 (nd.keys_counter : Int) = .ok r ∧
        ∃ rs2, ADS_set.binary_search_reads N nd key
            (ADS_set.search_fuel 0 (nd.keys_counter : Int)) 0 (nd.keys_counter : Int) = .ok rs2 ∧
          ∀ i ∈ rs2, i < nd.keys_counter) := by
  obtain ⟨m, b, e1, hb, h1, h2⟩ := binary_search_call N nd key nd.live (live_arrIs nd) hs hc
    ((nd.keys_counter : Int) - 1) (Or.inl rfl)
  obtain ⟨rs, r1, r2⟩ := binary_search_reads_lt N nd key _ 0 ((nd.keys_counter : Int) - 1)
    (le_refl _) (by omega) _ e1
  have hmono : ∀ i j, i < j → j < nd.keys_counter → nd.keys i < nd.keys j :=
    fun i j hij hj => (live_arrIs nd).mono hs hij hj
  refine ⟨(m, b), rs, e1, r1, r2, ?_, ?_, ?_⟩
  · intro hk
    have := hb.mpr hk
    exact ⟨this, h1 this⟩
  · intro hk
    have hbf : b = false := by
      cases b with
      | false => rfl
      | true => exact absurd (hb.mp rfl) hk
    rw [hbf, h2 hbf]
  · intro hpos
    obtain ⟨m2, b2, e2, hb2, k1, k2⟩ := binary_search_call N nd key nd.live (live_arrIs nd) hs hc
      (nd.keys_counter : Int) (Or.inr ⟨rfl, hpos⟩)
    obtain ⟨rs2, q1, q2⟩ := binary_search_reads_lt N nd key _ 0 (nd.keys_counter : Int)
      (le_refl _) (Or.inl hpos) _ e2
    refine ⟨?_, rs2, q1, q2⟩
    rw [e2]
    have hbb : b2 = b := by
      cases b with
      | true =>
        cases b2 with
        | true => rfl
        | false => exact absurd (hb.mp rfl) (fun hk => by simpa using hb2.mpr hk)
      | false =>
        cases b2 with
        | false => rfl
        | true => exact absurd (hb2.mp rfl) (fun hk => by simpa using hb.mpr hk)
    subst hbb
    cases b2 with
    | false => rw [k2 rfl, h2 rfl]
    | true =>
      obtain ⟨a1, a2, a3⟩ := h1 rfl
      obtain ⟨c1, c2, c3⟩ := k1 rfl
      have : m2.toNat = m.toNat := by
        rcases Nat.lt_trichotomy m2.toNat m.toNat with e | e | e
        · have := hmono _ _ e a2
          omega
        · exact e
        · have := hmono _ _ e c2
          omega
      have : m2 = m := by omega
      rw [this]

theorem binary_search_finds_witness :
    Node.two_keys.live.Pairwise (fun x y => x < y) ∧ Node.two_keys.keys_counter ≤ 2 * 1 + 1 ∧
    ∃ r rs,
      ADS_set.binary_search_in_node 1 Node.two_keys 20
        (ADS_set.search_fuel 0 ((Node.two_keys.keys_counter : Int) - 1)) 0
        ((Node.two_keys.keys_counter : Int) - 1) = .ok r ∧
      ADS_set.binary_search_reads 1 Node.two_keys 20
        (ADS_set.search_fuel 0 ((Node.two_keys.keys_counter : Int) - 1)) 0
        ((Node.two_keys.keys_counter : Int) - 1) = .ok rs ∧
      (∀ i ∈ rs, i < Node.two_keys.keys_counter) ∧
      (20 ∈ Node.two_keys.live → r.2 = true ∧ 0 ≤ r.1 ∧ r.1.toNat < Node.two_keys.keys_counter ∧
        Node.two_keys.keys r.1.toNat = 20) ∧
      (20 ∉ Node.two_keys.live → r = (-1, false)) ∧
      (0 < Node.two_keys.keys_counter →
        ADS_set.binary_search_in_node 1 Node.two_keys 20
          (ADS_set.search_fuel 0 (Node.two_keys.keys_counter : Int)) 0
          (Node.two_keys.keys_counter : Int) = .ok r ∧
        ∃ rs2, ADS_set.binary_search_reads 1 Node.two_keys 20
            (ADS_set.search_fuel 0 (Node.two_keys.keys_counter : Int)) 0
            (Node.two_keys.keys_counter : Int) = .ok rs2 ∧
          ∀ i ∈ rs2, i < Node.two_keys.keys_counter) :=
  ⟨by decide, by decide, binary_search_finds 1 Node.two_keys 20 (by decide) (by decide)⟩

/-- C26: with `N = 1`, after inserting 1, 2, 3, 4 the root holds the separators 2 and 3;
the descent of `find_leaf_with_twin` for the key 2 returns without a twin although the
separator at position 0 of the root equals the key. -/
theorem twin_missed_for_inner_separator :
    (do
      let s ← ADS_set.run 1 [.ins 1, .ins 2, .ins 3, .ins 4] ADS_set.init
      let r ← ADS_set.find_leaf_with_twin 1 s.fuel s s.root 2 (none, 0)
      let k ← (s.heap s.root).getKey 1 0
      pure (r.2.1, k, (s.heap s.root).leaf, (s.heap s.root).live)) =
    Except.ok (none, 2, false, [2, 3]) := by
  decide

/-- The capacity checker accepts a well-formed subtree. -/
theorem cap_of_tree (N : Nat) (h : Nat → Node) :
    ∀ (d : Nat) (t : BTree d) (par nx : Option Nat) (mn : Nat),
      TreeAt h d par nx t → BalN N mn (2 * N) d t →
      ADS_set.cap_ok N h d (BTree.addr d t) = true := by
  intro d
  induction d with
  | zero =>
    intro t par nx mn ht hb
    rw [treeAt_zero] at ht
    have hkc := ht.2.1.1
    have hb1 : mn ≤ t.2.length ∧ t.2.length ≤ 2 * N := hb
    simp only [ADS_set.cap_ok, BTree.addr, ht.1, Bool.true_and, decide_eq_true_eq]
    omega
  | succ d ih =>
    intro t par nx mn ht hb
    obtain ⟨a, ks, cs⟩ := t
    rw [treeAt_succ] at ht
    rw [balN_succ] at hb
    obtain ⟨hn, hk⟩ := ht
    have hkc : (h a).keys_counter = ks.length := hn.2.1.1
    have hcc : (h a).children_counter = cs.length := by
      have := hn.2.2.1.1
      simpa using this
    have hall := range_children_all (h a) _ hn.2.2.1
      (fun o => match o with
        | some c => ADS_set.cap_ok N h d c
        | none => false)
    have hkids : (cs.map (BTree.addr d)).all (fun c => ADS_set.cap_ok N h d c) = true := by
      rw [List.all_eq_true]
      intro x hx
      obtain ⟨c, hc, rfl⟩ := List.mem_map.mp hx
      obtain ⟨n, hcT⟩ := kids_mem h d (some a) cs nx hk c hc
      exact ih c (some a) n N hcT (hb.2.2.2 c hc)
    have hlast : (List.range (h a).children_counter).all (fun i =>
        match (h a).children i with
        | some c => ADS_set.cap_ok N h d c
        | none => false) = true := by
      rw [← hkids]
      exact hall
    simp only [ADS_set.cap_ok, BTree.addr, hn.1, Bool.not_false, Bool.true_and,
      Bool.and_eq_true, decide_eq_true_eq]
    exact ⟨⟨by omega, by omega⟩, hlast⟩

/-- C29: in every reachable tree (order `N ≥ 1`) the capacity checker accepts the root:
every node holds at most `2N` keys and every internal node at most `2N+1` children; and
`insert` and `erase` return a result for every key, so none of their array accesses is
outside the `2N+1` key slots and the `2N+2` child slots (the error `oob` of the model). -/
theorem capacity_respected (N : Nat) (hN : 0 < N) (s : ADS_set) (h : Reachable N s) :
    0 ≤ s.depth ∧ ADS_set.cap_ok N s.heap s.depth.toNat s.root = true ∧
      ∀ k, (∃ r, ADS_set.insert N s k = .ok r) ∧ (∃ r, ADS_set.erase N s k = .ok r) ∧
        ADS_set.insert N s k ≠ .error .oob ∧ ADS_set.erase N s k ≠ .error .oob := by
  obtain ⟨d, t, hi, g⟩ := reachable_good N hN s h
  refine ⟨?_, ?_, ?_⟩
  · rw [g.depth_eq]
    exact Int.ofNat_nonneg _
  · rw [g.depth_eq, Int.toNat_ofNat, ← g.root_eq]
    exact cap_of_tree N s.heap d t none none _ g.tree g.bal
  · intro k
    obtain ⟨s1, it, d1, t1, hi1, h1, _⟩ := insert_good N hN s d t hi g k
    obtain ⟨s2, d2, t2, h2, _⟩ := erase_good N hN s d t hi g k
    rw [h1, h2]
    exact ⟨⟨_, rfl⟩, ⟨_, rfl⟩, fun e => Except.noConfusion e, fun e => Except.noConfusion e⟩

/-- At order 1, on the tree of depth 2 that holds 1 to 7: the leaf 8 holds `2N` = 2 keys
and the root `2N+1` = 3 children; `insert(8)` fills that leaf to three keys and splits it
(one node more), `erase(5)` moves a key between two leaves; the capacity checker accepts the
tree and no call leaves the arrays. -/
theorem capacity_respected_witness :
    0 < 1 ∧ Reachable 1 ADS_set.seven ∧
      (ADS_set.seven.heap 8).keys_counter = 2 ∧
      (ADS_set.seven.heap ADS_set.seven.root).children_counter = 3 ∧ ADS_set.seven.nxt = 10 ∧
      (ADS_set.insert 1 ADS_set.seven 8).map (fun r => (r.1.nxt, (r.1.heap 8).live,
        (r.1.heap 10).live)) = .ok (11, [6], [7, 8]) ∧
      (ADS_set.erase 1 ADS_set.seven 5).map (fun r => ((r.1.heap 7).live, (r.1.heap 8).live)) =
        .ok ([6], [7]) ∧
      0 ≤ ADS_set.seven.depth ∧
      ADS_set.cap_ok 1 ADS_set.seven.heap ADS_set.seven.depth.toNat ADS_set.seven.root = true ∧
      ∀ k, (∃ r, ADS_set.insert 1 ADS_set.seven k = .ok r) ∧
        (∃ r, ADS_set.erase 1 ADS_set.seven k = .ok r) ∧
        ADS_set.insert 1 ADS_set.seven k ≠ .error .oob ∧
        ADS_set.erase 1 ADS_set.seven k ≠ .error .oob :=
  ⟨by decide, reachable_seven, by decide, by decide, by decide, by decide, by decide,
    capacity_respected 1 (by decide) ADS_set.seven reachable_seven⟩

/-- C30: on every reachable tree (order `N ≥ 1`) and for keys `k ≠ j`: `count(j)` is the
same before and after `insert(k)` and before and after `erase(k)`; the traversal after
`insert(k)` holds exactly the old keys and `k`, the one after `erase(k)` exactly the old
keys other than `k`. -/
theorem other_keys_untouched (N : Nat) (hN : 0 < N) (s : ADS_set) (h : Reachable N s)
    (k j : Nat) (hkj : k ≠ j) :
    (∃ s1 r l l1, ADS_set.insert N s k = .ok (s1, r) ∧
      ADS_set.count N s1 j = ADS_set.count N s j ∧
      ADS_set.traverse N s = .ok l ∧ ADS_set.traverse N s1 = .ok l1 ∧
      ∀ x, x ∈ l1 ↔ x = k ∨ x ∈ l) ∧
    (∃ s1 r l l1, ADS_set.erase N s k = .ok (s1, r) ∧
      ADS_set.count N s1 j = ADS_set.count N s j ∧
      ADS_set.traverse N s = .ok l ∧ ADS_set.traverse N s1 = .ok l1 ∧
      ∀ x, x ∈ l1 ↔ x ∈ l ∧ x ≠ k) := by
  obtain ⟨d, t, hi, g⟩ := reachable_good N hN s h
  constructor
  · obtain ⟨s1, it, d1, t1, hi1, h1, g1, hm, _⟩ := insert_good N hN s d t hi g k
    refine ⟨s1, _, _, _, h1, ?_, traverse_good N hN s d t hi g,
      traverse_good N hN s1 d1 t1 hi1 g1, hm⟩
    rw [count_spec N s1 d1 t1 hi1 g1 j, count_spec N s d t hi g j]
    have : j ∈ BTree.contents d1 t1 ↔ j ∈ BTree.contents d t := by
      rw [hm]
      constructor
      · intro hx
        rcases hx with e | e
        · exact absurd e.symm hkj
        · exact e
      · intro hx
        exact Or.inr hx
    simp only [this]
  · obtain ⟨s1, d1, t1, h1, g1, hm, _⟩ := erase_good N hN s d t hi g k
    refine ⟨s1, _, _, _, h1, ?_, traverse_good N hN s d t hi g,
      traverse_good N hN s1 d1 t1 hi g1, hm⟩
    rw [count_spec N s1 d1 t1 hi g1 j, count_spec N s d t hi g j]
    have : j ∈ BTree.contents d1 t1 ↔ j ∈ BTree.contents d t := by
      rw [hm]
      constructor
      · intro hx
        exact hx.1
      · intro hx
        exact ⟨hx, fun e => hkj e.symm⟩
    simp only [this]

/-- At order 1, on the tree of depth 2 that holds 1 to 7: `insert(8)` splits the leaf that
holds 6 and 7, and 6 is still found; `erase(5)` empties a leaf, which takes 6 from its
sibling, and 6 is still found; `erase(4)` runs a merge on two levels. -/
theorem other_keys_untouched_witness :
    0 < 1 ∧ Reachable 1 ADS_set.seven ∧ ADS_set.count 1 ADS_set.seven 6 = .ok 1 ∧
      (ADS_set.insert 1 ADS_set.seven 8 >>= fun r => ADS_set.count 1 r.1 6) = .ok 1 ∧
      (ADS_set.erase 1 ADS_set.seven 5 >>= fun r => ADS_set.count 1 r.1 6) = .ok 1 ∧
      (8 : Nat) ≠ 6 ∧ (5 : Nat) ≠ 6 ∧ (4 : Nat) ≠ 3 ∧
      (∃ s1 r l l1, ADS_set.insert 1 ADS_set.seven 8 = .ok (s1, r) ∧
        ADS_set.count 1 s1 6 = ADS_set.count 1 ADS_set.seven 6 ∧
        ADS_set.traverse 1 ADS_set.seven = .ok l ∧ ADS_set.traverse 1 s1 = .ok l1 ∧
        ∀ x, x ∈ l1 ↔ x = 8 ∨ x ∈ l) ∧
      (∃ s1 r l l1, ADS_set.erase 1 ADS_set.seven 5 = .ok (s1, r) ∧
        ADS_set.count 1 s1 6 = ADS_set.count 1 ADS_set.seven 6 ∧
        ADS_set.traverse 1 ADS_set.seven = .ok l ∧ ADS_set.traverse 1 s1 = .ok l1 ∧
        ∀ x, x ∈ l1 ↔ x ∈ l ∧ x ≠ 5) ∧
      (∃ s1 r l l1, ADS_set.erase 1 ADS_set.seven 4 = .ok (s1, r) ∧
        ADS_set.count 1 s1 3 = ADS_set.count 1 ADS_set.seven 3 ∧
        ADS_set.traverse 1 ADS_set.seven = .ok l ∧ ADS_set.traverse 1 s1 = .ok l1 ∧
        ∀ x, x ∈ l1 ↔ x ∈ l ∧ x ≠ 4) :=
  ⟨by decide, reachable_seven, by decide, by decide, by decide, by decide, by decide, by decide,
    (other_keys_untouched 1 (by decide) ADS_set.seven reachable_seven 8 6 (by decide)).1,
    (other_keys_untouched 1 (by decide) ADS_set.seven reachable_seven 5 6 (by decide)).2,
    (other_keys_untouched 1 (by decide) ADS_set.seven reachable_seven 4 3 (by decide)).2⟩



/-! ## The hand-built trees -/

/-- A computation whose results all carry the flag `true`. -/
theorem flag_bind {α : Type} (x : Except Err α) (f : α → Except Err (ADS_set × Bool))
    (h : ∀ a r, f a = .ok r → r.2 = true) : ∀ r, (x >>= f) = .ok r → r.2 = true := by
  intro r hr
  cases x with
  | error e => exact Except.noConfusion hr
  | ok a => exact h a r hr

theorem flag_ok (s : ADS_set) :
    ∀ r, (Except.ok (s, true) : Except Err (ADS_set × Bool)) = .ok r → r.2 = true := by
  intro r hr
  cases hr
  rfl

theorem flag_error (e : Err) :
    ∀ r, (Except.error e : Except Err (ADS_set × Bool)) = .ok r → r.2 = true := by
  intro r hr
  exact Except.noConfusion hr

theorem flag_ite (c : Prop) [Decidable c] (x y : Except Err (ADS_set × Bool))
    (hx : ∀ r, x = .ok r → r.2 = true) (hy : ∀ r, y = .ok r → r.2 = true) :
    ∀ r, (if c then x else y) = .ok r → r.2 = true := by
  split_ifs
  · exact hx
  · exact hy

theorem steal_right_flag (N : Nat) (s : ADS_set) (ca a ra i : Nat)
    (tw : Option Nat × Nat) (hp : (s.heap ca).parent = some a)
    (hc : (s.heap a).children (i + 1) = some ra) (hi : i + 1 < 2 * N + 2)
    (hsz : 2 * N ≤ (s.heap ca).keys_counter + (s.heap ra).keys_counter) :
    ∀ r, ADS_set.steal_from_right N s ca i tw = .ok r → r.2 = true := by
  unfold ADS_set.steal_from_right
  simp only [hp, deref, ok_bind, getChild_ok N _ hi, hc, if_neg (not_lt.2 hsz)]
  repeat (first
    | exact flag_ok _
    | exact flag_error _
    | (apply flag_bind; intro _)
    | apply flag_ite)

theorem steal_left_flag (N : Nat) (s : ADS_set) (ca a la i : Nat)
    (tw : Option Nat × Nat) (hp : (s.heap ca).parent = some a) (h0 : i ≠ 0)
    (hc : (s.heap a).children (i - 1) = some la) (hi : i - 1 < 2 * N + 2)
    (hsz : 2 * N ≤ (s.heap ca).keys_counter + (s.heap la).keys_counter) :
    ∀ r, ADS_set.steal_from_left N s ca i tw = .ok r → r.2 = true := by
  unfold ADS_set.steal_from_left
  simp only [hp, deref, ok_bind, getChild_ok N _ hi, hc, if_neg (not_lt.2 hsz), if_neg h0]
  repeat (first
    | exact flag_ok _
    | exact flag_error _
    | (apply flag_bind; intro _)
    | apply flag_ite)

theorem rebalance_first_steal (N : Nat)
    (mwl mwr : ADS_set → Nat → Nat → Nat → Option Nat × Nat → Except Err (ADS_set × Bool))
    (s : ADS_set) (x a y key : Nat) (tw : Option Nat × Nat)
    (hp : (s.heap x).parent = some a)
    (hc : (s.heap a).children 1 = some y)
    (hsz : 2 * N ≤ (s.heap x).keys_counter + (s.heap y).keys_counter) :
    ADS_set.rebalance N mwl mwr s x 0 key tw =
      (ADS_set.steal_from_right N s x 0 tw >>= fun r => .ok r.1) := by
  have hf := steal_right_flag N s x a y 0 tw hp hc (by omega) hsz
  unfold ADS_set.rebalance
  simp only [hp, deref, ok_bind, if_true]
  cases hx : ADS_set.steal_from_right N s x 0 tw with
  | error e => rfl
  | ok r =>
    obtain ⟨s1, b⟩ := r
    have hb : b = true := hf _ hx
    subst hb
    rfl

theorem rebalance_last_steal (N : Nat)
    (mwl mwr : ADS_set → Nat → Nat → Nat → Option Nat × Nat → Except Err (ADS_set × Bool))
    (s : ADS_set) (x a w i key : Nat) (tw : Option Nat × Nat)
    (hp : (s.heap x).parent = some a) (h0 : i ≠ 0) (hi : i - 1 < 2 * N + 2)
    (hc : (s.heap a).children (i - 1) = some w)
    (hsz : 2 * N ≤ (s.heap x).keys_counter + (s.heap w).keys_counter) :
    ADS_set.rebalance N mwl mwr s x i key tw =
      (ADS_set.steal_from_left N s x i tw >>= fun r => .ok r.1) := by
  have hf := steal_left_flag N s x a w i tw hp h0 hc hi hsz
  unfold ADS_set.rebalance
  simp only [hp, deref, ok_bind, if_neg h0]
  cases hx : ADS_set.steal_from_left N s x i tw with
  | error e => split_ifs <;> rfl
  | ok r =>
    obtain ⟨s1, b⟩ := r
    have hb : b = true := hf _ hx
    subst hb
    split_ifs <;> rfl

theorem rebalance_mid_right (N : Nat)
    (mwl mwr : ADS_set → Nat → Nat → Nat → Option Nat × Nat → Except Err (ADS_set × Bool))
    (s : ADS_set) (x a w y i key : Nat) (tw : Option Nat × Nat)
    (hp : (s.heap x).parent = some a) (h0 : i ≠ 0) (hi : i + 1 < 2 * N + 2)
    (hm : i ≠ (s.heap a).children_counter - 1)
    (hcw : (s.heap a).children (i - 1) = some w)
    (hcy : (s.heap a).children (i + 1) = some y)
    (hsw : (s.heap x).keys_counter + (s.heap w).keys_counter < 2 * N)
    (hsy : 2 * N ≤ (s.heap x).keys_counter + (s.heap y).keys_counter) :
    ADS_set.rebalance N mwl mwr s x i key tw =
      (ADS_set.steal_from_right N s x i tw >>= fun r => .ok r.1) := by
  have hf := steal_right_flag N s x a y i tw hp hcy hi hsy
  have hl := steal_from_left_fail N s x a w i tw hp h0 hcw (by omega) hsw
  unfold ADS_set.rebalance
  simp only [hp, deref, ok_bind, if_neg h0, if_neg hm, hl]
  cases hx : ADS_set.steal_from_right N s x i tw with
  | error e => rfl
  | ok r =>
    obtain ⟨s1, b⟩ := r
    have hb : b = true := hf _ hx
    subst hb
    rfl

/-- The three-way policy of `rebalance` on a node `x` that holds `N - 1` keys and is the
child number `i` of `a`. -/
theorem rebalance_cases (N : Nat)
    (mwl mwr : ADS_set → Nat → Nat → Nat → Option Nat × Nat → Except Err (ADS_set × Bool))
    (s : ADS_set) (x a i key : Nat) (tw : Option Nat × Nat)
    (hp : (s.heap x).parent = some a) (hk : (s.heap x).keys_counter + 1 = N)
    (hi : i ≤ 2 * N) :
    (i = 0 → ∀ y, (s.heap a).children 1 = some y →
      (N < (s.heap y).keys_counter →
        ADS_set.rebalance N mwl mwr s x i key tw =
          (ADS_set.steal_from_right N s x i tw >>= fun r => .ok r.1) ∧
        ∀ r, ADS_set.steal_from_right N s x i tw = .ok r → r.2 = true) ∧
      ((s.heap y).keys_counter ≤ N →
        ADS_set.rebalance N mwl mwr s x i key tw =
          (mwr s x i key tw >>= fun r => .ok r.1))) ∧
    (i ≠ 0 → i = (s.heap a).children_counter - 1 →
      ∀ w, (s.heap a).children (i - 1) = some w →
      (N < (s.heap w).keys_counter →
        ADS_set.rebalance N mwl mwr s x i key tw =
          (ADS_set.steal_from_left N s x i tw >>= fun r => .ok r.1) ∧
        ∀ r, ADS_set.steal_from_left N s x i tw = .ok r → r.2 = true) ∧
      ((s.heap w).keys_counter ≤ N →
        ADS_set.rebalance N mwl mwr s x i key tw =
          (mwl s x i key tw >>= fun r => .ok r.1))) ∧
    (i ≠ 0 → i ≠ (s.heap a).children_counter - 1 →
      ∀ w y, (s.heap a).children (i - 1) = some w → (s.heap a).children (i + 1) = some y →
      (N < (s.heap w).keys_counter →
        ADS_set.rebalance N mwl mwr s x i key tw =
          (ADS_set.steal_from_left N s x i tw >>= fun r => .ok r.1) ∧
        ∀ r, ADS_set.steal_from_left N s x i tw = .ok r → r.2 = true) ∧
      ((s.heap w).keys_counter ≤ N → N < (s.heap y).keys_counter →
        ADS_set.rebalance N mwl mwr s x i key tw =
          (ADS_set.steal_from_right N s x i tw >>= fun r => .ok r.1) ∧
        ∀ r, ADS_set.steal_from_right N s x i tw = .ok r → r.2 = true) ∧
      ((s.heap w).keys_counter ≤ N → (s.heap y).keys_counter ≤ N →
        ADS_set.rebalance N mwl mwr s x i key tw =
          (mwl s x i key tw >>= fun r => .ok r.1))) := by
  refine ⟨?_, ?_, ?_⟩
  · intro h0 y hy
    subst h0
    refine ⟨fun hgt => ⟨?_, ?_⟩, fun hle => ?_⟩
    · exact rebalance_first_steal N mwl mwr s x a y key tw hp hy (by omega)
    · exact steal_right_flag N s x a y 0 tw hp hy (by omega) (by omega)
    · exact rebalance_mr0 N mwl mwr s x a key tw hp
        (steal_from_right_fail N s x a y 0 tw hp hy (by omega) (by omega))
  · intro h0 hm w hw
    refine ⟨fun hgt => ⟨?_, ?_⟩, fun hle => ?_⟩
    · exact rebalance_last_steal N mwl mwr s x a w i key tw hp h0 (by omega) hw (by omega)
    · exact steal_left_flag N s x a w i tw hp h0 hw (by omega) (by omega)
    · exact rebalance_ml N mwl mwr s x a i key tw hp h0
        (steal_from_left_fail N s x a w i tw hp h0 hw (by omega) (by omega)) (Or.inl hm)
  · intro h0 hm w y hw hy
    refine ⟨fun hgt => ⟨?_, ?_⟩, fun hle hgt => ⟨?_, ?_⟩, fun hle hle2 => ?_⟩
    · exact rebalance_last_steal N mwl mwr s x a w i key tw hp h0 (by omega) hw (by omega)
    · exact steal_left_flag N s x a w i tw hp h0 hw (by omega) (by omega)
    · exact rebalance_mid_right N mwl mwr s x a w y i key tw hp h0 (by omega) hm hw hy
        (by omega) (by omega)
    · exact steal_right_flag N s x a y i tw hp hy (by omega) (by omega)
    · exact rebalance_ml N mwl mwr s x a i key tw hp h0
        (steal_from_left_fail N s x a w i tw hp h0 hw (by omega) (by omega))
        (Or.inr (steal_from_right_fail N s x a y i tw hp hy (by omega) (by omega)))

/-- The final test of both merges: a parent other than the root that is left with fewer
than `N` keys is handed to `rebalance`; otherwise the merge reports `false`. -/
theorem merge_tail_cases (N : Nat)
    (mwl mwr : ADS_set → Nat → Nat → Nat → Option Nat × Nat → Except Err (ADS_set × Bool))
    (s : ADS_set) (p key : Nat) (tw : Option Nat × Nat) :
    ((s.heap p).keys_counter < N → p ≠ s.root →
      ADS_set.merge_tail N mwl mwr s p key tw =
        (ADS_set.index_from_parent N s p >>= fun ip =>
          ADS_set.rebalance N mwl mwr s p ip key tw >>= fun s1 => .ok (s1, true))) ∧
    (¬ ((s.heap p).keys_counter < N ∧ p ≠ s.root) →
      ADS_set.merge_tail N mwl mwr s p key tw = .ok (s, false)) := by
  constructor
  · intro h1 h2
    unfold ADS_set.merge_tail
    rw [if_pos ⟨h1, h2⟩]
  · intro h
    unfold ADS_set.merge_tail
    rw [if_neg h]

theorem merge_left_step (N f : Nat) (s : ADS_set) (c p i key : Nat) (tw : Option Nat × Nat)
    (hp : (s.heap c).parent = some p) (h0 : i ≠ 0) (hi : i - 1 < 2 * N + 2)
    (hnr : ¬ (p = s.root ∧ (s.heap p).keys_counter = 1)) :
    ADS_set.merge_with_left N (f + 1) s c i key tw =
      (ADS_set.merge_with_left_body N s c i key tw p ((s.heap p).children (i - 1)) >>=
        fun s1 => ADS_set.merge_tail N (ADS_set.merge_with_left N f)
          (ADS_set.merge_with_right N f) s1 p key tw) := by
  rw [ADS_set.merge_with_left]
  simp only [hp, deref, ok_bind, if_neg h0, getChild_ok N _ hi, if_neg hnr]

theorem merge_right_step (N f : Nat) (s : ADS_set) (c p i key : Nat) (tw : Option Nat × Nat)
    (hp : (s.heap c).parent = some p) (hi : i + 1 < 2 * N + 2)
    (hnr : ¬ (p = s.root ∧ (s.heap p).keys_counter = 1)) :
    ADS_set.merge_with_right N (f + 1) s c i key tw =
      (ADS_set.merge_with_right_body N s c i tw p ((s.heap p).children (i + 1)) >>=
        fun r => ADS_set.merge_tail N (ADS_set.merge_with_left N f)
          (ADS_set.merge_with_right N f) r.1 p key r.2) := by
  rw [ADS_set.merge_with_right]
  simp only [hp, deref, ok_bind, getChild_ok N _ hi, if_neg hnr]

/-- The entry of `erase` into the policy: in a tree reached by public calls whose root is
not a leaf, the leaf that holds the key has at least `N` keys; when it has exactly `N`,
the key is removed, which leaves `N - 1`, and `rebalance` runs on the leaf. -/
theorem erase_underfull (N : Nat) (hN : 0 < N) (s : ADS_set) (h : Reachable N s) (key : Nat)
    (hk : ADS_set.count N s key = .ok 1) (hroot : (s.heap s.root).leaf = false) :
    ∃ c tw m, ADS_set.find_leaf_with_twin N s.fuel s s.root key (none, 0) = .ok (c, tw) ∧
      ADS_set.binary_search_in_node N (s.heap c) key
        (ADS_set.search_fuel 0 ((s.heap c).keys_counter : Int)) 0
        ((s.heap c).keys_counter : Int) = .ok (m, true) ∧
      N ≤ (s.heap c).keys_counter ∧
      ((s.heap c).keys_counter = N →
        ∃ index s1 s2, ADS_set.index_from_parent N s c = .ok index ∧
          ADS_set.delete_element N s c m.toNat = .ok s1 ∧
          (s1.heap c).keys_counter + 1 = N ∧
          ADS_set.rebalance N (ADS_set.merge_with_left N s.fuel)
            (ADS_set.merge_with_right N s.fuel) s1 c index key tw = .ok s2 ∧
          ADS_set.erase N s key = .ok (s2, 1)) := by
  obtain ⟨d, t, hi, g⟩ := reachable_good N hN s h
  have hmem : key ∈ BTree.contents d t := by
    have hc := count_spec N s d t hi g key
    rw [hk] at hc
    by_contra hn
    rw [if_neg hn] at hc
    cases hc
  cases d with
  | zero =>
    have h1 : (s.heap t.1).leaf = true := g.tree.1
    have h2 : t.1 = s.root := g.root_eq
    rw [h2, hroot] at h1
    cases h1
  | succ d =>
    have hw : KeyOrd (d + 1) 0 (max hi (key + 1)) t :=
      keyOrd_weaken (d + 1) t 0 hi 0 _ (le_refl _) (le_max_left _ _) g.ord
    obtain ⟨par1, nx1, r1, r2, r3, r4⟩ := route_leaf N s.heap key (d + 1) t none none 0 _ _
      g.tree hw g.bal (Nat.zero_le _) (by omega)
    have hfl := flt_route N hN s key (d + 1) t s.fuel none none _ (none, 0)
      (good_fuel N s (d + 1) t hi g) g.tree g.bal (fun _ => rootMin_pos (d + 1) (by omega))
    rw [g.root_eq] at hfl
    have hlen := route_len N key (d + 1) t _ g.bal
    simp only [Nat.succ_ne_zero, if_false] at hlen
    have hkc : (s.heap (BTree.route (d + 1) t key).1).keys_counter =
        (BTree.route (d + 1) t key).2.length := r1.2.1.1
    have hin : key ∈ (BTree.route (d + 1) t key).2 := r4.1 hmem
    have hpos : 0 < (BTree.route (d + 1) t key).2.length := List.length_pos_of_mem hin
    obtain ⟨m, b, e1, hb, hb2, _⟩ := binary_search_call N _ key _ r1.2.1 r2 (by omega)
      ((s.heap (BTree.route (d + 1) t key).1).keys_counter : Int)
      (Or.inr ⟨rfl, by omega⟩)
    have hbt : b = true := hb.2 hin
    subst hbt
    obtain ⟨_, hm2, _⟩ := hb2 rfl
    refine ⟨_, _, m, hfl, e1, by omega, fun hN2 => ?_⟩
    obtain ⟨s3, d3, t3, he, _⟩ := erase_good N hN s (d + 1) t hi g key
    rw [if_pos hmem] at he
    obtain ⟨s1, hde, hk1⟩ : ∃ s1, ADS_set.delete_element N s (BTree.route (d + 1) t key).1
        m.toNat = .ok s1 ∧ (s1.heap (BTree.route (d + 1) t key).1).keys_counter + 1 = N := by
      refine ⟨_, delete_element_eq N s (BTree.route (d + 1) t key).1 m.toNat (by omega) hm2
        (by omega), ?_⟩
      simp only [set_heap, upd_apply, if_true]
      omega
    have hec : s.element_counter ≠ 0 := by
      rw [g.count_eq]
      exact Nat.pos_iff_ne_zero.1 (List.length_pos_of_mem hmem)
    have hcond : ¬ ((s.heap (BTree.route (d + 1) t key).1).keys_counter = 0 ∨
        (s.heap (BTree.route (d + 1) t key).1).keys_counter - 1 ≥ N ∨
        (s.heap s.root).leaf = true) := by
      rw [hroot]
      simp only [Bool.false_eq_true, or_false, not_or]
      omega
    rw [erase_eq, if_neg hec, hfl] at he
    simp only [ok_bind] at he
    unfold ADS_set.erase_at at he
    simp only [e1, ok_bind, Bool.not_true, Bool.false_eq_true, if_false] at he
    rw [if_neg hcond] at he
    cases hidx : ADS_set.index_from_parent N s (BTree.route (d + 1) t key).1 with
    | error e =>
      rw [hidx] at he
      exact Except.noConfusion he
    | ok index =>
      rw [hidx, hde] at he
      simp only [ok_bind] at he
      cases hreb : ADS_set.rebalance N (ADS_set.merge_with_left N s.fuel)
          (ADS_set.merge_with_right N s.fuel) s1
          (BTree.route (d + 1) t key).1 index key (BTree.twin (d + 1) t key (none, 0)) with
      | error e =>
        rw [hreb] at he
        exact Except.noConfusion he
      | ok s2 =>
        rw [hreb] at he
        exact ⟨index, s1, s2, rfl, hde, hk1, hreb, by rw [erase_eq, if_neg hec, hfl]; simp only [ok_bind]; unfold ADS_set.erase_at; simp only [e1, ok_bind, Bool.not_true, Bool.false_eq_true, if_false]; rw [if_neg hcond, hidx, hde]; simp only [ok_bind]; rw [hreb]; rfl⟩

/-- C28: the rebalancing policy of `erase`, order `N ≥ 1`.
(1) `rebalance` on a node `x` that holds `N - 1` keys and is the child number `i` of its
parent: a leftmost child (`i = 0`) takes a key from its right sibling when that sibling
holds more than `N` keys (`rebalance` is `steal_from_right`, which reports `true`) and
otherwise runs the merge with the right sibling; a rightmost child does the same with its
left sibling; a middle child takes from the left sibling when it holds more than `N` keys,
else from the right sibling when that one holds more than `N` keys, else runs the merge
with the left sibling.
(2) In a tree reached by public calls whose root is not a leaf, `erase` of a stored key
finds it in a leaf with at least `N` keys; when the leaf has exactly `N`, the removal
leaves `N - 1` keys, `rebalance` runs on that leaf, returns, and `erase` returns 1.
(3) Both merges end with `merge_tail` on the parent, and `merge_tail` hands a parent other
than the root that holds fewer than `N` keys to the same `rebalance`, and reports `false`
without a change otherwise. -/
theorem rebalance_policy (N : Nat) (hN : 0 < N) :
    (∀ (mwl mwr : ADS_set → Nat → Nat → Nat → Option Nat × Nat → Except Err (ADS_set × Bool))
      (s : ADS_set) (x a i key : Nat) (tw : Option Nat × Nat),
      (s.heap x).parent = some a → (s.heap x).keys_counter + 1 = N → i ≤ 2 * N →
      (i = 0 → ∀ y, (s.heap a).children 1 = some y →
        (N < (s.heap y).keys_counter →
          ADS_set.rebalance N mwl mwr s x i key tw =
            (ADS_set.steal_from_right N s x i tw >>= fun r => .ok r.1) ∧
          ∀ r, ADS_set.steal_from_right N s x i tw = .ok r → r.2 = true) ∧
        ((s.heap y).keys_counter ≤ N →
          ADS_set.rebalance N mwl mwr s x i key tw =
            (mwr s x i key tw >>= fun r => .ok r.1))) ∧
      (i ≠ 0 → i = (s.heap a).children_counter - 1 →
        ∀ w, (s.heap a).children (i - 1) = some w →
        (N < (s.heap w).keys_counter →
          ADS_set.rebalance N mwl mwr s x i key tw =
            (ADS_set.steal_from_left N s x i tw >>= fun r => .ok r.1) ∧
          ∀ r, ADS_set.steal_from_left N s x i tw = .ok r → r.2 = true) ∧
        ((s.heap w).keys_counter ≤ N →
          ADS_set.rebalance N mwl mwr s x i key tw =
            (mwl s x i key tw >>= fun r => .ok r.1))) ∧
      (i ≠ 0 → i ≠ (s.heap a).children_counter - 1 →
        ∀ w y, (s.heap a).children (i - 1) = some w → (s.heap a).children (i + 1) = some y →
        (N < (s.heap w).keys_counter →
          ADS_set.rebalance N mwl mwr s x i key tw =
            (ADS_set.steal_from_left N s x i tw >>= fun r => .ok r.1) ∧
          ∀ r, ADS_set.steal_from_left N s x i tw = .ok r → r.2 = true) ∧
        ((s.heap w).keys_counter ≤ N → N < (s.heap y).keys_counter →
          ADS_set.rebalance N mwl mwr s x i key tw =
            (ADS_set.steal_from_right N s x i tw >>= fun r => .ok r.1) ∧
          ∀ r, ADS_set.steal_from_right N s x i tw = .ok r → r.2 = true) ∧
        ((s.heap w).keys_counter ≤ N → (s.heap y).keys_counter ≤ N →
          ADS_set.rebalance N mwl mwr s x i key tw =
            (mwl s x i key tw >>= fun r => .ok r.1)))) ∧
    (∀ (s : ADS_set) (key : Nat), Reachable N s → ADS_set.count N s key = .ok 1 →
      (s.heap s.root).leaf = false →
      ∃ c tw m, ADS_set.find_leaf_with_twin N s.fuel s s.root key (none, 0) = .ok (c, tw) ∧
        ADS_set.binary_search_in_node N (s.heap c) key
          (ADS_set.search_fuel 0 ((s.heap c).keys_counter : Int)) 0
          ((s.heap c).keys_counter : Int) = .ok (m, true) ∧
        N ≤ (s.heap c).keys_counter ∧
        ((s.heap c).keys_counter = N →
          ∃ index s1 s2, ADS_set.index_from_parent N s c = .ok index ∧
            ADS_set.delete_element N s c m.toNat = .ok s1 ∧
            (s1.heap c).keys_counter + 1 = N ∧
            ADS_set.rebalance N (ADS_set.merge_with_left N s.fuel)
              (ADS_set.merge_with_right N s.fuel) s1 c index key tw = .ok s2 ∧
            ADS_set.erase N s key = .ok (s2, 1))) ∧
    (∀ (mwl mwr : ADS_set → Nat → Nat → Nat → Option Nat × Nat → Except Err (ADS_set × Bool))
      (s : ADS_set) (p key : Nat) (tw : Option Nat × Nat),
      ((s.heap p).keys_counter < N → p ≠ s.root →
        ADS_set.merge_tail N mwl mwr s p key tw =
          (ADS_set.index_from_parent N s p >>= fun ip =>
            ADS_set.rebalance N mwl mwr s p ip key tw >>= fun s1 => .ok (s1, true))) ∧
      (¬ ((s.heap p).keys_counter < N ∧ p ≠ s.root) →
        ADS_set.merge_tail N mwl mwr s p key tw = .ok (s, false))) ∧
    (∀ (f : Nat) (s : ADS_set) (c p i key : Nat) (tw : Option Nat × Nat),
      (s.heap c).parent = some p → i ≠ 0 → i ≤ 2 * N →
      ¬ (p = s.root ∧ (s.heap p).keys_counter = 1) →
      ADS_set.merge_with_left N (f + 1) s c i key tw =
        (ADS_set.merge_with_left_body N s c i key tw p ((s.heap p).children (i - 1)) >>=
          fun s1 => ADS_set.merge_tail N (ADS_set.merge_with_left N f)
            (ADS_set.merge_with_right N f) s1 p key tw)) ∧
    (∀ (f : Nat) (s : ADS_set) (c p i key : Nat) (tw : Option Nat × Nat),
      (s.heap c).parent = some p → i ≤ 2 * N →
      ¬ (p = s.root ∧ (s.heap p).keys_counter = 1) →
      ADS_set.merge_with_right N (f + 1) s c i key tw =
        (ADS_set.merge_with_right_body N s c i tw p ((s.heap p).children (i + 1)) >>=
          fun r => ADS_set.merge_tail N (ADS_set.merge_with_left N f)
            (ADS_set.merge_with_right N f) r.1 p key r.2)) :=
  ⟨fun mwl mwr s x a i key tw hp hk hi => rebalance_cases N mwl mwr s x a i key tw hp hk hi,
    fun s key h hk hroot => erase_underfull N hN s h key hk hroot,
    fun mwl mwr s p key tw => merge_tail_cases N mwl mwr s p key tw,
    fun f s c p i key tw hp h0 hi hnr =>
      merge_left_step N f s c p i key tw hp h0 (by omega) hnr,
    fun f s c p i key tw hp hi hnr =>
      merge_right_step N f s c p i key tw hp (by omega) hnr⟩

/-- At order 1, the leftmost leaf (address 1) of a root with two leaves is empty and its
right sibling holds 5 and 7, more than one key: `rebalance` is `steal_from_right`, after
which the leaves hold 5 and 7 and the separator is 7. -/
theorem rebalance_policy_witness :
    (ADS_set.rebalance 1 (ADS_set.merge_with_left 1 4) (ADS_set.merge_with_right 1 4)
        (ADS_set.two_leaves [] [5, 7] 5) 1 0 5 (none, 0) =
      (ADS_set.steal_from_right 1 (ADS_set.two_leaves [] [5, 7] 5) 1 0 (none, 0) >>=
        fun r => .ok r.1)) ∧
    (ADS_set.rebalance 1 (ADS_set.merge_with_left 1 4) (ADS_set.merge_with_right 1 4)
        (ADS_set.two_leaves [] [5, 7] 5) 1 0 5 (none, 0)).map
      (fun s => ((s.heap 1).live, (s.heap 2).live, (s.heap 0).live)) =
      .ok ([5], [7], [7]) :=
  ⟨((((rebalance_policy 1 (by decide)).1 (ADS_set.merge_with_left 1 4)
      (ADS_set.merge_with_right 1 4) (ADS_set.two_leaves [] [5, 7] 5) 1 0 0 5 (none, 0)
      rfl rfl (by decide)).1 rfl 2 rfl).1 (by decide)).1, by decide⟩


/-! ## Taking a key from a sibling -/

/-- The range of a child among its siblings: a key stored below any child of the row that
lies in the range of the child `c` is stored below `c`. -/
theorem ordKids_child_sep (d : Nat) :
    ∀ (ks : List Nat) (cs : List (BTree d)) (lo hi : Nat),
      OrdKids (fun l h c => KeyOrd d l h c) ks cs lo hi →
      ∀ c ∈ cs, ∃ l1 h1, KeyOrd d l1 h1 c ∧ lo ≤ l1 ∧ h1 ≤ hi ∧
        ∀ c1 ∈ cs, ∀ x ∈ BTree.contents d c1, l1 ≤ x → x < h1 → x ∈ BTree.contents d c
  | [], [c0], lo, hi, ho, c, hc => by
    simp only [List.mem_singleton] at hc
    subst hc
    refine ⟨lo, hi, ho.2, le_refl _, le_refl _, fun c1 hc1 x hx _ _ => ?_⟩
    simp only [List.mem_singleton] at hc1
    subst hc1
    exact hx
  | [], [], _, _, ho, _, _ => ho.elim
  | [], _ :: _ :: _, _, _, ho, _, _ => ho.elim
  | _ :: _, [], _, _, ho, _, _ => ho.elim
  | k :: ks, c0 :: cs1, lo, hi, ho, c, hc => by
    obtain ⟨hlo, hc0, htl⟩ := ho
    have hkhi := ordKids_lt _ ks cs1 k hi htl
    rcases List.mem_cons.mp hc with e | e
    · subst e
      refine ⟨lo, k, hc0, le_refl _, by omega, fun c1 hc1 x hx _ hxk => ?_⟩
      rcases List.mem_cons.mp hc1 with e1 | e1
      · subst e1
        exact hx
      · have := (ordKids_child_bounds d ks cs1 k hi htl c1 e1 x hx).1
        omega
    · obtain ⟨l1, h1, hk1, hl1, hh1, hrest⟩ := ordKids_child_sep d ks cs1 k hi htl c e
      refine ⟨l1, h1, hk1, by omega, hh1, fun c1 hc1 x hx hxl hxh => ?_⟩
      rcases List.mem_cons.mp hc1 with e1 | e1
      · subst e1
        have := ((contents_bounds d c1 lo k hc0).1 x hx).2
        omega
      · exact hrest c1 e1 x hx hxl hxh

/-- Every separator of a subtree lies strictly inside the range of the subtree. -/
theorem seps_bounds :
    ∀ (d : Nat) (t : BTree d) (lo hi : Nat), KeyOrd d lo hi t →
      ∀ x ∈ BTree.seps d t, lo < x ∧ x < hi := by
  intro d
  induction d with
  | zero =>
    intro t lo hi _ x hx
    simp [BTree.seps] at hx
  | succ d ih =>
    intro t lo hi ho x hx
    obtain ⟨a, ks, cs⟩ := t
    rw [keyOrd_succ] at ho
    rw [seps_succ, List.mem_append] at hx
    rcases hx with hx | hx
    · exact (ordKids_seps_sorted _ ks cs lo hi ho).2 x hx
    · rw [List.mem_flatten] at hx
      obtain ⟨_, hl, hx⟩ := hx
      obtain ⟨c, hc, rfl⟩ := List.mem_map.mp hl
      obtain ⟨l1, h1, hk1, hl1, hh1, _⟩ := ordKids_child_sep d ks cs lo hi ho c hc
      have := ih c l1 h1 hk1 x hx
      omega

/-- A separator that is stored below the row is stored below the child right of it. -/
theorem ordKids_sep_child (d : Nat) :
    ∀ (ks : List Nat) (cs : List (BTree d)) (lo hi : Nat),
      OrdKids (fun l h c => KeyOrd d l h c) ks cs lo hi →
      ∀ (i : Nat) (hi1 : i < ks.length) (h1 : i + 1 < cs.length),
        ∀ c1 ∈ cs, ks[i] ∈ BTree.contents d c1 → ks[i] ∈ BTree.contents d cs[i + 1]
  | [], _, _, _, _, i, hi1, _, _, _, _ => by simp at hi1
  | _ :: _, [], _, _, ho, _, _, _, _, _, _ => ho.elim
  | k :: ks, c0 :: cs1, lo, hi, ho, 0, _, h1, c1, hc1, hx => by
    obtain ⟨hlo, hc0, htl⟩ := ho
    simp only [List.getElem_cons_zero] at hx
    simp only [List.getElem_cons_zero, List.getElem_cons_succ]
    rcases List.mem_cons.mp hc1 with e1 | e1
    · subst e1
      have := ((contents_bounds d c1 lo k hc0).1 k hx).2
      omega
    · have h0 : 0 < cs1.length := by simpa using h1
      obtain ⟨l1, h1b, _, hl1, _, hrest⟩ := ordKids_child_sep d ks cs1 k hi htl cs1[0]
        (List.getElem_mem _)
      match ks, cs1, htl, h0, c1, e1, hx with
      | [], [c2], _, _, c1, e1, hx =>
        simp only [List.mem_singleton] at e1
        subst e1
        exact hx
      | k2 :: ks2, c2 :: cs2, htl, _, c1, e1, hx =>
        rcases List.mem_cons.mp e1 with e2 | e2
        · subst e2
          exact hx
        · have hk2 := htl.1
          have := (ordKids_child_bounds d ks2 cs2 k2 hi htl.2.2 c1 e2 k hx).1
          omega
  | k :: ks, c0 :: cs1, lo, hi, ho, i + 1, hi1, h1, c1, hc1, hx => by
    obtain ⟨hlo, hc0, htl⟩ := ho
    simp only [List.getElem_cons_succ] at hx ⊢
    have hi2 : i < ks.length := by simpa using hi1
    have hgt := (ordKids_seps_sorted _ ks cs1 k hi htl).2 ks[i] (List.getElem_mem _)
    rcases List.mem_cons.mp hc1 with e1 | e1
    · subst e1
      have := ((contents_bounds d c1 lo k hc0).1 _ hx).2
      omega
    · exact ordKids_sep_child d ks cs1 k hi htl i hi2 (by simpa using h1) c1 e1 hx

/-- In a tree every separator of which is a stored key, every separator is the least key
stored below the child right of it. -/
theorem sepmin_of_tree (N : Nat) (h : Nat → Node) :
    ∀ (d : Nat) (t : BTree d) (par nx : Option Nat) (mn lo hi : Nat),
      TreeAt h d par nx t → BalN N mn (2 * N) d t → KeyOrd d lo hi t →
      (∀ x ∈ BTree.seps d t, x ∈ BTree.contents d t) →
      ADS_set.sepmin_ok h d (BTree.addr d t) = true := by
  intro d
  induction d with
  | zero => intro t par nx mn lo hi _ _ _ _; rfl
  | succ d ih =>
    intro t par nx mn lo hi ht hb ho hs
    obtain ⟨a, ks, cs⟩ := t
    have htree := ht
    rw [treeAt_succ] at ht
    rw [balN_succ] at hb
    rw [keyOrd_succ] at ho
    obtain ⟨hn, hk⟩ := ht
    have hkc : (h a).keys_counter = ks.length := hn.2.1.1
    have hlen := hb.2.2.1
    have hmemc : ∀ x, x ∈ BTree.contents (d + 1) (a, ks, cs) →
        ∃ c ∈ cs, x ∈ BTree.contents d c := by
      intro x hx
      rw [contents_succ, List.mem_flatten] at hx
      obtain ⟨_, hl, hx⟩ := hx
      obtain ⟨c, hc, rfl⟩ := List.mem_map.mp hl
      exact ⟨c, hc, hx⟩
    have hall := range_children_all (h a) _ hn.2.2.1
      (fun o => match o with
        | some c => ADS_set.sepmin_ok h d c
        | none => false)
    have hkids : (cs.map (BTree.addr d)).all (fun c => ADS_set.sepmin_ok h d c) = true := by
      rw [List.all_eq_true]
      intro x hx
      obtain ⟨c, hc, rfl⟩ := List.mem_map.mp hx
      obtain ⟨n, hcT⟩ := kids_mem h d (some a) cs nx hk c hc
      obtain ⟨l1, h1, hco, _, _, hrest⟩ := ordKids_child_sep d ks cs lo hi ho c hc
      refine ih c (some a) n N l1 h1 hcT (hb.2.2.2 c hc) hco ?_
      intro y hy
      have hy1 : y ∈ BTree.seps (d + 1) (a, ks, cs) := by
        rw [seps_succ, List.mem_append, List.mem_flatten]
        exact Or.inr ⟨_, List.mem_map_of_mem _ hc, hy⟩
      obtain ⟨c1, hc1, hyc⟩ := hmemc y (hs y hy1)
      have hb1 := seps_bounds d c l1 h1 hco y hy
      exact hrest c1 hc1 y hyc (by omega) hb1.2
    have hlast : (List.range (h a).children_counter).all (fun i =>
        match (h a).children i with
        | some c => ADS_set.sepmin_ok h d c
        | none => false) = true := by
      rw [← hkids]
      exact hall
    have hfirst : (List.range (h a).keys_counter).all (fun i =>
        match (h a).children (i + 1) with
        | some c => (ADS_set.stored h d c).contains ((h a).keys i) &&
            (ADS_set.stored h d c).all (fun k => decide ((h a).keys i ≤ k))
        | none => false) = true := by
      rw [List.all_eq_true]
      intro i hi1
      rw [List.mem_range, hkc] at hi1
      have hci : i < cs.length := by omega
      have hci1 : i + 1 < cs.length := by omega
      have c1 := hn.child (i := i + 1) (by simpa using hci1)
      simp only [List.getElem_map] at c1
      have hki : (h a).keys i = ks[i] := (hn.2.1.getElem hi1).symm
      obtain ⟨n1, hT1⟩ := kids_mem h d (some a) cs nx hk cs[i + 1] (List.getElem_mem _)
      have s1 := stored_eq N h d cs[i + 1] (some a) n1 N hT1 (hb.2.2.2 _ (List.getElem_mem _))
      obtain ⟨_, b1⟩ := ordKids_index d ks cs lo hi ho i hi1 hci hci1
      have hsep : ks[i] ∈ BTree.seps (d + 1) (a, ks, cs) := by
        rw [seps_succ, List.mem_append]
        exact Or.inl (List.getElem_mem _)
      obtain ⟨c2, hc2, hin⟩ := hmemc _ (hs _ hsep)
      have hmem := ordKids_sep_child d ks cs lo hi ho i hi1 hci1 c2 hc2 hin
      rw [c1]
      simp only [s1, hki, Bool.and_eq_true, decide_eq_true_eq, List.all_eq_true]
      exact ⟨List.elem_eq_true_of_mem hmem, b1⟩
    simp only [ADS_set.sepmin_ok, BTree.addr, Bool.and_eq_true]
    exact ⟨hfirst, hlast⟩

/-- Insertions keep the tree well formed with every separator a stored key. -/
theorem run_ins_seps (N : Nat) (hN : 0 < N) :
    ∀ (ks : List Nat) (s : ADS_set) (d : Nat) (t : BTree d) (hi : Nat), GoodT N s d t hi →
      (∀ x ∈ BTree.seps d t, x ∈ BTree.contents d t) →
      ∃ s1 d1, ∃ t1 : BTree d1, ∃ hi1, ADS_set.run N (ks.map Op.ins) s = .ok s1 ∧
        GoodT N s1 d1 t1 hi1 ∧ (∀ x ∈ BTree.seps d1 t1, x ∈ BTree.contents d1 t1)
  | [], s, d, t, hi, g, hs => ⟨s, d, t, hi, rfl, g, hs⟩
  | k :: ks, s, d, t, hi, g, hs => by
    obtain ⟨s1, it, d1, t1, hi1, h1, g1, hm, _, _, hsp⟩ := insert_good_seps N hN s d t hi g k
    have hs1 : ∀ x ∈ BTree.seps d1 t1, x ∈ BTree.contents d1 t1 := by
      intro x hx
      rcases hsp x hx with h | h
      · exact (hm x).2 (Or.inr (hs x h))
      · exact h
    obtain ⟨s2, d2, t2, hi2, h2, g2, hs2⟩ := run_ins_seps N hN ks s1 d1 t1 hi1 g1 hs1
    refine ⟨s2, d2, t2, hi2, ?_, g2, hs2⟩
    simp [ADS_set.run, ADS_set.apply, h1, h2]

/-- C21: for order `N ≥ 1` and every list of keys, inserting them one after the other into
the empty tree returns, and in the tree that results every separator `keys[i]` of every
internal node is stored below `children[i+1]` and is the least key stored there. -/
theorem separators_are_minima (N : Nat) (hN : 0 < N) (ks : List Nat) :
    ∃ s, ADS_set.run N (ks.map Op.ins) ADS_set.init = .ok s ∧ 0 ≤ s.depth ∧
      ADS_set.sepmin_ok s.heap s.depth.toNat s.root = true := by
  obtain ⟨s, d, t, hi, h1, g, hs⟩ := run_ins_seps N hN ks ADS_set.init 0 (0, []) 0
    (init_good N) (fun x hx => by simp [BTree.seps] at hx)
  refine ⟨s, h1, by rw [g.depth_eq]; exact Int.natCast_nonneg d, ?_⟩
  have hd : s.depth.toNat = d := by rw [g.depth_eq]; rfl
  rw [hd, ← g.root_eq]
  exact sepmin_of_tree N s.heap d t none none _ 0 hi g.tree g.bal g.ord hs

/-- At order 1, after the insertion of 1 to 7 the tree has three levels and every separator
is the least key below the child right of it. -/
theorem separators_are_minima_witness :
    ∃ s, ADS_set.run 1 ([1, 2, 3, 4, 5, 6, 7].map Op.ins) ADS_set.init = .ok s ∧
      0 ≤ s.depth ∧ ADS_set.sepmin_ok s.heap s.depth.toNat s.root = true :=
  separators_are_minima 1 (by decide) [1, 2, 3, 4, 5, 6, 7]


namespace ADS_set

/-- C7: with `N = 1`, inserting 3 after 1 and 2 splits the root leaf; the call
returns the position (node 0, index 2), but node 0 keeps a single key afterwards and
`find(3)` is (node 2, index 1). -/
theorem insert_returns_stale_position_after_split :
    (do
      let s ← run 1 [.ins 1, .ins 2] init
      let (s1, (it, b)) ← insert 1 s 3
      let it1 ← find 1 s1 3
      pure (it, b, it1, (s1.heap it.current).keys_counter)) =
    Except.ok ((⟨0, 2⟩ : Iterator), true, (⟨2, 1⟩ : Iterator), 1) := by
  decide

/-- C10: with `N = 1`, after inserting 1, 2, 3, 4 the first separator of the root is
the least key of its right neighbour; `erase(2)` returns 1 and leaves the root with the
two separators 2 and 4, while the least key below `children[1]` is now 3. -/
theorem erase_leaves_stale_separator :
    (do
      let s ← run 1 [.ins 1, .ins 2, .ins 3, .ins 4] init
      let b0 ← separator_is_min 1 s s.root 0
      let (s1, r) ← erase 1 s 2
      let b1 ← separator_is_min 1 s1 s1.root 0
      let sep ← (s1.heap s1.root).getKey 1 0
      let c ← deref ((s1.heap s1.root).children 1)
      let m ← subtree_min 1 s1 c
      pure (b0, r, (s1.heap s1.root).leaf, (s1.heap s1.root).keys_counter, b1, sep, m)) =
    Except.ok (true, 1, false, 2, false, 2, 3) := by
  rfl

end ADS_set
